import Mathlib

/-!
# fastjson: tokenizer, writer and compiled codecs

A shallow embedding of the Go package `fastjson` (iterator.go, tables.go,
writer.go, encoder.go, decoder.go, marshal.go, unmarshal.go).

Conventions of the embedding:
* a byte is a `Nat` (the value of the Go `byte`), a byte slice or Go string is
  a `List Nat`;
* a method with a pointer receiver that mutates the receiver returns the new
  receiver next to its Go results;
* a Go `for` loop over the cursor becomes a function that recurses on a
  counter started at the number of bytes left, so that every definition is
  total and evaluates in the kernel;
* `int64` arithmetic is arithmetic on `Int` followed by `wrap64`.
-/

namespace Fastjson

/-! ## tables.go -/

def maskWhiteSpace : Nat := 1
def maskNumber : Nat := 2
def maskString : Nat := 4
def maskObjectStart : Nat := 8
def maskObjectEnd : Nat := 16
def maskArrayStart : Nat := 32
def maskArrayEnd : Nat := 64
def maskSeparator : Nat := 128

/-- The entry `parseTable[c]` as `init` fills it: the flags of byte `c`. -/
def parseTable (c : Nat) : Nat :=
  (if c = 32 ∨ c = 9 ∨ c = 13 ∨ c = 10 then maskWhiteSpace else 0) |||
  (if (48 ≤ c ∧ c ≤ 57) ∨ c = 45 ∨ c = 43 ∨ c = 46 ∨ c = 101 ∨ c = 69 then maskNumber else 0) |||
  (if c = 34 then maskString else 0) |||
  (if c = 123 then maskObjectStart
   else if c = 125 then maskObjectEnd
   else if c = 91 then maskArrayStart
   else if c = 93 then maskArrayEnd
   else if c = 58 ∨ c = 44 then maskSeparator
   else 0)

/-- The entry `stringTable[c]` as `init` fills it: 1 for the quote, the
backslash and the control bytes, 0 otherwise. -/
def stringTable (c : Nat) : Nat :=
  if c = 34 ∨ c = 92 ∨ c < 32 then 1 else 0

/-! ## iterator.go -/

/-- An error value. `at` is what `Iterator.error` builds: a message and the
cursor offset. `num` is the error `strconv.ParseFloat` returns, which carries
the offending text and no offset. -/
inductive Error where
  | at (msg : String) (offset : Nat)
  | num (text : List Nat)
  | other (msg : String)
  deriving DecidableEq, Repr

structure Iterator where
  head : Nat
  data : List Nat
  dataLen : Nat
  deriving DecidableEq, Repr

def NewIterator (data : List Nat) : Iterator :=
  { head := 0, data := data, dataLen := data.length }

/-- The Go slice expression `b[lo:hi]`. -/
def slice (b : List Nat) (lo hi : Nat) : List Nat :=
  (b.take hi).drop lo

/-- Go's `utf8.EncodeRune` (standard library): the bytes written for rune `r`.
Surrogates and values above `0x10FFFF` are written as U+FFFD. -/
def utf8EncodeRune (r : Nat) : List Nat :=
  if r ≤ 0x7F then [r]
  else if r ≤ 0x7FF then [0xC0 ||| (r >>> 6), 0x80 ||| (r &&& 0x3F)]
  else if r > 0x10FFFF ∨ (0xD800 ≤ r ∧ r ≤ 0xDFFF) then [0xEF, 0xBF, 0xBD]
  else if r ≤ 0xFFFF then
    [0xE0 ||| (r >>> 12), 0x80 ||| ((r >>> 6) &&& 0x3F), 0x80 ||| (r &&& 0x3F)]
  else
    [0xF0 ||| (r >>> 18), 0x80 ||| ((r >>> 12) &&& 0x3F), 0x80 ||| ((r >>> 6) &&& 0x3F),
      0x80 ||| (r &&& 0x3F)]

/-- The conversion `int64(x)` of a mathematical integer: reduction modulo
`2^64` into the signed range, which is what Go's `int64` arithmetic computes. -/
def wrap64 (x : Int) : Int :=
  (x + 9223372036854775808) % 18446744073709551616 - 9223372036854775808

namespace Iterator

/-- The byte `it.data[i]`. -/
def byteAt (it : Iterator) (i : Nat) : Nat :=
  it.data.getD i 0

def error (it : Iterator) (msg : String) : Error :=
  Error.at msg it.head

def skipWhiteSpaceLoop (it : Iterator) : Nat → Nat → Nat
  | 0, head => head
  | fuel + 1, head =>
    if head < it.dataLen then
      if parseTable (it.data.getD head 0) &&& maskWhiteSpace = 0 then head
      else skipWhiteSpaceLoop it fuel (head + 1)
    else head

def skipWhiteSpace (it : Iterator) : Iterator :=
  { it with head := skipWhiteSpaceLoop it (it.dataLen - it.head) it.head }

/-- The common body of the six structural matchers. -/
def readStructural (it : Iterator) (c : Nat) (msg : String) : Option Error × Iterator :=
  let it := it.skipWhiteSpace
  if it.head < it.dataLen ∧ it.byteAt it.head = c then
    (none, { it with head := it.head + 1 })
  else
    (some (it.error msg), it)

def ReadObjectStart (it : Iterator) : Option Error × Iterator :=
  it.readStructural 123 "expected '\x7b'"

def ReadObjectEnd (it : Iterator) : Option Error × Iterator :=
  it.readStructural 125 "expected '\x7d'"

def ReadArrayStart (it : Iterator) : Option Error × Iterator :=
  it.readStructural 91 "expected '['"

def ReadArrayEnd (it : Iterator) : Option Error × Iterator :=
  it.readStructural 93 "expected ']'"

def ReadComma (it : Iterator) : Option Error × Iterator :=
  it.readStructural 44 "expected ','"

def ReadColon (it : Iterator) : Option Error × Iterator :=
  it.readStructural 58 "expected ':'"

def ReadNull (it : Iterator) : Option Error × Iterator :=
  let it := it.skipWhiteSpace
  if it.head ≥ it.dataLen then
    (some (it.error "unexpected end of input"), it)
  else if it.byteAt it.head = 110 then
    if it.head + 3 ≤ it.dataLen ∧ slice it.data it.head (it.head + 3) = [110, 117, 108, 108] then
      (none, { it with head := it.head + 4 })
    else
      (some (it.error "expected 'null'"), it)
  else
    (some (it.error "expected null"), it)

/-- The digit loop of `ReadInt64`: returns the new head and the accumulator. -/
def readInt64Loop (it : Iterator) : Nat → Nat → Int → Nat × Int
  | 0, head, n => (head, n)
  | fuel + 1, head, n =>
    if head < it.dataLen then
      let c := it.data.getD head 0
      if 48 ≤ c ∧ c ≤ 57 then
        readInt64Loop it fuel (head + 1) (wrap64 (n * 10 + ((c : Int) - 48)))
      else (head, n)
    else (head, n)

/-- The `switch` of `ReadInt64` on the first byte: the sign flag, with the
cursor past a minus sign, or the error for a plus sign. -/
def readInt64Sign (it : Iterator) : Except Error Bool × Iterator :=
  if it.byteAt it.head = 45 then (.ok true, { it with head := it.head + 1 })
  else if it.byteAt it.head = 43 then
    (.error (it.error "leading '+' is not allowed in JSON numbers"), it)
  else (.ok false, it)

/-- The digit part of `ReadInt64`: a single zero (an error when a digit
follows it), or the accumulation loop. -/
def readInt64Digits (it : Iterator) : Except Error Int × Iterator :=
  if it.head < it.dataLen ∧ it.byteAt it.head = 48 then
    let it := { it with head := it.head + 1 }
    if it.head < it.dataLen ∧ 48 ≤ it.byteAt it.head ∧ it.byteAt it.head ≤ 57 then
      (.error (it.error "leading zero is not allowed in JSON Numbers"), it)
    else (.ok 0, it)
  else
    let r := readInt64Loop it (it.dataLen - it.head) it.head 0
    (.ok r.2, { it with head := r.1 })

/-- The end of `ReadInt64`, after the digits: the checks for an empty run and
for a float continuation, then the sign. -/
def readInt64Finish (it : Iterator) (start : Nat) (neg : Bool) (n : Int) :
    Except Error Int × Iterator :=
  if it.head = start then
    (.error (it.error "expected digit"), it)
  else if it.head < it.dataLen ∧
      (it.byteAt it.head = 46 ∨ it.byteAt it.head = 101 ∨ it.byteAt it.head = 69) then
    (.error (it.error "float found, expected integer"), it)
  else
    (.ok (if neg then wrap64 (-n) else n), it)

def ReadInt64 (it : Iterator) : Except Error Int × Iterator :=
  let it := it.skipWhiteSpace
  if it.head ≥ it.dataLen then
    (.error (it.error "unexpected end of input"), it)
  else
    match it.readInt64Sign with
    | (.error e, it) => (.error e, it)
    | (.ok neg, it) =>
      let start := it.head
      match it.readInt64Digits with
      | (.error e, it) => (.error e, it)
      | (.ok n, it) => it.readInt64Finish start neg n

/-- The scanning loop of `ReadFloat64` over the number-classified bytes. -/
def readFloat64Loop (it : Iterator) : Nat → Nat → Nat
  | 0, head => head
  | fuel + 1, head =>
    if head < it.dataLen then
      if parseTable (it.data.getD head 0) &&& maskNumber = 0 then head
      else readFloat64Loop it fuel (head + 1)
    else head

/-- `ReadFloat64`, with Go's `strconv.ParseFloat(s, 64)` as the parameter
`parseFloat` (`none` is its error result). -/
def ReadFloat64 {F : Type} (parseFloat : List Nat → Option F) (it : Iterator) :
    Except Error F × Iterator :=
  let it := it.skipWhiteSpace
  let start := it.head
  let it := { it with head := readFloat64Loop it (it.dataLen - it.head) it.head }
  if it.head = start then
    (.error (it.error "expected digit"), it)
  else
    let numStr := slice it.data start it.head
    match parseFloat numStr with
    | some f => (.ok f, it)
    | none => (.error (Error.num numStr), it)

def ReadBool (it : Iterator) : Except Error Bool × Iterator :=
  let it := it.skipWhiteSpace
  if it.head ≥ it.dataLen then
    (.error (it.error "unexpected end of input"), it)
  else if it.byteAt it.head = 116 then
    if it.head + 4 ≤ it.dataLen ∧ slice it.data it.head (it.head + 4) = [116, 114, 117, 101] then
      (.ok true, { it with head := it.head + 4 })
    else
      (.error (it.error "expected 'true'"), it)
  else if it.byteAt it.head = 102 then
    if it.head + 5 ≤ it.dataLen ∧
        slice it.data it.head (it.head + 5) = [102, 97, 108, 115, 101] then
      (.ok false, { it with head := it.head + 5 })
    else
      (.error (it.error "expected 'false'"), it)
  else
    (.error (it.error "expected boolean"), it)

/-- The 4-digit hexadecimal loop of `decodeUnicode`, reading `data[start+i]`
for `i = k, ..., 3` into the accumulator `r`; `none` is an invalid digit. -/
def decodeUnicodeLoop (it : Iterator) (start : Nat) : Nat → Nat → Nat → Option Nat
  | 0, _, r => some r
  | fuel + 1, i, r =>
    let c := it.byteAt (start + i)
    if 48 ≤ c ∧ c ≤ 57 then decodeUnicodeLoop it start fuel (i + 1) ((r <<< 4) ||| (c - 48))
    else if 97 ≤ c ∧ c ≤ 102 then decodeUnicodeLoop it start fuel (i + 1) ((r <<< 4) ||| (c - 97 + 10))
    else if 65 ≤ c ∧ c ≤ 70 then decodeUnicodeLoop it start fuel (i + 1) ((r <<< 4) ||| (c - 65 + 10))
    else none

def decodeUnicode (it : Iterator) : Except Error Nat :=
  let start := it.head + 1
  if start + 4 > it.data.length then
    .error (it.error "incomplete unicode escape")
  else
    match decodeUnicodeLoop it start 4 0 0 with
    | some r => .ok r
    | none => .error (it.error "invalid unicode hex digit")

/-- The `switch escape` of `readStringSlow`, with `it.head` on the escape
byte: the bytes to append and the cursor after the case, or the error. -/
def readEscape (it : Iterator) : Except Error (List Nat) × Iterator :=
  let escape := it.byteAt it.head
  if escape = 34 ∨ escape = 92 ∨ escape = 47 then (.ok [escape], it)
  else if escape = 98 then (.ok [8], it)
  else if escape = 102 then (.ok [12], it)
  else if escape = 110 then (.ok [10], it)
  else if escape = 114 then (.ok [13], it)
  else if escape = 116 then (.ok [9], it)
  else if escape = 117 then
    if it.head + 4 ≥ it.data.length then
      (.error (it.error "incomplete unicode escape"), it)
    else
      match it.decodeUnicode with
      | .error e => (.error e, it)
      | .ok r => (.ok (utf8EncodeRune r), { it with head := it.head + 4 })
  else (.error (it.error "invalid escape sequence"), it)

/-- The loop of `readStringSlow`; `out` is the buffer built so far. -/
def readStringSlowLoop : Nat → Iterator → List Nat → Except Error (List Nat) × Iterator
  | 0, it, _ => (.error (it.error "unexpected end of input in string"), it)
  | fuel + 1, it, out =>
    if it.head < it.data.length then
      let c := it.byteAt it.head
      if c = 34 then
        (.ok out, { it with head := it.head + 1 })
      else if c = 92 then
        let it := { it with head := it.head + 1 }
        if it.head ≥ it.data.length then
          (.error (it.error "unexpected end of input in escape"), it)
        else
          match it.readEscape with
          | (.error e, it) => (.error e, it)
          | (.ok bs, it) => readStringSlowLoop fuel { it with head := it.head + 1 } (out ++ bs)
      else if c < 32 then
        (.error (it.error "control character in string"), it)
      else
        readStringSlowLoop fuel { it with head := it.head + 1 } (out ++ [c])
    else
      (.error (it.error "unexpected end of input in string"), it)

def readStringSlow (it : Iterator) (start : Nat) : Except Error (List Nat) × Iterator :=
  readStringSlowLoop (it.data.length - it.head) it (slice it.data start it.head)

/-- The fast-path loop of `ReadString`. -/
def readStringLoop (start : Nat) : Nat → Iterator → Except Error (List Nat) × Iterator
  | 0, it => (.error (it.error "unexpected end of input"), it)
  | fuel + 1, it =>
    if it.head < it.dataLen then
      let c := it.byteAt it.head
      if stringTable c ≠ 0 then
        if c = 34 then
          (.ok (slice it.data start it.head), { it with head := it.head + 1 })
        else if c = 92 then
          it.readStringSlow start
        else if c < 32 then
          (.error (it.error "control character in string"), it)
        else
          readStringLoop start fuel { it with head := it.head + 1 }
      else
        readStringLoop start fuel { it with head := it.head + 1 }
    else
      (.error (it.error "unexpected end of input"), it)

def ReadString (it : Iterator) : Except Error (List Nat) × Iterator :=
  let it := it.skipWhiteSpace
  if it.head ≥ it.dataLen then
    (.error (it.error "unexpected end of input"), it)
  else if it.byteAt it.head ≠ 34 then
    (.error (it.error "expected start of string '\"'"), it)
  else
    let it := { it with head := it.head + 1 }
    readStringLoop it.head (it.dataLen - it.head) it

def char (it : Iterator) : Nat :=
  if it.head ≥ it.dataLen then 0 else it.byteAt it.head

end Iterator

/-! ## writer.go -/

structure Writer where
  Buffer : List Nat
  deriving DecidableEq, Repr

/-- The bytes of `hexChars = "0123456789abcdef"`. -/
def hexChars : List Nat :=
  [48, 49, 50, 51, 52, 53, 54, 55, 56, 57, 97, 98, 99, 100, 101, 102]

/-- The digit loop of Go's `strconv.formatBits` in base 10 (standard library):
the decimal digits of `u`, most significant first, pushed in front of `acc`. -/
def formatBits : Nat → Nat → List Nat → List Nat
  | 0, _, acc => acc
  | fuel + 1, u, acc =>
    if u ≥ 10 then formatBits fuel (u / 10) ((48 + u % 10) :: acc)
    else (48 + u) :: acc

/-- Go's `strconv.AppendUint(dst, u, 10)` for a 64-bit value, which has at
most 20 decimal digits. -/
def AppendUint (dst : List Nat) (u : Nat) : List Nat :=
  dst ++ formatBits 20 u []

/-- Go's `strconv.AppendInt(dst, i, 10)`: a minus sign for a negative value,
then the digits of the magnitude. -/
def AppendInt (dst : List Nat) (i : Int) : List Nat :=
  if i < 0 then AppendUint (dst ++ [45]) (-i).toNat else AppendUint dst i.toNat

namespace Writer

def Write (w : Writer) (p : List Nat) : Writer :=
  { Buffer := w.Buffer ++ p }

def WriteByte (w : Writer) (c : Nat) : Writer :=
  { Buffer := w.Buffer ++ [c] }

def WriteString (w : Writer) (s : List Nat) : Writer :=
  { Buffer := w.Buffer ++ s }

def writeEscapedChar (w : Writer) (c : Nat) : Writer :=
  if c = 34 then { Buffer := w.Buffer ++ [92, 34] }
  else if c = 92 then { Buffer := w.Buffer ++ [92, 92] }
  else if c = 8 then { Buffer := w.Buffer ++ [92, 98] }
  else if c = 12 then { Buffer := w.Buffer ++ [92, 102] }
  else if c = 10 then { Buffer := w.Buffer ++ [92, 110] }
  else if c = 13 then { Buffer := w.Buffer ++ [92, 114] }
  else if c = 9 then { Buffer := w.Buffer ++ [92, 116] }
  else if c < 32 then
    { Buffer := (w.Buffer ++ [92, 117, 48, 48]) ++
        [hexChars.getD (c >>> 4) 0, hexChars.getD (c &&& 15) 0] }
  else { Buffer := w.Buffer ++ [c] }

/-- The loop of `WriteStringEscaped` over the index `i`, with the start of
the pending unescaped run; returns the writer and the final `start`. -/
def writeStringEscapedLoop (s : List Nat) : Nat → Nat → Nat → Writer → Writer × Nat
  | 0, _, start, w => (w, start)
  | fuel + 1, i, start, w =>
    if i < s.length then
      if stringTable (s.getD i 0) ≠ 0 then
        let w := if i > start then { Buffer := w.Buffer ++ slice s start i } else w
        let w := w.writeEscapedChar (s.getD i 0)
        writeStringEscapedLoop s fuel (i + 1) (i + 1) w
      else
        writeStringEscapedLoop s fuel (i + 1) start w
    else (w, start)

def WriteStringEscaped (w : Writer) (s : List Nat) : Writer :=
  let w : Writer := { Buffer := w.Buffer ++ [34] }
  let r := writeStringEscapedLoop s s.length 0 0 w
  let w := r.1
  let start := r.2
  let w : Writer := if start < s.length then { Buffer := w.Buffer ++ slice s start s.length } else w
  { Buffer := w.Buffer ++ [34] }

def WriteInt64 (w : Writer) (n : Int) : Writer :=
  { Buffer := AppendInt w.Buffer n }

def WriteUint64 (w : Writer) (n : Nat) : Writer :=
  { Buffer := AppendUint w.Buffer n }

/-- `WriteFloat64`, with Go's `strconv.AppendFloat(b, n, 'f', -1, 64)` as the
parameter `appendFloat` (the text it appends for `n`). -/
def WriteFloat64 {F : Type} (appendFloat : F → List Nat) (w : Writer) (n : F) : Writer :=
  { Buffer := w.Buffer ++ appendFloat n }

def WriteBool (w : Writer) (b : Bool) : Writer :=
  if b then { Buffer := w.Buffer ++ [116, 114, 117, 101] }
  else { Buffer := w.Buffer ++ [102, 97, 108, 115, 101] }

def WriteNull (w : Writer) : Writer :=
  { Buffer := w.Buffer ++ [110, 117, 108, 108] }

end Writer

/-! ## reflect: types and values

The compiled routines work on a `reflect.Type` and on the memory behind an
`unsafe.Pointer`. In the embedding a type is a `Ty` and the memory at an
address holding a value of that type is a `Val`: a routine that writes through
the pointer returns the new content. Values are trees, so two pointers never
alias. -/

mutual
/-- A `reflect.Type`, by kind. `other` stands for every kind the codec has no
case for (`int8`, `uint`, `float32`, arrays, channels, ...), with its name.
`definedString` is a defined type whose underlying type is `string`
(`type K string`): it has the kind of `string` and is another type than
`string`, which `SetMapIndex` tells apart. The other defined types behave as
their underlying types everywhere and stand under these. A `Ty` is a finite
tree: a type that contains itself, behind a pointer, a slice or a map, is no
`Ty`; the compilers on such types are in the section on type handles. -/
inductive Ty where
  | string
  | definedString (name : String)
  | int
  | int64
  | int32
  | float64
  | bool
  | iface
  | struct (fields : List Field)
  | slice (elem : Ty)
  | map (key : Ty) (elem : Ty)
  | ptr (elem : Ty)
  | other (kind : String)
/-- A `reflect.StructField`: the declared name, the value `field.Tag.Get("json")`
of the tag (empty when there is none), and the type. The offset of the field
is its position in the list. -/
inductive Field where
  | mk (name : List Nat) (tag : List Nat) (type : Ty)
end

/-- The result of `t.Kind()`, as `%s` prints it. -/
def Ty.kind : Ty → String
  | .string => "string"
  | .definedString _ => "string"
  | .int => "int"
  | .int64 => "int64"
  | .int32 => "int32"
  | .float64 => "float64"
  | .bool => "bool"
  | .iface => "interface"
  | .struct _ => "struct"
  | .slice _ => "slice"
  | .map _ _ => "map"
  | .ptr _ => "ptr"
  | .other k => k

/-- The functions of Go's `strconv` on `float64` that the codec calls, over a
type `F` of floats: `ParseFloat(s, 64)` (`none` is its error result) and
`AppendFloat(b, f, 'f', -1, 64)` (the text appended); `zero` is `0.0`. -/
structure FloatLib (F : Type) where
  ParseFloat : List Nat → Option F
  AppendFloat : F → List Nat
  zero : F

/-- The content of memory, by shape. `int` holds the value of an `int`,
`int64` or `int32`. A slice is its header: `nilSlice` has no storage, `slice
len store` has length `len` and the backing array `store`, whose length is the
capacity. A map lists its entries, with distinct keys, in the order in which a
range over it visits them. An interface holds a value with its dynamic type. -/
inductive Val (F : Type) where
  | str (s : List Nat)
  | int (n : Int)
  | float (f : F)
  | bool (b : Bool)
  | nilIface
  | iface (t : Ty) (v : Val F)
  | struct (fields : List (Val F))
  | nilSlice
  | slice (len : Nat) (store : List (Val F))
  | nilMap
  | map (entries : List (List Nat × Val F))
  | nilPtr
  | ptr (v : Val F)

mutual
/-- The zero value of a type, as `reflect.New` and `reflect.MakeSlice` give it. -/
def Ty.zero {F : Type} (fl : FloatLib F) : Ty → Val F
  | .string => .str []
  | .definedString _ => .str []
  | .int => .int 0
  | .int64 => .int 0
  | .int32 => .int 0
  | .float64 => .float fl.zero
  | .bool => .bool false
  | .iface => .nilIface
  | .struct fields => .struct (Ty.zeroFields fl fields)
  | .slice _ => .nilSlice
  | .map _ _ => .nilMap
  | .ptr _ => .nilPtr
  | .other _ => .int 0
/-- The zero values of the fields of a struct. -/
def Ty.zeroFields {F : Type} (fl : FloatLib F) : List Field → List (Val F)
  | [] => []
  | f :: rest => Ty.zeroField fl f :: Ty.zeroFields fl rest
/-- The zero value of a field. -/
def Ty.zeroField {F : Type} (fl : FloatLib F) : Field → Val F
  | .mk _ _ t => Ty.zero fl t
end

/-- The conversion `int32(x)`: reduction modulo `2^32` into the signed range. -/
def wrap32 (x : Int) : Int :=
  (x + 2147483648) % 4294967296 - 2147483648

/-- The wire name of a field in `compileStructDecoder` and
`compileStructEncoder`: the part of the tag before the first comma when the
tag and that part are not empty, the declared name otherwise. -/
def wireName (name tag : List Nat) : List Nat :=
  if tag ≠ [] then
    let parts0 := tag.takeWhile (fun c => c ≠ 44)
    if parts0 ≠ [] then parts0 else name
  else name

/-- The error of a routine that runs out of its iteration bound. The bound of
every loop is the number of bytes left plus one, and every round consumes a
byte, so this value is never returned (see the theorems on each loop). -/
def outOfFuel : Error := Error.other "iteration bound reached"

/-- The outcome of a routine that is handed memory of another shape than the
type it was compiled for. The Go code then reads or writes foreign memory;
that behaviour is outside this model. -/
def badMemory : Error := Error.other "memory of another shape"

/-- The run-time panic of a nil pointer dereference. -/
def nilDeref : Error := Error.other "invalid memory address or nil pointer dereference"

/-- The run-time panic of `SetMapIndex` when the key handed to it, a value of
type `string`, is not assignable to the key type of the map. -/
def notAssignable : Error :=
  Error.other "reflect.Value.SetMapIndex: value of type string is not assignable to the key type"

mutual
/-- Identity of types, the key comparison of the routine caches. -/
def Ty.beq : Ty → Ty → Bool
  | .string, .string => true
  | .definedString k, .definedString l => decide (k = l)
  | .int, .int => true
  | .int64, .int64 => true
  | .int32, .int32 => true
  | .float64, .float64 => true
  | .bool, .bool => true
  | .iface, .iface => true
  | .struct fs, .struct gs => Ty.beqFields fs gs
  | .slice a, .slice b => Ty.beq a b
  | .map k a, .map l b => Ty.beq k l && Ty.beq a b
  | .ptr a, .ptr b => Ty.beq a b
  | .other k, .other l => decide (k = l)
  | _, _ => false
/-- Identity of field lists. -/
def Ty.beqFields : List Field → List Field → Bool
  | [], [] => true
  | f :: fs, g :: gs => Ty.beqField f g && Ty.beqFields fs gs
  | _, _ => false
/-- Identity of fields. -/
def Ty.beqField : Field → Field → Bool
  | .mk n t a, .mk m u b => decide (n = m) && decide (t = u) && Ty.beq a b
end

mutual
/-- The number of nodes of a value, a bound on the nesting of interfaces in it. -/
def Val.size {F : Type} : Val F → Nat
  | .iface _ v => v.size + 1
  | .struct fields => Val.sizeList fields + 1
  | .slice _ store => Val.sizeList store + 1
  | .map entries => Val.sizeEntries entries + 1
  | .ptr v => v.size + 1
  | _ => 1
/-- The number of nodes of a list of values. -/
def Val.sizeList {F : Type} : List (Val F) → Nat
  | [] => 0
  | v :: rest => v.size + Val.sizeList rest
/-- The number of nodes of the values of a list of map entries. -/
def Val.sizeEntries {F : Type} : List (List Nat × Val F) → Nat
  | [] => 0
  | (_, v) :: rest => v.size + Val.sizeEntries rest
end

/-- The length field of the slice header at an address. -/
def Val.sliceLen {F : Type} : Val F → Nat
  | .slice len _ => len
  | _ => 0

/-- The backing array of the slice header at an address; its length is the
capacity field. -/
def Val.sliceStore {F : Type} : Val F → List (Val F)
  | .slice _ store => store
  | _ => []

/-- `mapVal.SetMapIndex(key, elem)` on the entries of a map: the value of an
existing key is replaced, a new key is added. -/
def setMapIndex {F : Type} : List (List Nat × Val F) → List Nat → Val F → List (List Nat × Val F)
  | [], key, v => [(key, v)]
  | (k, x) :: rest, key, v =>
    if k = key then (k, v) :: rest else (k, x) :: setMapIndex rest key v

/-! ## decoder.go -/

/-- A compiled decoder: from the iterator and the memory at `p` to the error,
the iterator and the memory at `p` afterwards. -/
abbrev DecoderFunc (F : Type) := Iterator → Val F → Option Error × Iterator × Val F

def decodeString {F : Type} : DecoderFunc F := fun it p =>
  match it.ReadString with
  | (.error err, it) => (some err, it, p)
  | (.ok s, it) => (none, it, .str s)

def decodeInt64 {F : Type} : DecoderFunc F := fun it p =>
  match it.ReadInt64 with
  | (.error err, it) => (some err, it, p)
  | (.ok i, it) => (none, it, .int i)

def decodeInt32 {F : Type} : DecoderFunc F := fun it p =>
  match it.ReadInt64 with
  | (.error err, it) => (some err, it, p)
  | (.ok i, it) => (none, it, .int (wrap32 i))

def decodeFloat64 {F : Type} (fl : FloatLib F) : DecoderFunc F := fun it p =>
  match it.ReadFloat64 fl.ParseFloat with
  | (.error err, it) => (some err, it, p)
  | (.ok f, it) => (none, it, .float f)

def decodeBool {F : Type} : DecoderFunc F := fun it p =>
  match it.ReadBool with
  | (.error err, it) => (some err, it, p)
  | (.ok b, it) => (none, it, .bool b)

/-- The growth step of the slice decoder: a new backing array of twice the
capacity (8 for capacity 0), zeroed, with the `Len` elements copied. -/
def growSlice {F : Type} (zero : Val F) (header : Val F) : Val F :=
  let newCap := if header.sliceStore.length * 2 = 0 then 8 else header.sliceStore.length * 2
  .slice header.sliceLen
    (header.sliceStore.take header.sliceLen ++ List.replicate (newCap - header.sliceLen) zero)

/-- The `for` loop of the routine `compileSliceDecoder` returns, on the slice
header `header`. -/
def sliceDecodeLoop {F : Type} (zero : Val F) (elemDec : DecoderFunc F) :
    Nat → Iterator → Val F → Option Error × Iterator × Val F
  | 0, it, header => (some outOfFuel, it, header)
  | fuel + 1, it, header =>
    let it := it.skipWhiteSpace
    if it.head < it.dataLen ∧ it.byteAt it.head = 93 then
      (none, { it with head := it.head + 1 }, header)
    else
      let header :=
        if header.sliceLen ≥ header.sliceStore.length then growSlice zero header else header
      match elemDec it (header.sliceStore.getD header.sliceLen zero) with
      | (some err, it, v) =>
        (some err, it, .slice header.sliceLen (header.sliceStore.set header.sliceLen v))
      | (none, it, v) =>
        let header : Val F :=
          .slice (header.sliceLen + 1) (header.sliceStore.set header.sliceLen v)
        let it := it.skipWhiteSpace
        if it.head < it.dataLen ∧ it.byteAt it.head = 44 then
          sliceDecodeLoop zero elemDec fuel { it with head := it.head + 1 } header
        else if it.head < it.dataLen ∧ it.byteAt it.head = 93 then
          (none, { it with head := it.head + 1 }, header)
        else
          (some (it.error "expected ',' or ']'"), it, header)

/-- The routine `compileSliceDecoder` returns, given the decoder and the zero
value of the element type. -/
def sliceDecoder {F : Type} (zero : Val F) (elemDec : DecoderFunc F) : DecoderFunc F :=
  fun it p =>
    match it.ReadArrayStart with
    | (some err, it) => (some err, it, p)
    | (none, it) =>
      match p with
      | .nilSlice => sliceDecodeLoop zero elemDec (it.dataLen - it.head + 1) it .nilSlice
      | .slice _ store =>
        sliceDecodeLoop zero elemDec (it.dataLen - it.head + 1) it (.slice 0 store)
      | _ => (some badMemory, it, p)

/-- The `for` loop of the routine `compileMapDecoder` returns, on the entries
of the map. The key read is a `string`; `keyIsString` says that the key type of
the map is `string` itself, and `SetMapIndex` panics when it is not. -/
def mapDecodeLoop {F : Type} (keyIsString : Bool) (zero : Val F) (elemDec : DecoderFunc F) :
    Nat → Iterator → List (List Nat × Val F) → Option Error × Iterator × List (List Nat × Val F)
  | 0, it, m => (some outOfFuel, it, m)
  | fuel + 1, it, m =>
    let it := it.skipWhiteSpace
    if it.head < it.dataLen ∧ it.byteAt it.head = 125 then
      (none, { it with head := it.head + 1 }, m)
    else
      match it.ReadString with
      | (.error err, it) => (some err, it, m)
      | (.ok key, it) =>
        match it.ReadColon with
        | (some err, it) => (some err, it, m)
        | (none, it) =>
          match elemDec it zero with
          | (some err, it, _) => (some err, it, m)
          | (none, it, v) =>
            if keyIsString then
              let m := setMapIndex m key v
              let it := it.skipWhiteSpace
              if it.head < it.dataLen ∧ it.byteAt it.head = 44 then
                mapDecodeLoop keyIsString zero elemDec fuel { it with head := it.head + 1 } m
              else if it.head < it.dataLen ∧ it.byteAt it.head = 125 then
                (none, { it with head := it.head + 1 }, m)
              else
                (some (it.error "expected ',' or '\x7d'"), it, m)
            else (some notAssignable, it, m)

/-- The routine `compileMapDecoder` returns, for a map type whose key type is
`string` (`keyIsString`) or a defined type of the kind of `string`. -/
def mapDecoder {F : Type} (keyIsString : Bool) (zero : Val F) (elemDec : DecoderFunc F) :
    DecoderFunc F :=
  fun it p =>
    match it.ReadObjectStart with
    | (some err, it) => (some err, it, p)
    | (none, it) =>
      match p with
      | .nilMap =>
        let r := mapDecodeLoop keyIsString zero elemDec (it.dataLen - it.head + 1) it []
        (r.1, r.2.1, .map r.2.2)
      | .map m =>
        let r := mapDecodeLoop keyIsString zero elemDec (it.dataLen - it.head + 1) it m
        (r.1, r.2.1, .map r.2.2)
      | _ => (some badMemory, it, p)

/-- The routine `compileDecoder` returns for a pointer type. -/
def ptrDecoder {F : Type} (zero : Val F) (elemDec : DecoderFunc F) : DecoderFunc F :=
  fun it p =>
    match p with
    | .nilPtr =>
      let r := elemDec it zero
      (r.1, r.2.1, .ptr r.2.2)
    | .ptr v =>
      let r := elemDec it v
      (r.1, r.2.1, .ptr r.2.2)
    | _ => (some badMemory, it, p)

structure fieldInfo (F : Type) where
  offset : Nat
  decoder : DecoderFunc F

/-- The lookup `fieldMap[key]`. The map is kept as the list of its
assignments, latest first, so that a later field with the same wire name
shadows an earlier one, as assignment to a Go map does. -/
def fieldMapLookup {F : Type} : List (List Nat × fieldInfo F) → List Nat → Option (fieldInfo F)
  | [], _ => none
  | (name, info) :: rest, key => if name = key then some info else fieldMapLookup rest key

/-! ### SkipValue -/

namespace Iterator

/-- A literal, matched byte for byte at the cursor. -/
def skipLiteral (it : Iterator) (lit : List Nat) (msg : String) : Option Error × Iterator :=
  if it.head + lit.length ≤ it.dataLen ∧ slice it.data it.head (it.head + lit.length) = lit then
    (none, { it with head := it.head + lit.length })
  else (some (it.error msg), it)

/-- The cursor after the run of decimal digits at `head`. -/
def skipDigitsLoop (it : Iterator) : Nat → Nat → Nat
  | 0, head => head
  | fuel + 1, head =>
    if head < it.dataLen ∧ 48 ≤ it.data.getD head 0 ∧ it.data.getD head 0 ≤ 57 then
      skipDigitsLoop it fuel (head + 1)
    else head

def skipDigits (it : Iterator) : Iterator :=
  { it with head := it.skipDigitsLoop (it.dataLen - it.head) it.head }

/-- The optional minus sign of a number. -/
def skipSign (it : Iterator) : Iterator :=
  if it.head < it.dataLen ∧ it.byteAt it.head = 45 then { it with head := it.head + 1 } else it

/-- The integer part of a number: a single zero, or a non-empty run of digits. -/
def skipInt (it : Iterator) : Option Iterator :=
  if it.head < it.dataLen ∧ it.byteAt it.head = 48 then some { it with head := it.head + 1 }
  else if it.skipDigits.head = it.head then none
  else some it.skipDigits

/-- The optional fraction of a number: a point and a non-empty run of digits. -/
def skipFrac (it : Iterator) : Option Iterator :=
  if it.head < it.dataLen ∧ it.byteAt it.head = 46 then
    let it := { it with head := it.head + 1 }
    if it.skipDigits.head = it.head then none else some it.skipDigits
  else some it

/-- The optional sign of an exponent. -/
def skipExpSign (it : Iterator) : Iterator :=
  if it.head < it.dataLen ∧ (it.byteAt it.head = 43 ∨ it.byteAt it.head = 45) then
    { it with head := it.head + 1 }
  else it

/-- The optional exponent of a number: `e` or `E`, an optional sign and a
non-empty run of digits. -/
def skipExp (it : Iterator) : Option Iterator :=
  if it.head < it.dataLen ∧ (it.byteAt it.head = 101 ∨ it.byteAt it.head = 69) then
    let it := Iterator.skipExpSign { it with head := it.head + 1 }
    if it.skipDigits.head = it.head then none else some it.skipDigits
  else some it

/-- A number of the JSON grammar at the cursor: an optional minus sign, an
integer part without leading zero, an optional fraction and an optional
exponent. -/
def skipNumber (it : Iterator) : Option Error × Iterator :=
  match it.skipSign.skipInt with
  | none => (some (it.error "expected digit"), it)
  | some it1 =>
    match it1.skipFrac with
    | none => (some (it1.error "expected digit"), it1)
    | some it2 =>
      match it2.skipExp with
      | none => (some (it2.error "expected digit"), it2)
      | some it3 => (none, it3)

mutual
/-- Modelled from the spec: `SkipValue`, the value-skip operation of the
tokenizer, which the struct decoder calls for an unknown key and whose source
is not part of the repository files at hand. The spec asks it to "skip the
value entirely", "any JSON value shape, including nested containers of
arbitrary depth, consuming exactly one value". It is modelled as a recursive
descent over the JSON grammar with the classification of `readValue`: strings
through `ReadString`, the three literals byte for byte, numbers by the number
grammar, arrays and objects element by element. The first argument bounds the
number of nested calls. -/
def skipValueFuel : Nat → Iterator → Option Error × Iterator
  | 0, it => (some outOfFuel, it)
  | fuel + 1, it =>
    let it := it.skipWhiteSpace
    if it.head ≥ it.dataLen then (some (it.error "unexpected end of JSON"), it)
    else
      let c := it.byteAt it.head
      if c = 34 then
        match it.ReadString with
        | (.error err, it) => (some err, it)
        | (.ok _, it) => (none, it)
      else if c = 123 then
        let it := { it with head := it.head + 1 }
        let it := it.skipWhiteSpace
        if it.head < it.dataLen ∧ it.byteAt it.head = 125 then
          (none, { it with head := it.head + 1 })
        else skipObjectLoop fuel it
      else if c = 91 then
        let it := { it with head := it.head + 1 }
        let it := it.skipWhiteSpace
        if it.head < it.dataLen ∧ it.byteAt it.head = 93 then
          (none, { it with head := it.head + 1 })
        else skipArrayLoop fuel it
      else if c = 116 then it.skipLiteral [116, 114, 117, 101] "expected 'true'"
      else if c = 102 then it.skipLiteral [102, 97, 108, 115, 101] "expected 'false'"
      else if c = 110 then it.skipLiteral [110, 117, 108, 108] "expected 'null'"
      else if c = 45 ∨ (48 ≤ c ∧ c ≤ 57) then it.skipNumber
      else (some (it.error "unexpected character"), it)
/-- The members of an object, after the opening brace. -/
def skipObjectLoop : Nat → Iterator → Option Error × Iterator
  | 0, it => (some outOfFuel, it)
  | fuel + 1, it =>
    match it.ReadString with
    | (.error err, it) => (some err, it)
    | (.ok _, it) =>
      match it.ReadColon with
      | (some err, it) => (some err, it)
      | (none, it) =>
        match skipValueFuel fuel it with
        | (some err, it) => (some err, it)
        | (none, it) =>
          let it := it.skipWhiteSpace
          if it.head < it.dataLen ∧ it.byteAt it.head = 44 then
            skipObjectLoop fuel { it with head := it.head + 1 }
          else if it.head < it.dataLen ∧ it.byteAt it.head = 125 then
            (none, { it with head := it.head + 1 })
          else (some (it.error "expected ',' or '\x7d'"), it)
/-- The elements of an array, after the opening bracket. -/
def skipArrayLoop : Nat → Iterator → Option Error × Iterator
  | 0, it => (some outOfFuel, it)
  | fuel + 1, it =>
    match skipValueFuel fuel it with
    | (some err, it) => (some err, it)
    | (none, it) =>
      let it := it.skipWhiteSpace
      if it.head < it.dataLen ∧ it.byteAt it.head = 44 then
        skipArrayLoop fuel { it with head := it.head + 1 }
      else if it.head < it.dataLen ∧ it.byteAt it.head = 93 then
        (none, { it with head := it.head + 1 })
      else (some (it.error "expected ',' or ']'"), it)
end

/-- Modelled from the spec: `SkipValue` (see `skipValueFuel`), with a bound
on nested calls that no input reaches: every nested call follows the
consumption of a byte. -/
def SkipValue (it : Iterator) : Option Error × Iterator :=
  skipValueFuel (2 * (it.dataLen - it.head) + 2) it

end Iterator

/-- The branch of the loop of the struct decoder on `fieldMap[key]`: the
decoder of the field on the field's memory, or `SkipValue`. -/
def structDecodeField {F : Type} (fieldMap : List (List Nat × fieldInfo F)) (key : List Nat)
    (it : Iterator) (p : List (Val F)) : Option Error × Iterator × List (Val F) :=
  match fieldMapLookup fieldMap key with
  | some info =>
    let r := info.decoder it (p.getD info.offset .nilIface)
    (r.1, r.2.1, p.set info.offset r.2.2)
  | none =>
    let r := it.SkipValue
    (r.1, r.2, p)

/-- The `for` loop of the routine `compileStructDecoder` returns, on the
fields of the struct at `p`. -/
def structDecodeLoop {F : Type} (fieldMap : List (List Nat × fieldInfo F)) :
    Nat → Iterator → List (Val F) → Option Error × Iterator × List (Val F)
  | 0, it, p => (some outOfFuel, it, p)
  | fuel + 1, it, p =>
    let it := it.skipWhiteSpace
    if it.head < it.dataLen ∧ it.byteAt it.head = 125 then
      (none, { it with head := it.head + 1 }, p)
    else
      match it.ReadString with
      | (.error err, it) => (some err, it, p)
      | (.ok key, it) =>
        match it.ReadColon with
        | (some err, it) => (some err, it, p)
        | (none, it) =>
          let it := it.skipWhiteSpace
          match structDecodeField fieldMap key it p with
          | (some err, it, p) => (some err, it, p)
          | (none, it, p) =>
            let it := it.skipWhiteSpace
            if it.head < it.dataLen ∧ it.byteAt it.head = 44 then
              structDecodeLoop fieldMap fuel { it with head := it.head + 1 } p
            else if it.head < it.dataLen ∧ it.byteAt it.head = 125 then
              (none, { it with head := it.head + 1 }, p)
            else
              (some (it.error "expected ',' or '\x7d'"), it, p)

/-- The routine `compileStructDecoder` returns, given the field map. -/
def structDecoder {F : Type} (fieldMap : List (List Nat × fieldInfo F)) : DecoderFunc F :=
  fun it p =>
    match it.ReadObjectStart with
    | (some err, it) => (some err, it, p)
    | (none, it) =>
      match p with
      | .struct fields =>
        let r := structDecodeLoop fieldMap (it.dataLen - it.head + 1) it fields
        (r.1, r.2.1, .struct r.2.2)
      | _ => (some badMemory, it, p)

mutual
/-- The generic reader `readValue`; the first argument bounds the number of
nested calls. The result is the `any` returned. -/
def readValueFuel {F : Type} (fl : FloatLib F) : Nat → Iterator → Except Error (Val F) × Iterator
  | 0, it => (.error outOfFuel, it)
  | fuel + 1, it =>
    let it := it.skipWhiteSpace
    if it.head ≥ it.dataLen then (.error (it.error "unexpected end of JSON"), it)
    else
      let c := it.byteAt it.head
      if c = 34 then
        match it.ReadString with
        | (.error err, it) => (.error err, it)
        | (.ok s, it) => (.ok (.iface .string (.str s)), it)
      else if c = 123 then readGenericMapFuel fl fuel it
      else if c = 91 then readGenericSliceFuel fl fuel it
      else if c = 116 ∨ c = 102 then
        match it.ReadBool with
        | (.error err, it) => (.error err, it)
        | (.ok b, it) => (.ok (.iface .bool (.bool b)), it)
      else if c = 110 then
        match it.ReadNull with
        | (some err, it) => (.error err, it)
        | (none, it) => (.ok .nilIface, it)
      else if c = 45 ∨ (48 ≤ c ∧ c ≤ 57) then
        match it.ReadFloat64 fl.ParseFloat with
        | (.error err, it) => (.error err, it)
        | (.ok f, it) => (.ok (.iface .float64 (.float f)), it)
      else
        (.error (it.error ("unexpected character: " ++ String.singleton (Char.ofNat c))), it)
/-- The reader `readGenericMap`: a `map[string]any`. -/
def readGenericMapFuel {F : Type} (fl : FloatLib F) :
    Nat → Iterator → Except Error (Val F) × Iterator
  | 0, it => (.error outOfFuel, it)
  | fuel + 1, it =>
    match it.ReadObjectStart with
    | (some err, it) => (.error err, it)
    | (none, it) =>
      let it := it.skipWhiteSpace
      if it.head < it.dataLen ∧ it.byteAt it.head = 125 then
        (.ok (.iface (.map .string .iface) (.map [])), { it with head := it.head + 1 })
      else
        match readGenericMapLoop fl fuel it [] with
        | (.error err, it) => (.error err, it)
        | (.ok m, it) => (.ok (.iface (.map .string .iface) (.map m)), it)
/-- The `for` loop of `readGenericMap`. -/
def readGenericMapLoop {F : Type} (fl : FloatLib F) : Nat → Iterator →
    List (List Nat × Val F) → Except Error (List (List Nat × Val F)) × Iterator
  | 0, it, _ => (.error outOfFuel, it)
  | fuel + 1, it, m =>
    match it.ReadString with
    | (.error err, it) => (.error err, it)
    | (.ok key, it) =>
      match it.ReadColon with
      | (some err, it) => (.error err, it)
      | (none, it) =>
        match readValueFuel fl fuel it with
        | (.error err, it) => (.error err, it)
        | (.ok val, it) =>
          let m := setMapIndex m key val
          let it := it.skipWhiteSpace
          if it.head < it.dataLen ∧ it.byteAt it.head = 44 then
            readGenericMapLoop fl fuel { it with head := it.head + 1 } m
          else if it.head < it.dataLen ∧ it.byteAt it.head = 125 then
            (.ok m, { it with head := it.head + 1 })
          else (.error (it.error "expected ',' or '\x7d'"), it)
/-- The reader `readGenericSlice`: a `[]any`. The capacity of the result is
not modelled: its backing array holds the elements read. -/
def readGenericSliceFuel {F : Type} (fl : FloatLib F) :
    Nat → Iterator → Except Error (Val F) × Iterator
  | 0, it => (.error outOfFuel, it)
  | fuel + 1, it =>
    match it.ReadArrayStart with
    | (some err, it) => (.error err, it)
    | (none, it) =>
      let it := it.skipWhiteSpace
      if it.head < it.dataLen ∧ it.byteAt it.head = 93 then
        (.ok (.iface (.slice .iface) (.slice 0 [])), { it with head := it.head + 1 })
      else
        match readGenericSliceLoop fl fuel it [] with
        | (.error err, it) => (.error err, it)
        | (.ok l, it) => (.ok (.iface (.slice .iface) (.slice l.length l)), it)
/-- The `for` loop of `readGenericSlice`. -/
def readGenericSliceLoop {F : Type} (fl : FloatLib F) : Nat → Iterator →
    List (Val F) → Except Error (List (Val F)) × Iterator
  | 0, it, _ => (.error outOfFuel, it)
  | fuel + 1, it, l =>
    match readValueFuel fl fuel it with
    | (.error err, it) => (.error err, it)
    | (.ok val, it) =>
      let l := l ++ [val]
      let it := it.skipWhiteSpace
      if it.head < it.dataLen ∧ it.byteAt it.head = 44 then
        readGenericSliceLoop fl fuel { it with head := it.head + 1 } l
      else if it.head < it.dataLen ∧ it.byteAt it.head = 93 then
        (.ok l, { it with head := it.head + 1 })
      else (.error (it.error "expected ',' or ']'"), it)
end

/-- The generic reader `readValue`, with a bound on nested calls that no input
reaches: every nested call follows the consumption of a byte, but for the
calls from `readValue` into the two container readers. -/
def readValue {F : Type} (fl : FloatLib F) (it : Iterator) : Except Error (Val F) × Iterator :=
  readValueFuel fl (3 * (it.dataLen - it.head) + 3) it

def decodeInterface {F : Type} (fl : FloatLib F) : DecoderFunc F := fun it p =>
  match readValue fl it with
  | (.error err, it) => (some err, it, p)
  | (.ok val, it) => (none, it, val)

mutual
/-- The compiler `compileDecoder`: the decoder of a type, or the error for an
unsupported one. -/
def compileDecoder {F : Type} (fl : FloatLib F) : Ty → Except Error (DecoderFunc F)
  | .string => .ok decodeString
  | .definedString _ => .ok decodeString
  | .int => .ok decodeInt64
  | .int64 => .ok decodeInt64
  | .int32 => .ok decodeInt32
  | .float64 => .ok (decodeFloat64 fl)
  | .bool => .ok decodeBool
  | .iface => .ok (decodeInterface fl)
  | .struct fields =>
    match (compileStructFields fl fields 0 [] : Except Error (List (List Nat × fieldInfo F))) with
    | .error err => .error err
    | .ok fieldMap => .ok (structDecoder fieldMap)
  | .slice elem =>
    match compileDecoder fl elem with
    | .error err => .error err
    | .ok elemDec => .ok (sliceDecoder (Ty.zero fl elem) elemDec)
  | .map key elem =>
    match key with
    | .string =>
      match compileDecoder fl elem with
      | .error err => .error err
      | .ok elemDec => .ok (mapDecoder true (Ty.zero fl elem) elemDec)
    | .definedString _ =>
      match compileDecoder fl elem with
      | .error err => .error err
      | .ok elemDec => .ok (mapDecoder false (Ty.zero fl elem) elemDec)
    | _ => .error (Error.other ("fastjson: maps with " ++ key.kind ++ " keys not supported"))
  | .ptr elem =>
    match compileDecoder fl elem with
    | .error err => .error err
    | .ok elemDec => .ok (ptrDecoder (Ty.zero fl elem) elemDec)
  | .other kind => .error (Error.other ("fastjson: unsupported type: " ++ kind))
/-- The loop of `compileStructDecoder` over the fields from index `i` on,
which fills `fieldMap`. -/
def compileStructFields {F : Type} (fl : FloatLib F) : List Field → Nat →
    List (List Nat × fieldInfo F) → Except Error (List (List Nat × fieldInfo F))
  | [], _, fieldMap => .ok fieldMap
  | field :: rest, i, fieldMap =>
    match (compileStructField fl field i fieldMap :
        Except Error (List (List Nat × fieldInfo F))) with
    | .error err => .error err
    | .ok fieldMap => compileStructFields fl rest (i + 1) fieldMap
/-- One round of the loop of `compileStructDecoder`, on the field of index `i`. -/
def compileStructField {F : Type} (fl : FloatLib F) : Field → Nat →
    List (List Nat × fieldInfo F) → Except Error (List (List Nat × fieldInfo F))
  | .mk name tag type, i, fieldMap =>
    if tag = [45] then .ok fieldMap
    else
      match compileDecoder fl type with
      | .error err => .error err
      | .ok dec => .ok ((wireName name tag, { offset := i, decoder := dec }) :: fieldMap)
end

def compileStructDecoder {F : Type} (fl : FloatLib F) (fields : List Field) :
    Except Error (DecoderFunc F) :=
  compileDecoder fl (.struct fields)

def compileSliceDecoder {F : Type} (fl : FloatLib F) (elem : Ty) :
    Except Error (DecoderFunc F) :=
  compileDecoder fl (.slice elem)

def compileMapDecoder {F : Type} (fl : FloatLib F) (key elem : Ty) :
    Except Error (DecoderFunc F) :=
  compileDecoder fl (.map key elem)

/-- The cache `decoderCache`, as the list of the types stored in it. The
routine stored for a type is the one `compileDecoder` returned for it, so a
load returns that routine. -/
def getDecoder {F : Type} (fl : FloatLib F) (decoderCache : List Ty) (t : Ty) :
    Except Error (DecoderFunc F) × List Ty :=
  if decoderCache.any (Ty.beq t) then (compileDecoder fl t, decoderCache)
  else
    match compileDecoder fl t with
    | .error err => (.error err, decoderCache)
    | .ok dec => (.ok dec, t :: decoderCache)

/-! ## unmarshal.go -/

/-- The entry point `Unmarshal(data, v)`: `v` is the `any` passed, and the
result is the error with `v` afterwards. A non-nil pointer to memory `dest` of
type `t` is `.iface (.ptr t) (.ptr dest)`. -/
def Unmarshal {F : Type} (fl : FloatLib F) (decoderCache : List Ty) (data : List Nat)
    (v : Val F) : Option Error × Val F :=
  let it := NewIterator data
  match v with
  | .iface (.ptr t) (.ptr dest) =>
    match (getDecoder fl decoderCache t).1 with
    | .error err => (some err, v)
    | .ok dec =>
      let r := dec it dest
      (r.1, .iface (.ptr t) (.ptr r.2.2))
  | _ => (some (it.error "Unmarshal(non-pointer or nil)"), v)

/-! ## encoder.go -/

/-- A compiled encoder: from the writer and the memory at `p` to the writer
afterwards, or the error. -/
abbrev EncoderFunc (F : Type) := Writer → Val F → Except Error Writer

def encodeString {F : Type} : EncoderFunc F := fun w p =>
  match p with
  | .str s => .ok (w.WriteStringEscaped s)
  | _ => .error badMemory

def encodeInt64 {F : Type} : EncoderFunc F := fun w p =>
  match p with
  | .int n => .ok (w.WriteInt64 n)
  | _ => .error badMemory

def encodeInt32 {F : Type} : EncoderFunc F := fun w p =>
  match p with
  | .int n => .ok (w.WriteInt64 n)
  | _ => .error badMemory

def encodeFloat64 {F : Type} (fl : FloatLib F) : EncoderFunc F := fun w p =>
  match p with
  | .float f => .ok (w.WriteFloat64 fl.AppendFloat f)
  | _ => .error badMemory

def encodeBool {F : Type} : EncoderFunc F := fun w p =>
  match p with
  | .bool b => .ok (w.WriteBool b)
  | _ => .error badMemory

mutual
/-- Whether the first machine word of the memory is zero. The word of an
integer or a float is its bits (the float of all zero bits is the one that
`AppendFloat` writes `0`), the word of a string, slice, map, pointer or
interface is the pointer its header starts with, and the word of a struct is
that of its first field. Memory narrower than a word is taken to be followed
by zero bytes, and the empty string to have no data. -/
def Val.firstWordZero {F : Type} (fl : FloatLib F) : Val F → Bool
  | .str s => s.isEmpty
  | .int n => decide (n = 0)
  | .float f => decide (fl.AppendFloat f = [48])
  | .bool b => !b
  | .nilIface => true
  | .iface _ _ => false
  | .struct fields => Val.firstWordZeroList fl fields
  | .nilSlice => true
  | .slice _ _ => false
  | .nilMap => true
  | .map _ => false
  | .nilPtr => true
  | .ptr _ => false
/-- The first word of the first of the values, when there is one. -/
def Val.firstWordZeroList {F : Type} (fl : FloatLib F) : List (Val F) → Bool
  | [] => true
  | v :: _ => Val.firstWordZero fl v
end

/-- The routine `compileEncoder` returns for a pointer type. It reads the
first word of the memory at `p` as the pointer: handed memory that is no
pointer slot, it writes `null` when that word is zero and follows the word as
an address otherwise. -/
def ptrEncoder {F : Type} (fl : FloatLib F) (elemEnc : EncoderFunc F) : EncoderFunc F :=
  fun w p =>
    match p with
    | .nilPtr => .ok w.WriteNull
    | .ptr v => elemEnc w v
    | v => if v.firstWordZero fl then .ok w.WriteNull else .error badMemory

structure structFieldEncoder (F : Type) where
  offset : Nat
  encoder : EncoderFunc F
  key : List Nat

/-- The `for` loop of the routine `compileStructEncoder` returns. -/
def structEncodeLoop {F : Type} : List (structFieldEncoder F) → Writer → List (Val F) →
    Except Error Writer
  | [], w, _ => .ok w
  | f :: rest, w, p =>
    match f.encoder (w.Write f.key) (p.getD f.offset .nilIface) with
    | .error err => .error err
    | .ok w => structEncodeLoop rest w p

/-- The routine `compileStructEncoder` returns, given the field plans. -/
def structEncoder {F : Type} (fields : List (structFieldEncoder F)) : EncoderFunc F :=
  fun w p =>
    match p with
    | .struct vals =>
      match structEncodeLoop fields (w.WriteByte 123) vals with
      | .error err => .error err
      | .ok w => .ok (w.WriteByte 125)
    | _ => .error badMemory

/-- The loop `for i := range header.Len` of the slice encoder: `n` rounds are
left, the next index is `i`. -/
def sliceEncodeLoop {F : Type} (elemEnc : EncoderFunc F) (store : List (Val F)) :
    Nat → Nat → Writer → Except Error Writer
  | 0, _, w => .ok w
  | n + 1, i, w =>
    let w := if i > 0 then w.WriteByte 44 else w
    match elemEnc w (store.getD i .nilIface) with
    | .error err => .error err
    | .ok w => sliceEncodeLoop elemEnc store n (i + 1) w

/-- The routine `compileSliceEncoderEnc` returns. -/
def sliceEncoder {F : Type} (elemEnc : EncoderFunc F) : EncoderFunc F := fun w p =>
  match p with
  | .nilSlice => .ok w.WriteNull
  | .slice len store =>
    match sliceEncodeLoop elemEnc store len 0 (w.WriteByte 91) with
    | .error err => .error err
    | .ok w => .ok (w.WriteByte 93)
  | _ => .error badMemory

/-- The loop over `mVal.MapRange()` of the map encoder. When the element type
is a pointer, the routine of the element type is handed the address the
element points to, not the address of a slot holding the element. -/
def mapEncodeLoop {F : Type} (elemIsPtr : Bool) (elemEnv : EncoderFunc F) :
    List (List Nat × Val F) → Bool → Writer → Except Error Writer
  | [], _, w => .ok w
  | (key, val) :: rest, first, w =>
    let w := if ¬ first then w.WriteByte 44 else w
    let w := (w.WriteStringEscaped key).WriteByte 58
    let r : Except Error Writer :=
      if elemIsPtr then
        match val with
        | .ptr pointee => elemEnv w pointee
        | .nilPtr => .error nilDeref
        | _ => .error badMemory
      else elemEnv w val
    match r with
    | .error err => .error err
    | .ok w => mapEncodeLoop elemIsPtr elemEnv rest false w

/-- The routine `compileMapEncoder` returns. -/
def mapEncoder {F : Type} (elemIsPtr : Bool) (elemEnv : EncoderFunc F) : EncoderFunc F :=
  fun w p =>
    match p with
    | .nilMap => .ok w.WriteNull
    | .map entries =>
      match mapEncodeLoop elemIsPtr elemEnv entries true (w.WriteByte 123) with
      | .error err => .error err
      | .ok w => .ok (w.WriteByte 125)
    | _ => .error badMemory

/-- The test `t.Kind() == reflect.Pointer`. -/
def Ty.isPtr : Ty → Bool
  | .ptr _ => true
  | _ => false

mutual
/-- The compiler `compileEncoder`, with the routine for interface values as a
parameter: `encodeInterface` below, which calls back into the compiler. -/
def compileEncoderWith {F : Type} (fl : FloatLib F) (encIface : EncoderFunc F) :
    Ty → Except Error (EncoderFunc F)
  | .string => .ok encodeString
  | .definedString _ => .ok encodeString
  | .int => .ok encodeInt64
  | .int64 => .ok encodeInt64
  | .int32 => .ok encodeInt32
  | .float64 => .ok (encodeFloat64 fl)
  | .bool => .ok encodeBool
  | .iface => .ok encIface
  | .struct fields =>
    match (compileStructEncFields fl encIface fields 0 [] :
        Except Error (List (structFieldEncoder F))) with
    | .error err => .error err
    | .ok fields => .ok (structEncoder fields)
  | .slice elem =>
    match compileEncoderWith fl encIface elem with
    | .error err => .error err
    | .ok elemEnc => .ok (sliceEncoder elemEnc)
  | .map key elem =>
    match key with
    | .string =>
      match compileEncoderWith fl encIface elem with
      | .error err => .error err
      | .ok elemEnv => .ok (mapEncoder elem.isPtr elemEnv)
    | .definedString _ =>
      match compileEncoderWith fl encIface elem with
      | .error err => .error err
      | .ok elemEnv => .ok (mapEncoder elem.isPtr elemEnv)
    | _ => .error (Error.other ("fastjson: maps with " ++ key.kind ++ " keys not supported"))
  | .ptr elem =>
    match compileEncoderWith fl encIface elem with
    | .error err => .error err
    | .ok elemEnc => .ok (ptrEncoder fl elemEnc)
  | .other kind => .error (Error.other ("fastjson: unsupported type: " ++ kind))
/-- The loop of `compileStructEncoder` over the fields from index `i` on,
which appends to `fields`. -/
def compileStructEncFields {F : Type} (fl : FloatLib F) (encIface : EncoderFunc F) :
    List Field → Nat → List (structFieldEncoder F) →
    Except Error (List (structFieldEncoder F))
  | [], _, fields => .ok fields
  | field :: rest, i, fields =>
    match (compileStructEncField fl encIface field i fields :
        Except Error (List (structFieldEncoder F))) with
    | .error err => .error err
    | .ok fields => compileStructEncFields fl encIface rest (i + 1) fields
/-- One round of the loop of `compileStructEncoder`, on the field of index `i`. -/
def compileStructEncField {F : Type} (fl : FloatLib F) (encIface : EncoderFunc F) :
    Field → Nat → List (structFieldEncoder F) → Except Error (List (structFieldEncoder F))
  | .mk name tag type, i, fields =>
    if tag = [45] then .ok fields
    else
      match compileEncoderWith fl encIface type with
      | .error err => .error err
      | .ok enc =>
        let keyBytes :=
          if fields.length > 0 then [44, 34] ++ wireName name tag ++ [34, 58]
          else [34] ++ wireName name tag ++ [34, 58]
        .ok (fields ++ [{ offset := i, encoder := enc, key := keyBytes }])
end

/-- The routine `encodeInterface`; the first argument bounds the nesting of
interface values inside the value. The call of `getEncoder` is a call of the
compiler: the cache does not change what it returns. When the dynamic type is
a pointer, the routine of that type is handed the address the pointer holds,
not the address of a slot holding the pointer. -/
def encodeInterfaceFuel {F : Type} (fl : FloatLib F) : Nat → EncoderFunc F
  | 0 => fun _ _ => .error outOfFuel
  | fuel + 1 => fun w p =>
    match p with
    | .nilIface => .ok w.WriteNull
    | .iface rt rv =>
      match compileEncoderWith fl (encodeInterfaceFuel fl fuel) rt with
      | .error err => .error err
      | .ok enc =>
        if rt.isPtr then
          match rv with
          | .ptr pointee => enc w pointee
          | .nilPtr => .error nilDeref
          | _ => .error badMemory
        else enc w rv
    | _ => .error badMemory

/-- The routine `encodeInterface`, with a bound no value reaches: the number
of nodes of the value. -/
def encodeInterface {F : Type} (fl : FloatLib F) : EncoderFunc F := fun w p =>
  encodeInterfaceFuel fl (p.size + 1) w p

def compileEncoder {F : Type} (fl : FloatLib F) (t : Ty) : Except Error (EncoderFunc F) :=
  compileEncoderWith fl (encodeInterface fl) t

def compileStructEncoder {F : Type} (fl : FloatLib F) (fields : List Field) :
    Except Error (EncoderFunc F) :=
  compileEncoder fl (.struct fields)

def compileSliceEncoderEnc {F : Type} (fl : FloatLib F) (elem : Ty) :
    Except Error (EncoderFunc F) :=
  compileEncoder fl (.slice elem)

def compileMapEncoder {F : Type} (fl : FloatLib F) (key elem : Ty) :
    Except Error (EncoderFunc F) :=
  compileEncoder fl (.map key elem)

/-- The cache `encoderCache`, as the list of the types stored in it. The
routine stored for a type is the one `compileEncoder` returned for it, so a
load returns that routine. -/
def getEncoder {F : Type} (fl : FloatLib F) (encoderCache : List Ty) (t : Ty) :
    Except Error (EncoderFunc F) × List Ty :=
  if encoderCache.any (Ty.beq t) then (compileEncoder fl t, encoderCache)
  else
    match compileEncoder fl t with
    | .error err => (.error err, encoderCache)
    | .ok enc => (.ok enc, t :: encoderCache)

/-! ## marshal.go -/

/-- The writer `GetWriter` hands out: its buffer is empty. -/
def GetWriter : Writer := { Buffer := [] }

/-- The entry point `Marshal(v)`: `v` is the `any` passed, the result is the
byte slice returned or the error. -/
def Marshal {F : Type} (fl : FloatLib F) (encoderCache : List Ty) (v : Val F) :
    Except Error (List Nat) :=
  match v with
  | .nilIface => .ok [110, 117, 108, 108]
  | .iface (.ptr _) .nilPtr => .ok [110, 117, 108, 108]
  | .iface (.ptr elem) (.ptr pointee) =>
    match (getEncoder fl encoderCache elem).1 with
    | .error err => .error err
    | .ok enc =>
      match enc GetWriter pointee with
      | .error err => .error err
      | .ok w => .ok w.Buffer
  | .iface t rv =>
    match (getEncoder fl encoderCache t).1 with
    | .error err => .error err
    | .ok enc =>
      match enc GetWriter rv with
      | .error err => .error err
      | .ok w => .ok w.Buffer
  | _ => .error badMemory

/-! ## iterator_benchmark_test.go -/

/-- The loop of `naiveSkipWhitespace`, from the index `i`. -/
def naiveSkipWhitespaceLoop (data : List Nat) : Nat → Nat → Nat
  | 0, i => i
  | fuel + 1, i =>
    if i < data.length then
      let c := data.getD i 0
      if c = 32 ∨ c = 9 ∨ c = 10 ∨ c = 13 then naiveSkipWhitespaceLoop data fuel (i + 1)
      else i
    else i

def naiveSkipWhitespace (data : List Nat) : Nat :=
  naiveSkipWhitespaceLoop data data.length 0

/-! ## The compilers on type handles

A `reflect.Type` is a handle: a declared type may occur in its own
definition, behind a pointer, a slice or a map, which no finite tree `Ty`
shows. Here a handle is a number and `types` gives what `reflect` reports for
it. The compilers below follow the same source text as the ones on `Ty`, with
a bound on the depth of the nested calls of the compiler: `none` is a run that
has not returned within the bound. -/

/-- What `reflect` reports for a type: its kind and the handles of the types
it is built from. A struct field is its declared name, the value of its `json`
tag, and its type. -/
inductive Shape where
  | string
  | definedString (name : String)
  | int
  | int64
  | int32
  | float64
  | bool
  | iface
  | struct (fields : List (List Nat × List Nat × Nat))
  | slice (elem : Nat)
  | map (key : Nat) (elem : Nat)
  | ptr (elem : Nat)
  | other (kind : String)
  deriving DecidableEq

/-- The result of `t.Kind()`, as `%s` prints it. -/
def Shape.kind : Shape → String
  | .string => "string"
  | .definedString _ => "string"
  | .int => "int"
  | .int64 => "int64"
  | .int32 => "int32"
  | .float64 => "float64"
  | .bool => "bool"
  | .iface => "interface"
  | .struct _ => "struct"
  | .slice _ => "slice"
  | .map _ _ => "map"
  | .ptr _ => "ptr"
  | .other k => k

def Shape.isPtr : Shape → Bool
  | .ptr _ => true
  | _ => false

/-- The test `t.Kind() == reflect.String`. -/
def Shape.isStringKind : Shape → Bool
  | .string => true
  | .definedString _ => true
  | _ => false

namespace ByHandle

/-- The loop of `compileStructDecoder` over the fields from index `i` on;
`compile` is the call `compileDecoder(field.Type)`. -/
def compileStructFields {F : Type} (compile : Nat → Option (Except Error (DecoderFunc F))) :
    List (List Nat × List Nat × Nat) → Nat → List (List Nat × fieldInfo F) →
    Option (Except Error (List (List Nat × fieldInfo F)))
  | [], _, fieldMap => some (.ok fieldMap)
  | (name, tag, type) :: rest, i, fieldMap =>
    if tag = [45] then compileStructFields compile rest (i + 1) fieldMap
    else
      match compile type with
      | none => none
      | some (.error err) => some (.error err)
      | some (.ok dec) =>
        compileStructFields compile rest (i + 1)
          ((wireName name tag, { offset := i, decoder := dec }) :: fieldMap)

/-- The compiler `compileDecoder` on the type with the handle `t`; `zero`
gives the zero value `reflect` allocates for a type. The first argument bounds
the depth of the nested calls. -/
def compileDecoder {F : Type} (fl : FloatLib F) (types : Nat → Shape) (zero : Nat → Val F) :
    Nat → Nat → Option (Except Error (DecoderFunc F))
  | 0, _ => none
  | depth + 1, t =>
    match types t with
    | .string => some (.ok decodeString)
    | .definedString _ => some (.ok decodeString)
    | .int => some (.ok decodeInt64)
    | .int64 => some (.ok decodeInt64)
    | .int32 => some (.ok decodeInt32)
    | .float64 => some (.ok (decodeFloat64 fl))
    | .bool => some (.ok decodeBool)
    | .iface => some (.ok (decodeInterface fl))
    | .struct fields =>
      match compileStructFields (compileDecoder fl types zero depth) fields 0 [] with
      | none => none
      | some (.error err) => some (.error err)
      | some (.ok fieldMap) => some (.ok (structDecoder fieldMap))
    | .slice elem =>
      match compileDecoder fl types zero depth elem with
      | none => none
      | some (.error err) => some (.error err)
      | some (.ok elemDec) => some (.ok (sliceDecoder (zero elem) elemDec))
    | .map key elem =>
      if (types key).isStringKind = false then
        some (.error (Error.other
          ("fastjson: maps with " ++ (types key).kind ++ " keys not supported")))
      else
        match compileDecoder fl types zero depth elem with
        | none => none
        | some (.error err) => some (.error err)
        | some (.ok elemDec) => some (.ok (mapDecoder (decide (types key = .string)) (zero elem) elemDec))
    | .ptr elem =>
      match compileDecoder fl types zero depth elem with
      | none => none
      | some (.error err) => some (.error err)
      | some (.ok elemDec) => some (.ok (ptrDecoder (zero elem) elemDec))
    | .other kind => some (.error (Error.other ("fastjson: unsupported type: " ++ kind)))

/-- The function `getDecoder`, with the cache as the list of the routines
stored, latest first. -/
def getDecoder {F : Type} (fl : FloatLib F) (types : Nat → Shape) (zero : Nat → Val F)
    (decoderCache : List (Nat × DecoderFunc F)) (depth t : Nat) :
    Option (Except Error (DecoderFunc F) × List (Nat × DecoderFunc F)) :=
  match decoderCache.lookup t with
  | some f => some (.ok f, decoderCache)
  | none =>
    match compileDecoder fl types zero depth t with
    | none => none
    | some (.error err) => some (.error err, decoderCache)
    | some (.ok dec) => some (.ok dec, (t, dec) :: decoderCache)

/-- The loop of `compileStructEncoder` over the fields from index `i` on;
`compile` is the call `compileEncoder(field.Type)`. -/
def compileStructEncFields {F : Type} (compile : Nat → Option (Except Error (EncoderFunc F))) :
    List (List Nat × List Nat × Nat) → Nat → List (structFieldEncoder F) →
    Option (Except Error (List (structFieldEncoder F)))
  | [], _, fields => some (.ok fields)
  | (name, tag, type) :: rest, i, fields =>
    if tag = [45] then compileStructEncFields compile rest (i + 1) fields
    else
      match compile type with
      | none => none
      | some (.error err) => some (.error err)
      | some (.ok enc) =>
        let keyBytes :=
          if fields.length > 0 then [44, 34] ++ wireName name tag ++ [34, 58]
          else [34] ++ wireName name tag ++ [34, 58]
        compileStructEncFields compile rest (i + 1)
          (fields ++ [{ offset := i, encoder := enc, key := keyBytes }])

/-- The compiler `compileEncoder` on the type with the handle `t`. The first
argument bounds the depth of the nested calls. A value carries the dynamic
type of an interface as a tree, so the routine for interface values is the one
of the compiler on `Ty`. -/
def compileEncoder {F : Type} (fl : FloatLib F) (types : Nat → Shape) :
    Nat → Nat → Option (Except Error (EncoderFunc F))
  | 0, _ => none
  | depth + 1, t =>
    match types t with
    | .string => some (.ok encodeString)
    | .definedString _ => some (.ok encodeString)
    | .int => some (.ok encodeInt64)
    | .int64 => some (.ok encodeInt64)
    | .int32 => some (.ok encodeInt32)
    | .float64 => some (.ok (encodeFloat64 fl))
    | .bool => some (.ok encodeBool)
    | .iface => some (.ok (encodeInterface fl))
    | .struct fields =>
      match compileStructEncFields (compileEncoder fl types depth) fields 0 [] with
      | none => none
      | some (.error err) => some (.error err)
      | some (.ok fields) => some (.ok (structEncoder fields))
    | .slice elem =>
      match compileEncoder fl types depth elem with
      | none => none
      | some (.error err) => some (.error err)
      | some (.ok elemEnc) => some (.ok (sliceEncoder elemEnc))
    | .map key elem =>
      if (types key).isStringKind = false then
        some (.error (Error.other
          ("fastjson: maps with " ++ (types key).kind ++ " keys not supported")))
      else
        match compileEncoder fl types depth elem with
        | none => none
        | some (.error err) => some (.error err)
        | some (.ok elemEnv) => some (.ok (mapEncoder (types elem).isPtr elemEnv))
    | .ptr elem =>
      match compileEncoder fl types depth elem with
      | none => none
      | some (.error err) => some (.error err)
      | some (.ok elemEnc) => some (.ok (ptrEncoder fl elemEnc))
    | .other kind => some (.error (Error.other ("fastjson: unsupported type: " ++ kind)))

/-- The function `getEncoder`, with the cache as the list of the routines
stored, latest first. -/
def getEncoder {F : Type} (fl : FloatLib F) (types : Nat → Shape)
    (encoderCache : List (Nat × EncoderFunc F)) (depth t : Nat) :
    Option (Except Error (EncoderFunc F) × List (Nat × EncoderFunc F)) :=
  match encoderCache.lookup t with
  | some f => some (.ok f, encoderCache)
  | none =>
    match compileEncoder fl types depth t with
    | none => none
    | some (.error err) => some (.error err, encoderCache)
    | some (.ok enc) => some (.ok enc, (t, enc) :: encoderCache)

end ByHandle

/-! ## iterator.go, with the bounds checks of the index expressions

The tokenizer once more, with the checks the Go runtime makes: every index
expression `it.data[i]` and every slice expression `it.data[lo:hi]` is tested
against the length of the buffer, and the result of an operation is `none`
when one of them is out of range, where the program panics. -/

namespace Checked

/-- The index expression `it.data[i]`: `none` when `i` is outside the buffer. -/
def byteAt (it : Iterator) (i : Nat) : Option Nat :=
  if i < it.data.length then some (it.data.getD i 0) else none

/-- The slice expression `b[lo:hi]`: `none` unless `lo ≤ hi ≤ len(b)`. Go
allows `hi` up to the capacity of `b`; the bound by the length is the
stricter one. -/
def sliceOf (b : List Nat) (lo hi : Nat) : Option (List Nat) :=
  if lo ≤ hi ∧ hi ≤ b.length then some (slice b lo hi) else none

def skipWhiteSpaceLoop (it : Iterator) : Nat → Nat → Option Nat
  | 0, head => some head
  | fuel + 1, head =>
    if head < it.dataLen then
      match byteAt it head with
      | none => none
      | some c =>
        if parseTable c &&& maskWhiteSpace = 0 then some head
        else skipWhiteSpaceLoop it fuel (head + 1)
    else some head

def skipWhiteSpace (it : Iterator) : Option Iterator :=
  match skipWhiteSpaceLoop it (it.dataLen - it.head) it.head with
  | none => none
  | some head => some { it with head := head }

/-- The common body of the six structural matchers; the byte is read only
when `it.head < it.dataLen`. -/
def readStructural (it : Iterator) (c : Nat) (msg : String) :
    Option (Option Error × Iterator) :=
  match skipWhiteSpace it with
  | none => none
  | some it =>
    if it.head < it.dataLen then
      match byteAt it it.head with
      | none => none
      | some b =>
        if b = c then some (none, { it with head := it.head + 1 })
        else some (some (it.error msg), it)
    else some (some (it.error msg), it)

def ReadObjectStart (it : Iterator) : Option (Option Error × Iterator) :=
  readStructural it 123 "expected '\x7b'"

def ReadObjectEnd (it : Iterator) : Option (Option Error × Iterator) :=
  readStructural it 125 "expected '\x7d'"

def ReadArrayStart (it : Iterator) : Option (Option Error × Iterator) :=
  readStructural it 91 "expected '['"

def ReadArrayEnd (it : Iterator) : Option (Option Error × Iterator) :=
  readStructural it 93 "expected ']'"

def ReadComma (it : Iterator) : Option (Option Error × Iterator) :=
  readStructural it 44 "expected ','"

def ReadColon (it : Iterator) : Option (Option Error × Iterator) :=
  readStructural it 58 "expected ':'"

def ReadNull (it : Iterator) : Option (Option Error × Iterator) :=
  match skipWhiteSpace it with
  | none => none
  | some it =>
    if it.head ≥ it.dataLen then some (some (it.error "unexpected end of input"), it)
    else
      match byteAt it it.head with
      | none => none
      | some c =>
        if c = 110 then
          if it.head + 3 ≤ it.dataLen then
            match sliceOf it.data it.head (it.head + 3) with
            | none => none
            | some s =>
              if s = [110, 117, 108, 108] then some (none, { it with head := it.head + 4 })
              else some (some (it.error "expected 'null'"), it)
          else some (some (it.error "expected 'null'"), it)
        else some (some (it.error "expected null"), it)

def readInt64Loop (it : Iterator) : Nat → Nat → Int → Option (Nat × Int)
  | 0, head, n => some (head, n)
  | fuel + 1, head, n =>
    if head < it.dataLen then
      match byteAt it head with
      | none => none
      | some c =>
        if 48 ≤ c ∧ c ≤ 57 then
          readInt64Loop it fuel (head + 1) (wrap64 (n * 10 + ((c : Int) - 48)))
        else some (head, n)
    else some (head, n)

def readInt64Sign (it : Iterator) : Option (Except Error Bool × Iterator) :=
  match byteAt it it.head with
  | none => none
  | some c =>
    if c = 45 then some (.ok true, { it with head := it.head + 1 })
    else if c = 43 then
      some (.error (it.error "leading '+' is not allowed in JSON numbers"), it)
    else some (.ok false, it)

def readInt64Digits (it : Iterator) : Option (Except Error Int × Iterator) :=
  let loop : Option (Except Error Int × Iterator) :=
    match readInt64Loop it (it.dataLen - it.head) it.head 0 with
    | none => none
    | some r => some (.ok r.2, { it with head := r.1 })
  if it.head < it.dataLen then
    match byteAt it it.head with
    | none => none
    | some c =>
      if c = 48 then
        let it := { it with head := it.head + 1 }
        if it.head < it.dataLen then
          match byteAt it it.head with
          | none => none
          | some c =>
            if 48 ≤ c ∧ c ≤ 57 then
              some (.error (it.error "leading zero is not allowed in JSON Numbers"), it)
            else some (.ok 0, it)
        else some (.ok 0, it)
      else loop
  else loop

def readInt64Finish (it : Iterator) (start : Nat) (neg : Bool) (n : Int) :
    Option (Except Error Int × Iterator) :=
  if it.head = start then some (.error (it.error "expected digit"), it)
  else if it.head < it.dataLen then
    match byteAt it it.head with
    | none => none
    | some c =>
      if c = 46 ∨ c = 101 ∨ c = 69 then
        some (.error (it.error "float found, expected integer"), it)
      else some (.ok (if neg then wrap64 (-n) else n), it)
  else some (.ok (if neg then wrap64 (-n) else n), it)

def ReadInt64 (it : Iterator) : Option (Except Error Int × Iterator) :=
  match skipWhiteSpace it with
  | none => none
  | some it =>
    if it.head ≥ it.dataLen then some (.error (it.error "unexpected end of input"), it)
    else
      match readInt64Sign it with
      | none => none
      | some (.error e, it) => some (.error e, it)
      | some (.ok neg, it) =>
        match readInt64Digits it with
        | none => none
        | some (.error e, it2) => some (.error e, it2)
        | some (.ok n, it2) => readInt64Finish it2 it.head neg n

def readFloat64Loop (it : Iterator) : Nat → Nat → Option Nat
  | 0, head => some head
  | fuel + 1, head =>
    if head < it.dataLen then
      match byteAt it head with
      | none => none
      | some c =>
        if parseTable c &&& maskNumber = 0 then some head
        else readFloat64Loop it fuel (head + 1)
    else some head

def ReadFloat64 {F : Type} (parseFloat : List Nat → Option F) (it : Iterator) :
    Option (Except Error F × Iterator) :=
  match skipWhiteSpace it with
  | none => none
  | some it =>
    let start := it.head
    match readFloat64Loop it (it.dataLen - it.head) it.head with
    | none => none
    | some head =>
      let it := { it with head := head }
      if it.head = start then some (.error (it.error "expected digit"), it)
      else
        match sliceOf it.data start it.head with
        | none => none
        | some numStr =>
          match parseFloat numStr with
          | some f => some (.ok f, it)
          | none => some (.error (Error.num numStr), it)

def ReadBool (it : Iterator) : Option (Except Error Bool × Iterator) :=
  match skipWhiteSpace it with
  | none => none
  | some it =>
    if it.head ≥ it.dataLen then some (.error (it.error "unexpected end of input"), it)
    else
      match byteAt it it.head with
      | none => none
      | some c =>
        if c = 116 then
          if it.head + 4 ≤ it.dataLen then
            match sliceOf it.data it.head (it.head + 4) with
            | none => none
            | some s =>
              if s = [116, 114, 117, 101] then some (.ok true, { it with head := it.head + 4 })
              else some (.error (it.error "expected 'true'"), it)
          else some (.error (it.error "expected 'true'"), it)
        else if c = 102 then
          if it.head + 5 ≤ it.dataLen then
            match sliceOf it.data it.head (it.head + 5) with
            | none => none
            | some s =>
              if s = [102, 97, 108, 115, 101] then
                some (.ok false, { it with head := it.head + 5 })
              else some (.error (it.error "expected 'false'"), it)
          else some (.error (it.error "expected 'false'"), it)
        else some (.error (it.error "expected boolean"), it)

/-- The loop of `decodeUnicode`; the inner `Option` is `none` for an invalid
digit, the outer one for a read outside the buffer. -/
def decodeUnicodeLoop (it : Iterator) (start : Nat) : Nat → Nat → Nat → Option (Option Nat)
  | 0, _, r => some (some r)
  | fuel + 1, i, r =>
    match byteAt it (start + i) with
    | none => none
    | some c =>
      if 48 ≤ c ∧ c ≤ 57 then decodeUnicodeLoop it start fuel (i + 1) ((r <<< 4) ||| (c - 48))
      else if 97 ≤ c ∧ c ≤ 102 then
        decodeUnicodeLoop it start fuel (i + 1) ((r <<< 4) ||| (c - 97 + 10))
      else if 65 ≤ c ∧ c ≤ 70 then
        decodeUnicodeLoop it start fuel (i + 1) ((r <<< 4) ||| (c - 65 + 10))
      else some none

def decodeUnicode (it : Iterator) : Option (Except Error Nat) :=
  let start := it.head + 1
  if start + 4 > it.data.length then some (.error (it.error "incomplete unicode escape"))
  else
    match decodeUnicodeLoop it start 4 0 0 with
    | none => none
    | some (some r) => some (.ok r)
    | some none => some (.error (it.error "invalid unicode hex digit"))

def readEscape (it : Iterator) : Option (Except Error (List Nat) × Iterator) :=
  match byteAt it it.head with
  | none => none
  | some escape =>
    if escape = 34 ∨ escape = 92 ∨ escape = 47 then some (.ok [escape], it)
    else if escape = 98 then some (.ok [8], it)
    else if escape = 102 then some (.ok [12], it)
    else if escape = 110 then some (.ok [10], it)
    else if escape = 114 then some (.ok [13], it)
    else if escape = 116 then some (.ok [9], it)
    else if escape = 117 then
      if it.head + 4 ≥ it.data.length then
        some (.error (it.error "incomplete unicode escape"), it)
      else
        match decodeUnicode it with
        | none => none
        | some (.error e) => some (.error e, it)
        | some (.ok r) => some (.ok (utf8EncodeRune r), { it with head := it.head + 4 })
    else some (.error (it.error "invalid escape sequence"), it)

def readStringSlowLoop :
    Nat → Iterator → List Nat → Option (Except Error (List Nat) × Iterator)
  | 0, it, _ => some (.error (it.error "unexpected end of input in string"), it)
  | fuel + 1, it, out =>
    if it.head < it.data.length then
      match byteAt it it.head with
      | none => none
      | some c =>
        if c = 34 then some (.ok out, { it with head := it.head + 1 })
        else if c = 92 then
          let it := { it with head := it.head + 1 }
          if it.head ≥ it.data.length then
            some (.error (it.error "unexpected end of input in escape"), it)
          else
            match readEscape it with
            | none => none
            | some (.error e, it) => some (.error e, it)
            | some (.ok bs, it) =>
              readStringSlowLoop fuel { it with head := it.head + 1 } (out ++ bs)
        else if c < 32 then some (.error (it.error "control character in string"), it)
        else readStringSlowLoop fuel { it with head := it.head + 1 } (out ++ [c])
    else some (.error (it.error "unexpected end of input in string"), it)

def readStringSlow (it : Iterator) (start : Nat) :
    Option (Except Error (List Nat) × Iterator) :=
  match sliceOf it.data start it.head with
  | none => none
  | some out => readStringSlowLoop (it.data.length - it.head) it out

def readStringLoop (start : Nat) :
    Nat → Iterator → Option (Except Error (List Nat) × Iterator)
  | 0, it => some (.error (it.error "unexpected end of input"), it)
  | fuel + 1, it =>
    if it.head < it.dataLen then
      match byteAt it it.head with
      | none => none
      | some c =>
        if stringTable c ≠ 0 then
          if c = 34 then
            match sliceOf it.data start it.head with
            | none => none
            | some str => some (.ok str, { it with head := it.head + 1 })
          else if c = 92 then readStringSlow it start
          else if c < 32 then some (.error (it.error "control character in string"), it)
          else readStringLoop start fuel { it with head := it.head + 1 }
        else readStringLoop start fuel { it with head := it.head + 1 }
    else some (.error (it.error "unexpected end of input"), it)

def ReadString (it : Iterator) : Option (Except Error (List Nat) × Iterator) :=
  match skipWhiteSpace it with
  | none => none
  | some it =>
    if it.head ≥ it.dataLen then some (.error (it.error "unexpected end of input"), it)
    else
      match byteAt it it.head with
      | none => none
      | some c =>
        if c ≠ 34 then some (.error (it.error "expected start of string '\"'"), it)
        else
          let it := { it with head := it.head + 1 }
          readStringLoop it.head (it.dataLen - it.head) it

def char (it : Iterator) : Option Nat :=
  if it.head ≥ it.dataLen then some 0 else byteAt it it.head

end Checked

/-! ## Vocabulary of the statements -/

/-- The four JSON whitespace bytes: space, tab, line feed, carriage return. -/
def isWhiteSpace (c : Nat) : Bool := decide (c = 32 ∨ c = 9 ∨ c = 10 ∨ c = 13)

/-- The ASCII decimal digits. -/
def isDigit (c : Nat) : Bool := decide (48 ≤ c ∧ c ≤ 57)

/-- The buffer length recorded in the iterator is the length of its buffer,
as `NewIterator` and `Reset` set it. -/
def Iterator.WF (it : Iterator) : Prop := it.dataLen = it.data.length

/-- The bytes from the cursor to the end of the buffer. -/
def Iterator.rest (it : Iterator) : List Nat := it.data.drop it.head

/-- The mathematical value of a run of decimal digits. -/
def decVal (ds : List Nat) : Int :=
  ds.foldl (fun (n : Int) (c : Nat) => n * 10 + ((c : Int) - 48)) 0

/-- The integer literals `ReadInt64` is specified to accept: `input` is
whitespace `ws`, an optional minus sign, the digits (a single zero, or a run
starting with 1-9), and a remainder that does not start with a digit or with
one of `.`, `e`, `E`. -/
def IntLiteral (input ws : List Nat) (neg : Bool) (digits rest : List Nat) : Prop :=
  input = ws ++ ((if neg then [45] else []) ++ (digits ++ rest)) ∧
  (∀ c ∈ ws, isWhiteSpace c = true) ∧
  (digits = [48] ∨ (∃ d ds, digits = d :: ds ∧ 49 ≤ d ∧ d ≤ 57 ∧ ∀ c ∈ ds, isDigit c = true)) ∧
  (∀ c rest', rest = c :: rest' → isDigit c = false ∧ c ≠ 46 ∧ c ≠ 101 ∧ c ≠ 69)

/-- The hexadecimal digits, in either case. -/
def isHex (c : Nat) : Bool :=
  decide ((48 ≤ c ∧ c ≤ 57) ∨ (97 ≤ c ∧ c ≤ 102) ∨ (65 ≤ c ∧ c ≤ 70))

/-- The value of a hexadecimal digit. -/
def hexVal (c : Nat) : Nat :=
  if c ≤ 57 then c - 48 else if 97 ≤ c then c - 87 else c - 55

/-- The code point `XXXX` of an escape `\uXXXX`. -/
def codePoint (a b c d : Nat) : Nat :=
  ((hexVal a * 16 + hexVal b) * 16 + hexVal c) * 16 + hexVal d

/-- The UTF-8 encoding of a code point: the bit layout of the standard for the
one- to four-byte forms, in arithmetic. -/
def utf8 (cp : Nat) : List Nat :=
  if cp < 128 then [cp]
  else if cp < 2048 then [192 + cp / 64, 128 + cp % 64]
  else if cp < 65536 then [224 + cp / 4096, 128 + cp / 64 % 64, 128 + cp % 64]
  else [240 + cp / 262144, 128 + cp / 4096 % 64, 128 + cp / 64 % 64, 128 + cp % 64]

/-- The surrogate code points `D800`-`DFFF`. -/
def isSurrogate (cp : Nat) : Bool := decide (55296 ≤ cp ∧ cp ≤ 57343)

/-- The elements of the body of a string literal: a byte that stands for
itself, a two-byte escape `\e`, or an escape `\uXXXX`. -/
inductive StrItem where
  | raw (c : Nat)
  | esc (e : Nat)
  | uni (a b c d : Nat)
  deriving DecidableEq, Repr

namespace StrItem

/-- A raw byte is neither a control byte, nor the quote, nor the backslash; a
two-byte escape is one of `\" \\ \/ \b \f \n \r \t`; `\u` has four hex digits. -/
def valid : StrItem → Bool
  | raw c => decide (32 ≤ c ∧ c ≠ 34 ∧ c ≠ 92)
  | esc e => decide (e = 34 ∨ e = 92 ∨ e = 47 ∨ e = 98 ∨ e = 102 ∨ e = 110 ∨ e = 114 ∨ e = 116)
  | uni a b c d => isHex a && isHex b && isHex c && isHex d

/-- The bytes of the element in the JSON text. -/
def text : StrItem → List Nat
  | raw c => [c]
  | esc e => [92, e]
  | uni a b c d => [92, 117, a, b, c, d]

/-- The byte a two-byte escape `\e` stands for. -/
def escByte (e : Nat) : Nat :=
  if e = 98 then 8 else if e = 102 then 12 else if e = 110 then 10
  else if e = 114 then 13 else if e = 116 then 9 else e

/-- The bytes the element stands for as the specification words it: every
`\uXXXX` is the UTF-8 encoding of the code point `XXXX`. -/
def claimed : StrItem → List Nat
  | raw c => [c]
  | esc e => [escByte e]
  | uni a b c d => utf8 (codePoint a b c d)

/-- The bytes the element stands for: as `claimed`, except that an escaped
surrogate is the three bytes `EF BF BD` of U+FFFD. -/
def value : StrItem → List Nat
  | raw c => [c]
  | esc e => [escByte e]
  | uni a b c d =>
    if isSurrogate (codePoint a b c d) then [239, 191, 189] else utf8 (codePoint a b c d)

end StrItem

/-- The JSON text of a list of string elements. -/
def strText (items : List StrItem) : List Nat := items.flatMap StrItem.text

/-- The bytes a list of string elements stands for. -/
def strValue (items : List StrItem) : List Nat := items.flatMap StrItem.value

/-- The bytes a list of string elements stands for, as the specification
words it. -/
def strClaimed (items : List StrItem) : List Nat := items.flatMap StrItem.claimed

/-- The bodies (the bytes after the opening quote) on which a string read is
specified to fail: the buffer ends before a closing quote, a raw control byte
occurs, a backslash is followed by a byte that is no escape letter, or `\u` is
not followed by four hex digits; possibly after well-formed elements. -/
inductive BadStringBody : List Nat → Prop where
  | eof : BadStringBody []
  | control (c : Nat) (r : List Nat) : c < 32 → BadStringBody (c :: r)
  | escEof : BadStringBody [92]
  | badEscape (e : Nat) (r : List Nat) :
      ¬ (e = 34 ∨ e = 92 ∨ e = 47 ∨ e = 98 ∨ e = 102 ∨ e = 110 ∨ e = 114 ∨ e = 116 ∨ e = 117) →
      BadStringBody (92 :: e :: r)
  | badUnicode (r : List Nat) :
      ¬ (∃ a b c d r', r = a :: b :: c :: d :: r' ∧
        isHex a = true ∧ isHex b = true ∧ isHex c = true ∧ isHex d = true) →
      BadStringBody (92 :: 117 :: r)
  | afterItem (i : StrItem) (r : List Nat) :
      i.valid = true → BadStringBody r → BadStringBody (i.text ++ r)

/-- The lowercase hexadecimal digit of a value below 16. -/
def hexDigit (d : Nat) : Nat := if d < 10 then 48 + d else 87 + d

/-- The escaped form of one byte as the specification of `WriteStringEscaped`
words it: `\"`, `\\`, `\b`, `\f`, `\n`, `\r`, `\t`, `\u00XX` for the other
control bytes, and the byte itself otherwise. -/
def escapeByte (c : Nat) : List Nat :=
  if c = 34 then [92, 34]
  else if c = 92 then [92, 92]
  else if c = 8 then [92, 98]
  else if c = 12 then [92, 102]
  else if c = 10 then [92, 110]
  else if c = 13 then [92, 114]
  else if c = 9 then [92, 116]
  else if c < 32 then [92, 117, 48, 48, hexDigit (c / 16), hexDigit (c % 16)]
  else [c]

/-- The string element that `escapeByte` writes for a byte. -/
def byteItem (c : Nat) : StrItem :=
  if c = 34 then .esc 34
  else if c = 92 then .esc 92
  else if c = 8 then .esc 98
  else if c = 12 then .esc 102
  else if c = 10 then .esc 110
  else if c = 13 then .esc 114
  else if c = 9 then .esc 116
  else if c < 32 then .uni 48 48 (hexDigit (c / 16)) (hexDigit (c % 16))
  else .raw c

/-- The fields of a struct type that the codec emits and reads, from index
`i` on: those whose tag is not `-`, each with its index, its wire name and its
type. -/
def emittedFields : List Field → Nat → List (Nat × List Nat × Ty)
  | [], _ => []
  | .mk name tag type :: rest, i =>
    if tag = [45] then emittedFields rest (i + 1)
    else (i, wireName name tag, type) :: emittedFields rest (i + 1)

/-- The members of a JSON object text: each entry is `"name":` followed by the
encoding of the value, with a comma before every entry but the first. -/
def fieldsText : Bool → List (List Nat × List Nat) → List Nat
  | _, [] => []
  | first, (name, enc) :: rest =>
    (if first then [] else [44]) ++ ([34] ++ name ++ [34, 58] ++ enc) ++ fieldsText false rest

/-- The text of a JSON object with the given entries, without whitespace. -/
def structText (entries : List (List Nat × List Nat)) : List Nat :=
  [123] ++ fieldsText true entries ++ [125]

/-- A number of the JSON grammar, by its parts: the sign, the digits of the
integer part, the digits of the fraction if there is one, and the exponent if
there is one (its letter, its sign bytes and its digits). -/
structure JsonNumber where
  neg : Bool
  int : List Nat
  frac : Option (List Nat)
  exp : Option (Nat × List Nat × List Nat)
  deriving DecidableEq, Repr

namespace JsonNumber

/-- The bytes of the sign. -/
def signText (neg : Bool) : List Nat := if neg then [45] else []

/-- The bytes of the fraction. -/
def fracText : Option (List Nat) → List Nat
  | none => []
  | some ds => 46 :: ds

/-- The bytes of the exponent. -/
def expText : Option (Nat × List Nat × List Nat) → List Nat
  | none => []
  | some (e, sign, ds) => e :: (sign ++ ds)

def text (n : JsonNumber) : List Nat :=
  signText n.neg ++ (n.int ++ (fracText n.frac ++ expText n.exp))

/-- The integer part is `0` or a run of digits that starts with 1-9. -/
def intValid (int : List Nat) : Bool :=
  decide (int = [48]) ||
    (decide (int ≠ []) && int.all isDigit && decide (int.head? ≠ some 48))

/-- A fraction has at least one digit. -/
def fracValid : Option (List Nat) → Bool
  | none => true
  | some ds => decide (ds ≠ []) && ds.all isDigit

/-- The exponent letter is `e` or `E`, its sign is empty, `+` or `-`, and it
has at least one digit. -/
def expValid : Option (Nat × List Nat × List Nat) → Bool
  | none => true
  | some (e, sign, ds) =>
    decide (e = 101 ∨ e = 69) && decide (sign = [] ∨ sign = [43] ∨ sign = [45]) &&
      decide (ds ≠ []) && ds.all isDigit

/-- The number is one of the JSON grammar. -/
def valid (n : JsonNumber) : Bool :=
  intValid n.int && fracValid n.frac && expValid n.exp

end JsonNumber

mutual
/-- A JSON text as a tree, whitespace included: the three literals, a number,
a string by its elements, an array and an object. An empty array or object
holds the whitespace between its brackets. -/
inductive Json where
  | null
  | bool (b : Bool)
  | number (n : JsonNumber)
  | string (items : List StrItem)
  | array (ws : List Nat) (elems : List JsonElem)
  | object (ws : List Nat) (members : List JsonMember)
/-- An element of an array, with the whitespace before and after it. -/
inductive JsonElem where
  | mk (ws1 : List Nat) (value : Json) (ws2 : List Nat)
/-- A member of an object, with the whitespace before the key, before the
colon, before the value and after it. -/
inductive JsonMember where
  | mk (ws1 : List Nat) (key : List StrItem) (ws2 ws3 : List Nat) (value : Json)
      (ws4 : List Nat)
end

mutual
/-- The bytes of a JSON text. -/
def Json.text : Json → List Nat
  | .null => [110, 117, 108, 108]
  | .bool true => [116, 114, 117, 101]
  | .bool false => [102, 97, 108, 115, 101]
  | .number n => n.text
  | .string items => 34 :: (strText items ++ [34])
  | .array ws elems => 91 :: (ws ++ (Json.elemsText true elems ++ [93]))
  | .object ws members => 123 :: (ws ++ (Json.membersText true members ++ [125]))
/-- The elements of an array, with a comma before every element but the first. -/
def Json.elemsText : Bool → List JsonElem → List Nat
  | _, [] => []
  | first, e :: es => (if first then [] else [44]) ++ (Json.elemText e ++ Json.elemsText false es)
/-- An element of an array. -/
def Json.elemText : JsonElem → List Nat
  | .mk ws1 v ws2 => ws1 ++ (v.text ++ ws2)
/-- The members of an object, with a comma before every member but the first. -/
def Json.membersText : Bool → List JsonMember → List Nat
  | _, [] => []
  | first, m :: ms =>
    (if first then [] else [44]) ++ (Json.memberText m ++ Json.membersText false ms)
/-- A member of an object. -/
def Json.memberText : JsonMember → List Nat
  | .mk ws1 key ws2 ws3 v ws4 =>
    ws1 ++ (34 :: (strText key ++ 34 :: (ws2 ++ 58 :: (ws3 ++ (v.text ++ ws4)))))
end

mutual
/-- The tree is a text of the JSON grammar: the whitespace is whitespace, the
numbers and the string elements are well formed, and only an empty array or
object holds whitespace of its own. -/
def Json.valid : Json → Bool
  | .null => true
  | .bool _ => true
  | .number n => n.valid
  | .string items => items.all StrItem.valid
  | .array ws elems =>
    ws.all isWhiteSpace && (decide (ws = []) || elems.isEmpty) && Json.elemsValid elems
  | .object ws members =>
    ws.all isWhiteSpace && (decide (ws = []) || members.isEmpty) && Json.membersValid members
/-- The elements of an array are well formed. -/
def Json.elemsValid : List JsonElem → Bool
  | [] => true
  | e :: es => Json.elemValid e && Json.elemsValid es
/-- An element of an array is well formed. -/
def Json.elemValid : JsonElem → Bool
  | .mk ws1 v ws2 => ws1.all isWhiteSpace && v.valid && ws2.all isWhiteSpace
/-- The members of an object are well formed. -/
def Json.membersValid : List JsonMember → Bool
  | [] => true
  | m :: ms => Json.memberValid m && Json.membersValid ms
/-- A member of an object is well formed. -/
def Json.memberValid : JsonMember → Bool
  | .mk ws1 key ws2 ws3 v ws4 =>
    ws1.all isWhiteSpace && key.all StrItem.valid && ws2.all isWhiteSpace &&
      ws3.all isWhiteSpace && v.valid && ws4.all isWhiteSpace
end

/-- What may follow a value inside an object or an array, or at the end of
the input: nothing, whitespace, a comma or a closing bracket. -/
def Delimited (tail : List Nat) : Prop :=
  ∀ c r, tail = c :: r → isWhiteSpace c = true ∨ c = 44 ∨ c = 125 ∨ c = 93

/-- The list is empty or starts with a byte satisfying `p`. -/
def StartsWith (p : Nat → Prop) (l : List Nat) : Prop := ∀ c r, l = c :: r → p c

/-- The bytes `ReadFloat64` scans over: the digits, the signs, the point and
the exponent letters. -/
def isNumberByte (c : Nat) : Bool :=
  decide ((48 ≤ c ∧ c ≤ 57) ∨ c = 45 ∨ c = 43 ∨ c = 46 ∨ c = 101 ∨ c = 69)

/-- The bytes of a boolean literal. -/
def boolText (b : Bool) : List Nat :=
  if b then [116, 114, 117, 101] else [102, 97, 108, 115, 101]

/-- The routine `dec` decodes the text `text`: wherever the cursor stands at
`text` followed by nothing or by a delimiter, the routine succeeds, leaves the
cursor right behind `text`, and turns the destination `old` into `new`. -/
def DecodesAt {F : Type} (dec : DecoderFunc F) (text : List Nat) (old new : Val F) : Prop :=
  ∀ (it : Iterator) (tail : List Nat), it.WF → it.rest = text ++ tail → Delimited tail →
    dec it old = (none, { it with head := it.head + text.length }, new)

/-- The field a key selects, with its index, counted from `i`: the last field
without the tag `-` whose wire name is exactly the key. -/
def fieldFor : List Field → Nat → List Nat → Option (Nat × Ty)
  | [], _, _ => none
  | .mk name tag type :: rest, i, key =>
    match fieldFor rest (i + 1) key with
    | some r => some r
    | none => if tag ≠ [45] ∧ wireName name tag = key then some (i, type) else none

/-- What a member with the key `key` and the value text `text` does to the
fields `p` of a struct: nothing if the key selects no field, and otherwise the
field selected gets what its decoder reads from the text. -/
def ValueDecodes {F : Type} (fl : FloatLib F) (fields : List Field) (key text : List Nat)
    (p p' : List (Val F)) : Prop :=
  match fieldFor fields 0 key with
  | none => p' = p
  | some (i, ty) =>
    ∃ dec new, compileDecoder fl ty = .ok dec ∧
      DecodesAt dec text (p.getD i .nilIface) new ∧ p' = p.set i new

/-- What the members of an object, in their order, do to the fields of a
struct. -/
def MembersDecode {F : Type} (fl : FloatLib F) (fields : List Field) :
    List JsonMember → List (Val F) → List (Val F) → Prop
  | [], p, p' => p' = p
  | .mk _ key _ _ v _ :: ms, p, p' =>
    ∃ q, ValueDecodes fl fields (strValue key) v.text p q ∧ MembersDecode fl fields ms q p'

/-- The test `t.Kind() == reflect.String`. -/
def Ty.isStringKind : Ty → Bool
  | .string => true
  | .definedString _ => true
  | _ => false

mutual
/-- The types both compilers accept: no kind outside the list of
`compileDecoder`, and keys of the kind of `string` for maps. A field with the
tag `-` is left out by both and may be of any type. -/
def Ty.supported : Ty → Bool
  | .string => true
  | .definedString _ => true
  | .int => true
  | .int64 => true
  | .int32 => true
  | .float64 => true
  | .bool => true
  | .iface => true
  | .struct fields => Ty.supportedFields fields
  | .slice elem => elem.supported
  | .map key elem => key.isStringKind && elem.supported
  | .ptr elem => elem.supported
  | .other _ => false
/-- The fields of a struct are of supported types. -/
def Ty.supportedFields : List Field → Bool
  | [] => true
  | f :: fs => Ty.supportedField f && Ty.supportedFields fs
/-- The field is left out or of a supported type. -/
def Ty.supportedField : Field → Bool
  | .mk _ tag type => decide (tag = [45]) || type.supported
end

/-- A float library for worked examples, in which a float is the text that
denotes it. -/
def textFloat : FloatLib (List Nat) :=
  { ParseFloat := fun s => some s, AppendFloat := fun f => f, zero := [48] }

/-- A wire name that reads back as itself when written between quotes as it
is: no control byte, no quote and no backslash. -/
def plainName (name : List Nat) : Bool := name.all (fun c => (StrItem.raw c).valid)

/-- The float is written by `AppendFloat` as a number of the JSON grammar that
`ParseFloat` reads back as the same float; Go's `strconv` has this property on
the finite floats. -/
def FloatRoundTrips {F : Type} (fl : FloatLib F) (f : F) : Prop :=
  ∃ n : JsonNumber, n.valid = true ∧ fl.AppendFloat f = n.text ∧ fl.ParseFloat n.text = some f

mutual
/-- The values in the scope of the round trip: a value of the shape of its
type, of a type without interfaces, in which every integer fits its type,
every float satisfies `FloatRoundTrips`, no pointer, list or map is nil, the
element type of a list or map is one the compilers accept, the key type of a
map is `string` itself and not a defined type, no map has elements of a
pointer type, the keys of a map are distinct, and the wire names of the
emitted fields of a struct are distinct and plain. -/
def RoundTrips {F : Type} (fl : FloatLib F) : Ty → Val F → Prop
  | .string, v => ∃ s, v = .str s
  | .definedString _, v => ∃ s, v = .str s
  | .int, v => ∃ n : Int, v = .int n ∧ -9223372036854775808 ≤ n ∧ n ≤ 9223372036854775807
  | .int64, v => ∃ n : Int, v = .int n ∧ -9223372036854775808 ≤ n ∧ n ≤ 9223372036854775807
  | .int32, v => ∃ n : Int, v = .int n ∧ -2147483648 ≤ n ∧ n ≤ 2147483647
  | .float64, v => ∃ f, v = .float f ∧ FloatRoundTrips fl f
  | .bool, v => ∃ b, v = .bool b
  | .iface, _ => False
  | .struct fields, v => ∃ vs, v = .struct vs ∧ vs.length = fields.length ∧
      ((emittedFields fields 0).map (fun e => e.2.1)).Nodup ∧
      (∀ e ∈ emittedFields fields 0, plainName e.2.1 = true) ∧
      RoundTripsFields fl fields 0 vs
  | .slice elem, v => ∃ len store, v = .slice len store ∧ len ≤ store.length ∧
      elem.supported = true ∧ ∀ x ∈ store.take len, RoundTrips fl elem x
  | .map key elem, v => ∃ entries, v = .map entries ∧ key = .string ∧ elem.isPtr = false ∧
      elem.supported = true ∧ (entries.map (fun e => e.1)).Nodup ∧
      ∀ e ∈ entries, RoundTrips fl elem e.2
  | .ptr elem, v => ∃ x, v = .ptr x ∧ RoundTrips fl elem x
  | .other _, _ => False
/-- The values `vs` of the fields from index `i` on are in the scope of the
round trip. -/
def RoundTripsFields {F : Type} (fl : FloatLib F) : List Field → Nat → List (Val F) → Prop
  | [], _, _ => True
  | f :: fs, i, vs =>
    RoundTripsField fl f (vs.getD i .nilIface) ∧ RoundTripsFields fl fs (i + 1) vs
/-- The value of a field is in the scope of the round trip, or the field has
the tag `-` and is not carried over. -/
def RoundTripsField {F : Type} (fl : FloatLib F) : Field → Val F → Prop
  | .mk _ tag type, v => tag = [45] ∨ RoundTrips fl type v
end

mutual
/-- Equality of a value `v` of type `t` and the value `v'` decoded, field by
field: scalars are equal, pointers point to equal values, lists have the same
length and equal elements (the capacity is not compared, and a nil list is an
empty list), maps have the same keys with equal values, and structs have equal
fields, those with the tag `-` apart. -/
def Same {F : Type} : Ty → Val F → Val F → Prop
  | .string, v, v' => v' = v
  | .definedString _, v, v' => v' = v
  | .int, v, v' => v' = v
  | .int64, v, v' => v' = v
  | .int32, v, v' => v' = v
  | .float64, v, v' => v' = v
  | .bool, v, v' => v' = v
  | .iface, v, v' => v' = v
  | .struct fields, v, v' => ∃ vs vs', v = .struct vs ∧ v' = .struct vs' ∧
      vs'.length = vs.length ∧ SameFields fields 0 vs vs'
  | .slice elem, v, v' => ∃ len store, v = .slice len store ∧ v'.sliceLen = len ∧
      List.Forall₂ (Same elem) (store.take len) (v'.sliceStore.take len)
  | .map _ elem, v, v' => ∃ entries entries', v = .map entries ∧ v' = .map entries' ∧
      List.Forall₂ (fun e e' => e'.1 = e.1 ∧ Same elem e.2 e'.2) entries entries'
  | .ptr elem, v, v' => ∃ x x', v = .ptr x ∧ v' = .ptr x' ∧ Same elem x x'
  | .other _, v, v' => v' = v
/-- Equality of the fields from index `i` on. -/
def SameFields {F : Type} : List Field → Nat → List (Val F) → List (Val F) → Prop
  | [], _, _, _ => True
  | f :: fs, i, vs, vs' =>
    SameField f (vs.getD i .nilIface) (vs'.getD i .nilIface) ∧ SameFields fs (i + 1) vs vs'
/-- Equality of a field, unless it has the tag `-`. -/
def SameField {F : Type} : Field → Val F → Val F → Prop
  | .mk _ tag type, v, v' => tag = [45] ∨ Same type v v'
end

/-- The two compilers agree on the value `v` of type `t`: the encoder writes a
text of the JSON grammar, and the decoder reads that text into a zero value as
a value equal to `v`. -/
def Transcodes {F : Type} (fl : FloatLib F) (t : Ty) (v : Val F) : Prop :=
  ∃ (enc : EncoderFunc F) (dec : DecoderFunc F) (j : Json) (v' : Val F),
    compileEncoder fl t = .ok enc ∧ (∀ w : Writer, enc w v = .ok ⟨w.Buffer ++ j.text⟩) ∧
    compileDecoder fl t = .ok dec ∧ j.valid = true ∧
    DecodesAt dec j.text (Ty.zero fl t) v' ∧ Same t v v'

/-- The capacity of the backing array after the slice decoder has appended `n`
elements to a slice of length `len` and capacity `cap`: the capacity is
doubled (8 for 0) whenever the length has reached it. -/
def grownCap : Nat → Nat → Nat → Nat
  | 0, _, cap => cap
  | n + 1, len, cap =>
    grownCap n (len + 1) (if len ≥ cap then (if cap * 2 = 0 then 8 else cap * 2) else cap)

/-- The value of an element of an array. -/
def JsonElem.value : JsonElem → Json
  | .mk _ v _ => v

/-- The elements of the key of a member of an object. -/
def JsonMember.key : JsonMember → List StrItem
  | .mk _ k _ _ _ _ => k

/-- The value of a member of an object. -/
def JsonMember.value : JsonMember → Json
  | .mk _ _ _ _ v _ => v

/-- The routine `dec` decodes the text `text` behind any whitespace: wherever
the cursor stands at whitespace, then `text`, then nothing or a delimiter, the
routine succeeds, leaves the cursor right behind `text`, and turns the
destination `old` into `new`. -/
def DecodesAtWs {F : Type} (dec : DecoderFunc F) (text : List Nat) (old new : Val F) : Prop :=
  ∀ (it : Iterator) (ws tail : List Nat), it.WF → it.rest = ws ++ (text ++ tail) →
    (∀ c ∈ ws, isWhiteSpace c = true) → Delimited tail →
    dec it old = (none, { it with head := it.head + ws.length + text.length }, new)

/-- The value a map holds under a key. -/
def mapGet {F : Type} : List (List Nat × Val F) → List Nat → Option (Val F)
  | [], _ => none
  | (k, v) :: rest, key => if k = key then some v else mapGet rest key

/-- The value decoded from the last member of an object with the given key,
among members listed with the values decoded from them. -/
def lastValue {F : Type} : List (JsonMember × Val F) → List Nat → Option (Val F)
  | [], _ => none
  | (m, x) :: rest, key =>
    match lastValue rest key with
    | some y => some y
    | none => if strValue m.key = key then some x else none

/-- Texts separated by single commas; `first` tells that no comma precedes. -/
def commaJoinedFrom : Bool → List (List Nat) → List Nat
  | _, [] => []
  | first, t :: rest => (if first then [] else [44]) ++ (t ++ commaJoinedFrom false rest)

/-- Texts separated by single commas. -/
def commaJoined (texts : List (List Nat)) : List Nat := commaJoinedFrom true texts

/-- The entries of a map as the map encoder is specified to write them: the
escaped quoted key, a colon and the encoding of the value, separated by single
commas. -/
def entriesText : Bool → List (List Nat × List Nat) → List Nat
  | _, [] => []
  | first, (key, enc) :: rest =>
    (if first then [] else [44]) ++
      (34 :: (key.flatMap escapeByte ++ [34, 58] ++ enc) ++ entriesText false rest)

/-- The key bytes of the encode plan of a field: the quoted wire name and a
colon, after a comma unless the field is the first of the plan. -/
def planKey (first : Bool) (name : List Nat) : List Nat :=
  (if first then [34] else [44, 34]) ++ name ++ [34, 58]

/-- The number of whitespace bytes at the cursor. -/
def Iterator.wsRun (it : Iterator) : Nat := (it.rest.takeWhile isWhiteSpace).length

/-- The bytes from the first byte at or after the cursor that is no
whitespace to the end of the buffer. -/
def Iterator.significant (it : Iterator) : List Nat := it.rest.dropWhile isWhiteSpace

/-- The maximal run of number-classified bytes after the whitespace at the
cursor. -/
def Iterator.numberRun (it : Iterator) : List Nat := it.significant.takeWhile isNumberByte

/-- The outcome `r` of a structural matcher for the byte `c` at the iterator
`it`: it succeeds exactly when the first byte that is no whitespace exists and
is `c`, then with the cursor one past that byte; when it fails the cursor is
behind the whitespace and the error carries that offset. -/
def StructuralOutcome (it : Iterator) (c : Nat) (r : Option Error × Iterator) : Prop :=
  (r.1 = none ↔ it.significant.head? = some c) ∧
  (r.1 = none → r.2 = { it with head := it.head + it.wsRun + 1 }) ∧
  (∀ e, r.1 = some e → r.2 = { it with head := it.head + it.wsRun } ∧
    ∃ msg, e = Error.at msg (it.head + it.wsRun))

/-- The state of the tokenizer is within its buffer: the recorded length is
the length of the buffer and the cursor is not beyond it. -/
def Iterator.InBounds (it : Iterator) : Prop :=
  it.dataLen = it.data.length ∧ it.head ≤ it.dataLen

/-- From `it` to `it'` the buffer and its length are unchanged and the cursor
has only advanced, not beyond the end of the buffer. -/
def Iterator.Advances (it it' : Iterator) : Prop :=
  it'.data = it.data ∧ it'.dataLen = it.dataLen ∧ it.head ≤ it'.head ∧ it'.head ≤ it.dataLen

/-- The error is one built by `Iterator.error` with the cursor at `it`. -/
def ErrorAt (e : Error) (it : Iterator) : Prop := ∃ msg, e = Error.at msg it.head

/-- A numeric parser for worked examples: it accepts the texts made of digits
and at most one point, with a digit among them (the value is the text), and
rejects every other text; `strconv.ParseFloat` rejects `-` and `1.2.3` too. -/
def digitsParser (s : List Nat) : Option (List Nat) :=
  if s.all (fun c => isDigit c || decide (c = 46)) && decide (s.count 46 ≤ 1) && s.any isDigit
  then some s else none

/-- The iterator over the same buffer followed by the bytes `t`, with the
cursor where it is. -/
def Iterator.extend (it : Iterator) (t : List Nat) : Iterator :=
  { head := it.head, data := it.data ++ t, dataLen := it.dataLen + t.length }

/-- The successful runs of the decoder `dec` do not depend on what follows
the bytes they have read: such a run leaves the buffer as it is and the cursor
at or after the old one; when it stops before the end of the buffer, or when
`closed` says that it stops behind a closing byte, the run on the buffer
followed by any bytes `t` is the same run. -/
def StableDec {F : Type} (closed : Bool) (dec : DecoderFunc F) : Prop :=
  ∀ (it it' : Iterator) (p p' : Val F), it.InBounds → dec it p = (none, it', p') →
    it.Advances it' ∧
      ∀ t : List Nat, closed = true ∨ it'.head < it.dataLen →
        dec (it.extend t) p = (none, it'.extend t, p')

/-- A continuation byte of UTF-8: `10xxxxxx`. -/
def isCont (c : Nat) : Bool := decide (128 ≤ c ∧ c ≤ 191)

/-- The bytes are well-formed UTF-8 (RFC 3629): each sequence is one byte
below `80`, or a lead byte `C2`-`DF`, `E0`-`EF` or `F0`-`F4` followed by one,
two or three continuation bytes, where the byte after `E0` is at least `A0`,
the byte after `ED` at most `9F` (no surrogate), the byte after `F0` at least
`90` and the byte after `F4` at most `8F` (nothing above U+10FFFF). -/
def validUtf8 : List Nat → Bool
  | [] => true
  | b0 :: rest =>
    if b0 < 128 then validUtf8 rest
    else if 194 ≤ b0 ∧ b0 ≤ 223 then
      match rest with
      | b1 :: rest => isCont b1 && validUtf8 rest
      | _ => false
    else if 224 ≤ b0 ∧ b0 ≤ 239 then
      match rest with
      | b1 :: b2 :: rest =>
        isCont b1 && decide ((b0 = 224 → 160 ≤ b1) ∧ (b0 = 237 → b1 ≤ 159)) && isCont b2 &&
          validUtf8 rest
      | _ => false
    else if 240 ≤ b0 ∧ b0 ≤ 244 then
      match rest with
      | b1 :: b2 :: b3 :: rest =>
        isCont b1 && decide ((b0 = 240 → 144 ≤ b1) ∧ (b0 = 244 → b1 ≤ 143)) && isCont b2 &&
          isCont b3 && validUtf8 rest
      | _ => false
    else false

/-- The bytes are the body of a string literal of the JSON grammar: raw bytes
that are no control byte, quote or backslash, two-byte escapes, and escapes
`\uXXXX` with four hex digits. -/
def isStringBody : List Nat → Bool
  | [] => true
  | c :: rest =>
    if c = 92 then
      match rest with
      | [] => false
      | e :: rest =>
        if e = 117 then
          match rest with
          | a :: b :: c :: d :: rest => (StrItem.uni a b c d).valid && isStringBody rest
          | _ => false
        else (StrItem.esc e).valid && isStringBody rest
    else (StrItem.raw c).valid && isStringBody rest

/-- The float is written by `AppendFloat` as a number of the JSON grammar.
Go's `strconv` writes every finite float so, and `NaN`, `+Inf` and `-Inf` for
the others. -/
def FloatConforms {F : Type} (fl : FloatLib F) (f : F) : Prop :=
  ∃ n : JsonNumber, n.valid = true ∧ fl.AppendFloat f = n.text

mutual
/-- The wire names of the fields the codec emits are bodies of string literals
of the JSON grammar and well-formed UTF-8, in the type and in the types nested
in it. -/
def Ty.namesWellFormed : Ty → Bool
  | .struct fields => Ty.namesWellFormedFields fields
  | .slice elem => elem.namesWellFormed
  | .map _ elem => elem.namesWellFormed
  | .ptr elem => elem.namesWellFormed
  | .string => true
  | .definedString _ => true
  | .int => true
  | .int64 => true
  | .int32 => true
  | .float64 => true
  | .bool => true
  | .iface => true
  | .other _ => true
/-- The wire names in a list of fields are well-formed. -/
def Ty.namesWellFormedFields : List Field → Bool
  | [] => true
  | f :: fs => Ty.namesWellFormedField f && Ty.namesWellFormedFields fs
/-- The field has the tag `-`, or its wire name is well-formed and so are
those in its type. -/
def Ty.namesWellFormedField : Field → Bool
  | .mk name tag type =>
    decide (tag = [45]) ||
      (isStringBody (wireName name tag) && validUtf8 (wireName name tag) && type.namesWellFormed)
end

mutual
/-- The values in the scope of the conformance statement: every integer fits
64 bits, every float is one that `AppendFloat` writes as a JSON number, every
string and every map key is well-formed UTF-8, and the dynamic type of every
interface value has well-formed wire names. Of a list only the elements below
its length count. -/
def Val.Conforming {F : Type} (fl : FloatLib F) : Val F → Prop
  | .int n => -9223372036854775808 ≤ n ∧ n ≤ 9223372036854775807
  | .float f => FloatConforms fl f
  | .iface t v => t.namesWellFormed = true ∧ Val.Conforming fl v
  | .struct fields => Val.ConformingFirst fl fields.length fields
  | .slice len store => Val.ConformingFirst fl len store
  | .map entries => Val.ConformingEntries fl entries
  | .ptr v => Val.Conforming fl v
  | .str s => validUtf8 s = true
  | .bool _ => True
  | .nilIface => True
  | .nilSlice => True
  | .nilMap => True
  | .nilPtr => True
/-- The first `n` values of a list are in the scope of the conformance
statement. -/
def Val.ConformingFirst {F : Type} (fl : FloatLib F) : Nat → List (Val F) → Prop
  | _, [] => True
  | 0, _ :: _ => True
  | n + 1, v :: vs => Val.Conforming fl v ∧ Val.ConformingFirst fl n vs
/-- The keys of the entries of a map are well-formed UTF-8 and the values are
in the scope of the conformance statement. -/
def Val.ConformingEntries {F : Type} (fl : FloatLib F) : List (List Nat × Val F) → Prop
  | [] => True
  | (k, v) :: es => validUtf8 k = true ∧ Val.Conforming fl v ∧ Val.ConformingEntries fl es
end

/-- The encoder writes a text of the JSON grammar whenever it encodes a value
in the scope of the conformance statement. -/
def ConformingEnc {F : Type} (fl : FloatLib F) (enc : EncoderFunc F) : Prop :=
  ∀ (w w' : Writer) (p : Val F), Val.Conforming fl p → enc w p = .ok w' →
    ∃ j : Json, j.valid = true ∧ w'.Buffer = w.Buffer ++ j.text

/-- The plans of a struct encoder: every encoder is a `ConformingEnc`, and
the key bytes are those of a wire name that is the body of a string literal,
with a comma in front of every key but the first. -/
def ConformingPlans {F : Type} (fl : FloatLib F) :
    Bool → List (structFieldEncoder F) → Prop
  | _, [] => True
  | first, pl :: rest =>
    (ConformingEnc fl pl.encoder ∧ ∃ items : List StrItem, items.all StrItem.valid = true ∧
        pl.key = planKey first (strText items)) ∧
      ConformingPlans fl false rest

/-- The encoder keeps the buffer well-formed UTF-8 whenever it encodes a value
in the scope of the conformance statement. -/
def Utf8Enc {F : Type} (fl : FloatLib F) (enc : EncoderFunc F) : Prop :=
  ∀ (w w' : Writer) (p : Val F), Val.Conforming fl p → validUtf8 w.Buffer = true →
    enc w p = .ok w' → validUtf8 w'.Buffer = true

/-- The plans of a struct encoder: every encoder is a `Utf8Enc` and the key
bytes are well-formed UTF-8. -/
def Utf8Plans {F : Type} (fl : FloatLib F) : List (structFieldEncoder F) → Prop
  | [] => True
  | pl :: rest => (Utf8Enc fl pl.encoder ∧ validUtf8 pl.key = true) ∧ Utf8Plans fl rest

/-- Two outcomes of a string read are the same: the cursor is the same and
either both are the same string or both are errors built at that cursor. -/
def SameOutcome (r s : Except Error (List Nat) × Iterator) : Prop :=
  r.2 = s.2 ∧
    ((∃ str, r.1 = .ok str ∧ s.1 = .ok str) ∨
      (∃ m1 m2, r.1 = .error (Error.at m1 r.2.head) ∧ s.1 = .error (Error.at m2 r.2.head)))

/-- The types on which a call of a compiler on a type of this shape calls
the compiler again: the types of the fields of a struct that are not tagged
`-`, the element type of a slice, of a pointer and of a map with keys of the
kind of `string`. -/
def Shape.calls (types : Nat → Shape) : Shape → List Nat
  | .struct fields => (fields.filter (fun f => decide (f.2.1 ≠ [45]))).map (fun f => f.2.2)
  | .slice elem => [elem]
  | .map key elem => if (types key).isStringKind then [elem] else []
  | .ptr elem => [elem]
  | .string => []
  | .definedString _ => []
  | .int => []
  | .int64 => []
  | .int32 => []
  | .float64 => []
  | .bool => []
  | .iface => []
  | .other _ => []

/-- A table of types for worked examples. Handles 0 and 1 are
`type Node struct { Next *Node; Value int }` and `*Node`; handles 2 and 3 are
`type Tree struct { Kids []Tree }` and `[]Tree`; handle 4 is `int`, handle 5
is `string`, handle 6 is `[]string` and handle 7 is
`struct { Name string; Tags []string; Age int }`; handles 8, 9 and 10 are
`type N struct { Bad chan int; Next *N }`, `chan int` and `*N`. -/
def exampleTypes : Nat → Shape
  | 0 => .struct [([78, 101, 120, 116], [], 1), ([86, 97, 108, 117, 101], [], 4)]
  | 1 => .ptr 0
  | 2 => .struct [([75, 105, 100, 115], [], 3)]
  | 3 => .slice 2
  | 4 => .int
  | 5 => .string
  | 6 => .slice 5
  | 7 => .struct [([78, 97, 109, 101], [], 5), ([84, 97, 103, 115], [], 6), ([65, 103, 101], [], 4)]
  | 8 => .struct [([66, 97, 100], [], 9), ([78, 101, 120, 116], [], 10)]
  | 9 => .other "chan"
  | 10 => .ptr 8
  | _ => .other "invalid"

/-- The zero values of the types of `exampleTypes`. -/
def exampleZero : Nat → Val (List Nat)
  | 0 => .struct [.nilPtr, .int 0]
  | 1 => .nilPtr
  | 2 => .struct [.nilSlice]
  | 3 => .nilSlice
  | 4 => .int 0
  | 5 => .str []
  | 6 => .nilSlice
  | 7 => .struct [.str [], .nilSlice, .int 0]
  | 8 => .struct [.nilIface, .nilPtr]
  | 10 => .nilPtr
  | _ => .nilIface

/-- A rank on the handles of `exampleTypes`: the types 4 to 7 are ranked by
their nesting, every other handle is ranked above them. -/
def exampleRank : Nat → Nat
  | 4 => 0
  | 5 => 0
  | 6 => 1
  | 7 => 2
  | _ => 3

/-- The compiler is called on the type `b` from a call on the type `a`. -/
def Calls (types : Nat → Shape) (a b : Nat) : Prop := b ∈ (types a).calls types

/-- The type is self-referential: the calls of the compiler that start from
it lead back to it. -/
def SelfReferential (types : Nat → Shape) (t : Nat) : Prop :=
  Relation.TransGen (Calls types) t t

mutual
/-- The type with the handle `h` in the table `types` is the finite tree `t`:
the shape at `h` is that of `t`, on handles at which the trees `t` is built
from stand, and `zero` gives on these handles the zero values of `Ty.zero`.
The type of a field with the tag `-` is not looked at. A type that contains
itself stands at no handle as a tree. -/
def Ty.At {F : Type} (fl : FloatLib F) (types : Nat → Shape) (zero : Nat → Val F) :
    Ty → Nat → Prop
  | .string, h => types h = .string ∧ zero h = .str []
  | .definedString name, h => types h = .definedString name ∧ zero h = .str []
  | .int, h => types h = .int ∧ zero h = .int 0
  | .int64, h => types h = .int64 ∧ zero h = .int 0
  | .int32, h => types h = .int32 ∧ zero h = .int 0
  | .float64, h => types h = .float64 ∧ zero h = .float fl.zero
  | .bool, h => types h = .bool ∧ zero h = .bool false
  | .iface, h => types h = .iface ∧ zero h = .nilIface
  | .struct fields, h => ∃ fs, types h = .struct fs ∧
      zero h = .struct (Ty.zeroFields fl fields) ∧ Ty.FieldsAt fl types zero fields fs
  | .slice elem, h => ∃ e, types h = .slice e ∧ zero h = .nilSlice ∧ Ty.At fl types zero elem e
  | .map key elem, h => ∃ k e, types h = .map k e ∧ zero h = .nilMap ∧
      Ty.At fl types zero key k ∧ Ty.At fl types zero elem e
  | .ptr elem, h => ∃ e, types h = .ptr e ∧ zero h = .nilPtr ∧ Ty.At fl types zero elem e
  | .other kind, h => types h = .other kind ∧ zero h = .int 0
/-- The fields of a struct type stand in the table as the fields of the tree. -/
def Ty.FieldsAt {F : Type} (fl : FloatLib F) (types : Nat → Shape) (zero : Nat → Val F) :
    List Field → List (List Nat × List Nat × Nat) → Prop
  | [], fs => fs = []
  | f :: rest, fs => ∃ g gs, fs = g :: gs ∧ Ty.FieldAt fl types zero f g ∧
      Ty.FieldsAt fl types zero rest gs
/-- A field stands in the table as the field of the tree. -/
def Ty.FieldAt {F : Type} (fl : FloatLib F) (types : Nat → Shape) (zero : Nat → Val F) :
    Field → List Nat × List Nat × Nat → Prop
  | .mk name tag type, g => g.1 = name ∧ g.2.1 = tag ∧ (tag = [45] ∨ Ty.At fl types zero type g.2.2)
end

mutual
/-- The depth of the nesting of a type. -/
def Ty.depth : Ty → Nat
  | .string => 0
  | .definedString _ => 0
  | .int => 0
  | .int64 => 0
  | .int32 => 0
  | .float64 => 0
  | .bool => 0
  | .iface => 0
  | .struct fields => Ty.depthFields fields + 1
  | .slice elem => elem.depth + 1
  | .map _ elem => elem.depth + 1
  | .ptr elem => elem.depth + 1
  | .other _ => 0
/-- The greatest depth of the types of the fields. -/
def Ty.depthFields : List Field → Nat
  | [] => 0
  | f :: rest => max (Ty.depthField f) (Ty.depthFields rest)
/-- The depth of the type of a field. -/
def Ty.depthField : Field → Nat
  | .mk _ _ type => type.depth
end

/-! ## Theorems -/

/-! ## Classification tables -/

theorem isWhiteSpace_iff (c : Nat) :
    isWhiteSpace c = true ↔ (c = 32 ∨ c = 9 ∨ c = 10 ∨ c = 13) := by
  simp [isWhiteSpace]

theorem isDigit_iff (c : Nat) : isDigit c = true ↔ (48 ≤ c ∧ c ≤ 57) := by
  simp [isDigit]

theorem parseTable_ws (c : Nat) :
    parseTable c &&& maskWhiteSpace = 0 ↔ isWhiteSpace c = false := by
  rw [← Bool.not_eq_true, isWhiteSpace_iff]
  unfold parseTable maskWhiteSpace maskNumber maskString maskObjectStart maskObjectEnd
    maskArrayStart maskArrayEnd maskSeparator
  split_ifs <;>
    first | (constructor <;> intro h <;> first | omega | (exfalso; revert h; decide) | decide)

theorem parseTable_num (c : Nat) : parseTable c &&& maskNumber = 0 ↔
    ¬ ((48 ≤ c ∧ c ≤ 57) ∨ c = 45 ∨ c = 43 ∨ c = 46 ∨ c = 101 ∨ c = 69) := by
  unfold parseTable maskWhiteSpace maskNumber maskString maskObjectStart maskObjectEnd
    maskArrayStart maskArrayEnd maskSeparator
  split_ifs <;>
    first | (constructor <;> intro h <;> first | omega | (exfalso; revert h; decide) | decide)

/-! ## Lists -/

theorem drop_eq_cons_getD (l : List Nat) (h : Nat) (hl : h < l.length) :
    l.drop h = l.getD h 0 :: l.drop (h + 1) := by
  rw [List.drop_eq_getElem_cons hl]
  simp [List.getD_eq_getElem?_getD, List.getElem?_eq_getElem hl]

theorem takeWhile_append_stop (p : Nat → Bool) (xs ys : List Nat) (hx : ∀ c ∈ xs, p c = true)
    (hy : ∀ c r, ys = c :: r → p c = false) : (xs ++ ys).takeWhile p = xs := by
  induction xs with
  | nil =>
    cases ys with
    | nil => rfl
    | cons c r => simp [List.takeWhile_cons, hy c r rfl]
  | cons x xs ih =>
    simp only [List.cons_append, List.takeWhile_cons, hx x (List.mem_cons_self _ _), if_true]
    rw [ih (fun c hc => hx c (List.mem_cons_of_mem _ hc))]

theorem drop_takeWhile_length (p : Nat → Bool) (l : List Nat) :
    l.drop (l.takeWhile p).length = l.dropWhile p := by
  induction l with
  | nil => rfl
  | cons x xs ih =>
    cases hx : p x <;> simp [List.takeWhile_cons, List.dropWhile_cons, hx, ih]

theorem dropWhile_head (p : Nat → Bool) (l : List Nat) (c : Nat) (r : List Nat)
    (h : l.dropWhile p = c :: r) : p c = false := by
  induction l with
  | nil => cases h
  | cons x xs ih =>
    cases hx : p x
    · simp [List.dropWhile_cons, hx] at h
      rw [← h.1]; exact hx
    · simp [List.dropWhile_cons, hx] at h
      exact ih h

theorem takeWhile_all (p : Nat → Bool) (l : List Nat) : ∀ c ∈ l.takeWhile p, p c = true := by
  intro c hc
  exact (List.mem_takeWhile_imp hc)

/-! ## The cursor -/

namespace Iterator

theorem rest_of_lt (it : Iterator) (hwf : it.WF) (h : it.head < it.dataLen) :
    it.rest = it.byteAt it.head :: it.data.drop (it.head + 1) := by
  unfold rest byteAt
  exact drop_eq_cons_getD _ _ (by rw [← hwf]; exact h)

theorem rest_nil_of_ge (it : Iterator) (hwf : it.WF) (h : it.head ≥ it.dataLen) :
    it.rest = [] := by
  unfold rest; exact List.drop_eq_nil_of_le (by rw [← hwf]; exact h)

theorem lt_of_rest_cons (it : Iterator) (hwf : it.WF) {c : Nat} {r : List Nat}
    (h : it.rest = c :: r) : it.head < it.dataLen := by
  by_contra hn
  rw [rest_nil_of_ge it hwf (by omega)] at h
  cases h

theorem byteAt_of_rest_cons (it : Iterator) (hwf : it.WF) {c : Nat} {r : List Nat}
    (h : it.rest = c :: r) : it.byteAt it.head = c := by
  have := rest_of_lt it hwf (lt_of_rest_cons it hwf h)
  rw [h] at this
  exact (List.cons.inj this).1.symm

theorem lt_iff_rest (it : Iterator) (hwf : it.WF) : it.head < it.dataLen ↔ it.rest ≠ [] := by
  constructor
  · intro h; rw [rest_of_lt it hwf h]; simp
  · intro h; by_contra hn; exact h (rest_nil_of_ge it hwf (by omega))

theorem byteAt_head (it : Iterator) : it.byteAt it.head = it.rest.headD 0 := by
  unfold byteAt rest
  rw [List.headD_eq_head?_getD, List.head?_drop, List.getD_eq_getElem?_getD]

theorem rest_adv (it : Iterator) (k : Nat) :
    Iterator.rest { it with head := it.head + k } = it.rest.drop k := by
  show List.drop (it.head + k) it.data = _
  unfold rest; rw [List.drop_drop]

theorem rest_length (it : Iterator) (hwf : it.WF) : it.rest.length = it.dataLen - it.head := by
  unfold rest; rw [List.length_drop, hwf]

/-! ## skipWhiteSpace -/

theorem skipWhiteSpaceLoop_eq (it : Iterator) (hwf : it.WF) (fuel h : Nat)
    (hf : it.dataLen - h ≤ fuel) :
    it.skipWhiteSpaceLoop fuel h = h + ((it.data.drop h).takeWhile isWhiteSpace).length := by
  induction fuel generalizing h with
  | zero =>
    have : it.data.length ≤ h := by rw [← hwf]; omega
    simp [Iterator.skipWhiteSpaceLoop, List.drop_eq_nil_of_le this]
  | succ fuel ih =>
    unfold Iterator.skipWhiteSpaceLoop
    by_cases hlt : h < it.dataLen
    · have hl : h < it.data.length := by rw [← hwf]; exact hlt
      rw [if_pos hlt, drop_eq_cons_getD _ _ hl]
      generalize it.data.getD h 0 = c
      cases hw : isWhiteSpace c
      · rw [if_pos (by rw [parseTable_ws]; exact hw)]
        simp [List.takeWhile_cons, hw]
      · rw [if_neg (by rw [parseTable_ws]; simp [hw]), ih (h + 1) (by omega)]
        simp [List.takeWhile_cons, hw]; omega
    · have : it.data.length ≤ h := by rw [← hwf]; omega
      simp [hlt, List.drop_eq_nil_of_le this]

theorem skipWhiteSpace_eq (it : Iterator) (hwf : it.WF) :
    it.skipWhiteSpace =
      { it with head := it.head + (it.rest.takeWhile isWhiteSpace).length } := by
  unfold skipWhiteSpace
  rw [skipWhiteSpaceLoop_eq it hwf _ _ (le_refl _)]
  rfl

theorem skipWhiteSpace_wf (it : Iterator) (hwf : it.WF) : it.skipWhiteSpace.WF := hwf

theorem skipWhiteSpace_rest (it : Iterator) (hwf : it.WF) :
    it.skipWhiteSpace.rest = it.rest.dropWhile isWhiteSpace := by
  rw [skipWhiteSpace_eq it hwf, rest_adv, drop_takeWhile_length]

/-- Skipping over a known whitespace prefix. -/
theorem skipWhiteSpace_of_rest (it : Iterator) (hwf : it.WF) (ws r : List Nat)
    (h : it.rest = ws ++ r) (hws : ∀ c ∈ ws, isWhiteSpace c = true)
    (hr : ∀ c r', r = c :: r' → isWhiteSpace c = false) :
    it.skipWhiteSpace = { it with head := it.head + ws.length } := by
  rw [skipWhiteSpace_eq it hwf, h, takeWhile_append_stop _ _ _ hws hr]

theorem skipWhiteSpace_idem (it : Iterator) (hwf : it.WF) :
    it.skipWhiteSpace.skipWhiteSpace = it.skipWhiteSpace := by
  have h1 := skipWhiteSpace_eq it.skipWhiteSpace hwf
  rw [h1, skipWhiteSpace_rest it hwf]
  have : List.takeWhile isWhiteSpace (it.rest.dropWhile isWhiteSpace) = [] := by
    cases hdw : List.dropWhile isWhiteSpace it.rest with
    | nil => rfl
    | cons c r => simp [List.takeWhile_cons, dropWhile_head _ _ _ _ hdw]
  rw [this]; rfl

/-! ## ReadInt64 -/

theorem readInt64Loop_eq (it : Iterator) (hwf : it.WF) (fuel h : Nat) (n : Int)
    (hf : it.dataLen - h ≤ fuel) :
    it.readInt64Loop fuel h n =
      (h + ((it.data.drop h).takeWhile isDigit).length,
       ((it.data.drop h).takeWhile isDigit).foldl
         (fun (n : Int) (c : Nat) => wrap64 (n * 10 + ((c : Int) - 48))) n) := by
  induction fuel generalizing h n with
  | zero =>
    have : it.data.length ≤ h := by rw [← hwf]; omega
    simp [Iterator.readInt64Loop, List.drop_eq_nil_of_le this]
  | succ fuel ih =>
    unfold Iterator.readInt64Loop
    by_cases hlt : h < it.dataLen
    · have hl : h < it.data.length := by rw [← hwf]; exact hlt
      rw [if_pos hlt, drop_eq_cons_getD _ _ hl]
      generalize it.data.getD h 0 = c
      cases hw : isDigit c
      · have : ¬ (48 ≤ c ∧ c ≤ 57) := by rw [← isDigit_iff]; simp [hw]
        simp only [this, if_false, List.takeWhile_cons, hw]
        simp
      · have : (48 ≤ c ∧ c ≤ 57) := by rw [← isDigit_iff]; exact hw
        simp only [this, and_self, if_true, List.takeWhile_cons, hw]
        rw [ih (h + 1) _ (by omega)]
        simp; omega
    · have : it.data.length ≤ h := by rw [← hwf]; omega
      simp [hlt, List.drop_eq_nil_of_le this]

end Iterator

theorem wrap64_step (a : Int) (d : Int) : wrap64 (wrap64 a * 10 + d) = wrap64 (a * 10 + d) := by
  unfold wrap64; omega

theorem foldl_wrap_eq_wrap (ds : List Nat) (a : Int) :
    (ds.foldl (fun (n : Int) (c : Nat) => wrap64 (n * 10 + ((c : Int) - 48))) (wrap64 a)) =
      wrap64 (ds.foldl (fun (n : Int) (c : Nat) => n * 10 + ((c : Int) - 48)) a) := by
  induction ds generalizing a with
  | nil => rfl
  | cons d ds ih =>
    simp only [List.foldl_cons]
    rw [wrap64_step]
    exact ih _

theorem decVal_eq_foldl (ds : List Nat) :
    ds.foldl (fun (n : Int) (c : Nat) => wrap64 (n * 10 + ((c : Int) - 48))) 0 =
      wrap64 (decVal ds) := by
  have := foldl_wrap_eq_wrap ds 0
  have h0 : wrap64 0 = 0 := by decide
  rw [h0] at this
  exact this

namespace Iterator

theorem readInt64Sign_minus (it : Iterator) (r : List Nat) (h : it.rest = 45 :: r) :
    it.readInt64Sign = (.ok true, { it with head := it.head + 1 }) := by
  unfold readInt64Sign
  rw [byteAt_head, h]; rfl

theorem readInt64Sign_plus (it : Iterator) (r : List Nat) (h : it.rest = 43 :: r) :
    it.readInt64Sign = (.error (it.error "leading '+' is not allowed in JSON numbers"), it) := by
  unfold readInt64Sign
  rw [byteAt_head, h]; rfl

theorem readInt64Sign_none (it : Iterator) (c : Nat) (r : List Nat) (h : it.rest = c :: r)
    (h1 : c ≠ 45) (h2 : c ≠ 43) : it.readInt64Sign = (.ok false, it) := by
  unfold readInt64Sign
  rw [byteAt_head, h]
  simp [h1, h2]

theorem readInt64Digits_zero (it : Iterator) (hwf : it.WF) (r : List Nat) (h : it.rest = 48 :: r)
    (hr : ∀ c r', r = c :: r' → isDigit c = false) :
    it.readInt64Digits = (.ok 0, { it with head := it.head + 1 }) := by
  unfold readInt64Digits
  have h1 : it.head < it.dataLen ∧ it.byteAt it.head = 48 :=
    ⟨lt_of_rest_cons it hwf h, byteAt_of_rest_cons it hwf h⟩
  rw [if_pos h1]
  have hwf1 : Iterator.WF { it with head := it.head + 1 } := hwf
  have hr1 : Iterator.rest { it with head := it.head + 1 } = r := by rw [rest_adv, h]; rfl
  simp only []
  rw [if_neg]
  rintro ⟨hl, hb⟩
  rw [lt_iff_rest _ hwf1] at hl
  cases hr' : r with
  | nil => exact hl (by rw [hr1, hr'])
  | cons c r' =>
    have hc := byteAt_of_rest_cons _ hwf1 (hr1.trans hr')
    rw [hc, ← isDigit_iff, hr c r' hr'] at hb
    cases hb

theorem readInt64Digits_zero_digit (it : Iterator) (hwf : it.WF) (c : Nat) (r : List Nat)
    (h : it.rest = 48 :: c :: r) (hc : isDigit c = true) :
    ∃ e it', it.readInt64Digits = (.error e, it') := by
  unfold readInt64Digits
  have h1 : it.head < it.dataLen ∧ it.byteAt it.head = 48 :=
    ⟨lt_of_rest_cons it hwf h, byteAt_of_rest_cons it hwf h⟩
  rw [if_pos h1]
  have hwf1 : Iterator.WF { it with head := it.head + 1 } := hwf
  have hr1 : Iterator.rest { it with head := it.head + 1 } = c :: r := by rw [rest_adv, h]; rfl
  simp only []
  rw [if_pos]
  · exact ⟨_, _, rfl⟩
  · exact ⟨lt_of_rest_cons _ hwf1 hr1, by
      rw [byteAt_of_rest_cons _ hwf1 hr1]; exact (isDigit_iff c).mp hc⟩

theorem readInt64Digits_run (it : Iterator) (hwf : it.WF) (h : ∀ r, it.rest ≠ 48 :: r) :
    it.readInt64Digits = (.ok (wrap64 (decVal (it.rest.takeWhile isDigit))),
      { it with head := it.head + (it.rest.takeWhile isDigit).length }) := by
  unfold readInt64Digits
  rw [if_neg]
  · have hloop := readInt64Loop_eq it hwf (it.dataLen - it.head) it.head 0 (le_refl _)
    rw [decVal_eq_foldl] at hloop
    rw [hloop]; rfl
  · rintro ⟨hl, hb⟩
    have := rest_of_lt it hwf hl
    rw [hb] at this
    exact h _ this

theorem readInt64Finish_ok (it : Iterator) (hwf : it.WF) (start : Nat) (neg : Bool) (n : Int)
    (hs : it.head ≠ start) (hr : ∀ c r, it.rest = c :: r → c ≠ 46 ∧ c ≠ 101 ∧ c ≠ 69) :
    it.readInt64Finish start neg n = (.ok (if neg then wrap64 (-n) else n), it) := by
  unfold readInt64Finish
  rw [if_neg hs, if_neg]
  rintro ⟨hl, hb⟩
  have h1 := rest_of_lt it hwf hl
  have := hr _ _ h1
  omega

theorem readInt64Finish_error (it : Iterator) (hwf : it.WF) (start : Nat) (neg : Bool) (n : Int)
    (h : it.head = start ∨ ∃ c r, it.rest = c :: r ∧ (c = 46 ∨ c = 101 ∨ c = 69)) :
    ∃ e it', it.readInt64Finish start neg n = (.error e, it') := by
  unfold readInt64Finish
  by_cases hs : it.head = start
  · rw [if_pos hs]; exact ⟨_, _, rfl⟩
  · rw [if_neg hs]
    rcases h with h | ⟨c, r, hr, hc⟩
    · exact absurd h hs
    · rw [if_pos]
      · exact ⟨_, _, rfl⟩
      · exact ⟨lt_of_rest_cons it hwf hr, by rw [byteAt_of_rest_cons it hwf hr]; exact hc⟩

theorem ReadInt64_skip (it : Iterator) (hwf : it.WF) :
    it.ReadInt64 = it.skipWhiteSpace.ReadInt64 := by
  unfold ReadInt64
  rw [skipWhiteSpace_idem it hwf]

theorem ReadInt64_of_literal0 (it : Iterator) (hwf : it.WF) (neg : Bool)
    (digits rest : List Nat) (h : IntLiteral it.rest [] neg digits rest) :
    it.ReadInt64 = (.ok (wrap64 (if neg then -(decVal digits) else decVal digits)),
      { it with head := it.head + (if neg then 1 else 0) + digits.length }) := by
  obtain ⟨hsplit, hws, hdig, hrest⟩ := h
  have hdne : ∃ d ds, digits = d :: ds ∧ isDigit d = true := by
    rcases hdig with h0 | ⟨d, ds, hd, h1, h2, _⟩
    · exact ⟨48, [], h0, by decide⟩
    · exact ⟨d, ds, hd, by rw [isDigit_iff]; omega⟩
  obtain ⟨d0, ds0, hd0, hd0d⟩ := hdne
  have hd0' : 48 ≤ d0 ∧ d0 ≤ 57 := (isDigit_iff d0).mp hd0d
  have hskip : it.skipWhiteSpace = it := by
    have := skipWhiteSpace_of_rest it hwf [] _ hsplit hws (by
      intro c r' hc
      cases neg
      · simp [hd0] at hc
        rw [← hc.1, ← Bool.not_eq_true, isWhiteSpace_iff]; omega
      · simp at hc
        rw [← hc.1]; decide)
    simpa using this
  simp only [List.nil_append] at hsplit
  -- the digit stage, from an iterator standing on the digits
  have hstage : ∀ (j : Iterator), j.WF → j.rest = digits ++ rest →
      j.readInt64Digits = (.ok (wrap64 (decVal digits)),
        { head := j.head + digits.length, data := j.data, dataLen := j.dataLen }) := by
    intro j hj hjr
    rcases hdig with h0 | ⟨d, ds, hd, h1, h2, h3⟩
    · subst h0
      rw [readInt64Digits_zero j hj rest hjr (fun c r' hc => (hrest c r' hc).1)]
      rfl
    · have hne : ∀ r, j.rest ≠ 48 :: r := by
        intro r hr
        rw [hjr, hd] at hr
        simp at hr
        omega
      have htw : j.rest.takeWhile isDigit = digits := by
        rw [hjr]
        apply takeWhile_append_stop
        · intro c hc
          rw [hd0] at hc
          rcases List.mem_cons.mp hc with rfl | hc
          · exact hd0d
          · rw [hd0] at hd; cases hd; exact h3 c hc
        · intro c r hc; exact (hrest c r hc).1
      rw [readInt64Digits_run j hj hne, htw]
  have hfin : ∀ (j : Iterator), j.WF → j.rest = digits ++ rest → ∀ ng n,
      Iterator.readInt64Finish
        { head := j.head + digits.length, data := j.data, dataLen := j.dataLen } j.head ng n =
        (.ok (if ng then wrap64 (-n) else n),
          { head := j.head + digits.length, data := j.data, dataLen := j.dataLen }) := by
    intro j hj hjr ng n
    have hj1 : Iterator.WF
        { head := j.head + digits.length, data := j.data, dataLen := j.dataLen } := hj
    apply readInt64Finish_ok _ hj1 j.head ng n (by simp [hd0])
    intro c r hc
    rw [rest_adv j, hjr] at hc
    simp at hc
    exact (hrest c r hc).2
  have hlt : it.head < it.dataLen := by
    rw [lt_iff_rest it hwf, hsplit]; cases neg <;> simp [hd0]
  unfold ReadInt64
  rw [hskip]
  simp only [ge_iff_le, not_le.mpr hlt, if_false]
  cases neg
  · simp only [Bool.false_eq_true, if_false, List.nil_append] at hsplit ⊢
    rw [readInt64Sign_none it d0 (ds0 ++ rest) (by rw [hsplit, hd0]; rfl) (by omega) (by omega)]
    simp only []
    rw [hstage it hwf hsplit]
    simp only []
    rw [hfin it hwf hsplit]
    simp
  · simp only [if_true] at hsplit ⊢
    rw [readInt64Sign_minus it _ hsplit]
    simp only []
    have hr1 : Iterator.rest { it with head := it.head + 1 } = digits ++ rest := by
      rw [rest_adv, hsplit]; rfl
    rw [hstage { it with head := it.head + 1 } hwf hr1]
    simp only []
    rw [hfin { it with head := it.head + 1 } hwf hr1]
    simp only [if_true]
    congr 2
    unfold wrap64; omega

end Iterator

namespace Iterator

theorem ReadInt64_of_literal (it : Iterator) (hwf : it.WF) (ws : List Nat) (neg : Bool)
    (digits rest : List Nat) (h : IntLiteral it.rest ws neg digits rest) :
    it.ReadInt64 = (.ok (wrap64 (if neg then -(decVal digits) else decVal digits)),
      { it with head := it.head + ws.length + (if neg then 1 else 0) + digits.length }) := by
  obtain ⟨hsplit, hws, hdig, hrest⟩ := h
  have hskip : it.skipWhiteSpace = { it with head := it.head + ws.length } := by
    apply skipWhiteSpace_of_rest it hwf ws _ hsplit hws
    intro c r' hc
    cases neg
    · rcases hdig with h0 | ⟨d, ds, hd, h1, h2, _⟩
      · subst h0; simp at hc; rw [← hc.1]; decide
      · subst hd; simp at hc
        rw [← hc.1, ← Bool.not_eq_true, isWhiteSpace_iff]; omega
    · simp at hc
      rw [← hc.1]; decide
  rw [ReadInt64_skip it hwf, hskip]
  have hwf1 : Iterator.WF { it with head := it.head + ws.length } := hwf
  have h1 : IntLiteral (Iterator.rest { it with head := it.head + ws.length }) [] neg digits rest := by
    refine ⟨?_, by simp, hdig, hrest⟩
    rw [rest_adv, hsplit]; simp
  rw [ReadInt64_of_literal0 _ hwf1 neg digits rest h1]

theorem ReadInt64_ok_literal (it : Iterator) (hwf : it.WF) (n : Int) (it' : Iterator)
    (h : it.ReadInt64 = (.ok n, it')) :
    ∃ ws neg digits rest, IntLiteral it.rest ws neg digits rest := by
  have hjr := skipWhiteSpace_rest it hwf
  have hj : it.skipWhiteSpace.WF := hwf
  have hsplit : it.rest = it.rest.takeWhile isWhiteSpace ++ it.skipWhiteSpace.rest := by
    rw [hjr, List.takeWhile_append_dropWhile]
  have hws := takeWhile_all isWhiteSpace it.rest
  unfold ReadInt64 at h
  generalize it.skipWhiteSpace = j at h hjr hj hsplit
  generalize it.rest.takeWhile isWhiteSpace = ws at hsplit hws
  clear hjr
  -- the digits and what follows, for an iterator `k` standing after the sign
  have key : ∀ (k : Iterator) (neg : Bool), k.WF → ∀ (v : Int) (k' : Iterator),
      k.readInt64Digits = (.ok v, k') → k'.readInt64Finish k.head neg v = (.ok n, it') →
      ∃ digits rest, k.rest = digits ++ rest ∧
        (digits = [48] ∨
          (∃ d ds, digits = d :: ds ∧ 49 ≤ d ∧ d ≤ 57 ∧ ∀ c ∈ ds, isDigit c = true)) ∧
        (∀ c rest', rest = c :: rest' → isDigit c = false ∧ c ≠ 46 ∧ c ≠ 101 ∧ c ≠ 69) := by
    intro k neg hk v k' hdig hfin
    -- what the end check tells about the bytes after the digits
    have hend : ∀ (m : Iterator), m.WF → m.readInt64Finish k.head neg v = (.ok n, it') →
        m.head ≠ k.head ∧ ∀ c r, m.rest = c :: r → c ≠ 46 ∧ c ≠ 101 ∧ c ≠ 69 := by
      intro m hm hf
      constructor
      · intro hs
        obtain ⟨e, m', he⟩ := readInt64Finish_error m hm k.head neg v (Or.inl hs)
        rw [he] at hf; cases hf
      · intro c r hr
        by_contra hc
        obtain ⟨e, m', he⟩ := readInt64Finish_error m hm k.head neg v
          (Or.inr ⟨c, r, hr, by omega⟩)
        rw [he] at hf; cases hf
    by_cases hz : ∃ r, k.rest = 48 :: r
    · obtain ⟨r, hr⟩ := hz
      by_cases hd : ∃ c r', r = c :: r' ∧ isDigit c = true
      · obtain ⟨c, r', hc, hcd⟩ := hd
        obtain ⟨e, m', he⟩ := readInt64Digits_zero_digit k hk c r' (by rw [hr, hc]) hcd
        rw [he] at hdig; cases hdig
      · have hnd : ∀ c r', r = c :: r' → isDigit c = false := by
          intro c r' hc
          cases hcd : isDigit c
          · rfl
          · exact absurd ⟨c, r', hc, hcd⟩ hd
        rw [readInt64Digits_zero k hk r hr hnd] at hdig
        cases hdig
        have hk1 : Iterator.WF { k with head := k.head + 1 } := hk
        have := hend _ hk1 hfin
        refine ⟨[48], r, hr, Or.inl rfl, ?_⟩
        intro c r' hc
        refine ⟨hnd c r' hc, this.2 c r' ?_⟩
        rw [rest_adv, hr, hc]; rfl
    · have hne : ∀ r, k.rest ≠ 48 :: r := fun r hr => hz ⟨r, hr⟩
      rw [readInt64Digits_run k hk hne] at hdig
      cases hdig
      have hk1 : Iterator.WF
          { k with head := k.head + (k.rest.takeWhile isDigit).length } := hk
      have := hend _ hk1 hfin
      have hrest1 : Iterator.rest
          { k with head := k.head + (k.rest.takeWhile isDigit).length } =
          k.rest.dropWhile isDigit := by
        rw [rest_adv, drop_takeWhile_length]
      refine ⟨k.rest.takeWhile isDigit, k.rest.dropWhile isDigit,
        (List.takeWhile_append_dropWhile _ _).symm, Or.inr ?_, ?_⟩
      · cases htw : k.rest.takeWhile isDigit with
        | nil => rw [htw] at this; simp at this
        | cons d ds =>
          have hall := takeWhile_all isDigit k.rest
          rw [htw] at hall
          have hd := (isDigit_iff d).mp (hall d (List.mem_cons_self _ _))
          refine ⟨d, ds, rfl, ?_, hd.2, fun c hc => hall c (List.mem_cons_of_mem _ hc)⟩
          by_contra h49
          have hd48 : d = 48 := by omega
          subst hd48
          cases hkr : k.rest with
          | nil => rw [hkr] at htw; cases htw
          | cons x xs =>
            rw [hkr] at htw
            cases hx : isDigit x
            · simp [List.takeWhile_cons, hx] at htw
            · simp [List.takeWhile_cons, hx] at htw
              rw [htw.1] at hkr
              exact hne _ hkr
      · intro c r' hc
        exact ⟨dropWhile_head _ _ _ _ hc, this.2 c r' (by rw [hrest1, hc])⟩
  by_cases hge : j.head ≥ j.dataLen
  · rw [if_pos hge] at h; cases h
  · rw [if_neg hge] at h
    have hjrest := rest_of_lt j hj (by omega)
    generalize j.byteAt j.head = c at hjrest
    generalize List.drop (j.head + 1) j.data = r at hjrest
    by_cases h45 : c = 45
    · subst h45
      rw [readInt64Sign_minus j r hjrest] at h
      simp only [] at h
      have hk : Iterator.WF { j with head := j.head + 1 } := hj
      cases hd : Iterator.readInt64Digits { j with head := j.head + 1 } with
      | mk res k' =>
        rw [hd] at h
        cases res with
        | error e => cases h
        | ok v =>
          simp only [] at h
          obtain ⟨digits, rest, h1, h2, h3⟩ := key _ true hk v k' hd h
          refine ⟨ws, true, digits, rest, ?_, hws, h2, h3⟩
          rw [hsplit, hjrest]
          rw [rest_adv, hjrest] at h1
          simp at h1
          simp [h1]
    · by_cases h43 : c = 43
      · subst h43
        rw [readInt64Sign_plus j r hjrest] at h
        cases h
      · rw [readInt64Sign_none j c r hjrest h45 h43] at h
        simp only [] at h
        cases hd : Iterator.readInt64Digits j with
        | mk res k' =>
          rw [hd] at h
          cases res with
          | error e => cases h
          | ok v =>
            simp only [] at h
            obtain ⟨digits, rest, h1, h2, h3⟩ := key _ false hj v k' hd h
            refine ⟨ws, false, digits, rest, ?_, hws, h2, h3⟩
            rw [hsplit, h1]; simp

end Iterator

/-! ## Decimal formatting -/

theorem decVal_append_singleton (ds : List Nat) (d : Nat) :
    decVal (ds ++ [d]) = decVal ds * 10 + ((d : Int) - 48) := by
  unfold decVal
  rw [List.foldl_append]
  rfl

/-- The digits `formatBits` produces: they denote `u`, and there is no
leading zero unless `u = 0`. -/
theorem formatBits_spec (fuel u : Nat) (acc : List Nat) (hu : u < 10 ^ (fuel + 1)) :
    ∃ ds, formatBits (fuel + 1) u acc = ds ++ acc ∧ decVal ds = (u : Int) ∧
      (∀ c ∈ ds, isDigit c = true) ∧
      (u = 0 → ds = [48]) ∧
      (0 < u → ∃ d ds', ds = d :: ds' ∧ 49 ≤ d ∧ d ≤ 57) := by
  induction fuel generalizing u acc with
  | zero =>
    have hu' : u < 10 := by simpa using hu
    refine ⟨[48 + u], ?_, ?_, ?_, ?_, ?_⟩
    · simp [formatBits]; omega
    · simp [decVal]
    · intro c hc
      simp at hc; subst hc
      rw [isDigit_iff]; omega
    · intro h0; subst h0; rfl
    · intro h0; exact ⟨48 + u, [], rfl, by omega, by omega⟩
  | succ fuel ih =>
    by_cases h10 : u ≥ 10
    · have hdiv : u / 10 < 10 ^ (fuel + 1) := by
        rw [Nat.div_lt_iff_lt_mul (by norm_num)]
        calc u < 10 ^ (fuel + 1 + 1) := hu
          _ = 10 ^ (fuel + 1) * 10 := by ring
      obtain ⟨ds, h1, h2, h3, h4, h5⟩ := ih (u / 10) ((48 + u % 10) :: acc) hdiv
      refine ⟨ds ++ [48 + u % 10], ?_, ?_, ?_, ?_, ?_⟩
      · rw [formatBits, if_pos h10, h1]; simp
      · rw [decVal_append_singleton, h2]; push_cast; omega
      · intro c hc
        rcases List.mem_append.mp hc with hc | hc
        · exact h3 c hc
        · simp at hc; subst hc; rw [isDigit_iff]; omega
      · intro h0; omega
      · intro _
        obtain ⟨d, ds', hd, hd49⟩ := h5 (by omega)
        exact ⟨d, ds' ++ [48 + u % 10], by rw [hd]; rfl, hd49⟩
    · refine ⟨[48 + u], ?_, ?_, ?_, ?_, ?_⟩
      · rw [formatBits, if_neg h10]; rfl
      · simp [decVal]
      · intro c hc
        simp at hc; subst hc
        rw [isDigit_iff]; omega
      · intro h0; subst h0; rfl
      · intro h0; exact ⟨48 + u, [], rfl, by omega, by omega⟩

theorem AppendUint_eq (dst : List Nat) (u : Nat) : AppendUint dst u = dst ++ AppendUint [] u := by
  simp [AppendUint]

theorem AppendInt_eq (dst : List Nat) (i : Int) : AppendInt dst i = dst ++ AppendInt [] i := by
  unfold AppendInt
  split
  · rw [AppendUint_eq (dst ++ [45]), AppendUint_eq ([] ++ [45])]; simp
  · rw [AppendUint_eq dst]

/-- The text `AppendInt` writes for a 64-bit integer is an integer literal
denoting it. -/
theorem AppendInt_literal (n : Int) (hlo : -9223372036854775808 ≤ n)
    (hhi : n ≤ 9223372036854775807) :
    ∃ digits, AppendInt [] n = (if n < 0 then [45] else []) ++ digits ∧
      (if n < 0 then -(decVal digits) else decVal digits) = n ∧
      (digits = [48] ∨
        (∃ d ds, digits = d :: ds ∧ 49 ≤ d ∧ d ≤ 57 ∧ ∀ c ∈ ds, isDigit c = true)) := by
  have hform : ∀ u : Nat, u < 10 ^ 20 → ∃ ds, AppendUint [] u = ds ∧ decVal ds = (u : Int) ∧
      (ds = [48] ∨ (∃ d ds', ds = d :: ds' ∧ 49 ≤ d ∧ d ≤ 57 ∧ ∀ c ∈ ds', isDigit c = true)) := by
    intro u hu
    obtain ⟨ds, h1, h2, h3, h4, h5⟩ := formatBits_spec 19 u [] hu
    refine ⟨ds, by simp [AppendUint, h1], h2, ?_⟩
    rcases Nat.eq_zero_or_pos u with h0 | h0
    · exact Or.inl (h4 h0)
    · obtain ⟨d, ds', hd, hd49⟩ := h5 h0
      exact Or.inr ⟨d, ds', hd, hd49.1, hd49.2,
        fun c hc => h3 c (by rw [hd]; exact List.mem_cons_of_mem _ hc)⟩
  by_cases hn : n < 0
  · obtain ⟨ds, h1, h2, h3⟩ := hform (-n).toNat (by omega)
    refine ⟨ds, ?_, ?_, h3⟩
    · unfold AppendInt
      rw [if_pos hn, if_pos hn, AppendUint_eq, h1]; rfl
    · rw [if_pos hn, h2]; omega
  · obtain ⟨ds, h1, h2, h3⟩ := hform n.toNat (by omega)
    refine ⟨ds, ?_, ?_, h3⟩
    · unfold AppendInt
      rw [if_neg hn, if_neg hn, h1]; rfl
    · rw [if_neg hn, h2]; omega

theorem wrap64_of_fits (x : Int) (hlo : -9223372036854775808 ≤ x)
    (hhi : x ≤ 9223372036854775807) : wrap64 x = x := by
  unfold wrap64; omega

namespace Iterator

/-- Reading back what `AppendInt` wrote, in any context: after whitespace `ws`
and before a remainder that does not continue the number. -/
theorem ReadInt64_AppendInt (it : Iterator) (hwf : it.WF) (ws tail : List Nat) (n : Int)
    (hlo : -9223372036854775808 ≤ n) (hhi : n ≤ 9223372036854775807)
    (hrest : it.rest = ws ++ (AppendInt [] n ++ tail))
    (hws : ∀ c ∈ ws, isWhiteSpace c = true)
    (htail : ∀ c r, tail = c :: r → isDigit c = false ∧ c ≠ 46 ∧ c ≠ 101 ∧ c ≠ 69) :
    it.ReadInt64 =
      (.ok n, { it with head := it.head + ws.length + (AppendInt [] n).length }) := by
  obtain ⟨digits, h1, h2, h3⟩ := AppendInt_literal n hlo hhi
  have hlit : IntLiteral it.rest ws (decide (n < 0)) digits tail := by
    refine ⟨?_, hws, h3, htail⟩
    rw [hrest, h1]
    by_cases hn : n < 0 <;> simp [hn]
  rw [ReadInt64_of_literal it hwf ws _ digits tail hlit]
  have hv : (if decide (n < 0) = true then -(decVal digits) else decVal digits) = n := by
    by_cases hn : n < 0 <;> simp [hn] at h2 ⊢ <;> exact h2
  rw [hv, wrap64_of_fits n hlo hhi, h1]
  congr 2
  by_cases hn : n < 0
  · simp [hn]; omega
  · simp [hn]

end Iterator

/-! ## Escapes -/

theorem isHex_iff (c : Nat) :
    isHex c = true ↔ ((48 ≤ c ∧ c ≤ 57) ∨ (97 ≤ c ∧ c ≤ 102) ∨ (65 ≤ c ∧ c ≤ 70)) := by
  simp [isHex]

theorem shl4_or (r v : Nat) (hv : v < 16) : (r <<< 4) ||| v = r * 16 + v := by
  have hv' : v < 2 ^ 4 := by simpa using hv
  rw [Nat.shiftLeft_eq, Nat.mul_comm r (2 ^ 4), ← Nat.mul_add_lt_is_or hv' r]

theorem hexVal_lt (c : Nat) (h : isHex c = true) : hexVal c < 16 := by
  rw [isHex_iff] at h
  unfold hexVal
  split_ifs <;> omega

namespace Iterator

theorem byteAt_add (it : Iterator) (k : Nat) :
    it.byteAt (it.head + k) = (it.rest.drop k).headD 0 := by
  unfold rest byteAt
  rw [List.headD_eq_head?_getD, List.head?_drop, List.getD_eq_getElem?_getD, List.getElem?_drop]

theorem decodeUnicodeLoop_hex (it : Iterator) (start fuel i r : Nat)
    (h : isHex (it.byteAt (start + i)) = true) :
    it.decodeUnicodeLoop start (fuel + 1) i r =
      it.decodeUnicodeLoop start fuel (i + 1) (r * 16 + hexVal (it.byteAt (start + i))) := by
  rw [decodeUnicodeLoop]
  have hlt := hexVal_lt _ h
  rw [isHex_iff] at h
  generalize it.byteAt (start + i) = c at h hlt ⊢
  unfold hexVal at hlt ⊢
  by_cases h1 : 48 ≤ c ∧ c ≤ 57
  · rw [if_pos h1, if_pos h1.2, shl4_or _ _ (by omega)]
  · rw [if_neg h1]
    by_cases h2 : 97 ≤ c ∧ c ≤ 102
    · rw [if_pos h2, if_neg (by omega), if_pos h2.1, shl4_or _ _ (by omega)]
      congr 1; omega
    · rw [if_neg h2]
      have h3 : 65 ≤ c ∧ c ≤ 70 := by omega
      rw [if_pos h3, if_neg (by omega), if_neg (by omega), shl4_or _ _ (by omega)]
      congr 1; omega

theorem decodeUnicodeLoop_nonhex (it : Iterator) (start fuel i r : Nat)
    (h : isHex (it.byteAt (start + i)) = false) :
    it.decodeUnicodeLoop start (fuel + 1) i r = none := by
  rw [decodeUnicodeLoop]
  rw [← Bool.not_eq_true, isHex_iff] at h
  generalize it.byteAt (start + i) = c at h ⊢
  rw [if_neg (by omega), if_neg (by omega), if_neg (by omega)]

theorem decodeUnicode_eq (it : Iterator) (u a b c d : Nat) (r : List Nat)
    (h : it.rest = u :: a :: b :: c :: d :: r) :
    it.decodeUnicode =
      if isHex a = true ∧ isHex b = true ∧ isHex c = true ∧ isHex d = true then
        .ok (codePoint a b c d)
      else .error (it.error "invalid unicode hex digit") := by
  have hlen : it.head + 1 + 4 ≤ it.data.length := by
    have := congrArg List.length h
    unfold rest at this
    simp at this
    omega
  have hb : ∀ k, it.byteAt (it.head + 1 + k) = ((a :: b :: c :: d :: r).drop k).headD 0 := by
    intro k
    rw [Nat.add_assoc, byteAt_add, h]
    simp [Nat.add_comm 1 k]
  have ha := hb 0
  have hb1 := hb 1
  have hb2 := hb 2
  have hb3 := hb 3
  simp at ha hb1 hb2 hb3
  unfold decodeUnicode
  simp only []
  rw [if_neg (by omega)]
  cases hxa : isHex a
  · rw [decodeUnicodeLoop_nonhex _ _ _ _ _ (by rw [Nat.add_zero, ha]; exact hxa)]
    simp
  · rw [decodeUnicodeLoop_hex _ _ _ _ _ (by rw [Nat.add_zero, ha]; exact hxa)]
    cases hxb : isHex b
    · rw [decodeUnicodeLoop_nonhex _ _ _ _ _ (by rw [hb1]; exact hxb)]
      simp
    · rw [decodeUnicodeLoop_hex _ _ _ _ _ (by rw [hb1]; exact hxb)]
      cases hxc : isHex c
      · rw [decodeUnicodeLoop_nonhex _ _ _ _ _ (by rw [hb2]; exact hxc)]
        simp
      · rw [decodeUnicodeLoop_hex _ _ _ _ _ (by rw [hb2]; exact hxc)]
        cases hxd : isHex d
        · rw [decodeUnicodeLoop_nonhex _ _ _ _ _ (by rw [hb3]; exact hxd)]
          simp
        · rw [decodeUnicodeLoop_hex _ _ _ _ _ (by rw [hb3]; exact hxd)]
          simp [decodeUnicodeLoop, codePoint, ha, hb1, hb2, hb3]

end Iterator

/-! ## ReadString -/

theorem utf8EncodeRune_eq (r : Nat) (hr : r < 65536) :
    utf8EncodeRune r = if isSurrogate r = true then [239, 191, 189] else utf8 r := by
  have hand : ∀ x : Nat, x &&& 63 = x % 64 := fun x => Nat.and_pow_two_sub_one_eq_mod x 6
  have hor6 : ∀ a y : Nat, y < 64 → (64 * a) ||| y = 64 * a + y := fun a y hy =>
    (Nat.mul_add_lt_is_or (i := 6) (b := y) (by simpa using hy) a).symm
  have hor5 : ∀ a y : Nat, y < 32 → (32 * a) ||| y = 32 * a + y := fun a y hy =>
    (Nat.mul_add_lt_is_or (i := 5) (b := y) (by simpa using hy) a).symm
  have hs6 : r >>> 6 = r / 64 := Nat.shiftRight_eq_div_pow r 6
  have hs12 : r >>> 12 = r / 4096 := Nat.shiftRight_eq_div_pow r 12
  unfold utf8EncodeRune utf8 isSurrogate
  simp only [hand, hs6, hs12, decide_eq_true_eq]
  by_cases h1 : r ≤ 127
  · rw [if_pos h1, if_neg (by omega), if_pos (by omega)]
  · rw [if_neg h1]
    by_cases h2 : r ≤ 2047
    · rw [if_pos h2]
      have e1 : 192 ||| r / 64 = 192 + r / 64 := hor6 3 (r / 64) (by omega)
      have e2 : 128 ||| r % 64 = 128 + r % 64 := hor6 2 (r % 64) (by omega)
      rw [if_neg (by omega), if_neg (by omega), if_pos (by omega), e1, e2]
    · rw [if_neg h2]
      by_cases h3 : 55296 ≤ r ∧ r ≤ 57343
      · rw [if_pos (Or.inr h3), if_pos h3]
      · rw [if_neg (by omega), if_pos (by omega)]
        have e1 : 224 ||| r / 4096 = 224 + r / 4096 := hor5 7 (r / 4096) (by omega)
        have e2 : 128 ||| r / 64 % 64 = 128 + r / 64 % 64 := hor6 2 (r / 64 % 64) (by omega)
        have e3 : 128 ||| r % 64 = 128 + r % 64 := hor6 2 (r % 64) (by omega)
        rw [if_neg (by omega), if_neg (by omega), if_neg (by omega), if_pos (by omega),
          e1, e2, e3]

theorem codePoint_lt (a b c d : Nat) (ha : isHex a = true) (hb : isHex b = true)
    (hc : isHex c = true) (hd : isHex d = true) : codePoint a b c d < 65536 := by
  have h1 := hexVal_lt a ha
  have h2 := hexVal_lt b hb
  have h3 := hexVal_lt c hc
  have h4 := hexVal_lt d hd
  unfold codePoint
  omega

namespace Iterator

/-- The escape switch on a valid two-byte escape or `\uXXXX`, with the cursor
on the byte after the backslash. -/
theorem readEscape_esc (it : Iterator) (e : Nat) (r : List Nat) (h : it.rest = e :: r)
    (hv : (StrItem.esc e).valid = true) :
    it.readEscape = (.ok (StrItem.esc e).value, it) := by
  unfold readEscape
  rw [byteAt_head, h]
  simp only [List.headD_cons]
  simp only [StrItem.valid, decide_eq_true_eq] at hv
  unfold StrItem.value StrItem.escByte
  rcases hv with h | h | h | h | h | h | h | h <;> subst h <;> rfl

theorem readEscape_uni (it : Iterator) (a b c d : Nat) (r : List Nat)
    (h : it.rest = 117 :: a :: b :: c :: d :: r)
    (hv : (StrItem.uni a b c d).valid = true) :
    it.readEscape = (.ok (StrItem.uni a b c d).value, { it with head := it.head + 4 }) := by
  have hlen : it.head + 4 < it.data.length := by
    have := congrArg List.length h
    unfold rest at this
    simp at this
    omega
  simp only [StrItem.valid, Bool.and_eq_true] at hv
  obtain ⟨⟨⟨ha, hb⟩, hc⟩, hd⟩ := hv
  unfold readEscape
  rw [byteAt_head, h]
  simp only [List.headD_cons]
  iterate 6 rw [if_neg (by decide)]
  rw [if_pos trivial, if_neg (by omega), decodeUnicode_eq it 117 a b c d r h,
    if_pos ⟨ha, hb, hc, hd⟩]
  simp only [StrItem.value]
  rw [utf8EncodeRune_eq _ (codePoint_lt a b c d ha hb hc hd)]

theorem readEscape_bad (it : Iterator) (e : Nat) (r : List Nat) (h : it.rest = e :: r)
    (hv : ¬ (e = 34 ∨ e = 92 ∨ e = 47 ∨ e = 98 ∨ e = 102 ∨ e = 110 ∨ e = 114 ∨ e = 116 ∨ e = 117)) :
    ∃ err it', it.readEscape = (.error err, it') := by
  unfold readEscape
  rw [byteAt_head, h]
  simp only [List.headD_cons]
  iterate 7 rw [if_neg (by omega)]
  exact ⟨_, _, rfl⟩

theorem readEscape_badUnicode (it : Iterator) (r : List Nat) (h : it.rest = 117 :: r)
    (hv : ¬ (∃ a b c d r', r = a :: b :: c :: d :: r' ∧
        isHex a = true ∧ isHex b = true ∧ isHex c = true ∧ isHex d = true)) :
    ∃ err it', it.readEscape = (.error err, it') := by
  unfold readEscape
  rw [byteAt_head, h]
  simp only [List.headD_cons]
  iterate 6 rw [if_neg (by decide)]
  rw [if_pos trivial]
  by_cases hlen : it.head + 4 ≥ it.data.length
  · rw [if_pos hlen]; exact ⟨_, _, rfl⟩
  · rw [if_neg hlen]
    have hl : r.length ≥ 4 := by
      have := congrArg List.length h
      unfold rest at this
      simp at this
      omega
    match r, hl, h, hv with
    | a :: b :: c :: d :: r', _, h, hv =>
      rw [decodeUnicode_eq it 117 a b c d r' h, if_neg]
      · exact ⟨_, _, rfl⟩
      · intro hx
        exact hv ⟨a, b, c, d, r', rfl, hx⟩

end Iterator

theorem stringTable_eq_zero (c : Nat) : stringTable c = 0 ↔ (32 ≤ c ∧ c ≠ 34 ∧ c ≠ 92) := by
  unfold stringTable
  split_ifs <;> simp <;> omega

theorem slice_self (d : List Nat) (a : Nat) : slice d a a = [] := by
  unfold slice
  rw [List.drop_eq_nil_iff]
  exact List.length_take_le _ _

theorem slice_succ (d : List Nat) (a b : Nat) (hab : a ≤ b) (hb : b < d.length) :
    slice d a (b + 1) = slice d a b ++ [d.getD b 0] := by
  unfold slice
  rw [List.take_succ, List.drop_append_of_le_length (by simp; omega)]
  congr 1
  simp [List.getD_eq_getElem?_getD, List.getElem?_eq_getElem hb]

theorem strText_cons (i : StrItem) (items : List StrItem) :
    strText (i :: items) = i.text ++ strText items := by
  simp [strText]

theorem strValue_cons (i : StrItem) (items : List StrItem) :
    strValue (i :: items) = i.value ++ strValue items := by
  simp [strValue]

namespace Iterator

theorem adv_adv (it : Iterator) (a b : Nat) :
    ({ ({ it with head := it.head + a } : Iterator) with head := it.head + a + b } : Iterator) =
      { it with head := it.head + (a + b) } := by
  simp [Nat.add_assoc]

/-- One round of the slow loop over a well-formed element. -/
theorem readStringSlowLoop_step (it : Iterator) (hwf : it.WF) (fuel : Nat) (out : List Nat)
    (i : StrItem) (r : List Nat) (h : it.rest = i.text ++ r) (hv : i.valid = true) :
    readStringSlowLoop (fuel + 1) it out =
      readStringSlowLoop fuel { it with head := it.head + i.text.length } (out ++ i.value) := by
  have hlt : it.head < it.data.length := by
    have := lt_of_rest_cons it hwf (c := (i.text ++ r).headD 0) (r := (i.text ++ r).tail)
      (by rw [h]; cases i <;> rfl)
    rw [← hwf]; exact this
  rw [readStringSlowLoop, if_pos hlt]
  cases i with
  | raw c =>
    have hc : it.byteAt it.head = c := byteAt_of_rest_cons it hwf h
    simp only [StrItem.valid, decide_eq_true_eq] at hv
    simp only [hc]
    rw [if_neg hv.2.1, if_neg hv.2.2, if_neg (by omega)]
    rfl
  | esc e =>
    have hc : it.byteAt it.head = 92 := byteAt_of_rest_cons it hwf h
    have hwf1 : Iterator.WF { it with head := it.head + 1 } := hwf
    have hr1 : Iterator.rest { it with head := it.head + 1 } = e :: r := by
      rw [rest_adv, h]; rfl
    have hlt1 : ¬ (it.head + 1 ≥ it.data.length) := by
      have := lt_of_rest_cons _ hwf1 hr1
      have hw : it.dataLen = it.data.length := hwf
      simp only [] at this
      omega
    simp only [hc]
    rw [if_pos trivial, if_neg hlt1, readEscape_esc _ e r hr1 hv]
    rfl
  | uni a b c d =>
    have hc : it.byteAt it.head = 92 := byteAt_of_rest_cons it hwf h
    have hwf1 : Iterator.WF { it with head := it.head + 1 } := hwf
    have hr1 : Iterator.rest { it with head := it.head + 1 } = 117 :: a :: b :: c :: d :: r := by
      rw [rest_adv, h]; rfl
    have hlt1 : ¬ (it.head + 1 ≥ it.data.length) := by
      have := lt_of_rest_cons _ hwf1 hr1
      have hw : it.dataLen = it.data.length := hwf
      simp only [] at this
      omega
    simp only [hc]
    rw [if_pos trivial, if_neg hlt1, readEscape_uni _ a b c d r hr1 hv]
    rfl

theorem readStringSlowLoop_items (items : List StrItem) :
    ∀ (it : Iterator) (fuel : Nat) (out tail : List Nat), it.WF →
      it.rest = strText items ++ 34 :: tail → (∀ i ∈ items, i.valid = true) →
      it.rest.length ≤ fuel →
      readStringSlowLoop fuel it out =
        (.ok (out ++ strValue items),
          { it with head := it.head + ((strText items).length + 1) }) := by
  induction items with
  | nil =>
    intro it fuel out tail hwf h _ hf
    simp only [strText, List.flatMap_nil, List.nil_append] at h
    have hlt : it.head < it.data.length := by
      have := lt_of_rest_cons it hwf h
      rw [← hwf]; exact this
    have hc : it.byteAt it.head = 34 := byteAt_of_rest_cons it hwf h
    cases fuel with
    | zero => rw [h] at hf; simp at hf
    | succ fuel =>
      rw [readStringSlowLoop, if_pos hlt]
      simp only [hc]
      rw [if_pos trivial]
      simp [strValue, strText]
  | cons i items ih =>
    intro it fuel out tail hwf h hv hf
    rw [strText_cons, List.append_assoc] at h
    have hil : 1 ≤ i.text.length := by cases i <;> simp [StrItem.text]
    cases fuel with
    | zero => rw [h] at hf; simp at hf
    | succ fuel =>
      rw [readStringSlowLoop_step it hwf fuel out i _ h (hv i (List.mem_cons_self _ _))]
      have hwf1 : Iterator.WF { it with head := it.head + i.text.length } := hwf
      have hr1 : Iterator.rest { it with head := it.head + i.text.length } =
          strText items ++ 34 :: tail := by
        rw [rest_adv, h]; simp
      rw [ih _ fuel _ tail hwf1 hr1 (fun j hj => hv j (List.mem_cons_of_mem _ hj))
        (by rw [hr1]; rw [h] at hf; simp at hf ⊢; omega)]
      rw [strValue_cons, strText_cons]
      simp [Nat.add_assoc]

/-- One round of the fast loop over a raw byte. -/
theorem readStringLoop_raw (it : Iterator) (hwf : it.WF) (start fuel : Nat)
    (c : Nat) (r : List Nat) (h : it.rest = c :: r) (hv : (StrItem.raw c).valid = true) :
    readStringLoop start (fuel + 1) it =
      readStringLoop start fuel { it with head := it.head + 1 } := by
  have hlt := lt_of_rest_cons it hwf h
  have hc : it.byteAt it.head = c := byteAt_of_rest_cons it hwf h
  simp only [StrItem.valid, decide_eq_true_eq] at hv
  rw [readStringLoop, if_pos hlt]
  simp only [hc]
  rw [if_neg (by rw [ne_eq, not_not, stringTable_eq_zero]; exact hv)]

/-- The fast loop hands over to the slow path at a backslash. -/
theorem readStringLoop_backslash (it : Iterator) (hwf : it.WF) (start fuel : Nat)
    (r : List Nat) (h : it.rest = 92 :: r) :
    readStringLoop start (fuel + 1) it = it.readStringSlow start := by
  have hlt := lt_of_rest_cons it hwf h
  have hc : it.byteAt it.head = 92 := byteAt_of_rest_cons it hwf h
  rw [readStringLoop, if_pos hlt]
  simp only [hc]
  rw [if_pos (by decide), if_neg (by decide), if_pos trivial]

theorem readStringLoop_items (items : List StrItem) :
    ∀ (it : Iterator) (fuel start : Nat) (tail : List Nat), it.WF → start ≤ it.head →
      it.rest = strText items ++ 34 :: tail → (∀ i ∈ items, i.valid = true) →
      it.rest.length ≤ fuel →
      readStringLoop start fuel it =
        (.ok (slice it.data start it.head ++ strValue items),
          { it with head := it.head + ((strText items).length + 1) }) := by
  induction items with
  | nil =>
    intro it fuel start tail hwf hs h _ hf
    simp only [strText, List.flatMap_nil, List.nil_append] at h
    have hlt := lt_of_rest_cons it hwf h
    have hc : it.byteAt it.head = 34 := byteAt_of_rest_cons it hwf h
    cases fuel with
    | zero => rw [h] at hf; simp at hf
    | succ fuel =>
      rw [readStringLoop, if_pos hlt]
      simp only [hc]
      rw [if_pos (by decide), if_pos trivial]
      simp [strValue, strText]
  | cons i items ih =>
    intro it fuel start tail hwf hs h hv hf
    have h0 := h
    rw [strText_cons, List.append_assoc] at h
    cases fuel with
    | zero => rw [h] at hf; cases i <;> simp [StrItem.text] at hf
    | succ fuel =>
      have hlt := lt_of_rest_cons it hwf (c := (i.text ++ (strText items ++ 34 :: tail)).headD 0)
        (r := (i.text ++ (strText items ++ 34 :: tail)).tail) (by rw [h]; cases i <;> rfl)
      have hsl : it.rest.length = it.data.length - it.head := by
        rw [rest_length it hwf, hwf]
      by_cases hraw : ∃ c, i = StrItem.raw c
      · obtain ⟨c, rfl⟩ := hraw
        rw [readStringLoop_raw it hwf start fuel c _ h (hv _ (List.mem_cons_self _ _))]
        have hwf1 : Iterator.WF { it with head := it.head + 1 } := hwf
        have hr1 : Iterator.rest { it with head := it.head + 1 } =
            strText items ++ 34 :: tail := by
          rw [rest_adv, h]; rfl
        rw [ih _ fuel start tail hwf1 (Nat.le_succ_of_le hs) hr1
          (fun j hj => hv j (List.mem_cons_of_mem _ hj))
          (by rw [hr1]; rw [h] at hf; simp [StrItem.text] at hf ⊢; omega)]
        have hc : it.data.getD it.head 0 = c := byteAt_of_rest_cons it hwf h
        have hw : it.dataLen = it.data.length := hwf
        simp only []
        rw [slice_succ _ _ _ hs (by omega), hc, strValue_cons, strText_cons]
        simp [StrItem.value, StrItem.text, Nat.add_assoc, Nat.add_comm]
      · have h92 : ∃ r, it.rest = 92 :: r := by
          cases i with
          | raw c => exact absurd ⟨c, rfl⟩ hraw
          | esc e => exact ⟨_, h⟩
          | uni a b c d => exact ⟨_, h⟩
        obtain ⟨r, hr⟩ := h92
        rw [readStringLoop_backslash it hwf start fuel r hr]
        unfold readStringSlow
        rw [readStringSlowLoop_items (i :: items) it _ _ tail hwf h0 hv (by omega)]

/-- `ReadString` on a well-formed literal. -/
theorem ReadString_items (it : Iterator) (hwf : it.WF) (ws : List Nat) (items : List StrItem)
    (tail : List Nat) (h : it.rest = ws ++ 34 :: (strText items ++ 34 :: tail))
    (hws : ∀ c ∈ ws, isWhiteSpace c = true) (hv : ∀ i ∈ items, i.valid = true) :
    it.ReadString = (.ok (strValue items),
      { it with head := it.head + ws.length + 1 + (strText items).length + 1 }) := by
  have hskip : it.skipWhiteSpace = { it with head := it.head + ws.length } :=
    skipWhiteSpace_of_rest it hwf ws _ h hws (by
      intro c r' hc; cases hc; decide)
  have hwf1 : Iterator.WF { it with head := it.head + ws.length } := hwf
  have hr1 : Iterator.rest { it with head := it.head + ws.length } =
      34 :: (strText items ++ 34 :: tail) := by
    rw [rest_adv, h]; simp
  have hlt := lt_of_rest_cons _ hwf1 hr1
  have hc := byteAt_of_rest_cons _ hwf1 hr1
  unfold ReadString
  rw [hskip]
  simp only []
  simp only [] at hlt hc
  rw [if_neg (by omega), hc]
  rw [if_neg (by decide)]
  have hwf2 : Iterator.WF { it with head := it.head + ws.length + 1 } := hwf
  have hr2 : Iterator.rest { it with head := it.head + ws.length + 1 } =
      strText items ++ 34 :: tail := by
    rw [Nat.add_assoc, rest_adv, h]
    rw [← List.drop_drop]; simp
  rw [readStringLoop_items items _ _ _ tail hwf2 (le_refl _) hr2 hv
    (by rw [rest_length _ hwf2])]
  simp only [slice_self, List.nil_append]
  simp [Nat.add_assoc]

end Iterator

namespace Iterator

/-- The slow loop fails on every body the specification calls malformed. -/
theorem readStringSlowLoop_bad (body : List Nat) (hbad : BadStringBody body) :
    ∀ (it : Iterator) (fuel : Nat) (out : List Nat), it.WF → it.rest = body →
      it.rest.length ≤ fuel →
      ∃ e it', readStringSlowLoop fuel it out = (.error e, it') := by
  induction hbad with
  | eof =>
    intro it fuel out hwf h hf
    have hge : ¬ (it.head < it.data.length) := by
      have := (lt_iff_rest it hwf).not.mpr (by simp [h])
      rw [← hwf]; exact this
    cases fuel with
    | zero => exact ⟨_, _, rfl⟩
    | succ fuel => rw [readStringSlowLoop, if_neg hge]; exact ⟨_, _, rfl⟩
  | control c r hc =>
    intro it fuel out hwf h hf
    have hlt : it.head < it.data.length := by
      have := lt_of_rest_cons it hwf h
      rw [← hwf]; exact this
    have hb := byteAt_of_rest_cons it hwf h
    cases fuel with
    | zero => exact ⟨_, _, rfl⟩
    | succ fuel =>
      rw [readStringSlowLoop, if_pos hlt]
      simp only [hb]
      rw [if_neg (by omega), if_neg (by omega), if_pos hc]
      exact ⟨_, _, rfl⟩
  | escEof =>
    intro it fuel out hwf h hf
    have hlt : it.head < it.data.length := by
      have := lt_of_rest_cons it hwf h
      rw [← hwf]; exact this
    have hb := byteAt_of_rest_cons it hwf h
    have hge : it.head + 1 ≥ it.data.length := by
      have := rest_length it hwf
      rw [h] at this
      have hw : it.dataLen = it.data.length := hwf
      simp at this
      omega
    cases fuel with
    | zero => exact ⟨_, _, rfl⟩
    | succ fuel =>
      rw [readStringSlowLoop, if_pos hlt]
      simp only [hb]
      rw [if_pos trivial, if_pos hge]
      exact ⟨_, _, rfl⟩
  | badEscape e r he =>
    intro it fuel out hwf h hf
    have hlt : it.head < it.data.length := by
      have := lt_of_rest_cons it hwf h
      rw [← hwf]; exact this
    have hb := byteAt_of_rest_cons it hwf h
    have hwf1 : Iterator.WF { it with head := it.head + 1 } := hwf
    have hr1 : Iterator.rest { it with head := it.head + 1 } = e :: r := by
      rw [rest_adv, h]; rfl
    have hlt1 : ¬ (it.head + 1 ≥ it.data.length) := by
      have := lt_of_rest_cons _ hwf1 hr1
      have hw : it.dataLen = it.data.length := hwf
      simp only [] at this
      omega
    cases fuel with
    | zero => exact ⟨_, _, rfl⟩
    | succ fuel =>
      obtain ⟨err, it', herr⟩ := readEscape_bad _ e r hr1 he
      rw [readStringSlowLoop, if_pos hlt]
      simp only [hb]
      rw [if_pos trivial, if_neg hlt1, herr]
      exact ⟨_, _, rfl⟩
  | badUnicode r he =>
    intro it fuel out hwf h hf
    have hlt : it.head < it.data.length := by
      have := lt_of_rest_cons it hwf h
      rw [← hwf]; exact this
    have hb := byteAt_of_rest_cons it hwf h
    have hwf1 : Iterator.WF { it with head := it.head + 1 } := hwf
    have hr1 : Iterator.rest { it with head := it.head + 1 } = 117 :: r := by
      rw [rest_adv, h]; rfl
    have hlt1 : ¬ (it.head + 1 ≥ it.data.length) := by
      have := lt_of_rest_cons _ hwf1 hr1
      have hw : it.dataLen = it.data.length := hwf
      simp only [] at this
      omega
    cases fuel with
    | zero => exact ⟨_, _, rfl⟩
    | succ fuel =>
      obtain ⟨err, it', herr⟩ := readEscape_badUnicode _ r hr1 he
      rw [readStringSlowLoop, if_pos hlt]
      simp only [hb]
      rw [if_pos trivial, if_neg hlt1, herr]
      exact ⟨_, _, rfl⟩
  | afterItem i r hv _ ih =>
    intro it fuel out hwf h hf
    have hil : 1 ≤ i.text.length := by cases i <;> simp [StrItem.text]
    cases fuel with
    | zero => exact ⟨_, _, rfl⟩
    | succ fuel =>
      rw [readStringSlowLoop_step it hwf fuel out i r h hv]
      have hwf1 : Iterator.WF { it with head := it.head + i.text.length } := hwf
      have hr1 : Iterator.rest { it with head := it.head + i.text.length } = r := by
        rw [rest_adv, h]; simp
      exact ih _ fuel _ hwf1 hr1 (by rw [hr1]; rw [h] at hf; simp at hf; omega)

/-- The fast loop fails on every body the specification calls malformed. -/
theorem readStringLoop_bad (body : List Nat) (hbad : BadStringBody body) :
    ∀ (it : Iterator) (fuel start : Nat), it.WF → it.rest = body →
      it.rest.length ≤ fuel →
      ∃ e it', readStringLoop start fuel it = (.error e, it') := by
  -- at a backslash the fast loop hands over to the slow loop
  have hslow : ∀ (r : List Nat), BadStringBody (92 :: r) →
      ∀ (it : Iterator) (fuel start : Nat), it.WF → it.rest = 92 :: r →
      ∃ e it', readStringLoop start fuel it = (.error e, it') := by
    intro r hb it fuel start hwf h
    cases fuel with
    | zero => exact ⟨_, _, rfl⟩
    | succ fuel =>
      rw [readStringLoop_backslash it hwf start fuel r h]
      unfold readStringSlow
      exact readStringSlowLoop_bad _ hb it _ _ hwf h (by rw [rest_length it hwf, hwf])
  induction hbad with
  | eof =>
    intro it fuel start hwf h hf
    have hge : ¬ (it.head < it.dataLen) := (lt_iff_rest it hwf).not.mpr (by simp [h])
    cases fuel with
    | zero => exact ⟨_, _, rfl⟩
    | succ fuel => rw [readStringLoop, if_neg hge]; exact ⟨_, _, rfl⟩
  | control c r hc =>
    intro it fuel start hwf h hf
    have hlt := lt_of_rest_cons it hwf h
    have hb := byteAt_of_rest_cons it hwf h
    cases fuel with
    | zero => exact ⟨_, _, rfl⟩
    | succ fuel =>
      rw [readStringLoop, if_pos hlt]
      simp only [hb]
      rw [if_pos (by rw [ne_eq, stringTable_eq_zero]; omega), if_neg (by omega),
        if_neg (by omega), if_pos hc]
      exact ⟨_, _, rfl⟩
  | escEof =>
    intro it fuel start hwf h hf
    exact hslow [] BadStringBody.escEof it fuel start hwf h
  | badEscape e r he =>
    intro it fuel start hwf h hf
    exact hslow _ (BadStringBody.badEscape e r he) it fuel start hwf h
  | badUnicode r he =>
    intro it fuel start hwf h hf
    exact hslow _ (BadStringBody.badUnicode r he) it fuel start hwf h
  | afterItem i r hv hr ih =>
    intro it fuel start hwf h hf
    cases fuel with
    | zero => exact ⟨_, _, rfl⟩
    | succ fuel =>
      cases i with
      | raw c =>
        rw [readStringLoop_raw it hwf start fuel c r h hv]
        have hwf1 : Iterator.WF { it with head := it.head + 1 } := hwf
        have hr1 : Iterator.rest { it with head := it.head + 1 } = r := by
          rw [rest_adv, h]; rfl
        exact ih _ fuel start hwf1 hr1
          (by rw [hr1]; rw [h] at hf; simp [StrItem.text] at hf; omega)
      | esc e =>
        exact hslow _ (BadStringBody.afterItem (StrItem.esc e) r hv hr) it _ start hwf h
      | uni a b c d =>
        exact hslow _ (BadStringBody.afterItem (StrItem.uni a b c d) r hv hr) it _ start hwf h

/-- `ReadString` fails when no quote follows the whitespace, or when the body
after the quote is malformed. -/
theorem ReadString_bad (it : Iterator) (hwf : it.WF)
    (h : (∀ r, it.rest.dropWhile isWhiteSpace ≠ 34 :: r) ∨
      ∃ body, it.rest.dropWhile isWhiteSpace = 34 :: body ∧ BadStringBody body) :
    ∃ e it', it.ReadString = (.error e, it') := by
  have hjr := skipWhiteSpace_rest it hwf
  have hj : it.skipWhiteSpace.WF := hwf
  unfold ReadString
  generalize it.skipWhiteSpace = j at hjr hj
  rw [← hjr] at h
  simp only []
  by_cases hge : j.head ≥ j.dataLen
  · rw [if_pos hge]; exact ⟨_, _, rfl⟩
  · rw [if_neg hge]
    have hrest := rest_of_lt j hj (by omega)
    by_cases hq : j.byteAt j.head = 34
    · rw [if_neg (by rw [hq]; decide)]
      rw [hq] at hrest
      rcases h with h | ⟨body, hb, hbad⟩
      · exact absurd hrest (h _)
      · have hwf1 : Iterator.WF { j with head := j.head + 1 } := hj
        have hr1 : Iterator.rest { j with head := j.head + 1 } = body := by
          rw [rest_adv, hb]; rfl
        exact readStringLoop_bad body hbad _ _ _ hwf1 hr1 (by rw [rest_length _ hwf1])
    · rw [if_pos hq]; exact ⟨_, _, rfl⟩

end Iterator

/-! ## WriteStringEscaped -/

theorem writeEscapedChar_eq (w : Writer) (c : Nat) :
    (w.writeEscapedChar c).Buffer = w.Buffer ++ escapeByte c := by
  unfold Writer.writeEscapedChar escapeByte
  split_ifs with h1 h2 h3 h4 h5 h6 h7 h8
  any_goals rfl
  have h32 : c < 32 := h8
  clear h8
  simp only [List.append_assoc]
  congr 1
  interval_cases c <;> first | omega | rfl

theorem escapeByte_of_plain (c : Nat) (h : stringTable c = 0) : escapeByte c = [c] := by
  rw [stringTable_eq_zero] at h
  unfold escapeByte
  iterate 8 rw [if_neg (by omega)]

/-- The invariant of the loop of `WriteStringEscaped`: what is in the buffer
once the pending run is flushed. -/
theorem writeStringEscapedLoop_eq (s : List Nat) (fuel : Nat) :
    ∀ (i start : Nat) (w : Writer), start ≤ i → i ≤ s.length → s.length - i ≤ fuel →
      (Writer.writeStringEscapedLoop s fuel i start w).1.Buffer ++
        (if (Writer.writeStringEscapedLoop s fuel i start w).2 < s.length then
          slice s (Writer.writeStringEscapedLoop s fuel i start w).2 s.length else []) =
      w.Buffer ++ slice s start i ++ (s.drop i).flatMap escapeByte := by
  have hdone : ∀ (i start : Nat) (w : Writer), start ≤ i → i ≤ s.length → ¬ i < s.length →
      w.Buffer ++ (if start < s.length then slice s start s.length else []) =
      w.Buffer ++ slice s start i ++ (s.drop i).flatMap escapeByte := by
    intro i start w hs hi hn
    have hil : i = s.length := by omega
    subst hil
    by_cases hlt : start < s.length
    · simp [hlt]
    · have : start = s.length := by omega
      subst this
      simp [slice_self]
  induction fuel with
  | zero =>
    intro i start w hs hi hf
    simp only [Writer.writeStringEscapedLoop]
    exact hdone i start w hs hi (by omega)
  | succ fuel ih =>
    intro i start w hs hi hf
    rw [Writer.writeStringEscapedLoop]
    by_cases hlt : i < s.length
    · rw [if_pos hlt]
      have hdrop : s.drop i = s.getD i 0 :: s.drop (i + 1) := drop_eq_cons_getD s i hlt
      by_cases hst : stringTable (s.getD i 0) ≠ 0
      · rw [if_pos hst]
        simp only []
        rw [ih (i + 1) (i + 1) _ (le_refl _) (by omega) (by omega), writeEscapedChar_eq,
          slice_self, hdrop]
        by_cases hgt : i > start
        · simp [hgt]
        · have : start = i := by omega
          subst this
          simp [slice_self]
      · rw [if_neg hst]
        rw [ih (i + 1) start w (by omega) (by omega) (by omega), slice_succ s start i hs hlt,
          hdrop]
        simp only [List.flatMap_cons]
        rw [escapeByte_of_plain _ (not_not.mp hst)]
        simp
    · rw [if_neg hlt]
      exact hdone i start w hs hi hlt

theorem WriteStringEscaped_eq (w : Writer) (s : List Nat) :
    (w.WriteStringEscaped s).Buffer = w.Buffer ++ 34 :: (s.flatMap escapeByte ++ [34]) := by
  unfold Writer.WriteStringEscaped
  have := writeStringEscapedLoop_eq s s.length 0 0 { Buffer := w.Buffer ++ [34] }
    (le_refl _) (Nat.zero_le _) (by omega)
  simp only [slice_self, List.append_nil, List.drop_zero] at this
  simp only []
  split_ifs with h
  · rw [if_pos h] at this
    simp only []
    rw [this]; simp
  · rw [if_neg h] at this
    simp only [List.append_nil] at this
    rw [this]; simp

theorem byteItem_text (c : Nat) : (byteItem c).text = escapeByte c := by
  unfold byteItem escapeByte
  split_ifs <;> rfl

theorem byteItem_valid (c : Nat) : (byteItem c).valid = true := by
  unfold byteItem
  split_ifs with h1 h2 h3 h4 h5 h6 h7 h8
  any_goals rfl
  · have h32 : c < 32 := h8
    clear h8
    interval_cases c <;> first | omega | rfl
  · simp [StrItem.valid]; omega

theorem byteItem_value (c : Nat) : (byteItem c).value = [c] := by
  unfold byteItem
  split_ifs with h1 h2 h3 h4 h5 h6 h7 h8
  · subst h1; rfl
  · subst h2; rfl
  · subst h3; rfl
  · subst h4; rfl
  · subst h5; rfl
  · subst h6; rfl
  · subst h7; rfl
  · have h32 : c < 32 := h8
    clear h8
    interval_cases c <;> first | omega | rfl
  · rfl

theorem strText_byteItems (s : List Nat) : strText (s.map byteItem) = s.flatMap escapeByte := by
  induction s with
  | nil => rfl
  | cons c s ih =>
    simp [strText, byteItem_text] at ih ⊢
    exact ih

theorem strValue_byteItems (s : List Nat) : strValue (s.map byteItem) = s := by
  induction s with
  | nil => rfl
  | cons c s ih =>
    rw [List.map_cons, strValue_cons, ih, byteItem_value]; rfl

namespace Iterator

/-- Reading back what `WriteStringEscaped` wrote, in any context. -/
theorem ReadString_WriteStringEscaped (it : Iterator) (hwf : it.WF) (ws tail s : List Nat)
    (h : it.rest = ws ++ ((Writer.WriteStringEscaped ⟨[]⟩ s).Buffer ++ tail))
    (hws : ∀ c ∈ ws, isWhiteSpace c = true) :
    it.ReadString = (.ok s,
      { it with head := it.head + ws.length + (Writer.WriteStringEscaped ⟨[]⟩ s).Buffer.length }) := by
  have hb := WriteStringEscaped_eq ⟨[]⟩ s
  simp only [List.nil_append] at hb
  rw [hb, ← strText_byteItems] at h
  have := ReadString_items it hwf ws (s.map byteItem) tail (by rw [h]; simp) hws
    (by intro i hi; obtain ⟨c, _, rfl⟩ := List.mem_map.mp hi; exact byteItem_valid c)
  rw [this, strValue_byteItems, hb, ← strText_byteItems]
  congr 2
  simp
  omega

end Iterator

/-- Every body is a run of well-formed elements up to a closing quote, or is
malformed: `BadStringBody` leaves no third case. -/
theorem string_body_cases (n : Nat) : ∀ (body : List Nat), body.length ≤ n →
    (∃ items tail, body = strText items ++ 34 :: tail ∧ ∀ i ∈ items, i.valid = true) ∨
      BadStringBody body := by
  induction n with
  | zero =>
    intro body hb
    have : body = [] := List.length_eq_zero.mp (by omega)
    subst this
    exact Or.inr BadStringBody.eof
  | succ n ih =>
    intro body hb
    -- a well-formed element in front of a body that is classified
    have hstep : ∀ (i : StrItem) (r : List Nat), i.valid = true → body = i.text ++ r →
        r.length ≤ n →
        (∃ items tail, body = strText items ++ 34 :: tail ∧ ∀ i ∈ items, i.valid = true) ∨
          BadStringBody body := by
      intro i r hv hbody hr
      rcases ih r hr with ⟨items, tail, h1, h2⟩ | hbad
      · refine Or.inl ⟨i :: items, tail, ?_, ?_⟩
        · rw [hbody, h1, strText_cons, List.append_assoc]
        · intro j hj
          rcases List.mem_cons.mp hj with rfl | hj
          · exact hv
          · exact h2 j hj
      · rw [hbody]
        exact Or.inr (BadStringBody.afterItem i r hv hbad)
    match body, hb with
    | [], _ => exact Or.inr BadStringBody.eof
    | c :: r, hb =>
      simp only [List.length_cons] at hb
      by_cases h34 : c = 34
      · subst h34
        exact Or.inl ⟨[], r, rfl, by simp⟩
      by_cases h92 : c = 92
      · subst h92
        match r, hb with
        | [], _ => exact Or.inr BadStringBody.escEof
        | e :: r', hb =>
          simp only [List.length_cons] at hb
          by_cases hu : e = 117
          · subst hu
            by_cases hx : ∃ a b c d r'', r' = a :: b :: c :: d :: r'' ∧
                isHex a = true ∧ isHex b = true ∧ isHex c = true ∧ isHex d = true
            · obtain ⟨a, b, c, d, r'', hr, ha, hb', hc, hd⟩ := hx
              subst hr
              simp only [List.length_cons] at hb
              exact hstep (.uni a b c d) r'' (by simp [StrItem.valid, ha, hb', hc, hd]) rfl
                (by omega)
            · exact Or.inr (BadStringBody.badUnicode r' hx)
          · by_cases he : e = 34 ∨ e = 92 ∨ e = 47 ∨ e = 98 ∨ e = 102 ∨ e = 110 ∨ e = 114 ∨ e = 116
            · exact hstep (.esc e) r' (by simp [StrItem.valid, he]) rfl (by omega)
            · exact Or.inr (BadStringBody.badEscape e r' (by
                intro h
                rcases h with h | h | h | h | h | h | h | h | h
                all_goals first | exact hu h | exact he (by simp [h])))
      by_cases h32 : c < 32
      · exact Or.inr (BadStringBody.control c r h32)
      · exact hstep (.raw c) r (by simp [StrItem.valid]; omega) rfl (by omega)

theorem getDecoder_fst {F : Type} (fl : FloatLib F) (cache : List Ty) (t : Ty) :
    (getDecoder fl cache t).1 = compileDecoder fl t := by
  unfold getDecoder
  split
  · rfl
  · cases compileDecoder fl t <;> rfl

theorem getEncoder_fst {F : Type} (fl : FloatLib F) (cache : List Ty) (t : Ty) :
    (getEncoder fl cache t).1 = compileEncoder fl t := by
  unfold getEncoder
  split
  · rfl
  · cases compileEncoder fl t <;> rfl

theorem NewIterator_wf (data : List Nat) : (NewIterator data).WF := rfl

theorem NewIterator_rest (data : List Nat) : (NewIterator data).rest = data := rfl

/-! ## Struct encoding -/

/-- The field loop of `compileStructEncoder` and the loop of the routine it
returns, together: the plans appended for the fields from index `i` on write
the entries of these fields, with a leading comma unless no plan precedes. -/
theorem structEncode_fields {F : Type} (fl : FloatLib F) (encIface : EncoderFunc F)
    (vals : List (Val F)) (text : Nat → List Nat) (fields : List Field) :
    ∀ (i : Nat) (acc : List (structFieldEncoder F)),
      (∀ e ∈ emittedFields fields i, ∃ enc, compileEncoderWith fl encIface e.2.2 = .ok enc ∧
        ∀ w : Writer, enc w (vals.getD e.1 .nilIface) = .ok ⟨w.Buffer ++ text e.1⟩) →
      ∃ plans, compileStructEncFields fl encIface fields i acc = .ok (acc ++ plans) ∧
        ∀ w : Writer, structEncodeLoop plans w vals =
          .ok ⟨w.Buffer ++ fieldsText (decide (acc.length = 0))
            ((emittedFields fields i).map (fun e => (e.2.1, text e.1)))⟩ := by
  induction fields with
  | nil =>
    intro i acc _
    refine ⟨[], by simp [compileStructEncFields], ?_⟩
    intro w
    simp [structEncodeLoop, emittedFields, fieldsText]
  | cons f rest ih =>
    intro i acc h
    obtain ⟨name, tag, type⟩ := f
    by_cases htag : tag = [45]
    · have hem : emittedFields (Field.mk name tag type :: rest) i = emittedFields rest (i + 1) := by
        simp [emittedFields, htag]
      rw [hem] at h ⊢
      obtain ⟨plans, h1, h2⟩ := ih (i + 1) acc h
      refine ⟨plans, ?_, h2⟩
      rw [compileStructEncFields]
      simp only [compileStructEncField, htag, if_true]
      exact h1
    · have hem : emittedFields (Field.mk name tag type :: rest) i =
          (i, wireName name tag, type) :: emittedFields rest (i + 1) := by
        simp [emittedFields, htag]
      rw [hem] at h ⊢
      obtain ⟨enc, henc, hrun⟩ := h _ (List.mem_cons_self _ _)
      simp only [] at henc hrun
      let plan : structFieldEncoder F :=
        { offset := i, encoder := enc,
          key := if acc.length > 0 then [44, 34] ++ wireName name tag ++ [34, 58]
                 else [34] ++ wireName name tag ++ [34, 58] }
      obtain ⟨plans, h1, h2⟩ := ih (i + 1) (acc ++ [plan])
        (fun e he => h e (List.mem_cons_of_mem _ he))
      refine ⟨plan :: plans, ?_, ?_⟩
      · rw [compileStructEncFields]
        simp only [compileStructEncField, htag, if_false, henc]
        rw [h1]
        simp
      · intro w
        rw [structEncodeLoop]
        simp only [Writer.Write, plan]
        rw [hrun]
        simp only []
        rw [h2]
        simp only [List.map_cons, fieldsText]
        by_cases hacc : acc.length = 0
        · simp [hacc]
        · have : acc.length > 0 := by omega
          simp [hacc, this]

/-! ## Peeking and structural bytes -/

theorem StartsWith.nil (p : Nat → Prop) : StartsWith p [] := fun _ _ h => by cases h

theorem StartsWith.cons (p : Nat → Prop) (c : Nat) (l : List Nat) (h : p c) :
    StartsWith p (c :: l) := fun _ _ h' => by cases h'; exact h

theorem StartsWith.append (p : Nat → Prop) (l1 l2 : List Nat) (h1 : StartsWith p l1)
    (h2 : StartsWith p l2) : StartsWith p (l1 ++ l2) := by
  cases l1 with
  | nil => exact h2
  | cons c l => exact StartsWith.cons p c _ (h1 c l rfl)

theorem StartsWith.mono (p q : Nat → Prop) (l : List Nat) (h : StartsWith p l)
    (hpq : ∀ c, p c → q c) : StartsWith q l := fun c r hl => hpq c (h c r hl)

theorem Delimited.startsWith (tail : List Nat) (h : Delimited tail) :
    StartsWith (fun c => isWhiteSpace c = true ∨ c = 44 ∨ c = 125 ∨ c = 93) tail := h

theorem Delimited.not_digit (tail : List Nat) (h : Delimited tail) :
    StartsWith (fun c => isDigit c = false) tail := by
  intro c r hc
  have := h c r hc
  rw [isWhiteSpace_iff] at this
  rw [← Bool.not_eq_true, isDigit_iff]
  omega

theorem Delimited.cons_ws (c : Nat) (l : List Nat) (h : isWhiteSpace c = true) :
    Delimited (c :: l) := fun _ _ h' => by cases h'; exact Or.inl h

theorem Delimited.append_ws (ws l : List Nat) (hws : ∀ c ∈ ws, isWhiteSpace c = true)
    (h : Delimited l) : Delimited (ws ++ l) := by
  cases ws with
  | nil => exact h
  | cons c r => exact Delimited.cons_ws c _ (hws c (List.mem_cons_self _ _))

theorem all_iff_forall (p : Nat → Bool) (l : List Nat) :
    l.all p = true ↔ ∀ c ∈ l, p c = true := by
  simp [List.all_eq_true]

namespace Iterator

theorem peek_cons (it : Iterator) (hwf : it.WF) {c : Nat} {r : List Nat} (h : it.rest = c :: r)
    (x : Nat) : (it.head < it.dataLen ∧ it.byteAt it.head = x) ↔ c = x := by
  rw [byteAt_of_rest_cons it hwf h]
  exact ⟨fun h' => h'.2, fun h' => ⟨lt_of_rest_cons it hwf h, h'⟩⟩

theorem peek_nil (it : Iterator) (hwf : it.WF) (h : it.rest = []) (p : Prop) :
    ¬ (it.head < it.dataLen ∧ p) := by
  rintro ⟨hl, _⟩
  exact (lt_iff_rest it hwf).mp hl h

theorem rest_adv_append (it : Iterator) (pre r : List Nat) (h : it.rest = pre ++ r) :
    Iterator.rest { it with head := it.head + pre.length } = r := by
  rw [rest_adv, h, List.drop_left]

/-- Skipping whitespace in front of a byte that is none. -/
theorem skipWhiteSpace_cons (it : Iterator) (hwf : it.WF) (ws : List Nat) (c : Nat)
    (r : List Nat) (h : it.rest = ws ++ c :: r) (hws : ∀ x ∈ ws, isWhiteSpace x = true)
    (hc : isWhiteSpace c = false) :
    it.skipWhiteSpace = { it with head := it.head + ws.length } :=
  skipWhiteSpace_of_rest it hwf ws (c :: r) h hws (fun _ _ h' => by cases h'; exact hc)

theorem readStructural_ok (it : Iterator) (hwf : it.WF) (c : Nat) (msg : String)
    (ws r : List Nat) (h : it.rest = ws ++ c :: r) (hws : ∀ x ∈ ws, isWhiteSpace x = true)
    (hc : isWhiteSpace c = false) :
    it.readStructural c msg = (none, { it with head := it.head + ws.length + 1 }) := by
  unfold readStructural
  rw [skipWhiteSpace_cons it hwf ws c r h hws hc]
  have hwf1 : Iterator.WF { it with head := it.head + ws.length } := hwf
  have hr1 := rest_adv_append it ws _ h
  simp only []
  rw [if_pos ((peek_cons _ hwf1 hr1 c).mpr rfl)]

theorem slice_rest (it : Iterator) (n : Nat) :
    slice it.data it.head (it.head + n) = it.rest.take n := by
  unfold slice rest
  rw [List.take_drop]

theorem skipLiteral_ok (it : Iterator) (hwf : it.WF) (lit tail : List Nat) (msg : String)
    (h : it.rest = lit ++ tail) (hne : lit ≠ []) :
    it.skipLiteral lit msg = (none, { it with head := it.head + lit.length }) := by
  unfold skipLiteral
  rw [if_pos]
  constructor
  · have := rest_length it hwf
    rw [h] at this
    have hl : lit.length ≠ 0 := fun hh => hne (List.length_eq_zero.mp hh)
    simp at this
    omega
  · rw [slice_rest, h, List.take_left]

/-! ## Numbers of the JSON grammar -/

theorem skipDigitsLoop_eq (it : Iterator) (hwf : it.WF) (fuel h : Nat)
    (hf : it.dataLen - h ≤ fuel) :
    it.skipDigitsLoop fuel h = h + ((it.data.drop h).takeWhile isDigit).length := by
  induction fuel generalizing h with
  | zero =>
    have : it.data.length ≤ h := by rw [← hwf]; omega
    simp [Iterator.skipDigitsLoop, List.drop_eq_nil_of_le this]
  | succ fuel ih =>
    unfold Iterator.skipDigitsLoop
    by_cases hlt : h < it.dataLen
    · have hl : h < it.data.length := by rw [← hwf]; exact hlt
      rw [drop_eq_cons_getD _ _ hl]
      generalize it.data.getD h 0 = c
      cases hw : isDigit c
      · have : ¬ (48 ≤ c ∧ c ≤ 57) := by rw [← isDigit_iff]; simp [hw]
        rw [if_neg (fun hh => this hh.2)]
        simp [List.takeWhile_cons, hw]
      · have : (48 ≤ c ∧ c ≤ 57) := by rw [← isDigit_iff]; exact hw
        rw [if_pos ⟨hlt, this⟩, ih (h + 1) (by omega)]
        simp [List.takeWhile_cons, hw]; omega
    · have : it.data.length ≤ h := by rw [← hwf]; omega
      rw [if_neg (fun hh => hlt hh.1)]
      simp [List.drop_eq_nil_of_le this]

theorem skipDigits_of_rest (it : Iterator) (hwf : it.WF) (ds r : List Nat)
    (h : it.rest = ds ++ r) (hds : ∀ c ∈ ds, isDigit c = true)
    (hr : StartsWith (fun c => isDigit c = false) r) :
    it.skipDigits = { it with head := it.head + ds.length } := by
  unfold skipDigits
  rw [skipDigitsLoop_eq it hwf _ _ (le_refl _)]
  show _ = Iterator.mk _ _ _
  congr 2
  show (List.takeWhile isDigit it.rest).length = _
  rw [h, takeWhile_append_stop _ _ _ hds hr]

theorem skipSign_minus (it : Iterator) (hwf : it.WF) (r : List Nat) (h : it.rest = 45 :: r) :
    it.skipSign = { it with head := it.head + 1 } := by
  unfold skipSign
  rw [if_pos ((peek_cons it hwf h 45).mpr rfl)]

theorem skipSign_none (it : Iterator) (hwf : it.WF) (c : Nat) (r : List Nat)
    (h : it.rest = c :: r) (hc : c ≠ 45) : it.skipSign = it := by
  unfold skipSign
  rw [if_neg (fun hh => hc ((peek_cons it hwf h 45).mp hh))]

theorem skipInt_ok (it : Iterator) (hwf : it.WF) (int r : List Nat) (h : it.rest = int ++ r)
    (hint : int = [48] ∨ (int ≠ [] ∧ (∀ c ∈ int, isDigit c = true) ∧ int.head? ≠ some 48))
    (hr : StartsWith (fun c => isDigit c = false) r) :
    it.skipInt = some { it with head := it.head + int.length } := by
  unfold skipInt
  rcases hint with h0 | ⟨hne, hd, h48⟩
  · subst h0
    rw [if_pos ((peek_cons it hwf h 48).mpr rfl)]
    rfl
  · cases int with
    | nil => exact absurd rfl hne
    | cons d ds =>
      have hd48 : d ≠ 48 := fun hh => h48 (by rw [hh]; rfl)
      rw [if_neg (fun hh => hd48 ((peek_cons it hwf h 48).mp hh)),
        skipDigits_of_rest it hwf (d :: ds) r h hd hr]
      simp

theorem skipFrac_none (it : Iterator) (hwf : it.WF)
    (h : StartsWith (fun c => c ≠ 46) it.rest) : it.skipFrac = some it := by
  unfold skipFrac
  rw [if_neg]
  rintro ⟨hl, hb⟩
  exact h _ _ (rest_of_lt it hwf hl) hb

theorem skipFrac_some (it : Iterator) (hwf : it.WF) (ds r : List Nat)
    (h : it.rest = 46 :: (ds ++ r)) (hne : ds ≠ []) (hds : ∀ c ∈ ds, isDigit c = true)
    (hr : StartsWith (fun c => isDigit c = false) r) :
    it.skipFrac = some { it with head := it.head + (1 + ds.length) } := by
  unfold skipFrac
  rw [if_pos ((peek_cons it hwf h 46).mpr rfl)]
  have hwf1 : Iterator.WF { it with head := it.head + 1 } := hwf
  have hr1 : Iterator.rest { it with head := it.head + 1 } = ds ++ r := by
    rw [rest_adv, h]; rfl
  simp only []
  rw [skipDigits_of_rest _ hwf1 ds r hr1 hds hr]
  have : ds.length ≠ 0 := fun hh => hne (List.length_eq_zero.mp hh)
  simp [this, Nat.add_assoc]

theorem skipExp_none (it : Iterator) (hwf : it.WF)
    (h : StartsWith (fun c => c ≠ 101 ∧ c ≠ 69) it.rest) : it.skipExp = some it := by
  unfold skipExp
  rw [if_neg]
  rintro ⟨hl, hb⟩
  have := h _ _ (rest_of_lt it hwf hl)
  omega

theorem skipExpSign_none (it : Iterator) (hwf : it.WF) (c : Nat) (r : List Nat)
    (h : it.rest = c :: r) (hc : c ≠ 43 ∧ c ≠ 45) : it.skipExpSign = it := by
  unfold skipExpSign
  rw [if_neg]
  rintro ⟨_, hb⟩
  rw [byteAt_of_rest_cons it hwf h] at hb
  omega

theorem skipExpSign_some (it : Iterator) (hwf : it.WF) (c : Nat) (r : List Nat)
    (h : it.rest = c :: r) (hc : c = 43 ∨ c = 45) :
    it.skipExpSign = { it with head := it.head + 1 } := by
  unfold skipExpSign
  rw [if_pos ⟨lt_of_rest_cons it hwf h, by rw [byteAt_of_rest_cons it hwf h]; exact hc⟩]

theorem skipExp_some (it : Iterator) (hwf : it.WF) (e : Nat) (sign ds r : List Nat)
    (h : it.rest = e :: (sign ++ (ds ++ r))) (he : e = 101 ∨ e = 69)
    (hsign : sign = [] ∨ sign = [43] ∨ sign = [45])
    (hne : ds ≠ []) (hds : ∀ c ∈ ds, isDigit c = true)
    (hr : StartsWith (fun c => isDigit c = false) r) :
    it.skipExp = some { it with head := it.head + (1 + (sign.length + ds.length)) } := by
  unfold skipExp
  rw [if_pos ⟨lt_of_rest_cons it hwf h, by rw [byteAt_of_rest_cons it hwf h]; exact he⟩]
  have hwf1 : Iterator.WF { it with head := it.head + 1 } := hwf
  have hr1 : Iterator.rest { it with head := it.head + 1 } = sign ++ (ds ++ r) := by
    rw [rest_adv, h]; rfl
  have hlen : ds.length ≠ 0 := fun hh => hne (List.length_eq_zero.mp hh)
  obtain ⟨d, ds', hdd⟩ : ∃ d ds', ds = d :: ds' := by
    cases ds with
    | nil => exact absurd rfl hne
    | cons d ds' => exact ⟨d, ds', rfl⟩
  have hdig : 48 ≤ d ∧ d ≤ 57 := by
    rw [← isDigit_iff]; exact hds d (by rw [hdd]; exact List.mem_cons_self _ _)
  have hwf2 : Iterator.WF { it with head := it.head + 1 + 1 } := hwf
  simp only []
  rcases hsign with hs | hs | hs
  · subst hs
    simp only [List.nil_append] at hr1
    rw [skipExpSign_none _ hwf1 d (ds' ++ r) (by rw [hr1, hdd]; rfl) (by omega),
      skipDigits_of_rest _ hwf1 ds r hr1 hds hr]
    simp [hlen, Nat.add_assoc]
  · subst hs
    have hr2 : Iterator.rest { it with head := it.head + 1 + 1 } = ds ++ r := by
      rw [Nat.add_assoc, rest_adv, h]; rfl
    rw [skipExpSign_some _ hwf1 43 (ds ++ r) hr1 (Or.inl rfl),
      skipDigits_of_rest _ hwf2 ds r hr2 hds hr]
    simp [hlen, Nat.add_assoc]
    omega
  · subst hs
    have hr2 : Iterator.rest { it with head := it.head + 1 + 1 } = ds ++ r := by
      rw [Nat.add_assoc, rest_adv, h]; rfl
    rw [skipExpSign_some _ hwf1 45 (ds ++ r) hr1 (Or.inr rfl),
      skipDigits_of_rest _ hwf2 ds r hr2 hds hr]
    simp [hlen, Nat.add_assoc]
    omega

end Iterator

namespace Iterator

theorem adv_zero (it : Iterator) : ({ it with head := it.head + 0 } : Iterator) = it := rfl

theorem intValid_cases (int : List Nat) (h : JsonNumber.intValid int = true) :
    int = [48] ∨ (int ≠ [] ∧ (∀ c ∈ int, isDigit c = true) ∧ int.head? ≠ some 48) := by
  simp only [JsonNumber.intValid, Bool.or_eq_true, Bool.and_eq_true, decide_eq_true_eq,
    all_iff_forall] at h
  rcases h with h | ⟨⟨h1, h2⟩, h3⟩
  · exact Or.inl h
  · exact Or.inr ⟨h1, h2, h3⟩

theorem intValid_head (int : List Nat) (h : JsonNumber.intValid int = true) :
    ∃ d ds, int = d :: ds ∧ 48 ≤ d ∧ d ≤ 57 := by
  rcases intValid_cases int h with h | ⟨h1, h2, _⟩
  · exact ⟨48, [], h, by omega, by omega⟩
  · cases int with
    | nil => exact absurd rfl h1
    | cons d ds =>
      exact ⟨d, ds, rfl, (isDigit_iff d).mp (h2 d (List.mem_cons_self _ _))⟩

theorem skipSignInt_ok (it : Iterator) (hwf : it.WF) (neg : Bool) (int r : List Nat)
    (h : it.rest = JsonNumber.signText neg ++ (int ++ r))
    (hint : JsonNumber.intValid int = true)
    (hr : StartsWith (fun c => isDigit c = false) r) :
    it.skipSign.skipInt =
      some { it with head := it.head + ((JsonNumber.signText neg).length + int.length) } := by
  obtain ⟨d, ds, hd, hd1, hd2⟩ := intValid_head int hint
  cases neg
  · simp only [JsonNumber.signText, Bool.false_eq_true, if_false, List.nil_append] at h ⊢
    rw [skipSign_none it hwf d (ds ++ r) (by rw [h, hd]; rfl) (by omega),
      skipInt_ok it hwf int r h (intValid_cases int hint) hr]
    simp
  · simp only [JsonNumber.signText, if_true] at h ⊢
    rw [skipSign_minus it hwf (int ++ r) h]
    have hwf1 : Iterator.WF { it with head := it.head + 1 } := hwf
    have hr1 : Iterator.rest { it with head := it.head + 1 } = int ++ r := by
      rw [rest_adv, h]; rfl
    rw [skipInt_ok _ hwf1 int r hr1 (intValid_cases int hint) hr, adv_adv]
    rfl

theorem skipFrac_ok (it : Iterator) (hwf : it.WF) (frac : Option (List Nat)) (r : List Nat)
    (h : it.rest = JsonNumber.fracText frac ++ r)
    (hfrac : JsonNumber.fracValid frac = true)
    (hr : StartsWith (fun c => isDigit c = false ∧ c ≠ 46) r) :
    it.skipFrac = some { it with head := it.head + (JsonNumber.fracText frac).length } := by
  cases frac with
  | none =>
    simp only [JsonNumber.fracText, List.nil_append] at h ⊢
    rw [skipFrac_none it hwf (by rw [h]; exact StartsWith.mono _ _ r hr (fun c hc => hc.2))]
    rfl
  | some ds =>
    simp only [JsonNumber.fracValid, Bool.and_eq_true, decide_eq_true_eq,
      all_iff_forall] at hfrac
    simp only [JsonNumber.fracText, List.cons_append] at h ⊢
    rw [skipFrac_some it hwf ds r h hfrac.1 hfrac.2
      (StartsWith.mono _ _ r hr (fun c hc => hc.1))]
    simp [Nat.add_comm]

theorem skipExp_ok (it : Iterator) (hwf : it.WF) (exp : Option (Nat × List Nat × List Nat))
    (r : List Nat) (h : it.rest = JsonNumber.expText exp ++ r)
    (hexp : JsonNumber.expValid exp = true)
    (hr : StartsWith (fun c => isDigit c = false ∧ c ≠ 101 ∧ c ≠ 69) r) :
    it.skipExp = some { it with head := it.head + (JsonNumber.expText exp).length } := by
  cases exp with
  | none =>
    simp only [JsonNumber.expText, List.nil_append] at h ⊢
    rw [skipExp_none it hwf (by rw [h]; exact StartsWith.mono _ _ r hr (fun c hc => hc.2))]
    rfl
  | some x =>
    obtain ⟨e, sign, ds⟩ := x
    simp only [JsonNumber.expValid, Bool.and_eq_true, decide_eq_true_eq,
      all_iff_forall] at hexp
    obtain ⟨⟨⟨he, hs⟩, hne⟩, hds⟩ := hexp
    simp only [JsonNumber.expText, List.cons_append, List.append_assoc] at h ⊢
    rw [skipExp_some it hwf e sign ds r h he hs hne hds
      (StartsWith.mono _ _ r hr (fun c hc => hc.1))]
    simp [Nat.add_comm]

theorem Delimited.number_tail (tail : List Nat) (h : Delimited tail) :
    StartsWith (fun c => isDigit c = false ∧ c ≠ 46 ∧ c ≠ 101 ∧ c ≠ 69) tail := by
  intro c r hc
  have := h c r hc
  rw [isWhiteSpace_iff] at this
  rw [← Bool.not_eq_true, isDigit_iff]
  omega

theorem expText_head (exp : Option (Nat × List Nat × List Nat))
    (hexp : JsonNumber.expValid exp = true) :
    StartsWith (fun c => c = 101 ∨ c = 69) (JsonNumber.expText exp) := by
  cases exp with
  | none => exact StartsWith.nil _
  | some x =>
    obtain ⟨e, sign, ds⟩ := x
    simp only [JsonNumber.expValid, Bool.and_eq_true, decide_eq_true_eq] at hexp
    exact StartsWith.cons _ _ _ hexp.1.1.1

theorem fracText_head (frac : Option (List Nat)) :
    StartsWith (fun c => c = 46) (JsonNumber.fracText frac) := by
  cases frac with
  | none => exact StartsWith.nil _
  | some ds => exact StartsWith.cons _ _ _ rfl

/-- The number grammar of `SkipValue` consumes a number of the JSON grammar
that something other than a number byte follows. -/
theorem skipNumber_ok (it : Iterator) (hwf : it.WF) (n : JsonNumber) (tail : List Nat)
    (hv : n.valid = true) (h : it.rest = n.text ++ tail) (ht : Delimited tail) :
    it.skipNumber = (none, { it with head := it.head + n.text.length }) := by
  obtain ⟨neg, int, frac, exp⟩ := n
  simp only [JsonNumber.valid, Bool.and_eq_true] at hv
  obtain ⟨⟨hint, hfrac⟩, hexp⟩ := hv
  simp only [JsonNumber.text, List.append_assoc] at h ⊢
  have ht4 := Delimited.number_tail tail ht
  have h3 : StartsWith (fun c => isDigit c = false ∧ c ≠ 46) (JsonNumber.expText exp ++ tail) :=
    StartsWith.append _ _ _
      (StartsWith.mono _ _ _ (expText_head exp hexp) (fun c hc => by
        rw [← Bool.not_eq_true, isDigit_iff]; omega))
      (StartsWith.mono _ _ _ ht4 (fun c hc => ⟨hc.1, hc.2.1⟩))
  have h2 : StartsWith (fun c => isDigit c = false)
      (JsonNumber.fracText frac ++ (JsonNumber.expText exp ++ tail)) :=
    StartsWith.append _ _ _
      (StartsWith.mono _ _ _ (fracText_head frac) (fun c hc => by
        rw [← Bool.not_eq_true, isDigit_iff]; omega))
      (StartsWith.mono _ _ _ h3 (fun c hc => hc.1))
  unfold skipNumber
  rw [skipSignInt_ok it hwf neg int _ h hint h2]
  simp only []
  have hwf1 : Iterator.WF
      { it with head := it.head + ((JsonNumber.signText neg).length + int.length) } := hwf
  have hr1 : Iterator.rest
      { it with head := it.head + ((JsonNumber.signText neg).length + int.length) } =
      JsonNumber.fracText frac ++ (JsonNumber.expText exp ++ tail) := by
    rw [rest_adv, h, ← List.append_assoc, ← List.length_append, List.drop_left]
  rw [skipFrac_ok _ hwf1 frac _ hr1 hfrac h3]
  simp only []
  rw [adv_adv]
  have hwf2 : Iterator.WF
      { it with head := it.head + ((JsonNumber.signText neg).length + int.length +
        (JsonNumber.fracText frac).length) } := hwf
  have hr2 : Iterator.rest
      { it with head := it.head + ((JsonNumber.signText neg).length + int.length +
        (JsonNumber.fracText frac).length) } = JsonNumber.expText exp ++ tail := by
    rw [rest_adv, h, ← List.append_assoc, ← List.append_assoc, ← List.length_append,
      ← List.length_append, List.drop_left]
  rw [skipExp_ok _ hwf2 exp _ hr2 hexp
    (StartsWith.mono _ _ _ ht4 (fun c hc => ⟨hc.1, hc.2.2⟩))]
  simp only []
  rw [adv_adv]
  simp only [List.length_append, Nat.add_assoc]

theorem JsonNumber_text_head (n : JsonNumber) (hv : n.valid = true) :
    ∃ c r, n.text = c :: r ∧ (c = 45 ∨ (48 ≤ c ∧ c ≤ 57)) := by
  obtain ⟨neg, int, frac, exp⟩ := n
  simp only [JsonNumber.valid, Bool.and_eq_true] at hv
  obtain ⟨d, ds, hd, hd1⟩ := intValid_head int hv.1.1
  cases neg
  · exact ⟨d, _, by simp [JsonNumber.text, JsonNumber.signText, hd]; rfl, Or.inr hd1⟩
  · exact ⟨45, _, by simp [JsonNumber.text, JsonNumber.signText]; rfl, Or.inl rfl⟩

end Iterator

/-! ## Texts of the JSON grammar -/

theorem Json.text_head (j : Json) (hv : j.valid = true) :
    ∃ c r, j.text = c :: r ∧ isWhiteSpace c = false ∧ c ≠ 44 ∧ c ≠ 93 ∧ c ≠ 125 := by
  cases j with
  | null => exact ⟨110, _, rfl, by decide, by decide, by decide, by decide⟩
  | bool b =>
    cases b
    · exact ⟨102, _, rfl, by decide, by decide, by decide, by decide⟩
    · exact ⟨116, _, rfl, by decide, by decide, by decide, by decide⟩
  | number n =>
    have hn : n.valid = true := by simpa [Json.valid] using hv
    obtain ⟨c, r, h, hc⟩ := Iterator.JsonNumber_text_head n hn
    refine ⟨c, r, by simpa [Json.text] using h, ?_, ?_, ?_, ?_⟩
    · rw [← Bool.not_eq_true, isWhiteSpace_iff]; omega
    all_goals omega
  | string items => exact ⟨34, _, rfl, by decide, by decide, by decide, by decide⟩
  | array ws elems => exact ⟨91, _, rfl, by decide, by decide, by decide, by decide⟩
  | object ws members => exact ⟨123, _, rfl, by decide, by decide, by decide, by decide⟩

theorem Json.text_length_pos (j : Json) (hv : j.valid = true) : 1 ≤ j.text.length := by
  obtain ⟨c, r, h, _⟩ := Json.text_head j hv
  rw [h]; simp

theorem Json.text_not_ws (j : Json) (hv : j.valid = true) (tail : List Nat) :
    StartsWith (fun c => isWhiteSpace c = false) (j.text ++ tail) := by
  obtain ⟨c, r, h, hc, _⟩ := Json.text_head j hv
  rw [h]
  exact StartsWith.cons _ _ _ hc

namespace Iterator

theorem res_congr {α : Type} (it : Iterator) (x : α) (a b : Nat) (h : a = b) :
    (x, ({ it with head := a } : Iterator)) = (x, { it with head := b }) := by rw [h]

theorem ReadString_ws (it : Iterator) (hwf : it.WF) :
    it.skipWhiteSpace.ReadString = it.ReadString := by
  unfold ReadString
  simp only [skipWhiteSpace_idem it hwf]

theorem skipValueFuel_ws (it : Iterator) (hwf : it.WF) (fuel : Nat) :
    skipValueFuel (fuel + 1) it.skipWhiteSpace = skipValueFuel (fuel + 1) it := by
  rw [skipValueFuel, skipValueFuel]
  simp only [skipWhiteSpace_idem it hwf]

theorem skipArrayLoop_ws (it : Iterator) (hwf : it.WF) (fuel : Nat) :
    skipArrayLoop (fuel + 2) it.skipWhiteSpace = skipArrayLoop (fuel + 2) it := by
  rw [skipArrayLoop, skipArrayLoop, skipValueFuel_ws it hwf]

theorem skipObjectLoop_ws (it : Iterator) (hwf : it.WF) (fuel : Nat) :
    skipObjectLoop (fuel + 1) it.skipWhiteSpace = skipObjectLoop (fuel + 1) it := by
  rw [skipObjectLoop, skipObjectLoop, ReadString_ws it hwf]

end Iterator

namespace Iterator

theorem elemsText_cons_false (e : JsonElem) (es : List JsonElem) :
    Json.elemsText false (e :: es) = 44 :: Json.elemsText true (e :: es) := by
  simp [Json.elemsText]

theorem membersText_cons_false (m : JsonMember) (ms : List JsonMember) :
    Json.membersText false (m :: ms) = 44 :: Json.membersText true (m :: ms) := by
  simp [Json.membersText]

/-- What follows a value inside an array or an object. -/
theorem Delimited.of_ws_sep (ws r : List Nat) (c : Nat)
    (hws : ∀ x ∈ ws, isWhiteSpace x = true) (hc : c = 44 ∨ c = 125 ∨ c = 93) :
    Delimited (ws ++ c :: r) :=
  Delimited.append_ws ws _ hws (fun _ _ h => by cases h; exact Or.inr hc)

theorem elems_tail_delimited (ws2 : List Nat) (es : List JsonElem) (tail : List Nat)
    (hws : ∀ x ∈ ws2, isWhiteSpace x = true) :
    Delimited (ws2 ++ (Json.elemsText false es ++ 93 :: tail)) := by
  cases es with
  | nil => exact Delimited.of_ws_sep ws2 tail 93 hws (by simp)
  | cons e es =>
    rw [elemsText_cons_false]
    exact Delimited.of_ws_sep ws2 _ 44 hws (by simp)

theorem members_tail_delimited (ws4 : List Nat) (ms : List JsonMember) (tail : List Nat)
    (hws : ∀ x ∈ ws4, isWhiteSpace x = true) :
    Delimited (ws4 ++ (Json.membersText false ms ++ 125 :: tail)) := by
  cases ms with
  | nil => exact Delimited.of_ws_sep ws4 tail 125 hws (by simp)
  | cons m ms =>
    rw [membersText_cons_false]
    exact Delimited.of_ws_sep ws4 _ 44 hws (by simp)

theorem rest_adv_cons (it : Iterator) (c : Nat) (r : List Nat) (h : it.rest = c :: r) :
    Iterator.rest { it with head := it.head + 1 } = r := by
  rw [rest_adv, h]; rfl

/-- The value-skip model consumes exactly one text of the JSON grammar, of any
shape and depth, given fuel for its length. -/
theorem skipValue_all (fuel : Nat) :
    (∀ (j : Json) (it : Iterator) (ws tail : List Nat), it.WF → j.valid = true →
      it.rest = ws ++ (j.text ++ tail) → (∀ c ∈ ws, isWhiteSpace c = true) → Delimited tail →
      j.text.length ≤ fuel →
      skipValueFuel fuel it =
        (none, { it with head := it.head + ws.length + j.text.length })) ∧
    (∀ (e : JsonElem) (es : List JsonElem) (it : Iterator) (tail : List Nat), it.WF →
      Json.elemsValid (e :: es) = true →
      it.rest = Json.elemsText true (e :: es) ++ 93 :: tail →
      (Json.elemsText true (e :: es)).length + 1 ≤ fuel →
      skipArrayLoop fuel it =
        (none, { it with head := it.head + (Json.elemsText true (e :: es)).length + 1 })) ∧
    (∀ (m : JsonMember) (ms : List JsonMember) (it : Iterator) (tail : List Nat), it.WF →
      Json.membersValid (m :: ms) = true →
      it.rest = Json.membersText true (m :: ms) ++ 125 :: tail →
      (Json.membersText true (m :: ms)).length + 1 ≤ fuel →
      skipObjectLoop fuel it =
        (none, { it with head := it.head + (Json.membersText true (m :: ms)).length + 1 })) := by
  induction fuel with
  | zero =>
    refine ⟨?_, ?_, ?_⟩
    · intro j it ws tail _ hv _ _ _ hf
      have := Json.text_length_pos j hv
      omega
    · intro e es it tail _ _ _ hf; omega
    · intro m ms it tail _ _ _ hf; omega
  | succ fuel ih =>
    obtain ⟨ihA, ihB, ihC⟩ := ih
    refine ⟨?_, ?_, ?_⟩
    · intro j it ws tail hwf hv h hws ht hf
      obtain ⟨c, r, hc, hcw, _⟩ := Json.text_head j hv
      have hskip : it.skipWhiteSpace = { it with head := it.head + ws.length } :=
        skipWhiteSpace_of_rest it hwf ws _ h hws (Json.text_not_ws j hv tail)
      have hwf1 : Iterator.WF { it with head := it.head + ws.length } := hwf
      have hr1 : Iterator.rest { it with head := it.head + ws.length } = j.text ++ tail :=
        rest_adv_append it ws _ h
      have hr1c : Iterator.rest { it with head := it.head + ws.length } = c :: (r ++ tail) := by
        rw [hr1, hc]; rfl
      have hlt1 := lt_of_rest_cons _ hwf1 hr1c
      rw [skipValueFuel]
      simp only []
      rw [hskip, if_neg (not_le.mpr hlt1), byteAt_of_rest_cons _ hwf1 hr1c]
      cases j with
      | null =>
        cases hc
        iterate 5 rw [if_neg (by decide)]
        rw [if_pos rfl, skipLiteral_ok _ hwf1 [110, 117, 108, 108] tail _ hr1 (by decide)]
        rfl
      | bool b =>
        cases b
        · cases hc
          iterate 4 rw [if_neg (by decide)]
          rw [if_pos rfl, skipLiteral_ok _ hwf1 [102, 97, 108, 115, 101] tail _ hr1 (by decide)]
          rfl
        · cases hc
          iterate 3 rw [if_neg (by decide)]
          rw [if_pos rfl, skipLiteral_ok _ hwf1 [116, 114, 117, 101] tail _ hr1 (by decide)]
          rfl
      | number n =>
        have hn : n.valid = true := by simpa [Json.valid] using hv
        obtain ⟨c', r', hc', hd⟩ := JsonNumber_text_head n hn
        have hcc : c = c' := by
          have : Json.text (.number n) = n.text := by simp [Json.text]
          rw [this, hc'] at hc
          cases hc; rfl
        subst hcc
        iterate 6 rw [if_neg (by omega)]
        rw [if_pos hd, skipNumber_ok _ hwf1 n tail hn (by simpa [Json.text] using hr1) ht]
        refine res_congr it none _ _ ?_
        simp [Json.text]
      | string items =>
        cases hc
        have hi : ∀ i ∈ items, i.valid = true := by
          simpa [Json.valid, List.all_eq_true] using hv
        rw [if_pos rfl, ReadString_items _ hwf1 [] items tail
          (by rw [hr1]; simp [Json.text]) (by simp) hi]
        simp only []
        refine res_congr it none _ _ ?_
        simp [Json.text]
        omega
      | array aws elems =>
        cases hc
        iterate 2 rw [if_neg (by decide)]
        rw [if_pos rfl]
        simp only []
        have hwf2 : Iterator.WF { it with head := it.head + ws.length + 1 } := hwf
        have hr2 : Iterator.rest { it with head := it.head + ws.length + 1 } =
            aws ++ (Json.elemsText true elems ++ 93 :: tail) := by
          have := rest_adv { it with head := it.head + ws.length } 1
          rw [hr1] at this
          simpa [Json.text] using this
        simp only [Json.valid, Bool.and_eq_true, Bool.or_eq_true, decide_eq_true_eq,
          all_iff_forall] at hv
        obtain ⟨⟨haws, hempty⟩, helems⟩ := hv
        cases elems with
        | nil =>
          simp only [Json.elemsText, List.nil_append] at hr2
          have hwf3 : Iterator.WF { it with head := it.head + ws.length + 1 + aws.length } := hwf
          have hr3 := rest_adv_append _ aws _ hr2
          rw [skipWhiteSpace_cons _ hwf2 aws 93 tail hr2 haws (by decide)]
          simp only []
          rw [if_pos ((peek_cons _ hwf3 hr3 93).mpr rfl)]
          refine res_congr it none _ _ ?_
          simp [Json.text, Json.elemsText]
          omega
        | cons e es =>
          have haws0 : aws = [] := by simpa using hempty
          subst haws0
          obtain ⟨ws1, v, ws2⟩ := e
          have hlen : (Json.text (.array [] (JsonElem.mk ws1 v ws2 :: es))).length =
              (Json.elemsText true (JsonElem.mk ws1 v ws2 :: es)).length + 2 := by
            simp [Json.text]
          have hvv : v.valid = true := by
            simp only [Json.elemsValid, Json.elemValid, Bool.and_eq_true] at helems
            exact helems.1.1.2
          have hws1 : ∀ x ∈ ws1, isWhiteSpace x = true := by
            simp only [Json.elemsValid, Json.elemValid, Bool.and_eq_true, all_iff_forall]
              at helems
            exact helems.1.1.1
          have hvl := Json.text_length_pos v hvv
          have hel : (Json.elemsText true (JsonElem.mk ws1 v ws2 :: es)).length ≥ 1 := by
            simp [Json.elemsText, Json.elemText]; omega
          obtain ⟨k, hk⟩ : ∃ k, fuel = k + 2 := ⟨fuel - 2, by omega⟩
          subst hk
          simp only [List.nil_append] at hr2
          obtain ⟨c, r, hc, hcw, _, hc93, _⟩ := Json.text_head v hvv
          have hr2c : Iterator.rest { it with head := it.head + ws.length + 1 } =
              ws1 ++ c :: (r ++ (ws2 ++ (Json.elemsText false es ++ 93 :: tail))) := by
            rw [hr2]; simp [Json.elemsText, Json.elemText, hc]
          have hwf3 : Iterator.WF { it with head := it.head + ws.length + 1 + ws1.length } := hwf
          have hr3 := rest_adv_append _ ws1 _ hr2c
          rw [skipArrayLoop_ws _ hwf2, skipWhiteSpace_cons _ hwf2 ws1 c _ hr2c hws1 hcw]
          simp only []
          rw [if_neg (fun hh => hc93 ((peek_cons _ hwf3 hr3 93).mp hh)),
            ihB _ es _ tail hwf2 helems hr2 (by omega)]
          refine res_congr it none _ _ ?_
          show _ = it.head + ws.length + (Json.text (.array [] (JsonElem.mk ws1 v ws2 :: es))).length
          rw [hlen]
          simp only []
          omega
      | object ows members =>
        cases hc
        rw [if_neg (by decide), if_pos rfl]
        simp only []
        have hwf2 : Iterator.WF { it with head := it.head + ws.length + 1 } := hwf
        have hr2 : Iterator.rest { it with head := it.head + ws.length + 1 } =
            ows ++ (Json.membersText true members ++ 125 :: tail) := by
          have := rest_adv { it with head := it.head + ws.length } 1
          rw [hr1] at this
          simpa [Json.text] using this
        simp only [Json.valid, Bool.and_eq_true, Bool.or_eq_true, decide_eq_true_eq,
          all_iff_forall] at hv
        obtain ⟨⟨hows, hempty⟩, hmembers⟩ := hv
        cases members with
        | nil =>
          simp only [Json.membersText, List.nil_append] at hr2
          have hwf3 : Iterator.WF { it with head := it.head + ws.length + 1 + ows.length } := hwf
          have hr3 := rest_adv_append _ ows _ hr2
          rw [skipWhiteSpace_cons _ hwf2 ows 125 tail hr2 hows (by decide)]
          simp only []
          rw [if_pos ((peek_cons _ hwf3 hr3 125).mpr rfl)]
          refine res_congr it none _ _ ?_
          simp [Json.text, Json.membersText]
          omega
        | cons m ms =>
          have hows0 : ows = [] := by simpa using hempty
          subst hows0
          obtain ⟨ws1, key, ws2, ws3, v, ws4⟩ := m
          have hlen : (Json.text (.object [] (JsonMember.mk ws1 key ws2 ws3 v ws4 :: ms))).length =
              (Json.membersText true (JsonMember.mk ws1 key ws2 ws3 v ws4 :: ms)).length + 2 := by
            simp [Json.text]
          have hws1 : ∀ x ∈ ws1, isWhiteSpace x = true := by
            simp only [Json.membersValid, Json.memberValid, Bool.and_eq_true, all_iff_forall]
              at hmembers
            exact hmembers.1.1.1.1.1.1
          have hel : (Json.membersText true (JsonMember.mk ws1 key ws2 ws3 v ws4 :: ms)).length
              ≥ 1 := by
            simp [Json.membersText, Json.memberText]; omega
          obtain ⟨k, hk⟩ : ∃ k, fuel = k + 1 := ⟨fuel - 1, by omega⟩
          subst hk
          simp only [List.nil_append] at hr2
          have hr2c : Iterator.rest { it with head := it.head + ws.length + 1 } =
              ws1 ++ 34 :: (strText key ++ 34 :: (ws2 ++ 58 :: (ws3 ++ (v.text ++ ws4))) ++
                (Json.membersText false ms ++ 125 :: tail)) := by
            rw [hr2]; simp [Json.membersText, Json.memberText]
          have hwf3 : Iterator.WF { it with head := it.head + ws.length + 1 + ws1.length } := hwf
          have hr3 := rest_adv_append _ ws1 _ hr2c
          rw [skipObjectLoop_ws _ hwf2, skipWhiteSpace_cons _ hwf2 ws1 34 _ hr2c hws1 (by decide)]
          simp only []
          rw [if_neg (fun hh => absurd ((peek_cons _ hwf3 hr3 125).mp hh) (by decide)),
            ihC _ ms _ tail hwf2 hmembers hr2 (by omega)]
          refine res_congr it none _ _ ?_
          show _ = it.head + ws.length +
            (Json.text (.object [] (JsonMember.mk ws1 key ws2 ws3 v ws4 :: ms))).length
          rw [hlen]
          simp only []
          omega
    · intro e es it tail hwf hv h hf
      obtain ⟨ws1, v, ws2⟩ := e
      simp only [Json.elemsValid, Json.elemValid, Bool.and_eq_true, all_iff_forall] at hv
      obtain ⟨⟨⟨hws1, hvv⟩, hws2⟩, hes⟩ := hv
      have h' : it.rest = ws1 ++ (v.text ++ (ws2 ++ (Json.elemsText false es ++ 93 :: tail))) := by
        rw [h]; simp [Json.elemsText, Json.elemText]
      have hlen : (Json.elemsText true (JsonElem.mk ws1 v ws2 :: es)).length =
          ws1.length + v.text.length + ws2.length + (Json.elemsText false es).length := by
        simp [Json.elemsText, Json.elemText]; omega
      rw [skipArrayLoop, ihA v it ws1 _ hwf hvv h' hws1 (elems_tail_delimited ws2 es tail hws2)
        (by omega)]
      simp only []
      have hwf1 : Iterator.WF { it with head := it.head + ws1.length + v.text.length } := hwf
      have hr1 : Iterator.rest { it with head := it.head + ws1.length + v.text.length } =
          ws2 ++ (Json.elemsText false es ++ 93 :: tail) := by
        have := rest_adv_append _ v.text _ (rest_adv_append it ws1 _ h')
        exact this
      have hwf2 : Iterator.WF
          { it with head := it.head + ws1.length + v.text.length + ws2.length } := hwf
      cases es with
      | nil =>
        simp only [Json.elemsText, List.nil_append] at hr1
        have hr2 := rest_adv_append _ ws2 _ hr1
        rw [skipWhiteSpace_cons _ hwf1 ws2 93 tail hr1 hws2 (by decide)]
        simp only []
        rw [if_neg (fun hh => absurd ((peek_cons _ hwf2 hr2 44).mp hh) (by decide)),
          if_pos ((peek_cons _ hwf2 hr2 93).mpr rfl)]
        refine res_congr it none _ _ ?_
        rw [hlen]
        simp [Json.elemsText]
        omega
      | cons e' es' =>
        rw [elemsText_cons_false] at hr1 hlen
        have hr2 := rest_adv_append _ ws2 _ hr1
        have hwf3 : Iterator.WF
            { it with head := it.head + ws1.length + v.text.length + ws2.length + 1 } := hwf
        have hr3 : Iterator.rest
            { it with head := it.head + ws1.length + v.text.length + ws2.length + 1 } =
            Json.elemsText true (e' :: es') ++ 93 :: tail := by
          have := rest_adv { it with head := it.head + ws1.length + v.text.length + ws2.length } 1
          rw [hr2] at this
          simpa using this
        rw [skipWhiteSpace_cons _ hwf1 ws2 44 _ hr1 hws2 (by decide)]
        simp only []
        rw [if_pos ((peek_cons _ hwf2 hr2 44).mpr rfl),
          ihB e' es' _ tail hwf3 hes hr3 (by simp only [List.length_cons] at hlen; omega)]
        refine res_congr it none _ _ ?_
        rw [hlen]
        simp only [List.length_cons]
        omega
    · intro m ms it tail hwf hv h hf
      obtain ⟨ws1, key, ws2, ws3, v, ws4⟩ := m
      simp only [Json.membersValid, Json.memberValid, Bool.and_eq_true, all_iff_forall] at hv
      obtain ⟨⟨⟨⟨⟨⟨hws1, hkey⟩, hws2⟩, hws3⟩, hvv⟩, hws4⟩, hms⟩ := hv
      have h' : it.rest = ws1 ++ 34 :: (strText key ++ 34 :: (ws2 ++ 58 :: (ws3 ++ (v.text ++
          (ws4 ++ (Json.membersText false ms ++ 125 :: tail)))))) := by
        rw [h]; simp [Json.membersText, Json.memberText]
      have hlen : (Json.membersText true (JsonMember.mk ws1 key ws2 ws3 v ws4 :: ms)).length =
          ws1.length + 1 + (strText key).length + 1 + ws2.length + 1 + ws3.length +
            v.text.length + ws4.length + (Json.membersText false ms).length := by
        simp [Json.membersText, Json.memberText]; omega
      have hkey' : ∀ i ∈ key, i.valid = true := by simpa [List.all_eq_true] using hkey
      rw [skipObjectLoop, ReadString_items it hwf ws1 key _ h' hws1 hkey']
      simp only []
      have hwf1 : Iterator.WF
          { it with head := it.head + ws1.length + 1 + (strText key).length + 1 } := hwf
      have hr1 : Iterator.rest
          { it with head := it.head + ws1.length + 1 + (strText key).length + 1 } =
          ws2 ++ 58 :: (ws3 ++ (v.text ++
            (ws4 ++ (Json.membersText false ms ++ 125 :: tail)))) :=
        rest_adv_cons _ 34 _ (rest_adv_append _ (strText key) _
          (rest_adv_cons _ 34 _ (rest_adv_append it ws1 _ h')))
      unfold ReadColon
      rw [readStructural_ok _ hwf1 58 _ ws2 _ hr1 hws2 (by decide)]
      simp only []
      have hwf2 : Iterator.WF
          { it with head := it.head + ws1.length + 1 + (strText key).length + 1 +
            ws2.length + 1 } := hwf
      have hr2 : Iterator.rest
          { it with head := it.head + ws1.length + 1 + (strText key).length + 1 +
            ws2.length + 1 } =
          ws3 ++ (v.text ++ (ws4 ++ (Json.membersText false ms ++ 125 :: tail))) :=
        rest_adv_cons _ 58 _ (rest_adv_append _ ws2 _ hr1)
      rw [ihA v _ ws3 _ hwf2 hvv hr2 hws3 (members_tail_delimited ws4 ms tail hws4) (by omega)]
      simp only []
      have hwf3 : Iterator.WF
          { it with head := it.head + ws1.length + 1 + (strText key).length + 1 +
            ws2.length + 1 + ws3.length + v.text.length } := hwf
      have hr3 : Iterator.rest
          { it with head := it.head + ws1.length + 1 + (strText key).length + 1 +
            ws2.length + 1 + ws3.length + v.text.length } =
          ws4 ++ (Json.membersText false ms ++ 125 :: tail) :=
        rest_adv_append _ v.text _ (rest_adv_append _ ws3 _ hr2)
      have hwf4 : Iterator.WF
          { it with head := it.head + ws1.length + 1 + (strText key).length + 1 +
            ws2.length + 1 + ws3.length + v.text.length + ws4.length } := hwf
      cases ms with
      | nil =>
        simp only [Json.membersText, List.nil_append] at hr3
        have hr4 := rest_adv_append _ ws4 _ hr3
        rw [skipWhiteSpace_cons _ hwf3 ws4 125 tail hr3 hws4 (by decide)]
        simp only []
        rw [if_neg (fun hh => absurd ((peek_cons _ hwf4 hr4 44).mp hh) (by decide)),
          if_pos ((peek_cons _ hwf4 hr4 125).mpr rfl)]
        refine res_congr it none _ _ ?_
        rw [hlen]
        simp [Json.membersText]
        omega
      | cons m' ms' =>
        rw [membersText_cons_false] at hr3 hlen
        have hr4 := rest_adv_append _ ws4 _ hr3
        have hwf5 : Iterator.WF
            { it with head := it.head + ws1.length + 1 + (strText key).length + 1 +
              ws2.length + 1 + ws3.length + v.text.length + ws4.length + 1 } := hwf
        have hr5 := rest_adv_cons _ 44 _ hr4
        rw [skipWhiteSpace_cons _ hwf3 ws4 44 _ hr3 hws4 (by decide)]
        simp only []
        rw [if_pos ((peek_cons _ hwf4 hr4 44).mpr rfl),
          ihC m' ms' _ tail hwf5 hms hr5 (by simp only [List.length_cons] at hlen; omega)]
        refine res_congr it none _ _ ?_
        rw [hlen]
        simp only [List.length_cons]
        omega

end Iterator

namespace Iterator

/-- The value-skip model on a text of the JSON grammar: it succeeds and leaves
the cursor right behind the text. -/
theorem SkipValue_json (it : Iterator) (hwf : it.WF) (j : Json) (ws tail : List Nat)
    (hv : j.valid = true) (h : it.rest = ws ++ (j.text ++ tail))
    (hws : ∀ c ∈ ws, isWhiteSpace c = true) (ht : Delimited tail) :
    it.SkipValue = (none, { it with head := it.head + ws.length + j.text.length }) := by
  unfold SkipValue
  apply (skipValue_all _).1 j it ws tail hwf hv h hws ht
  have := rest_length it hwf
  rw [h] at this
  simp only [List.length_append] at this
  omega

theorem isNumberByte_iff (c : Nat) : isNumberByte c = true ↔
    ((48 ≤ c ∧ c ≤ 57) ∨ c = 45 ∨ c = 43 ∨ c = 46 ∨ c = 101 ∨ c = 69) := by
  simp [isNumberByte]

theorem parseTable_num_false (c : Nat) :
    parseTable c &&& maskNumber = 0 ↔ isNumberByte c = false := by
  rw [parseTable_num, ← isNumberByte_iff, Bool.not_eq_true]

theorem readFloat64Loop_eq (it : Iterator) (hwf : it.WF) (fuel h : Nat)
    (hf : it.dataLen - h ≤ fuel) :
    it.readFloat64Loop fuel h = h + ((it.data.drop h).takeWhile isNumberByte).length := by
  induction fuel generalizing h with
  | zero =>
    have : it.data.length ≤ h := by rw [← hwf]; omega
    simp [Iterator.readFloat64Loop, List.drop_eq_nil_of_le this]
  | succ fuel ih =>
    unfold Iterator.readFloat64Loop
    by_cases hlt : h < it.dataLen
    · have hl : h < it.data.length := by rw [← hwf]; exact hlt
      rw [if_pos hlt, drop_eq_cons_getD _ _ hl]
      generalize it.data.getD h 0 = c
      cases hw : isNumberByte c
      · rw [if_pos ((parseTable_num_false c).mpr hw)]
        simp [List.takeWhile_cons, hw]
      · rw [if_neg (fun hh => by rw [(parseTable_num_false c).mp hh] at hw; cases hw),
          ih (h + 1) (by omega)]
        simp [List.takeWhile_cons, hw]; omega
    · have : it.data.length ≤ h := by rw [← hwf]; omega
      rw [if_neg hlt]
      simp [List.drop_eq_nil_of_le this]

/-- `ReadFloat64` on a non-empty run of number bytes that `ParseFloat` accepts. -/
theorem ReadFloat64_ok {F : Type} (parseFloat : List Nat → Option F) (it : Iterator)
    (hwf : it.WF) (ws text tail : List Nat) (f : F) (h : it.rest = ws ++ (text ++ tail))
    (hws : ∀ c ∈ ws, isWhiteSpace c = true) (hne : text ≠ [])
    (htext : ∀ c ∈ text, isNumberByte c = true)
    (htail : StartsWith (fun c => isNumberByte c = false) tail)
    (hparse : parseFloat text = some f) :
    it.ReadFloat64 parseFloat = (.ok f, { it with head := it.head + ws.length + text.length }) := by
  have hnw : StartsWith (fun c => isWhiteSpace c = false) (text ++ tail) := by
    cases text with
    | nil => exact absurd rfl hne
    | cons c r =>
      apply StartsWith.cons
      have := (isNumberByte_iff c).mp (htext c (List.mem_cons_self _ _))
      rw [← Bool.not_eq_true, isWhiteSpace_iff]; omega
  have hskip : it.skipWhiteSpace = { it with head := it.head + ws.length } :=
    skipWhiteSpace_of_rest it hwf ws _ h hws hnw
  have hwf1 : Iterator.WF { it with head := it.head + ws.length } := hwf
  have hr1 : Iterator.rest { it with head := it.head + ws.length } = text ++ tail :=
    rest_adv_append it ws _ h
  have hloop : readFloat64Loop { it with head := it.head + ws.length }
      (it.dataLen - (it.head + ws.length)) (it.head + ws.length) =
      it.head + ws.length + text.length := by
    rw [readFloat64Loop_eq _ hwf1 _ _ (le_refl _)]
    show _ + (List.takeWhile isNumberByte
      (Iterator.rest { it with head := it.head + ws.length })).length = _
    rw [hr1, takeWhile_append_stop _ _ _ htext htail]
  have hlen : text.length ≠ 0 := fun hh => hne (List.length_eq_zero.mp hh)
  unfold ReadFloat64
  simp only []
  rw [hskip]
  simp only []
  rw [hloop, if_neg (by omega)]
  have hslice : slice it.data (it.head + ws.length) (it.head + ws.length + text.length) =
      text := by
    have := slice_rest { it with head := it.head + ws.length } text.length
    rw [hr1, List.take_left] at this
    exact this
  rw [hslice, hparse]

/-- `ReadBool` on a boolean literal. -/
theorem ReadBool_ok (it : Iterator) (hwf : it.WF) (ws tail : List Nat) (b : Bool)
    (h : it.rest = ws ++ (boolText b ++ tail)) (hws : ∀ c ∈ ws, isWhiteSpace c = true) :
    it.ReadBool = (.ok b, { it with head := it.head + ws.length + (boolText b).length }) := by
  have hwf1 : Iterator.WF { it with head := it.head + ws.length } := hwf
  have hr1 : Iterator.rest { it with head := it.head + ws.length } = boolText b ++ tail :=
    rest_adv_append it ws _ h
  have hlen := rest_length _ hwf1
  rw [hr1] at hlen
  simp only [List.length_append] at hlen
  unfold ReadBool
  cases b
  · simp only [boolText, Bool.false_eq_true, if_false, List.cons_append, List.nil_append,
      List.length_cons, List.length_nil] at h hr1 hlen ⊢
    rw [skipWhiteSpace_cons it hwf ws 102 _ h hws (by decide)]
    simp only []
    rw [if_neg (not_le.mpr (lt_of_rest_cons _ hwf1 hr1)), byteAt_of_rest_cons _ hwf1 hr1,
      if_neg (by decide), if_pos rfl, if_pos]
    refine ⟨by omega, ?_⟩
    have := slice_rest { it with head := it.head + ws.length } 5
    rw [hr1] at this
    exact this
  · simp only [boolText, if_true, List.cons_append, List.nil_append,
      List.length_cons, List.length_nil] at h hr1 hlen ⊢
    rw [skipWhiteSpace_cons it hwf ws 116 _ h hws (by decide)]
    simp only []
    rw [if_neg (not_le.mpr (lt_of_rest_cons _ hwf1 hr1)), byteAt_of_rest_cons _ hwf1 hr1,
      if_pos rfl, if_pos]
    refine ⟨by omega, ?_⟩
    have := slice_rest { it with head := it.head + ws.length } 4
    rw [hr1] at this
    exact this

end Iterator

/-! ## Decoders on the texts they accept -/

theorem res3_congr {α β : Type} (it : Iterator) (x : α) (y : β) (a b : Nat) (h : a = b) :
    (x, ({ it with head := a } : Iterator), y) = (x, { it with head := b }, y) := by rw [h]

theorem decodeString_decodes {F : Type} (items : List StrItem)
    (hv : ∀ i ∈ items, i.valid = true) (old : Val F) :
    DecodesAt decodeString (34 :: (strText items ++ [34])) old (.str (strValue items)) := by
  intro it tail hwf h _
  unfold decodeString
  rw [Iterator.ReadString_items it hwf [] items tail (by rw [h]; simp) (by simp) hv]
  simp only []
  refine res3_congr it none _ _ _ ?_
  simp
  omega

theorem intLiteral_of_valid (input : List Nat) (neg : Bool) (digits tail : List Nat)
    (h : input = JsonNumber.signText neg ++ digits ++ tail)
    (hd : JsonNumber.intValid digits = true) (ht : Delimited tail) :
    IntLiteral input [] neg digits tail := by
  refine ⟨by rw [h]; simp [JsonNumber.signText], by simp, ?_, ?_⟩
  · rcases Iterator.intValid_cases digits hd with h0 | ⟨hne, hall, h48⟩
    · exact Or.inl h0
    · cases digits with
      | nil => exact absurd rfl hne
      | cons d ds =>
        have hdd := (isDigit_iff d).mp (hall d (List.mem_cons_self _ _))
        have : d ≠ 48 := fun hh => h48 (by rw [hh]; rfl)
        exact Or.inr ⟨d, ds, rfl, by omega, hdd.2,
          fun c hc => hall c (List.mem_cons_of_mem _ hc)⟩
  · intro c r hc
    have := Iterator.Delimited.number_tail tail ht c r hc
    exact this

theorem decodeInt64_decodes {F : Type} (neg : Bool) (digits : List Nat)
    (hd : JsonNumber.intValid digits = true) (old : Val F) :
    DecodesAt decodeInt64 (JsonNumber.signText neg ++ digits) old
      (.int (wrap64 (if neg then -(decVal digits) else decVal digits))) := by
  intro it tail hwf h ht
  unfold decodeInt64
  rw [Iterator.ReadInt64_of_literal it hwf [] neg digits tail
    (intLiteral_of_valid _ neg digits tail h hd ht)]
  simp only []
  refine res3_congr it none _ _ _ ?_
  cases neg <;> (simp [JsonNumber.signText]; first | done | omega)

theorem decodeInt32_decodes {F : Type} (neg : Bool) (digits : List Nat)
    (hd : JsonNumber.intValid digits = true) (old : Val F) :
    DecodesAt decodeInt32 (JsonNumber.signText neg ++ digits) old
      (.int (wrap32 (wrap64 (if neg then -(decVal digits) else decVal digits)))) := by
  intro it tail hwf h ht
  unfold decodeInt32
  rw [Iterator.ReadInt64_of_literal it hwf [] neg digits tail
    (intLiteral_of_valid _ neg digits tail h hd ht)]
  simp only []
  refine res3_congr it none _ _ _ ?_
  cases neg <;> (simp [JsonNumber.signText]; first | done | omega)

theorem decodeBool_decodes {F : Type} (b : Bool) (old : Val F) :
    DecodesAt decodeBool (boolText b) old (.bool b) := by
  intro it tail hwf h _
  unfold decodeBool
  rw [Iterator.ReadBool_ok it hwf [] tail b (by rw [h]; simp) (by simp)]
  simp only []
  refine res3_congr it none _ _ _ ?_
  simp

theorem Delimited.not_number (tail : List Nat) (h : Delimited tail) :
    StartsWith (fun c => isNumberByte c = false) tail := by
  intro c r hc
  have := h c r hc
  rw [isWhiteSpace_iff] at this
  rw [← Bool.not_eq_true, Iterator.isNumberByte_iff]
  omega

theorem decodeFloat64_decodes {F : Type} (fl : FloatLib F) (text : List Nat) (f : F)
    (hne : text ≠ []) (htext : ∀ c ∈ text, isNumberByte c = true)
    (hparse : fl.ParseFloat text = some f) (old : Val F) :
    DecodesAt (decodeFloat64 fl) text old (.float f) := by
  intro it tail hwf h ht
  unfold decodeFloat64
  rw [Iterator.ReadFloat64_ok fl.ParseFloat it hwf [] text tail f (by rw [h]; simp) (by simp)
    hne htext (Delimited.not_number tail ht) hparse]
  simp only []
  refine res3_congr it none _ _ _ ?_
  simp

/-! ## The field map -/

mutual
theorem compileDecoder_ok {F : Type} (fl : FloatLib F) :
    ∀ t : Ty, t.supported = true → ∃ dec, compileDecoder fl t = .ok dec
  | .string, _ => ⟨_, by rw [compileDecoder]⟩
  | .definedString _, _ => ⟨_, by rw [compileDecoder]⟩
  | .int, _ => ⟨_, by rw [compileDecoder]⟩
  | .int64, _ => ⟨_, by rw [compileDecoder]⟩
  | .int32, _ => ⟨_, by rw [compileDecoder]⟩
  | .float64, _ => ⟨_, by rw [compileDecoder]⟩
  | .bool, _ => ⟨_, by rw [compileDecoder]⟩
  | .iface, _ => ⟨_, by rw [compileDecoder]⟩
  | .struct fields, h => by
    have hs : Ty.supportedFields fields = true := by simpa [Ty.supported] using h
    obtain ⟨fm, hfm⟩ := compileStructFields_ok fl fields 0 [] hs
    exact ⟨structDecoder fm, by rw [compileDecoder, hfm]⟩
  | .slice elem, h => by
    have hs : elem.supported = true := by simpa [Ty.supported] using h
    obtain ⟨dec, hdec⟩ := compileDecoder_ok fl elem hs
    exact ⟨_, by rw [compileDecoder, hdec]⟩
  | .map key elem, h => by
    have hs : key.isStringKind = true ∧ elem.supported = true := by
      simpa [Ty.supported] using h
    obtain ⟨dec, hdec⟩ := compileDecoder_ok fl elem hs.2
    cases key <;> first
      | exact ⟨_, by rw [compileDecoder, hdec]⟩
      | (exfalso; have := hs.1; simp [Ty.isStringKind] at this)
  | .ptr elem, h => by
    have hs : elem.supported = true := by simpa [Ty.supported] using h
    obtain ⟨dec, hdec⟩ := compileDecoder_ok fl elem hs
    exact ⟨_, by rw [compileDecoder, hdec]⟩
  | .other kind, h => by simp [Ty.supported] at h
theorem compileStructFields_ok {F : Type} (fl : FloatLib F) :
    ∀ (fields : List Field) (i : Nat) (fm : List (List Nat × fieldInfo F)),
      Ty.supportedFields fields = true → ∃ fm', compileStructFields fl fields i fm = .ok fm'
  | [], i, fm, _ => ⟨fm, by rw [compileStructFields]⟩
  | f :: fs, i, fm, h => by
    have hs : Ty.supportedField f = true ∧ Ty.supportedFields fs = true := by
      simpa [Ty.supportedFields] using h
    obtain ⟨fm1, h1⟩ := compileStructField_ok fl f i fm hs.1
    obtain ⟨fm2, h2⟩ := compileStructFields_ok fl fs (i + 1) fm1 hs.2
    exact ⟨fm2, by rw [compileStructFields, h1]; exact h2⟩
theorem compileStructField_ok {F : Type} (fl : FloatLib F) :
    ∀ (f : Field) (i : Nat) (fm : List (List Nat × fieldInfo F)),
      Ty.supportedField f = true → ∃ fm', compileStructField fl f i fm = .ok fm'
  | .mk name tag type, i, fm, h => by
    by_cases ht : tag = [45]
    · exact ⟨fm, by rw [compileStructField, if_pos ht]⟩
    · have hs : type.supported = true := by simpa [Ty.supportedField, ht] using h
      obtain ⟨dec, hdec⟩ := compileDecoder_ok fl type hs
      exact ⟨_, by rw [compileStructField, if_neg ht, hdec]⟩
end

theorem compileStructFields_lookup {F : Type} (fl : FloatLib F) (fields : List Field) :
    ∀ (i : Nat) (fm fm' : List (List Nat × fieldInfo F)),
      compileStructFields fl fields i fm = .ok fm' → ∀ key : List Nat,
      (fieldFor fields i key = none → fieldMapLookup fm' key = fieldMapLookup fm key) ∧
      (∀ k ty, fieldFor fields i key = some (k, ty) →
        ∃ dec, compileDecoder fl ty = .ok dec ∧
          fieldMapLookup fm' key = some { offset := k, decoder := dec }) := by
  induction fields with
  | nil =>
    intro i fm fm' h key
    rw [compileStructFields] at h
    cases h
    exact ⟨fun _ => rfl, fun k ty hk => by simp [fieldFor] at hk⟩
  | cons f fs ih =>
    intro i fm fm' h key
    obtain ⟨name, tag, type⟩ := f
    rw [compileStructFields] at h
    cases h1 : compileStructField fl (Field.mk name tag type) i fm with
    | error err => rw [h1] at h; cases h
    | ok fm1 =>
      rw [h1] at h
      simp only [] at h
      obtain ⟨ihn, ihs⟩ := ih (i + 1) fm1 fm' h key
      rw [compileStructField] at h1
      cases hrest : fieldFor fs (i + 1) key with
      | some r =>
        obtain ⟨k', ty'⟩ := r
        refine ⟨fun hn => by simp [fieldFor, hrest] at hn, fun k ty hk => ?_⟩
        simp only [fieldFor, hrest, Option.some.injEq, Prod.mk.injEq] at hk
        obtain ⟨rfl, rfl⟩ := hk
        exact ihs _ _ hrest
      | none =>
        have hl := ihn hrest
        by_cases hsel : tag ≠ [45] ∧ wireName name tag = key
        · refine ⟨fun hn => by simp [fieldFor, hrest, hsel] at hn, fun k ty hk => ?_⟩
          simp only [fieldFor, hrest, if_pos hsel] at hk
          cases hk
          rw [if_neg hsel.1] at h1
          cases hd : compileDecoder fl type with
          | error err => rw [hd] at h1; cases h1
          | ok dec =>
            rw [hd] at h1
            cases h1
            exact ⟨dec, rfl, by rw [hl]; simp [fieldMapLookup, hsel.2]⟩
        · refine ⟨fun _ => ?_, fun k ty hk => by simp [fieldFor, hrest, hsel] at hk⟩
          rw [hl]
          by_cases ht : tag = [45]
          · rw [if_pos ht] at h1
            cases h1; rfl
          · rw [if_neg ht] at h1
            cases hd : compileDecoder fl type with
            | error err => rw [hd] at h1; cases h1
            | ok dec =>
              rw [hd] at h1
              cases h1
              have hne : wireName name tag ≠ key := fun hh => hsel ⟨ht, hh⟩
              simp [fieldMapLookup, hne]

/-! ## The struct decoder on an object -/

/-- The branch on `fieldMap[key]`, for a value of the JSON grammar that the
decoder of the field selected, if there is one, decodes. -/
theorem structDecodeField_ok {F : Type} (fl : FloatLib F) (fields : List Field)
    (fieldMap : List (List Nat × fieldInfo F))
    (hmap : compileStructFields fl fields 0 [] = .ok fieldMap)
    (key : List Nat) (v : Json) (it : Iterator) (tail : List Nat) (p q : List (Val F))
    (hwf : it.WF) (hv : v.valid = true) (h : it.rest = v.text ++ tail) (ht : Delimited tail)
    (hdec : ValueDecodes fl fields key v.text p q) :
    structDecodeField fieldMap key it p =
      (none, { it with head := it.head + v.text.length }, q) := by
  obtain ⟨hnone, hsome⟩ := compileStructFields_lookup fl fields 0 [] fieldMap hmap key
  unfold structDecodeField
  unfold ValueDecodes at hdec
  cases hf : fieldFor fields 0 key with
  | none =>
    rw [hf] at hdec
    simp only [] at hdec
    rw [hnone hf]
    simp only [fieldMapLookup]
    rw [Iterator.SkipValue_json it hwf v [] tail hv (by rw [h]; rfl) (by simp) ht, hdec]
    exact res3_congr it none _ _ _ (by simp)
  | some r =>
    obtain ⟨k, ty⟩ := r
    rw [hf] at hdec
    simp only [] at hdec
    obtain ⟨dec, new, hc, hd, hq⟩ := hdec
    obtain ⟨dec', hc', hl⟩ := hsome k ty hf
    rw [hc] at hc'
    cases hc'
    rw [hl]
    simp only []
    rw [hd it tail hwf h ht, hq]

theorem structDecodeLoop_members {F : Type} (fl : FloatLib F) (fields : List Field)
    (fieldMap : List (List Nat × fieldInfo F))
    (hmap : compileStructFields fl fields 0 [] = .ok fieldMap) (ms : List JsonMember) :
    ∀ (it : Iterator) (ws0 tail : List Nat) (p p' : List (Val F)) (fuel : Nat),
      it.WF → Json.membersValid ms = true → (∀ c ∈ ws0, isWhiteSpace c = true) →
      it.rest = ws0 ++ (Json.membersText true ms ++ 125 :: tail) →
      MembersDecode fl fields ms p p' → it.dataLen - it.head < fuel →
      structDecodeLoop fieldMap fuel it p =
        (none, { it with head :=
          it.head + ws0.length + (Json.membersText true ms).length + 1 }, p') := by
  induction ms with
  | nil =>
    intro it ws0 tail p p' fuel hwf _ hws0 h hdec hf
    cases fuel with
    | zero => omega
    | succ fuel =>
      simp only [Json.membersText, List.nil_append] at h
      have hwf1 : Iterator.WF { it with head := it.head + ws0.length } := hwf
      have hr1 := Iterator.rest_adv_append it ws0 _ h
      rw [structDecodeLoop, Iterator.skipWhiteSpace_cons it hwf ws0 125 tail h hws0 (by decide)]
      simp only []
      rw [if_pos ((Iterator.peek_cons _ hwf1 hr1 125).mpr rfl)]
      have hp : p' = p := hdec
      rw [hp]
      exact res3_congr it none _ _ _ (by simp [Json.membersText])
  | cons m ms ih =>
    intro it ws0 tail p p' fuel hwf hv hws0 h hdec hf
    obtain ⟨ws1, key, ws2, ws3, v, ws4⟩ := m
    cases fuel with
    | zero => omega
    | succ fuel =>
      simp only [Json.membersValid, Json.memberValid, Bool.and_eq_true, all_iff_forall] at hv
      obtain ⟨⟨⟨⟨⟨⟨hws1, hkey⟩, hws2⟩, hws3⟩, hvv⟩, hws4⟩, hms⟩ := hv
      have hkey' : ∀ i ∈ key, i.valid = true := by simpa [List.all_eq_true] using hkey
      obtain ⟨q, hval, hrest⟩ := hdec
      have h' : it.rest = (ws0 ++ ws1) ++ 34 :: (strText key ++ 34 :: (ws2 ++ 58 ::
          (ws3 ++ (v.text ++ (ws4 ++ (Json.membersText false ms ++ 125 :: tail)))))) := by
        rw [h]; simp [Json.membersText, Json.memberText]
      have hlen : (Json.membersText true (JsonMember.mk ws1 key ws2 ws3 v ws4 :: ms)).length =
          ws1.length + 1 + (strText key).length + 1 + ws2.length + 1 + ws3.length +
            v.text.length + ws4.length + (Json.membersText false ms).length := by
        simp [Json.membersText, Json.memberText]; omega
      have hhead : it.head < it.dataLen := by
        have := Iterator.rest_length it hwf
        rw [h'] at this
        simp only [List.length_append, List.length_cons] at this
        omega
      have hwf1 : Iterator.WF { it with head := it.head + (ws0 ++ ws1).length } := hwf
      have hr1 := Iterator.rest_adv_append it (ws0 ++ ws1) _ h'
      rw [structDecodeLoop, Iterator.skipWhiteSpace_cons it hwf (ws0 ++ ws1) 34 _ h'
        (by intro c hc; rcases List.mem_append.mp hc with hc | hc
            · exact hws0 c hc
            · exact hws1 c hc) (by decide)]
      simp only []
      rw [if_neg (fun hh => absurd ((Iterator.peek_cons _ hwf1 hr1 125).mp hh) (by decide)),
        Iterator.ReadString_items _ hwf1 [] key _ hr1 (by simp) hkey']
      simp only [List.length_nil, Nat.add_zero]
      have hwf2 : Iterator.WF
          { it with head := it.head + (ws0 ++ ws1).length + 1 + (strText key).length + 1 } := hwf
      have hr2 : Iterator.rest
          { it with head := it.head + (ws0 ++ ws1).length + 1 + (strText key).length + 1 } =
          ws2 ++ 58 :: (ws3 ++ (v.text ++
            (ws4 ++ (Json.membersText false ms ++ 125 :: tail)))) :=
        Iterator.rest_adv_cons _ 34 _ (Iterator.rest_adv_append _ (strText key) _
          (Iterator.rest_adv_cons _ 34 _ hr1))
      unfold Iterator.ReadColon
      rw [Iterator.readStructural_ok _ hwf2 58 _ ws2 _ hr2 hws2 (by decide)]
      simp only []
      have hwf3 : Iterator.WF
          { it with head := it.head + (ws0 ++ ws1).length + 1 + (strText key).length + 1 +
            ws2.length + 1 } := hwf
      have hr3 : Iterator.rest
          { it with head := it.head + (ws0 ++ ws1).length + 1 + (strText key).length + 1 +
            ws2.length + 1 } =
          ws3 ++ (v.text ++ (ws4 ++ (Json.membersText false ms ++ 125 :: tail))) :=
        Iterator.rest_adv_cons _ 58 _ (Iterator.rest_adv_append _ ws2 _ hr2)
      rw [Iterator.skipWhiteSpace_of_rest _ hwf3 ws3 _ hr3 hws3 (Json.text_not_ws v hvv _)]
      simp only []
      have hwf4 : Iterator.WF
          { it with head := it.head + (ws0 ++ ws1).length + 1 + (strText key).length + 1 +
            ws2.length + 1 + ws3.length } := hwf
      have hr4 := Iterator.rest_adv_append _ ws3 _ hr3
      rw [structDecodeField_ok fl fields fieldMap hmap (strValue key) v _ _ p q hwf4 hvv hr4
        (Iterator.members_tail_delimited ws4 ms tail hws4) hval]
      simp only []
      have hwf5 : Iterator.WF
          { it with head := it.head + (ws0 ++ ws1).length + 1 + (strText key).length + 1 +
            ws2.length + 1 + ws3.length + v.text.length } := hwf
      have hr5 := Iterator.rest_adv_append _ v.text _ hr4
      have hwf6 : Iterator.WF
          { it with head := it.head + (ws0 ++ ws1).length + 1 + (strText key).length + 1 +
            ws2.length + 1 + ws3.length + v.text.length + ws4.length } := hwf
      cases ms with
      | nil =>
        simp only [Json.membersText, List.nil_append] at hr5
        have hr6 := Iterator.rest_adv_append _ ws4 _ hr5
        have hq : p' = q := hrest
        rw [Iterator.skipWhiteSpace_cons _ hwf5 ws4 125 tail hr5 hws4 (by decide)]
        simp only []
        rw [if_neg (fun hh => absurd ((Iterator.peek_cons _ hwf6 hr6 44).mp hh) (by decide)),
          if_pos ((Iterator.peek_cons _ hwf6 hr6 125).mpr rfl), hq]
        refine res3_congr it none _ _ _ ?_
        rw [hlen]
        simp [Json.membersText]
        omega
      | cons m' ms' =>
        rw [Iterator.membersText_cons_false] at hr5 hlen
        have hr6 := Iterator.rest_adv_append _ ws4 _ hr5
        have hwf7 : Iterator.WF
            { it with head := it.head + (ws0 ++ ws1).length + 1 + (strText key).length + 1 +
              ws2.length + 1 + ws3.length + v.text.length + ws4.length + 1 } := hwf
        have hr7 := Iterator.rest_adv_cons _ 44 _ hr6
        rw [Iterator.skipWhiteSpace_cons _ hwf5 ws4 44 _ hr5 hws4 (by decide)]
        simp only []
        rw [if_pos ((Iterator.peek_cons _ hwf6 hr6 44).mpr rfl),
          ih _ [] tail q p' fuel hwf7 hms (by simp) (by rw [hr7]; rfl) hrest
            (by simp only []; omega)]
        refine res3_congr it none _ _ _ ?_
        rw [hlen]
        simp only [List.length_cons, List.length_append, List.length_nil]
        omega

/-- The struct decoder on an object of the JSON grammar: the members are
decoded in their order, those with a key that selects no field are skipped,
and the cursor is left right behind the closing brace. -/
theorem structDecoder_object {F : Type} (fl : FloatLib F) (fields : List Field)
    (fieldMap : List (List Nat × fieldInfo F))
    (hmap : compileStructFields fl fields 0 [] = .ok fieldMap)
    (it : Iterator) (wsA ws : List Nat) (ms : List JsonMember) (tail : List Nat)
    (p p' : List (Val F)) (hwf : it.WF) (hwsA : ∀ c ∈ wsA, isWhiteSpace c = true)
    (hv : (Json.object ws ms).valid = true)
    (h : it.rest = wsA ++ ((Json.object ws ms).text ++ tail))
    (hdec : MembersDecode fl fields ms p p') :
    structDecoder fieldMap it (.struct p) =
      (none, { it with head := it.head + wsA.length + (Json.object ws ms).text.length },
        .struct p') := by
  simp only [Json.valid, Bool.and_eq_true, all_iff_forall] at hv
  obtain ⟨⟨hws, _⟩, hms⟩ := hv
  have h' : it.rest = wsA ++ 123 :: (ws ++ (Json.membersText true ms ++ 125 :: tail)) := by
    rw [h]; simp [Json.text]
  have hwf1 : Iterator.WF { it with head := it.head + wsA.length + 1 } := hwf
  have hr1 : Iterator.rest { it with head := it.head + wsA.length + 1 } =
      ws ++ (Json.membersText true ms ++ 125 :: tail) :=
    Iterator.rest_adv_cons _ 123 _ (Iterator.rest_adv_append it wsA _ h')
  unfold structDecoder Iterator.ReadObjectStart
  rw [Iterator.readStructural_ok it hwf 123 _ wsA _ h' hwsA (by decide)]
  simp only []
  rw [structDecodeLoop_members fl fields fieldMap hmap ms _ ws tail p p' _ hwf1 hms hws hr1 hdec
    (by simp only []; omega)]
  simp only []
  refine res3_congr it none _ _ _ ?_
  simp [Json.text]
  omega

/-! ## The two compilers on scalars -/

theorem JsonNumber.text_numberBytes (n : JsonNumber) (hv : n.valid = true) :
    n.text ≠ [] ∧ ∀ c ∈ n.text, isNumberByte c = true := by
  obtain ⟨neg, int, frac, exp⟩ := n
  simp only [JsonNumber.valid, Bool.and_eq_true] at hv
  obtain ⟨⟨hint, hfrac⟩, hexp⟩ := hv
  obtain ⟨d, ds, hd, _⟩ := Iterator.intValid_head int hint
  constructor
  · simp [JsonNumber.text, hd]
  · intro c hc
    rw [Iterator.isNumberByte_iff]
    simp only [JsonNumber.text, List.mem_append] at hc
    rcases hc with hc | hc | hc | hc
    · cases neg
      · simp [JsonNumber.signText] at hc
      · simp [JsonNumber.signText] at hc; omega
    · rcases Iterator.intValid_cases int hint with h0 | ⟨_, hall, _⟩
      · rw [h0] at hc; simp at hc; omega
      · exact Or.inl ((isDigit_iff c).mp (hall c hc))
    · cases frac with
      | none => simp [JsonNumber.fracText] at hc
      | some fs =>
        simp only [JsonNumber.fracValid, Bool.and_eq_true, decide_eq_true_eq,
          all_iff_forall] at hfrac
        simp only [JsonNumber.fracText, List.mem_cons] at hc
        rcases hc with hc | hc
        · omega
        · exact Or.inl ((isDigit_iff c).mp (hfrac.2 c hc))
    · cases exp with
      | none => simp [JsonNumber.expText] at hc
      | some x =>
        obtain ⟨e, sign, es⟩ := x
        simp only [JsonNumber.expValid, Bool.and_eq_true, decide_eq_true_eq,
          all_iff_forall] at hexp
        obtain ⟨⟨⟨he, hs⟩, _⟩, hes⟩ := hexp
        simp only [JsonNumber.expText, List.mem_cons, List.mem_append] at hc
        rcases hc with hc | hc | hc
        · omega
        · rcases hs with hs | hs | hs <;> rw [hs] at hc <;> simp at hc <;> omega
        · exact Or.inl ((isDigit_iff c).mp (hes c hc))

theorem transcodes_string {F : Type} (fl : FloatLib F) (s : List Nat) :
    Transcodes fl .string (.str s : Val F) := by
  refine ⟨encodeString, decodeString, .string (s.map byteItem), .str s, ?_, ?_, ?_, ?_, ?_, ?_⟩
  · simp [compileEncoder, compileEncoderWith]
  · intro w
    have := WriteStringEscaped_eq w s
    simp only [encodeString, Json.text, strText_byteItems]
    congr 1
    cases hw : w.WriteStringEscaped s with
    | mk b => rw [hw] at this; simp only [] at this; rw [this]
  · rw [compileDecoder]
  · simp only [Json.valid, List.all_eq_true]
    intro i hi
    obtain ⟨c, _, rfl⟩ := List.mem_map.mp hi
    exact byteItem_valid c
  · have := decodeString_decodes (s.map byteItem)
      (by intro i hi; obtain ⟨c, _, rfl⟩ := List.mem_map.mp hi; exact byteItem_valid c)
      (Ty.zero fl .string)
    rw [strValue_byteItems] at this
    simpa [Json.text] using this
  · simp [Same]

theorem transcodes_definedString {F : Type} (fl : FloatLib F) (name : String) (s : List Nat) :
    Transcodes fl (.definedString name) (.str s : Val F) := by
  refine ⟨encodeString, decodeString, .string (s.map byteItem), .str s, ?_, ?_, ?_, ?_, ?_, ?_⟩
  · simp [compileEncoder, compileEncoderWith]
  · intro w
    have := WriteStringEscaped_eq w s
    simp only [encodeString, Json.text, strText_byteItems]
    congr 1
    cases hw : w.WriteStringEscaped s with
    | mk b => rw [hw] at this; simp only [] at this; rw [this]
  · rw [compileDecoder]
  · simp only [Json.valid, List.all_eq_true]
    intro i hi
    obtain ⟨c, _, rfl⟩ := List.mem_map.mp hi
    exact byteItem_valid c
  · have := decodeString_decodes (s.map byteItem)
      (by intro i hi; obtain ⟨c, _, rfl⟩ := List.mem_map.mp hi; exact byteItem_valid c)
      (Ty.zero fl (.definedString name))
    rw [strValue_byteItems] at this
    simpa [Json.text] using this
  · simp [Same]

theorem intNumber {F : Type} (n : Int) (hlo : -9223372036854775808 ≤ n)
    (hhi : n ≤ 9223372036854775807) :
    ∃ num : JsonNumber, num.valid = true ∧ num.text = AppendInt [] n ∧
      (∀ old : Val F, DecodesAt decodeInt64 num.text old (.int n)) ∧
      (∀ old : Val F, DecodesAt decodeInt32 num.text old (.int (wrap32 n))) := by
  obtain ⟨digits, h1, h2, h3⟩ := AppendInt_literal n hlo hhi
  have hiv : JsonNumber.intValid digits = true := by
    simp only [JsonNumber.intValid, Bool.or_eq_true, Bool.and_eq_true, decide_eq_true_eq,
      all_iff_forall]
    rcases h3 with h0 | ⟨d, ds, hd, hd1, hd2, hds⟩
    · exact Or.inl h0
    · refine Or.inr ⟨⟨by rw [hd]; simp, ?_⟩, by rw [hd]; simp; omega⟩
      intro c hc
      rw [hd] at hc
      rcases List.mem_cons.mp hc with hc | hc
      · rw [hc, isDigit_iff]; omega
      · exact hds c hc
  have hw : wrap64 (if decide (n < 0) = true then -(decVal digits) else decVal digits) = n := by
    simp only [decide_eq_true_eq]
    rw [h2]
    exact wrap64_of_fits n hlo hhi
  refine ⟨⟨decide (n < 0), digits, none, none⟩, ?_, ?_, ?_, ?_⟩
  · simp [JsonNumber.valid, hiv, JsonNumber.fracValid, JsonNumber.expValid]
  · rw [h1]
    by_cases hn : n < 0 <;>
      simp [JsonNumber.text, JsonNumber.signText, JsonNumber.fracText, JsonNumber.expText, hn]
  · intro old
    have := decodeInt64_decodes (decide (n < 0)) digits hiv old
    rw [hw] at this
    simpa [JsonNumber.text, JsonNumber.fracText, JsonNumber.expText] using this
  · intro old
    have := decodeInt32_decodes (decide (n < 0)) digits hiv old
    rw [hw] at this
    simpa [JsonNumber.text, JsonNumber.fracText, JsonNumber.expText] using this

theorem transcodes_int {F : Type} (fl : FloatLib F) (n : Int)
    (hlo : -9223372036854775808 ≤ n) (hhi : n ≤ 9223372036854775807) :
    Transcodes fl .int (.int n : Val F) ∧ Transcodes fl .int64 (.int n : Val F) := by
  obtain ⟨num, hv, ht, hd, _⟩ := intNumber (F := F) n hlo hhi
  have henc : ∀ w : Writer, encodeInt64 w (.int n : Val F) =
      .ok ⟨w.Buffer ++ (Json.number num).text⟩ := by
    intro w
    simp only [encodeInt64, Writer.WriteInt64, Json.text, ht]
    rw [AppendInt_eq]
  constructor
  · exact ⟨encodeInt64, decodeInt64, .number num, .int n,
      by simp [compileEncoder, compileEncoderWith], henc, by rw [compileDecoder],
      by simpa [Json.valid] using hv, by simpa [Json.text] using hd _, by simp [Same]⟩
  · exact ⟨encodeInt64, decodeInt64, .number num, .int n,
      by simp [compileEncoder, compileEncoderWith], henc, by rw [compileDecoder],
      by simpa [Json.valid] using hv, by simpa [Json.text] using hd _, by simp [Same]⟩

theorem transcodes_int32 {F : Type} (fl : FloatLib F) (n : Int)
    (hlo : -2147483648 ≤ n) (hhi : n ≤ 2147483647) :
    Transcodes fl .int32 (.int n : Val F) := by
  obtain ⟨num, hv, ht, _, hd⟩ := intNumber (F := F) n (by omega) (by omega)
  have hw : wrap32 n = n := by unfold wrap32; omega
  rw [hw] at hd
  refine ⟨encodeInt32, decodeInt32, .number num, .int n,
    by simp [compileEncoder, compileEncoderWith], ?_, by rw [compileDecoder],
    by simpa [Json.valid] using hv, by simpa [Json.text] using hd _, by simp [Same]⟩
  intro w
  simp only [encodeInt32, Writer.WriteInt64, Json.text, ht]
  rw [AppendInt_eq]

theorem transcodes_float64 {F : Type} (fl : FloatLib F) (f : F) (h : FloatRoundTrips fl f) :
    Transcodes fl .float64 (.float f) := by
  obtain ⟨num, hv, ht, hp⟩ := h
  obtain ⟨hne, hall⟩ := JsonNumber.text_numberBytes num hv
  refine ⟨encodeFloat64 fl, decodeFloat64 fl, .number num, .float f,
    by simp [compileEncoder, compileEncoderWith], ?_, by rw [compileDecoder],
    by simpa [Json.valid] using hv, ?_, by simp [Same]⟩
  · intro w
    simp only [encodeFloat64, Writer.WriteFloat64, Json.text, ht]
  · have := decodeFloat64_decodes fl num.text f hne hall hp (Ty.zero fl .float64)
    simpa [Json.text] using this

theorem transcodes_bool {F : Type} (fl : FloatLib F) (b : Bool) :
    Transcodes fl .bool (.bool b : Val F) := by
  refine ⟨encodeBool, decodeBool, .bool b, .bool b,
    by simp [compileEncoder, compileEncoderWith], ?_, by rw [compileDecoder], by simp [Json.valid],
    ?_, by simp [Same]⟩
  · intro w
    cases b <;> simp [encodeBool, Writer.WriteBool, Json.text]
  · have := decodeBool_decodes b (Ty.zero fl .bool)
    cases b <;> simpa [Json.text, boolText] using this

/-! ## The two compilers on pointers and lists -/

mutual
theorem compileEncoderWith_ok {F : Type} (fl : FloatLib F) (encIface : EncoderFunc F) :
    ∀ t : Ty, t.supported = true → ∃ enc, compileEncoderWith fl encIface t = .ok enc
  | .string, _ => ⟨_, by rw [compileEncoderWith]⟩
  | .definedString _, _ => ⟨_, by rw [compileEncoderWith]⟩
  | .int, _ => ⟨_, by rw [compileEncoderWith]⟩
  | .int64, _ => ⟨_, by rw [compileEncoderWith]⟩
  | .int32, _ => ⟨_, by rw [compileEncoderWith]⟩
  | .float64, _ => ⟨_, by rw [compileEncoderWith]⟩
  | .bool, _ => ⟨_, by rw [compileEncoderWith]⟩
  | .iface, _ => ⟨_, by rw [compileEncoderWith]⟩
  | .struct fields, h => by
    have hs : Ty.supportedFields fields = true := by simpa [Ty.supported] using h
    obtain ⟨fm, hfm⟩ := compileStructEncFields_ok fl encIface fields 0 [] hs
    exact ⟨structEncoder fm, by rw [compileEncoderWith, hfm]⟩
  | .slice elem, h => by
    have hs : elem.supported = true := by simpa [Ty.supported] using h
    obtain ⟨enc, henc⟩ := compileEncoderWith_ok fl encIface elem hs
    exact ⟨_, by rw [compileEncoderWith, henc]⟩
  | .map key elem, h => by
    have hs : key.isStringKind = true ∧ elem.supported = true := by
      simpa [Ty.supported] using h
    obtain ⟨enc, henc⟩ := compileEncoderWith_ok fl encIface elem hs.2
    cases key <;> first
      | exact ⟨_, by rw [compileEncoderWith, henc]⟩
      | (exfalso; have := hs.1; simp [Ty.isStringKind] at this)
  | .ptr elem, h => by
    have hs : elem.supported = true := by simpa [Ty.supported] using h
    obtain ⟨enc, henc⟩ := compileEncoderWith_ok fl encIface elem hs
    exact ⟨_, by rw [compileEncoderWith, henc]⟩
  | .other kind, h => by simp [Ty.supported] at h
theorem compileStructEncFields_ok {F : Type} (fl : FloatLib F) (encIface : EncoderFunc F) :
    ∀ (fields : List Field) (i : Nat) (acc : List (structFieldEncoder F)),
      Ty.supportedFields fields = true →
      ∃ acc', compileStructEncFields fl encIface fields i acc = .ok acc'
  | [], i, acc, _ => ⟨acc, by rw [compileStructEncFields]⟩
  | f :: fs, i, acc, h => by
    have hs : Ty.supportedField f = true ∧ Ty.supportedFields fs = true := by
      simpa [Ty.supportedFields] using h
    obtain ⟨acc1, h1⟩ := compileStructEncField_ok fl encIface f i acc hs.1
    obtain ⟨acc2, h2⟩ := compileStructEncFields_ok fl encIface fs (i + 1) acc1 hs.2
    exact ⟨acc2, by rw [compileStructEncFields, h1]; exact h2⟩
theorem compileStructEncField_ok {F : Type} (fl : FloatLib F) (encIface : EncoderFunc F) :
    ∀ (f : Field) (i : Nat) (acc : List (structFieldEncoder F)),
      Ty.supportedField f = true →
      ∃ acc', compileStructEncField fl encIface f i acc = .ok acc'
  | .mk name tag type, i, acc, h => by
    by_cases ht : tag = [45]
    · exact ⟨acc, by rw [compileStructEncField, if_pos ht]⟩
    · have hs : type.supported = true := by simpa [Ty.supportedField, ht] using h
      obtain ⟨enc, henc⟩ := compileEncoderWith_ok fl encIface type hs
      exact ⟨_, by rw [compileStructEncField, if_neg ht, henc]⟩
end

theorem transcodes_ptr {F : Type} (fl : FloatLib F) (elem : Ty) (x : Val F)
    (h : Transcodes fl elem x) : Transcodes fl (.ptr elem) (.ptr x) := by
  obtain ⟨enc, dec, j, x', henc, hw, hdec, hv, hd, hs⟩ := h
  refine ⟨ptrEncoder fl enc, ptrDecoder (Ty.zero fl elem) dec, j, .ptr x', ?_, ?_, ?_, hv, ?_, ?_⟩
  · unfold compileEncoder at henc ⊢
    rw [compileEncoderWith, henc]
  · intro w
    simp only [ptrEncoder, hw]
  · rw [compileDecoder, hdec]
  · intro it tail hwf hr ht
    have hz : (Ty.zero fl (.ptr elem) : Val F) = .nilPtr := by rw [Ty.zero]
    rw [hz]
    simp only [ptrDecoder, hd it tail hwf hr ht]
  · rw [Same]
    exact ⟨x, x', rfl, rfl, hs⟩

/-- The element of an array without whitespace. -/
theorem elemsText_map_cons (first : Bool) (j : Json) (js : List Json) :
    Json.elemsText first ((j :: js).map (fun j => JsonElem.mk [] j [])) =
      (if first then [] else [44]) ++
        (j.text ++ Json.elemsText false (js.map (fun j => JsonElem.mk [] j []))) := by
  simp [Json.elemsText, Json.elemText]

theorem elemsValid_map (js : List Json) (h : ∀ j ∈ js, j.valid = true) :
    Json.elemsValid (js.map (fun j => JsonElem.mk [] j [])) = true := by
  induction js with
  | nil => simp [Json.elemsValid]
  | cons j js ih =>
    simp only [List.map_cons, Json.elemsValid, Json.elemValid, Bool.and_eq_true]
    exact ⟨⟨⟨by simp, h j (List.mem_cons_self _ _)⟩, by simp⟩,
      ih (fun j' hj' => h j' (List.mem_cons_of_mem _ hj'))⟩

/-- The loop of the slice encoder writes the encodings of the elements,
separated by commas. -/
theorem sliceEncodeLoop_eq {F : Type} (enc : EncoderFunc F) (store : List (Val F)) :
    ∀ (n i : Nat) (w : Writer) (js : List Json), i + n ≤ store.length →
      List.Forall₂ (fun x j => ∀ w : Writer, enc w x = .ok ⟨w.Buffer ++ j.text⟩)
        ((store.drop i).take n) js →
      sliceEncodeLoop enc store n i w =
        .ok ⟨w.Buffer ++ Json.elemsText (decide (i = 0))
          (js.map (fun j => JsonElem.mk [] j []))⟩ := by
  intro n
  induction n with
  | zero =>
    intro i w js _ h
    simp only [List.take_zero] at h
    cases h
    simp [sliceEncodeLoop, Json.elemsText]
  | succ n ih =>
    intro i w js hi h
    have hlt : i < store.length := by omega
    have hd : (store.drop i).take (n + 1) = store.getD i .nilIface :: (store.drop (i + 1)).take n := by
      rw [List.drop_eq_getElem_cons hlt, List.take_succ_cons]
      simp [List.getD_eq_getElem?_getD, List.getElem?_eq_getElem hlt]
    rw [hd] at h
    cases h with
    | cons hx hrest =>
      rename_i j js'
      rw [sliceEncodeLoop, hx]
      simp only []
      rw [ih (i + 1) _ js' (by omega) hrest, elemsText_map_cons]
      by_cases h0 : i = 0
      · subst h0
        simp [Writer.WriteByte]
      · have : i > 0 := by omega
        simp [Writer.WriteByte, h0, this]

theorem getD_append_replicate {F : Type} (done : List (Val F)) (p : Nat) (zero : Val F) :
    (done ++ List.replicate p zero).getD done.length zero = zero := by
  rw [List.getD_eq_getElem?_getD]
  rw [List.getElem?_append_right (le_refl _)]
  simp only [Nat.sub_self]
  cases p with
  | zero => simp
  | succ p => simp [List.replicate_succ]

theorem set_append_replicate {F : Type} (done : List (Val F)) (p : Nat) (zero v : Val F) :
    (done ++ List.replicate (p + 1) zero).set done.length v =
      (done ++ [v]) ++ List.replicate p zero := by
  rw [List.set_append_right _ _ (le_refl _)]
  simp [List.replicate_succ]

/-- One growth step keeps the elements decoded so far and leaves room. -/
theorem grow_invariant {F : Type} (zero : Val F) (header : Val F) (done : List (Val F))
    (pad : Nat) (hl : header.sliceLen = done.length)
    (hs : header.sliceStore = done ++ List.replicate pad zero) :
    ∃ pad', done.length + pad' + 1 = grownCap 1 done.length (done.length + pad) ∧
      (if header.sliceLen ≥ header.sliceStore.length then growSlice zero header
        else header).sliceLen = done.length ∧
      (if header.sliceLen ≥ header.sliceStore.length then growSlice zero header
        else header).sliceStore = done ++ List.replicate (pad' + 1) zero := by
  by_cases hg : header.sliceLen ≥ header.sliceStore.length
  · rw [if_pos hg]
    have hp : pad = 0 := by
      rw [hl, hs] at hg
      simp at hg
      exact hg
    subst hp
    simp only [List.replicate_zero, List.append_nil] at hs
    have hgrow : growSlice zero header = .slice done.length (done ++ List.replicate
        ((if done.length * 2 = 0 then 8 else done.length * 2) - done.length) zero) := by
      unfold growSlice
      rw [hl, hs, List.take_length]
    rw [hgrow]
    by_cases h0 : done.length * 2 = 0
    · refine ⟨7, ?_, rfl, ?_⟩
      · have : done.length = 0 := by omega
        simp [grownCap, this]
      · show done ++ List.replicate _ zero = _
        rw [if_pos h0]
        have : done.length = 0 := by omega
        rw [this]
    · refine ⟨done.length - 1, ?_, rfl, ?_⟩
      · simp only [grownCap, Nat.add_zero, ge_iff_le, le_refl, if_true, if_neg h0]
        omega
      · show done ++ List.replicate _ zero = _
        rw [if_neg h0]
        congr 2
        omega
  · rw [if_neg hg]
    have hp : pad ≠ 0 := by
      intro hp
      apply hg
      rw [hl, hs, hp]
      simp
    refine ⟨pad - 1, ?_, hl, by rw [hs]; congr 2; omega⟩
    have : ¬ done.length ≥ done.length + pad := by omega
    simp only [grownCap, if_neg this]
    omega

/-- The loop of the slice decoder on the elements of an array without
whitespace, each decoded by the element decoder into a zero value. -/
theorem sliceDecodeLoop_elems {F : Type} (zero : Val F) (dec : DecoderFunc F) (fuel : Nat) :
    ∀ (items : List (Json × Val F)) (item : Json × Val F) (it : Iterator) (tail : List Nat)
      (header : Val F) (done : List (Val F)) (pad : Nat),
      it.WF →
      (∀ x ∈ item :: items, x.1.valid = true ∧ DecodesAt dec x.1.text zero x.2) →
      it.rest = Json.elemsText true (((item :: items).map (fun x => x.1)).map
        (fun j => JsonElem.mk [] j [])) ++ 93 :: tail →
      header.sliceLen = done.length → header.sliceStore = done ++ List.replicate pad zero →
      it.dataLen - it.head < fuel →
      sliceDecodeLoop zero dec fuel it header =
        (none, { it with head := it.head + (Json.elemsText true
            (((item :: items).map (fun x => x.1)).map (fun j => JsonElem.mk [] j []))).length + 1 },
          .slice (done.length + (items.length + 1))
            (done ++ (item :: items).map (fun x => x.2) ++ List.replicate
              (grownCap (items.length + 1) done.length (done.length + pad) -
                (done.length + (items.length + 1))) zero)) := by
  induction fuel with
  | zero => intro _ _ it _ _ _ _ _ _ _ _ _ hf; omega
  | succ fuel ih =>
    intro items item it tail header done pad hwf hitems h hl hs hf
    obtain ⟨j, x'⟩ := item
    obtain ⟨hv, hdec⟩ := hitems (j, x') (List.mem_cons_self _ _)
    simp only [] at hv hdec
    obtain ⟨c, r, hc, hcw, _, hc93, _⟩ := Json.text_head j hv
    simp only [List.map_cons, Json.elemsText, Json.elemText, reduceIte, List.nil_append,
      List.append_nil, List.append_assoc] at h ⊢
    have hdel : Delimited (Json.elemsText false ((items.map (fun x => x.1)).map
        (fun j => JsonElem.mk [] j [])) ++ 93 :: tail) :=
      Iterator.elems_tail_delimited [] _ tail (by simp)
    have hskip : it.skipWhiteSpace = it :=
      Iterator.skipWhiteSpace_of_rest it hwf [] _ h (by simp) (Json.text_not_ws j hv _)
    have hrc : it.rest = c :: (r ++ (Json.elemsText false ((items.map (fun x => x.1)).map
        (fun j => JsonElem.mk [] j [])) ++ 93 :: tail)) := by
      rw [h, hc]; rfl
    have hhead := Iterator.lt_of_rest_cons it hwf hrc
    obtain ⟨pad1, hcap, hl1, hs1⟩ := grow_invariant zero header done pad hl hs
    have hwf1 : Iterator.WF { it with head := it.head + j.text.length } := hwf
    have hr1 := Iterator.rest_adv_append it j.text _ h
    rw [sliceDecodeLoop]
    simp only []
    rw [hskip, if_neg (fun hh => hc93 ((Iterator.peek_cons it hwf hrc 93).mp hh))]
    generalize (if header.sliceLen ≥ header.sliceStore.length then growSlice zero header
      else header) = H at hl1 hs1 ⊢
    rw [hl1, hs1, getD_append_replicate, hdec it _ hwf h hdel]
    simp only []
    rw [set_append_replicate]
    cases items with
    | nil =>
      simp only [List.map_nil, Json.elemsText, List.nil_append] at hr1 ⊢
      have hskip1 : Iterator.skipWhiteSpace { it with head := it.head + j.text.length } =
          { it with head := it.head + j.text.length } :=
        Iterator.skipWhiteSpace_cons _ hwf1 [] 93 tail hr1 (by simp) (by decide)
      rw [hskip1]
      simp only []
      rw [if_neg (fun hh => absurd ((Iterator.peek_cons _ hwf1 hr1 44).mp hh) (by decide)),
        if_pos ((Iterator.peek_cons _ hwf1 hr1 93).mpr rfl)]
      have hp : grownCap (0 + 1) done.length (done.length + pad) - (done.length + (0 + 1)) =
          pad1 := by
        rw [Nat.zero_add, ← hcap]; omega
      simp only [List.length_nil, hp]
      simp
    | cons item' items' =>
      simp only [List.map_cons] at hr1 ⊢
      rw [Iterator.elemsText_cons_false] at hr1 ⊢
      have hskip1 : Iterator.skipWhiteSpace { it with head := it.head + j.text.length } =
          { it with head := it.head + j.text.length } :=
        Iterator.skipWhiteSpace_cons _ hwf1 [] 44 _ hr1 (by simp) (by decide)
      have hwf2 : Iterator.WF { it with head := it.head + j.text.length + 1 } := hwf
      have hr2 := Iterator.rest_adv_cons _ 44 _ hr1
      have hres := ih items' item' { it with head := it.head + j.text.length + 1 } tail
        (.slice (done.length + 1) ((done ++ [x']) ++ List.replicate pad1 zero))
        (done ++ [x']) pad1 hwf2
        (fun x hx => hitems x (List.mem_cons_of_mem _ hx)) hr2 (by simp [Val.sliceLen])
        (by simp [Val.sliceStore]) (by simp only []; omega)
      rw [hskip1]
      simp only []
      rw [if_pos ((Iterator.peek_cons _ hwf1 hr1 44).mpr rfl), hres]
      have hstep : grownCap (items'.length + 1 + 1) done.length (done.length + pad) =
          grownCap (items'.length + 1) (done.length + 1) (done.length + pad1 + 1) := by
        rw [hcap]; rfl
      simp only [List.length_append, List.length_cons, List.length_nil, List.map_cons,
        List.append_assoc, List.singleton_append, hstep]
      refine congrArg₂ _ rfl (congrArg₂ _ ?_ ?_)
      · show Iterator.mk _ _ _ = Iterator.mk _ _ _
        congr 1
        omega
      · have e1 : done.length + (0 + 1) + pad1 = done.length + pad1 + 1 := by omega
        have e2 : done.length + (0 + 1) + (items'.length + 1) =
            done.length + (items'.length + 1 + 1) := by omega
        rw [e1, e2]

theorem forall₂_right {α β : Type} (R : α → β → Prop) (xs : List α) (ys : List β)
    (h : List.Forall₂ R xs ys) : ∀ y ∈ ys, ∃ x, x ∈ xs ∧ R x y := by
  induction h with
  | nil => intro y hy; cases hy
  | cons hxy _ ih =>
    intro y hy
    rcases List.mem_cons.mp hy with rfl | hy
    · exact ⟨_, List.mem_cons_self _ _, hxy⟩
    · obtain ⟨x, hx, hr⟩ := ih y hy
      exact ⟨x, List.mem_cons_of_mem _ hx, hr⟩

/-- The encodings and the decoded values of a list of values of one type. -/
theorem transcodes_items {F : Type} (fl : FloatLib F) (elem : Ty) (enc : EncoderFunc F)
    (dec : DecoderFunc F) (henc : compileEncoder fl elem = .ok enc)
    (hdec : compileDecoder fl elem = .ok dec) :
    ∀ xs : List (Val F), (∀ x ∈ xs, Transcodes fl elem x) →
      ∃ items : List (Json × Val F), List.Forall₂ (fun x y =>
        (∀ w : Writer, enc w x = .ok ⟨w.Buffer ++ y.1.text⟩) ∧ y.1.valid = true ∧
          DecodesAt dec y.1.text (Ty.zero fl elem) y.2 ∧ Same elem x y.2) xs items := by
  intro xs
  induction xs with
  | nil => intro _; exact ⟨[], List.Forall₂.nil⟩
  | cons x xs ih =>
    intro h
    obtain ⟨items, hitems⟩ := ih (fun y hy => h y (List.mem_cons_of_mem _ hy))
    obtain ⟨enc', dec', j, x', he, hw, hd, hv, hda, hs⟩ := h x (List.mem_cons_self _ _)
    rw [henc] at he
    rw [hdec] at hd
    cases he
    cases hd
    exact ⟨(j, x') :: items, List.Forall₂.cons ⟨hw, hv, hda, hs⟩ hitems⟩

theorem transcodes_slice {F : Type} (fl : FloatLib F) (elem : Ty) (len : Nat)
    (store : List (Val F)) (hlen : len ≤ store.length) (hsup : elem.supported = true)
    (h : ∀ x ∈ store.take len, Transcodes fl elem x) :
    Transcodes fl (.slice elem) (.slice len store) := by
  obtain ⟨enc, henc⟩ := compileEncoderWith_ok fl (encodeInterface fl) elem hsup
  obtain ⟨dec, hdec⟩ := compileDecoder_ok fl elem hsup
  obtain ⟨items, hitems⟩ := transcodes_items fl elem enc dec henc hdec _ h
  have hlen' : items.length = len := by
    have := hitems.length_eq
    simp only [List.length_take] at this
    omega
  have hcE : compileEncoder fl (.slice elem) = .ok (sliceEncoder enc) := by
    unfold compileEncoder
    rw [compileEncoderWith, henc]
  have hcD : compileDecoder fl (.slice elem) = .ok (sliceDecoder (Ty.zero fl elem) dec) := by
    rw [compileDecoder, hdec]
  have hE : ∀ w : Writer, sliceEncoder enc w (.slice len store) =
      .ok ⟨w.Buffer ++ (Json.array [] ((items.map (fun y => y.1)).map
        (fun j => JsonElem.mk [] j []))).text⟩ := by
    intro w
    have := sliceEncodeLoop_eq enc store len 0 (w.WriteByte 91) (items.map (fun y => y.1))
      (by omega) (List.forall₂_map_right_iff.mpr (hitems.imp (fun _ _ hh => hh.1)))
    simp only [sliceEncoder, this]
    simp [Writer.WriteByte, Json.text]
  have hV : (Json.array [] ((items.map (fun y => y.1)).map
      (fun j => JsonElem.mk [] j []))).valid = true := by
    simp only [Json.valid, Bool.and_eq_true]
    refine ⟨⟨by simp, by simp⟩, elemsValid_map _ ?_⟩
    intro j hj
    obtain ⟨y, hy, rfl⟩ := List.mem_map.mp hj
    obtain ⟨x, _, hr⟩ := forall₂_right _ _ _ hitems y hy
    exact hr.2.1
  have hZ : (Ty.zero fl (.slice elem) : Val F) = .nilSlice := by rw [Ty.zero]
  cases items with
  | nil =>
    have hl0 : len = 0 := by simpa using hlen'.symm
    subst hl0
    refine ⟨_, _, _, .nilSlice, hcE, hE, hcD, hV, ?_, ?_⟩
    · intro it tail hwf hr ht
      rw [hZ]
      have hr' : it.rest = [] ++ 91 :: (93 :: tail) := by
        rw [hr]; simp [Json.text, Json.elemsText]
      have hwf1 : Iterator.WF { it with head := it.head + 1 } := hwf
      have hr1 : Iterator.rest { it with head := it.head + 1 } = 93 :: tail :=
        Iterator.rest_adv_cons it 91 _ hr'
      have hskip1 : Iterator.skipWhiteSpace { it with head := it.head + 1 } =
          { it with head := it.head + 1 } :=
        Iterator.skipWhiteSpace_cons _ hwf1 [] 93 tail hr1 (by simp) (by decide)
      unfold sliceDecoder Iterator.ReadArrayStart
      rw [Iterator.readStructural_ok it hwf 91 _ [] _ hr' (by simp) (by decide)]
      simp only [List.length_nil, Nat.add_zero]
      rw [sliceDecodeLoop, hskip1]
      simp only []
      rw [if_pos ((Iterator.peek_cons _ hwf1 hr1 93).mpr rfl)]
      exact res3_congr it none _ _ _ (by simp [Json.text, Json.elemsText])
    · rw [Same]
      exact ⟨0, store, rfl, rfl, by simp⟩
  | cons item items =>
    refine ⟨_, _, _, .slice len ((item :: items).map (fun y => y.2) ++ List.replicate
      (grownCap len 0 0 - len) (Ty.zero fl elem)), hcE, hE, hcD, hV, ?_, ?_⟩
    · intro it tail hwf hr ht
      rw [hZ]
      have hr' : it.rest = [] ++ 91 :: (Json.elemsText true (((item :: items).map
          (fun y => y.1)).map (fun j => JsonElem.mk [] j [])) ++ 93 :: tail) := by
        rw [hr]; simp [Json.text]
      have hwf1 : Iterator.WF { it with head := it.head + 1 } := hwf
      have hr1 := Iterator.rest_adv_cons it 91 _ hr'
      have hall : ∀ y ∈ item :: items, y.1.valid = true ∧
          DecodesAt dec y.1.text (Ty.zero fl elem) y.2 := by
        intro y hy
        obtain ⟨x, _, hr⟩ := forall₂_right _ _ _ hitems y hy
        exact ⟨hr.2.1, hr.2.2.1⟩
      unfold sliceDecoder Iterator.ReadArrayStart
      rw [Iterator.readStructural_ok it hwf 91 _ [] _ hr' (by simp) (by decide)]
      simp only [List.length_nil, Nat.add_zero]
      rw [sliceDecodeLoop_elems (Ty.zero fl elem) dec _ items item _ tail .nilSlice [] 0 hwf1 hall
        hr1 rfl rfl (by simp only []; omega)]
      simp only [List.length_cons] at hlen'
      refine congrArg₂ _ rfl (congrArg₂ _ ?_ ?_)
      · show Iterator.mk _ _ _ = Iterator.mk _ _ _
        congr 1
        simp [Json.text]
        omega
      · simp only [List.length_nil, Nat.zero_add, List.nil_append, hlen']
    · rw [Same]
      refine ⟨len, store, rfl, rfl, ?_⟩
      have : (List.map (fun y => y.2) (item :: items) ++ List.replicate
          (grownCap len 0 0 - len) (Ty.zero fl elem)).take len =
          (item :: items).map (fun y => y.2) := by
        have hl2 : items.length + 1 = len := by simpa using hlen'
        rw [List.take_append_of_le_length (by simp; omega)]
        rw [List.take_of_length_le (by simp; omega)]
      show List.Forall₂ (Same elem) _ (List.take len (List.map (fun y => y.2) (item :: items) ++
        List.replicate (grownCap len 0 0 - len) (Ty.zero fl elem)))
      rw [this]
      exact List.forall₂_map_right_iff.mpr (hitems.imp (fun _ _ hh => hh.2.2.2))

/-! ## The two compilers on maps -/

theorem transcodes_rows {F : Type} (fl : FloatLib F) (elem : Ty) (enc : EncoderFunc F)
    (dec : DecoderFunc F) (henc : compileEncoder fl elem = .ok enc)
    (hdec : compileDecoder fl elem = .ok dec) :
    ∀ entries : List (List Nat × Val F), (∀ e ∈ entries, Transcodes fl elem e.2) →
      ∃ rows : List ((List Nat × Val F) × (Json × Val F)),
        rows.map (fun r => r.1) = entries ∧
        ∀ r ∈ rows, (∀ w : Writer, enc w r.1.2 = .ok ⟨w.Buffer ++ r.2.1.text⟩) ∧
          r.2.1.valid = true ∧ DecodesAt dec r.2.1.text (Ty.zero fl elem) r.2.2 ∧
          Same elem r.1.2 r.2.2 := by
  intro entries
  induction entries with
  | nil => intro _; exact ⟨[], rfl, fun r hr => by cases hr⟩
  | cons e es ih =>
    intro h
    obtain ⟨rows, hrows, hall⟩ := ih (fun y hy => h y (List.mem_cons_of_mem _ hy))
    obtain ⟨enc', dec', j, x', he, hw, hd, hv, hda, hs⟩ := h e (List.mem_cons_self _ _)
    rw [henc] at he
    rw [hdec] at hd
    cases he
    cases hd
    refine ⟨(e, (j, x')) :: rows, by simp [hrows], ?_⟩
    intro r hr
    rcases List.mem_cons.mp hr with rfl | hr
    · exact ⟨hw, hv, hda, hs⟩
    · exact hall r hr

/-- The member of an object that the map encoder writes for an entry. -/
theorem memberText_entry (key : List Nat) (j : Json) :
    Json.memberText (JsonMember.mk [] (key.map byteItem) [] [] j []) =
      34 :: (key.flatMap escapeByte ++ 34 :: 58 :: j.text) := by
  simp [Json.memberText, strText_byteItems]

theorem mapEncodeLoop_eq {F : Type} (enc : EncoderFunc F) :
    ∀ (rows : List ((List Nat × Val F) × (Json × Val F))) (first : Bool) (w : Writer),
      (∀ r ∈ rows, ∀ w : Writer, enc w r.1.2 = .ok ⟨w.Buffer ++ r.2.1.text⟩) →
      mapEncodeLoop false enc (rows.map (fun r => r.1)) first w =
        .ok ⟨w.Buffer ++ Json.membersText first
          (rows.map (fun r => JsonMember.mk [] (r.1.1.map byteItem) [] [] r.2.1 []))⟩ := by
  intro rows
  induction rows with
  | nil =>
    intro first w _
    simp [mapEncodeLoop, Json.membersText]
  | cons r rows ih =>
    intro first w h
    obtain ⟨⟨key, val⟩, ⟨j, x'⟩⟩ := r
    have hr := h _ (List.mem_cons_self _ _)
    simp only [] at hr
    simp only [List.map_cons, mapEncodeLoop, Bool.false_eq_true, if_false, hr]
    rw [ih false _ (fun r' hr' => h r' (List.mem_cons_of_mem _ hr'))]
    simp only [Json.membersText, memberText_entry]
    cases first <;>
      simp [Writer.WriteByte, WriteStringEscaped_eq]

theorem setMapIndex_new {F : Type} (m : List (List Nat × Val F)) (key : List Nat) (v : Val F)
    (h : key ∉ m.map (fun e => e.1)) : setMapIndex m key v = m ++ [(key, v)] := by
  induction m with
  | nil => rfl
  | cons e m ih =>
    obtain ⟨k, x⟩ := e
    simp only [List.map_cons, List.mem_cons, not_or] at h
    rw [setMapIndex, if_neg (fun hh => h.1 hh.symm), ih h.2]
    rfl

theorem membersValid_rows {F : Type} (rows : List ((List Nat × Val F) × (Json × Val F)))
    (h : ∀ r ∈ rows, r.2.1.valid = true) :
    Json.membersValid (rows.map
      (fun r => JsonMember.mk [] (r.1.1.map byteItem) [] [] r.2.1 [])) = true := by
  induction rows with
  | nil => simp [Json.membersValid]
  | cons r rows ih =>
    simp only [List.map_cons, Json.membersValid, Json.memberValid, Bool.and_eq_true]
    refine ⟨⟨⟨⟨⟨⟨by simp, ?_⟩, by simp⟩, by simp⟩, h r (List.mem_cons_self _ _)⟩, by simp⟩,
      ih (fun r' hr' => h r' (List.mem_cons_of_mem _ hr'))⟩
    simp only [List.all_eq_true]
    intro i hi
    obtain ⟨c, _, rfl⟩ := List.mem_map.mp hi
    exact byteItem_valid c

/-- The loop of the map decoder on the members the map encoder writes. -/
theorem mapDecodeLoop_rows {F : Type} (zero : Val F) (dec : DecoderFunc F)
    (rows : List ((List Nat × Val F) × (Json × Val F))) :
    ∀ (it : Iterator) (tail : List Nat) (m : List (List Nat × Val F)) (fuel : Nat),
      it.WF →
      (∀ r ∈ rows, r.2.1.valid = true ∧ DecodesAt dec r.2.1.text zero r.2.2) →
      it.rest = Json.membersText true (rows.map
        (fun r => JsonMember.mk [] (r.1.1.map byteItem) [] [] r.2.1 [])) ++ 125 :: tail →
      (m.map (fun e => e.1) ++ rows.map (fun r => r.1.1)).Nodup →
      it.dataLen - it.head < fuel →
      mapDecodeLoop true zero dec fuel it m =
        (none, { it with head := it.head + (Json.membersText true (rows.map
          (fun r => JsonMember.mk [] (r.1.1.map byteItem) [] [] r.2.1 []))).length + 1 },
          m ++ rows.map (fun r => (r.1.1, r.2.2))) := by
  induction rows with
  | nil =>
    intro it tail m fuel hwf _ h _ hf
    cases fuel with
    | zero => omega
    | succ fuel =>
      simp only [List.map_nil, Json.membersText, List.nil_append] at h
      rw [mapDecodeLoop, Iterator.skipWhiteSpace_cons it hwf [] 125 tail h (by simp) (by decide)]
      simp only [List.length_nil, Nat.add_zero]
      rw [if_pos ((Iterator.peek_cons it hwf h 125).mpr rfl)]
      simp [Json.membersText]
  | cons r rows ih =>
    intro it tail m fuel hwf hall h hnd hf
    obtain ⟨⟨key, val⟩, ⟨j, x'⟩⟩ := r
    cases fuel with
    | zero => omega
    | succ fuel =>
      obtain ⟨hv, hdec⟩ := hall _ (List.mem_cons_self _ _)
      simp only [] at hv hdec
      have hkey : ∀ i ∈ key.map byteItem, i.valid = true := by
        intro i hi
        obtain ⟨c, _, rfl⟩ := List.mem_map.mp hi
        exact byteItem_valid c
      have h' : it.rest = [] ++ 34 :: (strText (key.map byteItem) ++ 34 :: ([] ++ 58 ::
          (j.text ++ (Json.membersText false (rows.map
            (fun r => JsonMember.mk [] (r.1.1.map byteItem) [] [] r.2.1 [])) ++
              125 :: tail)))) := by
        rw [h]; simp [Json.membersText, Json.memberText]
      have hlen : (Json.membersText true ((((key, val), (j, x')) :: rows).map
          (fun r => JsonMember.mk [] (r.1.1.map byteItem) [] [] r.2.1 []))).length =
          1 + (strText (key.map byteItem)).length + 1 + 1 + j.text.length +
            (Json.membersText false (rows.map
              (fun r => JsonMember.mk [] (r.1.1.map byteItem) [] [] r.2.1 []))).length := by
        simp [Json.membersText, Json.memberText]; omega
      have hhead : it.head < it.dataLen := by
        have := Iterator.rest_length it hwf
        rw [h'] at this
        simp only [List.length_append, List.length_cons, List.length_nil] at this
        omega
      have hnew : key ∉ m.map (fun e => e.1) := by
        intro hk
        have := List.nodup_append.mp hnd
        exact this.2.2 hk (by simp)
      have hnd' : ((m ++ [(key, x')]).map (fun e => e.1) ++ rows.map (fun r => r.1.1)).Nodup := by
        simpa [List.map_append] using hnd
      rw [mapDecodeLoop, Iterator.skipWhiteSpace_cons it hwf [] 34 _ h' (by simp) (by decide)]
      simp only [List.length_nil, Nat.add_zero]
      have hr0 : it.rest = 34 :: (strText (key.map byteItem) ++ 34 :: ([] ++ 58 ::
          (j.text ++ (Json.membersText false (rows.map
            (fun r => JsonMember.mk [] (r.1.1.map byteItem) [] [] r.2.1 [])) ++
              125 :: tail)))) := h'
      rw [if_neg (fun hh => absurd ((Iterator.peek_cons it hwf hr0 125).mp hh) (by decide)),
        Iterator.ReadString_items it hwf [] (key.map byteItem) _ h' (by simp) hkey,
        strValue_byteItems]
      simp only [List.length_nil, Nat.add_zero]
      have hwf2 : Iterator.WF
          { it with head := it.head + 1 + (strText (key.map byteItem)).length + 1 } := hwf
      have hr2 : Iterator.rest
          { it with head := it.head + 1 + (strText (key.map byteItem)).length + 1 } =
          [] ++ 58 :: (j.text ++ (Json.membersText false (rows.map
            (fun r => JsonMember.mk [] (r.1.1.map byteItem) [] [] r.2.1 [])) ++ 125 :: tail)) :=
        Iterator.rest_adv_cons _ 34 _ (Iterator.rest_adv_append _ (strText (key.map byteItem)) _
          (Iterator.rest_adv_cons _ 34 _ hr0))
      unfold Iterator.ReadColon
      rw [Iterator.readStructural_ok _ hwf2 58 _ [] _ hr2 (by simp) (by decide)]
      simp only [List.length_nil, Nat.add_zero]
      have hwf3 : Iterator.WF
          { it with head := it.head + 1 + (strText (key.map byteItem)).length + 1 + 1 } := hwf
      have hr3 := Iterator.rest_adv_cons _ 58 _ hr2
      rw [hdec _ _ hwf3 hr3 (Iterator.members_tail_delimited [] _ tail (by simp))]
      simp only []
      rw [if_pos trivial]
      rw [setMapIndex_new m key x' hnew]
      have hwf4 : Iterator.WF
          { it with head := it.head + 1 + (strText (key.map byteItem)).length + 1 + 1 +
            j.text.length } := hwf
      have hr4 := Iterator.rest_adv_append _ j.text _ hr3
      cases rows with
      | nil =>
        simp only [List.map_nil, Json.membersText, List.nil_append] at hr4
        rw [Iterator.skipWhiteSpace_cons _ hwf4 [] 125 tail hr4 (by simp) (by decide)]
        simp only [List.length_nil, Nat.add_zero]
        rw [if_neg (fun hh => absurd ((Iterator.peek_cons _ hwf4 hr4 44).mp hh) (by decide)),
          if_pos ((Iterator.peek_cons _ hwf4 hr4 125).mpr rfl)]
        refine congrArg₂ _ rfl (congrArg₂ _ ?_ (by simp))
        show Iterator.mk _ _ _ = Iterator.mk _ _ _
        congr 1
        rw [hlen]
        simp [Json.membersText]
        omega
      | cons r' rows' =>
        simp only [List.map_cons] at hr4 hlen
        rw [Iterator.membersText_cons_false] at hr4 hlen
        have hwf5 : Iterator.WF
            { it with head := it.head + 1 + (strText (key.map byteItem)).length + 1 + 1 +
              j.text.length + 1 } := hwf
        have hr5 := Iterator.rest_adv_cons _ 44 _ hr4
        rw [Iterator.skipWhiteSpace_cons _ hwf4 [] 44 _ hr4 (by simp) (by decide)]
        simp only [List.length_nil, Nat.add_zero]
        rw [if_pos ((Iterator.peek_cons _ hwf4 hr4 44).mpr rfl),
          ih _ tail (m ++ [(key, x')]) fuel hwf5
            (fun r hr => hall r (List.mem_cons_of_mem _ hr)) hr5 hnd' (by simp only []; omega)]
        refine congrArg₂ _ rfl (congrArg₂ _ ?_ (by simp))
        show Iterator.mk _ _ _ = Iterator.mk _ _ _
        congr 1
        simp only [List.map_cons]
        rw [hlen]
        simp only [List.length_cons]
        omega

theorem transcodes_map {F : Type} (fl : FloatLib F) (elem : Ty)
    (entries : List (List Nat × Val F)) (hptr : elem.isPtr = false)
    (hsup : elem.supported = true) (hnd : (entries.map (fun e => e.1)).Nodup)
    (h : ∀ e ∈ entries, Transcodes fl elem e.2) :
    Transcodes fl (.map .string elem) (.map entries) := by
  obtain ⟨enc, henc⟩ := compileEncoderWith_ok fl (encodeInterface fl) elem hsup
  obtain ⟨dec, hdec⟩ := compileDecoder_ok fl elem hsup
  obtain ⟨rows, hrows, hall⟩ := transcodes_rows fl elem enc dec henc hdec entries h
  subst hrows
  refine ⟨mapEncoder false enc, mapDecoder true (Ty.zero fl elem) dec,
    .object [] (rows.map (fun r => JsonMember.mk [] (r.1.1.map byteItem) [] [] r.2.1 [])),
    .map (rows.map (fun r => (r.1.1, r.2.2))), ?_, ?_, ?_, ?_, ?_, ?_⟩
  · unfold compileEncoder
    rw [compileEncoderWith, henc, hptr]
  · intro w
    simp only [mapEncoder]
    rw [mapEncodeLoop_eq enc rows true _ (fun r hr => (hall r hr).1)]
    simp [Writer.WriteByte, Json.text]
  · rw [compileDecoder, hdec]
  · simp only [Json.valid, Bool.and_eq_true]
    exact ⟨⟨by simp, by simp⟩, membersValid_rows rows (fun r hr => (hall r hr).2.1)⟩
  · intro it tail hwf hr ht
    have hZ : (Ty.zero fl (.map .string elem) : Val F) = .nilMap := by rw [Ty.zero]
    rw [hZ]
    have hr' : it.rest = [] ++ 123 :: (Json.membersText true (rows.map
        (fun r => JsonMember.mk [] (r.1.1.map byteItem) [] [] r.2.1 [])) ++ 125 :: tail) := by
      rw [hr]; simp [Json.text]
    have hwf1 : Iterator.WF { it with head := it.head + 1 } := hwf
    have hr1 := Iterator.rest_adv_cons it 123 _ hr'
    unfold mapDecoder Iterator.ReadObjectStart
    rw [Iterator.readStructural_ok it hwf 123 _ [] _ hr' (by simp) (by decide)]
    simp only [List.length_nil, Nat.add_zero]
    rw [mapDecodeLoop_rows (Ty.zero fl elem) dec rows _ tail [] _ hwf1
      (fun r hr => ⟨(hall r hr).2.1, (hall r hr).2.2.1⟩) hr1
      (by simpa [List.map_map] using hnd) (by simp only []; omega)]
    simp only [List.nil_append]
    refine congrArg₂ _ rfl (congrArg₂ _ ?_ rfl)
    show Iterator.mk _ _ _ = Iterator.mk _ _ _
    congr 1
    simp [Json.text]
    omega
  · rw [Same]
    refine ⟨_, _, rfl, rfl, ?_⟩
    rw [List.forall₂_map_left_iff, List.forall₂_map_right_iff, List.forall₂_same]
    intro r hr
    exact ⟨rfl, (hall r hr).2.2.2⟩

/-! ## The fields a struct emits -/

theorem emitted_bounds (fields : List Field) :
    ∀ (i : Nat) (e : Nat × List Nat × Ty), e ∈ emittedFields fields i →
      i ≤ e.1 ∧ e.1 < i + fields.length := by
  induction fields with
  | nil => intro i e he; simp [emittedFields] at he
  | cons f fs ih =>
    intro i e he
    obtain ⟨name, tag, type⟩ := f
    by_cases ht : tag = [45]
    · simp only [emittedFields, if_pos ht] at he
      have := ih (i + 1) e he
      simp only [List.length_cons]
      omega
    · simp only [emittedFields, if_neg ht, List.mem_cons] at he
      rcases he with rfl | he
      · simp
      · have := ih (i + 1) e he
        simp only [List.length_cons]
        omega

theorem emitted_index_nodup (fields : List Field) :
    ∀ i : Nat, ((emittedFields fields i).map (fun e => e.1)).Nodup := by
  induction fields with
  | nil => intro i; simp [emittedFields]
  | cons f fs ih =>
    intro i
    obtain ⟨name, tag, type⟩ := f
    by_cases ht : tag = [45]
    · simp only [emittedFields, if_pos ht]
      exact ih (i + 1)
    · simp only [emittedFields, if_neg ht, List.map_cons, List.nodup_cons]
      refine ⟨?_, ih (i + 1)⟩
      intro hm
      obtain ⟨e, he, hi⟩ := List.mem_map.mp hm
      have := emitted_bounds fs (i + 1) e he
      omega

theorem emitted_zero {F : Type} (fl : FloatLib F) (fields : List Field) :
    ∀ (i : Nat) (e : Nat × List Nat × Ty), e ∈ emittedFields fields i →
      (Ty.zeroFields fl fields).getD (e.1 - i) .nilIface = Ty.zero fl e.2.2 := by
  induction fields with
  | nil => intro i e he; simp [emittedFields] at he
  | cons f fs ih =>
    intro i e he
    obtain ⟨name, tag, type⟩ := f
    have htail : ∀ e ∈ emittedFields fs (i + 1),
        (Ty.zeroFields fl (Field.mk name tag type :: fs)).getD (e.1 - i) .nilIface =
          Ty.zero fl e.2.2 := by
      intro e he
      have hb := emitted_bounds fs (i + 1) e he
      have : e.1 - i = (e.1 - (i + 1)) + 1 := by omega
      rw [this, Ty.zeroFields, List.getD_cons_succ]
      exact ih (i + 1) e he
    by_cases ht : tag = [45]
    · simp only [emittedFields, if_pos ht] at he
      exact htail e he
    · simp only [emittedFields, if_neg ht, List.mem_cons] at he
      rcases he with rfl | he
      · simp [Ty.zeroFields, Ty.zeroField]
      · exact htail e he

theorem fieldFor_none (fields : List Field) :
    ∀ (i : Nat) (key : List Nat), key ∉ (emittedFields fields i).map (fun e => e.2.1) →
      fieldFor fields i key = none := by
  induction fields with
  | nil => intro i key _; rfl
  | cons f fs ih =>
    intro i key hk
    obtain ⟨name, tag, type⟩ := f
    by_cases ht : tag = [45]
    · simp only [emittedFields, if_pos ht] at hk
      simp [fieldFor, ih (i + 1) key hk, ht]
    · simp only [emittedFields, if_neg ht, List.map_cons, List.mem_cons, not_or] at hk
      simp only [fieldFor, ih (i + 1) key hk.2]
      rw [if_neg]
      intro hh
      exact hk.1 hh.2.symm

theorem fieldFor_emitted (fields : List Field) :
    ∀ (i : Nat) (e : Nat × List Nat × Ty),
      ((emittedFields fields i).map (fun e => e.2.1)).Nodup → e ∈ emittedFields fields i →
      fieldFor fields i e.2.1 = some (e.1, e.2.2) := by
  induction fields with
  | nil => intro i e _ he; simp [emittedFields] at he
  | cons f fs ih =>
    intro i e hnd he
    obtain ⟨name, tag, type⟩ := f
    by_cases ht : tag = [45]
    · simp only [emittedFields, if_pos ht] at hnd he
      simp [fieldFor, ih (i + 1) e hnd he]
    · simp only [emittedFields, if_neg ht, List.map_cons, List.nodup_cons] at hnd
      simp only [emittedFields, if_neg ht, List.mem_cons] at he
      rcases he with rfl | he
      · simp only [fieldFor, fieldFor_none fs (i + 1) _ hnd.1]
        rw [if_pos ⟨ht, trivial⟩]
      · simp [fieldFor, ih (i + 1) e hnd.2 he]

theorem sameFields_of {F : Type} (vs vs' : List (Val F)) (fields : List Field) :
    ∀ i : Nat, (∀ e ∈ emittedFields fields i,
        Same e.2.2 (vs.getD e.1 .nilIface) (vs'.getD e.1 .nilIface)) →
      SameFields fields i vs vs' := by
  induction fields with
  | nil => intro i _; simp [SameFields]
  | cons f fs ih =>
    intro i h
    obtain ⟨name, tag, type⟩ := f
    rw [SameFields, SameField]
    by_cases ht : tag = [45]
    · refine ⟨Or.inl ht, ih (i + 1) ?_⟩
      intro e he
      exact h e (by simp only [emittedFields, if_pos ht]; exact he)
    · refine ⟨Or.inr (h (i, wireName name tag, type) (by simp [emittedFields, ht])),
        ih (i + 1) ?_⟩
      intro e he
      exact h e (by simp only [emittedFields, if_neg ht]; exact List.mem_cons_of_mem _ he)

theorem compileStructFields_ok_of {F : Type} (fl : FloatLib F) (fields : List Field) :
    ∀ (i : Nat) (fm : List (List Nat × fieldInfo F)),
      (∀ e ∈ emittedFields fields i, ∃ dec, compileDecoder fl e.2.2 = .ok dec) →
      ∃ fm', compileStructFields fl fields i fm = .ok fm' := by
  induction fields with
  | nil => intro i fm _; exact ⟨fm, by rw [compileStructFields]⟩
  | cons f fs ih =>
    intro i fm h
    obtain ⟨name, tag, type⟩ := f
    by_cases ht : tag = [45]
    · obtain ⟨fm', h'⟩ := ih (i + 1) fm
        (fun e he => h e (by simp only [emittedFields, if_pos ht]; exact he))
      exact ⟨fm', by rw [compileStructFields, compileStructField, if_pos ht]; exact h'⟩
    · obtain ⟨dec, hdec⟩ := h (i, wireName name tag, type) (by simp [emittedFields, ht])
      obtain ⟨fm', h'⟩ := ih (i + 1) ((wireName name tag, { offset := i, decoder := dec }) :: fm)
        (fun e he => h e (by
          simp only [emittedFields, if_neg ht]; exact List.mem_cons_of_mem _ he))
      exact ⟨fm', by rw [compileStructFields, compileStructField, if_neg ht, hdec]; exact h'⟩

theorem strText_raw (name : List Nat) : strText (name.map StrItem.raw) = name := by
  induction name with
  | nil => rfl
  | cons c cs ih => rw [List.map_cons, strText_cons, ih]; rfl

theorem strValue_raw (name : List Nat) : strValue (name.map StrItem.raw) = name := by
  induction name with
  | nil => rfl
  | cons c cs ih => rw [List.map_cons, strValue_cons, ih]; rfl

theorem fieldsText_members (J : Nat → Json) (L : List (Nat × List Nat × Ty)) :
    ∀ first : Bool, fieldsText first (L.map (fun e => (e.2.1, (J e.1).text))) =
      Json.membersText first
        (L.map (fun e => JsonMember.mk [] (e.2.1.map StrItem.raw) [] [] (J e.1) [])) := by
  induction L with
  | nil => intro first; simp [fieldsText, Json.membersText]
  | cons e L ih =>
    intro first
    simp only [List.map_cons, fieldsText, Json.membersText, Json.memberText, ih false,
      strText_raw]
    simp

theorem membersValid_fields (J : Nat → Json) (L : List (Nat × List Nat × Ty))
    (hplain : ∀ e ∈ L, plainName e.2.1 = true) (hv : ∀ e ∈ L, (J e.1).valid = true) :
    Json.membersValid
      (L.map (fun e => JsonMember.mk [] (e.2.1.map StrItem.raw) [] [] (J e.1) [])) = true := by
  induction L with
  | nil => simp [Json.membersValid]
  | cons e L ih =>
    simp only [List.map_cons, Json.membersValid, Json.memberValid, Bool.and_eq_true]
    refine ⟨⟨⟨⟨⟨⟨by simp, ?_⟩, by simp⟩, by simp⟩, hv e (List.mem_cons_self _ _)⟩, by simp⟩,
      ih (fun e' he' => hplain e' (List.mem_cons_of_mem _ he'))
        (fun e' he' => hv e' (List.mem_cons_of_mem _ he'))⟩
    have := hplain e (List.mem_cons_self _ _)
    simp only [plainName, List.all_eq_true] at this
    simp only [List.all_eq_true]
    intro x hx
    obtain ⟨c, hc, rfl⟩ := List.mem_map.mp hx
    exact this c hc

/-! ## The struct decoder on the fields written -/

theorem foldl_set_length {F : Type} (X : Nat → Val F) (L : List (Nat × List Nat × Ty)) :
    ∀ p : List (Val F), (L.foldl (fun p e => p.set e.1 (X e.1)) p).length = p.length := by
  induction L with
  | nil => intro p; rfl
  | cons e L ih => intro p; rw [List.foldl_cons, ih]; simp

theorem foldl_set_getD_other {F : Type} (X : Nat → Val F) (L : List (Nat × List Nat × Ty))
    (i : Nat) (hi : i ∉ L.map (fun e => e.1)) :
    ∀ p : List (Val F), (L.foldl (fun p e => p.set e.1 (X e.1)) p).getD i .nilIface =
      p.getD i .nilIface := by
  induction L with
  | nil => intro p; rfl
  | cons e L ih =>
    intro p
    simp only [List.map_cons, List.mem_cons, not_or] at hi
    rw [List.foldl_cons, ih hi.2]
    simp only [List.getD_eq_getElem?_getD]
    rw [List.getElem?_set_ne (fun hh => hi.1 hh.symm)]

theorem foldl_set_getD_mem {F : Type} (X : Nat → Val F) (L : List (Nat × List Nat × Ty))
    (hnd : (L.map (fun e => e.1)).Nodup) :
    ∀ (p : List (Val F)) (e : Nat × List Nat × Ty), e ∈ L → e.1 < p.length →
      (L.foldl (fun p e => p.set e.1 (X e.1)) p).getD e.1 .nilIface = X e.1 := by
  induction L with
  | nil => intro p e he; cases he
  | cons e0 L ih =>
    intro p e he hlt
    simp only [List.map_cons, List.nodup_cons] at hnd
    rw [List.foldl_cons]
    rcases List.mem_cons.mp he with rfl | he
    · rw [foldl_set_getD_other X L e.1 hnd.1]
      simp only [List.getD_eq_getElem?_getD]
      rw [List.getElem?_set_self (by simpa using hlt)]
      rfl
    · exact ih hnd.2 _ e he (by simpa using hlt)

theorem membersDecode_fields {F : Type} (fl : FloatLib F) (fields : List Field)
    (J : Nat → Json) (X : Nat → Val F) (L : List (Nat × List Nat × Ty))
    (hL : ∀ e ∈ L, fieldFor fields 0 e.2.1 = some (e.1, e.2.2) ∧
      ∃ dec, compileDecoder fl e.2.2 = .ok dec ∧
        DecodesAt dec (J e.1).text (Ty.zero fl e.2.2) (X e.1))
    (hnd : (L.map (fun e => e.1)).Nodup) :
    ∀ p : List (Val F), (∀ e ∈ L, p.getD e.1 .nilIface = Ty.zero fl e.2.2) →
      MembersDecode fl fields
        (L.map (fun e => JsonMember.mk [] (e.2.1.map StrItem.raw) [] [] (J e.1) []))
        p (L.foldl (fun p e => p.set e.1 (X e.1)) p) := by
  induction L with
  | nil => intro p _; rfl
  | cons e L ih =>
    intro p hp
    simp only [List.map_cons, List.nodup_cons] at hnd
    obtain ⟨hf, dec, hc, hd⟩ := hL e (List.mem_cons_self _ _)
    refine ⟨p.set e.1 (X e.1), ?_, ?_⟩
    · unfold ValueDecodes
      rw [strValue_raw, hf]
      refine ⟨dec, X e.1, hc, ?_, rfl⟩
      rw [hp e (List.mem_cons_self _ _)]
      exact hd
    · rw [List.foldl_cons]
      apply ih (fun e' he' => hL e' (List.mem_cons_of_mem _ he')) hnd.2
      intro e' he'
      have hne : e.1 ≠ e'.1 := by
        intro hh
        exact hnd.1 (List.mem_map.mpr ⟨e', he', hh.symm⟩)
      simp only [List.getD_eq_getElem?_getD]
      rw [List.getElem?_set_ne hne]
      have := hp e' (List.mem_cons_of_mem _ he')
      simpa [List.getD_eq_getElem?_getD] using this

theorem zeroFields_length {F : Type} (fl : FloatLib F) (fields : List Field) :
    (Ty.zeroFields fl fields : List (Val F)).length = fields.length := by
  induction fields with
  | nil => rfl
  | cons f fs ih => rw [Ty.zeroFields, List.length_cons, ih, List.length_cons]

theorem emitted_cons (f : Field) (fs : List Field) (i : Nat) :
    emittedFields (f :: fs) i = emittedFields [f] i ++ emittedFields fs (i + 1) := by
  obtain ⟨name, tag, type⟩ := f
  by_cases ht : tag = [45] <;> simp [emittedFields, ht]

/-- The struct encoder writes the object of the emitted fields. -/
theorem structEncoder_text {F : Type} (fl : FloatLib F) (fields : List Field)
    (vals : List (Val F)) (J : Nat → Json)
    (h : ∀ e ∈ emittedFields fields 0, ∃ enc, compileEncoder fl e.2.2 = .ok enc ∧
      ∀ w : Writer, enc w (vals.getD e.1 .nilIface) = .ok ⟨w.Buffer ++ (J e.1).text⟩) :
    ∃ enc, compileEncoder fl (.struct fields) = .ok enc ∧
      ∀ w : Writer, enc w (.struct vals) = .ok ⟨w.Buffer ++ (Json.object []
        ((emittedFields fields 0).map
          (fun e => JsonMember.mk [] (e.2.1.map StrItem.raw) [] [] (J e.1) []))).text⟩ := by
  obtain ⟨plans, h1, h2⟩ := structEncode_fields fl (encodeInterface fl) vals
    (fun i => (J i).text) fields 0 [] h
  refine ⟨structEncoder plans, ?_, ?_⟩
  · simp only [compileEncoder, compileEncoderWith]
    rw [h1]
    rfl
  · intro w
    simp only [structEncoder, h2, Writer.WriteByte, Json.text]
    rw [fieldsText_members J (emittedFields fields 0)]
    simp

theorem transcodes_struct {F : Type} (fl : FloatLib F) (fields : List Field)
    (vs : List (Val F)) (hlen : vs.length = fields.length)
    (hnd : ((emittedFields fields 0).map (fun e => e.2.1)).Nodup)
    (hplain : ∀ e ∈ emittedFields fields 0, plainName e.2.1 = true)
    (h : ∀ e ∈ emittedFields fields 0, Transcodes fl e.2.2 (vs.getD e.1 .nilIface)) :
    Transcodes fl (.struct fields) (.struct vs) := by
  have hex : ∀ i : Nat, ∃ (j : Json) (x' : Val F), ∀ e ∈ emittedFields fields 0, e.1 = i →
      ∃ enc dec, compileEncoder fl e.2.2 = .ok enc ∧
        (∀ w : Writer, enc w (vs.getD e.1 .nilIface) = .ok ⟨w.Buffer ++ j.text⟩) ∧
        compileDecoder fl e.2.2 = .ok dec ∧ j.valid = true ∧
        DecodesAt dec j.text (Ty.zero fl e.2.2) x' ∧ Same e.2.2 (vs.getD e.1 .nilIface) x' := by
    intro i
    by_cases hi : ∃ e ∈ emittedFields fields 0, e.1 = i
    · obtain ⟨e0, he0, hi0⟩ := hi
      obtain ⟨enc, dec, j, x', h1, h2, h3, h4, h5, h6⟩ := h e0 he0
      refine ⟨j, x', fun e he hei => ?_⟩
      have : e = e0 :=
        List.inj_on_of_nodup_map (emitted_index_nodup fields 0) he he0 (hei.trans hi0.symm)
      subst this
      exact ⟨enc, dec, h1, h2, h3, h4, h5, h6⟩
    · exact ⟨.null, .nilIface, fun e he hei => absurd ⟨e, he, hei⟩ hi⟩
  choose J X hJX using hex
  have hJ : ∀ e ∈ emittedFields fields 0, ∃ enc dec, compileEncoder fl e.2.2 = .ok enc ∧
      (∀ w : Writer, enc w (vs.getD e.1 .nilIface) = .ok ⟨w.Buffer ++ (J e.1).text⟩) ∧
      compileDecoder fl e.2.2 = .ok dec ∧ (J e.1).valid = true ∧
      DecodesAt dec (J e.1).text (Ty.zero fl e.2.2) (X e.1) ∧
      Same e.2.2 (vs.getD e.1 .nilIface) (X e.1) := fun e he => hJX e.1 e he rfl
  obtain ⟨enc, hcE, hE⟩ := structEncoder_text fl fields vs J (fun e he => by
    obtain ⟨enc, dec, h1, h2, _⟩ := hJ e he
    exact ⟨enc, h1, h2⟩)
  obtain ⟨fm, hfm⟩ := compileStructFields_ok_of fl fields 0 [] (fun e he => by
    obtain ⟨enc, dec, _, _, h3, _⟩ := hJ e he
    exact ⟨dec, h3⟩)
  have hV : (Json.object [] ((emittedFields fields 0).map
      (fun e => JsonMember.mk [] (e.2.1.map StrItem.raw) [] [] (J e.1) []))).valid = true := by
    simp only [Json.valid, Bool.and_eq_true]
    refine ⟨⟨by simp, by simp⟩, membersValid_fields J _ hplain (fun e he => ?_)⟩
    obtain ⟨enc, dec, _, _, _, h4, _⟩ := hJ e he
    exact h4
  have hMD := membersDecode_fields fl fields J X (emittedFields fields 0) (fun e he => by
      obtain ⟨enc, dec, _, _, h3, _, h5, _⟩ := hJ e he
      exact ⟨fieldFor_emitted fields 0 e hnd he, dec, h3, h5⟩)
    (emitted_index_nodup fields 0) (Ty.zeroFields fl fields) (fun e he => by
      have := emitted_zero fl fields 0 e he
      simpa using this)
  refine ⟨enc, structDecoder fm, _, .struct ((emittedFields fields 0).foldl
    (fun p e => p.set e.1 (X e.1)) (Ty.zeroFields fl fields)), hcE, hE, ?_, hV, ?_, ?_⟩
  · rw [compileDecoder, hfm]
  · intro it tail hwf hr ht
    have hZ : (Ty.zero fl (.struct fields) : Val F) = .struct (Ty.zeroFields fl fields) := by
      rw [Ty.zero]
    rw [hZ, structDecoder_object fl fields fm hfm it [] [] _ tail _ _ hwf (by simp) hV
      (by rw [hr]; rfl) hMD]
    exact res3_congr it none _ _ _ (by simp)
  · rw [Same]
    refine ⟨vs, _, rfl, rfl, ?_, sameFields_of vs _ fields 0 (fun e he => ?_)⟩
    · rw [foldl_set_length, zeroFields_length, hlen]
    · obtain ⟨enc, dec, _, _, _, _, _, h6⟩ := hJ e he
      rw [foldl_set_getD_mem X _ (emitted_index_nodup fields 0) _ e he (by
        rw [zeroFields_length]
        have := emitted_bounds fields 0 e he
        omega)]
      exact h6

/-! ## The two compilers agree on the values in scope -/

mutual
theorem transcodes_of {F : Type} (fl : FloatLib F) :
    ∀ (t : Ty) (v : Val F), RoundTrips fl t v → Transcodes fl t v
  | .string, v, h => by
    rw [RoundTrips] at h
    obtain ⟨s, rfl⟩ := h
    exact transcodes_string fl s
  | .definedString name, v, h => by
    rw [RoundTrips] at h
    obtain ⟨s, rfl⟩ := h
    exact transcodes_definedString fl name s
  | .int, v, h => by
    rw [RoundTrips] at h
    obtain ⟨n, rfl, hlo, hhi⟩ := h
    exact (transcodes_int fl n hlo hhi).1
  | .int64, v, h => by
    rw [RoundTrips] at h
    obtain ⟨n, rfl, hlo, hhi⟩ := h
    exact (transcodes_int fl n hlo hhi).2
  | .int32, v, h => by
    rw [RoundTrips] at h
    obtain ⟨n, rfl, hlo, hhi⟩ := h
    exact transcodes_int32 fl n hlo hhi
  | .float64, v, h => by
    rw [RoundTrips] at h
    obtain ⟨f, rfl, hf⟩ := h
    exact transcodes_float64 fl f hf
  | .bool, v, h => by
    rw [RoundTrips] at h
    obtain ⟨b, rfl⟩ := h
    exact transcodes_bool fl b
  | .iface, v, h => by
    rw [RoundTrips] at h
    exact h.elim
  | .struct fields, v, h => by
    rw [RoundTrips] at h
    obtain ⟨vs, rfl, hlen, hnd, hplain, hf⟩ := h
    exact transcodes_struct fl fields vs hlen hnd hplain (transcodes_fields fl fields 0 vs hf)
  | .slice elem, v, h => by
    rw [RoundTrips] at h
    obtain ⟨len, store, rfl, hlen, hsup, hall⟩ := h
    exact transcodes_slice fl elem len store hlen hsup
      (fun x hx => transcodes_of fl elem x (hall x hx))
  | .map key elem, v, h => by
    rw [RoundTrips] at h
    obtain ⟨entries, rfl, rfl, hptr, hsup, hnd, hall⟩ := h
    exact transcodes_map fl elem entries hptr hsup hnd
      (fun e he => transcodes_of fl elem e.2 (hall e he))
  | .ptr elem, v, h => by
    rw [RoundTrips] at h
    obtain ⟨x, rfl, hx⟩ := h
    exact transcodes_ptr fl elem x (transcodes_of fl elem x hx)
  | .other kind, v, h => by
    rw [RoundTrips] at h
    exact h.elim
theorem transcodes_fields {F : Type} (fl : FloatLib F) :
    ∀ (fields : List Field) (i : Nat) (vs : List (Val F)), RoundTripsFields fl fields i vs →
      ∀ e ∈ emittedFields fields i, Transcodes fl e.2.2 (vs.getD e.1 .nilIface)
  | [], i, vs, _ => by
    intro e he
    simp [emittedFields] at he
  | f :: fs, i, vs, h => by
    rw [RoundTripsFields] at h
    intro e he
    rw [emitted_cons] at he
    rcases List.mem_append.mp he with he | he
    · have hb := emitted_bounds [f] i e he
      have hi : e.1 = i := by
        simp only [List.length_cons, List.length_nil] at hb
        omega
      rw [hi]
      exact transcodes_field fl f i (vs.getD i .nilIface) h.1 e he
    · exact transcodes_fields fl fs (i + 1) vs h.2 e he
theorem transcodes_field {F : Type} (fl : FloatLib F) :
    ∀ (f : Field) (i : Nat) (v : Val F), RoundTripsField fl f v →
      ∀ e ∈ emittedFields [f] i, Transcodes fl e.2.2 v
  | .mk name tag type, i, v, h => by
    rw [RoundTripsField] at h
    intro e he
    by_cases ht : tag = [45]
    · simp [emittedFields, ht] at he
    · simp only [emittedFields, if_neg ht, List.mem_singleton] at he
      subst he
      rcases h with h | h
      · exact absurd h ht
      · exact transcodes_of fl type v h
end

/-! ## The types the compilers reject -/

theorem Ty.beq_string (key : Ty) : Ty.beq key .string = true ↔ key = .string := by
  cases key <;> simp [Ty.beq]

mutual
theorem compileDecoder_fail {F : Type} (fl : FloatLib F) :
    ∀ t : Ty, t.supported = false → ∃ err, compileDecoder fl t = .error err
  | .string, h => by simp [Ty.supported] at h
  | .definedString _, h => by simp [Ty.supported] at h
  | .int, h => by simp [Ty.supported] at h
  | .int64, h => by simp [Ty.supported] at h
  | .int32, h => by simp [Ty.supported] at h
  | .float64, h => by simp [Ty.supported] at h
  | .bool, h => by simp [Ty.supported] at h
  | .iface, h => by simp [Ty.supported] at h
  | .struct fields, h => by
    have hs : Ty.supportedFields fields = false := by simpa [Ty.supported] using h
    obtain ⟨err, he⟩ := compileStructFields_fail fl fields 0 [] hs
    exact ⟨err, by rw [compileDecoder, he]⟩
  | .slice elem, h => by
    have hs : elem.supported = false := by simpa [Ty.supported] using h
    obtain ⟨err, he⟩ := compileDecoder_fail fl elem hs
    exact ⟨err, by rw [compileDecoder, he]⟩
  | .map key elem, h => by
    cases key with
    | string =>
      have hs : elem.supported = false := by simpa [Ty.supported, Ty.isStringKind] using h
      obtain ⟨err, he⟩ := compileDecoder_fail fl elem hs
      exact ⟨err, by rw [compileDecoder, he]⟩
    | definedString name =>
      have hs : elem.supported = false := by simpa [Ty.supported, Ty.isStringKind] using h
      obtain ⟨err, he⟩ := compileDecoder_fail fl elem hs
      exact ⟨err, by rw [compileDecoder, he]⟩
    | _ => exact ⟨_, by rw [compileDecoder]; all_goals (intros; rename_i hh; cases hh)⟩
  | .ptr elem, h => by
    have hs : elem.supported = false := by simpa [Ty.supported] using h
    obtain ⟨err, he⟩ := compileDecoder_fail fl elem hs
    exact ⟨err, by rw [compileDecoder, he]⟩
  | .other kind, _ => ⟨_, by rw [compileDecoder]⟩
theorem compileStructFields_fail {F : Type} (fl : FloatLib F) :
    ∀ (fields : List Field) (i : Nat) (fm : List (List Nat × fieldInfo F)),
      Ty.supportedFields fields = false → ∃ err, compileStructFields fl fields i fm = .error err
  | [], i, fm, h => by simp [Ty.supportedFields] at h
  | f :: fs, i, fm, h => by
    by_cases hf : Ty.supportedField f = true
    · obtain ⟨fm1, h1⟩ := compileStructField_ok fl f i fm hf
      have hs : Ty.supportedFields fs = false := by simpa [Ty.supportedFields, hf] using h
      obtain ⟨err, he⟩ := compileStructFields_fail fl fs (i + 1) fm1 hs
      exact ⟨err, by rw [compileStructFields, h1]; exact he⟩
    · obtain ⟨err, he⟩ := compileStructField_fail fl f i fm (by simpa using hf)
      exact ⟨err, by rw [compileStructFields, he]⟩
theorem compileStructField_fail {F : Type} (fl : FloatLib F) :
    ∀ (f : Field) (i : Nat) (fm : List (List Nat × fieldInfo F)),
      Ty.supportedField f = false → ∃ err, compileStructField fl f i fm = .error err
  | .mk name tag type, i, fm, h => by
    have hs : tag ≠ [45] ∧ type.supported = false := by simpa [Ty.supportedField] using h
    obtain ⟨err, he⟩ := compileDecoder_fail fl type hs.2
    exact ⟨err, by rw [compileStructField, if_neg hs.1, he]⟩
end

mutual
theorem compileEncoderWith_fail {F : Type} (fl : FloatLib F) (encIface : EncoderFunc F) :
    ∀ t : Ty, t.supported = false → ∃ err, compileEncoderWith fl encIface t = .error err
  | .string, h => by simp [Ty.supported] at h
  | .definedString _, h => by simp [Ty.supported] at h
  | .int, h => by simp [Ty.supported] at h
  | .int64, h => by simp [Ty.supported] at h
  | .int32, h => by simp [Ty.supported] at h
  | .float64, h => by simp [Ty.supported] at h
  | .bool, h => by simp [Ty.supported] at h
  | .iface, h => by simp [Ty.supported] at h
  | .struct fields, h => by
    have hs : Ty.supportedFields fields = false := by simpa [Ty.supported] using h
    obtain ⟨err, he⟩ := compileStructEncFields_fail fl encIface fields 0 [] hs
    exact ⟨err, by rw [compileEncoderWith, he]⟩
  | .slice elem, h => by
    have hs : elem.supported = false := by simpa [Ty.supported] using h
    obtain ⟨err, he⟩ := compileEncoderWith_fail fl encIface elem hs
    exact ⟨err, by rw [compileEncoderWith, he]⟩
  | .map key elem, h => by
    cases key with
    | string =>
      have hs : elem.supported = false := by simpa [Ty.supported, Ty.isStringKind] using h
      obtain ⟨err, he⟩ := compileEncoderWith_fail fl encIface elem hs
      exact ⟨err, by rw [compileEncoderWith, he]⟩
    | definedString name =>
      have hs : elem.supported = false := by simpa [Ty.supported, Ty.isStringKind] using h
      obtain ⟨err, he⟩ := compileEncoderWith_fail fl encIface elem hs
      exact ⟨err, by rw [compileEncoderWith, he]⟩
    | _ => exact ⟨_, by rw [compileEncoderWith]; all_goals (intros; rename_i hh; cases hh)⟩
  | .ptr elem, h => by
    have hs : elem.supported = false := by simpa [Ty.supported] using h
    obtain ⟨err, he⟩ := compileEncoderWith_fail fl encIface elem hs
    exact ⟨err, by rw [compileEncoderWith, he]⟩
  | .other kind, _ => ⟨_, by rw [compileEncoderWith]⟩
theorem compileStructEncFields_fail {F : Type} (fl : FloatLib F) (encIface : EncoderFunc F) :
    ∀ (fields : List Field) (i : Nat) (acc : List (structFieldEncoder F)),
      Ty.supportedFields fields = false →
      ∃ err, compileStructEncFields fl encIface fields i acc = .error err
  | [], i, acc, h => by simp [Ty.supportedFields] at h
  | f :: fs, i, acc, h => by
    by_cases hf : Ty.supportedField f = true
    · obtain ⟨acc1, h1⟩ := compileStructEncField_ok fl encIface f i acc hf
      have hs : Ty.supportedFields fs = false := by simpa [Ty.supportedFields, hf] using h
      obtain ⟨err, he⟩ := compileStructEncFields_fail fl encIface fs (i + 1) acc1 hs
      exact ⟨err, by rw [compileStructEncFields, h1]; exact he⟩
    · obtain ⟨err, he⟩ := compileStructEncField_fail fl encIface f i acc (by simpa using hf)
      exact ⟨err, by rw [compileStructEncFields, he]⟩
theorem compileStructEncField_fail {F : Type} (fl : FloatLib F) (encIface : EncoderFunc F) :
    ∀ (f : Field) (i : Nat) (acc : List (structFieldEncoder F)),
      Ty.supportedField f = false →
      ∃ err, compileStructEncField fl encIface f i acc = .error err
  | .mk name tag type, i, acc, h => by
    have hs : tag ≠ [45] ∧ type.supported = false := by simpa [Ty.supportedField] using h
    obtain ⟨err, he⟩ := compileEncoderWith_fail fl encIface type hs.2
    exact ⟨err, by rw [compileStructEncField, if_neg hs.1, he]⟩
end

/-! ## The plans of a struct -/

theorem sliceEncodeLoop_texts {F : Type} (enc : EncoderFunc F) (store : List (Val F)) :
    ∀ (n i : Nat) (w : Writer) (texts : List (List Nat)), i + n ≤ store.length →
      List.Forall₂ (fun x t => ∀ w : Writer, enc w x = .ok ⟨w.Buffer ++ t⟩)
        ((store.drop i).take n) texts →
      sliceEncodeLoop enc store n i w =
        .ok ⟨w.Buffer ++ commaJoinedFrom (decide (i = 0)) texts⟩ := by
  intro n
  induction n with
  | zero =>
    intro i w texts _ h
    simp only [List.take_zero] at h
    cases h
    simp [sliceEncodeLoop, commaJoinedFrom]
  | succ n ih =>
    intro i w texts hi h
    have hlt : i < store.length := by omega
    have hd : (store.drop i).take (n + 1) =
        store.getD i .nilIface :: (store.drop (i + 1)).take n := by
      rw [List.drop_eq_getElem_cons hlt, List.take_succ_cons]
      simp [List.getD_eq_getElem?_getD, List.getElem?_eq_getElem hlt]
    rw [hd] at h
    cases h with
    | cons hx hrest =>
      rename_i t ts
      rw [sliceEncodeLoop, hx]
      simp only []
      rw [ih (i + 1) _ ts (by omega) hrest]
      by_cases h0 : i = 0
      · subst h0
        simp [commaJoinedFrom]
      · have : i > 0 := by omega
        simp [Writer.WriteByte, commaJoinedFrom, h0, this]

/-! ## The list decoder on any array -/

theorem grownCap_step (len cap : Nat)
    (h : (len = 0 ∧ cap = 0) ∨
      ∃ k, cap = 8 * 2 ^ k ∧ len ≤ 8 * 2 ^ k ∧ (k = 0 ∨ 8 * 2 ^ (k - 1) < len)) :
    ∃ k, (if len ≥ cap then (if cap * 2 = 0 then 8 else cap * 2) else cap) = 8 * 2 ^ k ∧
      len + 1 ≤ 8 * 2 ^ k ∧ (k = 0 ∨ 8 * 2 ^ (k - 1) < len + 1) := by
  rcases h with ⟨h1, h2⟩ | ⟨k, hk, hle, hmin⟩
  · subst h1 h2
    exact ⟨0, by simp, by simp, Or.inl rfl⟩
  · have hpos : 0 < 2 ^ k := Nat.two_pow_pos k
    by_cases hg : len ≥ cap
    · refine ⟨k + 1, ?_, ?_, Or.inr ?_⟩
      · rw [if_pos hg, if_neg (by omega), hk, pow_succ]
        omega
      · rw [pow_succ]; omega
      · simp only [Nat.add_sub_cancel]
        omega
    · refine ⟨k, by rw [if_neg hg, hk], by omega, ?_⟩
      rcases hmin with h0 | h0
      · exact Or.inl h0
      · exact Or.inr (by omega)

theorem grownCap_spec : ∀ (n len cap : Nat),
    (∃ k, cap = 8 * 2 ^ k ∧ len ≤ 8 * 2 ^ k ∧ (k = 0 ∨ 8 * 2 ^ (k - 1) < len)) →
    ∃ k, grownCap n len cap = 8 * 2 ^ k ∧ len + n ≤ 8 * 2 ^ k ∧
      (k = 0 ∨ 8 * 2 ^ (k - 1) < len + n) := by
  intro n
  induction n with
  | zero => intro len cap h; simpa [grownCap] using h
  | succ n ih =>
    intro len cap h
    obtain ⟨k, h1, h2, h3⟩ := grownCap_step len cap (Or.inr h)
    have := ih (len + 1) _ ⟨k, h1, h2, h3⟩
    rw [grownCap]
    have e : len + (n + 1) = len + 1 + n := by omega
    rw [e]
    exact this

/-- The capacity the list decoder reaches from capacity 0 is the smallest of
8, 16, 32, ... that holds the elements. -/
theorem grownCap_zero (n : Nat) :
    ∃ k, grownCap (n + 1) 0 0 = 8 * 2 ^ k ∧ n + 1 ≤ 8 * 2 ^ k ∧
      (k = 0 ∨ 8 * 2 ^ (k - 1) < n + 1) := by
  obtain ⟨k, h1, h2, h3⟩ := grownCap_step 0 0 (Or.inl ⟨rfl, rfl⟩)
  have := grownCap_spec n (0 + 1) _ ⟨k, h1, h2, h3⟩
  rw [grownCap]
  have e : 0 + 1 + n = n + 1 := by omega
  rw [e] at this
  exact this

theorem sliceDecodeLoop_rows {F : Type} (zero : Val F) (dec : DecoderFunc F) (fuel : Nat) :
    ∀ (rows : List (JsonElem × Val F)) (row : JsonElem × Val F) (it : Iterator)
      (tail : List Nat) (header : Val F) (done : List (Val F)) (pad : Nat),
      it.WF →
      Json.elemsValid ((row :: rows).map (fun r => r.1)) = true →
      (∀ r ∈ row :: rows, DecodesAt dec r.1.value.text zero r.2) →
      it.rest = Json.elemsText true ((row :: rows).map (fun r => r.1)) ++ 93 :: tail →
      header.sliceLen = done.length → header.sliceStore = done ++ List.replicate pad zero →
      it.dataLen - it.head < fuel →
      sliceDecodeLoop zero dec fuel it header =
        (none, { it with head := it.head + (Json.elemsText true
            ((row :: rows).map (fun r => r.1))).length + 1 },
          .slice (done.length + (rows.length + 1))
            (done ++ (row :: rows).map (fun r => r.2) ++ List.replicate
              (grownCap (rows.length + 1) done.length (done.length + pad) -
                (done.length + (rows.length + 1))) zero)) := by
  induction fuel with
  | zero => intro _ _ it _ _ _ _ _ _ _ _ _ _ hf; omega
  | succ fuel ih =>
    intro rows row it tail header done pad hwf hvalid hrows h hl hs hf
    obtain ⟨⟨ws1, v, ws2⟩, x'⟩ := row
    have hdec := hrows _ (List.mem_cons_self _ _)
    simp only [JsonElem.value] at hdec
    simp only [List.map_cons, Json.elemsValid, Json.elemValid, Bool.and_eq_true,
      all_iff_forall] at hvalid
    obtain ⟨⟨⟨hws1, hv⟩, hws2⟩, hvrest⟩ := hvalid
    obtain ⟨c, r, hc, hcw, _, hc93, _⟩ := Json.text_head v hv
    simp only [List.map_cons, Json.elemsText, Json.elemText, reduceIte, List.nil_append,
      List.append_assoc] at h ⊢
    have hdel : Delimited (ws2 ++ (Json.elemsText false (rows.map (fun r => r.1)) ++
        93 :: tail)) :=
      Iterator.elems_tail_delimited ws2 _ tail hws2
    have hskip : it.skipWhiteSpace = { it with head := it.head + ws1.length } :=
      Iterator.skipWhiteSpace_of_rest it hwf ws1 _ h hws1 (Json.text_not_ws v hv _)
    have hwf1 : Iterator.WF { it with head := it.head + ws1.length } := hwf
    have hr1 := Iterator.rest_adv_append it ws1 _ h
    have hrc : Iterator.rest { it with head := it.head + ws1.length } =
        c :: (r ++ (ws2 ++ (Json.elemsText false (rows.map (fun r => r.1)) ++ 93 :: tail))) := by
      rw [hr1, hc]; rfl
    have hhead : it.head < it.dataLen := by
      have := Iterator.lt_of_rest_cons _ hwf1 hrc
      simp only [] at this
      omega
    obtain ⟨pad1, hcap, hl1, hs1⟩ := grow_invariant zero header done pad hl hs
    have hwf2 : Iterator.WF { it with head := it.head + ws1.length + v.text.length } := hwf
    have hr2 := Iterator.rest_adv_append _ v.text _ hr1
    have hwf3 : Iterator.WF
        { it with head := it.head + ws1.length + v.text.length + ws2.length } := hwf
    rw [sliceDecodeLoop]
    simp only []
    rw [hskip, if_neg (fun hh => hc93 ((Iterator.peek_cons _ hwf1 hrc 93).mp hh))]
    generalize (if header.sliceLen ≥ header.sliceStore.length then growSlice zero header
      else header) = H at hl1 hs1 ⊢
    rw [hl1, hs1, getD_append_replicate, hdec _ _ hwf1 hr1 hdel]
    simp only []
    rw [set_append_replicate]
    cases rows with
    | nil =>
      simp only [List.map_nil, Json.elemsText, List.nil_append] at hr2 ⊢
      have hr3 := Iterator.rest_adv_append _ ws2 _ hr2
      rw [Iterator.skipWhiteSpace_cons _ hwf2 ws2 93 tail hr2 hws2 (by decide)]
      simp only []
      rw [if_neg (fun hh => absurd ((Iterator.peek_cons _ hwf3 hr3 44).mp hh) (by decide)),
        if_pos ((Iterator.peek_cons _ hwf3 hr3 93).mpr rfl)]
      have hp : grownCap (0 + 1) done.length (done.length + pad) - (done.length + (0 + 1)) =
          pad1 := by
        rw [Nat.zero_add, ← hcap]; omega
      simp only [List.length_nil, hp]
      refine congrArg₂ _ rfl (congrArg₂ _ ?_ (by simp))
      show Iterator.mk _ _ _ = Iterator.mk _ _ _
      congr 1
      simp only [List.length_append, List.length_nil]
      omega
    | cons row' rows' =>
      simp only [List.map_cons] at hr2 hvrest ⊢
      rw [Iterator.elemsText_cons_false] at hr2 ⊢
      have hr3 := Iterator.rest_adv_append _ ws2 _ hr2
      have hwf4 : Iterator.WF
          { it with head := it.head + ws1.length + v.text.length + ws2.length + 1 } := hwf
      have hr4 := Iterator.rest_adv_cons _ 44 _ hr3
      have hres := ih rows' row'
        { it with head := it.head + ws1.length + v.text.length + ws2.length + 1 } tail
        (.slice (done.length + 1) ((done ++ [x']) ++ List.replicate pad1 zero))
        (done ++ [x']) pad1 hwf4 hvrest
        (fun x hx => hrows x (List.mem_cons_of_mem _ hx)) hr4 (by simp [Val.sliceLen])
        (by simp [Val.sliceStore]) (by simp only []; omega)
      rw [Iterator.skipWhiteSpace_cons _ hwf2 ws2 44 _ hr2 hws2 (by decide)]
      simp only []
      rw [if_pos ((Iterator.peek_cons _ hwf3 hr3 44).mpr rfl), hres]
      have hstep : grownCap (rows'.length + 1 + 1) done.length (done.length + pad) =
          grownCap (rows'.length + 1) (done.length + 1) (done.length + pad1 + 1) := by
        rw [hcap]; rfl
      simp only [List.length_append, List.length_cons, List.length_nil, List.map_cons,
        List.append_assoc, List.singleton_append, hstep]
      refine congrArg₂ _ rfl (congrArg₂ _ ?_ ?_)
      · show Iterator.mk _ _ _ = Iterator.mk _ _ _
        congr 1
        omega
      · have e1 : done.length + (0 + 1) + pad1 = done.length + pad1 + 1 := by omega
        have e2 : done.length + (0 + 1) + (rows'.length + 1) =
            done.length + (rows'.length + 1 + 1) := by omega
        rw [e1, e2]

/-! ## The map decoder on any object -/

theorem mapGet_setMapIndex {F : Type} (m : List (List Nat × Val F)) (k key : List Nat)
    (v : Val F) : mapGet (setMapIndex m k v) key = if k = key then some v else mapGet m key := by
  induction m with
  | nil => simp [setMapIndex, mapGet]
  | cons e m ih =>
    obtain ⟨k0, x⟩ := e
    by_cases h0 : k0 = k
    · subst h0
      simp only [setMapIndex, if_true, mapGet]
      split_ifs <;> rfl
    · simp only [setMapIndex, if_neg h0, mapGet, ih]
      by_cases h1 : k0 = key
      · have : k ≠ key := fun hh => h0 (h1.trans hh.symm)
        simp [h1, this]
      · simp [h1]

theorem mapGet_foldl {F : Type} (rows : List (JsonMember × Val F)) (key : List Nat) :
    ∀ m : List (List Nat × Val F),
      (∀ x, lastValue rows key = some x →
        mapGet (rows.foldl (fun m r => setMapIndex m (strValue r.1.key) r.2) m) key = some x) ∧
      (lastValue rows key = none →
        mapGet (rows.foldl (fun m r => setMapIndex m (strValue r.1.key) r.2) m) key =
          mapGet m key) := by
  induction rows with
  | nil =>
    intro m
    exact ⟨fun x hx => by simp [lastValue] at hx, fun _ => rfl⟩
  | cons r rows ih =>
    intro m
    obtain ⟨mem, x0⟩ := r
    obtain ⟨ih1, ih2⟩ := ih (setMapIndex m (strValue mem.key) x0)
    rw [List.foldl_cons]
    cases hl : lastValue rows key with
    | some y =>
      refine ⟨fun x hx => ?_, fun hn => by simp [lastValue, hl] at hn⟩
      simp only [lastValue, hl, Option.some.injEq] at hx
      subst hx
      exact ih1 y hl
    | none =>
      have h2 := ih2 hl
      rw [mapGet_setMapIndex] at h2
      by_cases hk : strValue mem.key = key
      · refine ⟨fun x hx => ?_, fun hn => by simp [lastValue, hl, hk] at hn⟩
        simp only [lastValue, hl, if_pos hk, Option.some.injEq] at hx
        subst hx
        rw [h2, if_pos hk]
      · refine ⟨fun x hx => by simp [lastValue, hl, hk] at hx, fun _ => ?_⟩
        rw [h2, if_neg hk]

/-- The loop of the map decoder on the members of an object of the JSON
grammar, each value decoded by the element decoder into a zero value. -/
theorem mapDecodeLoop_members {F : Type} (zero : Val F) (dec : DecoderFunc F)
    (rows : List (JsonMember × Val F)) :
    ∀ (it : Iterator) (ws0 tail : List Nat) (m : List (List Nat × Val F)) (fuel : Nat),
      it.WF → Json.membersValid (rows.map (fun r => r.1)) = true →
      (∀ c ∈ ws0, isWhiteSpace c = true) →
      (∀ r ∈ rows, DecodesAtWs dec r.1.value.text zero r.2) →
      it.rest = ws0 ++ (Json.membersText true (rows.map (fun r => r.1)) ++ 125 :: tail) →
      it.dataLen - it.head < fuel →
      mapDecodeLoop true zero dec fuel it m =
        (none, { it with head := it.head + ws0.length +
          (Json.membersText true (rows.map (fun r => r.1))).length + 1 },
          rows.foldl (fun m r => setMapIndex m (strValue r.1.key) r.2) m) := by
  induction rows with
  | nil =>
    intro it ws0 tail m fuel hwf _ hws0 _ h hf
    cases fuel with
    | zero => omega
    | succ fuel =>
      simp only [List.map_nil, Json.membersText, List.nil_append] at h
      have hwf1 : Iterator.WF { it with head := it.head + ws0.length } := hwf
      have hr1 := Iterator.rest_adv_append it ws0 _ h
      rw [mapDecodeLoop, Iterator.skipWhiteSpace_cons it hwf ws0 125 tail h hws0 (by decide)]
      simp only []
      rw [if_pos ((Iterator.peek_cons _ hwf1 hr1 125).mpr rfl)]
      simp [Json.membersText]
  | cons r rows ih =>
    intro it ws0 tail m fuel hwf hv hws0 hall h hf
    obtain ⟨⟨ws1, key, ws2, ws3, v, ws4⟩, x'⟩ := r
    cases fuel with
    | zero => omega
    | succ fuel =>
      simp only [List.map_cons, Json.membersValid, Json.memberValid, Bool.and_eq_true,
        all_iff_forall] at hv
      obtain ⟨⟨⟨⟨⟨⟨hws1, hkey⟩, hws2⟩, hws3⟩, hvv⟩, hws4⟩, hms⟩ := hv
      have hkey' : ∀ i ∈ key, i.valid = true := by simpa [List.all_eq_true] using hkey
      have hdec := hall _ (List.mem_cons_self _ _)
      simp only [JsonMember.value] at hdec
      have h' : it.rest = (ws0 ++ ws1) ++ 34 :: (strText key ++ 34 :: (ws2 ++ 58 ::
          (ws3 ++ (v.text ++ (ws4 ++ (Json.membersText false (rows.map (fun r => r.1)) ++
            125 :: tail)))))) := by
        rw [h]; simp [Json.membersText, Json.memberText]
      have hlen : (Json.membersText true
          ((((JsonMember.mk ws1 key ws2 ws3 v ws4), x') :: rows).map (fun r => r.1))).length =
          ws1.length + 1 + (strText key).length + 1 + ws2.length + 1 + ws3.length +
            v.text.length + ws4.length +
              (Json.membersText false (rows.map (fun r => r.1))).length := by
        simp [Json.membersText, Json.memberText]; omega
      have hhead : it.head < it.dataLen := by
        have := Iterator.rest_length it hwf
        rw [h'] at this
        simp only [List.length_append, List.length_cons] at this
        omega
      have hwf1 : Iterator.WF { it with head := it.head + (ws0 ++ ws1).length } := hwf
      have hr1 := Iterator.rest_adv_append it (ws0 ++ ws1) _ h'
      rw [mapDecodeLoop, Iterator.skipWhiteSpace_cons it hwf (ws0 ++ ws1) 34 _ h'
        (by intro c hc; rcases List.mem_append.mp hc with hc | hc
            · exact hws0 c hc
            · exact hws1 c hc) (by decide)]
      simp only []
      rw [if_neg (fun hh => absurd ((Iterator.peek_cons _ hwf1 hr1 125).mp hh) (by decide)),
        Iterator.ReadString_items _ hwf1 [] key _ hr1 (by simp) hkey']
      simp only [List.length_nil, Nat.add_zero]
      have hwf2 : Iterator.WF
          { it with head := it.head + (ws0 ++ ws1).length + 1 + (strText key).length + 1 } := hwf
      have hr2 : Iterator.rest
          { it with head := it.head + (ws0 ++ ws1).length + 1 + (strText key).length + 1 } =
          ws2 ++ 58 :: (ws3 ++ (v.text ++
            (ws4 ++ (Json.membersText false (rows.map (fun r => r.1)) ++ 125 :: tail)))) :=
        Iterator.rest_adv_cons _ 34 _ (Iterator.rest_adv_append _ (strText key) _
          (Iterator.rest_adv_cons _ 34 _ hr1))
      unfold Iterator.ReadColon
      rw [Iterator.readStructural_ok _ hwf2 58 _ ws2 _ hr2 hws2 (by decide)]
      simp only []
      have hwf3 : Iterator.WF
          { it with head := it.head + (ws0 ++ ws1).length + 1 + (strText key).length + 1 +
            ws2.length + 1 } := hwf
      have hr3 : Iterator.rest
          { it with head := it.head + (ws0 ++ ws1).length + 1 + (strText key).length + 1 +
            ws2.length + 1 } =
          ws3 ++ (v.text ++ (ws4 ++ (Json.membersText false (rows.map (fun r => r.1)) ++
            125 :: tail))) :=
        Iterator.rest_adv_cons _ 58 _ (Iterator.rest_adv_append _ ws2 _ hr2)
      rw [hdec _ ws3 _ hwf3 hr3 hws3 (Iterator.members_tail_delimited ws4 _ tail hws4)]
      simp only []
      rw [if_pos trivial]
      have hwf5 : Iterator.WF
          { it with head := it.head + (ws0 ++ ws1).length + 1 + (strText key).length + 1 +
            ws2.length + 1 + ws3.length + v.text.length } := hwf
      have hr5 := Iterator.rest_adv_append _ v.text _ (Iterator.rest_adv_append _ ws3 _ hr3)
      have hwf6 : Iterator.WF
          { it with head := it.head + (ws0 ++ ws1).length + 1 + (strText key).length + 1 +
            ws2.length + 1 + ws3.length + v.text.length + ws4.length } := hwf
      cases rows with
      | nil =>
        simp only [List.map_nil, Json.membersText, List.nil_append] at hr5
        have hr6 := Iterator.rest_adv_append _ ws4 _ hr5
        rw [Iterator.skipWhiteSpace_cons _ hwf5 ws4 125 tail hr5 hws4 (by decide)]
        simp only []
        rw [if_neg (fun hh => absurd ((Iterator.peek_cons _ hwf6 hr6 44).mp hh) (by decide)),
          if_pos ((Iterator.peek_cons _ hwf6 hr6 125).mpr rfl)]
        refine congrArg₂ _ rfl (congrArg₂ _ ?_ (by simp [JsonMember.key]))
        show Iterator.mk _ _ _ = Iterator.mk _ _ _
        congr 1
        rw [hlen]
        simp [Json.membersText]
        omega
      | cons r' rows' =>
        simp only [List.map_cons] at hr5 hlen hms
        rw [Iterator.membersText_cons_false] at hr5 hlen
        have hr6 := Iterator.rest_adv_append _ ws4 _ hr5
        have hwf7 : Iterator.WF
            { it with head := it.head + (ws0 ++ ws1).length + 1 + (strText key).length + 1 +
              ws2.length + 1 + ws3.length + v.text.length + ws4.length + 1 } := hwf
        have hr7 := Iterator.rest_adv_cons _ 44 _ hr6
        rw [Iterator.skipWhiteSpace_cons _ hwf5 ws4 44 _ hr5 hws4 (by decide)]
        simp only []
        rw [if_pos ((Iterator.peek_cons _ hwf6 hr6 44).mpr rfl),
          ih _ [] tail _ fuel hwf7 hms (by simp)
            (fun r hr => hall r (List.mem_cons_of_mem _ hr)) (by rw [hr7]; rfl)
            (by simp only []; omega)]
        refine congrArg₂ _ rfl (congrArg₂ _ ?_ (by simp [JsonMember.key]))
        show Iterator.mk _ _ _ = Iterator.mk _ _ _
        congr 1
        simp only [List.map_cons]
        rw [hlen]
        simp only [List.length_cons, List.length_append, List.length_nil]
        omega

theorem decodeInt64_decodesWs {F : Type} (neg : Bool) (digits : List Nat)
    (hd : JsonNumber.intValid digits = true) (old : Val F) :
    DecodesAtWs decodeInt64 (JsonNumber.signText neg ++ digits) old
      (.int (wrap64 (if neg then -(decVal digits) else decVal digits))) := by
  intro it ws tail hwf h hws ht
  have hlit := intLiteral_of_valid (JsonNumber.signText neg ++ digits ++ tail) neg digits tail
    rfl hd ht
  have hlit' : IntLiteral it.rest ws neg digits tail := by
    refine ⟨?_, hws, hlit.2.2.1, hlit.2.2.2⟩
    rw [h]
    simp [JsonNumber.signText]
  unfold decodeInt64
  rw [Iterator.ReadInt64_of_literal it hwf ws neg digits tail hlit']
  simp only []
  refine res3_congr it none _ _ _ ?_
  cases neg <;> (simp [JsonNumber.signText]; first | done | omega)

/-- Integer literals without sign as the elements of an array, with the values
`decodeInt64` reads from them. -/
theorem intRows_decode {F : Type} (ds : List (List Nat))
    (hds : ∀ d ∈ ds, JsonNumber.intValid d = true) (old : Val F) :
    ∀ r ∈ ds.map (fun d => ((JsonElem.mk [] (.number ⟨false, d, none, none⟩) [] : JsonElem),
        (Val.int (wrap64 (decVal d)) : Val F))),
      DecodesAt decodeInt64 r.1.value.text old r.2 := by
  intro r hr
  obtain ⟨d, hd, rfl⟩ := List.mem_map.mp hr
  have := decodeInt64_decodes false d (hds d hd) old
  simpa [JsonElem.value, Json.text, JsonNumber.text, JsonNumber.signText, JsonNumber.fracText,
    JsonNumber.expText] using this

/-! ## The tokenizer, read by read -/

theorem skipWhiteSpace_run (it : Iterator) (hwf : it.WF) :
    it.skipWhiteSpace = { it with head := it.head + it.wsRun } :=
  Iterator.skipWhiteSpace_eq it hwf

theorem skipWhiteSpace_significant (it : Iterator) (hwf : it.WF) :
    it.skipWhiteSpace.rest = it.significant :=
  Iterator.skipWhiteSpace_rest it hwf

theorem significant_head_not_ws (it : Iterator) (c : Nat) (r : List Nat)
    (h : it.significant = c :: r) : isWhiteSpace c = false :=
  dropWhile_head isWhiteSpace it.rest c r h

/-- The test of a literal at the cursor, on the bytes left. -/
theorem literal_iff (it : Iterator) (hwf : it.WF) (lit : List Nat) (k : Nat)
    (hk : lit.length = k) (hpos : 0 < k) :
    (it.head + k ≤ it.dataLen ∧ slice it.data it.head (it.head + k) = lit) ↔ lit <+: it.rest := by
  rw [Iterator.slice_rest]
  constructor
  · rintro ⟨_, h⟩
    rw [← h]
    exact List.take_prefix _ _
  · intro h
    have hlen := h.length_le
    rw [Iterator.rest_length it hwf, hk] at hlen
    refine ⟨by omega, ?_⟩
    rw [← hk]
    exact (List.prefix_iff_eq_take.mp h).symm

theorem peek_head (it : Iterator) (hwf : it.WF) (x : Nat) :
    (it.head < it.dataLen ∧ it.byteAt it.head = x) ↔ it.rest.head? = some x := by
  cases hr : it.rest with
  | nil =>
    simp only [List.head?_nil]
    constructor
    · intro h
      exact absurd h (Iterator.peek_nil it hwf hr _)
    · intro h
      cases h
  | cons c r =>
    rw [Iterator.peek_cons it hwf hr]
    simp

theorem readStructural_outcome (it : Iterator) (hwf : it.WF) (c : Nat) (msg : String) :
    StructuralOutcome it c (it.readStructural c msg) := by
  unfold StructuralOutcome Iterator.readStructural
  have hp := peek_head it.skipWhiteSpace hwf c
  rw [skipWhiteSpace_significant it hwf] at hp
  simp only []
  by_cases h : it.skipWhiteSpace.head < it.skipWhiteSpace.dataLen ∧
      it.skipWhiteSpace.byteAt it.skipWhiteSpace.head = c
  · rw [if_pos h]
    refine ⟨⟨fun _ => hp.mp h, fun _ => rfl⟩, fun _ => ?_, fun e he => (by cases he)⟩
    rw [skipWhiteSpace_run it hwf]
  · rw [if_neg h]
    refine ⟨⟨fun hh => (by cases hh), fun hh => absurd (hp.mpr hh) h⟩, fun hh => (by cases hh), ?_⟩
    intro e he
    simp only [Option.some.injEq] at he
    rw [skipWhiteSpace_run it hwf] at he ⊢
    exact ⟨rfl, msg, he.symm⟩

/-- `ReadBool` by cases on the bytes behind the whitespace. -/
theorem ReadBool_cases (it : Iterator) (hwf : it.WF) :
    ([116, 114, 117, 101] <+: it.significant →
      it.ReadBool = (.ok true, { it with head := it.head + it.wsRun + 4 })) ∧
    ([102, 97, 108, 115, 101] <+: it.significant →
      it.ReadBool = (.ok false, { it with head := it.head + it.wsRun + 5 })) ∧
    (¬ [116, 114, 117, 101] <+: it.significant → ¬ [102, 97, 108, 115, 101] <+: it.significant →
      ∃ msg, it.ReadBool =
        (.error (Error.at msg (it.head + it.wsRun)), { it with head := it.head + it.wsRun })) := by
  have hsk := skipWhiteSpace_run it hwf
  have hsig : Iterator.rest { it with head := it.head + it.wsRun } = it.significant := by
    rw [← hsk]; exact skipWhiteSpace_significant it hwf
  have hwf2 : Iterator.WF { it with head := it.head + it.wsRun } := hwf
  have hT := literal_iff _ hwf2 [116, 114, 117, 101] 4 rfl (by decide)
  have hF := literal_iff _ hwf2 [102, 97, 108, 115, 101] 5 rfl (by decide)
  rw [hsig] at hT hF
  unfold Iterator.ReadBool
  rw [hsk]
  simp only []
  cases hs : it.significant with
  | nil =>
    have hge : ¬ (it.head + it.wsRun < it.dataLen) := by
      intro hlt
      have := (Iterator.lt_iff_rest _ hwf2).mp hlt
      rw [hsig, hs] at this
      exact this rfl
    refine ⟨fun h => ?_, fun h => ?_, fun _ _ => ?_⟩
    · have := h.length_le
      simp at this
    · have := h.length_le
      simp at this
    · rw [if_pos (by simpa using hge)]
      exact ⟨_, rfl⟩
  | cons c r =>
    rw [hs] at hsig hT hF
    have hlt := Iterator.lt_of_rest_cons _ hwf2 hsig
    have hb := Iterator.byteAt_of_rest_cons _ hwf2 hsig
    simp only [] at hlt hb
    rw [if_neg (by simpa using hlt), hb]
    refine ⟨fun h => ?_, fun h => ?_, fun h1 h2 => ?_⟩
    · have hc : c = 116 := by
        obtain ⟨t, ht⟩ := h
        simp only [List.cons_append, List.cons.injEq] at ht
        exact ht.1.symm
      rw [if_pos hc, if_pos (hT.mpr h)]
    · have hc : c = 102 := by
        obtain ⟨t, ht⟩ := h
        simp only [List.cons_append, List.cons.injEq] at ht
        exact ht.1.symm
      rw [if_neg (by omega), if_pos hc, if_pos (hF.mpr h)]
    · by_cases hc : c = 116
      · rw [if_pos hc, if_neg (fun hh => h1 (hT.mp hh))]
        exact ⟨_, rfl⟩
      · rw [if_neg hc]
        by_cases hc2 : c = 102
        · rw [if_pos hc2, if_neg (fun hh => h2 (hF.mp hh))]
          exact ⟨_, rfl⟩
        · rw [if_neg hc2]
          exact ⟨_, rfl⟩

/-- `ReadFloat64` in one equation: the whitespace, the run of number bytes,
and the parser on the run. -/
theorem ReadFloat64_eq {F : Type} (parseFloat : List Nat → Option F) (it : Iterator)
    (hwf : it.WF) :
    it.ReadFloat64 parseFloat =
      (if it.numberRun = [] then .error (Error.at "expected digit" (it.head + it.wsRun))
        else match parseFloat it.numberRun with
          | some f => .ok f
          | none => .error (Error.num it.numberRun),
        { it with head := it.head + it.wsRun + it.numberRun.length }) := by
  have hsk := skipWhiteSpace_run it hwf
  have hsig : Iterator.rest { it with head := it.head + it.wsRun } = it.significant := by
    rw [← hsk]; exact skipWhiteSpace_significant it hwf
  have hwf2 : Iterator.WF { it with head := it.head + it.wsRun } := hwf
  have hloop := Iterator.readFloat64Loop_eq { it with head := it.head + it.wsRun } hwf2
    (it.dataLen - (it.head + it.wsRun)) (it.head + it.wsRun) (le_refl _)
  have hrun : ((it.data.drop (it.head + it.wsRun)).takeWhile isNumberByte) = it.numberRun := by
    unfold Iterator.numberRun
    rw [← hsig]
    rfl
  simp only [] at hloop
  rw [hrun] at hloop
  unfold Iterator.ReadFloat64
  rw [hsk]
  simp only []
  rw [hloop]
  by_cases hnil : it.numberRun = []
  · rw [if_pos hnil, if_pos (by rw [hnil]; rfl)]
    simp only [Iterator.error, hnil, List.length_nil, Nat.add_zero]
  · have hpos : 0 < it.numberRun.length := List.length_pos.mpr hnil
    rw [if_neg hnil, if_neg (by omega)]
    have hsl : slice it.data (it.head + it.wsRun) (it.head + it.wsRun + it.numberRun.length) =
        it.numberRun := by
      have := Iterator.slice_rest { it with head := it.head + it.wsRun } it.numberRun.length
      simp only [] at this
      rw [this, hsig]
      unfold Iterator.numberRun
      exact (List.prefix_iff_eq_take.mp (List.takeWhile_prefix _)).symm
    rw [hsl]
    cases parseFloat it.numberRun <;> rfl

/-! ## The cursor and the offsets of the errors -/

namespace Iterator

theorem Advances.refl (it : Iterator) (h : it.InBounds) : it.Advances it :=
  ⟨rfl, rfl, le_refl _, h.2⟩

theorem Advances.trans {a b c : Iterator} (h1 : a.Advances b) (h2 : b.Advances c) :
    a.Advances c :=
  ⟨h2.1.trans h1.1, h2.2.1.trans h1.2.1, le_trans h1.2.2.1 h2.2.2.1, by
    have := h2.2.2.2
    rw [h1.2.1] at this
    exact this⟩

theorem Advances.inBounds {a b : Iterator} (h : a.InBounds) (h1 : a.Advances b) : b.InBounds :=
  ⟨by rw [h1.2.1, h1.1]; exact h.1, by rw [h1.2.1]; exact h1.2.2.2⟩

theorem Advances.step (it : Iterator) (k : Nat) (h : it.head + k ≤ it.dataLen) :
    it.Advances { it with head := it.head + k } :=
  ⟨rfl, rfl, Nat.le_add_right _ _, h⟩

theorem InBounds.wf {it : Iterator} (h : it.InBounds) : it.WF := h.1

theorem wsRun_le (it : Iterator) (h : it.InBounds) : it.head + it.wsRun ≤ it.dataLen := by
  have h1 : it.wsRun ≤ it.rest.length := by
    unfold Iterator.wsRun
    exact (List.takeWhile_prefix _).length_le
  rw [Iterator.rest_length it h.1] at h1
  have := h.2
  omega

theorem skipWhiteSpace_advances (it : Iterator) (h : it.InBounds) :
    it.Advances it.skipWhiteSpace := by
  rw [skipWhiteSpace_run it h.1]
  exact Advances.step it _ (wsRun_le it h)

theorem readStructural_frame (it : Iterator) (h : it.InBounds) (c : Nat) (msg : String) :
    it.Advances (it.readStructural c msg).2 ∧
      ∀ e, (it.readStructural c msg).1 = some e → ErrorAt e (it.readStructural c msg).2 := by
  have hs := skipWhiteSpace_advances it h
  unfold Iterator.readStructural
  simp only []
  split_ifs with hc
  · refine ⟨hs.trans (Advances.step _ 1 hc.1), fun e he => by cases he⟩
  · refine ⟨hs, fun e he => ?_⟩
    simp only [Option.some.injEq] at he
    exact ⟨msg, he.symm⟩

theorem ReadNull_frame (it : Iterator) (h : it.InBounds) :
    it.Advances it.ReadNull.2 ∧ ∀ e, it.ReadNull.1 = some e → ErrorAt e it.ReadNull.2 := by
  have hs := skipWhiteSpace_advances it h
  unfold Iterator.ReadNull
  simp only []
  split_ifs with h1 h2 h3
  · exact ⟨hs, fun e he => ⟨_, (Option.some.inj he).symm⟩⟩
  · exfalso
    have := congrArg List.length h3.2
    rw [Iterator.slice_rest] at this
    simp only [List.length_take, List.length_cons, List.length_nil] at this
    omega
  · exact ⟨hs, fun e he => ⟨_, (Option.some.inj he).symm⟩⟩
  · exact ⟨hs, fun e he => ⟨_, (Option.some.inj he).symm⟩⟩

theorem ReadBool_frame (it : Iterator) (h : it.InBounds) :
    it.Advances it.ReadBool.2 ∧ ∀ e, it.ReadBool.1 = .error e → ErrorAt e it.ReadBool.2 := by
  have hs := skipWhiteSpace_advances it h
  unfold Iterator.ReadBool
  simp only []
  split_ifs with h1 h2 h3 h4 h5
  · exact ⟨hs, fun e he => ⟨_, (Except.error.inj he).symm⟩⟩
  · exact ⟨hs.trans (Advances.step _ 4 h3.1), fun e he => by cases he⟩
  · exact ⟨hs, fun e he => ⟨_, (Except.error.inj he).symm⟩⟩
  · exact ⟨hs.trans (Advances.step _ 5 h5.1), fun e he => by cases he⟩
  · exact ⟨hs, fun e he => ⟨_, (Except.error.inj he).symm⟩⟩
  · exact ⟨hs, fun e he => ⟨_, (Except.error.inj he).symm⟩⟩

theorem numberRun_le (it : Iterator) (h : it.InBounds) :
    it.head + it.wsRun + it.numberRun.length ≤ it.dataLen := by
  have h1 : it.rest.length = it.wsRun + it.significant.length := by
    unfold Iterator.wsRun Iterator.significant
    rw [← List.length_append, List.takeWhile_append_dropWhile]
  have h2 : it.numberRun.length ≤ it.significant.length :=
    (List.takeWhile_prefix _).length_le
  rw [Iterator.rest_length it h.1] at h1
  have := h.2
  omega

theorem ReadFloat64_frame {F : Type} (parseFloat : List Nat → Option F) (it : Iterator)
    (h : it.InBounds) :
    it.Advances (it.ReadFloat64 parseFloat).2 ∧
      ∀ e, (it.ReadFloat64 parseFloat).1 = .error e →
        ErrorAt e (it.ReadFloat64 parseFloat).2 ∨
          (e = Error.num it.numberRun ∧ it.numberRun ≠ [] ∧ parseFloat it.numberRun = none) := by
  rw [ReadFloat64_eq parseFloat it h.1]
  refine ⟨?_, ?_⟩
  · have := numberRun_le it h
    exact ⟨rfl, rfl, by simp only []; omega, this⟩
  · intro e he
    simp only [] at he
    by_cases hnil : it.numberRun = []
    · rw [if_pos hnil] at he
      left
      refine ⟨"expected digit", ?_⟩
      simp only [hnil, List.length_nil, Nat.add_zero]
      exact (Except.error.inj he).symm
    · rw [if_neg hnil] at he
      right
      cases hp : parseFloat it.numberRun with
      | none =>
        rw [hp] at he
        exact ⟨(Except.error.inj he).symm, hnil, rfl⟩
      | some f =>
        rw [hp] at he
        cases he

theorem readInt64Loop_bounds (it : Iterator) (fuel : Nat) :
    ∀ (head : Nat) (n : Int), head ≤ it.dataLen →
      head ≤ (it.readInt64Loop fuel head n).1 ∧ (it.readInt64Loop fuel head n).1 ≤ it.dataLen := by
  induction fuel with
  | zero => intro head n hh; exact ⟨le_refl _, hh⟩
  | succ fuel ih =>
    intro head n hh
    unfold Iterator.readInt64Loop
    by_cases h1 : head < it.dataLen
    · rw [if_pos h1]
      simp only []
      by_cases h2 : 48 ≤ it.data.getD head 0 ∧ it.data.getD head 0 ≤ 57
      · rw [if_pos h2]
        have := ih (head + 1) (wrap64 (n * 10 + ((it.data.getD head 0 : Nat) - 48))) (by omega)
        omega
      · rw [if_neg h2]
        exact ⟨le_refl _, hh⟩
    · rw [if_neg h1]
      exact ⟨le_refl _, hh⟩

theorem readInt64Sign_frame (it : Iterator) (h : it.InBounds) (hlt : it.head < it.dataLen) :
    it.Advances it.readInt64Sign.2 ∧ ∀ e, it.readInt64Sign.1 = .error e →
      ErrorAt e it.readInt64Sign.2 := by
  unfold Iterator.readInt64Sign
  split_ifs with h1 h2
  · exact ⟨Advances.step it 1 hlt, fun e he => by cases he⟩
  · exact ⟨Advances.refl it h, fun e he => ⟨_, (Except.error.inj he).symm⟩⟩
  · exact ⟨Advances.refl it h, fun e he => by cases he⟩

theorem readInt64Digits_frame (it : Iterator) (h : it.InBounds) :
    it.Advances it.readInt64Digits.2 ∧ ∀ e, it.readInt64Digits.1 = .error e →
      ErrorAt e it.readInt64Digits.2 := by
  unfold Iterator.readInt64Digits
  simp only []
  split_ifs with h1 h2
  · exact ⟨Advances.step it 1 h1.1, fun e he => ⟨_, (Except.error.inj he).symm⟩⟩
  · exact ⟨Advances.step it 1 h1.1, fun e he => by cases he⟩
  · have := readInt64Loop_bounds it (it.dataLen - it.head) it.head 0 h.2
    refine ⟨⟨rfl, rfl, this.1, this.2⟩, fun e he => by cases he⟩

theorem readInt64Finish_frame (it : Iterator) (h : it.InBounds) (start : Nat) (neg : Bool)
    (n : Int) :
    it.Advances (it.readInt64Finish start neg n).2 ∧
      ∀ e, (it.readInt64Finish start neg n).1 = .error e →
        ErrorAt e (it.readInt64Finish start neg n).2 := by
  unfold Iterator.readInt64Finish
  split_ifs with h1 h2 h3 <;>
    first
    | exact ⟨Advances.refl it h, fun e he => ⟨_, (Except.error.inj he).symm⟩⟩
    | exact ⟨Advances.refl it h, fun e he => (by cases he)⟩

theorem ReadInt64_frame (it : Iterator) (h : it.InBounds) :
    it.Advances it.ReadInt64.2 ∧ ∀ e, it.ReadInt64.1 = .error e → ErrorAt e it.ReadInt64.2 := by
  have hs := skipWhiteSpace_advances it h
  have hb := hs.inBounds h
  unfold Iterator.ReadInt64
  simp only []
  split_ifs with h1
  · exact ⟨hs, fun e he => ⟨_, (Except.error.inj he).symm⟩⟩
  · have hsign := readInt64Sign_frame it.skipWhiteSpace hb (by omega)
    cases hr : it.skipWhiteSpace.readInt64Sign with
    | mk res it1 =>
      rw [hr] at hsign
      cases res with
      | error e1 =>
        simp only []
        refine ⟨hs.trans hsign.1, ?_⟩
        intro e he
        have hee := Except.error.inj he
        subst hee
        exact hsign.2 e1 rfl
      | ok neg =>
        simp only []
        have hb1 := hsign.1.inBounds hb
        have hdig := readInt64Digits_frame it1 hb1
        cases hd : it1.readInt64Digits with
        | mk res2 it2 =>
          rw [hd] at hdig
          cases res2 with
          | error e2 =>
            simp only []
            refine ⟨(hs.trans hsign.1).trans hdig.1, ?_⟩
            exact hdig.2
          | ok n =>
            simp only []
            have hb2 := hdig.1.inBounds hb1
            have hfin := readInt64Finish_frame it2 hb2 it1.head neg n
            exact ⟨((hs.trans hsign.1).trans hdig.1).trans hfin.1, hfin.2⟩

theorem decodeUnicode_frame (it : Iterator) :
    (∀ e, it.decodeUnicode = .error e → ErrorAt e it) ∧
      (∀ r, it.decodeUnicode = .ok r → it.head + 5 ≤ it.data.length) := by
  unfold Iterator.decodeUnicode
  simp only []
  split_ifs with h1
  · exact ⟨fun e he => ⟨_, (Except.error.inj he).symm⟩, fun r hr => (by cases hr)⟩
  · cases it.decodeUnicodeLoop (it.head + 1) 4 0 0 with
    | none => exact ⟨fun e he => ⟨_, (Except.error.inj he).symm⟩, fun r hr => (by cases hr)⟩
    | some r => exact ⟨fun e he => (by cases he), fun r hr => (by omega)⟩

theorem readEscape_frame (it : Iterator) (h : it.InBounds) (hlt : it.head < it.data.length) :
    it.Advances it.readEscape.2 ∧ it.readEscape.2.head < it.data.length ∧
      ∀ e, it.readEscape.1 = .error e → ErrorAt e it.readEscape.2 := by
  unfold Iterator.readEscape
  simp only []
  split_ifs with h1 h2 h3 h4 h5 h6 h7 h8
  · exact ⟨Advances.refl it h, hlt, fun e he => (by cases he)⟩
  · exact ⟨Advances.refl it h, hlt, fun e he => (by cases he)⟩
  · exact ⟨Advances.refl it h, hlt, fun e he => (by cases he)⟩
  · exact ⟨Advances.refl it h, hlt, fun e he => (by cases he)⟩
  · exact ⟨Advances.refl it h, hlt, fun e he => (by cases he)⟩
  · exact ⟨Advances.refl it h, hlt, fun e he => (by cases he)⟩
  · exact ⟨Advances.refl it h, hlt, fun e he => ⟨_, (Except.error.inj he).symm⟩⟩
  · have hdu := decodeUnicode_frame it
    cases hd : it.decodeUnicode with
    | error e1 =>
      simp only []
      refine ⟨Advances.refl it h, hlt, fun e he => ?_⟩
      rw [← Except.error.inj he]
      exact hdu.1 e1 hd
    | ok r =>
      simp only []
      have := h.1
      exact ⟨Advances.step it 4 (by omega), by omega, fun e he => (by cases he)⟩
  · exact ⟨Advances.refl it h, hlt, fun e he => ⟨_, (Except.error.inj he).symm⟩⟩

theorem readStringSlowLoop_frame (fuel : Nat) :
    ∀ (it : Iterator) (out : List Nat), it.InBounds →
      it.Advances (readStringSlowLoop fuel it out).2 ∧
        ∀ e, (readStringSlowLoop fuel it out).1 = .error e →
          ErrorAt e (readStringSlowLoop fuel it out).2 := by
  induction fuel with
  | zero =>
    intro it out h
    exact ⟨Advances.refl it h, fun e he => ⟨_, (Except.error.inj he).symm⟩⟩
  | succ fuel ih =>
    intro it out h
    have hlen := h.1
    unfold Iterator.readStringSlowLoop
    by_cases h1 : it.head < it.data.length
    · rw [if_pos h1]
      simp only []
      by_cases h2 : it.byteAt it.head = 34
      · rw [if_pos h2]
        exact ⟨Advances.step it 1 (by omega), fun e he => by cases he⟩
      · rw [if_neg h2]
        have hstep : it.Advances { it with head := it.head + 1 } :=
          Advances.step it 1 (by omega)
        have hb1 := hstep.inBounds h
        by_cases h3 : it.byteAt it.head = 92
        · rw [if_pos h3]
          by_cases h4 : it.head + 1 ≥ it.data.length
          · rw [if_pos h4]
            exact ⟨hstep, fun e he => ⟨_, (Except.error.inj he).symm⟩⟩
          · rw [if_neg h4]
            have hre := readEscape_frame { it with head := it.head + 1 } hb1
              (by simp only []; omega)
            cases hr : Iterator.readEscape { it with head := it.head + 1 } with
            | mk res it2 =>
              rw [hr] at hre
              cases res with
              | error e1 =>
                simp only []
                exact ⟨hstep.trans hre.1, hre.2.2⟩
              | ok bs =>
                simp only [] at hre ⊢
                have hb2 := hre.1.inBounds hb1
                have hlt2 := hre.2.1
                have hstep2 : it2.Advances { it2 with head := it2.head + 1 } :=
                  Advances.step it2 1 (by
                    have e1 : it2.data = it.data := hre.1.1
                    have e2 := hb2.1
                    rw [e1] at e2
                    omega)
                have := ih { it2 with head := it2.head + 1 } (out ++ bs) (hstep2.inBounds hb2)
                exact ⟨((hstep.trans hre.1).trans hstep2).trans this.1, this.2⟩
        · rw [if_neg h3]
          by_cases h5 : it.byteAt it.head < 32
          · rw [if_pos h5]
            exact ⟨Advances.refl it h, fun e he => ⟨_, (Except.error.inj he).symm⟩⟩
          · rw [if_neg h5]
            have := ih { it with head := it.head + 1 } (out ++ [it.byteAt it.head]) hb1
            exact ⟨hstep.trans this.1, this.2⟩
    · rw [if_neg h1]
      exact ⟨Advances.refl it h, fun e he => ⟨_, (Except.error.inj he).symm⟩⟩

theorem readStringLoop_frame (start : Nat) (fuel : Nat) :
    ∀ (it : Iterator), it.InBounds →
      it.Advances (readStringLoop start fuel it).2 ∧
        ∀ e, (readStringLoop start fuel it).1 = .error e →
          ErrorAt e (readStringLoop start fuel it).2 := by
  induction fuel with
  | zero =>
    intro it h
    exact ⟨Advances.refl it h, fun e he => ⟨_, (Except.error.inj he).symm⟩⟩
  | succ fuel ih =>
    intro it h
    unfold Iterator.readStringLoop
    by_cases h1 : it.head < it.dataLen
    · rw [if_pos h1]
      simp only []
      have hstep : it.Advances { it with head := it.head + 1 } :=
        Advances.step it 1 (by omega)
      have hrec := ih { it with head := it.head + 1 } (hstep.inBounds h)
      by_cases h0 : stringTable (it.byteAt it.head) ≠ 0
      · rw [if_pos h0]
        by_cases h2 : it.byteAt it.head = 34
        · rw [if_pos h2]
          exact ⟨hstep, fun e he => by cases he⟩
        · rw [if_neg h2]
          by_cases h3 : it.byteAt it.head = 92
          · rw [if_pos h3]
            exact readStringSlowLoop_frame _ it _ h
          · rw [if_neg h3]
            by_cases h5 : it.byteAt it.head < 32
            · rw [if_pos h5]
              exact ⟨Advances.refl it h, fun e he => ⟨_, (Except.error.inj he).symm⟩⟩
            · rw [if_neg h5]
              exact ⟨hstep.trans hrec.1, hrec.2⟩
      · rw [if_neg h0]
        exact ⟨hstep.trans hrec.1, hrec.2⟩
    · rw [if_neg h1]
      exact ⟨Advances.refl it h, fun e he => ⟨_, (Except.error.inj he).symm⟩⟩

theorem ReadString_frame (it : Iterator) (h : it.InBounds) :
    it.Advances it.ReadString.2 ∧ ∀ e, it.ReadString.1 = .error e → ErrorAt e it.ReadString.2 := by
  have hs := skipWhiteSpace_advances it h
  have hb := hs.inBounds h
  unfold Iterator.ReadString
  simp only []
  by_cases h1 : it.skipWhiteSpace.head ≥ it.skipWhiteSpace.dataLen
  · rw [if_pos h1]
    exact ⟨hs, fun e he => ⟨_, (Except.error.inj he).symm⟩⟩
  · rw [if_neg h1]
    by_cases h2 : it.skipWhiteSpace.byteAt it.skipWhiteSpace.head ≠ 34
    · rw [if_pos h2]
      exact ⟨hs, fun e he => ⟨_, (Except.error.inj he).symm⟩⟩
    · rw [if_neg h2]
      have hstep : it.skipWhiteSpace.Advances
          { it.skipWhiteSpace with head := it.skipWhiteSpace.head + 1 } :=
        Advances.step _ 1 (by omega)
      have := readStringLoop_frame (it.skipWhiteSpace.head + 1)
        (it.skipWhiteSpace.dataLen - (it.skipWhiteSpace.head + 1))
        { it.skipWhiteSpace with head := it.skipWhiteSpace.head + 1 } (hstep.inBounds hb)
      exact ⟨(hs.trans hstep).trans this.1, this.2⟩

end Iterator

/-! ## Destinations on error -/

theorem decodeString_keeps {F : Type} (it : Iterator) (p : Val F) (e : Error)
    (h : (decodeString it p).1 = some e) : (decodeString it p).2.2 = p := by
  unfold decodeString at h ⊢
  cases hr : it.ReadString with
  | mk res it1 =>
    rw [hr] at h
    cases res with
    | error err => rfl
    | ok s => cases h

theorem decodeInt64_keeps {F : Type} (it : Iterator) (p : Val F) (e : Error)
    (h : (decodeInt64 it p).1 = some e) : (decodeInt64 it p).2.2 = p := by
  unfold decodeInt64 at h ⊢
  cases hr : it.ReadInt64 with
  | mk res it1 =>
    rw [hr] at h
    cases res with
    | error err => rfl
    | ok s => cases h

theorem decodeInt32_keeps {F : Type} (it : Iterator) (p : Val F) (e : Error)
    (h : (decodeInt32 it p).1 = some e) : (decodeInt32 it p).2.2 = p := by
  unfold decodeInt32 at h ⊢
  cases hr : it.ReadInt64 with
  | mk res it1 =>
    rw [hr] at h
    cases res with
    | error err => rfl
    | ok s => cases h

theorem decodeFloat64_keeps {F : Type} (fl : FloatLib F) (it : Iterator) (p : Val F) (e : Error)
    (h : (decodeFloat64 fl it p).1 = some e) : (decodeFloat64 fl it p).2.2 = p := by
  unfold decodeFloat64 at h ⊢
  cases hr : it.ReadFloat64 fl.ParseFloat with
  | mk res it1 =>
    rw [hr] at h
    cases res with
    | error err => rfl
    | ok s => cases h

theorem decodeBool_keeps {F : Type} (it : Iterator) (p : Val F) (e : Error)
    (h : (decodeBool it p).1 = some e) : (decodeBool it p).2.2 = p := by
  unfold decodeBool at h ⊢
  cases hr : it.ReadBool with
  | mk res it1 =>
    rw [hr] at h
    cases res with
    | error err => rfl
    | ok s => cases h

theorem decodeInterface_keeps {F : Type} (fl : FloatLib F) (it : Iterator) (p : Val F)
    (e : Error) (h : (decodeInterface fl it p).1 = some e) :
    (decodeInterface fl it p).2.2 = p := by
  unfold decodeInterface at h ⊢
  cases hr : readValue fl it with
  | mk res it1 =>
    rw [hr] at h
    cases res with
    | error err => rfl
    | ok s => cases h

/-! ## Bytes behind the value read -/

namespace Iterator

theorem extend_inBounds (it : Iterator) (t : List Nat) (h : it.InBounds) :
    (it.extend t).InBounds := by
  refine ⟨?_, ?_⟩
  · show it.dataLen + t.length = (it.data ++ t).length
    rw [List.length_append, h.1]
  · show it.head ≤ it.dataLen + t.length
    have := h.2
    omega

theorem extend_adv (it : Iterator) (t : List Nat) (k : Nat) :
    ({ it.extend t with head := k } : Iterator) = Iterator.extend { it with head := k } t := rfl

theorem extend_byteAt (it : Iterator) (t : List Nat) (i : Nat) (h : it.InBounds)
    (hi : i < it.dataLen) : (it.extend t).byteAt i = it.byteAt i := by
  have : i < it.data.length := by rw [← h.1]; exact hi
  show (it.data ++ t).getD i 0 = it.data.getD i 0
  rw [List.getD_eq_getElem?_getD, List.getD_eq_getElem?_getD, List.getElem?_append_left this]

theorem extend_byteAt_adv (it : Iterator) (t : List Nat) (k i : Nat) (h : it.InBounds)
    (hi : i < it.dataLen) :
    Iterator.byteAt (Iterator.extend { it with head := k } t) i = it.byteAt i :=
  extend_byteAt it t i h hi

theorem extend_rest (it : Iterator) (t : List Nat) (h : it.InBounds) :
    (it.extend t).rest = it.rest ++ t := by
  show (it.data ++ t).drop it.head = it.data.drop it.head ++ t
  rw [List.drop_append_of_le_length]
  rw [← h.1]
  exact h.2

theorem takeWhile_append_of_stop (p : Nat → Bool) (l t : List Nat) (h : l.dropWhile p ≠ []) :
    (l ++ t).takeWhile p = l.takeWhile p ∧ (l ++ t).dropWhile p = l.dropWhile p ++ t := by
  induction l with
  | nil => exact absurd rfl h
  | cons c l ih =>
    by_cases hc : p c = true
    · have h' : l.dropWhile p ≠ [] := by
        simpa [List.dropWhile_cons, hc] using h
      have := ih h'
      simp [List.takeWhile_cons, List.dropWhile_cons, hc, this.1, this.2]
    · simp [List.takeWhile_cons, List.dropWhile_cons, hc]

theorem significant_ne_nil (it : Iterator) (h : it.InBounds)
    (hlt : it.head + it.wsRun < it.dataLen) : it.significant ≠ [] := by
  intro hnil
  have h1 : it.rest.length = it.wsRun + it.significant.length := by
    unfold Iterator.wsRun Iterator.significant
    rw [← List.length_append, List.takeWhile_append_dropWhile]
  rw [hnil, Iterator.rest_length it h.1] at h1
  simp only [List.length_nil] at h1
  omega

theorem extend_wsRun (it : Iterator) (t : List Nat) (h : it.InBounds)
    (hlt : it.head + it.wsRun < it.dataLen) :
    (it.extend t).wsRun = it.wsRun ∧ (it.extend t).significant = it.significant ++ t := by
  have hne := significant_ne_nil it h hlt
  have := takeWhile_append_of_stop isWhiteSpace it.rest t hne
  unfold Iterator.wsRun Iterator.significant
  rw [extend_rest it t h, this.1, this.2]
  exact ⟨rfl, rfl⟩

theorem skipWhiteSpace_extend (it : Iterator) (t : List Nat) (h : it.InBounds)
    (hlt : it.skipWhiteSpace.head < it.dataLen) :
    (it.extend t).skipWhiteSpace = it.skipWhiteSpace.extend t := by
  rw [skipWhiteSpace_run it h.1] at hlt ⊢
  rw [skipWhiteSpace_run _ (extend_inBounds it t h).1, (extend_wsRun it t h hlt).1]
  rfl

theorem readStructural_extend (it it' : Iterator) (t : List Nat) (c : Nat) (msg : String)
    (h : it.InBounds) (hr : it.readStructural c msg = (none, it')) :
    (it.extend t).readStructural c msg = (none, it'.extend t) := by
  have hs := skipWhiteSpace_advances it h
  unfold Iterator.readStructural at hr ⊢
  simp only [] at hr ⊢
  by_cases hc : it.skipWhiteSpace.head < it.skipWhiteSpace.dataLen ∧
      it.skipWhiteSpace.byteAt it.skipWhiteSpace.head = c
  · rw [if_pos hc] at hr
    have hlt : it.skipWhiteSpace.head < it.dataLen := by rw [← hs.2.1]; exact hc.1
    rw [skipWhiteSpace_extend it t h hlt]
    have hb := extend_byteAt it.skipWhiteSpace t it.skipWhiteSpace.head (hs.inBounds h) hc.1
    rw [if_pos ⟨by show it.skipWhiteSpace.head < it.skipWhiteSpace.dataLen + t.length; omega,
      hb.trans hc.2⟩]
    simp only [Prod.mk.injEq, true_and] at hr
    rw [← hr]
    rfl
  · rw [if_neg hc] at hr
    cases hr

theorem readStructural_ok_lt (it it' : Iterator) (c : Nat) (msg : String)
    (h : it.InBounds) (hr : it.readStructural c msg = (none, it')) :
    it.Advances it' ∧ it.skipWhiteSpace.head < it.dataLen ∧ it.head < it'.head := by
  have hs := skipWhiteSpace_advances it h
  have hf := (readStructural_frame it h c msg).1
  rw [hr] at hf
  refine ⟨hf, ?_⟩
  unfold Iterator.readStructural at hr
  simp only [] at hr
  by_cases hc : it.skipWhiteSpace.head < it.skipWhiteSpace.dataLen ∧
      it.skipWhiteSpace.byteAt it.skipWhiteSpace.head = c
  · rw [if_pos hc] at hr
    simp only [Prod.mk.injEq, true_and] at hr
    rw [← hr]
    refine ⟨by rw [← hs.2.1]; exact hc.1, ?_⟩
    have := hs.2.2.1
    show it.head < it.skipWhiteSpace.head + 1
    omega
  · rw [if_neg hc] at hr
    cases hr

theorem rest_split (it : Iterator) :
    it.rest = it.rest.takeWhile isWhiteSpace ++ it.significant := by
  unfold Iterator.significant
  rw [List.takeWhile_append_dropWhile]

theorem ReadString_extend (it it' : Iterator) (t s : List Nat) (h : it.InBounds)
    (hr : it.ReadString = (.ok s, it')) :
    (it.extend t).ReadString = (.ok s, it'.extend t) := by
  have hwf := h.1
  by_cases hq : ∃ body, it.significant = 34 :: body
  · obtain ⟨body, hbody⟩ := hq
    rcases string_body_cases body.length body (le_refl _) with ⟨items, tail, hb, hv⟩ | hbad
    · have hrest : it.rest = it.rest.takeWhile isWhiteSpace ++
          34 :: (strText items ++ 34 :: tail) := by
        conv_lhs => rw [rest_split it, hbody, hb]
      have h1 := ReadString_items it hwf _ items tail hrest (takeWhile_all _ _) hv
      rw [hr] at h1
      simp only [Prod.mk.injEq, Except.ok.injEq] at h1
      have hrest2 : (it.extend t).rest = it.rest.takeWhile isWhiteSpace ++
          34 :: (strText items ++ 34 :: (tail ++ t)) := by
        rw [extend_rest it t h]
        conv_lhs => rw [hrest]
        simp
      have h2 := ReadString_items (it.extend t) (extend_inBounds it t h).1 _ items (tail ++ t)
        hrest2 (takeWhile_all _ _) hv
      rw [h2, h1.1, h1.2]
      rfl
    · obtain ⟨e, it2, he⟩ := ReadString_bad it hwf (Or.inr ⟨body, hbody, hbad⟩)
      rw [hr] at he
      cases he
  · obtain ⟨e, it2, he⟩ := ReadString_bad it hwf (Or.inl (fun r hh => hq ⟨r, hh⟩))
    rw [hr] at he
    cases he

theorem ReadInt64_extend (it it' : Iterator) (t : List Nat) (n : Int) (h : it.InBounds)
    (hr : it.ReadInt64 = (.ok n, it')) (hlt : it'.head < it.dataLen) :
    (it.extend t).ReadInt64 = (.ok n, it'.extend t) := by
  have hwf := h.1
  obtain ⟨ws, neg, digits, rest, hlit⟩ := ReadInt64_ok_literal it hwf n it' hr
  have h1 := ReadInt64_of_literal it hwf ws neg digits rest hlit
  rw [hr] at h1
  simp only [Prod.mk.injEq, Except.ok.injEq] at h1
  obtain ⟨hinput, hws, hdig, hnext⟩ := hlit
  have hlen := Iterator.rest_length it hwf
  rw [hinput] at hlen
  simp only [List.length_append] at hlen
  have hsign : (if neg then [45] else ([] : List Nat)).length = (if neg then 1 else 0) := by
    cases neg <;> rfl
  rw [hsign] at hlen
  rw [h1.2] at hlt
  simp only [] at hlt
  have hne : rest ≠ [] := by
    intro hnil
    rw [hnil] at hlen
    simp only [List.length_nil] at hlen
    omega
  obtain ⟨c0, r0, hc0⟩ := List.exists_cons_of_ne_nil hne
  have hlit2 : IntLiteral (it.extend t).rest ws neg digits (rest ++ t) := by
    refine ⟨?_, hws, hdig, ?_⟩
    · rw [extend_rest it t h, hinput]
      simp
    · intro c rest' hh
      rw [hc0] at hh
      simp only [List.cons_append, List.cons.injEq] at hh
      exact hnext c r0 (by rw [hc0, hh.1])
  have h2 := ReadInt64_of_literal (it.extend t) (extend_inBounds it t h).1 ws neg digits
    (rest ++ t) hlit2
  rw [h2, h1.1, h1.2]
  rfl

theorem extend_numberRun (it : Iterator) (t : List Nat) (h : it.InBounds)
    (hlt : it.head + it.wsRun + it.numberRun.length < it.dataLen) :
    (it.extend t).wsRun = it.wsRun ∧ (it.extend t).numberRun = it.numberRun := by
  have hw := extend_wsRun it t h (by omega)
  refine ⟨hw.1, ?_⟩
  have h1 : it.rest.length = it.wsRun + it.significant.length := by
    unfold Iterator.wsRun Iterator.significant
    rw [← List.length_append, List.takeWhile_append_dropWhile]
  rw [Iterator.rest_length it h.1] at h1
  have h2 : it.significant.length =
      it.numberRun.length + (it.significant.dropWhile isNumberByte).length := by
    unfold Iterator.numberRun
    rw [← List.length_append, List.takeWhile_append_dropWhile]
  have hne : it.significant.dropWhile isNumberByte ≠ [] := by
    intro hnil
    rw [hnil] at h2
    simp only [List.length_nil] at h2
    omega
  unfold Iterator.numberRun
  rw [hw.2, (takeWhile_append_of_stop isNumberByte it.significant t hne).1]

theorem ReadFloat64_extend {F : Type} (parseFloat : List Nat → Option F) (it it' : Iterator)
    (t : List Nat) (f : F) (h : it.InBounds)
    (hr : it.ReadFloat64 parseFloat = (.ok f, it')) (hlt : it'.head < it.dataLen) :
    (it.extend t).ReadFloat64 parseFloat = (.ok f, it'.extend t) := by
  have h1 := ReadFloat64_eq parseFloat it h.1
  rw [hr] at h1
  simp only [Prod.mk.injEq] at h1
  rw [h1.2] at hlt
  simp only [] at hlt
  have he := extend_numberRun it t h hlt
  rw [ReadFloat64_eq parseFloat (it.extend t) (extend_inBounds it t h).1, he.1, he.2]
  refine congrArg₂ Prod.mk ?_ ?_
  · exact h1.1.symm
  · rw [h1.2]
    rfl

theorem ReadBool_extend (it it' : Iterator) (t : List Nat) (b : Bool) (h : it.InBounds)
    (hr : it.ReadBool = (.ok b, it')) :
    (it.extend t).ReadBool = (.ok b, it'.extend t) := by
  obtain ⟨hT, hF, hE⟩ := ReadBool_cases it h.1
  have key : ∀ lit : List Nat, lit ≠ [] → lit <+: it.significant →
      (it.extend t).wsRun = it.wsRun ∧ lit <+: (it.extend t).significant := by
    intro lit hne hp
    have hsne : it.significant ≠ [] := by
      intro hnil
      rw [hnil] at hp
      exact hne (List.prefix_nil.mp hp)
    have hlt : it.head + it.wsRun < it.dataLen := by
      by_contra hge
      have hsk := skipWhiteSpace_run it h.1
      have hsig := skipWhiteSpace_significant it h.1
      rw [hsk] at hsig
      have hwf2 : Iterator.WF { it with head := it.head + it.wsRun } := h.1
      exact hsne (by rw [← hsig]; exact Iterator.rest_nil_of_ge _ hwf2 (by simp only []; omega))
    have hw := extend_wsRun it t h hlt
    exact ⟨hw.1, by rw [hw.2]; exact hp.trans (List.prefix_append _ _)⟩
  obtain ⟨hT2, hF2, _⟩ := ReadBool_cases (it.extend t) (extend_inBounds it t h).1
  by_cases h1 : [116, 114, 117, 101] <+: it.significant
  · have k := key _ (by decide) h1
    rw [hT h1] at hr
    simp only [Prod.mk.injEq, Except.ok.injEq] at hr
    rw [hT2 k.2, k.1, ← hr.1, ← hr.2]
    rfl
  · by_cases h2 : [102, 97, 108, 115, 101] <+: it.significant
    · have k := key _ (by decide) h2
      rw [hF h2] at hr
      simp only [Prod.mk.injEq, Except.ok.injEq] at hr
      rw [hF2 k.2, k.1, ← hr.1, ← hr.2]
      rfl
    · obtain ⟨msg, hm⟩ := hE h1 h2
      rw [hm] at hr
      cases hr

theorem ReadNull_fails (it : Iterator) : it.ReadNull.1 ≠ none := by
  unfold Iterator.ReadNull
  simp only []
  split_ifs with h1 h2 h3
  · exact fun hh => by cases hh
  · exfalso
    have := congrArg List.length h3.2
    rw [Iterator.slice_rest] at this
    simp only [List.length_take, List.length_cons, List.length_nil] at this
    omega
  · exact fun hh => by cases hh
  · exact fun hh => by cases hh

end Iterator

/-! ## The value-skip model on a longer buffer -/

namespace Iterator

theorem extend_head (it : Iterator) (t : List Nat) : (it.extend t).head = it.head := rfl

theorem extend_dataLen (it : Iterator) (t : List Nat) :
    (it.extend t).dataLen = it.dataLen + t.length := rfl

theorem extend_step (it : Iterator) (t : List Nat) (k : Nat) :
    ({ it.extend t with head := (it.extend t).head + k } : Iterator) =
      Iterator.extend { it with head := it.head + k } t := rfl

theorem extend_lt (it : Iterator) (t : List Nat) (hlt : it.head < it.dataLen) :
    it.head < it.dataLen + t.length := by omega

theorem extend_byteAt_head (it : Iterator) (t : List Nat) (h : it.InBounds)
    (hlt : it.head < it.dataLen) : (it.extend t).byteAt it.head = it.byteAt it.head :=
  extend_byteAt it t it.head h hlt

theorem skipDigits_eq (it : Iterator) (hwf : it.WF) :
    it.skipDigits = { it with head := it.head + (it.rest.takeWhile isDigit).length } := by
  unfold Iterator.skipDigits
  rw [Iterator.skipDigitsLoop_eq it hwf _ _ (le_refl _)]
  rfl

theorem takeWhile_length_le (p : Nat → Bool) (it : Iterator) (h : it.InBounds) :
    it.head + (it.rest.takeWhile p).length ≤ it.dataLen := by
  have h1 : (it.rest.takeWhile p).length ≤ it.rest.length := (List.takeWhile_prefix _).length_le
  rw [Iterator.rest_length it h.1] at h1
  have := h.2
  omega

theorem takeWhile_extend (p : Nat → Bool) (it : Iterator) (t : List Nat) (h : it.InBounds)
    (hlt : it.head + (it.rest.takeWhile p).length < it.dataLen) :
    (it.extend t).rest.takeWhile p = it.rest.takeWhile p := by
  have h2 : it.rest.length = (it.rest.takeWhile p).length + (it.rest.dropWhile p).length := by
    rw [← List.length_append, List.takeWhile_append_dropWhile]
  rw [Iterator.rest_length it h.1] at h2
  have hne : it.rest.dropWhile p ≠ [] := by
    intro hnil
    rw [hnil] at h2
    simp only [List.length_nil] at h2
    omega
  rw [extend_rest it t h, (takeWhile_append_of_stop p it.rest t hne).1]

theorem skipDigits_advances (it : Iterator) (h : it.InBounds) : it.Advances it.skipDigits := by
  rw [skipDigits_eq it h.1]
  exact Advances.step it _ (takeWhile_length_le isDigit it h)

theorem skipDigits_extend (it : Iterator) (t : List Nat) (h : it.InBounds)
    (hlt : it.skipDigits.head < it.dataLen) :
    (it.extend t).skipDigits = it.skipDigits.extend t := by
  rw [skipDigits_eq it h.1] at hlt ⊢
  rw [skipDigits_eq _ (extend_inBounds it t h).1, takeWhile_extend isDigit it t h hlt]
  rfl

theorem skipSign_advances (it : Iterator) (h : it.InBounds) : it.Advances it.skipSign := by
  unfold Iterator.skipSign
  split_ifs with h1
  · exact Advances.step it 1 h1.1
  · exact Advances.refl it h

theorem skipSign_extend (it : Iterator) (t : List Nat) (h : it.InBounds)
    (hlt : it.head < it.dataLen) : (it.extend t).skipSign = it.skipSign.extend t := by
  unfold Iterator.skipSign
  simp only [extend_head, extend_dataLen, extend_byteAt_head it t h hlt, hlt,
    extend_lt it t hlt, true_and]
  split_ifs <;> rfl

theorem skipExpSign_advances (it : Iterator) (h : it.InBounds) :
    it.Advances it.skipExpSign := by
  unfold Iterator.skipExpSign
  split_ifs with h1
  · exact Advances.step it 1 h1.1
  · exact Advances.refl it h

theorem skipExpSign_extend (it : Iterator) (t : List Nat) (h : it.InBounds)
    (hlt : it.head < it.dataLen) : (it.extend t).skipExpSign = it.skipExpSign.extend t := by
  unfold Iterator.skipExpSign
  simp only [extend_head, extend_dataLen, extend_byteAt_head it t h hlt, hlt,
    extend_lt it t hlt, true_and]
  split_ifs <;> rfl

theorem skipInt_stable (it it1 : Iterator) (h : it.InBounds) (hr : it.skipInt = some it1) :
    it.Advances it1 ∧ ∀ t : List Nat, it1.head < it.dataLen →
      (it.extend t).skipInt = some (it1.extend t) := by
  have hd := skipDigits_advances it h
  unfold Iterator.skipInt at hr
  by_cases h1 : it.head < it.dataLen ∧ it.byteAt it.head = 48
  · rw [if_pos h1] at hr
    simp only [Option.some.injEq] at hr
    subst hr
    refine ⟨Advances.step it 1 h1.1, fun t _ => ?_⟩
    unfold Iterator.skipInt
    rw [if_pos ⟨extend_lt it t h1.1, (extend_byteAt_head it t h h1.1).trans h1.2⟩]
    rfl
  · rw [if_neg h1] at hr
    by_cases h2 : it.skipDigits.head = it.head
    · rw [if_pos h2] at hr
      cases hr
    · rw [if_neg h2] at hr
      simp only [Option.some.injEq] at hr
      subst hr
      refine ⟨hd, fun t hlt => ?_⟩
      have hlt0 : it.head < it.dataLen := lt_of_le_of_lt hd.2.2.1 hlt
      have he := skipDigits_extend it t h hlt
      unfold Iterator.skipInt
      rw [if_neg (by
        rintro ⟨_, hb⟩
        exact h1 ⟨hlt0, (extend_byteAt_head it t h hlt0).symm.trans hb⟩), he,
        if_neg (by exact h2)]

theorem skipFrac_stable (it it1 : Iterator) (h : it.InBounds) (hr : it.skipFrac = some it1) :
    it.Advances it1 ∧ ∀ t : List Nat, it1.head < it.dataLen →
      (it.extend t).skipFrac = some (it1.extend t) := by
  unfold Iterator.skipFrac at hr
  by_cases h1 : it.head < it.dataLen ∧ it.byteAt it.head = 46
  · rw [if_pos h1] at hr
    simp only [] at hr
    have hstep : it.Advances { it with head := it.head + 1 } := Advances.step it 1 h1.1
    have hb1 := hstep.inBounds h
    have hd := skipDigits_advances _ hb1
    by_cases h2 : Iterator.head (Iterator.skipDigits { it with head := it.head + 1 }) = it.head + 1
    · rw [if_pos h2] at hr
      cases hr
    · rw [if_neg h2] at hr
      simp only [Option.some.injEq] at hr
      subst hr
      refine ⟨hstep.trans hd, fun t hlt => ?_⟩
      have he := skipDigits_extend { it with head := it.head + 1 } t hb1 hlt
      unfold Iterator.skipFrac
      rw [if_pos ⟨extend_lt it t h1.1, (extend_byteAt_head it t h h1.1).trans h1.2⟩]
      simp only [extend_step, he]
      split_ifs with hx
      · exact absurd hx h2
      · rfl
  · rw [if_neg h1] at hr
    simp only [Option.some.injEq] at hr
    subst hr
    refine ⟨Advances.refl it h, fun t hlt => ?_⟩
    unfold Iterator.skipFrac
    rw [if_neg (by
      rintro ⟨_, hb⟩
      exact h1 ⟨hlt, (extend_byteAt_head it t h hlt).symm.trans hb⟩)]

theorem skipExp_stable (it it1 : Iterator) (h : it.InBounds) (hr : it.skipExp = some it1) :
    it.Advances it1 ∧ ∀ t : List Nat, it1.head < it.dataLen →
      (it.extend t).skipExp = some (it1.extend t) := by
  unfold Iterator.skipExp at hr
  by_cases h1 : it.head < it.dataLen ∧ (it.byteAt it.head = 101 ∨ it.byteAt it.head = 69)
  · rw [if_pos h1] at hr
    simp only [] at hr
    have hstep : it.Advances { it with head := it.head + 1 } := Advances.step it 1 h1.1
    have hb1 := hstep.inBounds h
    have hs := skipExpSign_advances _ hb1
    have hb2 := hs.inBounds hb1
    have hd := skipDigits_advances _ hb2
    by_cases h2 : Iterator.head (Iterator.skipDigits
        (Iterator.skipExpSign { it with head := it.head + 1 })) =
        Iterator.head (Iterator.skipExpSign { it with head := it.head + 1 })
    · rw [if_pos h2] at hr
      cases hr
    · rw [if_neg h2] at hr
      simp only [Option.some.injEq] at hr
      subst hr
      refine ⟨(hstep.trans hs).trans hd, fun t hlt => ?_⟩
      have hlt2 : Iterator.head (Iterator.skipExpSign { it with head := it.head + 1 }) <
          it.dataLen := lt_of_le_of_lt hd.2.2.1 hlt
      have hlt1 : it.head + 1 < it.dataLen := lt_of_le_of_lt hs.2.2.1 hlt2
      have hes := skipExpSign_extend { it with head := it.head + 1 } t hb1 hlt1
      have he := skipDigits_extend _ t hb2 (by rw [hs.2.1]; exact hlt)
      unfold Iterator.skipExp
      rw [if_pos ⟨extend_lt it t h1.1, by
        rw [extend_head, extend_byteAt_head it t h h1.1]; exact h1.2⟩]
      simp only [extend_step, hes, he]
      split_ifs with hx
      · exact absurd hx h2
      · rfl
  · rw [if_neg h1] at hr
    simp only [Option.some.injEq] at hr
    subst hr
    refine ⟨Advances.refl it h, fun t hlt => ?_⟩
    unfold Iterator.skipExp
    rw [if_neg (by
      rintro ⟨_, hb⟩
      rw [extend_head, extend_byteAt_head it t h hlt] at hb
      exact h1 ⟨hlt, hb⟩)]

theorem skipNumber_stable (it it' : Iterator) (h : it.InBounds) (hlt0 : it.head < it.dataLen)
    (hr : it.skipNumber = (none, it')) :
    it.Advances it' ∧ ∀ t : List Nat, it'.head < it.dataLen →
      (it.extend t).skipNumber = (none, it'.extend t) := by
  have hs := skipSign_advances it h
  have hbs := hs.inBounds h
  unfold Iterator.skipNumber at hr
  cases h1 : it.skipSign.skipInt with
  | none => rw [h1] at hr; cases hr
  | some it1 =>
    rw [h1] at hr
    simp only [] at hr
    have s1 := skipInt_stable _ it1 hbs h1
    have hb1 := s1.1.inBounds hbs
    cases h2 : it1.skipFrac with
    | none => rw [h2] at hr; cases hr
    | some it2 =>
      rw [h2] at hr
      simp only [] at hr
      have s2 := skipFrac_stable _ it2 hb1 h2
      have hb2 := s2.1.inBounds hb1
      cases h3 : it2.skipExp with
      | none => rw [h3] at hr; cases hr
      | some it3 =>
        rw [h3] at hr
        simp only [Prod.mk.injEq, true_and] at hr
        subst hr
        have s3 := skipExp_stable _ it3 hb2 h3
        refine ⟨((hs.trans s1.1).trans s2.1).trans s3.1, fun t hlt => ?_⟩
        have e2 : it2.dataLen = it.dataLen := by rw [s2.1.2.1, s1.1.2.1, hs.2.1]
        have e1 : it1.dataLen = it.dataLen := by rw [s1.1.2.1, hs.2.1]
        have hlt2 : it2.head < it.dataLen := lt_of_le_of_lt s3.1.2.2.1 hlt
        have hlt1 : it1.head < it.dataLen := lt_of_le_of_lt s2.1.2.2.1 hlt2
        unfold Iterator.skipNumber
        rw [skipSign_extend it t h hlt0, s1.2 t (by rw [hs.2.1]; exact hlt1)]
        simp only []
        rw [s2.2 t (by rw [e1]; exact hlt2)]
        simp only []
        rw [s3.2 t (by rw [e2]; exact hlt)]

theorem skipLiteral_stable (it it' : Iterator) (lit : List Nat) (msg : String)
    (h : it.InBounds) (hne : lit ≠ []) (hr : it.skipLiteral lit msg = (none, it')) :
    it.Advances it' ∧ ∀ t : List Nat, (it.extend t).skipLiteral lit msg = (none, it'.extend t) := by
  have hpos : 0 < lit.length := List.length_pos.mpr hne
  have hiff := literal_iff it h.1 lit lit.length rfl hpos
  unfold Iterator.skipLiteral at hr
  by_cases h1 : it.head + lit.length ≤ it.dataLen ∧
      slice it.data it.head (it.head + lit.length) = lit
  · rw [if_pos h1] at hr
    simp only [Prod.mk.injEq, true_and] at hr
    subst hr
    refine ⟨Advances.step it _ h1.1, fun t => ?_⟩
    have hiff2 := literal_iff (it.extend t) (extend_inBounds it t h).1 lit lit.length rfl hpos
    have hp : lit <+: (it.extend t).rest := by
      rw [extend_rest it t h]
      exact (hiff.mp h1).trans (List.prefix_append _ _)
    unfold Iterator.skipLiteral
    rw [if_pos (hiff2.mpr hp)]
    rfl
  · rw [if_neg h1] at hr
    cases hr

end Iterator

namespace Iterator

theorem peek_extend (it : Iterator) (t : List Nat) (h : it.InBounds) (hlt : it.head < it.dataLen)
    (x : Nat) :
    ((it.extend t).head < (it.extend t).dataLen ∧ (it.extend t).byteAt (it.extend t).head = x) =
      (it.head < it.dataLen ∧ it.byteAt it.head = x) := by
  rw [extend_head, extend_dataLen, extend_byteAt_head it t h hlt]
  exact propext ⟨fun hh => ⟨hlt, hh.2⟩, fun hh => ⟨extend_lt it t hlt, hh.2⟩⟩

theorem peekByte_extend (it : Iterator) (t : List Nat) (h : it.InBounds)
    (hlt : it.head < it.dataLen) :
    (it.extend t).byteAt (it.extend t).head = it.byteAt it.head :=
  extend_byteAt_head it t h hlt

theorem ReadColon_extend (it it' : Iterator) (t : List Nat) (h : it.InBounds)
    (hr : it.ReadColon = (none, it')) : (it.extend t).ReadColon = (none, it'.extend t) :=
  readStructural_extend it it' t 58 _ h hr

theorem ReadColon_advances (it it' : Iterator) (h : it.InBounds)
    (hr : it.ReadColon = (none, it')) : it.Advances it' :=
  (readStructural_ok_lt it it' 58 _ h hr).1

theorem ReadString_advances (it it' : Iterator) (s : List Nat) (h : it.InBounds)
    (hr : it.ReadString = (.ok s, it')) : it.Advances it' := by
  have := (ReadString_frame it h).1
  rw [hr] at this
  exact this

/-- The three functions of the value-skip model, on a run that succeeds and
stops before the end of the buffer: the same run on a longer buffer, with at
least the same bound on nested calls. -/
theorem skipValue_stable (fuel : Nat) :
    (∀ (fuel' : Nat) (it it' : Iterator), fuel ≤ fuel' → it.InBounds →
      skipValueFuel fuel it = (none, it') →
      it.Advances it' ∧ ∀ t : List Nat, it'.head < it.dataLen →
        skipValueFuel fuel' (it.extend t) = (none, it'.extend t)) ∧
    (∀ (fuel' : Nat) (it it' : Iterator), fuel ≤ fuel' → it.InBounds →
      skipObjectLoop fuel it = (none, it') →
      it.Advances it' ∧ ∀ t : List Nat, it'.head < it.dataLen →
        skipObjectLoop fuel' (it.extend t) = (none, it'.extend t)) ∧
    (∀ (fuel' : Nat) (it it' : Iterator), fuel ≤ fuel' → it.InBounds →
      skipArrayLoop fuel it = (none, it') →
      it.Advances it' ∧ ∀ t : List Nat, it'.head < it.dataLen →
        skipArrayLoop fuel' (it.extend t) = (none, it'.extend t)) := by
  induction fuel with
  | zero =>
    refine ⟨?_, ?_, ?_⟩
    · intro fuel' it it' _ _ hr
      rw [skipValueFuel] at hr
      cases hr
    · intro fuel' it it' _ _ hr
      rw [skipObjectLoop] at hr
      cases hr
    · intro fuel' it it' _ _ hr
      rw [skipArrayLoop] at hr
      cases hr
  | succ fuel ih =>
    obtain ⟨ihV, ihO, ihA⟩ := ih
    refine ⟨?_, ?_, ?_⟩
    · intro fuel' it it' hle hb hr
      obtain ⟨f2, rfl⟩ : ∃ f2, fuel' = f2 + 1 := ⟨fuel' - 1, by omega⟩
      have hle2 : fuel ≤ f2 := by omega
      have hs := skipWhiteSpace_advances it hb
      have hb1 := hs.inBounds hb
      have hdl := hs.2.1
      rw [skipValueFuel] at hr
      simp only [] at hr
      by_cases hge : it.skipWhiteSpace.head ≥ it.skipWhiteSpace.dataLen
      · rw [if_pos hge] at hr
        cases hr
      · rw [if_neg hge] at hr
        have hlt1 : it.skipWhiteSpace.head < it.dataLen := by omega
        have hlt1' : it.skipWhiteSpace.head < it.skipWhiteSpace.dataLen := by omega
        have hge' : ∀ t : List Nat, ¬ ((it.skipWhiteSpace.extend t).head ≥
            (it.skipWhiteSpace.extend t).dataLen) := by
          intro t
          rw [extend_head, extend_dataLen]
          omega
        have hsk : ∀ t : List Nat, (it.extend t).skipWhiteSpace = it.skipWhiteSpace.extend t :=
          fun t => skipWhiteSpace_extend it t hb hlt1
        generalize it.skipWhiteSpace = it1 at hr hs hb1 hdl hge hlt1 hlt1' hge' hsk
        by_cases hc : it1.byteAt it1.head = 34
        · rw [if_pos hc] at hr
          cases hrs : it1.ReadString with
          | mk res it2 =>
            rw [hrs] at hr
            cases res with
            | error err => cases hr
            | ok key =>
              simp only [Prod.mk.injEq, true_and] at hr
              subst hr
              refine ⟨hs.trans (ReadString_advances _ _ key hb1 hrs), fun t hlt => ?_⟩
              rw [skipValueFuel]
              simp only []
              rw [hsk t, if_neg (hge' t)]
              simp only [extend_step, peekByte_extend _ t hb1 hlt1']
              rw [if_pos hc, ReadString_extend _ _ t key hb1 hrs]
        rw [if_neg hc] at hr
        rename' hc => n34
        by_cases hc : it1.byteAt it1.head = 123
        · rw [if_pos hc] at hr
          have hstep : it1.Advances
              { it1 with head := it1.head + 1 } :=
            Advances.step _ 1 hlt1'
          have hb2 := hstep.inBounds hb1
          have a3 := skipWhiteSpace_advances _ hb2
          have hb3 := a3.inBounds hb2
          have e3 : (Iterator.skipWhiteSpace
              { it1 with head := it1.head + 1 }).dataLen =
              it.dataLen := by rw [a3.2.1]; exact hdl
          have a03 := (hs.trans hstep).trans a3
          by_cases hcl : (Iterator.skipWhiteSpace
                { it1 with head := it1.head + 1 }).head <
              (Iterator.skipWhiteSpace
                { it1 with head := it1.head + 1 }).dataLen ∧
              (Iterator.skipWhiteSpace
                { it1 with head := it1.head + 1 }).byteAt
                (Iterator.skipWhiteSpace
                  { it1 with head := it1.head + 1 }).head = 125
          · rw [if_pos hcl] at hr
            simp only [Prod.mk.injEq, true_and] at hr
            subst hr
            refine ⟨a03.trans (Advances.step _ 1 hcl.1), fun t hlt => ?_⟩
            have hlt3 := hcl.1
            rw [e3] at hlt3
            rw [skipValueFuel]
            simp only []
            rw [hsk t, if_neg (hge' t)]
            simp only [extend_step, peekByte_extend _ t hb1 hlt1']
            rw [if_neg n34, if_pos hc]
            rw [skipWhiteSpace_extend _ t hb2 (lt_of_lt_of_eq hlt3 hdl.symm)]
            simp only [peek_extend _ t hb3 (by rw [e3]; exact hlt3), extend_step]
            rw [if_pos hcl]
          · rw [if_neg hcl] at hr
            have s5 := ihO f2 _ it' hle2 hb3 hr
            refine ⟨a03.trans s5.1, fun t hlt => ?_⟩
            have hlt3 : (Iterator.skipWhiteSpace
                { it1 with head := it1.head + 1 }).head <
                it.dataLen := lt_of_le_of_lt s5.1.2.2.1 hlt
            rw [skipValueFuel]
            simp only []
            rw [hsk t, if_neg (hge' t)]
            simp only [extend_step, peekByte_extend _ t hb1 hlt1']
            rw [if_neg n34, if_pos hc]
            rw [skipWhiteSpace_extend _ t hb2 (lt_of_lt_of_eq hlt3 hdl.symm)]
            simp only [peek_extend _ t hb3 (by rw [e3]; exact hlt3), extend_step]
            rw [if_neg hcl]
            exact s5.2 t (by rw [e3]; exact hlt)

        rw [if_neg hc] at hr
        rename' hc => n123
        by_cases hc : it1.byteAt it1.head = 91
        · rw [if_pos hc] at hr
          have hstep : it1.Advances
              { it1 with head := it1.head + 1 } :=
            Advances.step _ 1 hlt1'
          have hb2 := hstep.inBounds hb1
          have a3 := skipWhiteSpace_advances _ hb2
          have hb3 := a3.inBounds hb2
          have e3 : (Iterator.skipWhiteSpace
              { it1 with head := it1.head + 1 }).dataLen =
              it.dataLen := by rw [a3.2.1]; exact hdl
          have a03 := (hs.trans hstep).trans a3
          by_cases hcl : (Iterator.skipWhiteSpace
                { it1 with head := it1.head + 1 }).head <
              (Iterator.skipWhiteSpace
                { it1 with head := it1.head + 1 }).dataLen ∧
              (Iterator.skipWhiteSpace
                { it1 with head := it1.head + 1 }).byteAt
                (Iterator.skipWhiteSpace
                  { it1 with head := it1.head + 1 }).head = 93
          · rw [if_pos hcl] at hr
            simp only [Prod.mk.injEq, true_and] at hr
            subst hr
            refine ⟨a03.trans (Advances.step _ 1 hcl.1), fun t hlt => ?_⟩
            have hlt3 := hcl.1
            rw [e3] at hlt3
            rw [skipValueFuel]
            simp only []
            rw [hsk t, if_neg (hge' t)]
            simp only [extend_step, peekByte_extend _ t hb1 hlt1']
            rw [if_neg n34, if_neg n123, if_pos hc]
            rw [skipWhiteSpace_extend _ t hb2 (lt_of_lt_of_eq hlt3 hdl.symm)]
            simp only [peek_extend _ t hb3 (by rw [e3]; exact hlt3), extend_step]
            rw [if_pos hcl]
          · rw [if_neg hcl] at hr
            have s5 := ihA f2 _ it' hle2 hb3 hr
            refine ⟨a03.trans s5.1, fun t hlt => ?_⟩
            have hlt3 : (Iterator.skipWhiteSpace
                { it1 with head := it1.head + 1 }).head <
                it.dataLen := lt_of_le_of_lt s5.1.2.2.1 hlt
            rw [skipValueFuel]
            simp only []
            rw [hsk t, if_neg (hge' t)]
            simp only [extend_step, peekByte_extend _ t hb1 hlt1']
            rw [if_neg n34, if_neg n123, if_pos hc]
            rw [skipWhiteSpace_extend _ t hb2 (lt_of_lt_of_eq hlt3 hdl.symm)]
            simp only [peek_extend _ t hb3 (by rw [e3]; exact hlt3), extend_step]
            rw [if_neg hcl]
            exact s5.2 t (by rw [e3]; exact hlt)

        rw [if_neg hc] at hr
        rename' hc => n91
        by_cases hc : it1.byteAt it1.head = 116
        · rw [if_pos hc] at hr
          have sl := skipLiteral_stable _ it' _ _ hb1 (by decide) hr
          refine ⟨hs.trans sl.1, fun t hlt => ?_⟩
          rw [skipValueFuel]
          simp only []
          rw [hsk t, if_neg (hge' t)]
          simp only [extend_step, peekByte_extend _ t hb1 hlt1']
          rw [if_neg n34, if_neg n123, if_neg n91, if_pos hc]
          exact sl.2 t

        rw [if_neg hc] at hr
        rename' hc => n116
        by_cases hc : it1.byteAt it1.head = 102
        · rw [if_pos hc] at hr
          have sl := skipLiteral_stable _ it' _ _ hb1 (by decide) hr
          refine ⟨hs.trans sl.1, fun t hlt => ?_⟩
          rw [skipValueFuel]
          simp only []
          rw [hsk t, if_neg (hge' t)]
          simp only [extend_step, peekByte_extend _ t hb1 hlt1']
          rw [if_neg n34, if_neg n123, if_neg n91, if_neg n116, if_pos hc]
          exact sl.2 t

        rw [if_neg hc] at hr
        rename' hc => n102
        by_cases hc : it1.byteAt it1.head = 110
        · rw [if_pos hc] at hr
          have sl := skipLiteral_stable _ it' _ _ hb1 (by decide) hr
          refine ⟨hs.trans sl.1, fun t hlt => ?_⟩
          rw [skipValueFuel]
          simp only []
          rw [hsk t, if_neg (hge' t)]
          simp only [extend_step, peekByte_extend _ t hb1 hlt1']
          rw [if_neg n34, if_neg n123, if_neg n91, if_neg n116, if_neg n102, if_pos hc]
          exact sl.2 t

        rw [if_neg hc] at hr
        rename' hc => n110
        by_cases hc : it1.byteAt it1.head = 45 ∨
            (48 ≤ it1.byteAt it1.head ∧
              it1.byteAt it1.head ≤ 57)
        · rw [if_pos hc] at hr
          have sn := skipNumber_stable _ it' hb1 hlt1' hr
          refine ⟨hs.trans sn.1, fun t hlt => ?_⟩
          rw [skipValueFuel]
          simp only []
          rw [hsk t, if_neg (hge' t)]
          simp only [extend_step, peekByte_extend _ t hb1 hlt1']
          rw [if_neg n34, if_neg n123, if_neg n91, if_neg n116, if_neg n102, if_neg n110,
            if_pos hc]
          exact sn.2 t (by rw [hdl]; exact hlt)
        · rw [if_neg hc] at hr
          cases hr
    · intro fuel' it it' hle hb hr
      obtain ⟨f2, rfl⟩ : ∃ f2, fuel' = f2 + 1 := ⟨fuel' - 1, by omega⟩
      have hle2 : fuel ≤ f2 := by omega
      rw [skipObjectLoop] at hr
      cases hrs : it.ReadString with
      | mk res it1 =>
        rw [hrs] at hr
        cases res with
        | error err => cases hr
        | ok key =>
          simp only [] at hr
          have a1 := ReadString_advances it it1 key hb hrs
          have hb1 := a1.inBounds hb
          cases hrc : it1.ReadColon with
          | mk res2 it2 =>
            rw [hrc] at hr
            cases res2 with
            | some err => cases hr
            | none =>
              simp only [] at hr
              have a2 := ReadColon_advances it1 it2 hb1 hrc
              have hb2 := a2.inBounds hb1
              cases hrv : skipValueFuel fuel it2 with
              | mk res3 it3 =>
                rw [hrv] at hr
                cases res3 with
                | some err => cases hr
                | none =>
                  simp only [] at hr
                  have s3 := ihV f2 it2 it3 hle2 hb2 hrv
                  have hb3 := s3.1.inBounds hb2
                  have a4 := skipWhiteSpace_advances it3 hb3
                  have hb4 := a4.inBounds hb3
                  have e4 : it3.skipWhiteSpace.dataLen = it.dataLen := by
                    rw [a4.2.1, s3.1.2.1, a2.2.1, a1.2.1]
                  have e3 : it3.dataLen = it.dataLen := by rw [s3.1.2.1, a2.2.1, a1.2.1]
                  have e2 : it2.dataLen = it.dataLen := by rw [a2.2.1, a1.2.1]
                  have a04 := ((a1.trans a2).trans s3.1).trans a4
                  have hgoal : ∀ (t : List Nat), it3.skipWhiteSpace.head < it.dataLen →
                      skipObjectLoop (f2 + 1) (it.extend t) =
                        (if it3.skipWhiteSpace.head < it3.skipWhiteSpace.dataLen ∧
                            it3.skipWhiteSpace.byteAt it3.skipWhiteSpace.head = 44 then
                          skipObjectLoop f2 (Iterator.extend
                            { it3.skipWhiteSpace with head := it3.skipWhiteSpace.head + 1 } t)
                        else if it3.skipWhiteSpace.head < it3.skipWhiteSpace.dataLen ∧
                            it3.skipWhiteSpace.byteAt it3.skipWhiteSpace.head = 125 then
                          (none, Iterator.extend
                            { it3.skipWhiteSpace with head := it3.skipWhiteSpace.head + 1 } t)
                        else (some ((it3.skipWhiteSpace.extend t).error "expected ',' or '\x7d'"),
                          it3.skipWhiteSpace.extend t)) := by
                    intro t hlt4
                    have hlt3 : it3.head < it2.dataLen := by
                      rw [e2]; exact lt_of_le_of_lt a4.2.2.1 hlt4
                    rw [skipObjectLoop, ReadString_extend it it1 t key hb hrs]
                    simp only []
                    rw [ReadColon_extend it1 it2 t hb1 hrc]
                    simp only []
                    rw [s3.2 t hlt3]
                    simp only []
                    rw [skipWhiteSpace_extend it3 t hb3 (by rw [e3]; exact hlt4)]
                    simp only [peek_extend it3.skipWhiteSpace t hb4 (by rw [e4]; exact hlt4),
                      extend_step]
                  by_cases hc1 : it3.skipWhiteSpace.head < it3.skipWhiteSpace.dataLen ∧
                      it3.skipWhiteSpace.byteAt it3.skipWhiteSpace.head = 44
                  · rw [if_pos hc1] at hr
                    have hstep : it3.skipWhiteSpace.Advances
                        { it3.skipWhiteSpace with head := it3.skipWhiteSpace.head + 1 } :=
                      Advances.step _ 1 hc1.1
                    have s5 := ihO f2 _ it' hle2 (hstep.inBounds hb4) hr
                    refine ⟨(a04.trans hstep).trans s5.1, fun t hlt => ?_⟩
                    rw [hgoal t (by rw [← e4]; exact hc1.1), if_pos hc1]
                    exact s5.2 t (by simp only []; rw [e4]; exact hlt)
                  · rw [if_neg hc1] at hr
                    by_cases hc2 : it3.skipWhiteSpace.head < it3.skipWhiteSpace.dataLen ∧
                        it3.skipWhiteSpace.byteAt it3.skipWhiteSpace.head = 125
                    · rw [if_pos hc2] at hr
                      simp only [Prod.mk.injEq, true_and] at hr
                      subst hr
                      have hstep : it3.skipWhiteSpace.Advances
                          { it3.skipWhiteSpace with head := it3.skipWhiteSpace.head + 1 } :=
                        Advances.step _ 1 hc2.1
                      refine ⟨a04.trans hstep, fun t hlt => ?_⟩
                      rw [hgoal t (by rw [← e4]; exact hc2.1), if_neg hc1, if_pos hc2]
                    · rw [if_neg hc2] at hr
                      cases hr
    · intro fuel' it it' hle hb hr
      obtain ⟨f2, rfl⟩ : ∃ f2, fuel' = f2 + 1 := ⟨fuel' - 1, by omega⟩
      have hle2 : fuel ≤ f2 := by omega
      rw [skipArrayLoop] at hr
      cases hrv : skipValueFuel fuel it with
      | mk res3 it3 =>
        rw [hrv] at hr
        cases res3 with
        | some err => cases hr
        | none =>
          simp only [] at hr
          have s3 := ihV f2 it it3 hle2 hb hrv
          have hb3 := s3.1.inBounds hb
          have a4 := skipWhiteSpace_advances it3 hb3
          have hb4 := a4.inBounds hb3
          have e4 : it3.skipWhiteSpace.dataLen = it.dataLen := by rw [a4.2.1, s3.1.2.1]
          have e3 : it3.dataLen = it.dataLen := s3.1.2.1
          have a04 := s3.1.trans a4
          have hgoal : ∀ (t : List Nat), it3.skipWhiteSpace.head < it.dataLen →
              skipArrayLoop (f2 + 1) (it.extend t) =
                (if it3.skipWhiteSpace.head < it3.skipWhiteSpace.dataLen ∧
                    it3.skipWhiteSpace.byteAt it3.skipWhiteSpace.head = 44 then
                  skipArrayLoop f2 (Iterator.extend
                    { it3.skipWhiteSpace with head := it3.skipWhiteSpace.head + 1 } t)
                else if it3.skipWhiteSpace.head < it3.skipWhiteSpace.dataLen ∧
                    it3.skipWhiteSpace.byteAt it3.skipWhiteSpace.head = 93 then
                  (none, Iterator.extend
                    { it3.skipWhiteSpace with head := it3.skipWhiteSpace.head + 1 } t)
                else (some ((it3.skipWhiteSpace.extend t).error "expected ',' or ']'"),
                  it3.skipWhiteSpace.extend t)) := by
            intro t hlt4
            have hlt3 : it3.head < it.dataLen := lt_of_le_of_lt a4.2.2.1 hlt4
            rw [skipArrayLoop, s3.2 t hlt3]
            simp only []
            rw [skipWhiteSpace_extend it3 t hb3 (by rw [e3]; exact hlt4)]
            simp only [peek_extend it3.skipWhiteSpace t hb4 (by rw [e4]; exact hlt4),
              extend_step]
          by_cases hc1 : it3.skipWhiteSpace.head < it3.skipWhiteSpace.dataLen ∧
              it3.skipWhiteSpace.byteAt it3.skipWhiteSpace.head = 44
          · rw [if_pos hc1] at hr
            have hstep : it3.skipWhiteSpace.Advances
                { it3.skipWhiteSpace with head := it3.skipWhiteSpace.head + 1 } :=
              Advances.step _ 1 hc1.1
            have s5 := ihA f2 _ it' hle2 (hstep.inBounds hb4) hr
            refine ⟨(a04.trans hstep).trans s5.1, fun t hlt => ?_⟩
            rw [hgoal t (by rw [← e4]; exact hc1.1), if_pos hc1]
            exact s5.2 t (by simp only []; rw [e4]; exact hlt)
          · rw [if_neg hc1] at hr
            by_cases hc2 : it3.skipWhiteSpace.head < it3.skipWhiteSpace.dataLen ∧
                it3.skipWhiteSpace.byteAt it3.skipWhiteSpace.head = 93
            · rw [if_pos hc2] at hr
              simp only [Prod.mk.injEq, true_and] at hr
              subst hr
              have hstep : it3.skipWhiteSpace.Advances
                  { it3.skipWhiteSpace with head := it3.skipWhiteSpace.head + 1 } :=
                Advances.step _ 1 hc2.1
              refine ⟨a04.trans hstep, fun t hlt => ?_⟩
              rw [hgoal t (by rw [← e4]; exact hc2.1), if_neg hc1, if_pos hc2]
            · rw [if_neg hc2] at hr
              cases hr

theorem SkipValue_stable (it it' : Iterator) (h : it.InBounds) (hr : it.SkipValue = (none, it')) :
    it.Advances it' ∧ ∀ t : List Nat, it'.head < it.dataLen →
      (it.extend t).SkipValue = (none, it'.extend t) := by
  unfold Iterator.SkipValue at hr
  have s := (skipValue_stable (2 * (it.dataLen - it.head) + 2)).1
  refine ⟨(s _ it it' (le_refl _) h hr).1, fun t hlt => ?_⟩
  unfold Iterator.SkipValue
  exact (s (2 * ((it.extend t).dataLen - (it.extend t).head) + 2) it it' (by
    rw [extend_head, extend_dataLen]; omega) h hr).2 t hlt

theorem ReadObjectStart_extend (it it' : Iterator) (t : List Nat) (h : it.InBounds)
    (hr : it.ReadObjectStart = (none, it')) :
    (it.extend t).ReadObjectStart = (none, it'.extend t) :=
  readStructural_extend it it' t 123 _ h hr

theorem ReadArrayStart_extend (it it' : Iterator) (t : List Nat) (h : it.InBounds)
    (hr : it.ReadArrayStart = (none, it')) :
    (it.extend t).ReadArrayStart = (none, it'.extend t) :=
  readStructural_extend it it' t 91 _ h hr

theorem ReadObjectStart_advances (it it' : Iterator) (h : it.InBounds)
    (hr : it.ReadObjectStart = (none, it')) : it.Advances it' :=
  (readStructural_ok_lt it it' 123 _ h hr).1

theorem ReadArrayStart_advances (it it' : Iterator) (h : it.InBounds)
    (hr : it.ReadArrayStart = (none, it')) : it.Advances it' :=
  (readStructural_ok_lt it it' 91 _ h hr).1

theorem ReadBool_advances (it it' : Iterator) (b : Bool) (h : it.InBounds)
    (hr : it.ReadBool = (.ok b, it')) : it.Advances it' := by
  have := (ReadBool_frame it h).1
  rw [hr] at this
  exact this

theorem ReadFloat64_advances {F : Type} (pf : List Nat → Option F) (it it' : Iterator) (f : F)
    (h : it.InBounds) (hr : it.ReadFloat64 pf = (.ok f, it')) : it.Advances it' := by
  have := (ReadFloat64_frame pf it h).1
  rw [hr] at this
  exact this

theorem ReadInt64_advances (it it' : Iterator) (n : Int) (h : it.InBounds)
    (hr : it.ReadInt64 = (.ok n, it')) : it.Advances it' := by
  have := (ReadInt64_frame it h).1
  rw [hr] at this
  exact this

/-- The generic reader and its loops, on a run that succeeds and stops before
the end of the buffer: the same run on a longer buffer, with at least the same
bound on nested calls. -/
theorem readValue_stable {F : Type} (fl : FloatLib F) (fuel : Nat) :
    (∀ (fuel' : Nat) (it it' : Iterator) (v : Val F), fuel ≤ fuel' → it.InBounds →
      readValueFuel fl fuel it = (.ok v, it') →
      it.Advances it' ∧ ∀ t : List Nat, it'.head < it.dataLen →
        readValueFuel fl fuel' (it.extend t) = (.ok v, it'.extend t)) ∧
    (∀ (fuel' : Nat) (it it' : Iterator) (v : Val F), fuel ≤ fuel' → it.InBounds →
      readGenericMapFuel fl fuel it = (.ok v, it') →
      it.Advances it' ∧ ∀ t : List Nat, it'.head < it.dataLen →
        readGenericMapFuel fl fuel' (it.extend t) = (.ok v, it'.extend t)) ∧
    (∀ (fuel' : Nat) (it it' : Iterator) (m m' : List (List Nat × Val F)), fuel ≤ fuel' →
      it.InBounds → readGenericMapLoop fl fuel it m = (.ok m', it') →
      it.Advances it' ∧ ∀ t : List Nat, it'.head < it.dataLen →
        readGenericMapLoop fl fuel' (it.extend t) m = (.ok m', it'.extend t)) ∧
    (∀ (fuel' : Nat) (it it' : Iterator) (v : Val F), fuel ≤ fuel' → it.InBounds →
      readGenericSliceFuel fl fuel it = (.ok v, it') →
      it.Advances it' ∧ ∀ t : List Nat, it'.head < it.dataLen →
        readGenericSliceFuel fl fuel' (it.extend t) = (.ok v, it'.extend t)) ∧
    (∀ (fuel' : Nat) (it it' : Iterator) (l l' : List (Val F)), fuel ≤ fuel' →
      it.InBounds → readGenericSliceLoop fl fuel it l = (.ok l', it') →
      it.Advances it' ∧ ∀ t : List Nat, it'.head < it.dataLen →
        readGenericSliceLoop fl fuel' (it.extend t) l = (.ok l', it'.extend t)) := by
  induction fuel with
  | zero =>
    refine ⟨?_, ?_, ?_, ?_, ?_⟩
    · intro fuel' it it' v _ _ hr
      rw [readValueFuel] at hr
      cases hr
    · intro fuel' it it' v _ _ hr
      rw [readGenericMapFuel] at hr
      cases hr
    · intro fuel' it it' m m' _ _ hr
      rw [readGenericMapLoop] at hr
      cases hr
    · intro fuel' it it' v _ _ hr
      rw [readGenericSliceFuel] at hr
      cases hr
    · intro fuel' it it' l l' _ _ hr
      rw [readGenericSliceLoop] at hr
      cases hr
  | succ fuel ih =>
    obtain ⟨ihV, ihM, ihML, ihS, ihSL⟩ := ih
    refine ⟨?_, ?_, ?_, ?_, ?_⟩
    · intro fuel' it it' v hle hb hr
      obtain ⟨f2, rfl⟩ : ∃ f2, fuel' = f2 + 1 := ⟨fuel' - 1, by omega⟩
      have hle2 : fuel ≤ f2 := by omega
      have hs := skipWhiteSpace_advances it hb
      have hb1 := hs.inBounds hb
      have hdl := hs.2.1
      rw [readValueFuel] at hr
      simp only [] at hr
      by_cases hge : it.skipWhiteSpace.head ≥ it.skipWhiteSpace.dataLen
      · rw [if_pos hge] at hr
        cases hr
      · rw [if_neg hge] at hr
        have hlt1 : it.skipWhiteSpace.head < it.dataLen := by omega
        have hlt1' : it.skipWhiteSpace.head < it.skipWhiteSpace.dataLen := by omega
        have hge' : ∀ t : List Nat, ¬ ((it.skipWhiteSpace.extend t).head ≥
            (it.skipWhiteSpace.extend t).dataLen) := by
          intro t
          rw [extend_head, extend_dataLen]
          omega
        have hsk : ∀ t : List Nat, (it.extend t).skipWhiteSpace = it.skipWhiteSpace.extend t :=
          fun t => skipWhiteSpace_extend it t hb hlt1
        generalize it.skipWhiteSpace = it1 at hr hs hb1 hdl hge hlt1 hlt1' hge' hsk
        by_cases hc : it1.byteAt it1.head = 34
        · rw [if_pos hc] at hr
          cases hrs : it1.ReadString with
          | mk res it2 =>
            rw [hrs] at hr
            cases res with
            | error err => cases hr
            | ok x =>
              simp only [Prod.mk.injEq, Except.ok.injEq] at hr
              obtain ⟨hv, hit⟩ := hr
              subst hv
              subst hit
              refine ⟨hs.trans (ReadString_advances _ _ x hb1 hrs), fun t hlt => ?_⟩
              rw [readValueFuel]
              simp only []
              rw [hsk t, if_neg (hge' t)]
              simp only [extend_step, peekByte_extend _ t hb1 hlt1']
              rw [if_pos hc, ReadString_extend _ _ t x hb1 hrs]
        rw [if_neg hc] at hr
        rename' hc => n34
        by_cases hc : it1.byteAt it1.head = 123
        · rw [if_pos hc] at hr
          have s5 := ihM f2 it1 it' v hle2 hb1 hr
          refine ⟨hs.trans s5.1, fun t hlt => ?_⟩
          rw [readValueFuel]
          simp only []
          rw [hsk t, if_neg (hge' t)]
          simp only [extend_step, peekByte_extend _ t hb1 hlt1']
          rw [if_neg n34, if_pos hc]
          exact s5.2 t (lt_of_lt_of_eq hlt hdl.symm)
        rw [if_neg hc] at hr
        rename' hc => n123
        by_cases hc : it1.byteAt it1.head = 91
        · rw [if_pos hc] at hr
          have s5 := ihS f2 it1 it' v hle2 hb1 hr
          refine ⟨hs.trans s5.1, fun t hlt => ?_⟩
          rw [readValueFuel]
          simp only []
          rw [hsk t, if_neg (hge' t)]
          simp only [extend_step, peekByte_extend _ t hb1 hlt1']
          rw [if_neg n34, if_neg n123, if_pos hc]
          exact s5.2 t (lt_of_lt_of_eq hlt hdl.symm)
        rw [if_neg hc] at hr
        rename' hc => n91
        by_cases hc : it1.byteAt it1.head = 116 ∨ it1.byteAt it1.head = 102
        · rw [if_pos hc] at hr
          cases hrs : it1.ReadBool with
          | mk res it2 =>
            rw [hrs] at hr
            cases res with
            | error err => cases hr
            | ok x =>
              simp only [Prod.mk.injEq, Except.ok.injEq] at hr
              obtain ⟨hv, hit⟩ := hr
              subst hv
              subst hit
              refine ⟨hs.trans (ReadBool_advances _ _ x hb1 hrs), fun t hlt => ?_⟩
              rw [readValueFuel]
              simp only []
              rw [hsk t, if_neg (hge' t)]
              simp only [extend_step, peekByte_extend _ t hb1 hlt1']
              rw [if_neg n34, if_neg n123, if_neg n91, if_pos hc, ReadBool_extend _ _ t x hb1 hrs]
        rw [if_neg hc] at hr
        rename' hc => n116
        by_cases hc : it1.byteAt it1.head = 110
        · rw [if_pos hc] at hr
          have hn := ReadNull_fails it1
          cases hrs : it1.ReadNull with
          | mk res it2 =>
            rw [hrs] at hr hn
            cases res with
            | some err => cases hr
            | none => exact absurd rfl hn
        rw [if_neg hc] at hr
        rename' hc => n110
        by_cases hc : it1.byteAt it1.head = 45 ∨
            (48 ≤ it1.byteAt it1.head ∧ it1.byteAt it1.head ≤ 57)
        · rw [if_pos hc] at hr
          cases hrs : it1.ReadFloat64 fl.ParseFloat with
          | mk res it2 =>
            rw [hrs] at hr
            cases res with
            | error err => cases hr
            | ok x =>
              simp only [Prod.mk.injEq, Except.ok.injEq] at hr
              obtain ⟨hv, hit⟩ := hr
              subst hv
              subst hit
              refine ⟨hs.trans (ReadFloat64_advances fl.ParseFloat _ _ x hb1 hrs), fun t hlt => ?_⟩
              rw [readValueFuel]
              simp only []
              rw [hsk t, if_neg (hge' t)]
              simp only [extend_step, peekByte_extend _ t hb1 hlt1']
              rw [if_neg n34, if_neg n123, if_neg n91, if_neg n116, if_neg n110, if_pos hc, ReadFloat64_extend fl.ParseFloat _ _ t x hb1 hrs (lt_of_lt_of_eq hlt hdl.symm)]
        · rw [if_neg hc] at hr
          cases hr
    · intro fuel' it it' v hle hb hr
      obtain ⟨f2, rfl⟩ : ∃ f2, fuel' = f2 + 1 := ⟨fuel' - 1, by omega⟩
      have hle2 : fuel ≤ f2 := by omega
      rw [readGenericMapFuel] at hr
      cases hrs : it.ReadObjectStart with
      | mk res it1 =>
        rw [hrs] at hr
        cases res with
        | some err => cases hr
        | none =>
          simp only [] at hr
          have a1 := ReadObjectStart_advances it it1 hb hrs
          have hb1 := a1.inBounds hb
          have a2 := skipWhiteSpace_advances it1 hb1
          have hb2 := a2.inBounds hb1
          have e1 : it1.dataLen = it.dataLen := a1.2.1
          have e2 : it1.skipWhiteSpace.dataLen = it.dataLen := by rw [a2.2.1, e1]
          have a02 := a1.trans a2
          by_cases hcl : it1.skipWhiteSpace.head < it1.skipWhiteSpace.dataLen ∧
              it1.skipWhiteSpace.byteAt it1.skipWhiteSpace.head = 125
          · rw [if_pos hcl] at hr
            simp only [Prod.mk.injEq, Except.ok.injEq] at hr
            obtain ⟨hv, hit⟩ := hr
            subst hv
            subst hit
            refine ⟨a02.trans (Advances.step _ 1 hcl.1), fun t hlt => ?_⟩
            have hlt2 : it1.skipWhiteSpace.head < it1.dataLen := by
              rw [e1, ← e2]; exact hcl.1
            rw [readGenericMapFuel, ReadObjectStart_extend it it1 t hb hrs]
            simp only []
            rw [skipWhiteSpace_extend it1 t hb1 hlt2]
            simp only [peek_extend it1.skipWhiteSpace t hb2 hcl.1, extend_step]
            rw [if_pos hcl]
          · rw [if_neg hcl] at hr
            cases hrl : readGenericMapLoop fl fuel it1.skipWhiteSpace [] with
            | mk res2 it3 =>
              rw [hrl] at hr
              cases res2 with
              | error err => cases hr
              | ok x =>
                simp only [Prod.mk.injEq, Except.ok.injEq] at hr
                obtain ⟨hv, hit⟩ := hr
                subst hv
                subst hit
                have s5 := ihML f2 _ _ _ _ hle2 hb2 hrl
                refine ⟨a02.trans s5.1, fun t hlt => ?_⟩
                have hlt2 : it1.skipWhiteSpace.head < it1.dataLen := by
                  rw [e1]; exact lt_of_le_of_lt s5.1.2.2.1 hlt
                rw [readGenericMapFuel, ReadObjectStart_extend it it1 t hb hrs]
                simp only []
                rw [skipWhiteSpace_extend it1 t hb1 hlt2]
                simp only [peek_extend it1.skipWhiteSpace t hb2 (by rw [e2, ← e1]; exact hlt2),
                  extend_step]
                rw [if_neg hcl, s5.2 t (by rw [e2]; exact hlt)]
    · intro fuel' it it' st m' hle hb hr
      obtain ⟨f2, rfl⟩ : ∃ f2, fuel' = f2 + 1 := ⟨fuel' - 1, by omega⟩
      have hle2 : fuel ≤ f2 := by omega
      rw [readGenericMapLoop] at hr
      cases hrs : it.ReadString with
      | mk res it1 =>
        rw [hrs] at hr
        cases res with
        | error err => cases hr
        | ok key =>
          simp only [] at hr
          have a1 := ReadString_advances it it1 key hb hrs
          have hb1 := a1.inBounds hb
          cases hrc : it1.ReadColon with
          | mk res2 it2 =>
            rw [hrc] at hr
            cases res2 with
            | some err => cases hr
            | none =>
              simp only [] at hr
              have a2 := ReadColon_advances it1 it2 hb1 hrc
              have hb2 := a2.inBounds hb1
              have e2 : it2.dataLen = it.dataLen := by rw [a2.2.1, a1.2.1]
              cases hrv : readValueFuel fl fuel it2 with
              | mk res3 it3 =>
                rw [hrv] at hr
                cases res3 with
                | error err => cases hr
                | ok val =>
                  simp only [] at hr
                  have s3 := ihV f2 it2 it3 val hle2 hb2 hrv
                  have hb3 := s3.1.inBounds hb2
                  have e3 : it3.dataLen = it.dataLen := by rw [s3.1.2.1, e2]
                  have a4 := skipWhiteSpace_advances it3 hb3
                  have hb4 := a4.inBounds hb3
                  have e4 : it3.skipWhiteSpace.dataLen = it.dataLen := by rw [a4.2.1, e3]
                  have a04 := ((a1.trans a2).trans s3.1).trans a4
                  have hgoal : ∀ (t : List Nat), it3.skipWhiteSpace.head < it.dataLen →
                      readGenericMapLoop fl (f2 + 1) (it.extend t) st =
                        (if it3.skipWhiteSpace.head < it3.skipWhiteSpace.dataLen ∧
                            it3.skipWhiteSpace.byteAt it3.skipWhiteSpace.head = 44 then
                          readGenericMapLoop fl f2 (Iterator.extend
                            { it3.skipWhiteSpace with head := it3.skipWhiteSpace.head + 1 } t) (setMapIndex st key val)
                        else if it3.skipWhiteSpace.head < it3.skipWhiteSpace.dataLen ∧
                            it3.skipWhiteSpace.byteAt it3.skipWhiteSpace.head = 125 then
                          (.ok (setMapIndex st key val), Iterator.extend
                            { it3.skipWhiteSpace with head := it3.skipWhiteSpace.head + 1 } t)
                        else (.error ((it3.skipWhiteSpace.extend t).error "expected ',' or '\x7d'"),
                          it3.skipWhiteSpace.extend t)) := by
                    intro t hlt4
                    have hlt3 : it3.head < it.dataLen := lt_of_le_of_lt a4.2.2.1 hlt4
                    rw [readGenericMapLoop, ReadString_extend it it1 t key hb hrs]
                    simp only []
                    rw [ReadColon_extend it1 it2 t hb1 hrc]
                    simp only []
                    rw [s3.2 t (by rw [e2]; exact hlt3)]
                    simp only []
                    rw [skipWhiteSpace_extend it3 t hb3 (by rw [e3]; exact hlt4)]
                    simp only [peek_extend it3.skipWhiteSpace t hb4 (by rw [e4]; exact hlt4),
                      extend_step]
                  by_cases hc1 : it3.skipWhiteSpace.head < it3.skipWhiteSpace.dataLen ∧
                      it3.skipWhiteSpace.byteAt it3.skipWhiteSpace.head = 44
                  · rw [if_pos hc1] at hr
                    have hstep : it3.skipWhiteSpace.Advances
                        { it3.skipWhiteSpace with head := it3.skipWhiteSpace.head + 1 } :=
                      Advances.step _ 1 hc1.1
                    have s5 := ihML f2 _ it' _ _ hle2 (hstep.inBounds hb4) hr
                    refine ⟨(a04.trans hstep).trans s5.1, fun t hlt => ?_⟩
                    rw [hgoal t (by rw [← e4]; exact hc1.1), if_pos hc1]
                    exact s5.2 t (by simp only []; rw [e4]; exact hlt)
                  · rw [if_neg hc1] at hr
                    by_cases hc2 : it3.skipWhiteSpace.head < it3.skipWhiteSpace.dataLen ∧
                        it3.skipWhiteSpace.byteAt it3.skipWhiteSpace.head = 125
                    · rw [if_pos hc2] at hr
                      simp only [Prod.mk.injEq, Except.ok.injEq] at hr
                      obtain ⟨hv, hit⟩ := hr
                      subst hv
                      subst hit
                      have hstep : it3.skipWhiteSpace.Advances
                          { it3.skipWhiteSpace with head := it3.skipWhiteSpace.head + 1 } :=
                        Advances.step _ 1 hc2.1
                      refine ⟨a04.trans hstep, fun t hlt => ?_⟩
                      rw [hgoal t (by rw [← e4]; exact hc2.1), if_neg hc1, if_pos hc2]
                    · rw [if_neg hc2] at hr
                      cases hr
    · intro fuel' it it' v hle hb hr
      obtain ⟨f2, rfl⟩ : ∃ f2, fuel' = f2 + 1 := ⟨fuel' - 1, by omega⟩
      have hle2 : fuel ≤ f2 := by omega
      rw [readGenericSliceFuel] at hr
      cases hrs : it.ReadArrayStart with
      | mk res it1 =>
        rw [hrs] at hr
        cases res with
        | some err => cases hr
        | none =>
          simp only [] at hr
          have a1 := ReadArrayStart_advances it it1 hb hrs
          have hb1 := a1.inBounds hb
          have a2 := skipWhiteSpace_advances it1 hb1
          have hb2 := a2.inBounds hb1
          have e1 : it1.dataLen = it.dataLen := a1.2.1
          have e2 : it1.skipWhiteSpace.dataLen = it.dataLen := by rw [a2.2.1, e1]
          have a02 := a1.trans a2
          by_cases hcl : it1.skipWhiteSpace.head < it1.skipWhiteSpace.dataLen ∧
              it1.skipWhiteSpace.byteAt it1.skipWhiteSpace.head = 93
          · rw [if_pos hcl] at hr
            simp only [Prod.mk.injEq, Except.ok.injEq] at hr
            obtain ⟨hv, hit⟩ := hr
            subst hv
            subst hit
            refine ⟨a02.trans (Advances.step _ 1 hcl.1), fun t hlt => ?_⟩
            have hlt2 : it1.skipWhiteSpace.head < it1.dataLen := by
              rw [e1, ← e2]; exact hcl.1
            rw [readGenericSliceFuel, ReadArrayStart_extend it it1 t hb hrs]
            simp only []
            rw [skipWhiteSpace_extend it1 t hb1 hlt2]
            simp only [peek_extend it1.skipWhiteSpace t hb2 hcl.1, extend_step]
            rw [if_pos hcl]
          · rw [if_neg hcl] at hr
            cases hrl : readGenericSliceLoop fl fuel it1.skipWhiteSpace [] with
            | mk res2 it3 =>
              rw [hrl] at hr
              cases res2 with
              | error err => cases hr
              | ok x =>
                simp only [Prod.mk.injEq, Except.ok.injEq] at hr
                obtain ⟨hv, hit⟩ := hr
                subst hv
                subst hit
                have s5 := ihSL f2 _ _ _ _ hle2 hb2 hrl
                refine ⟨a02.trans s5.1, fun t hlt => ?_⟩
                have hlt2 : it1.skipWhiteSpace.head < it1.dataLen := by
                  rw [e1]; exact lt_of_le_of_lt s5.1.2.2.1 hlt
                rw [readGenericSliceFuel, ReadArrayStart_extend it it1 t hb hrs]
                simp only []
                rw [skipWhiteSpace_extend it1 t hb1 hlt2]
                simp only [peek_extend it1.skipWhiteSpace t hb2 (by rw [e2, ← e1]; exact hlt2),
                  extend_step]
                rw [if_neg hcl, s5.2 t (by rw [e2]; exact hlt)]
    · intro fuel' it it' st l' hle hb hr
      obtain ⟨f2, rfl⟩ : ∃ f2, fuel' = f2 + 1 := ⟨fuel' - 1, by omega⟩
      have hle2 : fuel ≤ f2 := by omega
      rw [readGenericSliceLoop] at hr
      cases hrv : readValueFuel fl fuel it with
      | mk res3 it3 =>
        rw [hrv] at hr
        cases res3 with
        | error err => cases hr
        | ok val =>
          simp only [] at hr
          have s3 := ihV f2 it it3 val hle2 hb hrv
          have hb3 := s3.1.inBounds hb
          have e3 : it3.dataLen = it.dataLen := s3.1.2.1
          have a4 := skipWhiteSpace_advances it3 hb3
          have hb4 := a4.inBounds hb3
          have e4 : it3.skipWhiteSpace.dataLen = it.dataLen := by rw [a4.2.1, e3]
          have a04 := s3.1.trans a4
          have hgoal : ∀ (t : List Nat), it3.skipWhiteSpace.head < it.dataLen →
              readGenericSliceLoop fl (f2 + 1) (it.extend t) st =
                (if it3.skipWhiteSpace.head < it3.skipWhiteSpace.dataLen ∧
                    it3.skipWhiteSpace.byteAt it3.skipWhiteSpace.head = 44 then
                  readGenericSliceLoop fl f2 (Iterator.extend
                    { it3.skipWhiteSpace with head := it3.skipWhiteSpace.head + 1 } t) (st ++ [val])
                else if it3.skipWhiteSpace.head < it3.skipWhiteSpace.dataLen ∧
                    it3.skipWhiteSpace.byteAt it3.skipWhiteSpace.head = 93 then
                  (.ok (st ++ [val]), Iterator.extend
                    { it3.skipWhiteSpace with head := it3.skipWhiteSpace.head + 1 } t)
                else (.error ((it3.skipWhiteSpace.extend t).error "expected ',' or ']'"),
                  it3.skipWhiteSpace.extend t)) := by
            intro t hlt4
            have hlt3 : it3.head < it.dataLen := lt_of_le_of_lt a4.2.2.1 hlt4
            rw [readGenericSliceLoop, s3.2 t hlt3]
            simp only []
            rw [skipWhiteSpace_extend it3 t hb3 (by rw [e3]; exact hlt4)]
            simp only [peek_extend it3.skipWhiteSpace t hb4 (by rw [e4]; exact hlt4),
              extend_step]
          by_cases hc1 : it3.skipWhiteSpace.head < it3.skipWhiteSpace.dataLen ∧
              it3.skipWhiteSpace.byteAt it3.skipWhiteSpace.head = 44
          · rw [if_pos hc1] at hr
            have hstep : it3.skipWhiteSpace.Advances
                { it3.skipWhiteSpace with head := it3.skipWhiteSpace.head + 1 } :=
              Advances.step _ 1 hc1.1
            have s5 := ihSL f2 _ it' _ _ hle2 (hstep.inBounds hb4) hr
            refine ⟨(a04.trans hstep).trans s5.1, fun t hlt => ?_⟩
            rw [hgoal t (by rw [← e4]; exact hc1.1), if_pos hc1]
            exact s5.2 t (by simp only []; rw [e4]; exact hlt)
          · rw [if_neg hc1] at hr
            by_cases hc2 : it3.skipWhiteSpace.head < it3.skipWhiteSpace.dataLen ∧
                it3.skipWhiteSpace.byteAt it3.skipWhiteSpace.head = 93
            · rw [if_pos hc2] at hr
              simp only [Prod.mk.injEq, Except.ok.injEq] at hr
              obtain ⟨hv, hit⟩ := hr
              subst hv
              subst hit
              have hstep : it3.skipWhiteSpace.Advances
                  { it3.skipWhiteSpace with head := it3.skipWhiteSpace.head + 1 } :=
                Advances.step _ 1 hc2.1
              refine ⟨a04.trans hstep, fun t hlt => ?_⟩
              rw [hgoal t (by rw [← e4]; exact hc2.1), if_neg hc1, if_pos hc2]
            · rw [if_neg hc2] at hr
              cases hr

end Iterator

/-! ## The typed decoders on a longer buffer -/

namespace Iterator

/-- The loop of the slice decoder, on a run that succeeds: the same run on a
longer buffer, with at least the same bound on the rounds. -/
theorem sliceDecodeLoop_stable {F : Type} (zero : Val F) (elemDec : DecoderFunc F)
    (hel : StableDec false elemDec) (fuel : Nat) :
    ∀ (fuel' : Nat) (it it' : Iterator) (header header' : Val F), fuel ≤ fuel' → it.InBounds →
      sliceDecodeLoop zero elemDec fuel it header = (none, it', header') →
      it.Advances it' ∧ ∀ t : List Nat,
        sliceDecodeLoop zero elemDec fuel' (it.extend t) header = (none, it'.extend t, header') := by
  induction fuel with
  | zero =>
    intro fuel' it it' header header' _ _ hr
    rw [sliceDecodeLoop] at hr
    cases hr
  | succ fuel ih =>
    intro fuel' it it' header header' hle hb hr
    obtain ⟨f2, rfl⟩ : ∃ f2, fuel' = f2 + 1 := ⟨fuel' - 1, by omega⟩
    have hle2 : fuel ≤ f2 := by omega
    have a1 := skipWhiteSpace_advances it hb
    have hb1 := a1.inBounds hb
    have hdl := a1.2.1
    rw [sliceDecodeLoop] at hr
    simp only [] at hr
    by_cases hcl : it.skipWhiteSpace.head < it.skipWhiteSpace.dataLen ∧
        it.skipWhiteSpace.byteAt it.skipWhiteSpace.head = 93
    · rw [if_pos hcl] at hr
      simp only [Prod.mk.injEq, true_and] at hr
      obtain ⟨hit, hv⟩ := hr
      subst hv
      subst hit
      refine ⟨a1.trans (Advances.step _ 1 hcl.1), fun t => ?_⟩
      rw [sliceDecodeLoop]
      simp only []
      rw [skipWhiteSpace_extend it t hb (by rw [← hdl]; exact hcl.1)]
      simp only [peek_extend it.skipWhiteSpace t hb1 hcl.1, extend_step]
      rw [if_pos hcl]
    · rw [if_neg hcl] at hr
      generalize hH : (if header.sliceLen ≥ header.sliceStore.length then growSlice zero header
        else header) = H at hr
      cases hre : elemDec it.skipWhiteSpace (H.sliceStore.getD H.sliceLen zero) with
      | mk res r2 =>
        cases r2 with
        | mk it3 v =>
          rw [hre] at hr
          cases res with
          | some err => cases hr
          | none =>
            simp only [] at hr
            have s3 := hel _ _ _ _ hb1 hre
            have hb3 := s3.1.inBounds hb1
            have e3 : it3.dataLen = it.dataLen := by rw [s3.1.2.1, hdl]
            have a4 := skipWhiteSpace_advances it3 hb3
            have hb4 := a4.inBounds hb3
            have e4 : it3.skipWhiteSpace.dataLen = it.dataLen := by rw [a4.2.1, e3]
            have a04 := (a1.trans s3.1).trans a4
            have hgoal : ∀ (t : List Nat), it3.skipWhiteSpace.head < it.dataLen →
                sliceDecodeLoop zero elemDec (f2 + 1) (it.extend t) header =
                  (if it3.skipWhiteSpace.head < it3.skipWhiteSpace.dataLen ∧
                      it3.skipWhiteSpace.byteAt it3.skipWhiteSpace.head = 44 then
                    sliceDecodeLoop zero elemDec f2 (Iterator.extend
                      { it3.skipWhiteSpace with head := it3.skipWhiteSpace.head + 1 } t)
                      (.slice (H.sliceLen + 1) (H.sliceStore.set H.sliceLen v))
                  else if it3.skipWhiteSpace.head < it3.skipWhiteSpace.dataLen ∧
                      it3.skipWhiteSpace.byteAt it3.skipWhiteSpace.head = 93 then
                    (none, Iterator.extend { it3.skipWhiteSpace with head := it3.skipWhiteSpace.head + 1 } t,
                      (.slice (H.sliceLen + 1) (H.sliceStore.set H.sliceLen v)))
                  else (some ((it3.skipWhiteSpace.extend t).error "expected ',' or ']'"),
                    it3.skipWhiteSpace.extend t,
                    (.slice (H.sliceLen + 1) (H.sliceStore.set H.sliceLen v)))) := by
              intro t hlt4
              have hlt3 : it3.head < it.dataLen := lt_of_le_of_lt a4.2.2.1 hlt4
              have hlt3' : it3.head < it.skipWhiteSpace.dataLen := by rw [hdl]; exact hlt3
              have hlt1 : it.skipWhiteSpace.head < it.dataLen := lt_of_le_of_lt s3.1.2.2.1 hlt3
              have hlt1' : it.skipWhiteSpace.head < it.skipWhiteSpace.dataLen := by rw [hdl]; exact hlt1
              rw [sliceDecodeLoop]
              simp only []
              rw [skipWhiteSpace_extend it t hb hlt1]
              simp only [peek_extend it.skipWhiteSpace t hb1 hlt1', hH]
              rw [if_neg hcl, (s3.2 t (Or.inr hlt3'))]
              simp only []
              rw [skipWhiteSpace_extend it3 t hb3 (by rw [e3]; exact hlt4)]
              simp only [peek_extend it3.skipWhiteSpace t hb4 (by rw [e4]; exact hlt4),
                extend_step]
            by_cases hc1 : it3.skipWhiteSpace.head < it3.skipWhiteSpace.dataLen ∧
                it3.skipWhiteSpace.byteAt it3.skipWhiteSpace.head = 44
            · rw [if_pos hc1] at hr
              have hstep : it3.skipWhiteSpace.Advances
                  { it3.skipWhiteSpace with head := it3.skipWhiteSpace.head + 1 } :=
                Advances.step _ 1 hc1.1
              have s5 := ih f2 _ it' _ _ hle2 (hstep.inBounds hb4) hr
              refine ⟨(a04.trans hstep).trans s5.1, fun t => ?_⟩
              rw [hgoal t (by rw [← e4]; exact hc1.1), if_pos hc1]
              exact s5.2 t
            · rw [if_neg hc1] at hr
              by_cases hc2 : it3.skipWhiteSpace.head < it3.skipWhiteSpace.dataLen ∧
                  it3.skipWhiteSpace.byteAt it3.skipWhiteSpace.head = 93
              · rw [if_pos hc2] at hr
                simp only [Prod.mk.injEq, true_and] at hr
                obtain ⟨hit, hv⟩ := hr
                subst hv
                subst hit
                have hstep : it3.skipWhiteSpace.Advances
                    { it3.skipWhiteSpace with head := it3.skipWhiteSpace.head + 1 } :=
                  Advances.step _ 1 hc2.1
                refine ⟨a04.trans hstep, fun t => ?_⟩
                rw [hgoal t (by rw [← e4]; exact hc2.1), if_neg hc1, if_pos hc2]
              · rw [if_neg hc2] at hr
                cases hr

/-- The loop of the map decoder, on a run that succeeds: the same run on a
longer buffer, with at least the same bound on the rounds. -/
theorem mapDecodeLoop_stable {F : Type} (ks : Bool) (zero : Val F) (elemDec : DecoderFunc F)
    (hel : StableDec false elemDec) (fuel : Nat) :
    ∀ (fuel' : Nat) (it it' : Iterator) (m m' : List (List Nat × Val F)), fuel ≤ fuel' →
      it.InBounds → mapDecodeLoop ks zero elemDec fuel it m = (none, it', m') →
      it.Advances it' ∧ ∀ t : List Nat,
        mapDecodeLoop ks zero elemDec fuel' (it.extend t) m = (none, it'.extend t, m') := by
  induction fuel with
  | zero =>
    intro fuel' it it' m m' _ _ hr
    rw [mapDecodeLoop] at hr
    cases hr
  | succ fuel ih =>
    intro fuel' it it' m m' hle hb hr
    obtain ⟨f2, rfl⟩ : ∃ f2, fuel' = f2 + 1 := ⟨fuel' - 1, by omega⟩
    have hle2 : fuel ≤ f2 := by omega
    have a0 := skipWhiteSpace_advances it hb
    have hb0 := a0.inBounds hb
    have hdl := a0.2.1
    rw [mapDecodeLoop] at hr
    simp only [] at hr
    by_cases hcl : it.skipWhiteSpace.head < it.skipWhiteSpace.dataLen ∧
        it.skipWhiteSpace.byteAt it.skipWhiteSpace.head = 125
    · rw [if_pos hcl] at hr
      simp only [Prod.mk.injEq, true_and] at hr
      obtain ⟨hit, hv⟩ := hr
      subst hv
      subst hit
      refine ⟨a0.trans (Advances.step _ 1 hcl.1), fun t => ?_⟩
      rw [mapDecodeLoop]
      simp only []
      rw [skipWhiteSpace_extend it t hb (by rw [← hdl]; exact hcl.1)]
      simp only [peek_extend it.skipWhiteSpace t hb0 hcl.1, extend_step]
      rw [if_pos hcl]
    · rw [if_neg hcl] at hr
      cases hrs : it.skipWhiteSpace.ReadString with
      | mk res it1 =>
        rw [hrs] at hr
        cases res with
        | error err => cases hr
        | ok key =>
          simp only [] at hr
          have r1 := ReadString_advances _ it1 key hb0 hrs
          have a1 := a0.trans r1
          have hb1 := a1.inBounds hb
          cases hrc : it1.ReadColon with
          | mk res2 it2 =>
            rw [hrc] at hr
            cases res2 with
            | some err => cases hr
            | none =>
              simp only [] at hr
              have a2 := ReadColon_advances it1 it2 hb1 hrc
              have hb2 := a2.inBounds hb1
              have e2 : it2.dataLen = it.dataLen := by rw [a2.2.1, a1.2.1]
              cases hre : elemDec it2 zero with
              | mk res3 r3 =>
                cases r3 with
                | mk it3 v =>
                  rw [hre] at hr
                  cases res3 with
                  | some err => cases hr
                  | none =>
                    simp only [] at hr
                    have hks : ks = true := by
                      cases ks with
                      | true => rfl
                      | false => simp at hr
                    subst hks
                    simp only [if_true] at hr
                    have s3 := hel _ _ _ _ hb2 hre
                    have hb3 := s3.1.inBounds hb2
                    have e3 : it3.dataLen = it.dataLen := by rw [s3.1.2.1, e2]
                    have a4 := skipWhiteSpace_advances it3 hb3
                    have hb4 := a4.inBounds hb3
                    have e4 : it3.skipWhiteSpace.dataLen = it.dataLen := by rw [a4.2.1, e3]
                    have a04 := ((a1.trans a2).trans s3.1).trans a4
                    have hgoal : ∀ (t : List Nat), it3.skipWhiteSpace.head < it.dataLen →
                        mapDecodeLoop true zero elemDec (f2 + 1) (it.extend t) m =
                          (if it3.skipWhiteSpace.head < it3.skipWhiteSpace.dataLen ∧
                              it3.skipWhiteSpace.byteAt it3.skipWhiteSpace.head = 44 then
                            mapDecodeLoop true zero elemDec f2 (Iterator.extend
                              { it3.skipWhiteSpace with head := it3.skipWhiteSpace.head + 1 } t)
                              (setMapIndex m key v)
                          else if it3.skipWhiteSpace.head < it3.skipWhiteSpace.dataLen ∧
                              it3.skipWhiteSpace.byteAt it3.skipWhiteSpace.head = 125 then
                            (none, Iterator.extend { it3.skipWhiteSpace with head := it3.skipWhiteSpace.head + 1 } t,
                              (setMapIndex m key v))
                          else (some ((it3.skipWhiteSpace.extend t).error "expected ',' or '\x7d'"),
                            it3.skipWhiteSpace.extend t, (setMapIndex m key v))) := by
                      intro t hlt4
                      have hlt3 : it3.head < it.dataLen := lt_of_le_of_lt a4.2.2.1 hlt4
                      have hlt3' : it3.head < it2.dataLen := by rw [e2]; exact hlt3
                      have hlt0 : it.skipWhiteSpace.head < it.dataLen :=
                        lt_of_le_of_lt ((r1.trans a2).trans s3.1).2.2.1 hlt3
                      have hlt0' : it.skipWhiteSpace.head < it.skipWhiteSpace.dataLen := by rw [hdl]; exact hlt0
                      have hrs' : ∀ t : List Nat, (it.skipWhiteSpace.extend t).ReadString = (.ok key, it1.extend t) :=
                        fun t => ReadString_extend _ _ t key hb0 hrs
                      rw [mapDecodeLoop]
                      simp only []
                      rw [skipWhiteSpace_extend it t hb hlt0]
                      simp only [peek_extend it.skipWhiteSpace t hb0 hlt0']
                      rw [if_neg hcl, hrs' t]
                      simp only []
                      rw [ReadColon_extend it1 it2 t hb1 hrc]
                      simp only []
                      rw [(s3.2 t (Or.inr hlt3'))]
                      simp only [if_true]
                      rw [skipWhiteSpace_extend it3 t hb3 (by rw [e3]; exact hlt4)]
                      simp only [peek_extend it3.skipWhiteSpace t hb4 (by rw [e4]; exact hlt4),
                        extend_step]
                    by_cases hc1 : it3.skipWhiteSpace.head < it3.skipWhiteSpace.dataLen ∧
                        it3.skipWhiteSpace.byteAt it3.skipWhiteSpace.head = 44
                    · rw [if_pos hc1] at hr
                      have hstep : it3.skipWhiteSpace.Advances
                          { it3.skipWhiteSpace with head := it3.skipWhiteSpace.head + 1 } :=
                        Advances.step _ 1 hc1.1
                      have s5 := ih f2 _ it' _ _ hle2 (hstep.inBounds hb4) hr
                      refine ⟨(a04.trans hstep).trans s5.1, fun t => ?_⟩
                      rw [hgoal t (by rw [← e4]; exact hc1.1), if_pos hc1]
                      exact s5.2 t
                    · rw [if_neg hc1] at hr
                      by_cases hc2 : it3.skipWhiteSpace.head < it3.skipWhiteSpace.dataLen ∧
                          it3.skipWhiteSpace.byteAt it3.skipWhiteSpace.head = 125
                      · rw [if_pos hc2] at hr
                        simp only [Prod.mk.injEq, true_and] at hr
                        obtain ⟨hit, hv⟩ := hr
                        subst hv
                        subst hit
                        have hstep : it3.skipWhiteSpace.Advances
                            { it3.skipWhiteSpace with head := it3.skipWhiteSpace.head + 1 } :=
                          Advances.step _ 1 hc2.1
                        refine ⟨a04.trans hstep, fun t => ?_⟩
                        rw [hgoal t (by rw [← e4]; exact hc2.1), if_neg hc1, if_pos hc2]
                      · rw [if_neg hc2] at hr
                        cases hr

theorem fieldMapLookup_mem {F : Type} (fieldMap : List (List Nat × fieldInfo F)) (key : List Nat)
    (info : fieldInfo F) (h : fieldMapLookup fieldMap key = some info) :
    ∃ name, (name, info) ∈ fieldMap := by
  induction fieldMap with
  | nil => cases h
  | cons x rest ih =>
    obtain ⟨name, i⟩ := x
    rw [fieldMapLookup] at h
    by_cases hk : name = key
    · rw [if_pos hk] at h
      simp only [Option.some.injEq] at h
      subst h
      exact ⟨name, List.mem_cons_self _ _⟩
    · rw [if_neg hk] at h
      obtain ⟨n, hn⟩ := ih h
      exact ⟨n, List.mem_cons_of_mem _ hn⟩

/-- The branch of the struct decoder on a key, on a run that succeeds and
stops before the end of the buffer. -/
theorem structDecodeField_stable {F : Type} (fieldMap : List (List Nat × fieldInfo F))
    (hfm : ∀ x ∈ fieldMap, StableDec false x.2.decoder) (key : List Nat) (it it' : Iterator)
    (p p' : List (Val F)) (hb : it.InBounds)
    (hr : structDecodeField fieldMap key it p = (none, it', p')) :
    it.Advances it' ∧ ∀ t : List Nat, it'.head < it.dataLen →
      structDecodeField fieldMap key (it.extend t) p = (none, it'.extend t, p') := by
  unfold structDecodeField at hr
  cases hl : fieldMapLookup fieldMap key with
  | some info =>
    rw [hl] at hr
    simp only [] at hr
    obtain ⟨name, hmem⟩ := fieldMapLookup_mem fieldMap key info hl
    have hst := hfm _ hmem
    cases hd : info.decoder it (p.getD info.offset .nilIface) with
    | mk a r =>
      cases r with
      | mk it2 v =>
        rw [hd] at hr
        simp only [Prod.mk.injEq] at hr
        obtain ⟨ha, hit, hv⟩ := hr
        subst ha
        subst hit
        subst hv
        have s := hst _ _ _ _ hb hd
        refine ⟨s.1, fun t hlt => ?_⟩
        unfold structDecodeField
        rw [hl]
        simp only []
        rw [s.2 t (Or.inr hlt)]
  | none =>
    rw [hl] at hr
    simp only [] at hr
    cases hd : it.SkipValue with
    | mk a it2 =>
      rw [hd] at hr
      simp only [Prod.mk.injEq] at hr
      obtain ⟨ha, hit, hv⟩ := hr
      subst ha
      subst hit
      subst hv
      have s := SkipValue_stable it it2 hb hd
      refine ⟨s.1, fun t hlt => ?_⟩
      unfold structDecodeField
      rw [hl]
      simp only []
      rw [s.2 t hlt]

/-- The loop of the struct decoder, on a run that succeeds: the same run on a
longer buffer, with at least the same bound on the rounds. -/
theorem structDecodeLoop_stable {F : Type} (fieldMap : List (List Nat × fieldInfo F))
    (hfm : ∀ x ∈ fieldMap, StableDec false x.2.decoder) (fuel : Nat) :
    ∀ (fuel' : Nat) (it it' : Iterator) (p p' : List (Val F)), fuel ≤ fuel' →
      it.InBounds → structDecodeLoop fieldMap fuel it p = (none, it', p') →
      it.Advances it' ∧ ∀ t : List Nat,
        structDecodeLoop fieldMap fuel' (it.extend t) p = (none, it'.extend t, p') := by
  induction fuel with
  | zero =>
    intro fuel' it it' p p' _ _ hr
    rw [structDecodeLoop] at hr
    cases hr
  | succ fuel ih =>
    intro fuel' it it' p p' hle hb hr
    obtain ⟨f2, rfl⟩ : ∃ f2, fuel' = f2 + 1 := ⟨fuel' - 1, by omega⟩
    have hle2 : fuel ≤ f2 := by omega
    have a0 := skipWhiteSpace_advances it hb
    have hb0 := a0.inBounds hb
    have hdl := a0.2.1
    rw [structDecodeLoop] at hr
    simp only [] at hr
    by_cases hcl : it.skipWhiteSpace.head < it.skipWhiteSpace.dataLen ∧
        it.skipWhiteSpace.byteAt it.skipWhiteSpace.head = 125
    · rw [if_pos hcl] at hr
      simp only [Prod.mk.injEq, true_and] at hr
      obtain ⟨hit, hv⟩ := hr
      subst hv
      subst hit
      refine ⟨a0.trans (Advances.step _ 1 hcl.1), fun t => ?_⟩
      rw [structDecodeLoop]
      simp only []
      rw [skipWhiteSpace_extend it t hb (by rw [← hdl]; exact hcl.1)]
      simp only [peek_extend it.skipWhiteSpace t hb0 hcl.1, extend_step]
      rw [if_pos hcl]
    · rw [if_neg hcl] at hr
      cases hrs : it.skipWhiteSpace.ReadString with
      | mk res it1 =>
        rw [hrs] at hr
        cases res with
        | error err => cases hr
        | ok key =>
          simp only [] at hr
          have r1 := ReadString_advances _ it1 key hb0 hrs
          have a1 := a0.trans r1
          have hb1 := a1.inBounds hb
          cases hrc : it1.ReadColon with
          | mk res2 it2 =>
            rw [hrc] at hr
            cases res2 with
            | some err => cases hr
            | none =>
              simp only [] at hr
              have a2 := ReadColon_advances it1 it2 hb1 hrc
              have hb2 := a2.inBounds hb1
              have e2 : it2.dataLen = it.dataLen := by rw [a2.2.1, a1.2.1]
              have a2s := skipWhiteSpace_advances it2 hb2
              have hb2s := a2s.inBounds hb2
              have e2s : it2.skipWhiteSpace.dataLen = it.dataLen := by rw [a2s.2.1, e2]
              cases hre : structDecodeField fieldMap key it2.skipWhiteSpace p with
              | mk res3 r3 =>
                cases r3 with
                | mk it3 q =>
                  rw [hre] at hr
                  cases res3 with
                  | some err => cases hr
                  | none =>
                    simp only [] at hr
                    have s3 := structDecodeField_stable fieldMap hfm key _ _ _ _ hb2s hre
                    have hb3 := s3.1.inBounds hb2s
                    have e3 : it3.dataLen = it.dataLen := by rw [s3.1.2.1, e2s]
                    have a4 := skipWhiteSpace_advances it3 hb3
                    have hb4 := a4.inBounds hb3
                    have e4 : it3.skipWhiteSpace.dataLen = it.dataLen := by rw [a4.2.1, e3]
                    have a04 := (((a1.trans a2).trans a2s).trans s3.1).trans a4
                    have hgoal : ∀ (t : List Nat), it3.skipWhiteSpace.head < it.dataLen →
                        structDecodeLoop fieldMap (f2 + 1) (it.extend t) p =
                          (if it3.skipWhiteSpace.head < it3.skipWhiteSpace.dataLen ∧
                              it3.skipWhiteSpace.byteAt it3.skipWhiteSpace.head = 44 then
                            structDecodeLoop fieldMap f2 (Iterator.extend
                              { it3.skipWhiteSpace with head := it3.skipWhiteSpace.head + 1 } t) q
                          else if it3.skipWhiteSpace.head < it3.skipWhiteSpace.dataLen ∧
                              it3.skipWhiteSpace.byteAt it3.skipWhiteSpace.head = 125 then
                            (none, Iterator.extend
                              { it3.skipWhiteSpace with head := it3.skipWhiteSpace.head + 1 } t, q)
                          else (some ((it3.skipWhiteSpace.extend t).error "expected ',' or '\x7d'"),
                            it3.skipWhiteSpace.extend t, q)) := by
                      intro t hlt4
                      have hlt3 : it3.head < it.dataLen := lt_of_le_of_lt a4.2.2.1 hlt4
                      have hlt3' : it3.head < it2.skipWhiteSpace.dataLen := by rw [e2s]; exact hlt3
                      have hlt2s : it2.skipWhiteSpace.head < it2.dataLen := by
                        rw [e2]; exact lt_of_le_of_lt s3.1.2.2.1 hlt3
                      have hlt0 : it.skipWhiteSpace.head < it.dataLen :=
                        lt_of_le_of_lt (((r1.trans a2).trans a2s).trans s3.1).2.2.1 hlt3
                      have hlt0' : it.skipWhiteSpace.head < it.skipWhiteSpace.dataLen := by rw [hdl]; exact hlt0
                      have hrs' : ∀ t : List Nat, (it.skipWhiteSpace.extend t).ReadString = (.ok key, it1.extend t) :=
                        fun t => ReadString_extend _ _ t key hb0 hrs
                      rw [structDecodeLoop]
                      simp only []
                      rw [skipWhiteSpace_extend it t hb hlt0]
                      simp only [peek_extend it.skipWhiteSpace t hb0 hlt0']
                      rw [if_neg hcl, hrs' t]
                      simp only []
                      rw [ReadColon_extend it1 it2 t hb1 hrc]
                      simp only []
                      rw [skipWhiteSpace_extend it2 t hb2 hlt2s, s3.2 t hlt3']
                      simp only []
                      rw [skipWhiteSpace_extend it3 t hb3 (by rw [e3]; exact hlt4)]
                      simp only [peek_extend it3.skipWhiteSpace t hb4 (by rw [e4]; exact hlt4),
                        extend_step]
                    by_cases hc1 : it3.skipWhiteSpace.head < it3.skipWhiteSpace.dataLen ∧
                        it3.skipWhiteSpace.byteAt it3.skipWhiteSpace.head = 44
                    · rw [if_pos hc1] at hr
                      have hstep : it3.skipWhiteSpace.Advances
                          { it3.skipWhiteSpace with head := it3.skipWhiteSpace.head + 1 } :=
                        Advances.step _ 1 hc1.1
                      have s5 := ih f2 _ it' _ _ hle2 (hstep.inBounds hb4) hr
                      refine ⟨(a04.trans hstep).trans s5.1, fun t => ?_⟩
                      rw [hgoal t (by rw [← e4]; exact hc1.1), if_pos hc1]
                      exact s5.2 t
                    · rw [if_neg hc1] at hr
                      by_cases hc2 : it3.skipWhiteSpace.head < it3.skipWhiteSpace.dataLen ∧
                          it3.skipWhiteSpace.byteAt it3.skipWhiteSpace.head = 125
                      · rw [if_pos hc2] at hr
                        simp only [Prod.mk.injEq, true_and] at hr
                        obtain ⟨hit, hv⟩ := hr
                        subst hv
                        subst hit
                        have hstep : it3.skipWhiteSpace.Advances
                            { it3.skipWhiteSpace with head := it3.skipWhiteSpace.head + 1 } :=
                          Advances.step _ 1 hc2.1
                        refine ⟨a04.trans hstep, fun t => ?_⟩
                        rw [hgoal t (by rw [← e4]; exact hc2.1), if_neg hc1, if_pos hc2]
                      · rw [if_neg hc2] at hr
                        cases hr

end Iterator

/-! ### The routines of the compiler -/

theorem StableDec.weaken {F : Type} (dec : DecoderFunc F) (h : StableDec true dec) :
    StableDec false dec :=
  fun it it' p p' hb hr => ⟨(h it it' p p' hb hr).1, fun t _ => (h it it' p p' hb hr).2 t (Or.inl rfl)⟩

theorem decodeString_stable {F : Type} : StableDec true (decodeString : DecoderFunc F) := by
  intro it it' p p' hb hr
  unfold decodeString at hr
  cases hrs : it.ReadString with
  | mk res it1 =>
    rw [hrs] at hr
    cases res with
    | error err => cases hr
    | ok x =>
      simp only [Prod.mk.injEq, true_and] at hr
      obtain ⟨hit, hv⟩ := hr
      subst hv
      subst hit
      refine ⟨Iterator.ReadString_advances _ _ x hb hrs, fun t _ => ?_⟩
      unfold decodeString
      rw [Iterator.ReadString_extend _ _ t x hb hrs]

theorem decodeBool_stable {F : Type} : StableDec true (decodeBool : DecoderFunc F) := by
  intro it it' p p' hb hr
  unfold decodeBool at hr
  cases hrs : it.ReadBool with
  | mk res it1 =>
    rw [hrs] at hr
    cases res with
    | error err => cases hr
    | ok x =>
      simp only [Prod.mk.injEq, true_and] at hr
      obtain ⟨hit, hv⟩ := hr
      subst hv
      subst hit
      refine ⟨Iterator.ReadBool_advances _ _ x hb hrs, fun t _ => ?_⟩
      unfold decodeBool
      rw [Iterator.ReadBool_extend _ _ t x hb hrs]

theorem decodeInt64_stable {F : Type} : StableDec false (decodeInt64 : DecoderFunc F) := by
  intro it it' p p' hb hr
  unfold decodeInt64 at hr
  cases hrs : it.ReadInt64 with
  | mk res it1 =>
    rw [hrs] at hr
    cases res with
    | error err => cases hr
    | ok x =>
      simp only [Prod.mk.injEq, true_and] at hr
      obtain ⟨hit, hv⟩ := hr
      subst hv
      subst hit
      refine ⟨Iterator.ReadInt64_advances _ _ x hb hrs, fun t hlt => ?_⟩
      rcases hlt with hlt | hlt
      · cases hlt
      · unfold decodeInt64
        rw [Iterator.ReadInt64_extend _ _ t x hb hrs hlt]

theorem decodeInt32_stable {F : Type} : StableDec false (decodeInt32 : DecoderFunc F) := by
  intro it it' p p' hb hr
  unfold decodeInt32 at hr
  cases hrs : it.ReadInt64 with
  | mk res it1 =>
    rw [hrs] at hr
    cases res with
    | error err => cases hr
    | ok x =>
      simp only [Prod.mk.injEq, true_and] at hr
      obtain ⟨hit, hv⟩ := hr
      subst hv
      subst hit
      refine ⟨Iterator.ReadInt64_advances _ _ x hb hrs, fun t hlt => ?_⟩
      rcases hlt with hlt | hlt
      · cases hlt
      · unfold decodeInt32
        rw [Iterator.ReadInt64_extend _ _ t x hb hrs hlt]

theorem decodeFloat64_stable {F : Type} (fl : FloatLib F) : StableDec false (decodeFloat64 fl) := by
  intro it it' p p' hb hr
  unfold decodeFloat64 at hr
  cases hrs : it.ReadFloat64 fl.ParseFloat with
  | mk res it1 =>
    rw [hrs] at hr
    cases res with
    | error err => cases hr
    | ok x =>
      simp only [Prod.mk.injEq, true_and] at hr
      obtain ⟨hit, hv⟩ := hr
      subst hv
      subst hit
      refine ⟨Iterator.ReadFloat64_advances _ _ _ x hb hrs, fun t hlt => ?_⟩
      rcases hlt with hlt | hlt
      · cases hlt
      · unfold decodeFloat64
        rw [Iterator.ReadFloat64_extend _ _ _ t x hb hrs hlt]

theorem decodeInterface_stable {F : Type} (fl : FloatLib F) :
    StableDec false (decodeInterface fl) := by
  intro it it' p p' hb hr
  unfold decodeInterface readValue at hr
  cases hrs : readValueFuel fl (3 * (it.dataLen - it.head) + 3) it with
  | mk res it1 =>
    rw [hrs] at hr
    cases res with
    | error err => cases hr
    | ok x =>
      simp only [Prod.mk.injEq, true_and] at hr
      obtain ⟨hit, hv⟩ := hr
      subst hv
      subst hit
      have s := (Iterator.readValue_stable fl (3 * (it.dataLen - it.head) + 3)).1
      refine ⟨(s _ _ _ _ (le_refl _) hb hrs).1, fun t hlt => ?_⟩
      rcases hlt with hlt | hlt
      · cases hlt
      · unfold decodeInterface readValue
        rw [(s (3 * ((it.extend t).dataLen - (it.extend t).head) + 3) _ _ _ (by
          rw [Iterator.extend_head, Iterator.extend_dataLen]; omega) hb hrs).2 t hlt]

theorem ptrDecoder_stable {F : Type} (closed : Bool) (zero : Val F) (elemDec : DecoderFunc F)
    (hel : StableDec closed elemDec) : StableDec closed (ptrDecoder zero elemDec) := by
  intro it it' p p' hb hr
  unfold ptrDecoder at hr
  cases p with
  | nilPtr =>
    simp only [] at hr
    cases hd : elemDec it zero with
    | mk a r =>
      cases r with
      | mk it2 v =>
        rw [hd] at hr
        simp only [Prod.mk.injEq] at hr
        obtain ⟨ha, hit, hv⟩ := hr
        subst ha
        subst hit
        subst hv
        have s := hel _ _ _ _ hb hd
        refine ⟨s.1, fun t hlt => ?_⟩
        unfold ptrDecoder
        simp only []
        rw [s.2 t hlt]
  | ptr x =>
    simp only [] at hr
    cases hd : elemDec it x with
    | mk a r =>
      cases r with
      | mk it2 v =>
        rw [hd] at hr
        simp only [Prod.mk.injEq] at hr
        obtain ⟨ha, hit, hv⟩ := hr
        subst ha
        subst hit
        subst hv
        have s := hel _ _ _ _ hb hd
        refine ⟨s.1, fun t hlt => ?_⟩
        unfold ptrDecoder
        simp only []
        rw [s.2 t hlt]
  | _ => cases hr

theorem sliceDecoder_stable {F : Type} (zero : Val F) (elemDec : DecoderFunc F)
    (hel : StableDec false elemDec) : StableDec true (sliceDecoder zero elemDec) := by
  intro it it' p p' hb hr
  unfold sliceDecoder at hr
  cases hrs : it.ReadArrayStart with
  | mk res it1 =>
    rw [hrs] at hr
    cases res with
    | some err => cases hr
    | none =>
      simp only [] at hr
      have a1 := Iterator.ReadArrayStart_advances it it1 hb hrs
      have hb1 := a1.inBounds hb
      have hfuel : ∀ t : List Nat, it1.dataLen - it1.head + 1 ≤
          (it1.extend t).dataLen - (it1.extend t).head + 1 := by
        intro t
        rw [Iterator.extend_head, Iterator.extend_dataLen]
        omega
      cases p with
      | nilSlice =>
        simp only [] at hr
        have s := Iterator.sliceDecodeLoop_stable zero elemDec hel _ _ _ _ _ _ (hfuel []) hb1 hr
        refine ⟨a1.trans s.1, fun t _ => ?_⟩
        unfold sliceDecoder
        rw [Iterator.ReadArrayStart_extend it it1 t hb hrs]
        exact (Iterator.sliceDecodeLoop_stable zero elemDec hel _ _ _ _ _ _ (hfuel t) hb1 hr).2 t
      | slice len store =>
        simp only [] at hr
        have s := Iterator.sliceDecodeLoop_stable zero elemDec hel _ _ _ _ _ _ (hfuel []) hb1 hr
        refine ⟨a1.trans s.1, fun t _ => ?_⟩
        unfold sliceDecoder
        rw [Iterator.ReadArrayStart_extend it it1 t hb hrs]
        exact (Iterator.sliceDecodeLoop_stable zero elemDec hel _ _ _ _ _ _ (hfuel t) hb1 hr).2 t
      | _ => cases hr

theorem mapDecoder_stable {F : Type} (ks : Bool) (zero : Val F) (elemDec : DecoderFunc F)
    (hel : StableDec false elemDec) : StableDec true (mapDecoder ks zero elemDec) := by
  intro it it' p p' hb hr
  unfold mapDecoder at hr
  cases hrs : it.ReadObjectStart with
  | mk res it1 =>
    rw [hrs] at hr
    cases res with
    | some err => cases hr
    | none =>
      simp only [] at hr
      have a1 := Iterator.ReadObjectStart_advances it it1 hb hrs
      have hb1 := a1.inBounds hb
      have hfuel : ∀ t : List Nat, it1.dataLen - it1.head + 1 ≤
          (it1.extend t).dataLen - (it1.extend t).head + 1 := by
        intro t
        rw [Iterator.extend_head, Iterator.extend_dataLen]
        omega
      have key : ∀ m : List (List Nat × Val F),
          ((mapDecodeLoop ks zero elemDec (it1.dataLen - it1.head + 1) it1 m).1,
            (mapDecodeLoop ks zero elemDec (it1.dataLen - it1.head + 1) it1 m).2.1,
            Val.map (mapDecodeLoop ks zero elemDec (it1.dataLen - it1.head + 1) it1 m).2.2) =
            (none, it', p') →
          it.Advances it' ∧ ∀ t : List Nat,
            ((mapDecodeLoop ks zero elemDec ((it1.extend t).dataLen - (it1.extend t).head + 1)
                (it1.extend t) m).1,
              (mapDecodeLoop ks zero elemDec ((it1.extend t).dataLen - (it1.extend t).head + 1)
                (it1.extend t) m).2.1,
              Val.map (mapDecodeLoop ks zero elemDec
                ((it1.extend t).dataLen - (it1.extend t).head + 1) (it1.extend t) m).2.2) =
              (none, it'.extend t, p') := by
        intro m hm
        cases hl : mapDecodeLoop ks zero elemDec (it1.dataLen - it1.head + 1) it1 m with
        | mk a r =>
          cases r with
          | mk it2 m2 =>
            rw [hl] at hm
            simp only [Prod.mk.injEq] at hm
            obtain ⟨ha, hit, hv⟩ := hm
            subst ha
            subst hit
            subst hv
            have s := Iterator.mapDecodeLoop_stable ks zero elemDec hel _ _ _ _ _ _ (hfuel []) hb1 hl
            refine ⟨a1.trans s.1, fun t => ?_⟩
            rw [(Iterator.mapDecodeLoop_stable ks zero elemDec hel _ _ _ _ _ _ (hfuel t) hb1 hl).2 t]
      cases p with
      | nilMap =>
        simp only [] at hr
        have k := key [] hr
        refine ⟨k.1, fun t _ => ?_⟩
        unfold mapDecoder
        rw [Iterator.ReadObjectStart_extend it it1 t hb hrs]
        exact k.2 t
      | map m =>
        simp only [] at hr
        have k := key m hr
        refine ⟨k.1, fun t _ => ?_⟩
        unfold mapDecoder
        rw [Iterator.ReadObjectStart_extend it it1 t hb hrs]
        exact k.2 t
      | _ => cases hr

theorem structDecoder_stable {F : Type} (fieldMap : List (List Nat × fieldInfo F))
    (hfm : ∀ x ∈ fieldMap, StableDec false x.2.decoder) :
    StableDec true (structDecoder fieldMap) := by
  intro it it' p p' hb hr
  unfold structDecoder at hr
  cases hrs : it.ReadObjectStart with
  | mk res it1 =>
    rw [hrs] at hr
    cases res with
    | some err => cases hr
    | none =>
      simp only [] at hr
      have a1 := Iterator.ReadObjectStart_advances it it1 hb hrs
      have hb1 := a1.inBounds hb
      have hfuel : ∀ t : List Nat, it1.dataLen - it1.head + 1 ≤
          (it1.extend t).dataLen - (it1.extend t).head + 1 := by
        intro t
        rw [Iterator.extend_head, Iterator.extend_dataLen]
        omega
      cases p with
      | struct fields =>
        simp only [] at hr
        cases hl : structDecodeLoop fieldMap (it1.dataLen - it1.head + 1) it1 fields with
        | mk a r =>
          cases r with
          | mk it2 m2 =>
            rw [hl] at hr
            simp only [Prod.mk.injEq] at hr
            obtain ⟨ha, hit, hv⟩ := hr
            subst ha
            subst hit
            subst hv
            have s := Iterator.structDecodeLoop_stable fieldMap hfm _ _ _ _ _ _ (hfuel []) hb1 hl
            refine ⟨a1.trans s.1, fun t _ => ?_⟩
            unfold structDecoder
            rw [Iterator.ReadObjectStart_extend it it1 t hb hrs]
            simp only []
            rw [(Iterator.structDecodeLoop_stable fieldMap hfm _ _ _ _ _ _ (hfuel t) hb1 hl).2 t]
      | _ => cases hr

mutual
/-- Every routine of `compileDecoder` has successful runs that do not depend
on the bytes behind the value read. -/
theorem compileDecoder_stable {F : Type} (fl : FloatLib F) :
    ∀ (t : Ty) (dec : DecoderFunc F), compileDecoder fl t = .ok dec → StableDec false dec
  | .string, dec, h => by
    rw [compileDecoder] at h
    cases h
    exact StableDec.weaken _ decodeString_stable
  | .definedString _, dec, h => by
    rw [compileDecoder] at h
    cases h
    exact StableDec.weaken _ decodeString_stable
  | .int, dec, h => by
    rw [compileDecoder] at h
    cases h
    exact decodeInt64_stable
  | .int64, dec, h => by
    rw [compileDecoder] at h
    cases h
    exact decodeInt64_stable
  | .int32, dec, h => by
    rw [compileDecoder] at h
    cases h
    exact decodeInt32_stable
  | .float64, dec, h => by
    rw [compileDecoder] at h
    cases h
    exact decodeFloat64_stable fl
  | .bool, dec, h => by
    rw [compileDecoder] at h
    cases h
    exact StableDec.weaken _ decodeBool_stable
  | .iface, dec, h => by
    rw [compileDecoder] at h
    cases h
    exact decodeInterface_stable fl
  | .struct fields, dec, h => by
    rw [compileDecoder] at h
    cases hf : (compileStructFields fl fields 0 [] :
        Except Error (List (List Nat × fieldInfo F))) with
    | error err => rw [hf] at h; cases h
    | ok fm =>
      rw [hf] at h
      cases h
      exact StableDec.weaken _ (structDecoder_stable fm
        (compileStructFields_stable fl fields 0 [] fm (fun x hx => by cases hx) hf))
  | .slice elem, dec, h => by
    rw [compileDecoder] at h
    cases he : compileDecoder fl elem with
    | error err => rw [he] at h; cases h
    | ok elemDec =>
      rw [he] at h
      cases h
      exact StableDec.weaken _ (sliceDecoder_stable _ elemDec
        (compileDecoder_stable fl elem elemDec he))
  | .map key elem, dec, h => by
    cases key with
    | string =>
      rw [compileDecoder] at h
      cases he : compileDecoder fl elem with
      | error err => rw [he] at h; cases h
      | ok elemDec =>
        rw [he] at h
        cases h
        exact StableDec.weaken _ (mapDecoder_stable _ _ elemDec
          (compileDecoder_stable fl elem elemDec he))
    | definedString name =>
      rw [compileDecoder] at h
      cases he : compileDecoder fl elem with
      | error err => rw [he] at h; cases h
      | ok elemDec =>
        rw [he] at h
        cases h
        exact StableDec.weaken _ (mapDecoder_stable _ _ elemDec
          (compileDecoder_stable fl elem elemDec he))
    | _ =>
      rw [compileDecoder] at h
      · cases h
      all_goals (intros; rename_i hh; cases hh)
  | .ptr elem, dec, h => by
    rw [compileDecoder] at h
    cases he : compileDecoder fl elem with
    | error err => rw [he] at h; cases h
    | ok elemDec =>
      rw [he] at h
      cases h
      exact ptrDecoder_stable false _ elemDec (compileDecoder_stable fl elem elemDec he)
  | .other kind, dec, h => by
    rw [compileDecoder] at h
    cases h
theorem compileStructFields_stable {F : Type} (fl : FloatLib F) :
    ∀ (fields : List Field) (i : Nat) (acc fm : List (List Nat × fieldInfo F)),
      (∀ x ∈ acc, StableDec false x.2.decoder) →
      compileStructFields fl fields i acc = .ok fm → ∀ x ∈ fm, StableDec false x.2.decoder
  | [], i, acc, fm, hacc, h => by
    rw [compileStructFields] at h
    cases h
    exact hacc
  | f :: fs, i, acc, fm, hacc, h => by
    rw [compileStructFields] at h
    cases hf : (compileStructField fl f i acc : Except Error (List (List Nat × fieldInfo F))) with
    | error err => rw [hf] at h; cases h
    | ok acc1 =>
      rw [hf] at h
      exact compileStructFields_stable fl fs (i + 1) acc1 fm
        (compileStructField_stable fl f i acc acc1 hacc hf) h
theorem compileStructField_stable {F : Type} (fl : FloatLib F) :
    ∀ (f : Field) (i : Nat) (acc fm : List (List Nat × fieldInfo F)),
      (∀ x ∈ acc, StableDec false x.2.decoder) →
      compileStructField fl f i acc = .ok fm → ∀ x ∈ fm, StableDec false x.2.decoder
  | .mk name tag type, i, acc, fm, hacc, h => by
    rw [compileStructField] at h
    by_cases ht : tag = [45]
    · rw [if_pos ht] at h
      cases h
      exact hacc
    · rw [if_neg ht] at h
      cases he : compileDecoder fl type with
      | error err => rw [he] at h; cases h
      | ok dec =>
        rw [he] at h
        cases h
        intro x hx
        rcases List.mem_cons.mp hx with rfl | hx
        · exact compileDecoder_stable fl type dec he
        · exact hacc x hx
end

/-- The routines compiled for struct, list and map types stop behind a
closing bracket: their successful runs are the same on every longer buffer. -/
theorem compileDecoder_closed {F : Type} (fl : FloatLib F) (t : Ty) (dec : DecoderFunc F)
    (ht : (∃ fields, t = .struct fields) ∨ (∃ elem, t = .slice elem) ∨
      ∃ key elem, t = .map key elem)
    (h : compileDecoder fl t = .ok dec) : StableDec true dec := by
  rcases ht with ⟨fields, rfl⟩ | ⟨elem, rfl⟩ | ⟨key, elem, rfl⟩
  · rw [compileDecoder] at h
    cases hf : (compileStructFields fl fields 0 [] :
        Except Error (List (List Nat × fieldInfo F))) with
    | error err => rw [hf] at h; cases h
    | ok fm =>
      rw [hf] at h
      cases h
      exact structDecoder_stable fm
        (compileStructFields_stable fl fields 0 [] fm (fun x hx => by cases hx) hf)
  · rw [compileDecoder] at h
    cases he : compileDecoder fl elem with
    | error err => rw [he] at h; cases h
    | ok elemDec =>
      rw [he] at h
      cases h
      exact sliceDecoder_stable _ elemDec (compileDecoder_stable fl elem elemDec he)
  · cases key with
    | string =>
      rw [compileDecoder] at h
      cases he : compileDecoder fl elem with
      | error err => rw [he] at h; cases h
      | ok elemDec =>
        rw [he] at h
        cases h
        exact mapDecoder_stable _ _ elemDec (compileDecoder_stable fl elem elemDec he)
    | definedString name =>
      rw [compileDecoder] at h
      cases he : compileDecoder fl elem with
      | error err => rw [he] at h; cases h
      | ok elemDec =>
        rw [he] at h
        cases h
        exact mapDecoder_stable _ _ elemDec (compileDecoder_stable fl elem elemDec he)
    | _ =>
      rw [compileDecoder] at h
      · cases h
      all_goals (intros; rename_i hh; cases hh)

/-! ## Well-formed UTF-8 and string bodies -/

theorem validUtf8_cons (b0 : Nat) (rest : List Nat) :
    validUtf8 (b0 :: rest) =
      if b0 < 128 then validUtf8 rest
      else if 194 ≤ b0 ∧ b0 ≤ 223 then
        match rest with
        | b1 :: rest => isCont b1 && validUtf8 rest
        | _ => false
      else if 224 ≤ b0 ∧ b0 ≤ 239 then
        match rest with
        | b1 :: b2 :: rest =>
          isCont b1 && decide ((b0 = 224 → 160 ≤ b1) ∧ (b0 = 237 → b1 ≤ 159)) && isCont b2 &&
            validUtf8 rest
        | _ => false
      else if 240 ≤ b0 ∧ b0 ≤ 244 then
        match rest with
        | b1 :: b2 :: b3 :: rest =>
          isCont b1 && decide ((b0 = 240 → 144 ≤ b1) ∧ (b0 = 244 → b1 ≤ 143)) && isCont b2 &&
            isCont b3 && validUtf8 rest
        | _ => false
      else false := by
  match rest with
  | [] => rfl
  | [_] => rfl
  | [_, _] => rfl
  | _ :: _ :: _ :: _ => rfl

theorem isStringBody_cons (c : Nat) (rest : List Nat) :
    isStringBody (c :: rest) =
      if c = 92 then
        match rest with
        | [] => false
        | e :: rest =>
          if e = 117 then
            match rest with
            | a :: b :: c :: d :: rest => (StrItem.uni a b c d).valid && isStringBody rest
            | _ => false
          else (StrItem.esc e).valid && isStringBody rest
      else (StrItem.raw c).valid && isStringBody rest := by
  match rest with
  | [] => rfl
  | [_] => rfl
  | [_, _] => rfl
  | [_, _, _] => rfl
  | [_, _, _, _] => rfl
  | _ :: _ :: _ :: _ :: _ :: _ => rfl

theorem validUtf8_append (b : List Nat) (hb : validUtf8 b = true) :
    ∀ (n : Nat) (a : List Nat), a.length ≤ n → validUtf8 a = true →
      validUtf8 (a ++ b) = true := by
  intro n
  induction n with
  | zero =>
    intro a hl _
    cases a with
    | nil => simpa using hb
    | cons c r => simp at hl
  | succ n ih =>
    intro a hl ha
    match a, hl, ha with
    | [], _, _ => simpa using hb
    | b0 :: rest, hl, ha =>
      simp only [List.length_cons] at hl
      rw [validUtf8_cons] at ha
      rw [List.cons_append, validUtf8_cons]
      by_cases h1 : b0 < 128
      · rw [if_pos h1] at ha ⊢
        exact ih rest (by omega) ha
      · rw [if_neg h1] at ha ⊢
        by_cases h2 : 194 ≤ b0 ∧ b0 ≤ 223
        · rw [if_pos h2] at ha ⊢
          match rest, hl, ha with
          | [], _, ha => cases ha
          | b1 :: rest, hl, ha =>
            simp only [List.length_cons] at hl
            simp only [List.cons_append, Bool.and_eq_true] at ha ⊢
            exact ⟨ha.1, ih rest (by omega) ha.2⟩
        · rw [if_neg h2] at ha ⊢
          by_cases h3 : 224 ≤ b0 ∧ b0 ≤ 239
          · rw [if_pos h3] at ha ⊢
            match rest, hl, ha with
            | [], _, ha => cases ha
            | [_], _, ha => cases ha
            | b1 :: b2 :: rest, hl, ha =>
              simp only [List.length_cons] at hl
              simp only [List.cons_append, Bool.and_eq_true] at ha ⊢
              exact ⟨ha.1, ih rest (by omega) ha.2⟩
          · rw [if_neg h3] at ha ⊢
            by_cases h4 : 240 ≤ b0 ∧ b0 ≤ 244
            · rw [if_pos h4] at ha ⊢
              match rest, hl, ha with
              | [], _, ha => cases ha
              | [_], _, ha => cases ha
              | [_, _], _, ha => cases ha
              | b1 :: b2 :: b3 :: rest, hl, ha =>
                simp only [List.length_cons] at hl
                simp only [List.cons_append, Bool.and_eq_true] at ha ⊢
                exact ⟨ha.1, ih rest (by omega) ha.2⟩
            · rw [if_neg h4] at ha
              cases ha

theorem validUtf8_add (a b : List Nat) (ha : validUtf8 a = true) (hb : validUtf8 b = true) :
    validUtf8 (a ++ b) = true :=
  validUtf8_append b hb a.length a (le_refl _) ha

theorem validUtf8_ascii : ∀ a : List Nat, (∀ c ∈ a, c < 128) → validUtf8 a = true
  | [], _ => rfl
  | c :: r, h => by
    rw [validUtf8_cons, if_pos (h c (List.mem_cons_self _ _))]
    exact validUtf8_ascii r (fun x hx => h x (List.mem_cons_of_mem _ hx))

theorem escapeByte_ascii (c : Nat) (h : c < 128) : ∀ x ∈ escapeByte c, x < 128 := by
  intro x hx
  unfold escapeByte at hx
  have hd : ∀ d, d < 16 → hexDigit d < 128 := by
    intro d hd
    unfold hexDigit
    split <;> omega
  split_ifs at hx with h1 h2 h3 h4 h5 h6 h7 h8
  all_goals simp only [List.mem_cons, List.mem_singleton, List.not_mem_nil, or_false] at hx
  all_goals try omega
  rcases hx with hx | hx | hx | hx | hx | hx
  · omega
  · omega
  · omega
  · omega
  · rw [hx]; exact hd _ (by omega)
  · rw [hx]; exact hd _ (by omega)

theorem escapeByte_high (c : Nat) (h : 128 ≤ c) : escapeByte c = [c] := by
  unfold escapeByte
  iterate 8 rw [if_neg (by omega)]

/-- Escaping keeps well-formed UTF-8 well-formed: the bytes below `80` become
bytes below `80`, the others stay as they are. -/
theorem validUtf8_escape :
    ∀ (n : Nat) (s : List Nat), s.length ≤ n → validUtf8 s = true →
      validUtf8 (s.flatMap escapeByte) = true := by
  intro n
  induction n with
  | zero =>
    intro s hl _
    cases s with
    | nil => rfl
    | cons c r => simp at hl
  | succ n ih =>
    intro s hl hs
    match s, hl, hs with
    | [], _, _ => rfl
    | b0 :: rest, hl, hs =>
      simp only [List.length_cons] at hl
      rw [validUtf8_cons] at hs
      by_cases h1 : b0 < 128
      · rw [if_pos h1] at hs
        rw [List.flatMap_cons]
        exact validUtf8_add _ _ (validUtf8_ascii _ (escapeByte_ascii b0 h1))
          (ih rest (by omega) hs)
      · rw [if_neg h1] at hs
        have e0 : escapeByte b0 = [b0] := escapeByte_high b0 (by omega)
        by_cases h2 : 194 ≤ b0 ∧ b0 ≤ 223
        · rw [if_pos h2] at hs
          match rest, hl, hs with
          | [], _, hs => cases hs
          | b1 :: rest, hl, hs =>
            simp only [List.length_cons] at hl
            simp only [Bool.and_eq_true] at hs
            have c1 : 128 ≤ b1 := by
              have := hs.1
              simp only [isCont, decide_eq_true_eq] at this
              exact this.1
            rw [List.flatMap_cons, List.flatMap_cons, e0, escapeByte_high b1 c1]
            simp only [List.singleton_append]
            rw [validUtf8_cons, if_neg h1, if_pos h2]
            simp only [Bool.and_eq_true]
            exact ⟨hs.1, ih rest (by omega) hs.2⟩
        · rw [if_neg h2] at hs
          by_cases h3 : 224 ≤ b0 ∧ b0 ≤ 239
          · rw [if_pos h3] at hs
            match rest, hl, hs with
            | [], _, hs => cases hs
            | [_], _, hs => cases hs
            | b1 :: b2 :: rest, hl, hs =>
              simp only [List.length_cons] at hl
              simp only [Bool.and_eq_true] at hs
              have c1 : 128 ≤ b1 := by
                have := hs.1.1.1
                simp only [isCont, decide_eq_true_eq] at this
                exact this.1
              have c2 : 128 ≤ b2 := by
                have := hs.1.2
                simp only [isCont, decide_eq_true_eq] at this
                exact this.1
              rw [List.flatMap_cons, List.flatMap_cons, List.flatMap_cons, e0,
                escapeByte_high b1 c1, escapeByte_high b2 c2]
              simp only [List.singleton_append]
              rw [validUtf8_cons, if_neg h1, if_neg h2, if_pos h3]
              simp only [Bool.and_eq_true]
              exact ⟨hs.1, ih rest (by omega) hs.2⟩
          · rw [if_neg h3] at hs
            by_cases h4 : 240 ≤ b0 ∧ b0 ≤ 244
            · rw [if_pos h4] at hs
              match rest, hl, hs with
              | [], _, hs => cases hs
              | [_], _, hs => cases hs
              | [_, _], _, hs => cases hs
              | b1 :: b2 :: b3 :: rest, hl, hs =>
                simp only [List.length_cons] at hl
                simp only [Bool.and_eq_true] at hs
                have c1 : 128 ≤ b1 := by
                  have := hs.1.1.1.1
                  simp only [isCont, decide_eq_true_eq] at this
                  exact this.1
                have c2 : 128 ≤ b2 := by
                  have := hs.1.1.2
                  simp only [isCont, decide_eq_true_eq] at this
                  exact this.1
                have c3 : 128 ≤ b3 := by
                  have := hs.1.2
                  simp only [isCont, decide_eq_true_eq] at this
                  exact this.1
                rw [List.flatMap_cons, List.flatMap_cons, List.flatMap_cons, List.flatMap_cons,
                  e0, escapeByte_high b1 c1, escapeByte_high b2 c2, escapeByte_high b3 c3]
                simp only [List.singleton_append]
                rw [validUtf8_cons, if_neg h1, if_neg h2, if_neg h3, if_pos h4]
                simp only [Bool.and_eq_true]
                exact ⟨hs.1, ih rest (by omega) hs.2⟩
            · rw [if_neg h4] at hs
              cases hs

/-- A body of a string literal is the text of a list of valid string
elements. -/
theorem isStringBody_items :
    ∀ (n : Nat) (name : List Nat), name.length ≤ n → isStringBody name = true →
      ∃ items : List StrItem, items.all StrItem.valid = true ∧ strText items = name := by
  intro n
  induction n with
  | zero =>
    intro name hl _
    cases name with
    | nil => exact ⟨[], rfl, rfl⟩
    | cons c r => simp at hl
  | succ n ih =>
    intro name hl hs
    match name, hl, hs with
    | [], _, _ => exact ⟨[], rfl, rfl⟩
    | c :: rest, hl, hs =>
      simp only [List.length_cons] at hl
      rw [isStringBody_cons] at hs
      by_cases h1 : c = 92
      · rw [if_pos h1] at hs
        subst h1
        match rest, hl, hs with
        | [], _, hs => cases hs
        | e :: rest, hl, hs =>
          simp only [List.length_cons] at hl
          simp only [] at hs
          by_cases h2 : e = 117
          · rw [if_pos h2] at hs
            subst h2
            match rest, hl, hs with
            | [], _, hs => cases hs
            | [_], _, hs => cases hs
            | [_, _], _, hs => cases hs
            | [_, _, _], _, hs => cases hs
            | a :: b :: c :: d :: rest, hl, hs =>
              simp only [List.length_cons] at hl
              simp only [Bool.and_eq_true] at hs
              obtain ⟨items, hv, ht⟩ := ih rest (by omega) hs.2
              refine ⟨.uni a b c d :: items, ?_, ?_⟩
              · rw [List.all_cons, hv, Bool.and_true]
                simpa [Bool.and_eq_true] using hs.1
              · simp only [strText, List.flatMap_cons, StrItem.text] at ht ⊢
                rw [ht]
                rfl
          · rw [if_neg h2] at hs
            simp only [Bool.and_eq_true] at hs
            obtain ⟨items, hv, ht⟩ := ih rest (by omega) hs.2
            refine ⟨.esc e :: items, ?_, ?_⟩
            · rw [List.all_cons, hv, Bool.and_true]
              exact hs.1
            · simp only [strText, List.flatMap_cons, StrItem.text] at ht ⊢
              rw [ht]
              rfl
      · rw [if_neg h1] at hs
        simp only [Bool.and_eq_true] at hs
        obtain ⟨items, hv, ht⟩ := ih rest (by omega) hs.2
        refine ⟨.raw c :: items, ?_, ?_⟩
        · rw [List.all_cons, hv, Bool.and_true]
          exact hs.1
        · simp only [strText, List.flatMap_cons, StrItem.text] at ht ⊢
          rw [ht]
          rfl

/-! ## The encoders write texts of the JSON grammar -/

theorem conformingFirst_getD {F : Type} (fl : FloatLib F) :
    ∀ (vs : List (Val F)) (n i : Nat), Val.ConformingFirst fl n vs → i < n →
      Val.Conforming fl (vs.getD i .nilIface)
  | [], n, i, _, _ => by
    rw [List.getD_nil, Val.Conforming]
    trivial
  | v :: vs, 0, i, _, hi => by omega
  | v :: vs, n + 1, 0, h, _ => by
    rw [Val.ConformingFirst] at h
    exact h.1
  | v :: vs, n + 1, i + 1, h, hi => by
    rw [Val.ConformingFirst] at h
    rw [List.getD_cons_succ]
    exact conformingFirst_getD fl vs n i h.2 (by omega)

theorem conformingFirst_all {F : Type} (fl : FloatLib F) (vs : List (Val F))
    (h : Val.ConformingFirst fl vs.length vs) (i : Nat) :
    Val.Conforming fl (vs.getD i .nilIface) := by
  by_cases hi : i < vs.length
  · exact conformingFirst_getD fl vs _ i h hi
  · rw [List.getD_eq_default _ _ (by omega), Val.Conforming]
    trivial

theorem encodeString_conforming {F : Type} (fl : FloatLib F) :
    ConformingEnc fl (encodeString : EncoderFunc F) := by
  intro w w' p _ h
  cases p with
  | str s =>
    simp only [encodeString, Except.ok.injEq] at h
    subst h
    refine ⟨.string (s.map byteItem), ?_, ?_⟩
    · simp [Json.valid, byteItem_valid]
    · rw [WriteStringEscaped_eq, Json.text, strText_byteItems]
  | _ => cases h

theorem int_conforming {F : Type} (n : Int) (hn : -9223372036854775808 ≤ n ∧
    n ≤ 9223372036854775807) (w : Writer) :
    ∃ j : Json, j.valid = true ∧ (w.WriteInt64 n).Buffer = w.Buffer ++ j.text := by
  obtain ⟨num, hv, ht, _, _⟩ := intNumber (F := F) n hn.1 hn.2
  refine ⟨.number num, by simpa [Json.valid] using hv, ?_⟩
  simp only [Writer.WriteInt64, Json.text, ht]
  rw [AppendInt_eq]

theorem encodeInt64_conforming {F : Type} (fl : FloatLib F) :
    ConformingEnc fl (encodeInt64 : EncoderFunc F) := by
  intro w w' p hp h
  cases p with
  | int n =>
    simp only [encodeInt64, Except.ok.injEq] at h
    subst h
    rw [Val.Conforming] at hp
    exact int_conforming (F := F) n hp w
  | _ => cases h

theorem encodeInt32_conforming {F : Type} (fl : FloatLib F) :
    ConformingEnc fl (encodeInt32 : EncoderFunc F) := by
  intro w w' p hp h
  cases p with
  | int n =>
    simp only [encodeInt32, Except.ok.injEq] at h
    subst h
    rw [Val.Conforming] at hp
    exact int_conforming (F := F) n hp w
  | _ => cases h

theorem encodeFloat64_conforming {F : Type} (fl : FloatLib F) :
    ConformingEnc fl (encodeFloat64 fl) := by
  intro w w' p hp h
  cases p with
  | float f =>
    simp only [encodeFloat64, Except.ok.injEq] at h
    subst h
    rw [Val.Conforming] at hp
    obtain ⟨n, hv, ht⟩ := hp
    refine ⟨.number n, by simpa [Json.valid] using hv, ?_⟩
    simp only [Writer.WriteFloat64, Json.text, ht]
  | _ => cases h

theorem encodeBool_conforming {F : Type} (fl : FloatLib F) :
    ConformingEnc fl (encodeBool : EncoderFunc F) := by
  intro w w' p _ h
  cases p with
  | bool b =>
    simp only [encodeBool, Except.ok.injEq] at h
    subst h
    refine ⟨.bool b, rfl, ?_⟩
    cases b <;> simp [Writer.WriteBool, Json.text]
  | _ => cases h

theorem ptrEncoder_conforming {F : Type} (fl : FloatLib F) (elemEnc : EncoderFunc F)
    (hel : ConformingEnc fl elemEnc) : ConformingEnc fl (ptrEncoder fl elemEnc) := by
  intro w w' p hp h
  cases p with
  | nilPtr =>
    simp only [ptrEncoder, Except.ok.injEq] at h
    subst h
    exact ⟨.null, rfl, rfl⟩
  | ptr v =>
    simp only [ptrEncoder] at h
    rw [Val.Conforming] at hp
    exact hel w w' v hp h
  | _ =>
    simp only [ptrEncoder] at h
    split at h
    · simp only [Except.ok.injEq] at h
      subst h
      exact ⟨.null, rfl, rfl⟩
    · cases h

theorem sliceEncodeLoop_conforming {F : Type} (fl : FloatLib F) (elemEnc : EncoderFunc F)
    (hel : ConformingEnc fl elemEnc) (store : List (Val F)) :
    ∀ (n i : Nat) (w w' : Writer),
      (∀ k, i ≤ k → k < i + n → Val.Conforming fl (store.getD k .nilIface)) →
      sliceEncodeLoop elemEnc store n i w = .ok w' →
      ∃ elems : List JsonElem, Json.elemsValid elems = true ∧
        w'.Buffer = w.Buffer ++ Json.elemsText (decide (i = 0)) elems := by
  intro n
  induction n with
  | zero =>
    intro i w w' _ h
    simp only [sliceEncodeLoop, Except.ok.injEq] at h
    subst h
    exact ⟨[], rfl, by simp [Json.elemsText]⟩
  | succ n ih =>
    intro i w w' hc h
    rw [sliceEncodeLoop] at h
    cases he : elemEnc (if i > 0 then w.WriteByte 44 else w) (store.getD i .nilIface) with
    | error err => rw [he] at h; cases h
    | ok w2 =>
      rw [he] at h
      simp only [] at h
      obtain ⟨j, hj, hb⟩ := hel _ _ _ (hc i (le_refl _) (by omega)) he
      obtain ⟨es, hes, hb2⟩ := ih (i + 1) w2 w' (fun k hk1 hk2 => hc k (by omega) (by omega)) h
      refine ⟨JsonElem.mk [] j [] :: es, ?_, ?_⟩
      · simp [Json.elemsValid, Json.elemValid, hj, hes]
      · rw [hb2, hb]
        by_cases hi : i = 0
        · subst hi
          simp [Json.elemsText, Json.elemText]
        · have : i > 0 := by omega
          simp [Json.elemsText, Json.elemText, hi, this, Writer.WriteByte]

theorem sliceEncoder_conforming {F : Type} (fl : FloatLib F) (elemEnc : EncoderFunc F)
    (hel : ConformingEnc fl elemEnc) : ConformingEnc fl (sliceEncoder elemEnc) := by
  intro w w' p hp h
  cases p with
  | nilSlice =>
    simp only [sliceEncoder, Except.ok.injEq] at h
    subst h
    exact ⟨.null, rfl, rfl⟩
  | slice len store =>
    simp only [sliceEncoder] at h
    rw [Val.Conforming] at hp
    cases hl : sliceEncodeLoop elemEnc store len 0 (w.WriteByte 91) with
    | error err => rw [hl] at h; cases h
    | ok w2 =>
      rw [hl] at h
      simp only [Except.ok.injEq] at h
      subst h
      obtain ⟨es, hes, hb⟩ := sliceEncodeLoop_conforming fl elemEnc hel store len 0 _ _
        (fun k _ hk => by
          by_cases hks : k < store.length
          · exact conformingFirst_getD fl store len k hp (by omega)
          · rw [List.getD_eq_default _ _ (by omega), Val.Conforming]
            trivial) hl
      refine ⟨.array [] es, by simp [Json.valid, hes], ?_⟩
      simp only [Writer.WriteByte, hb, Json.text]
      simp
  | _ => cases h

theorem mapEncodeLoop_conforming {F : Type} (fl : FloatLib F) (elemIsPtr : Bool)
    (elemEnv : EncoderFunc F) (hel : ConformingEnc fl elemEnv) :
    ∀ (entries : List (List Nat × Val F)) (first : Bool) (w w' : Writer),
      Val.ConformingEntries fl entries →
      mapEncodeLoop elemIsPtr elemEnv entries first w = .ok w' →
      ∃ ms : List JsonMember, Json.membersValid ms = true ∧
        w'.Buffer = w.Buffer ++ Json.membersText first ms
  | [], first, w, w', _, h => by
    simp only [mapEncodeLoop, Except.ok.injEq] at h
    subst h
    exact ⟨[], rfl, by simp [Json.membersText]⟩
  | (key, val) :: rest, first, w, w', hc, h => by
    rw [Val.ConformingEntries] at hc
    unfold mapEncodeLoop at h
    simp only [] at h
    have hstep : ∀ (x : Val F) (w2 : Writer), Val.Conforming fl x →
        elemEnv (((if ¬ first then w.WriteByte 44 else w).WriteStringEscaped key).WriteByte 58) x =
          .ok w2 →
        mapEncodeLoop elemIsPtr elemEnv rest false w2 = .ok w' →
        ∃ ms : List JsonMember, Json.membersValid ms = true ∧
          w'.Buffer = w.Buffer ++ Json.membersText first ms := by
      intro x w2 hx he hl
      obtain ⟨j, hj, hb⟩ := hel _ _ _ hx he
      obtain ⟨ms, hms, hb2⟩ := mapEncodeLoop_conforming fl elemIsPtr elemEnv hel rest false w2 w'
        hc.2.2 hl
      refine ⟨JsonMember.mk [] (key.map byteItem) [] [] j [] :: ms, ?_, ?_⟩
      · simp [Json.membersValid, Json.memberValid, hj, hms, byteItem_valid]
      · rw [hb2, hb]
        simp only [Writer.WriteByte, WriteStringEscaped_eq, Json.membersText, memberText_entry]
        cases first <;> simp
    by_cases hp : elemIsPtr = true
    · rw [if_pos hp] at h
      cases val with
      | ptr pointee =>
        simp only [] at h
        cases he : elemEnv (((if ¬ first then w.WriteByte 44 else w).WriteStringEscaped
            key).WriteByte 58) pointee with
        | error err => rw [he] at h; cases h
        | ok w2 =>
          rw [he] at h
          have hx : Val.Conforming fl pointee := by
            have := hc.2.1
            rw [Val.Conforming] at this
            exact this
          exact hstep pointee w2 hx he h
      | _ => cases h
    · rw [if_neg hp] at h
      cases he : elemEnv (((if ¬ first then w.WriteByte 44 else w).WriteStringEscaped
          key).WriteByte 58) val with
      | error err => rw [he] at h; cases h
      | ok w2 =>
        rw [he] at h
        exact hstep val w2 hc.2.1 he h

theorem mapEncoder_conforming {F : Type} (fl : FloatLib F) (elemIsPtr : Bool)
    (elemEnv : EncoderFunc F) (hel : ConformingEnc fl elemEnv) :
    ConformingEnc fl (mapEncoder elemIsPtr elemEnv) := by
  intro w w' p hp h
  cases p with
  | nilMap =>
    simp only [mapEncoder, Except.ok.injEq] at h
    subst h
    exact ⟨.null, rfl, rfl⟩
  | map entries =>
    simp only [mapEncoder] at h
    rw [Val.Conforming] at hp
    cases hl : mapEncodeLoop elemIsPtr elemEnv entries true (w.WriteByte 123) with
    | error err => rw [hl] at h; cases h
    | ok w2 =>
      rw [hl] at h
      simp only [Except.ok.injEq] at h
      subst h
      obtain ⟨ms, hms, hb⟩ := mapEncodeLoop_conforming fl elemIsPtr elemEnv hel entries true _ _
        hp hl
      refine ⟨.object [] ms, by simp [Json.valid, hms], ?_⟩
      simp only [Writer.WriteByte, hb, Json.text]
      simp
  | _ => cases h

theorem structEncodeLoop_conforming {F : Type} (fl : FloatLib F) (vals : List (Val F))
    (hv : ∀ i, Val.Conforming fl (vals.getD i .nilIface)) :
    ∀ (plans : List (structFieldEncoder F)) (first : Bool) (w w' : Writer),
      ConformingPlans fl first plans → structEncodeLoop plans w vals = .ok w' →
      ∃ ms : List JsonMember, Json.membersValid ms = true ∧
        w'.Buffer = w.Buffer ++ Json.membersText first ms
  | [], first, w, w', _, h => by
    simp only [structEncodeLoop, Except.ok.injEq] at h
    subst h
    exact ⟨[], rfl, by simp [Json.membersText]⟩
  | pl :: rest, first, w, w', hc, h => by
    rw [ConformingPlans] at hc
    obtain ⟨⟨hel, items, hitems, hkey⟩, hrest⟩ := hc
    rw [structEncodeLoop] at h
    cases he : pl.encoder (w.Write pl.key) (vals.getD pl.offset .nilIface) with
    | error err => rw [he] at h; cases h
    | ok w2 =>
      rw [he] at h
      simp only [] at h
      obtain ⟨j, hj, hb⟩ := hel _ _ _ (hv pl.offset) he
      obtain ⟨ms, hms, hb2⟩ := structEncodeLoop_conforming fl vals hv rest false w2 w' hrest h
      refine ⟨JsonMember.mk [] items [] [] j [] :: ms, ?_, ?_⟩
      · simp only [Json.membersValid, Json.memberValid, hj, hms, hitems, Bool.and_true]
        rfl
      · rw [hb2, hb]
        simp only [Writer.Write, hkey, planKey, Json.membersText, Json.memberText]
        cases first <;> simp

theorem structEncoder_conforming {F : Type} (fl : FloatLib F)
    (plans : List (structFieldEncoder F)) (hpl : ConformingPlans fl true plans) :
    ConformingEnc fl (structEncoder plans) := by
  intro w w' p hp h
  cases p with
  | struct vals =>
    simp only [structEncoder] at h
    rw [Val.Conforming] at hp
    cases hl : structEncodeLoop plans (w.WriteByte 123) vals with
    | error err => rw [hl] at h; cases h
    | ok w2 =>
      rw [hl] at h
      simp only [Except.ok.injEq] at h
      subst h
      obtain ⟨ms, hms, hb⟩ := structEncodeLoop_conforming fl vals (conformingFirst_all fl vals hp)
        plans true _ _ hpl hl
      refine ⟨.object [] ms, by simp [Json.valid, hms], ?_⟩
      simp only [Writer.WriteByte, hb, Json.text]
      simp
  | _ => cases h

theorem conformingPlans_append {F : Type} (fl : FloatLib F) (pl : structFieldEncoder F) :
    ∀ (acc : List (structFieldEncoder F)) (first : Bool), ConformingPlans fl first acc →
      ConformingEnc fl pl.encoder →
      (∃ items : List StrItem, items.all StrItem.valid = true ∧
        pl.key = planKey (first && acc.isEmpty) (strText items)) →
      ConformingPlans fl first (acc ++ [pl])
  | [], first, _, h1, h2 => by
    rw [List.nil_append, ConformingPlans, ConformingPlans]
    simp only [List.isEmpty_nil, Bool.and_true] at h2
    exact ⟨⟨h1, h2⟩, trivial⟩
  | a :: acc, first, hacc, h1, h2 => by
    rw [ConformingPlans] at hacc
    rw [List.cons_append, ConformingPlans]
    refine ⟨hacc.1, conformingPlans_append fl pl acc false hacc.2 h1 ?_⟩
    simpa using h2

mutual
/-- Every routine of the encoder compiler, for a type with well-formed wire names,
writes texts of the JSON grammar, given that the routine for interface values
does. -/
theorem compileEncoderWith_conforming {F : Type} (fl : FloatLib F) (encIface : EncoderFunc F)
    (hI : ConformingEnc fl encIface) :
    ∀ (t : Ty) (enc : EncoderFunc F), t.namesWellFormed = true →
      compileEncoderWith fl encIface t = .ok enc → ConformingEnc fl enc
  | .string, enc, _, h => by
    rw [compileEncoderWith] at h
    cases h
    exact encodeString_conforming fl
  | .definedString _, enc, _, h => by
    rw [compileEncoderWith] at h
    cases h
    exact encodeString_conforming fl
  | .int, enc, _, h => by
    rw [compileEncoderWith] at h
    cases h
    exact encodeInt64_conforming fl
  | .int64, enc, _, h => by
    rw [compileEncoderWith] at h
    cases h
    exact encodeInt64_conforming fl
  | .int32, enc, _, h => by
    rw [compileEncoderWith] at h
    cases h
    exact encodeInt32_conforming fl
  | .float64, enc, _, h => by
    rw [compileEncoderWith] at h
    cases h
    exact encodeFloat64_conforming fl
  | .bool, enc, _, h => by
    rw [compileEncoderWith] at h
    cases h
    exact encodeBool_conforming fl
  | .iface, enc, _, h => by
    rw [compileEncoderWith] at h
    cases h
    exact hI
  | .struct fields, enc, hn, h => by
    rw [compileEncoderWith] at h
    rw [Ty.namesWellFormed] at hn
    cases hf : (compileStructEncFields fl encIface fields 0 [] :
        Except Error (List (structFieldEncoder F))) with
    | error err => rw [hf] at h; cases h
    | ok plans =>
      rw [hf] at h
      cases h
      exact structEncoder_conforming fl plans
        (compileStructEncFields_conforming fl encIface hI fields 0 [] plans hn trivial hf)
  | .slice elem, enc, hn, h => by
    rw [compileEncoderWith] at h
    rw [Ty.namesWellFormed] at hn
    cases he : compileEncoderWith fl encIface elem with
    | error err => rw [he] at h; cases h
    | ok elemEnc =>
      rw [he] at h
      cases h
      exact sliceEncoder_conforming fl elemEnc
        (compileEncoderWith_conforming fl encIface hI elem elemEnc hn he)
  | .map key elem, enc, hn, h => by
    rw [Ty.namesWellFormed] at hn
    cases key with
    | string =>
      rw [compileEncoderWith] at h
      cases he : compileEncoderWith fl encIface elem with
      | error err => rw [he] at h; cases h
      | ok elemEnc =>
        rw [he] at h
        cases h
        exact mapEncoder_conforming fl _ elemEnc
          (compileEncoderWith_conforming fl encIface hI elem elemEnc hn he)
    | definedString name =>
      rw [compileEncoderWith] at h
      cases he : compileEncoderWith fl encIface elem with
      | error err => rw [he] at h; cases h
      | ok elemEnc =>
        rw [he] at h
        cases h
        exact mapEncoder_conforming fl _ elemEnc
          (compileEncoderWith_conforming fl encIface hI elem elemEnc hn he)
    | _ =>
      rw [compileEncoderWith] at h
      · cases h
      all_goals (intros; rename_i hh; cases hh)
  | .ptr elem, enc, hn, h => by
    rw [compileEncoderWith] at h
    rw [Ty.namesWellFormed] at hn
    cases he : compileEncoderWith fl encIface elem with
    | error err => rw [he] at h; cases h
    | ok elemEnc =>
      rw [he] at h
      cases h
      exact ptrEncoder_conforming fl elemEnc
        (compileEncoderWith_conforming fl encIface hI elem elemEnc hn he)
  | .other kind, enc, _, h => by
    rw [compileEncoderWith] at h
    cases h
theorem compileStructEncFields_conforming {F : Type} (fl : FloatLib F)
    (encIface : EncoderFunc F) (hI : ConformingEnc fl encIface) :
    ∀ (fields : List Field) (i : Nat) (acc plans : List (structFieldEncoder F)),
      Ty.namesWellFormedFields fields = true → ConformingPlans fl true acc →
      compileStructEncFields fl encIface fields i acc = .ok plans →
      ConformingPlans fl true plans
  | [], i, acc, plans, _, hacc, h => by
    rw [compileStructEncFields] at h
    cases h
    exact hacc
  | f :: fs, i, acc, plans, hn, hacc, h => by
    rw [compileStructEncFields] at h
    rw [Ty.namesWellFormedFields, Bool.and_eq_true] at hn
    cases hf : (compileStructEncField fl encIface f i acc :
        Except Error (List (structFieldEncoder F))) with
    | error err => rw [hf] at h; cases h
    | ok acc1 =>
      rw [hf] at h
      exact compileStructEncFields_conforming fl encIface hI fs (i + 1) acc1 plans hn.2
        (compileStructEncField_conforming fl encIface hI f i acc acc1 hn.1 hacc hf) h
theorem compileStructEncField_conforming {F : Type} (fl : FloatLib F)
    (encIface : EncoderFunc F) (hI : ConformingEnc fl encIface) :
    ∀ (f : Field) (i : Nat) (acc plans : List (structFieldEncoder F)),
      Ty.namesWellFormedField f = true → ConformingPlans fl true acc →
      compileStructEncField fl encIface f i acc = .ok plans →
      ConformingPlans fl true plans
  | .mk name tag type, i, acc, plans, hn, hacc, h => by
    rw [compileStructEncField] at h
    rw [Ty.namesWellFormedField] at hn
    by_cases ht : tag = [45]
    · rw [if_pos ht] at h
      cases h
      exact hacc
    · rw [if_neg ht] at h
      have hn2 : (isStringBody (wireName name tag) = true ∧
          validUtf8 (wireName name tag) = true) ∧ type.namesWellFormed = true := by
        simpa [ht] using hn
      obtain ⟨items, hitems, htext⟩ := isStringBody_items _ _ (le_refl _) hn2.1.1
      cases he : compileEncoderWith fl encIface type with
      | error err => rw [he] at h; cases h
      | ok enc =>
        rw [he] at h
        simp only [Except.ok.injEq] at h
        subst h
        refine conformingPlans_append fl _ acc true hacc
          (compileEncoderWith_conforming fl encIface hI type enc hn2.2 he)
          ⟨items, hitems, ?_⟩
        rw [htext]
        cases acc with
        | nil => rfl
        | cons a acc => simp [planKey]
end

theorem number_ascii (n : JsonNumber) (hv : n.valid = true) : ∀ c ∈ n.text, c < 128 := by
  intro c hc
  have := (JsonNumber.text_numberBytes n hv).2 c hc
  simp only [isNumberByte, decide_eq_true_eq] at this
  omega

theorem encodeString_utf8 {F : Type} (fl : FloatLib F) :
    Utf8Enc fl (encodeString : EncoderFunc F) := by
  intro w w' p hp hw h
  cases p with
  | str s =>
    simp only [encodeString, Except.ok.injEq] at h
    subst h
    rw [Val.Conforming] at hp
    rw [WriteStringEscaped_eq]
    refine validUtf8_add _ _ hw ?_
    rw [validUtf8_cons, if_pos (by omega)]
    exact validUtf8_add _ _ (validUtf8_escape s.length s (le_refl _) hp) rfl
  | _ => cases h

theorem int_utf8 {F : Type} (n : Int) (hn : -9223372036854775808 ≤ n ∧
    n ≤ 9223372036854775807) (w : Writer) (hw : validUtf8 w.Buffer = true) :
    validUtf8 (w.WriteInt64 n).Buffer = true := by
  obtain ⟨num, hv, ht, _, _⟩ := intNumber (F := F) n hn.1 hn.2
  simp only [Writer.WriteInt64]
  rw [AppendInt_eq, ← ht]
  exact validUtf8_add _ _ hw (validUtf8_ascii _ (number_ascii num hv))

theorem encodeInt64_utf8 {F : Type} (fl : FloatLib F) :
    Utf8Enc fl (encodeInt64 : EncoderFunc F) := by
  intro w w' p hp hw h
  cases p with
  | int n =>
    simp only [encodeInt64, Except.ok.injEq] at h
    subst h
    rw [Val.Conforming] at hp
    exact int_utf8 (F := F) n hp w hw
  | _ => cases h

theorem encodeInt32_utf8 {F : Type} (fl : FloatLib F) :
    Utf8Enc fl (encodeInt32 : EncoderFunc F) := by
  intro w w' p hp hw h
  cases p with
  | int n =>
    simp only [encodeInt32, Except.ok.injEq] at h
    subst h
    rw [Val.Conforming] at hp
    exact int_utf8 (F := F) n hp w hw
  | _ => cases h

theorem encodeFloat64_utf8 {F : Type} (fl : FloatLib F) : Utf8Enc fl (encodeFloat64 fl) := by
  intro w w' p hp hw h
  cases p with
  | float f =>
    simp only [encodeFloat64, Except.ok.injEq] at h
    subst h
    rw [Val.Conforming] at hp
    obtain ⟨n, hv, ht⟩ := hp
    simp only [Writer.WriteFloat64, ht]
    exact validUtf8_add _ _ hw (validUtf8_ascii _ (number_ascii n hv))
  | _ => cases h

theorem writeNull_utf8 (w : Writer) (hw : validUtf8 w.Buffer = true) :
    validUtf8 w.WriteNull.Buffer = true :=
  validUtf8_add _ _ hw rfl

theorem writeByte_utf8 (w : Writer) (c : Nat) (hc : c < 128) (hw : validUtf8 w.Buffer = true) :
    validUtf8 (w.WriteByte c).Buffer = true :=
  validUtf8_add _ _ hw (by rw [validUtf8_cons, if_pos hc]; rfl)

theorem encodeBool_utf8 {F : Type} (fl : FloatLib F) :
    Utf8Enc fl (encodeBool : EncoderFunc F) := by
  intro w w' p _ hw h
  cases p with
  | bool b =>
    simp only [encodeBool, Except.ok.injEq] at h
    subst h
    cases b
    · exact validUtf8_add _ _ hw rfl
    · exact validUtf8_add _ _ hw rfl
  | _ => cases h

theorem ptrEncoder_utf8 {F : Type} (fl : FloatLib F) (elemEnc : EncoderFunc F)
    (hel : Utf8Enc fl elemEnc) : Utf8Enc fl (ptrEncoder fl elemEnc) := by
  intro w w' p hp hw h
  cases p with
  | nilPtr =>
    simp only [ptrEncoder, Except.ok.injEq] at h
    subst h
    exact writeNull_utf8 w hw
  | ptr v =>
    simp only [ptrEncoder] at h
    rw [Val.Conforming] at hp
    exact hel w w' v hp hw h
  | _ =>
    simp only [ptrEncoder] at h
    split at h
    · simp only [Except.ok.injEq] at h
      subst h
      exact writeNull_utf8 w hw
    · cases h

theorem sliceEncodeLoop_utf8 {F : Type} (fl : FloatLib F) (elemEnc : EncoderFunc F)
    (hel : Utf8Enc fl elemEnc) (store : List (Val F)) :
    ∀ (n i : Nat) (w w' : Writer),
      (∀ k, i ≤ k → k < i + n → Val.Conforming fl (store.getD k .nilIface)) →
      validUtf8 w.Buffer = true →
      sliceEncodeLoop elemEnc store n i w = .ok w' → validUtf8 w'.Buffer = true := by
  intro n
  induction n with
  | zero =>
    intro i w w' _ hw h
    simp only [sliceEncodeLoop, Except.ok.injEq] at h
    subst h
    exact hw
  | succ n ih =>
    intro i w w' hc hw h
    rw [sliceEncodeLoop] at h
    cases he : elemEnc (if i > 0 then w.WriteByte 44 else w) (store.getD i .nilIface) with
    | error err => rw [he] at h; cases h
    | ok w2 =>
      rw [he] at h
      simp only [] at h
      have hw1 : validUtf8 (if i > 0 then w.WriteByte 44 else w).Buffer = true := by
        split
        · exact writeByte_utf8 w 44 (by omega) hw
        · exact hw
      exact ih (i + 1) w2 w' (fun k hk1 hk2 => hc k (by omega) (by omega))
        (hel _ _ _ (hc i (le_refl _) (by omega)) hw1 he) h

theorem sliceEncoder_utf8 {F : Type} (fl : FloatLib F) (elemEnc : EncoderFunc F)
    (hel : Utf8Enc fl elemEnc) : Utf8Enc fl (sliceEncoder elemEnc) := by
  intro w w' p hp hw h
  cases p with
  | nilSlice =>
    simp only [sliceEncoder, Except.ok.injEq] at h
    subst h
    exact writeNull_utf8 w hw
  | slice len store =>
    simp only [sliceEncoder] at h
    rw [Val.Conforming] at hp
    cases hl : sliceEncodeLoop elemEnc store len 0 (w.WriteByte 91) with
    | error err => rw [hl] at h; cases h
    | ok w2 =>
      rw [hl] at h
      simp only [Except.ok.injEq] at h
      subst h
      refine writeByte_utf8 w2 93 (by omega) ?_
      exact sliceEncodeLoop_utf8 fl elemEnc hel store len 0 _ _
        (fun k _ hk => by
          by_cases hks : k < store.length
          · exact conformingFirst_getD fl store len k hp (by omega)
          · rw [List.getD_eq_default _ _ (by omega), Val.Conforming]
            trivial) (writeByte_utf8 w 91 (by omega) hw) hl
  | _ => cases h

theorem mapEncodeLoop_utf8 {F : Type} (fl : FloatLib F) (elemIsPtr : Bool)
    (elemEnv : EncoderFunc F) (hel : Utf8Enc fl elemEnv) :
    ∀ (entries : List (List Nat × Val F)) (first : Bool) (w w' : Writer),
      Val.ConformingEntries fl entries → validUtf8 w.Buffer = true →
      mapEncodeLoop elemIsPtr elemEnv entries first w = .ok w' → validUtf8 w'.Buffer = true
  | [], first, w, w', _, hw, h => by
    simp only [mapEncodeLoop, Except.ok.injEq] at h
    subst h
    exact hw
  | (key, val) :: rest, first, w, w', hc, hw, h => by
    rw [Val.ConformingEntries] at hc
    unfold mapEncodeLoop at h
    simp only [] at h
    have hw1 : validUtf8 (((if ¬ first then w.WriteByte 44 else w).WriteStringEscaped
        key).WriteByte 58).Buffer = true := by
      refine writeByte_utf8 _ 58 (by omega) ?_
      rw [WriteStringEscaped_eq]
      refine validUtf8_add _ _ ?_ ?_
      · split
        · exact writeByte_utf8 w 44 (by omega) hw
        · exact hw
      · rw [validUtf8_cons, if_pos (by omega)]
        exact validUtf8_add _ _ (validUtf8_escape key.length key (le_refl _) hc.1) rfl
    by_cases hp : elemIsPtr = true
    · rw [if_pos hp] at h
      cases val with
      | ptr pointee =>
        simp only [] at h
        cases he : elemEnv (((if ¬ first then w.WriteByte 44 else w).WriteStringEscaped
            key).WriteByte 58) pointee with
        | error err => rw [he] at h; cases h
        | ok w2 =>
          rw [he] at h
          have hx : Val.Conforming fl pointee := by
            have := hc.2.1
            rw [Val.Conforming] at this
            exact this
          exact mapEncodeLoop_utf8 fl elemIsPtr elemEnv hel rest false w2 w' hc.2.2
            (hel _ _ _ hx hw1 he) h
      | _ => cases h
    · rw [if_neg hp] at h
      cases he : elemEnv (((if ¬ first then w.WriteByte 44 else w).WriteStringEscaped
          key).WriteByte 58) val with
      | error err => rw [he] at h; cases h
      | ok w2 =>
        rw [he] at h
        exact mapEncodeLoop_utf8 fl elemIsPtr elemEnv hel rest false w2 w' hc.2.2
          (hel _ _ _ hc.2.1 hw1 he) h

theorem mapEncoder_utf8 {F : Type} (fl : FloatLib F) (elemIsPtr : Bool)
    (elemEnv : EncoderFunc F) (hel : Utf8Enc fl elemEnv) :
    Utf8Enc fl (mapEncoder elemIsPtr elemEnv) := by
  intro w w' p hp hw h
  cases p with
  | nilMap =>
    simp only [mapEncoder, Except.ok.injEq] at h
    subst h
    exact writeNull_utf8 w hw
  | map entries =>
    simp only [mapEncoder] at h
    rw [Val.Conforming] at hp
    cases hl : mapEncodeLoop elemIsPtr elemEnv entries true (w.WriteByte 123) with
    | error err => rw [hl] at h; cases h
    | ok w2 =>
      rw [hl] at h
      simp only [Except.ok.injEq] at h
      subst h
      exact writeByte_utf8 w2 125 (by omega)
        (mapEncodeLoop_utf8 fl elemIsPtr elemEnv hel entries true _ _ hp
          (writeByte_utf8 w 123 (by omega) hw) hl)
  | _ => cases h

theorem structEncodeLoop_utf8 {F : Type} (fl : FloatLib F) (vals : List (Val F))
    (hv : ∀ i, Val.Conforming fl (vals.getD i .nilIface)) :
    ∀ (plans : List (structFieldEncoder F)) (w w' : Writer),
      Utf8Plans fl plans → validUtf8 w.Buffer = true →
      structEncodeLoop plans w vals = .ok w' → validUtf8 w'.Buffer = true
  | [], w, w', _, hw, h => by
    simp only [structEncodeLoop, Except.ok.injEq] at h
    subst h
    exact hw
  | pl :: rest, w, w', hc, hw, h => by
    rw [Utf8Plans] at hc
    rw [structEncodeLoop] at h
    cases he : pl.encoder (w.Write pl.key) (vals.getD pl.offset .nilIface) with
    | error err => rw [he] at h; cases h
    | ok w2 =>
      rw [he] at h
      simp only [] at h
      exact structEncodeLoop_utf8 fl vals hv rest w2 w' hc.2
        (hc.1.1 _ _ _ (hv pl.offset) (validUtf8_add _ _ hw hc.1.2) he) h

theorem structEncoder_utf8 {F : Type} (fl : FloatLib F)
    (plans : List (structFieldEncoder F)) (hpl : Utf8Plans fl plans) :
    Utf8Enc fl (structEncoder plans) := by
  intro w w' p hp hw h
  cases p with
  | struct vals =>
    simp only [structEncoder] at h
    rw [Val.Conforming] at hp
    cases hl : structEncodeLoop plans (w.WriteByte 123) vals with
    | error err => rw [hl] at h; cases h
    | ok w2 =>
      rw [hl] at h
      simp only [Except.ok.injEq] at h
      subst h
      exact writeByte_utf8 w2 125 (by omega)
        (structEncodeLoop_utf8 fl vals (conformingFirst_all fl vals hp) plans _ _ hpl
          (writeByte_utf8 w 123 (by omega) hw) hl)
  | _ => cases h

theorem utf8Plans_append {F : Type} (fl : FloatLib F) (pl : structFieldEncoder F) :
    ∀ (acc : List (structFieldEncoder F)), Utf8Plans fl acc → Utf8Enc fl pl.encoder →
      validUtf8 pl.key = true → Utf8Plans fl (acc ++ [pl])
  | [], _, h1, h2 => by
    rw [List.nil_append, Utf8Plans, Utf8Plans]
    exact ⟨⟨h1, h2⟩, trivial⟩
  | a :: acc, hacc, h1, h2 => by
    rw [Utf8Plans] at hacc
    rw [List.cons_append, Utf8Plans]
    exact ⟨hacc.1, utf8Plans_append fl pl acc hacc.2 h1 h2⟩

theorem planKey_utf8 (first : Bool) (name : List Nat) (h : validUtf8 name = true) :
    validUtf8 (planKey first name) = true := by
  unfold planKey
  refine validUtf8_add _ _ (validUtf8_add _ _ ?_ h) rfl
  cases first <;> rfl

mutual
/-- Every routine of the encoder compiler, for a type with well-formed wire
names, keeps the buffer well-formed UTF-8, given that the routine for
interface values does. -/
theorem compileEncoderWith_utf8 {F : Type} (fl : FloatLib F) (encIface : EncoderFunc F)
    (hI : Utf8Enc fl encIface) :
    ∀ (t : Ty) (enc : EncoderFunc F), t.namesWellFormed = true →
      compileEncoderWith fl encIface t = .ok enc → Utf8Enc fl enc
  | .string, enc, _, h => by
    rw [compileEncoderWith] at h
    cases h
    exact encodeString_utf8 fl
  | .definedString _, enc, _, h => by
    rw [compileEncoderWith] at h
    cases h
    exact encodeString_utf8 fl
  | .int, enc, _, h => by
    rw [compileEncoderWith] at h
    cases h
    exact encodeInt64_utf8 fl
  | .int64, enc, _, h => by
    rw [compileEncoderWith] at h
    cases h
    exact encodeInt64_utf8 fl
  | .int32, enc, _, h => by
    rw [compileEncoderWith] at h
    cases h
    exact encodeInt32_utf8 fl
  | .float64, enc, _, h => by
    rw [compileEncoderWith] at h
    cases h
    exact encodeFloat64_utf8 fl
  | .bool, enc, _, h => by
    rw [compileEncoderWith] at h
    cases h
    exact encodeBool_utf8 fl
  | .iface, enc, _, h => by
    rw [compileEncoderWith] at h
    cases h
    exact hI
  | .struct fields, enc, hn, h => by
    rw [compileEncoderWith] at h
    rw [Ty.namesWellFormed] at hn
    cases hf : (compileStructEncFields fl encIface fields 0 [] :
        Except Error (List (structFieldEncoder F))) with
    | error err => rw [hf] at h; cases h
    | ok plans =>
      rw [hf] at h
      cases h
      exact structEncoder_utf8 fl plans
        (compileStructEncFields_utf8 fl encIface hI fields 0 [] plans hn trivial hf)
  | .slice elem, enc, hn, h => by
    rw [compileEncoderWith] at h
    rw [Ty.namesWellFormed] at hn
    cases he : compileEncoderWith fl encIface elem with
    | error err => rw [he] at h; cases h
    | ok elemEnc =>
      rw [he] at h
      cases h
      exact sliceEncoder_utf8 fl elemEnc
        (compileEncoderWith_utf8 fl encIface hI elem elemEnc hn he)
  | .map key elem, enc, hn, h => by
    rw [Ty.namesWellFormed] at hn
    cases key with
    | string =>
      rw [compileEncoderWith] at h
      cases he : compileEncoderWith fl encIface elem with
      | error err => rw [he] at h; cases h
      | ok elemEnc =>
        rw [he] at h
        cases h
        exact mapEncoder_utf8 fl _ elemEnc
          (compileEncoderWith_utf8 fl encIface hI elem elemEnc hn he)
    | definedString name =>
      rw [compileEncoderWith] at h
      cases he : compileEncoderWith fl encIface elem with
      | error err => rw [he] at h; cases h
      | ok elemEnc =>
        rw [he] at h
        cases h
        exact mapEncoder_utf8 fl _ elemEnc
          (compileEncoderWith_utf8 fl encIface hI elem elemEnc hn he)
    | _ =>
      rw [compileEncoderWith] at h
      · cases h
      all_goals (intros; rename_i hh; cases hh)
  | .ptr elem, enc, hn, h => by
    rw [compileEncoderWith] at h
    rw [Ty.namesWellFormed] at hn
    cases he : compileEncoderWith fl encIface elem with
    | error err => rw [he] at h; cases h
    | ok elemEnc =>
      rw [he] at h
      cases h
      exact ptrEncoder_utf8 fl elemEnc
        (compileEncoderWith_utf8 fl encIface hI elem elemEnc hn he)
  | .other kind, enc, _, h => by
    rw [compileEncoderWith] at h
    cases h
theorem compileStructEncFields_utf8 {F : Type} (fl : FloatLib F)
    (encIface : EncoderFunc F) (hI : Utf8Enc fl encIface) :
    ∀ (fields : List Field) (i : Nat) (acc plans : List (structFieldEncoder F)),
      Ty.namesWellFormedFields fields = true → Utf8Plans fl acc →
      compileStructEncFields fl encIface fields i acc = .ok plans → Utf8Plans fl plans
  | [], i, acc, plans, _, hacc, h => by
    rw [compileStructEncFields] at h
    cases h
    exact hacc
  | f :: fs, i, acc, plans, hn, hacc, h => by
    rw [compileStructEncFields] at h
    rw [Ty.namesWellFormedFields, Bool.and_eq_true] at hn
    cases hf : (compileStructEncField fl encIface f i acc :
        Except Error (List (structFieldEncoder F))) with
    | error err => rw [hf] at h; cases h
    | ok acc1 =>
      rw [hf] at h
      exact compileStructEncFields_utf8 fl encIface hI fs (i + 1) acc1 plans hn.2
        (compileStructEncField_utf8 fl encIface hI f i acc acc1 hn.1 hacc hf) h
theorem compileStructEncField_utf8 {F : Type} (fl : FloatLib F)
    (encIface : EncoderFunc F) (hI : Utf8Enc fl encIface) :
    ∀ (f : Field) (i : Nat) (acc plans : List (structFieldEncoder F)),
      Ty.namesWellFormedField f = true → Utf8Plans fl acc →
      compileStructEncField fl encIface f i acc = .ok plans → Utf8Plans fl plans
  | .mk name tag type, i, acc, plans, hn, hacc, h => by
    rw [compileStructEncField] at h
    rw [Ty.namesWellFormedField] at hn
    by_cases ht : tag = [45]
    · rw [if_pos ht] at h
      cases h
      exact hacc
    · rw [if_neg ht] at h
      have hn2 : (isStringBody (wireName name tag) = true ∧
          validUtf8 (wireName name tag) = true) ∧ type.namesWellFormed = true := by
        simpa [ht] using hn
      cases he : compileEncoderWith fl encIface type with
      | error err => rw [he] at h; cases h
      | ok enc =>
        rw [he] at h
        simp only [Except.ok.injEq] at h
        subst h
        refine utf8Plans_append fl _ acc hacc
          (compileEncoderWith_utf8 fl encIface hI type enc hn2.2 he) ?_
        cases acc with
        | nil => exact planKey_utf8 true (wireName name tag) hn2.1.2
        | cons a acc =>
          have := planKey_utf8 false (wireName name tag) hn2.1.2
          simpa [planKey] using this
end

theorem naiveSkipWhitespaceLoop_eq (data : List Nat) (fuel i : Nat)
    (hf : data.length - i ≤ fuel) :
    naiveSkipWhitespaceLoop data fuel i = i + ((data.drop i).takeWhile isWhiteSpace).length := by
  induction fuel generalizing i with
  | zero =>
    have : data.length ≤ i := by omega
    simp [naiveSkipWhitespaceLoop, List.drop_eq_nil_of_le this]
  | succ fuel ih =>
    unfold naiveSkipWhitespaceLoop
    by_cases hlt : i < data.length
    · rw [if_pos hlt, drop_eq_cons_getD _ _ hlt]
      simp only []
      generalize data.getD i 0 = c
      cases hw : isWhiteSpace c
      · rw [if_neg (by rw [← isWhiteSpace_iff, hw]; simp)]
        simp [List.takeWhile_cons, hw]
      · rw [if_pos ((isWhiteSpace_iff c).mp hw), ih (i + 1) (by omega)]
        simp [List.takeWhile_cons, hw]; omega
    · have : data.length ≤ i := by omega
      simp [hlt, List.drop_eq_nil_of_le this]

theorem naiveSkipWhitespace_eq (data : List Nat) :
    naiveSkipWhitespace data = (data.takeWhile isWhiteSpace).length := by
  unfold naiveSkipWhitespace
  rw [naiveSkipWhitespaceLoop_eq data _ 0 (by omega)]
  simp

theorem wsRun_bytes (it : Iterator) (k : Nat) (hk : k < it.wsRun) :
    isWhiteSpace (it.byteAt (it.head + k)) = true := by
  unfold Iterator.wsRun at hk
  rw [Iterator.byteAt_add]
  have hpre : it.rest.takeWhile isWhiteSpace <+: it.rest := List.takeWhile_prefix _
  obtain ⟨t, ht⟩ := hpre
  have hmem := takeWhile_all isWhiteSpace it.rest
    ((it.rest.takeWhile isWhiteSpace).get ⟨k, hk⟩) (List.get_mem _ _ _)
  have : (it.rest.drop k).headD 0 = (it.rest.takeWhile isWhiteSpace).get ⟨k, hk⟩ := by
    conv_lhs => rw [← ht]
    rw [List.drop_append_of_le_length (by omega)]
    rw [List.drop_eq_getElem_cons hk]
    rfl
  rw [this]
  exact hmem

theorem wsRun_stop (it : Iterator) (hwf : it.WF) (hlt : it.head + it.wsRun < it.dataLen) :
    isWhiteSpace (it.byteAt (it.head + it.wsRun)) = false := by
  have hsig := skipWhiteSpace_significant it hwf
  rw [skipWhiteSpace_run it hwf] at hsig
  have hwf2 : Iterator.WF { it with head := it.head + it.wsRun } := hwf
  have hr := Iterator.rest_of_lt _ hwf2 hlt
  rw [hsig] at hr
  exact significant_head_not_ws it _ _ hr

theorem wsRun_all (it : Iterator) (hwf : it.WF) (hle : it.head ≤ it.dataLen)
    (h : ∀ c ∈ it.rest, isWhiteSpace c = true) : it.head + it.wsRun = it.dataLen := by
  unfold Iterator.wsRun
  rw [List.takeWhile_eq_self_iff.mpr h, Iterator.rest_length it hwf]
  omega

namespace Iterator

/-- The fast loop of `ReadString` and the loop of the slow path started on the
bytes scanned so far give the same result, except at the end of the buffer,
where the texts of the two errors differ. -/
theorem readStringLoop_slow (start : Nat) :
    ∀ (fuel : Nat) (it : Iterator), it.WF → start ≤ it.head → it.head ≤ it.dataLen →
      fuel = it.dataLen - it.head →
      readStringLoop start fuel it = readStringSlowLoop fuel it (slice it.data start it.head) ∨
      (readStringLoop start fuel it =
          (.error (Error.at "unexpected end of input" it.dataLen),
            { it with head := it.dataLen }) ∧
        readStringSlowLoop fuel it (slice it.data start it.head) =
          (.error (Error.at "unexpected end of input in string" it.dataLen),
            { it with head := it.dataLen })) := by
  intro fuel
  induction fuel with
  | zero =>
    intro it hwf hs hle hf
    have hh : it.head = it.dataLen := by omega
    right
    rw [readStringLoop, readStringSlowLoop]
    unfold Iterator.error
    obtain ⟨hd, dt, dl⟩ := it
    simp only at hh
    subst hh
    exact ⟨rfl, rfl⟩
  | succ fuel ih =>
    intro it hwf hs hle hf
    have hlt : it.head < it.dataLen := by omega
    have hlt2 : it.head < it.data.length := by rw [← hwf]; exact hlt
    have hrec := ih { it with head := it.head + 1 } hwf (Nat.le_succ_of_le hs) hlt
      (by show fuel = it.dataLen - (it.head + 1); omega)
    have hsl : slice it.data start (it.head + 1) = slice it.data start it.head ++ [it.byteAt it.head] :=
      slice_succ it.data start it.head hs hlt2
    have hrec2 : readStringLoop start fuel { it with head := it.head + 1 } =
        readStringSlowLoop fuel { it with head := it.head + 1 }
          (slice it.data start it.head ++ [it.byteAt it.head]) ∨
        (readStringLoop start fuel { it with head := it.head + 1 } =
            (.error (Error.at "unexpected end of input" it.dataLen),
              { it with head := it.dataLen }) ∧
          readStringSlowLoop fuel { it with head := it.head + 1 }
              (slice it.data start it.head ++ [it.byteAt it.head]) =
            (.error (Error.at "unexpected end of input in string" it.dataLen),
              { it with head := it.dataLen })) := by
      rw [← hsl]
      exact hrec
    rw [readStringLoop, readStringSlowLoop, if_pos hlt, if_pos hlt2]
    simp only []
    by_cases h34 : it.byteAt it.head = 34
    · left
      rw [if_pos (by rw [h34]; decide), if_pos h34, if_pos h34]
    · by_cases h92 : it.byteAt it.head = 92
      · left
        rw [if_pos (by rw [h92]; decide), if_neg h34, if_pos h92, if_neg h34, if_pos h92]
        unfold readStringSlow
        have key : it.data.length - it.head = fuel + 1 := by rw [← hwf]; omega
        rw [key, readStringSlowLoop, if_pos hlt2]
        simp only []
        rw [if_neg h34, if_pos h92]
      · by_cases h32 : it.byteAt it.head < 32
        · left
          have hst : stringTable (it.byteAt it.head) ≠ 0 := by
            rw [ne_eq, stringTable_eq_zero]
            omega
          rw [if_pos hst, if_neg h34, if_neg h92, if_pos h32, if_neg h34, if_neg h92, if_pos h32]
        · simp only [if_neg h34, if_neg h92, if_neg h32]
          by_cases hst : stringTable (it.byteAt it.head) ≠ 0
          · simp only [if_pos hst]
            exact hrec2
          · simp only [if_neg hst]
            exact hrec2

end Iterator

namespace ByHandle

theorem compileStructFields_congr {F : Type}
    (g1 g2 : Nat → Option (Except Error (DecoderFunc F))) :
    ∀ (fields : List (List Nat × List Nat × Nat)) (i : Nat) (fieldMap : List (List Nat × fieldInfo F)),
      (∀ f ∈ fields, f.2.1 ≠ [45] → g1 f.2.2 = g2 f.2.2 ∧ (g1 f.2.2).isSome = true) →
      compileStructFields g1 fields i fieldMap = compileStructFields g2 fields i fieldMap ∧
        (compileStructFields g1 fields i fieldMap).isSome = true
  | [], i, fieldMap, _ => by
    rw [compileStructFields, compileStructFields]
    exact ⟨rfl, rfl⟩
  | (name, tag, type) :: rest, i, fieldMap, h => by
    have hrest : ∀ f ∈ rest, f.2.1 ≠ [45] → g1 f.2.2 = g2 f.2.2 ∧ (g1 f.2.2).isSome = true :=
      fun f hf => h f (List.mem_cons_of_mem _ hf)
    rw [compileStructFields, compileStructFields]
    by_cases ht : tag = [45]
    · rw [if_pos ht, if_pos ht]
      exact compileStructFields_congr g1 g2 rest (i + 1) fieldMap hrest
    · rw [if_neg ht, if_neg ht]
      obtain ⟨he, hs⟩ := h (name, tag, type) (List.mem_cons_self _ _) ht
      simp only [] at he hs
      rw [← he]
      cases hg : g1 type with
      | none => rw [hg] at hs; cases hs
      | some r =>
        cases r with
        | error err => exact ⟨rfl, rfl⟩
        | ok dec => exact compileStructFields_congr g1 g2 rest (i + 1) _ hrest

theorem compileStructEncFields_congr {F : Type}
    (g1 g2 : Nat → Option (Except Error (EncoderFunc F))) :
    ∀ (fields : List (List Nat × List Nat × Nat)) (i : Nat) (acc : List (structFieldEncoder F)),
      (∀ f ∈ fields, f.2.1 ≠ [45] → g1 f.2.2 = g2 f.2.2 ∧ (g1 f.2.2).isSome = true) →
      compileStructEncFields g1 fields i acc = compileStructEncFields g2 fields i acc ∧
        (compileStructEncFields g1 fields i acc).isSome = true
  | [], i, acc, _ => by
    rw [compileStructEncFields, compileStructEncFields]
    exact ⟨rfl, rfl⟩
  | (name, tag, type) :: rest, i, acc, h => by
    have hrest : ∀ f ∈ rest, f.2.1 ≠ [45] → g1 f.2.2 = g2 f.2.2 ∧ (g1 f.2.2).isSome = true :=
      fun f hf => h f (List.mem_cons_of_mem _ hf)
    rw [compileStructEncFields, compileStructEncFields]
    by_cases ht : tag = [45]
    · rw [if_pos ht, if_pos ht]
      exact compileStructEncFields_congr g1 g2 rest (i + 1) acc hrest
    · rw [if_neg ht, if_neg ht]
      obtain ⟨he, hs⟩ := h (name, tag, type) (List.mem_cons_self _ _) ht
      simp only [] at he hs
      rw [← he]
      cases hg : g1 type with
      | none => rw [hg] at hs; cases hs
      | some r =>
        cases r with
        | error err => exact ⟨rfl, rfl⟩
        | ok enc => exact compileStructEncFields_congr g1 g2 rest (i + 1) _ hrest

/-- On types that are ranked below `N`, with the types a call leads to of
smaller rank, `compileDecoder` returns, and returns the same, for every bound
on the depth of the calls above the rank. -/
theorem compileDecoder_depth {F : Type} (fl : FloatLib F) (types : Nat → Shape)
    (zero : Nat → Val F) (rank : Nat → Nat) (N : Nat)
    (hr : ∀ s, rank s ≤ N → ∀ c ∈ (types s).calls types, rank c < rank s) :
    ∀ (n t : Nat), rank t = n → n ≤ N → ∀ d1 d2, n < d1 → n < d2 →
      compileDecoder fl types zero d1 t = compileDecoder fl types zero d2 t ∧
        (compileDecoder fl types zero d1 t).isSome = true := by
  intro n
  induction n using Nat.strong_induction_on with
  | _ n ih =>
    intro t ht hn d1 d2 h1 h2
    obtain ⟨e1, rfl⟩ : ∃ e1, d1 = e1 + 1 := ⟨d1 - 1, by omega⟩
    obtain ⟨e2, rfl⟩ : ∃ e2, d2 = e2 + 1 := ⟨d2 - 1, by omega⟩
    have hc := hr t (by omega)
    have hchild : ∀ c, rank c < n →
        compileDecoder fl types zero e1 c = compileDecoder fl types zero e2 c ∧
          (compileDecoder fl types zero e1 c).isSome = true :=
      fun c hcn => ih (rank c) hcn c rfl (by omega) e1 e2 (by omega) (by omega)
    rw [compileDecoder, compileDecoder]
    cases hs : types t with
    | string => exact ⟨rfl, rfl⟩
    | definedString name => exact ⟨rfl, rfl⟩
    | int => exact ⟨rfl, rfl⟩
    | int64 => exact ⟨rfl, rfl⟩
    | int32 => exact ⟨rfl, rfl⟩
    | float64 => exact ⟨rfl, rfl⟩
    | bool => exact ⟨rfl, rfl⟩
    | iface => exact ⟨rfl, rfl⟩
    | other kind => exact ⟨rfl, rfl⟩
    | struct fields =>
      simp only []
      rw [hs] at hc
      have hf := compileStructFields_congr (compileDecoder fl types zero e1)
        (compileDecoder fl types zero e2) fields 0 [] (by
          intro f hf htag
          refine hchild f.2.2 ?_
          rw [← ht]
          refine hc f.2.2 ?_
          simp only [Shape.calls, List.mem_map, List.mem_filter, decide_eq_true_eq]
          exact ⟨f, ⟨hf, htag⟩, rfl⟩)
      rw [← hf.1]
      cases hg : compileStructFields (compileDecoder fl types zero e1) fields 0 [] with
      | none => rw [hg] at hf; cases hf.2
      | some r => cases r <;> exact ⟨rfl, rfl⟩
    | slice elem =>
      simp only []
      rw [hs] at hc
      have hlt : rank elem < n := by rw [← ht]; exact hc elem (by simp [Shape.calls])
      obtain ⟨he, hsm⟩ := hchild elem hlt
      rw [← he]
      cases hg : compileDecoder fl types zero e1 elem with
      | none => rw [hg] at hsm; cases hsm
      | some r => cases r <;> exact ⟨rfl, rfl⟩
    | ptr elem =>
      simp only []
      rw [hs] at hc
      have hlt : rank elem < n := by rw [← ht]; exact hc elem (by simp [Shape.calls])
      obtain ⟨he, hsm⟩ := hchild elem hlt
      rw [← he]
      cases hg : compileDecoder fl types zero e1 elem with
      | none => rw [hg] at hsm; cases hsm
      | some r => cases r <;> exact ⟨rfl, rfl⟩
    | map key elem =>
      simp only []
      rw [hs] at hc
      by_cases hk : (types key).isStringKind = false
      · rw [if_pos hk, if_pos hk]
        exact ⟨rfl, rfl⟩
      · rw [if_neg hk, if_neg hk]
        have hlt : rank elem < n := by
          rw [← ht]
          exact hc elem (by simp [Shape.calls, Bool.not_eq_false _ ▸ hk])
        obtain ⟨he, hsm⟩ := hchild elem hlt
        rw [← he]
        cases hg : compileDecoder fl types zero e1 elem with
        | none => rw [hg] at hsm; cases hsm
        | some r => cases r <;> exact ⟨rfl, rfl⟩

/-- On types that are ranked below `N`, with the types a call leads to of
smaller rank, `compileEncoder` returns, and returns the same, for every bound
on the depth of the calls above the rank. -/
theorem compileEncoder_depth {F : Type} (fl : FloatLib F) (types : Nat → Shape)
    (rank : Nat → Nat) (N : Nat)
    (hr : ∀ s, rank s ≤ N → ∀ c ∈ (types s).calls types, rank c < rank s) :
    ∀ (n t : Nat), rank t = n → n ≤ N → ∀ d1 d2, n < d1 → n < d2 →
      compileEncoder fl types d1 t = compileEncoder fl types d2 t ∧
        (compileEncoder fl types d1 t).isSome = true := by
  intro n
  induction n using Nat.strong_induction_on with
  | _ n ih =>
    intro t ht hn d1 d2 h1 h2
    obtain ⟨e1, rfl⟩ : ∃ e1, d1 = e1 + 1 := ⟨d1 - 1, by omega⟩
    obtain ⟨e2, rfl⟩ : ∃ e2, d2 = e2 + 1 := ⟨d2 - 1, by omega⟩
    have hc := hr t (by omega)
    have hchild : ∀ c, rank c < n →
        compileEncoder fl types e1 c = compileEncoder fl types e2 c ∧
          (compileEncoder fl types e1 c).isSome = true :=
      fun c hcn => ih (rank c) hcn c rfl (by omega) e1 e2 (by omega) (by omega)
    rw [compileEncoder, compileEncoder]
    cases hs : types t with
    | string => exact ⟨rfl, rfl⟩
    | definedString name => exact ⟨rfl, rfl⟩
    | int => exact ⟨rfl, rfl⟩
    | int64 => exact ⟨rfl, rfl⟩
    | int32 => exact ⟨rfl, rfl⟩
    | float64 => exact ⟨rfl, rfl⟩
    | bool => exact ⟨rfl, rfl⟩
    | iface => exact ⟨rfl, rfl⟩
    | other kind => exact ⟨rfl, rfl⟩
    | struct fields =>
      simp only []
      rw [hs] at hc
      have hf := compileStructEncFields_congr (compileEncoder fl types e1)
        (compileEncoder fl types e2) fields 0 [] (by
          intro f hf htag
          refine hchild f.2.2 ?_
          rw [← ht]
          refine hc f.2.2 ?_
          simp only [Shape.calls, List.mem_map, List.mem_filter, decide_eq_true_eq]
          exact ⟨f, ⟨hf, htag⟩, rfl⟩)
      rw [← hf.1]
      cases hg : compileStructEncFields (compileEncoder fl types e1) fields 0 [] with
      | none => rw [hg] at hf; cases hf.2
      | some r => cases r <;> exact ⟨rfl, rfl⟩
    | slice elem =>
      simp only []
      rw [hs] at hc
      have hlt : rank elem < n := by rw [← ht]; exact hc elem (by simp [Shape.calls])
      obtain ⟨he, hsm⟩ := hchild elem hlt
      rw [← he]
      cases hg : compileEncoder fl types e1 elem with
      | none => rw [hg] at hsm; cases hsm
      | some r => cases r <;> exact ⟨rfl, rfl⟩
    | ptr elem =>
      simp only []
      rw [hs] at hc
      have hlt : rank elem < n := by rw [← ht]; exact hc elem (by simp [Shape.calls])
      obtain ⟨he, hsm⟩ := hchild elem hlt
      rw [← he]
      cases hg : compileEncoder fl types e1 elem with
      | none => rw [hg] at hsm; cases hsm
      | some r => cases r <;> exact ⟨rfl, rfl⟩
    | map key elem =>
      simp only []
      rw [hs] at hc
      by_cases hk : (types key).isStringKind = false
      · rw [if_pos hk, if_pos hk]
        exact ⟨rfl, rfl⟩
      · rw [if_neg hk, if_neg hk]
        have hlt : rank elem < n := by
          rw [← ht]
          exact hc elem (by simp [Shape.calls, Bool.not_eq_false _ ▸ hk])
        obtain ⟨he, hsm⟩ := hchild elem hlt
        rw [← he]
        cases hg : compileEncoder fl types e1 elem with
        | none => rw [hg] at hsm; cases hsm
        | some r => cases r <;> exact ⟨rfl, rfl⟩

theorem compileDecoder_cyclic {F : Type} (fl : FloatLib F) (zero : Nat → Val F) :
    ∀ depth : Nat,
      compileDecoder fl exampleTypes zero depth 0 = none ∧
      compileDecoder fl exampleTypes zero depth 1 = none ∧
      compileDecoder fl exampleTypes zero depth 2 = none ∧
      compileDecoder fl exampleTypes zero depth 3 = none
  | 0 => ⟨rfl, rfl, rfl, rfl⟩
  | depth + 1 => by
    obtain ⟨h0, h1, h2, h3⟩ := compileDecoder_cyclic fl zero depth
    refine ⟨?_, ?_, ?_, ?_⟩
    · rw [compileDecoder]
      simp only [exampleTypes, compileStructFields, h1]
      rfl
    · rw [compileDecoder]
      simp only [exampleTypes, h0]
    · rw [compileDecoder]
      simp only [exampleTypes, compileStructFields, h3]
      rfl
    · rw [compileDecoder]
      simp only [exampleTypes, h2]

theorem compileEncoder_cyclic {F : Type} (fl : FloatLib F) :
    ∀ depth : Nat,
      compileEncoder fl exampleTypes depth 0 = none ∧
      compileEncoder fl exampleTypes depth 1 = none ∧
      compileEncoder fl exampleTypes depth 2 = none ∧
      compileEncoder fl exampleTypes depth 3 = none
  | 0 => ⟨rfl, rfl, rfl, rfl⟩
  | depth + 1 => by
    obtain ⟨h0, h1, h2, h3⟩ := compileEncoder_cyclic fl depth
    refine ⟨?_, ?_, ?_, ?_⟩
    · rw [compileEncoder]
      simp only [exampleTypes, compileStructEncFields, h1]
      rfl
    · rw [compileEncoder]
      simp only [exampleTypes, h0]
    · rw [compileEncoder]
      simp only [exampleTypes, compileStructEncFields, h3]
      rfl
    · rw [compileEncoder]
      simp only [exampleTypes, h2]

end ByHandle

namespace ByHandle

theorem compileStructFields_ok_fields {F : Type}
    (g : Nat → Option (Except Error (DecoderFunc F))) :
    ∀ (fields : List (List Nat × List Nat × Nat)) (i : Nat)
      (fieldMap fieldMap' : List (List Nat × fieldInfo F)),
      compileStructFields g fields i fieldMap = some (.ok fieldMap') →
      ∀ f ∈ fields, f.2.1 ≠ [45] → ∃ dec, g f.2.2 = some (.ok dec)
  | [], _, _, _, _ => fun f hf => by cases hf
  | (name, tag, type) :: rest, i, fieldMap, fieldMap', h => by
    intro f hf htag
    rw [compileStructFields] at h
    by_cases ht : tag = [45]
    · rw [if_pos ht] at h
      rcases List.mem_cons.mp hf with rfl | hf
      · exact absurd ht htag
      · exact compileStructFields_ok_fields g rest (i + 1) fieldMap fieldMap' h f hf htag
    · rw [if_neg ht] at h
      cases hg : g type with
      | none => rw [hg] at h; cases h
      | some r =>
        rw [hg] at h
        cases r with
        | error err => cases h
        | ok dec =>
          rcases List.mem_cons.mp hf with rfl | hf
          · exact ⟨dec, hg⟩
          · exact compileStructFields_ok_fields g rest (i + 1) _ fieldMap' h f hf htag

theorem compileStructEncFields_ok_fields {F : Type}
    (g : Nat → Option (Except Error (EncoderFunc F))) :
    ∀ (fields : List (List Nat × List Nat × Nat)) (i : Nat)
      (acc acc' : List (structFieldEncoder F)),
      compileStructEncFields g fields i acc = some (.ok acc') →
      ∀ f ∈ fields, f.2.1 ≠ [45] → ∃ enc, g f.2.2 = some (.ok enc)
  | [], _, _, _, _ => fun f hf => by cases hf
  | (name, tag, type) :: rest, i, acc, acc', h => by
    intro f hf htag
    rw [compileStructEncFields] at h
    by_cases ht : tag = [45]
    · rw [if_pos ht] at h
      rcases List.mem_cons.mp hf with rfl | hf
      · exact absurd ht htag
      · exact compileStructEncFields_ok_fields g rest (i + 1) acc acc' h f hf htag
    · rw [if_neg ht] at h
      cases hg : g type with
      | none => rw [hg] at h; cases h
      | some r =>
        rw [hg] at h
        cases r with
        | error err => cases h
        | ok enc =>
          rcases List.mem_cons.mp hf with rfl | hf
          · exact ⟨enc, hg⟩
          · exact compileStructEncFields_ok_fields g rest (i + 1) _ acc' h f hf htag

/-- When `compileDecoder` returns a routine, it has returned a routine, within
a smaller bound, on every type the call calls the compiler on. -/
theorem compileDecoder_ok_calls {F : Type} (fl : FloatLib F) (types : Nat → Shape)
    (zero : Nat → Val F) (depth t : Nat) (dec : DecoderFunc F)
    (h : compileDecoder fl types zero depth t = some (.ok dec)) :
    ∀ c, Calls types t c →
      ∃ d dec', d < depth ∧ compileDecoder fl types zero d c = some (.ok dec') := by
  intro c hc
  unfold Calls at hc
  cases depth with
  | zero => rw [compileDecoder] at h; cases h
  | succ d =>
    rw [compileDecoder] at h
    have key : ∀ e, c = e → ∀ k : DecoderFunc F → DecoderFunc F,
        (match compileDecoder fl types zero d e with
          | none => (none : Option (Except Error (DecoderFunc F)))
          | some (.error err) => some (.error err)
          | some (.ok elemDec) => some (.ok (k elemDec))) = some (.ok dec) →
        ∃ d' dec', d' < d + 1 ∧ compileDecoder fl types zero d' c = some (.ok dec') := by
      intro e he k hk
      subst he
      cases hg : compileDecoder fl types zero d c with
      | none => rw [hg] at hk; cases hk
      | some r =>
        cases r with
        | error err => rw [hg] at hk; cases hk
        | ok dec' => exact ⟨d, dec', Nat.lt_succ_self _, hg⟩
    cases hs : types t with
    | string => rw [hs] at hc; cases hc
    | definedString name => rw [hs] at hc; cases hc
    | int => rw [hs] at hc; cases hc
    | int64 => rw [hs] at hc; cases hc
    | int32 => rw [hs] at hc; cases hc
    | float64 => rw [hs] at hc; cases hc
    | bool => rw [hs] at hc; cases hc
    | iface => rw [hs] at hc; cases hc
    | other kind => rw [hs] at hc; cases hc
    | struct fields =>
      rw [hs] at hc h
      simp only [] at h
      simp only [Shape.calls, List.mem_map, List.mem_filter, decide_eq_true_eq] at hc
      obtain ⟨f, ⟨hf, htag⟩, rfl⟩ := hc
      cases hg : compileStructFields (compileDecoder fl types zero d) fields 0 [] with
      | none => rw [hg] at h; cases h
      | some r =>
        cases r with
        | error err => rw [hg] at h; cases h
        | ok fm =>
          obtain ⟨dec', hd⟩ := compileStructFields_ok_fields _ fields 0 [] fm hg f hf htag
          exact ⟨d, dec', Nat.lt_succ_self _, hd⟩
    | slice elem =>
      rw [hs] at hc h
      simp only [] at h
      exact key elem (by simpa [Shape.calls] using hc) _ h
    | ptr elem =>
      rw [hs] at hc h
      simp only [] at h
      exact key elem (by simpa [Shape.calls] using hc) _ h
    | map k elem =>
      rw [hs] at hc h
      simp only [] at h
      by_cases hk : (types k).isStringKind = false
      · rw [if_pos hk] at h
        cases h
      · rw [if_neg hk] at h
        exact key elem (by simpa [Shape.calls, Bool.not_eq_false _ ▸ hk] using hc) _ h

theorem compileEncoder_ok_calls {F : Type} (fl : FloatLib F) (types : Nat → Shape)
    (depth t : Nat) (enc : EncoderFunc F)
    (h : compileEncoder fl types depth t = some (.ok enc)) :
    ∀ c, Calls types t c →
      ∃ d enc', d < depth ∧ compileEncoder fl types d c = some (.ok enc') := by
  intro c hc
  unfold Calls at hc
  cases depth with
  | zero => rw [compileEncoder] at h; cases h
  | succ d =>
    rw [compileEncoder] at h
    have key : ∀ e, c = e → ∀ k : EncoderFunc F → EncoderFunc F,
        (match compileEncoder fl types d e with
          | none => (none : Option (Except Error (EncoderFunc F)))
          | some (.error err) => some (.error err)
          | some (.ok elemEnc) => some (.ok (k elemEnc))) = some (.ok enc) →
        ∃ d' enc', d' < d + 1 ∧ compileEncoder fl types d' c = some (.ok enc') := by
      intro e he k hk
      subst he
      cases hg : compileEncoder fl types d c with
      | none => rw [hg] at hk; cases hk
      | some r =>
        cases r with
        | error err => rw [hg] at hk; cases hk
        | ok enc' => exact ⟨d, enc', Nat.lt_succ_self _, hg⟩
    cases hs : types t with
    | string => rw [hs] at hc; cases hc
    | definedString name => rw [hs] at hc; cases hc
    | int => rw [hs] at hc; cases hc
    | int64 => rw [hs] at hc; cases hc
    | int32 => rw [hs] at hc; cases hc
    | float64 => rw [hs] at hc; cases hc
    | bool => rw [hs] at hc; cases hc
    | iface => rw [hs] at hc; cases hc
    | other kind => rw [hs] at hc; cases hc
    | struct fields =>
      rw [hs] at hc h
      simp only [] at h
      simp only [Shape.calls, List.mem_map, List.mem_filter, decide_eq_true_eq] at hc
      obtain ⟨f, ⟨hf, htag⟩, rfl⟩ := hc
      cases hg : compileStructEncFields (compileEncoder fl types d) fields 0 [] with
      | none => rw [hg] at h; cases h
      | some r =>
        cases r with
        | error err => rw [hg] at h; cases h
        | ok fm =>
          obtain ⟨enc', hd⟩ := compileStructEncFields_ok_fields _ fields 0 [] fm hg f hf htag
          exact ⟨d, enc', Nat.lt_succ_self _, hd⟩
    | slice elem =>
      rw [hs] at hc h
      simp only [] at h
      exact key elem (by simpa [Shape.calls] using hc) _ h
    | ptr elem =>
      rw [hs] at hc h
      simp only [] at h
      exact key elem (by simpa [Shape.calls] using hc) _ h
    | map k elem =>
      rw [hs] at hc h
      simp only [] at h
      by_cases hk : (types k).isStringKind = false
      · rw [if_pos hk] at h
        cases h
      · rw [if_neg hk] at h
        exact key elem (by simpa [Shape.calls, Bool.not_eq_false _ ▸ hk] using hc) _ h

/-- A routine returned on a type implies a routine returned, within a smaller
bound, on every type the calls lead to. -/
theorem compileDecoder_ok_reach {F : Type} (fl : FloatLib F) (types : Nat → Shape)
    (zero : Nat → Val F) (a b : Nat) (hab : Relation.TransGen (Calls types) a b) :
    ∀ depth dec, compileDecoder fl types zero depth a = some (.ok dec) →
      ∃ d dec', d < depth ∧ compileDecoder fl types zero d b = some (.ok dec') := by
  induction hab with
  | single h => exact fun depth dec hd => compileDecoder_ok_calls fl types zero depth a dec hd _ h
  | tail _ h ih =>
    intro depth dec hd
    obtain ⟨d1, dec1, hlt1, h1⟩ := ih depth dec hd
    obtain ⟨d2, dec2, hlt2, h2⟩ := compileDecoder_ok_calls fl types zero d1 _ dec1 h1 _ h
    exact ⟨d2, dec2, lt_trans hlt2 hlt1, h2⟩

theorem compileEncoder_ok_reach {F : Type} (fl : FloatLib F) (types : Nat → Shape)
    (a b : Nat) (hab : Relation.TransGen (Calls types) a b) :
    ∀ depth enc, compileEncoder fl types depth a = some (.ok enc) →
      ∃ d enc', d < depth ∧ compileEncoder fl types d b = some (.ok enc') := by
  induction hab with
  | single h => exact fun depth enc hd => compileEncoder_ok_calls fl types depth a enc hd _ h
  | tail _ h ih =>
    intro depth enc hd
    obtain ⟨d1, enc1, hlt1, h1⟩ := ih depth enc hd
    obtain ⟨d2, enc2, hlt2, h2⟩ := compileEncoder_ok_calls fl types d1 _ enc1 h1 _ h
    exact ⟨d2, enc2, lt_trans hlt2 hlt1, h2⟩

/-- On a self-referential type `compileDecoder` returns no routine, whatever
the bound. -/
theorem compileDecoder_self {F : Type} (fl : FloatLib F) (types : Nat → Shape)
    (zero : Nat → Val F) (t : Nat) (hs : SelfReferential types t) :
    ∀ depth dec, compileDecoder fl types zero depth t ≠ some (.ok dec) := by
  intro depth
  induction depth using Nat.strong_induction_on with
  | _ depth ih =>
    intro dec hd
    obtain ⟨d, dec', hlt, h⟩ := compileDecoder_ok_reach fl types zero t t hs depth dec hd
    exact ih d hlt dec' h

theorem compileEncoder_self {F : Type} (fl : FloatLib F) (types : Nat → Shape)
    (t : Nat) (hs : SelfReferential types t) :
    ∀ depth enc, compileEncoder fl types depth t ≠ some (.ok enc) := by
  intro depth
  induction depth using Nat.strong_induction_on with
  | _ depth ih =>
    intro enc hd
    obtain ⟨d, enc', hlt, h⟩ := compileEncoder_ok_reach fl types t t hs depth enc hd
    exact ih d hlt enc' h

end ByHandle

theorem Ty.At.zero_eq {F : Type} (fl : FloatLib F) (types : Nat → Shape) (zero : Nat → Val F)
    (t : Ty) (h : Nat) (hat : Ty.At fl types zero t h) : zero h = Ty.zero fl t := by
  cases t with
  | struct fields =>
    rw [Ty.At] at hat
    obtain ⟨fs, _, hz, _⟩ := hat
    rw [hz, Ty.zero]
  | slice elem =>
    rw [Ty.At] at hat
    obtain ⟨e, _, hz, _⟩ := hat
    rw [hz, Ty.zero]
  | map key elem =>
    rw [Ty.At] at hat
    obtain ⟨k, e, _, hz, _⟩ := hat
    rw [hz, Ty.zero]
  | ptr elem =>
    rw [Ty.At] at hat
    obtain ⟨e, _, hz, _⟩ := hat
    rw [hz, Ty.zero]
  | _ =>
    rw [Ty.At] at hat
    rw [hat.2, Ty.zero]

theorem Ty.At.isPtr_eq {F : Type} (fl : FloatLib F) (types : Nat → Shape) (zero : Nat → Val F)
    (t : Ty) (h : Nat) (hat : Ty.At fl types zero t h) : (types h).isPtr = t.isPtr := by
  cases t with
  | struct fields =>
    rw [Ty.At] at hat
    obtain ⟨fs, hs, _, _⟩ := hat
    rw [hs]; rfl
  | slice elem =>
    rw [Ty.At] at hat
    obtain ⟨e, hs, _, _⟩ := hat
    rw [hs]; rfl
  | map key elem =>
    rw [Ty.At] at hat
    obtain ⟨k, e, hs, _, _⟩ := hat
    rw [hs]; rfl
  | ptr elem =>
    rw [Ty.At] at hat
    obtain ⟨e, hs, _, _⟩ := hat
    rw [hs]; rfl
  | _ =>
    rw [Ty.At] at hat
    rw [hat.1]; rfl

/-- The tests of the key type of a map agree on the handle and on the tree. -/
theorem Ty.At.key_eq {F : Type} (fl : FloatLib F) (types : Nat → Shape) (zero : Nat → Val F)
    (t : Ty) (h : Nat) (hat : Ty.At fl types zero t h) :
    (types h).isStringKind = t.isStringKind ∧ (types h).kind = t.kind ∧
      (types h = .string ↔ t = .string) := by
  cases t with
  | struct fields =>
    rw [Ty.At] at hat
    obtain ⟨fs, hs, _, _⟩ := hat
    rw [hs]
    exact ⟨rfl, rfl, by constructor <;> intro hh <;> cases hh⟩
  | slice elem =>
    rw [Ty.At] at hat
    obtain ⟨e, hs, _, _⟩ := hat
    rw [hs]
    exact ⟨rfl, rfl, by constructor <;> intro hh <;> cases hh⟩
  | map key elem =>
    rw [Ty.At] at hat
    obtain ⟨k, e, hs, _, _⟩ := hat
    rw [hs]
    exact ⟨rfl, rfl, by constructor <;> intro hh <;> cases hh⟩
  | ptr elem =>
    rw [Ty.At] at hat
    obtain ⟨e, hs, _, _⟩ := hat
    rw [hs]
    exact ⟨rfl, rfl, by constructor <;> intro hh <;> cases hh⟩
  | string =>
    rw [Ty.At] at hat
    rw [hat.1]
    exact ⟨rfl, rfl, by constructor <;> intro _ <;> rfl⟩
  | _ =>
    rw [Ty.At] at hat
    rw [hat.1]
    exact ⟨rfl, rfl, by constructor <;> intro hh <;> cases hh⟩

mutual
/-- On a handle at which a finite tree stands, `compileDecoder` on handles
returns what `compileDecoder` on trees computes, for every bound on the depth
of the calls above the depth of the tree. -/
theorem compileDecoder_at {F : Type} (fl : FloatLib F) (types : Nat → Shape)
    (zero : Nat → Val F) :
    ∀ (t : Ty) (h depth : Nat), Ty.At fl types zero t h → t.depth < depth →
      ByHandle.compileDecoder fl types zero depth h = some (compileDecoder fl t)
  | .string, h, depth, hat, hd => by
    obtain ⟨d, rfl⟩ : ∃ d, depth = d + 1 := ⟨depth - 1, by omega⟩
    rw [Ty.At] at hat
    rw [ByHandle.compileDecoder, hat.1, compileDecoder]
  | .definedString name, h, depth, hat, hd => by
    obtain ⟨d, rfl⟩ : ∃ d, depth = d + 1 := ⟨depth - 1, by omega⟩
    rw [Ty.At] at hat
    rw [ByHandle.compileDecoder, hat.1, compileDecoder]
  | .int, h, depth, hat, hd => by
    obtain ⟨d, rfl⟩ : ∃ d, depth = d + 1 := ⟨depth - 1, by omega⟩
    rw [Ty.At] at hat
    rw [ByHandle.compileDecoder, hat.1, compileDecoder]
  | .int64, h, depth, hat, hd => by
    obtain ⟨d, rfl⟩ : ∃ d, depth = d + 1 := ⟨depth - 1, by omega⟩
    rw [Ty.At] at hat
    rw [ByHandle.compileDecoder, hat.1, compileDecoder]
  | .int32, h, depth, hat, hd => by
    obtain ⟨d, rfl⟩ : ∃ d, depth = d + 1 := ⟨depth - 1, by omega⟩
    rw [Ty.At] at hat
    rw [ByHandle.compileDecoder, hat.1, compileDecoder]
  | .float64, h, depth, hat, hd => by
    obtain ⟨d, rfl⟩ : ∃ d, depth = d + 1 := ⟨depth - 1, by omega⟩
    rw [Ty.At] at hat
    rw [ByHandle.compileDecoder, hat.1, compileDecoder]
  | .bool, h, depth, hat, hd => by
    obtain ⟨d, rfl⟩ : ∃ d, depth = d + 1 := ⟨depth - 1, by omega⟩
    rw [Ty.At] at hat
    rw [ByHandle.compileDecoder, hat.1, compileDecoder]
  | .iface, h, depth, hat, hd => by
    obtain ⟨d, rfl⟩ : ∃ d, depth = d + 1 := ⟨depth - 1, by omega⟩
    rw [Ty.At] at hat
    rw [ByHandle.compileDecoder, hat.1, compileDecoder]
  | .other kind, h, depth, hat, hd => by
    obtain ⟨d, rfl⟩ : ∃ d, depth = d + 1 := ⟨depth - 1, by omega⟩
    rw [Ty.At] at hat
    rw [ByHandle.compileDecoder, hat.1, compileDecoder]
  | .struct fields, h, depth, hat, hd => by
    obtain ⟨d, rfl⟩ : ∃ d, depth = d + 1 := ⟨depth - 1, by omega⟩
    rw [Ty.At] at hat
    obtain ⟨fs, hs, _, hf⟩ := hat
    rw [Ty.depth] at hd
    rw [ByHandle.compileDecoder, hs, compileDecoder]
    simp only []
    rw [compileStructFields_at fl types zero fields fs d hf (by omega) 0 []]
    cases (compileStructFields fl fields 0 [] : Except Error (List (List Nat × fieldInfo F))) <;> rfl
  | .slice elem, h, depth, hat, hd => by
    obtain ⟨d, rfl⟩ : ∃ d, depth = d + 1 := ⟨depth - 1, by omega⟩
    rw [Ty.At] at hat
    obtain ⟨e, hs, _, he⟩ := hat
    rw [Ty.depth] at hd
    rw [ByHandle.compileDecoder, hs, compileDecoder]
    simp only []
    rw [compileDecoder_at fl types zero elem e d he (by omega), Ty.At.zero_eq fl types zero elem e he]
    cases compileDecoder fl elem <;> rfl
  | .ptr elem, h, depth, hat, hd => by
    obtain ⟨d, rfl⟩ : ∃ d, depth = d + 1 := ⟨depth - 1, by omega⟩
    rw [Ty.At] at hat
    obtain ⟨e, hs, _, he⟩ := hat
    rw [Ty.depth] at hd
    rw [ByHandle.compileDecoder, hs, compileDecoder]
    simp only []
    rw [compileDecoder_at fl types zero elem e d he (by omega), Ty.At.zero_eq fl types zero elem e he]
    cases compileDecoder fl elem <;> rfl
  | .map key elem, h, depth, hat, hd => by
    obtain ⟨d, rfl⟩ : ∃ d, depth = d + 1 := ⟨depth - 1, by omega⟩
    rw [Ty.At] at hat
    obtain ⟨k, e, hs, _, hk, he⟩ := hat
    rw [Ty.depth] at hd
    obtain ⟨hk1, hk2, hk3⟩ := Ty.At.key_eq fl types zero key k hk
    rw [ByHandle.compileDecoder, hs]
    simp only []
    rw [hk1, hk2, compileDecoder_at fl types zero elem e d he (by omega),
      Ty.At.zero_eq fl types zero elem e he]
    cases key with
    | string =>
      have h1 : types k = .string := hk3.mpr rfl
      rw [compileDecoder, h1]
      simp only [Ty.isStringKind]
      cases compileDecoder fl elem <;> simp
    | definedString name =>
      have h1 : ¬ types k = .string := fun hh => by cases hk3.mp hh
      rw [compileDecoder]
      simp only [Ty.isStringKind, h1]
      cases compileDecoder fl elem <;> simp
    | _ =>
      rw [compileDecoder]
      · simp [Ty.isStringKind]
      all_goals (intros; rename_i hh; cases hh)
theorem compileStructFields_at {F : Type} (fl : FloatLib F) (types : Nat → Shape)
    (zero : Nat → Val F) :
    ∀ (fields : List Field) (fs : List (List Nat × List Nat × Nat)) (d : Nat),
      Ty.FieldsAt fl types zero fields fs → Ty.depthFields fields < d →
      ∀ (i : Nat) (fieldMap : List (List Nat × fieldInfo F)),
        ByHandle.compileStructFields (ByHandle.compileDecoder fl types zero d) fs i fieldMap =
          some (compileStructFields fl fields i fieldMap)
  | [], fs, d, hat, _ => by
    intro i fieldMap
    rw [Ty.FieldsAt] at hat
    subst hat
    rw [ByHandle.compileStructFields, compileStructFields]
  | .mk name tag type :: rest, fs, d, hat, hd => by
    intro i fieldMap
    rw [Ty.FieldsAt] at hat
    obtain ⟨g, gs, rfl, hg, hrest⟩ := hat
    obtain ⟨gname, gtag, gtype⟩ := g
    rw [Ty.FieldAt] at hg
    obtain ⟨h1, h2, h3⟩ := hg
    simp only [] at h1 h2 h3
    subst h1
    subst h2
    rw [Ty.depthFields, Ty.depthField] at hd
    have hd1 : type.depth < d := lt_of_le_of_lt (le_max_left _ _) hd
    have hd2 : Ty.depthFields rest < d := lt_of_le_of_lt (le_max_right _ _) hd
    rw [ByHandle.compileStructFields, compileStructFields, compileStructField]
    by_cases ht : gtag = [45]
    · rw [if_pos ht, if_pos ht]
      simp only []
      exact compileStructFields_at fl types zero rest gs d hrest hd2 (i + 1) fieldMap
    · rw [if_neg ht, if_neg ht]
      rcases h3 with h3 | h3
      · exact absurd h3 ht
      · rw [compileDecoder_at fl types zero type gtype d h3 hd1]
        cases compileDecoder fl type with
        | error err => rfl
        | ok dec =>
          simp only []
          exact compileStructFields_at fl types zero rest gs d hrest hd2 (i + 1) _
end

mutual
/-- On a handle at which a finite tree stands, `compileEncoder` on handles
returns what `compileEncoder` on trees computes, for every bound on the depth
of the calls above the depth of the tree. -/
theorem compileEncoder_at {F : Type} (fl : FloatLib F) (types : Nat → Shape)
    (zero : Nat → Val F) :
    ∀ (t : Ty) (h depth : Nat), Ty.At fl types zero t h → t.depth < depth →
      ByHandle.compileEncoder fl types depth h = some (compileEncoderWith fl (encodeInterface fl) t)
  | .string, h, depth, hat, hd => by
    obtain ⟨d, rfl⟩ : ∃ d, depth = d + 1 := ⟨depth - 1, by omega⟩
    rw [Ty.At] at hat
    rw [ByHandle.compileEncoder, hat.1, compileEncoderWith]
  | .definedString name, h, depth, hat, hd => by
    obtain ⟨d, rfl⟩ : ∃ d, depth = d + 1 := ⟨depth - 1, by omega⟩
    rw [Ty.At] at hat
    rw [ByHandle.compileEncoder, hat.1, compileEncoderWith]
  | .int, h, depth, hat, hd => by
    obtain ⟨d, rfl⟩ : ∃ d, depth = d + 1 := ⟨depth - 1, by omega⟩
    rw [Ty.At] at hat
    rw [ByHandle.compileEncoder, hat.1, compileEncoderWith]
  | .int64, h, depth, hat, hd => by
    obtain ⟨d, rfl⟩ : ∃ d, depth = d + 1 := ⟨depth - 1, by omega⟩
    rw [Ty.At] at hat
    rw [ByHandle.compileEncoder, hat.1, compileEncoderWith]
  | .int32, h, depth, hat, hd => by
    obtain ⟨d, rfl⟩ : ∃ d, depth = d + 1 := ⟨depth - 1, by omega⟩
    rw [Ty.At] at hat
    rw [ByHandle.compileEncoder, hat.1, compileEncoderWith]
  | .float64, h, depth, hat, hd => by
    obtain ⟨d, rfl⟩ : ∃ d, depth = d + 1 := ⟨depth - 1, by omega⟩
    rw [Ty.At] at hat
    rw [ByHandle.compileEncoder, hat.1, compileEncoderWith]
  | .bool, h, depth, hat, hd => by
    obtain ⟨d, rfl⟩ : ∃ d, depth = d + 1 := ⟨depth - 1, by omega⟩
    rw [Ty.At] at hat
    rw [ByHandle.compileEncoder, hat.1, compileEncoderWith]
  | .iface, h, depth, hat, hd => by
    obtain ⟨d, rfl⟩ : ∃ d, depth = d + 1 := ⟨depth - 1, by omega⟩
    rw [Ty.At] at hat
    rw [ByHandle.compileEncoder, hat.1, compileEncoderWith]
  | .other kind, h, depth, hat, hd => by
    obtain ⟨d, rfl⟩ : ∃ d, depth = d + 1 := ⟨depth - 1, by omega⟩
    rw [Ty.At] at hat
    rw [ByHandle.compileEncoder, hat.1, compileEncoderWith]
  | .struct fields, h, depth, hat, hd => by
    obtain ⟨d, rfl⟩ : ∃ d, depth = d + 1 := ⟨depth - 1, by omega⟩
    rw [Ty.At] at hat
    obtain ⟨fs, hs, _, hf⟩ := hat
    rw [Ty.depth] at hd
    rw [ByHandle.compileEncoder, hs, compileEncoderWith]
    simp only []
    rw [compileStructEncFields_at fl types zero fields fs d hf (by omega) 0 []]
    cases (compileStructEncFields fl (encodeInterface fl) fields 0 [] :
      Except Error (List (structFieldEncoder F))) <;> rfl
  | .slice elem, h, depth, hat, hd => by
    obtain ⟨d, rfl⟩ : ∃ d, depth = d + 1 := ⟨depth - 1, by omega⟩
    rw [Ty.At] at hat
    obtain ⟨e, hs, _, he⟩ := hat
    rw [Ty.depth] at hd
    rw [ByHandle.compileEncoder, hs, compileEncoderWith]
    simp only []
    rw [compileEncoder_at fl types zero elem e d he (by omega)]
    cases compileEncoderWith fl (encodeInterface fl) elem <;> rfl
  | .ptr elem, h, depth, hat, hd => by
    obtain ⟨d, rfl⟩ : ∃ d, depth = d + 1 := ⟨depth - 1, by omega⟩
    rw [Ty.At] at hat
    obtain ⟨e, hs, _, he⟩ := hat
    rw [Ty.depth] at hd
    rw [ByHandle.compileEncoder, hs, compileEncoderWith]
    simp only []
    rw [compileEncoder_at fl types zero elem e d he (by omega)]
    cases compileEncoderWith fl (encodeInterface fl) elem <;> rfl
  | .map key elem, h, depth, hat, hd => by
    obtain ⟨d, rfl⟩ : ∃ d, depth = d + 1 := ⟨depth - 1, by omega⟩
    rw [Ty.At] at hat
    obtain ⟨k, e, hs, _, hk, he⟩ := hat
    rw [Ty.depth] at hd
    obtain ⟨hk1, hk2, hk3⟩ := Ty.At.key_eq fl types zero key k hk
    rw [ByHandle.compileEncoder, hs]
    simp only []
    rw [hk1, hk2, compileEncoder_at fl types zero elem e d he (by omega),
      Ty.At.isPtr_eq fl types zero elem e he]
    cases key with
    | string =>
      rw [compileEncoderWith]
      simp only [Ty.isStringKind]
      cases compileEncoderWith fl (encodeInterface fl) elem <;> simp
    | definedString name =>
      rw [compileEncoderWith]
      simp only [Ty.isStringKind]
      cases compileEncoderWith fl (encodeInterface fl) elem <;> simp
    | _ =>
      rw [compileEncoderWith]
      · simp [Ty.isStringKind]
      all_goals (intros; rename_i hh; cases hh)
theorem compileStructEncFields_at {F : Type} (fl : FloatLib F) (types : Nat → Shape)
    (zero : Nat → Val F) :
    ∀ (fields : List Field) (fs : List (List Nat × List Nat × Nat)) (d : Nat),
      Ty.FieldsAt fl types zero fields fs → Ty.depthFields fields < d →
      ∀ (i : Nat) (fieldMap : List (structFieldEncoder F)),
        ByHandle.compileStructEncFields (ByHandle.compileEncoder fl types d) fs i fieldMap =
          some (compileStructEncFields fl (encodeInterface fl) fields i fieldMap)
  | [], fs, d, hat, _ => by
    intro i fieldMap
    rw [Ty.FieldsAt] at hat
    subst hat
    rw [ByHandle.compileStructEncFields, compileStructEncFields]
  | .mk name tag type :: rest, fs, d, hat, hd => by
    intro i fieldMap
    rw [Ty.FieldsAt] at hat
    obtain ⟨g, gs, rfl, hg, hrest⟩ := hat
    obtain ⟨gname, gtag, gtype⟩ := g
    rw [Ty.FieldAt] at hg
    obtain ⟨h1, h2, h3⟩ := hg
    simp only [] at h1 h2 h3
    subst h1
    subst h2
    rw [Ty.depthFields, Ty.depthField] at hd
    have hd1 : type.depth < d := lt_of_le_of_lt (le_max_left _ _) hd
    have hd2 : Ty.depthFields rest < d := lt_of_le_of_lt (le_max_right _ _) hd
    rw [ByHandle.compileStructEncFields, compileStructEncFields, compileStructEncField]
    by_cases ht : gtag = [45]
    · rw [if_pos ht, if_pos ht]
      simp only []
      exact compileStructEncFields_at fl types zero rest gs d hrest hd2 (i + 1) fieldMap
    · rw [if_neg ht, if_neg ht]
      rcases h3 with h3 | h3
      · exact absurd h3 ht
      · rw [compileEncoder_at fl types zero type gtype d h3 hd1]
        cases compileEncoderWith fl (encodeInterface fl) type with
        | error err => rfl
        | ok enc =>
          simp only []
          exact compileStructEncFields_at fl types zero rest gs d hrest hd2 (i + 1) _
end

/-! ## No read of the tokenizer is outside the buffer -/

theorem checked_byteAt (it : Iterator) (i : Nat) (h : i < it.data.length) :
    Checked.byteAt it i = some (it.byteAt i) := by
  unfold Checked.byteAt Iterator.byteAt
  rw [if_pos h]

theorem checked_sliceOf (b : List Nat) (lo hi : Nat) (h1 : lo ≤ hi) (h2 : hi ≤ b.length) :
    Checked.sliceOf b lo hi = some (slice b lo hi) := by
  unfold Checked.sliceOf
  rw [if_pos ⟨h1, h2⟩]

theorem checked_skipWhiteSpaceLoop (it : Iterator) (hwf : it.WF) :
    ∀ fuel head, Checked.skipWhiteSpaceLoop it fuel head = some (it.skipWhiteSpaceLoop fuel head) := by
  intro fuel
  induction fuel with
  | zero => intro head; rfl
  | succ fuel ih =>
    intro head
    rw [Checked.skipWhiteSpaceLoop, Iterator.skipWhiteSpaceLoop]
    by_cases h : head < it.dataLen
    · rw [if_pos h, if_pos h, checked_byteAt it head (by rw [← hwf]; exact h)]
      simp only [Iterator.byteAt]
      split
      · rfl
      · exact ih (head + 1)
    · rw [if_neg h, if_neg h]

theorem checked_skipWhiteSpace (it : Iterator) (hwf : it.WF) :
    Checked.skipWhiteSpace it = some it.skipWhiteSpace := by
  unfold Checked.skipWhiteSpace Iterator.skipWhiteSpace
  rw [checked_skipWhiteSpaceLoop it hwf]

theorem checked_readStructural (it : Iterator) (h : it.InBounds) (c : Nat) (msg : String) :
    Checked.readStructural it c msg = some (it.readStructural c msg) := by
  have hb := (Iterator.skipWhiteSpace_advances it h).inBounds h
  unfold Checked.readStructural Iterator.readStructural
  rw [checked_skipWhiteSpace it h.1]
  simp only []
  by_cases h1 : it.skipWhiteSpace.head < it.skipWhiteSpace.dataLen
  · rw [if_pos h1, checked_byteAt _ _ (by rw [← hb.1]; exact h1)]
    simp only []
    by_cases h2 : it.skipWhiteSpace.byteAt it.skipWhiteSpace.head = c
    · rw [if_pos h2, if_pos ⟨h1, h2⟩]
    · rw [if_neg h2, if_neg (fun hh => h2 hh.2)]
  · rw [if_neg h1, if_neg (fun hh => h1 hh.1)]

theorem checked_ReadNull (it : Iterator) (h : it.InBounds) :
    Checked.ReadNull it = some it.ReadNull := by
  have hb := (Iterator.skipWhiteSpace_advances it h).inBounds h
  unfold Checked.ReadNull Iterator.ReadNull
  rw [checked_skipWhiteSpace it h.1]
  simp only []
  by_cases h1 : it.skipWhiteSpace.head ≥ it.skipWhiteSpace.dataLen
  · rw [if_pos h1, if_pos h1]
  · rw [if_neg h1, if_neg h1, checked_byteAt _ _ (by rw [← hb.1]; omega)]
    simp only []
    by_cases h2 : it.skipWhiteSpace.byteAt it.skipWhiteSpace.head = 110
    · rw [if_pos h2, if_pos h2]
      by_cases h3 : it.skipWhiteSpace.head + 3 ≤ it.skipWhiteSpace.dataLen
      · rw [if_pos h3, checked_sliceOf _ _ _ (by omega) (by rw [← hb.1]; exact h3)]
        simp only []
        by_cases h4 : slice it.skipWhiteSpace.data it.skipWhiteSpace.head
            (it.skipWhiteSpace.head + 3) = [110, 117, 108, 108]
        · rw [if_pos h4, if_pos ⟨h3, h4⟩]
        · rw [if_neg h4, if_neg (fun hh => h4 hh.2)]
      · rw [if_neg h3, if_neg (fun hh => h3 hh.1)]
    · rw [if_neg h2, if_neg h2]

theorem checked_ReadBool (it : Iterator) (h : it.InBounds) :
    Checked.ReadBool it = some it.ReadBool := by
  have hb := (Iterator.skipWhiteSpace_advances it h).inBounds h
  unfold Checked.ReadBool Iterator.ReadBool
  rw [checked_skipWhiteSpace it h.1]
  simp only []
  by_cases h1 : it.skipWhiteSpace.head ≥ it.skipWhiteSpace.dataLen
  · rw [if_pos h1, if_pos h1]
  · rw [if_neg h1, if_neg h1, checked_byteAt _ _ (by rw [← hb.1]; omega)]
    simp only []
    by_cases h2 : it.skipWhiteSpace.byteAt it.skipWhiteSpace.head = 116
    · rw [if_pos h2, if_pos h2]
      by_cases h3 : it.skipWhiteSpace.head + 4 ≤ it.skipWhiteSpace.dataLen
      · rw [if_pos h3, checked_sliceOf _ _ _ (by omega) (by rw [← hb.1]; exact h3)]
        simp only []
        by_cases h4 : slice it.skipWhiteSpace.data it.skipWhiteSpace.head
            (it.skipWhiteSpace.head + 4) = [116, 114, 117, 101]
        · rw [if_pos h4, if_pos ⟨h3, h4⟩]
        · rw [if_neg h4, if_neg (fun hh => h4 hh.2)]
      · rw [if_neg h3, if_neg (fun hh => h3 hh.1)]
    · rw [if_neg h2, if_neg h2]
      by_cases h5 : it.skipWhiteSpace.byteAt it.skipWhiteSpace.head = 102
      · rw [if_pos h5, if_pos h5]
        by_cases h3 : it.skipWhiteSpace.head + 5 ≤ it.skipWhiteSpace.dataLen
        · rw [if_pos h3, checked_sliceOf _ _ _ (by omega) (by rw [← hb.1]; exact h3)]
          simp only []
          by_cases h4 : slice it.skipWhiteSpace.data it.skipWhiteSpace.head
              (it.skipWhiteSpace.head + 5) = [102, 97, 108, 115, 101]
          · rw [if_pos h4, if_pos ⟨h3, h4⟩]
          · rw [if_neg h4, if_neg (fun hh => h4 hh.2)]
        · rw [if_neg h3, if_neg (fun hh => h3 hh.1)]
      · rw [if_neg h5, if_neg h5]

theorem checked_readInt64Loop (it : Iterator) (hwf : it.WF) :
    ∀ fuel head n,
      Checked.readInt64Loop it fuel head n = some (it.readInt64Loop fuel head n) := by
  intro fuel
  induction fuel with
  | zero => intro head n; rfl
  | succ fuel ih =>
    intro head n
    rw [Checked.readInt64Loop, Iterator.readInt64Loop]
    by_cases h : head < it.dataLen
    · rw [if_pos h, if_pos h, checked_byteAt it head (by rw [← hwf]; exact h)]
      simp only [Iterator.byteAt]
      split
      · exact ih _ _
      · rfl
    · rw [if_neg h, if_neg h]

theorem checked_readInt64Sign (it : Iterator) (h : it.head < it.data.length) :
    Checked.readInt64Sign it = some it.readInt64Sign := by
  unfold Checked.readInt64Sign Iterator.readInt64Sign
  rw [checked_byteAt it _ h]
  simp only []
  split_ifs <;> rfl

theorem checked_readInt64Digits (it : Iterator) (hwf : it.WF) :
    Checked.readInt64Digits it = some it.readInt64Digits := by
  unfold Checked.readInt64Digits Iterator.readInt64Digits
  simp only [checked_readInt64Loop it hwf]
  by_cases h1 : it.head < it.dataLen
  · rw [if_pos h1, checked_byteAt it _ (by rw [← hwf]; exact h1)]
    simp only []
    by_cases h2 : it.byteAt it.head = 48
    · rw [if_pos h2, if_pos (show it.head < it.dataLen ∧ it.byteAt it.head = 48 from ⟨h1, h2⟩)]
      by_cases h3 : it.head + 1 < it.dataLen
      · rw [if_pos h3, checked_byteAt _ _ (by
          show it.head + 1 < it.data.length
          rw [← hwf]; exact h3)]
        simp only []
        split_ifs with h4 h5 h5
        · rfl
        · exact absurd ⟨h3, h4⟩ h5
        · exact absurd h5.2 h4
        · rfl
      · rw [if_neg h3, if_neg (fun hh => h3 hh.1)]
    · rw [if_neg h2, if_neg (fun hh => h2 hh.2)]
  · rw [if_neg h1, if_neg (fun hh => h1 hh.1)]

theorem checked_readInt64Finish (it : Iterator) (hwf : it.WF) (start : Nat) (neg : Bool)
    (n : Int) :
    Checked.readInt64Finish it start neg n = some (it.readInt64Finish start neg n) := by
  unfold Checked.readInt64Finish Iterator.readInt64Finish
  by_cases h0 : it.head = start
  · rw [if_pos h0, if_pos h0]
  · rw [if_neg h0, if_neg h0]
    by_cases h1 : it.head < it.dataLen
    · rw [if_pos h1, checked_byteAt it _ (by rw [← hwf]; exact h1)]
      simp only []
      by_cases h4 : it.byteAt it.head = 46 ∨ it.byteAt it.head = 101 ∨ it.byteAt it.head = 69
      · rw [if_pos h4, if_pos (show it.head < it.dataLen ∧ (it.byteAt it.head = 46 ∨
          it.byteAt it.head = 101 ∨ it.byteAt it.head = 69) from ⟨h1, h4⟩)]
      · rw [if_neg h4, if_neg (show ¬ (it.head < it.dataLen ∧ (it.byteAt it.head = 46 ∨
          it.byteAt it.head = 101 ∨ it.byteAt it.head = 69)) from fun hh => h4 hh.2)]
    · rw [if_neg h1, if_neg (show ¬ (it.head < it.dataLen ∧ (it.byteAt it.head = 46 ∨
          it.byteAt it.head = 101 ∨ it.byteAt it.head = 69)) from fun hh => h1 hh.1)]

theorem checked_ReadInt64 (it : Iterator) (h : it.InBounds) :
    Checked.ReadInt64 it = some it.ReadInt64 := by
  have hb := (Iterator.skipWhiteSpace_advances it h).inBounds h
  unfold Checked.ReadInt64 Iterator.ReadInt64
  rw [checked_skipWhiteSpace it h.1]
  simp only []
  by_cases h1 : it.skipWhiteSpace.head ≥ it.skipWhiteSpace.dataLen
  · rw [if_pos h1, if_pos h1]
  · rw [if_neg h1, if_neg h1, checked_readInt64Sign _ (by rw [← hb.1]; omega)]
    have hsign := Iterator.readInt64Sign_frame it.skipWhiteSpace hb (by omega)
    cases hs : it.skipWhiteSpace.readInt64Sign with
    | mk res it1 =>
      rw [hs] at hsign
      cases res with
      | error e => rfl
      | ok neg =>
        simp only []
        have hb1 := hsign.1.inBounds hb
        rw [checked_readInt64Digits it1 hb1.1]
        have hdig := Iterator.readInt64Digits_frame it1 hb1
        cases hd : it1.readInt64Digits with
        | mk res2 it2 =>
          rw [hd] at hdig
          cases res2 with
          | error e => rfl
          | ok n =>
            simp only []
            exact checked_readInt64Finish it2 (hdig.1.inBounds hb1).1 _ _ _

theorem checked_readFloat64Loop (it : Iterator) (hwf : it.WF) :
    ∀ fuel head, Checked.readFloat64Loop it fuel head = some (it.readFloat64Loop fuel head) := by
  intro fuel
  induction fuel with
  | zero => intro head; rfl
  | succ fuel ih =>
    intro head
    rw [Checked.readFloat64Loop, Iterator.readFloat64Loop]
    by_cases h : head < it.dataLen
    · rw [if_pos h, if_pos h, checked_byteAt it head (by rw [← hwf]; exact h)]
      simp only [Iterator.byteAt]
      split
      · rfl
      · exact ih (head + 1)
    · rw [if_neg h, if_neg h]

theorem readFloat64Loop_bounds (it : Iterator) (fuel : Nat) :
    ∀ head : Nat, head ≤ it.dataLen →
      head ≤ it.readFloat64Loop fuel head ∧ it.readFloat64Loop fuel head ≤ it.dataLen := by
  induction fuel with
  | zero => intro head hh; exact ⟨le_refl _, hh⟩
  | succ fuel ih =>
    intro head hh
    unfold Iterator.readFloat64Loop
    by_cases h1 : head < it.dataLen
    · rw [if_pos h1]
      split
      · exact ⟨le_refl _, hh⟩
      · have := ih (head + 1) (by omega)
        omega
    · rw [if_neg h1]
      exact ⟨le_refl _, hh⟩

theorem checked_ReadFloat64 {F : Type} (parseFloat : List Nat → Option F) (it : Iterator)
    (h : it.InBounds) :
    Checked.ReadFloat64 parseFloat it = some (it.ReadFloat64 parseFloat) := by
  have hb := (Iterator.skipWhiteSpace_advances it h).inBounds h
  have hl := readFloat64Loop_bounds it.skipWhiteSpace
    (it.skipWhiteSpace.dataLen - it.skipWhiteSpace.head) it.skipWhiteSpace.head hb.2
  unfold Checked.ReadFloat64 Iterator.ReadFloat64
  rw [checked_skipWhiteSpace it h.1]
  simp only []
  rw [checked_readFloat64Loop _ hb.1]
  simp only []
  split_ifs with h1
  · rfl
  · rw [checked_sliceOf _ _ _ hl.1 (by rw [← hb.1]; exact hl.2)]
    simp only []
    cases parseFloat (slice it.skipWhiteSpace.data it.skipWhiteSpace.head
      (it.skipWhiteSpace.readFloat64Loop (it.skipWhiteSpace.dataLen - it.skipWhiteSpace.head)
        it.skipWhiteSpace.head)) <;> rfl

theorem checked_decodeUnicodeLoop (it : Iterator) (start : Nat) :
    ∀ fuel i r, start + i + fuel ≤ it.data.length →
      Checked.decodeUnicodeLoop it start fuel i r =
        some (it.decodeUnicodeLoop start fuel i r) := by
  intro fuel
  induction fuel with
  | zero => intro i r _; rfl
  | succ fuel ih =>
    intro i r hle
    rw [Checked.decodeUnicodeLoop, Iterator.decodeUnicodeLoop,
      checked_byteAt it _ (by omega)]
    simp only []
    split_ifs
    · exact ih _ _ (by omega)
    · exact ih _ _ (by omega)
    · exact ih _ _ (by omega)
    · rfl

theorem checked_decodeUnicode (it : Iterator) :
    Checked.decodeUnicode it = some it.decodeUnicode := by
  unfold Checked.decodeUnicode Iterator.decodeUnicode
  simp only []
  split_ifs with h1
  · rfl
  · rw [checked_decodeUnicodeLoop it _ 4 0 0 (by omega)]
    cases it.decodeUnicodeLoop (it.head + 1) 4 0 0 <;> rfl

theorem checked_readEscape (it : Iterator) (h : it.head < it.data.length) :
    Checked.readEscape it = some it.readEscape := by
  unfold Checked.readEscape Iterator.readEscape
  rw [checked_byteAt it _ h]
  simp only []
  split_ifs
  any_goals rfl
  rw [checked_decodeUnicode]
  cases it.decodeUnicode <;> rfl

theorem checked_readStringSlowLoop (fuel : Nat) :
    ∀ (it : Iterator) (out : List Nat), it.InBounds →
      Checked.readStringSlowLoop fuel it out = some (Iterator.readStringSlowLoop fuel it out) := by
  induction fuel with
  | zero => intro it out _; rfl
  | succ fuel ih =>
    intro it out h
    have hlen := h.1
    rw [Checked.readStringSlowLoop, Iterator.readStringSlowLoop]
    by_cases h1 : it.head < it.data.length
    · rw [if_pos h1, if_pos h1, checked_byteAt it _ h1]
      simp only []
      have hstep : it.Advances { it with head := it.head + 1 } :=
        Iterator.Advances.step it 1 (by omega)
      have hb1 := hstep.inBounds h
      by_cases h2 : it.byteAt it.head = 34
      · rw [if_pos h2, if_pos h2]
      · rw [if_neg h2, if_neg h2]
        by_cases h3 : it.byteAt it.head = 92
        · rw [if_pos h3, if_pos h3]
          by_cases h4 : it.head + 1 ≥ it.data.length
          · rw [if_pos h4, if_pos h4]
          · rw [if_neg h4, if_neg h4,
              checked_readEscape { it with head := it.head + 1 } (by simp only []; omega)]
            have hre := Iterator.readEscape_frame { it with head := it.head + 1 } hb1
              (by simp only []; omega)
            cases hr : Iterator.readEscape { it with head := it.head + 1 } with
            | mk res it2 =>
              rw [hr] at hre
              cases res with
              | error e1 => rfl
              | ok bs =>
                simp only [] at hre ⊢
                have hb2 := hre.1.inBounds hb1
                have hlt2 := hre.2.1
                have hstep2 : it2.Advances { it2 with head := it2.head + 1 } :=
                  Iterator.Advances.step it2 1 (by
                    have e1 : it2.data = it.data := hre.1.1
                    have e2 := hb2.1
                    rw [e1] at e2
                    omega)
                exact ih { it2 with head := it2.head + 1 } (out ++ bs) (hstep2.inBounds hb2)
        · rw [if_neg h3, if_neg h3]
          by_cases h5 : it.byteAt it.head < 32
          · rw [if_pos h5, if_pos h5]
          · rw [if_neg h5, if_neg h5]
            exact ih { it with head := it.head + 1 } (out ++ [it.byteAt it.head]) hb1
    · rw [if_neg h1, if_neg h1]

theorem checked_readStringSlow (it : Iterator) (h : it.InBounds) (start : Nat)
    (hs : start ≤ it.head) :
    Checked.readStringSlow it start = some (it.readStringSlow start) := by
  unfold Checked.readStringSlow Iterator.readStringSlow
  rw [checked_sliceOf _ _ _ hs (by rw [← h.1]; exact h.2)]
  exact checked_readStringSlowLoop _ it _ h

theorem checked_readStringLoop (start : Nat) (fuel : Nat) :
    ∀ it : Iterator, it.InBounds → start ≤ it.head →
      Checked.readStringLoop start fuel it = some (Iterator.readStringLoop start fuel it) := by
  induction fuel with
  | zero => intro it _ _; rfl
  | succ fuel ih =>
    intro it h hs
    rw [Checked.readStringLoop, Iterator.readStringLoop]
    by_cases h1 : it.head < it.dataLen
    · have hlt : it.head < it.data.length := by rw [← h.1]; exact h1
      rw [if_pos h1, if_pos h1, checked_byteAt it _ hlt]
      simp only []
      have hstep : it.Advances { it with head := it.head + 1 } :=
        Iterator.Advances.step it 1 (by omega)
      have hrec := ih { it with head := it.head + 1 } (hstep.inBounds h)
        (by simp only []; omega)
      by_cases h0 : stringTable (it.byteAt it.head) ≠ 0
      · rw [if_pos h0, if_pos h0]
        by_cases h2 : it.byteAt it.head = 34
        · rw [if_pos h2, if_pos h2, checked_sliceOf _ _ _ hs (by omega)]
        · rw [if_neg h2, if_neg h2]
          by_cases h3 : it.byteAt it.head = 92
          · rw [if_pos h3, if_pos h3]
            exact checked_readStringSlow it h start hs
          · rw [if_neg h3, if_neg h3]
            by_cases h5 : it.byteAt it.head < 32
            · rw [if_pos h5, if_pos h5]
            · rw [if_neg h5, if_neg h5]
              exact hrec
      · rw [if_neg h0, if_neg h0]
        exact hrec
    · rw [if_neg h1, if_neg h1]

theorem checked_ReadString (it : Iterator) (h : it.InBounds) :
    Checked.ReadString it = some it.ReadString := by
  have hs := Iterator.skipWhiteSpace_advances it h
  have hb := hs.inBounds h
  unfold Checked.ReadString Iterator.ReadString
  rw [checked_skipWhiteSpace it h.1]
  simp only []
  by_cases h1 : it.skipWhiteSpace.head ≥ it.skipWhiteSpace.dataLen
  · rw [if_pos h1, if_pos h1]
  · rw [if_neg h1, if_neg h1, checked_byteAt _ _ (by rw [← hb.1]; omega)]
    simp only []
    by_cases h2 : it.skipWhiteSpace.byteAt it.skipWhiteSpace.head ≠ 34
    · rw [if_pos h2, if_pos h2]
    · rw [if_neg h2, if_neg h2]
      have hstep : it.skipWhiteSpace.Advances
          { it.skipWhiteSpace with head := it.skipWhiteSpace.head + 1 } :=
        Iterator.Advances.step _ 1 (by omega)
      exact checked_readStringLoop _ _ _ (hstep.inBounds hb) (le_refl _)

theorem checked_char (it : Iterator) (h : it.InBounds) : Checked.char it = some it.char := by
  unfold Checked.char Iterator.char
  by_cases h1 : it.head ≥ it.dataLen
  · rw [if_pos h1, if_pos h1]
  · rw [if_neg h1, if_neg h1]
    exact checked_byteAt it _ (by rw [← h.1]; omega)

/-! ## The pointer routine on memory that is no pointer slot -/

set_option maxRecDepth 100000 in
/-- The routine of a pointer type, handed the memory of a value whose first
word is zero, reads a nil pointer and writes `null` with no error: so does the
map encoder on `map[string]*int{"a": &zero}` and the interface encoder on a
boxed pointer to the integer 0. On a pointee whose first word is not zero the
word is followed as an address. -/
theorem ptrEncoder_pointee_zero :
    Marshal textFloat [] (.iface (.map .string (.ptr .int)) (.map [([97], .ptr (.int 0))])) =
      .ok [123, 34, 97, 34, 58, 110, 117, 108, 108, 125] ∧
    Marshal textFloat []
      (.iface (.struct [.mk [68, 97, 116, 97] [100, 97, 116, 97] .iface])
        (.struct [.iface (.ptr .int) (.ptr (.int 0))])) =
      .ok [123, 34, 100, 97, 116, 97, 34, 58, 110, 117, 108, 108, 125] ∧
    Marshal textFloat [] (.iface (.map .string (.ptr .int)) (.map [([97], .ptr (.int 7))])) =
      .error badMemory := by
  refine ⟨rfl, rfl, rfl⟩

/-! ## The claims -/

/-- C3: on the input `null` the reader `ReadNull` reports an error: it compares
three bytes of the buffer with the four bytes of the literal. -/
theorem ReadNull_null_fails :
    (Iterator.ReadNull (NewIterator [110, 117, 108, 108])).1 =
      some (Error.at "expected 'null'" 0) := by
  decide

/-- The six malformed inputs of the specification of `ReadInt64`: the empty
input, `+1`, `01`, `abc`, `-` and `12.3` are errors. -/
theorem ReadInt64_rejects :
    (NewIterator []).ReadInt64.1 = .error (Error.at "unexpected end of input" 0) ∧
    (NewIterator [43, 49]).ReadInt64.1 =
      .error (Error.at "leading '+' is not allowed in JSON numbers" 0) ∧
    (NewIterator [48, 49]).ReadInt64.1 =
      .error (Error.at "leading zero is not allowed in JSON Numbers" 1) ∧
    (NewIterator [97, 98, 99]).ReadInt64.1 = .error (Error.at "expected digit" 0) ∧
    (NewIterator [45]).ReadInt64.1 = .error (Error.at "expected digit" 1) ∧
    (NewIterator [49, 50, 46, 51]).ReadInt64.1 =
      .error (Error.at "float found, expected integer" 2) := by
  refine ⟨rfl, rfl, rfl, rfl, rfl, rfl⟩

/-- C4: `ReadInt64` succeeds exactly when the bytes at the cursor are an
integer literal: whitespace, an optional `-`, a single `0` or a run of digits
starting with 1-9, followed by no digit and none of `.`, `e`, `E`; on success
the cursor is just past the last digit. -/
theorem ReadInt64_ok_iff (it : Iterator) (hwf : it.dataLen = it.data.length) :
    ((∃ n it', it.ReadInt64 = (.ok n, it')) ↔
      ∃ ws neg digits rest, IntLiteral it.rest ws neg digits rest) ∧
    (∀ ws neg digits rest, IntLiteral it.rest ws neg digits rest →
      it.ReadInt64.2 = { it with
        head := it.head + ws.length + (if neg then 1 else 0) + digits.length }) := by
  refine ⟨⟨?_, ?_⟩, ?_⟩
  · rintro ⟨n, it', h⟩
    exact Iterator.ReadInt64_ok_literal it hwf n it' h
  · rintro ⟨ws, neg, digits, rest, h⟩
    exact ⟨_, _, Iterator.ReadInt64_of_literal it hwf ws neg digits rest h⟩
  · intro ws neg digits rest h
    rw [Iterator.ReadInt64_of_literal it hwf ws neg digits rest h]

theorem ReadInt64_ok_iff_witness :
    (NewIterator [32, 45, 52, 50, 44]).dataLen = (NewIterator [32, 45, 52, 50, 44]).data.length ∧
    (((∃ n it', (NewIterator [32, 45, 52, 50, 44]).ReadInt64 = (.ok n, it')) ↔
      ∃ ws neg digits rest, IntLiteral (NewIterator [32, 45, 52, 50, 44]).rest ws neg digits rest) ∧
    (∀ ws neg digits rest, IntLiteral (NewIterator [32, 45, 52, 50, 44]).rest ws neg digits rest →
      (NewIterator [32, 45, 52, 50, 44]).ReadInt64.2 = { NewIterator [32, 45, 52, 50, 44] with
        head := (NewIterator [32, 45, 52, 50, 44]).head + ws.length + (if neg then 1 else 0) +
          digits.length })) :=
  ⟨rfl, ReadInt64_ok_iff (NewIterator [32, 45, 52, 50, 44]) rfl⟩

set_option maxRecDepth 100000 in
/-- The two extreme values and a literal that does not fit: `ReadInt64`
returns `9223372036854775807` and `-9223372036854775808` exactly, and `1` for
`18446744073709551617`, without an error. -/
theorem ReadInt64_wrap_examples :
    (NewIterator [57, 50, 50, 51, 51, 55, 50, 48, 51, 54, 56, 53, 52, 55, 55, 53, 56, 48,
      55]).ReadInt64.1 = .ok 9223372036854775807 ∧
    (NewIterator [45, 57, 50, 50, 51, 51, 55, 50, 48, 51, 54, 56, 53, 52, 55, 55, 53, 56, 48,
      56]).ReadInt64.1 = .ok (-9223372036854775808) ∧
    (NewIterator [49, 56, 52, 52, 54, 55, 52, 52, 48, 55, 51, 55, 48, 57, 53, 53, 49, 54, 49,
      55]).ReadInt64.1 = .ok 1 := by
  refine ⟨rfl, rfl, rfl⟩

/-- C5: `ReadInt64` never reports overflow. On an accepted literal with sign
`s` and digits `d` the result is the value `s·d` reduced modulo `2^64` into the
signed 64-bit range: it lies in the range and differs from `s·d` by a multiple
of `2^64`, so it is `s·d` itself whenever that fits. -/
theorem ReadInt64_wraps (it : Iterator) (hwf : it.dataLen = it.data.length)
    (ws : List Nat) (neg : Bool) (digits rest : List Nat)
    (h : IntLiteral it.rest ws neg digits rest) :
    ∃ r, it.ReadInt64.1 = .ok r ∧
      -9223372036854775808 ≤ r ∧ r ≤ 9223372036854775807 ∧
      (r - (if neg then -(decVal digits) else decVal digits)) % 18446744073709551616 = 0 ∧
      ((-9223372036854775808 ≤ (if neg then -(decVal digits) else decVal digits) ∧
        (if neg then -(decVal digits) else decVal digits) ≤ 9223372036854775807) →
        r = (if neg then -(decVal digits) else decVal digits)) := by
  refine ⟨_, by rw [Iterator.ReadInt64_of_literal it hwf ws neg digits rest h], ?_, ?_, ?_, ?_⟩
  all_goals generalize (if neg = true then -(decVal digits) else decVal digits) = v
  · unfold wrap64; omega
  · unfold wrap64; omega
  · unfold wrap64; omega
  · intro hv; unfold wrap64; omega

theorem ReadInt64_wraps_witness :
    (NewIterator [49, 56, 52, 52, 54, 55, 52, 52, 48, 55, 51, 55, 48, 57, 53, 53, 49, 54, 49,
      55]).dataLen = 20 ∧
    ∃ r, (NewIterator [49, 56, 52, 52, 54, 55, 52, 52, 48, 55, 51, 55, 48, 57, 53, 53, 49, 54,
        49, 55]).ReadInt64.1 = .ok r ∧
      -9223372036854775808 ≤ r ∧ r ≤ 9223372036854775807 ∧
      (r - (if false then -(decVal [49, 56, 52, 52, 54, 55, 52, 52, 48, 55, 51, 55, 48, 57, 53,
        53, 49, 54, 49, 55]) else decVal [49, 56, 52, 52, 54, 55, 52, 52, 48, 55, 51, 55, 48,
        57, 53, 53, 49, 54, 49, 55])) % 18446744073709551616 = 0 ∧
      ((-9223372036854775808 ≤ (if false then -(decVal [49, 56, 52, 52, 54, 55, 52, 52, 48, 55,
          51, 55, 48, 57, 53, 53, 49, 54, 49, 55]) else decVal [49, 56, 52, 52, 54, 55, 52, 52,
          48, 55, 51, 55, 48, 57, 53, 53, 49, 54, 49, 55]) ∧
        (if false then -(decVal [49, 56, 52, 52, 54, 55, 52, 52, 48, 55, 51, 55, 48, 57, 53, 53,
          49, 54, 49, 55]) else decVal [49, 56, 52, 52, 54, 55, 52, 52, 48, 55, 51, 55, 48, 57,
          53, 53, 49, 54, 49, 55]) ≤ 9223372036854775807) →
        r = (if false then -(decVal [49, 56, 52, 52, 54, 55, 52, 52, 48, 55, 51, 55, 48, 57, 53,
          53, 49, 54, 49, 55]) else decVal [49, 56, 52, 52, 54, 55, 52, 52, 48, 55, 51, 55, 48,
          57, 53, 53, 49, 54, 49, 55])) :=
  ⟨rfl, ReadInt64_wraps
    (NewIterator [49, 56, 52, 52, 54, 55, 52, 52, 48, 55, 51, 55, 48, 57, 53, 53, 49, 54, 49, 55])
    rfl [] false [49, 56, 52, 52, 54, 55, 52, 52, 48, 55, 51, 55, 48, 57, 53, 53, 49, 54, 49, 55] []
    ⟨rfl, by decide, Or.inr ⟨49, _, rfl, by decide, by decide, by decide⟩,
      fun _ _ h => by cases h⟩⟩
/-- C6, as stated, fails for an escaped surrogate: the literal `"\uD800"` is
read as the three bytes `EF BF BD`, not as an encoding of the code point
`D800`. -/
theorem ReadString_surrogate_counterexample :
    (StrItem.uni 68 56 48 48).valid = true ∧
    (NewIterator (34 :: (strText [StrItem.uni 68 56 48 48] ++ [34]))).ReadString.1 =
      .ok [239, 191, 189] ∧
    ¬ (NewIterator (34 :: (strText [StrItem.uni 68 56 48 48] ++ [34]))).ReadString.1 =
      .ok (strClaimed [StrItem.uni 68 56 48 48]) := by
  refine ⟨rfl, rfl, ?_⟩
  intro h
  have h2 : (NewIterator (34 :: (strText [StrItem.uni 68 56 48 48] ++ [34]))).ReadString.1 =
      .ok [239, 191, 189] := rfl
  rw [h2] at h
  have h3 : strClaimed [StrItem.uni 68 56 48 48] = [237, 160, 128] := by decide
  rw [h3] at h
  cases h

/-- C6, amended: on a literal made of well-formed elements and closed by a
quote, `ReadString` returns the bytes the elements stand for and leaves the
cursor just past the closing quote. The bytes are those the specification
names (the escaped byte, the control byte, the UTF-8 encoding of the code
point, the byte itself) whenever no `\uXXXX` is a surrogate; an escaped
surrogate stands for `EF BF BD`. -/
theorem ReadString_resolves_escapes (it : Iterator) (hwf : it.dataLen = it.data.length)
    (ws : List Nat) (items : List StrItem) (tail : List Nat)
    (h : it.rest = ws ++ 34 :: (strText items ++ 34 :: tail))
    (hws : ∀ c ∈ ws, isWhiteSpace c = true) (hv : ∀ i ∈ items, i.valid = true) :
    it.ReadString = (.ok (strValue items),
      { it with head := it.head + ws.length + 1 + (strText items).length + 1 }) ∧
    ((∀ a b c d, StrItem.uni a b c d ∈ items → isSurrogate (codePoint a b c d) = false) →
      strValue items = strClaimed items) := by
  refine ⟨Iterator.ReadString_items it hwf ws items tail h hws hv, ?_⟩
  intro hs
  clear h hv
  induction items with
  | nil => rfl
  | cons i items ih =>
    have ih' := ih (fun a b c d hm => hs a b c d (List.mem_cons_of_mem _ hm))
    simp only [strValue, strClaimed, List.flatMap_cons] at ih' ⊢
    rw [ih']
    congr 1
    cases i with
    | raw c => rfl
    | esc e => rfl
    | uni a b c d =>
      simp only [StrItem.value, StrItem.claimed]
      rw [hs a b c d (List.mem_cons_self _ _)]
      rfl

set_option maxRecDepth 100000 in
theorem ReadString_resolves_escapes_witness :
    (NewIterator [34, 97, 92, 34, 98, 92, 92, 99, 92, 47, 100, 92, 110, 92, 116, 92, 117, 48,
      48, 52, 49, 34]).dataLen = 22 ∧
    (NewIterator [34, 97, 92, 34, 98, 92, 92, 99, 92, 47, 100, 92, 110, 92, 116, 92, 117, 48,
      48, 52, 49, 34]).ReadString.1 = .ok [97, 34, 98, 92, 99, 47, 100, 10, 9, 65] ∧
    (NewIterator [34, 97, 92, 34, 98, 92, 92, 99, 92, 47, 100, 92, 110, 92, 116, 92, 117, 48,
      48, 52, 49, 34]).ReadString.2.head = 22 := by
  have h := ReadString_resolves_escapes
    (NewIterator [34, 97, 92, 34, 98, 92, 92, 99, 92, 47, 100, 92, 110, 92, 116, 92, 117, 48,
      48, 52, 49, 34]) rfl []
    [.raw 97, .esc 34, .raw 98, .esc 92, .raw 99, .esc 47, .raw 100, .esc 110, .esc 116,
      .uni 48 48 52 49] [] rfl (by simp) (by decide)
  refine ⟨rfl, ?_, ?_⟩
  · rw [h.1]; rfl
  · rw [h.1]; rfl

/-- C7: `ReadString` fails, returning no string, when the byte after the
whitespace is not a quote (or there is none), or when the body after the quote
is malformed: it holds a raw control byte, ends before a closing quote, has a
backslash followed by no escape letter, or a `\u` not followed by four hex
digits. -/
theorem ReadString_fails (it : Iterator) (hwf : it.dataLen = it.data.length)
    (h : (∀ r, it.rest.dropWhile isWhiteSpace ≠ 34 :: r) ∨
      ∃ body, it.rest.dropWhile isWhiteSpace = 34 :: body ∧ BadStringBody body) :
    ∃ e it', it.ReadString = (.error e, it') :=
  Iterator.ReadString_bad it hwf h

theorem ReadString_fails_witness :
    (NewIterator [34, 104, 101, 108, 108, 111]).dataLen = 6 ∧
    (∃ e it', (NewIterator [34, 104, 101, 108, 108, 111]).ReadString = (.error e, it')) ∧
    (∃ e it', (NewIterator [34, 10, 34]).ReadString = (.error e, it')) :=
  ⟨rfl,
    ReadString_fails (NewIterator [34, 104, 101, 108, 108, 111]) rfl
      (Or.inr ⟨[104, 101, 108, 108, 111], rfl,
        BadStringBody.afterItem (.raw 104) _ rfl
          (BadStringBody.afterItem (.raw 101) _ rfl
            (BadStringBody.afterItem (.raw 108) _ rfl
              (BadStringBody.afterItem (.raw 108) _ rfl
                (BadStringBody.afterItem (.raw 111) _ rfl BadStringBody.eof))))⟩),
    ReadString_fails (NewIterator [34, 10, 34]) rfl
      (Or.inr ⟨[10, 34], rfl, BadStringBody.control 10 [34] (by decide)⟩)⟩

/-- C8: for every byte string `s`, `ReadString` on the bytes that
`WriteStringEscaped` writes for `s` returns `s` with the cursor at the end of
those bytes; and `Unmarshal` of `Marshal(s)` into a string yields `s`. -/
theorem string_round_trip {F : Type} (fl : FloatLib F) (encoderCache decoderCache : List Ty)
    (s : List Nat) :
    (NewIterator (Writer.WriteStringEscaped ⟨[]⟩ s).Buffer).ReadString =
      (.ok s, { head := (Writer.WriteStringEscaped ⟨[]⟩ s).Buffer.length,
                data := (Writer.WriteStringEscaped ⟨[]⟩ s).Buffer,
                dataLen := (Writer.WriteStringEscaped ⟨[]⟩ s).Buffer.length }) ∧
    Marshal fl encoderCache (.iface .string (.str s)) =
      .ok (Writer.WriteStringEscaped ⟨[]⟩ s).Buffer ∧
    Unmarshal fl decoderCache (Writer.WriteStringEscaped ⟨[]⟩ s).Buffer
      (.iface (.ptr .string) (.ptr (.str []))) = (none, .iface (.ptr .string) (.ptr (.str s))) := by
  have hread : (NewIterator (Writer.WriteStringEscaped ⟨[]⟩ s).Buffer).ReadString =
      (.ok s, { head := (Writer.WriteStringEscaped ⟨[]⟩ s).Buffer.length,
                data := (Writer.WriteStringEscaped ⟨[]⟩ s).Buffer,
                dataLen := (Writer.WriteStringEscaped ⟨[]⟩ s).Buffer.length }) := by
    have := Iterator.ReadString_WriteStringEscaped
      (NewIterator (Writer.WriteStringEscaped ⟨[]⟩ s).Buffer) rfl [] [] s (by simp [Iterator.rest, NewIterator])
      (by simp)
    rw [this]
    simp [NewIterator]
  refine ⟨hread, ?_, ?_⟩
  · simp only [Marshal, getEncoder_fst, compileEncoder, compileEncoderWith, encodeString,
      GetWriter]
  · simp only [Unmarshal, getDecoder_fst, compileDecoder, decodeString, hread]

/-- C9: for every 64-bit signed integer `n`, `ReadInt64` on the text that
`WriteInt64` writes for `n` returns `n` and consumes the whole text; and
`Unmarshal` of `Marshal(n)` into an `int64` yields `n`. -/
theorem int64_round_trip {F : Type} (fl : FloatLib F) (encoderCache decoderCache : List Ty)
    (n : Int) (hlo : -9223372036854775808 ≤ n) (hhi : n ≤ 9223372036854775807) :
    (NewIterator (Writer.WriteInt64 ⟨[]⟩ n).Buffer).ReadInt64 =
      (.ok n, { head := (Writer.WriteInt64 ⟨[]⟩ n).Buffer.length,
                data := (Writer.WriteInt64 ⟨[]⟩ n).Buffer,
                dataLen := (Writer.WriteInt64 ⟨[]⟩ n).Buffer.length }) ∧
    Marshal fl encoderCache (.iface .int64 (.int n)) = .ok (Writer.WriteInt64 ⟨[]⟩ n).Buffer ∧
    Unmarshal fl decoderCache (Writer.WriteInt64 ⟨[]⟩ n).Buffer
      (.iface (.ptr .int64) (.ptr (.int 0))) = (none, .iface (.ptr .int64) (.ptr (.int n))) := by
  have hread : (NewIterator (Writer.WriteInt64 ⟨[]⟩ n).Buffer).ReadInt64 =
      (.ok n, { head := (Writer.WriteInt64 ⟨[]⟩ n).Buffer.length,
                data := (Writer.WriteInt64 ⟨[]⟩ n).Buffer,
                dataLen := (Writer.WriteInt64 ⟨[]⟩ n).Buffer.length }) := by
    have := Iterator.ReadInt64_AppendInt
      (NewIterator (Writer.WriteInt64 ⟨[]⟩ n).Buffer) rfl [] [] n hlo hhi
      (by simp [Iterator.rest, NewIterator, Writer.WriteInt64]) (by simp)
      (fun _ _ h => by cases h)
    rw [this]
    simp [NewIterator, Writer.WriteInt64]
  refine ⟨hread, ?_, ?_⟩
  · simp only [Marshal, getEncoder_fst, compileEncoder, compileEncoderWith, encodeInt64,
      GetWriter]
  · simp only [Unmarshal, getDecoder_fst, compileDecoder, decodeInt64, hread]

theorem int64_round_trip_witness :
    (-9223372036854775808 : Int) ≤ -9223372036854775808 ∧
    (NewIterator (Writer.WriteInt64 ⟨[]⟩ (-9223372036854775808)).Buffer).ReadInt64.1 =
      .ok (-9223372036854775808) ∧
    Unmarshal (FloatLib.mk (fun _ => none) (fun (_ : Unit) => []) ()) []
      (Writer.WriteInt64 ⟨[]⟩ (-9223372036854775808)).Buffer
      (.iface (.ptr .int64) (.ptr (.int 0))) =
        (none, .iface (.ptr .int64) (.ptr (.int (-9223372036854775808)))) := by
  have h := int64_round_trip (FloatLib.mk (fun _ => none) (fun (_ : Unit) => []) ()) [] []
    (-9223372036854775808) (by decide) (by decide)
  exact ⟨by decide, by rw [h.1], h.2.2⟩

/-- C10: the routine `compileStructEncoder` returns writes `{`, then for each
field whose tag is not `-`, in declaration order, `"name":` followed by the
encoding of the field, with a single `,` before every such field but the first
emitted one, then `}`, with nothing else; `Marshal` of the struct returns
exactly these bytes, and `{}` when no field is emitted. The encoding of field
`i` is `text i`, what the routine of the field type writes for its value. -/
theorem struct_encode_format {F : Type} (fl : FloatLib F) (encoderCache : List Ty)
    (fields : List Field) (vals : List (Val F)) (text : Nat → List Nat)
    (h : ∀ e ∈ emittedFields fields 0, ∃ enc, compileEncoder fl e.2.2 = .ok enc ∧
      ∀ w : Writer, enc w (vals.getD e.1 .nilIface) = .ok ⟨w.Buffer ++ text e.1⟩) :
    (∃ enc, compileStructEncoder fl fields = .ok enc ∧
      ∀ w : Writer, enc w (.struct vals) =
        .ok ⟨w.Buffer ++ structText ((emittedFields fields 0).map (fun e => (e.2.1, text e.1)))⟩) ∧
    Marshal fl encoderCache (.iface (.struct fields) (.struct vals)) =
      .ok (structText ((emittedFields fields 0).map (fun e => (e.2.1, text e.1)))) ∧
    (emittedFields fields 0 = [] →
      Marshal fl encoderCache (.iface (.struct fields) (.struct vals)) = .ok [123, 125]) := by
  obtain ⟨plans, h1, h2⟩ := structEncode_fields fl (encodeInterface fl) vals text fields 0 [] h
  have hc : compileStructEncoder fl fields = .ok (structEncoder plans) := by
    simp only [compileStructEncoder, compileEncoder, compileEncoderWith]
    rw [h1]
    rfl
  have hrun : ∀ w : Writer, structEncoder plans w (.struct vals) =
      .ok ⟨w.Buffer ++ structText ((emittedFields fields 0).map (fun e => (e.2.1, text e.1)))⟩ := by
    intro w
    simp only [structEncoder, h2, Writer.WriteByte, structText]
    simp
  have hm : Marshal fl encoderCache (.iface (.struct fields) (.struct vals)) =
      .ok (structText ((emittedFields fields 0).map (fun e => (e.2.1, text e.1)))) := by
    simp only [Marshal, getEncoder_fst]
    rw [show compileEncoder fl (.struct fields) = .ok (structEncoder plans) from hc]
    simp only []
    rw [hrun]
    simp [GetWriter]
  refine ⟨⟨_, hc, hrun⟩, hm, ?_⟩
  intro he
  rw [hm, he]
  rfl

theorem struct_encode_format_witness :
    Marshal (FloatLib.mk (fun _ => none) (fun (_ : Unit) => []) ()) []
      (.iface (.struct [.mk [65, 110, 111, 110, 73, 68] [97, 110, 111, 110, 95, 105, 100] .int])
        (.struct [.int 999])) =
      .ok [123, 34, 97, 110, 111, 110, 95, 105, 100, 34, 58, 57, 57, 57, 125] :=
  (struct_encode_format (FloatLib.mk (fun _ => none) (fun (_ : Unit) => []) ()) []
    [.mk [65, 110, 111, 110, 73, 68] [97, 110, 111, 110, 95, 105, 100] .int]
    [.int 999] (fun _ => [57, 57, 57])
    (by
      intro e he
      simp [emittedFields] at he
      subst he
      exact ⟨encodeInt64, rfl, fun w => by
        simp [encodeInt64, Writer.WriteInt64, AppendInt, AppendUint, formatBits]⟩)).2.1
/-- C2 (unknown-field tolerance): for every struct type of supported field
types and every object of the JSON grammar, whitespace and nesting of any depth
included, `Unmarshal` succeeds provided each member whose key selects a field
holds a text that the decoder of that field decodes: a member whose key is not
byte for byte the wire name of a field leaves the fields as they are, its value
being skipped whatever its shape, and every other member gives its field the
decoded value (`MembersDecode`). Moreover the branch of the decoder for a key
that selects no field consumes exactly the text of one value of the JSON
grammar and touches no field. -/
theorem unknown_fields_skipped {F : Type} (fl : FloatLib F) (decoderCache : List Ty)
    (fields : List Field) (wsA ws : List Nat) (members : List JsonMember) (tail : List Nat)
    (dest final : List (Val F))
    (hsup : (Ty.struct fields).supported = true)
    (hwsA : ∀ c ∈ wsA, isWhiteSpace c = true)
    (hvalid : (Json.object ws members).valid = true)
    (hdec : MembersDecode fl fields members dest final) :
    Unmarshal fl decoderCache (wsA ++ ((Json.object ws members).text ++ tail))
        (.iface (.ptr (.struct fields)) (.ptr (.struct dest))) =
      (none, .iface (.ptr (.struct fields)) (.ptr (.struct final))) ∧
    ∃ fieldMap, compileStructFields fl fields 0 [] = .ok fieldMap ∧
      ∀ (key : List Nat) (v : Json) (it : Iterator) (rest : List Nat) (p : List (Val F)),
        fieldFor fields 0 key = none → v.valid = true → it.WF → it.rest = v.text ++ rest →
        Delimited rest →
        structDecodeField fieldMap key it p =
          (none, { it with head := it.head + v.text.length }, p) := by
  have hs : Ty.supportedFields fields = true := by simpa [Ty.supported] using hsup
  obtain ⟨fieldMap, hmap⟩ := compileStructFields_ok fl fields 0 [] hs
  refine ⟨?_, fieldMap, hmap, ?_⟩
  · have hc : compileDecoder fl (.struct fields) = .ok (structDecoder fieldMap) := by
      rw [compileDecoder, hmap]
    unfold Unmarshal
    simp only [getDecoder_fst, hc]
    rw [structDecoder_object fl fields fieldMap hmap (NewIterator _) wsA ws members tail dest
      final (NewIterator_wf _) hwsA hvalid (NewIterator_rest _) hdec]
  · intro key v it rest p hf hv hwf h ht
    exact structDecodeField_ok fl fields fieldMap hmap key v it rest p p hwf hv h ht
      (by unfold ValueDecodes; rw [hf])

set_option maxRecDepth 100000 in
theorem unknown_fields_skipped_witness :
    (Ty.struct [.mk [73, 68] [105, 100] .int, .mk [78, 97, 109, 101] [110, 97, 109, 101] .string,
      .mk [73, 115, 65, 99, 116, 105, 118, 101] [105, 115, 95, 97, 99, 116, 105, 118, 101] .bool,
      .mk [66, 97, 108, 97, 110, 99, 101] [] .float64]).supported = true ∧
    fieldFor [.mk [73, 68] [105, 100] .int, .mk [78, 97, 109, 101] [110, 97, 109, 101] .string,
      .mk [73, 115, 65, 99, 116, 105, 118, 101] [105, 115, 95, 97, 99, 116, 105, 118, 101] .bool,
      .mk [66, 97, 108, 97, 110, 99, 101] [] .float64] 0 [101, 120, 116, 114, 97] = none ∧
    Unmarshal textFloat []
      [123, 34, 105, 100, 34, 58, 49, 48, 49, 44, 34, 110, 97, 109, 101, 34, 58, 34, 71, 101,
        109, 105, 110, 105, 34, 44, 34, 105, 115, 95, 97, 99, 116, 105, 118, 101, 34, 58, 116,
        114, 117, 101, 44, 34, 66, 97, 108, 97, 110, 99, 101, 34, 58, 57, 57, 46, 57, 57, 44, 34,
        101, 120, 116, 114, 97, 34, 58, 123, 34, 97, 34, 58, 91, 49, 44, 50, 44, 51, 93, 125, 125]
      (.iface (.ptr (.struct [.mk [73, 68] [105, 100] .int,
        .mk [78, 97, 109, 101] [110, 97, 109, 101] .string,
        .mk [73, 115, 65, 99, 116, 105, 118, 101] [105, 115, 95, 97, 99, 116, 105, 118, 101] .bool,
        .mk [66, 97, 108, 97, 110, 99, 101] [] .float64]))
        (.ptr (.struct [.int 0, .str [], .bool false, .float [48]]))) =
      (none, .iface (.ptr (.struct [.mk [73, 68] [105, 100] .int,
        .mk [78, 97, 109, 101] [110, 97, 109, 101] .string,
        .mk [73, 115, 65, 99, 116, 105, 118, 101] [105, 115, 95, 97, 99, 116, 105, 118, 101] .bool,
        .mk [66, 97, 108, 97, 110, 99, 101] [] .float64]))
        (.ptr (.struct [.int 101, .str [71, 101, 109, 105, 110, 105], .bool true,
          .float [57, 57, 46, 57, 57]]))) := by
  have h := unknown_fields_skipped textFloat []
    [.mk [73, 68] [105, 100] .int, .mk [78, 97, 109, 101] [110, 97, 109, 101] .string,
      .mk [73, 115, 65, 99, 116, 105, 118, 101] [105, 115, 95, 97, 99, 116, 105, 118, 101] .bool,
      .mk [66, 97, 108, 97, 110, 99, 101] [] .float64] [] []
    [.mk [] [.raw 105, .raw 100] [] [] (.number ⟨false, [49, 48, 49], none, none⟩) [],
      .mk [] [.raw 110, .raw 97, .raw 109, .raw 101] [] []
        (.string [.raw 71, .raw 101, .raw 109, .raw 105, .raw 110, .raw 105]) [],
      .mk [] [.raw 105, .raw 115, .raw 95, .raw 97, .raw 99, .raw 116, .raw 105, .raw 118,
        .raw 101] [] [] (.bool true) [],
      .mk [] [.raw 66, .raw 97, .raw 108, .raw 97, .raw 110, .raw 99, .raw 101] [] []
        (.number ⟨false, [57, 57], some [57, 57], none⟩) [],
      .mk [] [.raw 101, .raw 120, .raw 116, .raw 114, .raw 97] [] []
        (.object [] [.mk [] [.raw 97] [] []
          (.array [] [.mk [] (.number ⟨false, [49], none, none⟩) [],
            .mk [] (.number ⟨false, [50], none, none⟩) [],
            .mk [] (.number ⟨false, [51], none, none⟩) []]) []]) []]
    [] [.int 0, .str [], .bool false, .float [48]]
    [.int 101, .str [71, 101, 109, 105, 110, 105], .bool true, .float [57, 57, 46, 57, 57]]
    (by decide) (by simp) (by decide)
    ⟨_, ⟨decodeInt64, .int 101, rfl,
        decodeInt64_decodes false [49, 48, 49] (by decide) _, rfl⟩,
      _, ⟨decodeString, .str [71, 101, 109, 105, 110, 105], rfl,
        decodeString_decodes [.raw 71, .raw 101, .raw 109, .raw 105, .raw 110, .raw 105]
          (by decide) _, rfl⟩,
      _, ⟨decodeBool, .bool true, rfl, decodeBool_decodes true _, rfl⟩,
      _, ⟨decodeFloat64 textFloat, .float [57, 57, 46, 57, 57], rfl,
        decodeFloat64_decodes textFloat [57, 57, 46, 57, 57] _ (by decide) (by decide) rfl _,
        rfl⟩,
      _, rfl, rfl⟩
  exact ⟨by decide, rfl, h.1⟩

set_option maxRecDepth 100000 in
/-- C1, the claim as worded fails on every nil pointer, nil list and nil map:
`Marshal` writes `null` for them and no typed decoder accepts `null`. The
struct `Pointers` of the tests with `PStr` set and `PInt` unset is written as
`{"p_str":"ptr_val","p_int":null}`, and `Unmarshal` of that text into a zero
`Pointers` returns the error `expected digit` at offset 27; a nil list and a
nil map are written as `null`, on which `Unmarshal` returns `expected '['` and
`expected '{'`. It fails as well on a map whose key type is a defined type of
the kind of `string` (`type keyK string`): `map[keyK]int{"a": 1}` is written
as `{"a":1}`, and `Unmarshal` of that text ends in the panic of `SetMapIndex`.
And it fails on a type that contains itself: on
`type Tree struct { Kids []Tree }` neither compiler returns, whatever the
bound on the depth of the calls, so neither `Marshal` nor `Unmarshal` does. -/
theorem round_trip_nil_counterexample :
    Marshal textFloat []
      (.iface (.struct [.mk [80, 83, 116, 114] [112, 95, 115, 116, 114] (.ptr .string),
          .mk [80, 73, 110, 116] [112, 95, 105, 110, 116] (.ptr .int)])
        (.struct [.ptr (.str [112, 116, 114, 95, 118, 97, 108]), .nilPtr])) =
      .ok [123, 34, 112, 95, 115, 116, 114, 34, 58, 34, 112, 116, 114, 95, 118, 97, 108, 34, 44,
        34, 112, 95, 105, 110, 116, 34, 58, 110, 117, 108, 108, 125] ∧
    (Unmarshal textFloat []
      [123, 34, 112, 95, 115, 116, 114, 34, 58, 34, 112, 116, 114, 95, 118, 97, 108, 34, 44,
        34, 112, 95, 105, 110, 116, 34, 58, 110, 117, 108, 108, 125]
      (.iface (.ptr (.struct [.mk [80, 83, 116, 114] [112, 95, 115, 116, 114] (.ptr .string),
          .mk [80, 73, 110, 116] [112, 95, 105, 110, 116] (.ptr .int)]))
        (.ptr (.struct [.nilPtr, .nilPtr])))).1 = some (Error.at "expected digit" 27) ∧
    Marshal textFloat [] (.iface (.slice .int) .nilSlice) = .ok [110, 117, 108, 108] ∧
    (Unmarshal textFloat [] [110, 117, 108, 108]
      (.iface (.ptr (.slice .int)) (.ptr .nilSlice))).1 = some (Error.at "expected '['" 0) ∧
    Marshal textFloat [] (.iface (.map .string .int) .nilMap) = .ok [110, 117, 108, 108] ∧
    (Unmarshal textFloat [] [110, 117, 108, 108]
      (.iface (.ptr (.map .string .int)) (.ptr .nilMap))).1 =
        some (Error.at "expected '\x7b'" 0) ∧
    Marshal textFloat [] (.iface (.map (.definedString "keyK") .int) (.map [([97], .int 1)])) =
      .ok [123, 34, 97, 34, 58, 49, 125] ∧
    (Unmarshal textFloat [] [123, 34, 97, 34, 58, 49, 125]
      (.iface (.ptr (.map (.definedString "keyK") .int)) (.ptr .nilMap))).1 =
        some notAssignable ∧
    exampleTypes 2 = .struct [([75, 105, 100, 115], [], 3)] ∧ exampleTypes 3 = .slice 2 ∧
    (∀ depth : Nat,
      ByHandle.compileEncoder textFloat exampleTypes depth 2 = none ∧
      ByHandle.compileDecoder textFloat exampleTypes exampleZero depth 2 = none) := by
  refine ⟨rfl, rfl, rfl, rfl, rfl, rfl, rfl, rfl, rfl, rfl, fun depth =>
    ⟨(ByHandle.compileEncoder_cyclic textFloat depth).2.2.1,
      (ByHandle.compileDecoder_cyclic textFloat exampleZero depth).2.2.1⟩⟩

/-- C1, amended: for every value `v` of a type `t` in the scope `RoundTrips`
(a type in which no type contains itself, built from string, int, int64, int32,
float64, bool, struct, list, map with keys of the type `string` itself, and
pointer; no nil pointer, list or map; every integer in the range of its type;
every float one that `strconv` writes as a number and reads back; no map with
elements of a pointer type; distinct map keys; distinct and plain wire names in
a struct), `Marshal` of `v` succeeds, and `Unmarshal` of
the text into a zero destination of type `t` succeeds with a value equal to `v`
field by field (`Same`): lists are compared by length and elements, and struct
fields with the tag `-` are not compared. -/
theorem round_trip {F : Type} (fl : FloatLib F) (encoderCache decoderCache : List Ty)
    (t : Ty) (v : Val F) (h : RoundTrips fl t v) :
    ∃ text v', Marshal fl encoderCache (.iface t v) = .ok text ∧
      Unmarshal fl decoderCache text (.iface (.ptr t) (.ptr (Ty.zero fl t))) =
        (none, .iface (.ptr t) (.ptr v')) ∧
      Same t v v' := by
  obtain ⟨enc, dec, j, v', hcE, hE, hcD, hV, hD, hS⟩ := transcodes_of fl t v h
  refine ⟨j.text, v', ?_, ?_, hS⟩
  · have hgen : ∀ enc', compileEncoder fl t = .ok enc' →
        (match enc' GetWriter v with
          | .error err => (.error err : Except Error (List Nat))
          | .ok w => .ok w.Buffer) = .ok j.text := by
      intro enc' he
      rw [hcE] at he
      cases he
      rw [hE]
      simp [GetWriter]
    cases t with
    | ptr elem =>
      rw [RoundTrips] at h
      obtain ⟨x, rfl, hx⟩ := h
      have hcE' := hcE
      unfold compileEncoder at hcE'
      rw [compileEncoderWith] at hcE'
      cases he : compileEncoderWith fl (encodeInterface fl) elem with
      | error err => rw [he] at hcE'; cases hcE'
      | ok elemEnc =>
        rw [he] at hcE'
        cases hcE'
        have := hE GetWriter
        simp only [ptrEncoder] at this
        simp only [Marshal, getEncoder_fst, compileEncoder, he, this]
        simp [GetWriter]
    | string => simp only [Marshal, getEncoder_fst, hcE]; exact hgen enc hcE
    | definedString name => simp only [Marshal, getEncoder_fst, hcE]; exact hgen enc hcE
    | int => simp only [Marshal, getEncoder_fst, hcE]; exact hgen enc hcE
    | int64 => simp only [Marshal, getEncoder_fst, hcE]; exact hgen enc hcE
    | int32 => simp only [Marshal, getEncoder_fst, hcE]; exact hgen enc hcE
    | float64 => simp only [Marshal, getEncoder_fst, hcE]; exact hgen enc hcE
    | bool => simp only [Marshal, getEncoder_fst, hcE]; exact hgen enc hcE
    | iface => rw [RoundTrips] at h; exact h.elim
    | struct fields => simp only [Marshal, getEncoder_fst, hcE]; exact hgen enc hcE
    | slice elem => simp only [Marshal, getEncoder_fst, hcE]; exact hgen enc hcE
    | map key elem => simp only [Marshal, getEncoder_fst, hcE]; exact hgen enc hcE
    | other kind => rw [RoundTrips] at h; exact h.elim
  · unfold Unmarshal
    simp only [getDecoder_fst, hcD]
    rw [hD (NewIterator j.text) [] (NewIterator_wf _)
      (by rw [NewIterator_rest]; simp) (fun _ _ hh => by cases hh)]

set_option maxRecDepth 100000 in
theorem round_trip_witness :
    RoundTrips textFloat
      (.struct [.mk [73, 68] [105, 100] .int, .mk [84, 97, 103, 115] [116, 97, 103, 115]
          (.slice .string), .mk [80] [112] (.ptr .int), .mk [77] [109] (.map .string .bool),
        .mk [66, 97, 108, 97, 110, 99, 101] [] .float64])
      (.struct [.int 101, .slice 2 [.str [97], .str [98]], .ptr (.int 7),
        .map [([107], .bool true)], .float [57, 57, 46, 57, 57]]) ∧
    Marshal textFloat []
      (.iface (.struct [.mk [73, 68] [105, 100] .int, .mk [84, 97, 103, 115] [116, 97, 103, 115]
          (.slice .string), .mk [80] [112] (.ptr .int), .mk [77] [109] (.map .string .bool),
        .mk [66, 97, 108, 97, 110, 99, 101] [] .float64])
      (.struct [.int 101, .slice 2 [.str [97], .str [98]], .ptr (.int 7),
        .map [([107], .bool true)], .float [57, 57, 46, 57, 57]])) =
      .ok [123, 34, 105, 100, 34, 58, 49, 48, 49, 44, 34, 116, 97, 103, 115, 34, 58, 91, 34, 97,
        34, 44, 34, 98, 34, 93, 44, 34, 112, 34, 58, 55, 44, 34, 109, 34, 58, 123, 34, 107, 34,
        58, 116, 114, 117, 101, 125, 44, 34, 66, 97, 108, 97, 110, 99, 101, 34, 58, 57, 57, 46,
        57, 57, 125] ∧
    ∃ text v', Marshal textFloat []
        (.iface (.struct [.mk [73, 68] [105, 100] .int,
          .mk [84, 97, 103, 115] [116, 97, 103, 115] (.slice .string), .mk [80] [112] (.ptr .int),
          .mk [77] [109] (.map .string .bool), .mk [66, 97, 108, 97, 110, 99, 101] [] .float64])
        (.struct [.int 101, .slice 2 [.str [97], .str [98]], .ptr (.int 7),
          .map [([107], .bool true)], .float [57, 57, 46, 57, 57]])) = .ok text ∧
      Unmarshal textFloat [] text
        (.iface (.ptr (.struct [.mk [73, 68] [105, 100] .int,
          .mk [84, 97, 103, 115] [116, 97, 103, 115] (.slice .string), .mk [80] [112] (.ptr .int),
          .mk [77] [109] (.map .string .bool), .mk [66, 97, 108, 97, 110, 99, 101] [] .float64]))
        (.ptr (Ty.zero textFloat (.struct [.mk [73, 68] [105, 100] .int,
          .mk [84, 97, 103, 115] [116, 97, 103, 115] (.slice .string), .mk [80] [112] (.ptr .int),
          .mk [77] [109] (.map .string .bool),
          .mk [66, 97, 108, 97, 110, 99, 101] [] .float64])))) =
        (none, .iface (.ptr (.struct [.mk [73, 68] [105, 100] .int,
          .mk [84, 97, 103, 115] [116, 97, 103, 115] (.slice .string), .mk [80] [112] (.ptr .int),
          .mk [77] [109] (.map .string .bool), .mk [66, 97, 108, 97, 110, 99, 101] [] .float64]))
          (.ptr v')) ∧
      Same (.struct [.mk [73, 68] [105, 100] .int,
          .mk [84, 97, 103, 115] [116, 97, 103, 115] (.slice .string), .mk [80] [112] (.ptr .int),
          .mk [77] [109] (.map .string .bool), .mk [66, 97, 108, 97, 110, 99, 101] [] .float64])
        (.struct [.int 101, .slice 2 [.str [97], .str [98]], .ptr (.int 7),
          .map [([107], .bool true)], .float [57, 57, 46, 57, 57]]) v' := by
  have hrt : RoundTrips textFloat
      (.struct [.mk [73, 68] [105, 100] .int, .mk [84, 97, 103, 115] [116, 97, 103, 115]
          (.slice .string), .mk [80] [112] (.ptr .int), .mk [77] [109] (.map .string .bool),
        .mk [66, 97, 108, 97, 110, 99, 101] [] .float64])
      (.struct [.int 101, .slice 2 [.str [97], .str [98]], .ptr (.int 7),
        .map [([107], .bool true)], .float [57, 57, 46, 57, 57]]) := by
    rw [RoundTrips]
    refine ⟨_, rfl, rfl, by decide, by decide, ?_⟩
    simp only [RoundTripsFields, RoundTripsField, RoundTrips, and_true]
    refine ⟨Or.inr ⟨101, rfl, by decide, by decide⟩,
      Or.inr ⟨2, _, rfl, by decide, rfl, ?_⟩,
      Or.inr ⟨_, rfl, 7, rfl, by decide, by decide⟩,
      Or.inr ⟨_, rfl, trivial, rfl, rfl, by decide, ?_⟩,
      Or.inr ⟨_, rfl, ⟨false, [57, 57], some [57, 57], none⟩, by decide, rfl, rfl⟩⟩
    · intro x hx
      simp only [List.take, List.mem_cons, List.mem_singleton, List.not_mem_nil, or_false] at hx
      rcases hx with rfl | rfl
      · exact ⟨_, rfl⟩
      · exact ⟨_, rfl⟩
    · intro e he
      simp only [List.mem_singleton] at he
      subst he
      exact ⟨_, rfl⟩
  exact ⟨hrt, rfl, round_trip textFloat [] [] _ _ hrt⟩

/-- C18, the claim fails for a type that contains itself:
`type Tree struct { Kids []Tree }` is built from the struct and list shapes
only, and neither `compileDecoder` nor `compileEncoder` returns on it, a
routine or an error, whatever the bound on the depth of the calls: the call on
`Tree` calls the compiler on `[]Tree`, which calls it on `Tree`. No finite tree
of types stands at the handle of `Tree`. -/
theorem supported_shapes_counterexample :
    exampleTypes 2 = .struct [([75, 105, 100, 115], [], 3)] ∧ exampleTypes 3 = .slice 2 ∧
    (∀ depth : Nat,
      ByHandle.compileDecoder textFloat exampleTypes exampleZero depth 2 = none ∧
      ByHandle.compileEncoder textFloat exampleTypes depth 2 = none) ∧
    (∀ t : Ty, ¬ Ty.At textFloat exampleTypes exampleZero t 2) := by
  refine ⟨rfl, rfl, fun depth => ⟨(ByHandle.compileDecoder_cyclic textFloat exampleZero depth).2.2.1,
    (ByHandle.compileEncoder_cyclic textFloat depth).2.2.1⟩, fun t hat => ?_⟩
  have h1 := compileDecoder_at textFloat exampleTypes exampleZero t 2 (t.depth + 1) hat
    (Nat.lt_succ_self _)
  rw [(ByHandle.compileDecoder_cyclic textFloat exampleZero (t.depth + 1)).2.2.1] at h1
  cases h1

/-- C18, as amended: for every type in which no type contains itself, that is
for every finite tree `t` of types, `compileDecoder` returns a routine exactly
when the type is built only from string, int, int64, int32, float64, bool,
interface, pointer, list, struct and string-keyed map shapes, fields with the
tag `-` apart (`Ty.supported`), and so does `compileEncoder`; on every other
such type both return an error and no routine. At every handle at which the
tree stands in a table of types, the compilers on handles return, and return
what the compilers on trees compute, once the bound on the depth of the calls
is above the depth of the tree. On a type that contains itself (a handle from
which the calls of the compiler lead back to it) neither compiler returns a
routine, whatever the bound. -/
theorem supported_shapes {F : Type} (fl : FloatLib F) (t : Ty) :
    ((∃ dec, compileDecoder fl t = .ok dec) ↔ t.supported = true) ∧
    ((∃ enc, compileEncoder fl t = .ok enc) ↔ t.supported = true) ∧
    (t.supported = false →
      (∃ err, compileDecoder fl t = .error err) ∧ ∃ err, compileEncoder fl t = .error err) ∧
    (∀ (types : Nat → Shape) (zero : Nat → Val F) (h : Nat), Ty.At fl types zero t h →
      ∀ depth, t.depth < depth →
        ByHandle.compileDecoder fl types zero depth h = some (compileDecoder fl t) ∧
        ByHandle.compileEncoder fl types depth h = some (compileEncoder fl t) ∧
        ((∃ dec, ByHandle.compileDecoder fl types zero depth h = some (.ok dec)) ↔
          t.supported = true) ∧
        ((∃ enc, ByHandle.compileEncoder fl types depth h = some (.ok enc)) ↔
          t.supported = true) ∧
        (t.supported = false →
          (∃ err, ByHandle.compileDecoder fl types zero depth h = some (.error err)) ∧
          ∃ err, ByHandle.compileEncoder fl types depth h = some (.error err))) ∧
    (∀ (types : Nat → Shape) (zero : Nat → Val F) (h : Nat), SelfReferential types h →
      ∀ depth, (∀ dec, ByHandle.compileDecoder fl types zero depth h ≠ some (.ok dec)) ∧
        (∀ enc, ByHandle.compileEncoder fl types depth h ≠ some (.ok enc))) := by
  have hD : (∃ dec, compileDecoder fl t = .ok dec) ↔ t.supported = true := by
    refine ⟨?_, compileDecoder_ok fl t⟩
    rintro ⟨dec, hdec⟩
    cases hs : t.supported with
    | true => rfl
    | false =>
      obtain ⟨err, he⟩ := compileDecoder_fail fl t hs
      rw [he] at hdec
      cases hdec
  have hE : (∃ enc, compileEncoder fl t = .ok enc) ↔ t.supported = true := by
    refine ⟨?_, compileEncoderWith_ok fl (encodeInterface fl) t⟩
    rintro ⟨enc, henc⟩
    cases hs : t.supported with
    | true => rfl
    | false =>
      obtain ⟨err, he⟩ := compileEncoderWith_fail fl (encodeInterface fl) t hs
      unfold compileEncoder at henc
      rw [he] at henc
      cases henc
  have hF : t.supported = false →
      (∃ err, compileDecoder fl t = .error err) ∧ ∃ err, compileEncoder fl t = .error err :=
    fun h => ⟨compileDecoder_fail fl t h, compileEncoderWith_fail fl (encodeInterface fl) t h⟩
  refine ⟨hD, hE, hF, ?_, fun types zero h hs depth =>
    ⟨ByHandle.compileDecoder_self fl types zero h hs depth,
      ByHandle.compileEncoder_self fl types h hs depth⟩⟩
  intro types zero h hat depth hd
  have h1 := compileDecoder_at fl types zero t h depth hat hd
  have h2 : ByHandle.compileEncoder fl types depth h = some (compileEncoder fl t) :=
    compileEncoder_at fl types zero t h depth hat hd
  refine ⟨h1, h2, ?_, ?_, ?_⟩
  · rw [h1, ← hD]
    constructor
    · rintro ⟨dec, hdec⟩
      exact ⟨dec, Option.some.inj hdec⟩
    · rintro ⟨dec, hdec⟩
      exact ⟨dec, by rw [hdec]⟩
  · rw [h2, ← hE]
    constructor
    · rintro ⟨enc, henc⟩
      exact ⟨enc, Option.some.inj henc⟩
    · rintro ⟨enc, henc⟩
      exact ⟨enc, by rw [henc]⟩
  · intro hs
    obtain ⟨⟨e1, he1⟩, ⟨e2, he2⟩⟩ := hF hs
    exact ⟨⟨e1, by rw [h1, he1]⟩, ⟨e2, by rw [h2, he2]⟩⟩

set_option maxRecDepth 100000 in
theorem supported_shapes_witness :
    Ty.At textFloat exampleTypes exampleZero
      (.struct [.mk [78, 97, 109, 101] [] .string, .mk [84, 97, 103, 115] [] (.slice .string),
        .mk [65, 103, 101] [] .int]) 7 ∧
    Ty.depth (.struct [.mk [78, 97, 109, 101] [] .string,
      .mk [84, 97, 103, 115] [] (.slice .string), .mk [65, 103, 101] [] .int]) = 2 ∧
    Ty.supported (.struct [.mk [78, 97, 109, 101] [] .string,
      .mk [84, 97, 103, 115] [] (.slice .string), .mk [65, 103, 101] [] .int]) = true ∧
    Ty.supported (.map .int .string) = false ∧
    Ty.supported (.struct [.mk [65] [45] (.other "chan"), .mk [66] [] (.map .string (.ptr .iface))])
      = true ∧
    (∃ dec, ByHandle.compileDecoder textFloat exampleTypes exampleZero 3 7 = some (.ok dec)) ∧
    SelfReferential exampleTypes 2 ∧
    (∀ depth,
      (∀ dec, ByHandle.compileDecoder textFloat exampleTypes exampleZero depth 2 ≠
        some (.ok dec)) ∧
      (∀ enc, ByHandle.compileEncoder textFloat exampleTypes depth 2 ≠ some (.ok enc))) :=
  have hself : SelfReferential exampleTypes 2 :=
    Relation.TransGen.tail
      (Relation.TransGen.single (show Calls exampleTypes 2 3 by unfold Calls; decide))
      (show Calls exampleTypes 3 2 by unfold Calls; decide)
  have hat : Ty.At textFloat exampleTypes exampleZero
      (.struct [.mk [78, 97, 109, 101] [] .string, .mk [84, 97, 103, 115] [] (.slice .string),
        .mk [65, 103, 101] [] .int]) 7 := by
    simp only [Ty.At, Ty.FieldsAt, Ty.FieldAt]
    exact ⟨_, rfl, rfl, _, _, rfl, ⟨rfl, rfl, Or.inr ⟨rfl, rfl⟩⟩, _, _, rfl,
      ⟨rfl, rfl, Or.inr ⟨_, rfl, rfl, rfl, rfl⟩⟩, _, _, rfl, ⟨rfl, rfl, Or.inr ⟨rfl, rfl⟩⟩, rfl⟩
  ⟨hat, rfl, rfl, rfl, rfl,
    ((supported_shapes textFloat _).2.2.2.1 exampleTypes exampleZero 7 hat 3
      (by decide)).2.2.1.mpr rfl,
    hself, (supported_shapes textFloat .string).2.2.2.2 exampleTypes exampleZero 2 hself⟩

/-- C19 (compilation errors are never cached): whatever the cache holds, when
`getDecoder` returns an error the cache is as before, so that the call fails
again; when it returns a routine, that is the routine of `compileDecoder`, and
the cache is as before if the type was in it and holds the type in addition
otherwise; and the same for `getEncoder`. -/
theorem errors_not_cached {F : Type} (fl : FloatLib F) (cache : List Ty) (t : Ty) :
    (∀ err, (getDecoder fl cache t).1 = .error err →
      (getDecoder fl cache t).2 = cache ∧
      (getDecoder fl (getDecoder fl cache t).2 t).1 = (.error err : Except Error (DecoderFunc F))) ∧
    (∀ dec, (getDecoder fl cache t).1 = .ok dec →
      compileDecoder fl t = .ok dec ∧
      (cache.any (Ty.beq t) = true → (getDecoder fl cache t).2 = cache) ∧
      (cache.any (Ty.beq t) = false → (getDecoder fl cache t).2 = t :: cache)) ∧
    (∀ err, (getEncoder fl cache t).1 = .error err →
      (getEncoder fl cache t).2 = cache ∧
      (getEncoder fl (getEncoder fl cache t).2 t).1 = (.error err : Except Error (EncoderFunc F))) ∧
    (∀ enc, (getEncoder fl cache t).1 = .ok enc →
      compileEncoder fl t = .ok enc ∧
      (cache.any (Ty.beq t) = true → (getEncoder fl cache t).2 = cache) ∧
      (cache.any (Ty.beq t) = false → (getEncoder fl cache t).2 = t :: cache)) := by
  have hd2 : ∀ err, compileDecoder fl t = (.error err : Except Error (DecoderFunc F)) →
      (getDecoder fl cache t).2 = cache := by
    intro err he
    unfold getDecoder
    split_ifs
    · rfl
    · rw [he]
  have he2 : ∀ err, compileEncoder fl t = (.error err : Except Error (EncoderFunc F)) →
      (getEncoder fl cache t).2 = cache := by
    intro err he
    unfold getEncoder
    split_ifs
    · rfl
    · rw [he]
  refine ⟨?_, ?_, ?_, ?_⟩
  · intro err h
    rw [getDecoder_fst] at h
    have h2 := hd2 err h
    exact ⟨h2, by rw [getDecoder_fst]; exact h⟩
  · intro dec h
    rw [getDecoder_fst] at h
    refine ⟨h, ?_, ?_⟩
    · intro hin
      unfold getDecoder
      rw [if_pos hin]
    · intro hin
      unfold getDecoder
      rw [if_neg (by simp [hin]), h]
  · intro err h
    rw [getEncoder_fst] at h
    have h2 := he2 err h
    exact ⟨h2, by rw [getEncoder_fst]; exact h⟩
  · intro enc h
    rw [getEncoder_fst] at h
    refine ⟨h, ?_, ?_⟩
    · intro hin
      unfold getEncoder
      rw [if_pos hin]
    · intro hin
      unfold getEncoder
      rw [if_neg (by simp [hin]), h]

/-- C13 (pointer encode): the routine `compileEncoder` returns for a pointer
type writes `null` for a nil pointer and otherwise exactly what the routine of
the pointee type writes for the pointee; `Marshal` of a pointer does the same
at top level; and this routine is the one the list encoder runs on the elements
of a list of pointers and the struct encoder on a field of pointer type. -/
theorem pointer_encode {F : Type} (fl : FloatLib F) (encoderCache : List Ty) (elem : Ty)
    (elemEnc : EncoderFunc F) (h : compileEncoder fl elem = .ok elemEnc) :
    ∃ enc, compileEncoder fl (.ptr elem) = .ok enc ∧
      (∀ w : Writer, enc w .nilPtr = .ok ⟨w.Buffer ++ [110, 117, 108, 108]⟩) ∧
      (∀ (w : Writer) (x : Val F), enc w (.ptr x) = elemEnc w x) ∧
      Marshal fl encoderCache (.iface (.ptr elem) .nilPtr) = .ok [110, 117, 108, 108] ∧
      (∀ x : Val F, Marshal fl encoderCache (.iface (.ptr elem) (.ptr x)) =
        (elemEnc GetWriter x).map (fun w => w.Buffer)) ∧
      compileEncoder fl (.slice (.ptr elem)) = .ok (sliceEncoder enc) ∧
      (∀ (name tag : List Nat) (i : Nat) (acc : List (structFieldEncoder F)), tag ≠ [45] →
        ∃ key, compileStructEncField fl (encodeInterface fl) (.mk name tag (.ptr elem)) i acc =
          .ok (acc ++ [{ offset := i, encoder := enc, key := key }])) := by
  have hp : compileEncoder fl (.ptr elem) = .ok (ptrEncoder fl elemEnc) := by
    unfold compileEncoder at h ⊢
    rw [compileEncoderWith, h]
  refine ⟨ptrEncoder fl elemEnc, hp, ?_, ?_, ?_, ?_, ?_, ?_⟩
  · intro w
    simp [ptrEncoder, Writer.WriteNull]
  · intro w x
    simp [ptrEncoder]
  · simp [Marshal]
  · intro x
    simp only [Marshal, getEncoder_fst, h]
    cases elemEnc GetWriter x <;> rfl
  · unfold compileEncoder at hp ⊢
    rw [compileEncoderWith, hp]
  · intro name tag i acc ht
    unfold compileEncoder at hp
    rw [compileStructEncField, if_neg ht, hp]
    exact ⟨_, rfl⟩

set_option maxRecDepth 100000 in
theorem pointer_encode_witness :
    compileEncoder textFloat .int = .ok encodeInt64 ∧
    (∃ enc, compileEncoder textFloat (.ptr .int) = .ok enc ∧
      (∀ w : Writer, enc w .nilPtr = .ok ⟨w.Buffer ++ [110, 117, 108, 108]⟩) ∧
      (∀ (w : Writer) (x : Val (List Nat)), enc w (.ptr x) = encodeInt64 w x) ∧
      Marshal textFloat [] (.iface (.ptr .int) .nilPtr) = .ok [110, 117, 108, 108] ∧
      (∀ x : Val (List Nat), Marshal textFloat [] (.iface (.ptr .int) (.ptr x)) =
        (encodeInt64 GetWriter x).map (fun w => w.Buffer)) ∧
      compileEncoder textFloat (.slice (.ptr .int)) = .ok (sliceEncoder enc) ∧
      (∀ (name tag : List Nat) (i : Nat) (acc : List (structFieldEncoder (List Nat))),
        tag ≠ [45] →
        ∃ key, compileStructEncField textFloat (encodeInterface textFloat)
            (.mk name tag (.ptr .int)) i acc =
          .ok (acc ++ [{ offset := i, encoder := enc, key := key }]))) ∧
    Marshal textFloat []
      (.iface (.struct [.mk [80, 83, 116, 114] [112, 95, 115, 116, 114] (.ptr .string),
          .mk [80, 73, 110, 116] [112, 95, 105, 110, 116] (.ptr .int)])
        (.struct [.ptr (.str [112, 116, 114, 95, 118, 97, 108]), .nilPtr])) =
      .ok [123, 34, 112, 95, 115, 116, 114, 34, 58, 34, 112, 116, 114, 95, 118, 97, 108, 34, 44,
        34, 112, 95, 105, 110, 116, 34, 58, 110, 117, 108, 108, 125] ∧
    Marshal textFloat []
      (.iface (.slice (.ptr .int)) (.slice 2 [.nilPtr, .ptr (.int 7)])) =
      .ok [91, 110, 117, 108, 108, 44, 55, 93] :=
  ⟨rfl, pointer_encode textFloat [] .int encodeInt64 rfl, rfl, rfl⟩

/-- C14 (list encode): the routine `compileEncoder` returns for a list type
writes `null` for a nil list, and for every other list `[`, the encodings of
the elements in index order separated by single commas, and `]`; an allocated
list of length 0 gives `[]`. -/
theorem list_encode {F : Type} (fl : FloatLib F) (elem : Ty) (elemEnc : EncoderFunc F)
    (h : compileEncoder fl elem = .ok elemEnc) :
    ∃ enc, compileEncoder fl (.slice elem) = .ok enc ∧
      (∀ w : Writer, enc w .nilSlice = .ok ⟨w.Buffer ++ [110, 117, 108, 108]⟩) ∧
      (∀ (w : Writer) (len : Nat) (store : List (Val F)) (texts : List (List Nat)),
        len ≤ store.length →
        List.Forall₂ (fun x t => ∀ w' : Writer, elemEnc w' x = .ok ⟨w'.Buffer ++ t⟩)
          (store.take len) texts →
        enc w (.slice len store) = .ok ⟨w.Buffer ++ ([91] ++ commaJoined texts ++ [93])⟩) ∧
      (∀ (w : Writer) (store : List (Val F)),
        enc w (.slice 0 store) = .ok ⟨w.Buffer ++ [91, 93]⟩) := by
  have hc : compileEncoder fl (.slice elem) = .ok (sliceEncoder elemEnc) := by
    unfold compileEncoder at h ⊢
    rw [compileEncoderWith, h]
  refine ⟨sliceEncoder elemEnc, hc, ?_, ?_, ?_⟩
  · intro w
    simp [sliceEncoder, Writer.WriteNull]
  · intro w len store texts hlen hall
    simp only [sliceEncoder]
    rw [sliceEncodeLoop_texts elemEnc store len 0 _ texts (by omega) (by simpa using hall)]
    simp [Writer.WriteByte, commaJoined]
  · intro w store
    simp [sliceEncoder, sliceEncodeLoop, Writer.WriteByte]

set_option maxRecDepth 100000 in
theorem list_encode_witness :
    compileEncoder textFloat .string = .ok encodeString ∧
    (∃ enc, compileEncoder textFloat (.slice .string) = .ok enc ∧
      (∀ w : Writer, enc w .nilSlice = .ok ⟨w.Buffer ++ [110, 117, 108, 108]⟩) ∧
      (∀ (w : Writer) (len : Nat) (store : List (Val (List Nat))) (texts : List (List Nat)),
        len ≤ store.length →
        List.Forall₂ (fun x t => ∀ w' : Writer, encodeString w' x = .ok ⟨w'.Buffer ++ t⟩)
          (store.take len) texts →
        enc w (.slice len store) = .ok ⟨w.Buffer ++ ([91] ++ commaJoined texts ++ [93])⟩) ∧
      (∀ (w : Writer) (store : List (Val (List Nat))),
        enc w (.slice 0 store) = .ok ⟨w.Buffer ++ [91, 93]⟩)) ∧
    Marshal textFloat []
      (.iface (.slice .string) (.slice 3 [.str [111, 110, 101], .str [116, 119, 111],
        .str [116, 104, 114, 101, 101]])) =
      .ok [91, 34, 111, 110, 101, 34, 44, 34, 116, 119, 111, 34, 44, 34, 116, 104, 114, 101,
        101, 34, 93] ∧
    Marshal textFloat [] (.iface (.slice .string) (.slice 0 [])) = .ok [91, 93] ∧
    Marshal textFloat [] (.iface (.slice .string) .nilSlice) = .ok [110, 117, 108, 108] :=
  ⟨rfl, list_encode textFloat .string encodeString rfl, rfl, rfl, rfl⟩

set_option maxRecDepth 100000 in
/-- C15, the claim fails for maps whose values are pointers: the map encoder
hands the routine of the pointer type the address the entry points to, where
that routine expects the address of a slot holding the pointer. For
`map[string]*int{"a": &1}` the routine reads the memory of the integer as a
pointer, and for `map[string]*int{"a": nil}` it dereferences nil; neither call
returns the encoding the claim states (`{"a":1}` and `{"a":null}`). A nil map
gives `null` and a map of integers its entries, as the claim states. -/
theorem map_encode_pointer_values :
    Marshal textFloat [] (.iface (.map .string (.ptr .int)) (.map [([97], .ptr (.int 1))])) =
      .error badMemory ∧
    Marshal textFloat [] (.iface (.map .string (.ptr .int)) (.map [([97], .nilPtr)])) =
      .error nilDeref ∧
    Marshal textFloat [] (.iface (.map .string (.ptr .int)) .nilMap) =
      .ok [110, 117, 108, 108] ∧
    Marshal textFloat [] (.iface (.map .string .int) (.map [([97], .int 1), ([98], .int 2)])) =
      .ok [123, 34, 97, 34, 58, 49, 44, 34, 98, 34, 58, 50, 125] := by
  refine ⟨rfl, rfl, rfl, rfl⟩

set_option maxRecDepth 100000 in
/-- C16, the claim fails on the first byte `n`: `ReadNull` compares three
bytes with the four of `null` and never succeeds, so decoding `null` into an
interface destination returns the error `expected 'null'` at offset 0, and
decoding `[null]` the same error at offset 1. The other classes are read as the
claim states: `"a"` gives a string, `true` a boolean, `1` a float, `[1]` a
sequence, an empty input and the byte `x` an error. -/
theorem dynamic_decode_null_fails :
    Unmarshal textFloat [] [110, 117, 108, 108] (.iface (.ptr .iface) (.ptr .nilIface)) =
      (some (Error.at "expected 'null'" 0), .iface (.ptr .iface) (.ptr .nilIface)) ∧
    Unmarshal textFloat [] [91, 110, 117, 108, 108, 93]
        (.iface (.ptr .iface) (.ptr .nilIface)) =
      (some (Error.at "expected 'null'" 1), .iface (.ptr .iface) (.ptr .nilIface)) ∧
    Unmarshal textFloat [] [34, 97, 34] (.iface (.ptr .iface) (.ptr .nilIface)) =
      (none, .iface (.ptr .iface) (.ptr (.iface .string (.str [97])))) ∧
    Unmarshal textFloat [] [116, 114, 117, 101] (.iface (.ptr .iface) (.ptr .nilIface)) =
      (none, .iface (.ptr .iface) (.ptr (.iface .bool (.bool true)))) ∧
    Unmarshal textFloat [] [49] (.iface (.ptr .iface) (.ptr .nilIface)) =
      (none, .iface (.ptr .iface) (.ptr (.iface .float64 (.float [49])))) ∧
    (Unmarshal textFloat [] [] (.iface (.ptr .iface) (.ptr .nilIface))).1 =
      some (Error.at "unexpected end of JSON" 0) ∧
    (Unmarshal textFloat [] [120] (.iface (.ptr .iface) (.ptr .nilIface))).1 =
      some (Error.at "unexpected character: x" 0) := by
  refine ⟨rfl, rfl, rfl, rfl, rfl, rfl, rfl⟩

set_option maxRecDepth 100000 in
/-- C17, the claim fails for a boxed pointer: `encodeInterface` hands the
routine of the pointer type the address the pointer holds, where that routine
expects the address of a slot holding the pointer. For the struct `Generic` of
the tests with `Data` holding a pointer to the integer 1 the routine reads the
memory of the integer as a pointer, and with `Data` holding a nil `*int` it
dereferences nil; neither call returns the encoding the claim states. An empty
field gives `null` and a boxed map the encoding of the map, as the claim
states. -/
theorem dynamic_encode_pointer_fails :
    Marshal textFloat []
      (.iface (.struct [.mk [68, 97, 116, 97] [100, 97, 116, 97] .iface])
        (.struct [.iface (.ptr .int) (.ptr (.int 1))])) = .error badMemory ∧
    Marshal textFloat []
      (.iface (.struct [.mk [68, 97, 116, 97] [100, 97, 116, 97] .iface])
        (.struct [.iface (.ptr .int) .nilPtr])) = .error nilDeref ∧
    Marshal textFloat []
      (.iface (.struct [.mk [68, 97, 116, 97] [100, 97, 116, 97] .iface])
        (.struct [.nilIface])) =
      .ok [123, 34, 100, 97, 116, 97, 34, 58, 110, 117, 108, 108, 125] ∧
    Marshal textFloat []
      (.iface (.struct [.mk [68, 97, 116, 97] [100, 97, 116, 97] .iface])
        (.struct [.iface (.map .string .int) (.map [([97], .int 1), ([98], .int 2)])])) =
      .ok [123, 34, 100, 97, 116, 97, 34, 58, 123, 34, 97, 34, 58, 49, 44, 34, 98, 34, 58, 50,
        125, 125] := by
  refine ⟨rfl, rfl, rfl, rfl⟩

/-- C11 (list decode and growth): the routine `compileDecoder` returns for a
list type, on an array of the JSON grammar (whitespace included) whose elements
the element decoder decodes, and a destination of capacity 0, succeeds with the
cursor right behind the array and a list whose length is the number of
elements, whose elements are the decoded values in input order, and whose
capacity is 0 for the empty array and otherwise the smallest of 8, 16, 32, ...
that is at least the number of elements. -/
theorem list_decode_growth {F : Type} (fl : FloatLib F) (elem : Ty) (dec : DecoderFunc F)
    (hc : compileDecoder fl elem = .ok dec) (it : Iterator) (wsA ws tail : List Nat)
    (rows : List (JsonElem × Val F)) (dest : Val F) (hwf : it.WF)
    (hdest : dest = .nilSlice ∨ dest = .slice 0 [])
    (hwsA : ∀ c ∈ wsA, isWhiteSpace c = true)
    (hvalid : (Json.array ws (rows.map (fun r => r.1))).valid = true)
    (hrest : it.rest = wsA ++ ((Json.array ws (rows.map (fun r => r.1))).text ++ tail))
    (hdec : ∀ r ∈ rows, DecodesAt dec r.1.value.text (Ty.zero fl elem) r.2) :
    ∃ sdec result, compileDecoder fl (.slice elem) = .ok sdec ∧
      sdec it dest = (none, { it with head := it.head + wsA.length +
        (Json.array ws (rows.map (fun r => r.1))).text.length }, result) ∧
      result.sliceLen = rows.length ∧
      result.sliceStore.take rows.length = rows.map (fun r => r.2) ∧
      (rows = [] → result.sliceStore.length = 0) ∧
      (rows ≠ [] → ∃ k, result.sliceStore.length = 8 * 2 ^ k ∧ rows.length ≤ 8 * 2 ^ k ∧
        (k = 0 ∨ 8 * 2 ^ (k - 1) < rows.length)) := by
  have hcs : compileDecoder fl (.slice elem) = .ok (sliceDecoder (Ty.zero fl elem) dec) := by
    rw [compileDecoder, hc]
  simp only [Json.valid, Bool.and_eq_true, Bool.or_eq_true, decide_eq_true_eq,
    all_iff_forall] at hvalid
  obtain ⟨⟨hws, hempty⟩, helems⟩ := hvalid
  have h' : it.rest = wsA ++ 91 :: (ws ++ (Json.elemsText true (rows.map (fun r => r.1)) ++
      93 :: tail)) := by
    rw [hrest]; simp [Json.text]
  have hwf1 : Iterator.WF { it with head := it.head + wsA.length + 1 } := hwf
  have hr1 : Iterator.rest { it with head := it.head + wsA.length + 1 } =
      ws ++ (Json.elemsText true (rows.map (fun r => r.1)) ++ 93 :: tail) :=
    Iterator.rest_adv_cons _ 91 _ (Iterator.rest_adv_append it wsA _ h')
  have hstart : sliceDecoder (Ty.zero fl elem) dec it dest =
      sliceDecodeLoop (Ty.zero fl elem) dec (it.dataLen - (it.head + wsA.length + 1) + 1)
        { it with head := it.head + wsA.length + 1 } dest := by
    unfold sliceDecoder Iterator.ReadArrayStart
    rw [Iterator.readStructural_ok it hwf 91 _ wsA _ h' hwsA (by decide)]
    rcases hdest with rfl | rfl <;> rfl
  have hl0 : dest.sliceLen = ([] : List (Val F)).length := by
    rcases hdest with rfl | rfl <;> rfl
  have hs0 : dest.sliceStore = [] ++ List.replicate 0 (Ty.zero fl elem) := by
    rcases hdest with rfl | rfl <;> rfl
  cases rows with
  | nil =>
    simp only [List.map_nil, Json.elemsText, List.nil_append] at hr1
    have hwf2 : Iterator.WF { it with head := it.head + wsA.length + 1 + ws.length } := hwf
    have hr2 := Iterator.rest_adv_append _ ws _ hr1
    refine ⟨_, dest, hcs, ?_, hl0, by simp, fun _ => by rw [hs0]; rfl,
      fun hne => absurd rfl hne⟩
    rw [hstart, sliceDecodeLoop,
      Iterator.skipWhiteSpace_cons _ hwf1 ws 93 tail hr1 hws (by decide)]
    simp only []
    rw [if_pos ((Iterator.peek_cons _ hwf2 hr2 93).mpr rfl)]
    refine res3_congr it none _ _ _ ?_
    simp [Json.text, Json.elemsText]
    omega
  | cons row rows =>
    have hws0 : ws = [] := by simpa using hempty
    subst hws0
    obtain ⟨k, hk1, hk2, hk3⟩ := grownCap_zero rows.length
    refine ⟨_, .slice (rows.length + 1) ((row :: rows).map (fun r => r.2) ++ List.replicate
      (grownCap (rows.length + 1) 0 0 - (rows.length + 1)) (Ty.zero fl elem)), hcs, ?_, rfl,
      ?_, ?_, ?_⟩
    · rw [hstart, sliceDecodeLoop_rows (Ty.zero fl elem) dec _ rows row _ tail dest [] 0 hwf1
        helems hdec hr1 hl0 hs0 (by simp only []; omega)]
      refine congrArg₂ _ rfl (congrArg₂ _ ?_ (by simp))
      show Iterator.mk _ _ _ = Iterator.mk _ _ _
      congr 1
      simp [Json.text]
      omega
    · simp only [Val.sliceStore, List.length_cons]
      rw [List.take_append_of_le_length (by simp), List.take_of_length_le (by simp)]
    · intro hh
      exact absurd hh (List.cons_ne_nil _ _)
    · intro _
      refine ⟨k, ?_, hk2, hk3⟩
      simp only [Val.sliceStore, List.length_append, List.length_map, List.length_cons,
        List.length_replicate]
      omega

set_option maxRecDepth 100000 in
theorem list_decode_growth_witness :
    compileDecoder textFloat .int = .ok decodeInt64 ∧
    (∃ sdec result, compileDecoder textFloat (.slice .int) = .ok sdec ∧
      sdec (NewIterator [91, 49, 44, 50, 44, 51, 44, 52, 44, 53, 44, 54, 44, 55, 44, 56, 44, 57,
          44, 49, 48, 44, 49, 49, 44, 49, 50, 44, 49, 51, 44, 49, 52, 44, 49, 53, 44, 49, 54, 44,
          49, 55, 44, 49, 56, 44, 49, 57, 44, 50, 48, 93]) .nilSlice =
        (none, { NewIterator [91, 49, 44, 50, 44, 51, 44, 52, 44, 53, 44, 54, 44, 55, 44, 56, 44,
          57, 44, 49, 48, 44, 49, 49, 44, 49, 50, 44, 49, 51, 44, 49, 52, 44, 49, 53, 44, 49, 54,
          44, 49, 55, 44, 49, 56, 44, 49, 57, 44, 50, 48, 93] with head := 52 }, result) ∧
      result.sliceLen = 20 ∧
      result.sliceStore.take 20 = [.int 1, .int 2, .int 3, .int 4, .int 5, .int 6, .int 7,
        .int 8, .int 9, .int 10, .int 11, .int 12, .int 13, .int 14, .int 15, .int 16, .int 17,
        .int 18, .int 19, .int 20] ∧
      ∃ k, result.sliceStore.length = 8 * 2 ^ k ∧ 20 ≤ 8 * 2 ^ k ∧ (k = 0 ∨ 8 * 2 ^ (k - 1) < 20)) ∧
    Unmarshal textFloat []
      [91, 49, 44, 50, 44, 51, 44, 52, 44, 53, 44, 54, 44, 55, 44, 56, 44, 57,
        44, 49, 48, 44, 49, 49, 44, 49, 50, 44, 49, 51, 44, 49, 52, 44, 49, 53, 44, 49, 54, 44,
        49, 55, 44, 49, 56, 44, 49, 57, 44, 50, 48, 93]
      (.iface (.ptr (.slice .int)) (.ptr .nilSlice)) =
      (none, .iface (.ptr (.slice .int)) (.ptr (.slice 20 ([.int 1, .int 2, .int 3, .int 4,
        .int 5, .int 6, .int 7, .int 8, .int 9, .int 10, .int 11, .int 12, .int 13, .int 14,
        .int 15, .int 16, .int 17, .int 18, .int 19, .int 20] ++
          List.replicate 12 (.int 0))))) := by
  obtain ⟨sdec, result, h1, h2, h3, h4, _, h6⟩ := list_decode_growth textFloat .int decodeInt64 rfl
    (NewIterator [91, 49, 44, 50, 44, 51, 44, 52, 44, 53, 44, 54, 44, 55, 44, 56, 44, 57,
      44, 49, 48, 44, 49, 49, 44, 49, 50, 44, 49, 51, 44, 49, 52, 44, 49, 53, 44, 49, 54, 44,
      49, 55, 44, 49, 56, 44, 49, 57, 44, 50, 48, 93]) [] [] []
    ([[49], [50], [51], [52], [53], [54], [55], [56], [57], [49, 48], [49, 49], [49, 50],
      [49, 51], [49, 52], [49, 53], [49, 54], [49, 55], [49, 56], [49, 57], [50, 48]].map
      (fun d => ((JsonElem.mk [] (.number ⟨false, d, none, none⟩) [] : JsonElem),
        (Val.int (wrap64 (decVal d)) : Val (List Nat)))))
    .nilSlice rfl (Or.inl rfl) (by simp) (by decide) rfl
    (intRows_decode _ (by decide) _)
  exact ⟨rfl, ⟨sdec, result, h1, h2, h3, h4, h6 (by simp)⟩, rfl⟩

/-- C12, where the claim holds (map decode into a map whose key type is
`string` itself): the routine `compileDecoder` returns for such a map type, on
an object of the JSON grammar (whitespace included) whose values
the element decoder decodes, succeeds with the cursor right behind the object;
the destination is a map afterwards, also when it was unset and the object is
empty; under every key of the object the map holds the value decoded from the
last member with that key, and under every other key what it held before. -/
theorem map_decode {F : Type} (fl : FloatLib F) (elem : Ty) (dec : DecoderFunc F)
    (hc : compileDecoder fl elem = .ok dec) (it : Iterator) (wsA ws tail : List Nat)
    (rows : List (JsonMember × Val F)) (dest : Val F) (old : List (List Nat × Val F))
    (hwf : it.WF) (hdest : (dest = .nilMap ∧ old = []) ∨ dest = .map old)
    (hwsA : ∀ c ∈ wsA, isWhiteSpace c = true)
    (hvalid : (Json.object ws (rows.map (fun r => r.1))).valid = true)
    (hrest : it.rest = wsA ++ ((Json.object ws (rows.map (fun r => r.1))).text ++ tail))
    (hdec : ∀ r ∈ rows, DecodesAtWs dec r.1.value.text (Ty.zero fl elem) r.2) :
    ∃ mdec new, compileDecoder fl (.map .string elem) = .ok mdec ∧
      mdec it dest = (none, { it with head := it.head + wsA.length +
        (Json.object ws (rows.map (fun r => r.1))).text.length }, .map new) ∧
      (rows = [] → new = old) ∧
      ∀ key : List Nat,
        (∀ x, lastValue rows key = some x → mapGet new key = some x) ∧
        (lastValue rows key = none → mapGet new key = mapGet old key) := by
  have hcm : compileDecoder fl (.map .string elem) = .ok (mapDecoder true (Ty.zero fl elem) dec) := by
    rw [compileDecoder, hc]
  simp only [Json.valid, Bool.and_eq_true, all_iff_forall] at hvalid
  obtain ⟨⟨hws, _⟩, hms⟩ := hvalid
  have h' : it.rest = wsA ++ 123 :: (ws ++ (Json.membersText true (rows.map (fun r => r.1)) ++
      125 :: tail)) := by
    rw [hrest]; simp [Json.text]
  have hwf1 : Iterator.WF { it with head := it.head + wsA.length + 1 } := hwf
  have hr1 : Iterator.rest { it with head := it.head + wsA.length + 1 } =
      ws ++ (Json.membersText true (rows.map (fun r => r.1)) ++ 125 :: tail) :=
    Iterator.rest_adv_cons _ 123 _ (Iterator.rest_adv_append it wsA _ h')
  have hloop := mapDecodeLoop_members (Ty.zero fl elem) dec rows _ ws tail old
    (it.dataLen - (it.head + wsA.length + 1) + 1) hwf1 hms hws hdec hr1
    (by simp only []; omega)
  refine ⟨_, rows.foldl (fun m r => setMapIndex m (strValue r.1.key) r.2) old, hcm, ?_,
    fun hh => by rw [hh]; rfl, fun key => mapGet_foldl rows key old⟩
  unfold mapDecoder Iterator.ReadObjectStart
  rw [Iterator.readStructural_ok it hwf 123 _ wsA _ h' hwsA (by decide)]
  rcases hdest with ⟨rfl, rfl⟩ | rfl
  · simp only []
    rw [hloop]
    refine congrArg₂ _ rfl (congrArg₂ _ ?_ rfl)
    show Iterator.mk _ _ _ = Iterator.mk _ _ _
    congr 1
    simp [Json.text]
    omega
  · simp only []
    rw [hloop]
    refine congrArg₂ _ rfl (congrArg₂ _ ?_ rfl)
    show Iterator.mk _ _ _ = Iterator.mk _ _ _
    congr 1
    simp [Json.text]
    omega

set_option maxRecDepth 100000 in
theorem map_decode_witness :
    compileDecoder textFloat .int = .ok decodeInt64 ∧
    (∃ mdec new, compileDecoder textFloat (.map .string .int) = .ok mdec ∧
      mdec (NewIterator [123, 34, 119, 105, 110, 115, 34, 58, 32, 49, 48, 44, 32, 34, 108, 111,
          115, 115, 101, 115, 34, 58, 32, 50, 125]) .nilMap =
        (none, { NewIterator [123, 34, 119, 105, 110, 115, 34, 58, 32, 49, 48, 44, 32, 34, 108,
          111, 115, 115, 101, 115, 34, 58, 32, 50, 125] with head := 25 }, .map new) ∧
      mapGet new [119, 105, 110, 115] = some (.int 10) ∧
      mapGet new [108, 111, 115, 115, 101, 115] = some (.int 2) ∧
      mapGet new [119, 105, 110] = none) ∧
    Unmarshal textFloat []
      [123, 34, 119, 105, 110, 115, 34, 58, 32, 49, 48, 44, 32, 34, 108, 111, 115, 115, 101,
        115, 34, 58, 32, 50, 125]
      (.iface (.ptr (.map .string .int)) (.ptr .nilMap)) =
      (none, .iface (.ptr (.map .string .int)) (.ptr (.map [([119, 105, 110, 115], .int 10),
        ([108, 111, 115, 115, 101, 115], .int 2)]))) := by
  obtain ⟨mdec, new, h1, h2, _, h4⟩ := map_decode textFloat .int decodeInt64 rfl
    (NewIterator [123, 34, 119, 105, 110, 115, 34, 58, 32, 49, 48, 44, 32, 34, 108, 111,
      115, 115, 101, 115, 34, 58, 32, 50, 125]) [] [] []
    [(.mk [] [.raw 119, .raw 105, .raw 110, .raw 115] [] [32]
        (.number ⟨false, [49, 48], none, none⟩) [], .int 10),
      (.mk [32] [.raw 108, .raw 111, .raw 115, .raw 115, .raw 101, .raw 115] [] [32]
        (.number ⟨false, [50], none, none⟩) [], .int 2)]
    .nilMap [] rfl (Or.inl ⟨rfl, rfl⟩) (by simp) (by decide) rfl
    (by
      intro r hr
      simp only [List.mem_cons, List.mem_singleton, List.not_mem_nil, or_false] at hr
      rcases hr with rfl | rfl
      · exact decodeInt64_decodesWs false [49, 48] (by decide) _
      · exact decodeInt64_decodesWs false [50] (by decide) _)
  exact ⟨rfl, ⟨mdec, new, h1, h2, (h4 [119, 105, 110, 115]).1 _ rfl,
    (h4 [108, 111, 115, 115, 101, 115]).1 _ rfl, ((h4 [119, 105, 110]).2 rfl).trans rfl⟩, rfl⟩

/-- C27 (structural matchers): each of `ReadObjectStart`, `ReadObjectEnd`,
`ReadArrayStart`, `ReadArrayEnd`, `ReadComma` and `ReadColon`, with the byte
`c` it expects, succeeds exactly when the first byte at or after the cursor
that is no whitespace exists and is `c`; then the cursor is one past that
byte; when it fails the cursor rests behind the whitespace (on the first byte
that is no whitespace, or at the end of the buffer) and the error carries that
offset. -/
theorem structural_matchers (it : Iterator) (hwf : it.WF) :
    StructuralOutcome it 123 it.ReadObjectStart ∧
    StructuralOutcome it 125 it.ReadObjectEnd ∧
    StructuralOutcome it 91 it.ReadArrayStart ∧
    StructuralOutcome it 93 it.ReadArrayEnd ∧
    StructuralOutcome it 44 it.ReadComma ∧
    StructuralOutcome it 58 it.ReadColon ∧
    (it.head ≤ it.dataLen → it.head + it.wsRun ≤ it.dataLen) ∧
    (∀ k, k < it.wsRun → isWhiteSpace (it.byteAt (it.head + k)) = true) ∧
    (it.head + it.wsRun < it.dataLen →
      it.significant.head? = some (it.byteAt (it.head + it.wsRun)) ∧
      isWhiteSpace (it.byteAt (it.head + it.wsRun)) = false) ∧
    (it.dataLen ≤ it.head + it.wsRun → it.significant = []) := by
  refine ⟨readStructural_outcome it hwf _ _, readStructural_outcome it hwf _ _,
    readStructural_outcome it hwf _ _, readStructural_outcome it hwf _ _,
    readStructural_outcome it hwf _ _, readStructural_outcome it hwf _ _, ?_, ?_, ?_, ?_⟩
  · intro hle
    have h1 : it.wsRun ≤ it.rest.length := by
      unfold Iterator.wsRun
      exact (List.takeWhile_prefix _).length_le
    rw [Iterator.rest_length it hwf] at h1
    omega
  · intro k hk
    unfold Iterator.wsRun at hk
    rw [Iterator.byteAt_add]
    have hpre : it.rest.takeWhile isWhiteSpace <+: it.rest := List.takeWhile_prefix _
    obtain ⟨t, ht⟩ := hpre
    have hmem := takeWhile_all isWhiteSpace it.rest ((it.rest.takeWhile isWhiteSpace).get ⟨k, hk⟩)
      (List.get_mem _ _ _)
    have : (it.rest.drop k).headD 0 = (it.rest.takeWhile isWhiteSpace).get ⟨k, hk⟩ := by
      conv_lhs => rw [← ht]
      rw [List.drop_append_of_le_length (by omega)]
      rw [List.drop_eq_getElem_cons hk]
      rfl
    rw [this]
    exact hmem
  · intro hlt
    have hsk := skipWhiteSpace_run it hwf
    have hsig := skipWhiteSpace_significant it hwf
    rw [hsk] at hsig
    have hwf2 : Iterator.WF { it with head := it.head + it.wsRun } := hwf
    have hr := Iterator.rest_of_lt _ hwf2 hlt
    rw [hsig] at hr
    refine ⟨by rw [hr]; rfl, significant_head_not_ws it _ _ hr⟩
  · intro hge
    have hsk := skipWhiteSpace_run it hwf
    have hsig := skipWhiteSpace_significant it hwf
    rw [hsk] at hsig
    have hwf2 : Iterator.WF { it with head := it.head + it.wsRun } := hwf
    rw [← hsig]
    exact Iterator.rest_nil_of_ge _ hwf2 hge

set_option maxRecDepth 100000 in
theorem structural_matchers_witness :
    (NewIterator [32, 123, 125]).WF ∧
    (StructuralOutcome (NewIterator [32, 123, 125]) 123 (NewIterator [32, 123, 125]).ReadObjectStart ∧
      StructuralOutcome (NewIterator [32, 123, 125]) 125 (NewIterator [32, 123, 125]).ReadObjectEnd ∧
      StructuralOutcome (NewIterator [32, 123, 125]) 91 (NewIterator [32, 123, 125]).ReadArrayStart ∧
      StructuralOutcome (NewIterator [32, 123, 125]) 93 (NewIterator [32, 123, 125]).ReadArrayEnd ∧
      StructuralOutcome (NewIterator [32, 123, 125]) 44 (NewIterator [32, 123, 125]).ReadComma ∧
      StructuralOutcome (NewIterator [32, 123, 125]) 58 (NewIterator [32, 123, 125]).ReadColon ∧
      ((NewIterator [32, 123, 125]).head ≤ (NewIterator [32, 123, 125]).dataLen →
        (NewIterator [32, 123, 125]).head + (NewIterator [32, 123, 125]).wsRun ≤
          (NewIterator [32, 123, 125]).dataLen) ∧
      (∀ k, k < (NewIterator [32, 123, 125]).wsRun →
        isWhiteSpace ((NewIterator [32, 123, 125]).byteAt
          ((NewIterator [32, 123, 125]).head + k)) = true) ∧
      ((NewIterator [32, 123, 125]).head + (NewIterator [32, 123, 125]).wsRun <
          (NewIterator [32, 123, 125]).dataLen →
        (NewIterator [32, 123, 125]).significant.head? =
          some ((NewIterator [32, 123, 125]).byteAt
            ((NewIterator [32, 123, 125]).head + (NewIterator [32, 123, 125]).wsRun)) ∧
        isWhiteSpace ((NewIterator [32, 123, 125]).byteAt
          ((NewIterator [32, 123, 125]).head + (NewIterator [32, 123, 125]).wsRun)) = false) ∧
      ((NewIterator [32, 123, 125]).dataLen ≤
          (NewIterator [32, 123, 125]).head + (NewIterator [32, 123, 125]).wsRun →
        (NewIterator [32, 123, 125]).significant = [])) ∧
    (NewIterator [32, 123, 125]).ReadObjectStart = (none, ⟨2, [32, 123, 125], 3⟩) ∧
    (NewIterator [32, 123, 125]).ReadObjectEnd =
      (some (Error.at "expected '\x7d'" 1), ⟨1, [32, 123, 125], 3⟩) ∧
    Iterator.ReadComma ⟨3, [32, 123, 125], 3⟩ =
      (some (Error.at "expected ','" 3), ⟨3, [32, 123, 125], 3⟩) :=
  ⟨rfl, structural_matchers (NewIterator [32, 123, 125]) rfl, rfl, rfl, rfl⟩

/-- C26 (`ReadBool` is an exact literal match): `ReadBool` returns true exactly
when the bytes behind the whitespace at the cursor start with `true`, and then
the cursor is 4 bytes behind the whitespace; it returns false exactly when
they start with `false`, and then the cursor is 5 bytes behind the whitespace;
in every other case it returns an error, with the cursor behind the
whitespace. -/
theorem ReadBool_exact (it : Iterator) (hwf : it.WF) :
    (∀ it', it.ReadBool = (.ok true, it') ↔
      ([116, 114, 117, 101] <+: it.significant ∧
        it' = { it with head := it.head + it.wsRun + 4 })) ∧
    (∀ it', it.ReadBool = (.ok false, it') ↔
      ([102, 97, 108, 115, 101] <+: it.significant ∧
        it' = { it with head := it.head + it.wsRun + 5 })) ∧
    (¬ [116, 114, 117, 101] <+: it.significant → ¬ [102, 97, 108, 115, 101] <+: it.significant →
      ∃ msg, it.ReadBool =
        (.error (Error.at msg (it.head + it.wsRun)), { it with head := it.head + it.wsRun })) := by
  obtain ⟨hT, hF, hE⟩ := ReadBool_cases it hwf
  have hTF : [116, 114, 117, 101] <+: it.significant →
      [102, 97, 108, 115, 101] <+: it.significant → False := by
    rintro ⟨t, ht⟩ ⟨u, hu⟩
    rw [← ht] at hu
    simp at hu
  refine ⟨fun it' => ⟨fun h => ?_, fun h => ?_⟩, fun it' => ⟨fun h => ?_, fun h => ?_⟩, hE⟩
  · by_cases h1 : [116, 114, 117, 101] <+: it.significant
    · rw [hT h1] at h
      exact ⟨h1, (congrArg Prod.snd h).symm⟩
    · by_cases h2 : [102, 97, 108, 115, 101] <+: it.significant
      · rw [hF h2] at h
        cases h
      · obtain ⟨msg, hm⟩ := hE h1 h2
        rw [hm] at h
        cases h
  · rw [h.2]
    exact hT h.1
  · by_cases h2 : [102, 97, 108, 115, 101] <+: it.significant
    · rw [hF h2] at h
      exact ⟨h2, (congrArg Prod.snd h).symm⟩
    · by_cases h1 : [116, 114, 117, 101] <+: it.significant
      · rw [hT h1] at h
        cases h
      · obtain ⟨msg, hm⟩ := hE h1 h2
        rw [hm] at h
        cases h
  · rw [h.2]
    exact hF h.1

set_option maxRecDepth 100000 in
theorem ReadBool_exact_witness :
    (NewIterator [116, 114, 117, 101, 32, 102, 97, 108, 115, 101]).WF ∧
    ((∀ it', (NewIterator [116, 114, 117, 101, 32, 102, 97, 108, 115, 101]).ReadBool =
          (.ok true, it') ↔
        ([116, 114, 117, 101] <+:
            (NewIterator [116, 114, 117, 101, 32, 102, 97, 108, 115, 101]).significant ∧
          it' = { NewIterator [116, 114, 117, 101, 32, 102, 97, 108, 115, 101] with
            head := (NewIterator [116, 114, 117, 101, 32, 102, 97, 108, 115, 101]).head +
              (NewIterator [116, 114, 117, 101, 32, 102, 97, 108, 115, 101]).wsRun + 4 })) ∧
      (∀ it', (NewIterator [116, 114, 117, 101, 32, 102, 97, 108, 115, 101]).ReadBool =
          (.ok false, it') ↔
        ([102, 97, 108, 115, 101] <+:
            (NewIterator [116, 114, 117, 101, 32, 102, 97, 108, 115, 101]).significant ∧
          it' = { NewIterator [116, 114, 117, 101, 32, 102, 97, 108, 115, 101] with
            head := (NewIterator [116, 114, 117, 101, 32, 102, 97, 108, 115, 101]).head +
              (NewIterator [116, 114, 117, 101, 32, 102, 97, 108, 115, 101]).wsRun + 5 })) ∧
      (¬ [116, 114, 117, 101] <+:
          (NewIterator [116, 114, 117, 101, 32, 102, 97, 108, 115, 101]).significant →
        ¬ [102, 97, 108, 115, 101] <+:
          (NewIterator [116, 114, 117, 101, 32, 102, 97, 108, 115, 101]).significant →
        ∃ msg, (NewIterator [116, 114, 117, 101, 32, 102, 97, 108, 115, 101]).ReadBool =
          (.error (Error.at msg
              ((NewIterator [116, 114, 117, 101, 32, 102, 97, 108, 115, 101]).head +
                (NewIterator [116, 114, 117, 101, 32, 102, 97, 108, 115, 101]).wsRun)),
            { NewIterator [116, 114, 117, 101, 32, 102, 97, 108, 115, 101] with
              head := (NewIterator [116, 114, 117, 101, 32, 102, 97, 108, 115, 101]).head +
                (NewIterator [116, 114, 117, 101, 32, 102, 97, 108, 115, 101]).wsRun }))) ∧
    (NewIterator [116, 114, 117, 101, 32, 102, 97, 108, 115, 101]).ReadBool =
      (.ok true, ⟨4, [116, 114, 117, 101, 32, 102, 97, 108, 115, 101], 10⟩) ∧
    Iterator.ReadBool ⟨4, [116, 114, 117, 101, 32, 102, 97, 108, 115, 101], 10⟩ =
      (.ok false, ⟨10, [116, 114, 117, 101, 32, 102, 97, 108, 115, 101], 10⟩) ∧
    (NewIterator [116, 114, 117]).ReadBool =
      (.error (Error.at "expected 'true'" 0), NewIterator [116, 114, 117]) ∧
    (NewIterator [32, 102, 97, 108, 115]).ReadBool =
      (.error (Error.at "expected 'false'" 1), ⟨1, [32, 102, 97, 108, 115], 5⟩) ∧
    (NewIterator [84, 114, 117, 101]).ReadBool =
      (.error (Error.at "expected boolean" 0), NewIterator [84, 114, 117, 101]) :=
  ⟨rfl, ReadBool_exact (NewIterator [116, 114, 117, 101, 32, 102, 97, 108, 115, 101]) rfl,
    rfl, rfl, rfl, rfl, rfl⟩

/-- C29 (`ReadFloat64` scanning): `ReadFloat64` leaves the cursor behind the
whitespace and the maximal run of number-classified bytes (digits, `-`, `+`,
`.`, `e`, `E`) that follows it; when the run is empty it returns the error
`expected digit` at the offset behind the whitespace, and otherwise what the
numeric parser returns for the run: its value, or its error. The byte behind
the run, if there is one, is none of the class. -/
theorem ReadFloat64_scan {F : Type} (parseFloat : List Nat → Option F) (it : Iterator)
    (hwf : it.WF) :
    it.ReadFloat64 parseFloat =
      (if it.numberRun = [] then .error (Error.at "expected digit" (it.head + it.wsRun))
        else match parseFloat it.numberRun with
          | some f => .ok f
          | none => .error (Error.num it.numberRun),
        { it with head := it.head + it.wsRun + it.numberRun.length }) ∧
    (∃ tail, it.rest = it.rest.takeWhile isWhiteSpace ++ (it.numberRun ++ tail) ∧
      (∀ c ∈ it.numberRun, isNumberByte c = true) ∧
      StartsWith (fun c => isNumberByte c = false) tail) := by
  refine ⟨ReadFloat64_eq parseFloat it hwf, it.significant.dropWhile isNumberByte, ?_,
    takeWhile_all _ _, ?_⟩
  · unfold Iterator.numberRun Iterator.significant
    rw [List.takeWhile_append_dropWhile, List.takeWhile_append_dropWhile]
  · intro c r h
    exact dropWhile_head _ _ c r h

set_option maxRecDepth 100000 in
theorem ReadFloat64_scan_witness :
    (NewIterator [32, 49, 46, 53, 44]).WF ∧
    ((NewIterator [32, 49, 46, 53, 44]).ReadFloat64 textFloat.ParseFloat =
      (if (NewIterator [32, 49, 46, 53, 44]).numberRun = [] then
          .error (Error.at "expected digit"
            ((NewIterator [32, 49, 46, 53, 44]).head + (NewIterator [32, 49, 46, 53, 44]).wsRun))
        else match textFloat.ParseFloat (NewIterator [32, 49, 46, 53, 44]).numberRun with
          | some f => .ok f
          | none => .error (Error.num (NewIterator [32, 49, 46, 53, 44]).numberRun),
        { NewIterator [32, 49, 46, 53, 44] with
          head := (NewIterator [32, 49, 46, 53, 44]).head +
            (NewIterator [32, 49, 46, 53, 44]).wsRun +
            (NewIterator [32, 49, 46, 53, 44]).numberRun.length }) ∧
      (∃ tail, (NewIterator [32, 49, 46, 53, 44]).rest =
          (NewIterator [32, 49, 46, 53, 44]).rest.takeWhile isWhiteSpace ++
            ((NewIterator [32, 49, 46, 53, 44]).numberRun ++ tail) ∧
        (∀ c ∈ (NewIterator [32, 49, 46, 53, 44]).numberRun, isNumberByte c = true) ∧
        StartsWith (fun c => isNumberByte c = false) tail)) ∧
    (NewIterator [32, 49, 46, 53, 44]).ReadFloat64 textFloat.ParseFloat =
      (.ok [49, 46, 53], ⟨4, [32, 49, 46, 53, 44], 5⟩) ∧
    (NewIterator [32, 120]).ReadFloat64 textFloat.ParseFloat =
      (.error (Error.at "expected digit" 1), ⟨1, [32, 120], 2⟩) ∧
    (NewIterator [49, 46, 50, 46, 51]).ReadFloat64 (fun _ => (none : Option Nat)) =
      (.error (Error.num [49, 46, 50, 46, 51]), ⟨5, [49, 46, 50, 46, 51], 5⟩) :=
  ⟨rfl, ReadFloat64_scan textFloat.ParseFloat (NewIterator [32, 49, 46, 53, 44]) rfl,
    rfl, rfl, rfl⟩

/-- C28 (`WriteStringEscaped` equals per-byte escaping): the bytes appended
are a quote, the escaped forms of the bytes of `s` in order, and a quote,
where the escaped form of a byte is `escapeByte`: two bytes for the quote, the
backslash and the five short control escapes, `\u00` and two lowercase hex
digits for the other bytes below `0x20`, the byte itself otherwise. Writing the
bytes one by one with `writeEscapedChar`, without the copies of the runs in
between, gives the same writer. -/
theorem WriteStringEscaped_per_byte (w : Writer) (s : List Nat) :
    (w.WriteStringEscaped s).Buffer = w.Buffer ++ ([34] ++ s.flatMap escapeByte ++ [34]) ∧
    w.WriteStringEscaped s = (s.foldl Writer.writeEscapedChar (w.WriteByte 34)).WriteByte 34 ∧
    (∀ c, escapeByte c =
      if c = 34 then [92, 34] else if c = 92 then [92, 92] else if c = 8 then [92, 98]
      else if c = 12 then [92, 102] else if c = 10 then [92, 110] else if c = 13 then [92, 114]
      else if c = 9 then [92, 116]
      else if c < 32 then [92, 117, 48, 48, hexChars.getD (c / 16) 0, hexChars.getD (c % 16) 0]
      else [c]) := by
  have hfold : ∀ (s : List Nat) (w : Writer),
      (s.foldl Writer.writeEscapedChar w).Buffer = w.Buffer ++ s.flatMap escapeByte := by
    intro s
    induction s with
    | nil => intro w; simp
    | cons c s ih =>
      intro w
      rw [List.foldl_cons, ih, writeEscapedChar_eq]
      simp [List.flatMap_cons]
  refine ⟨by rw [WriteStringEscaped_eq]; simp, ?_, ?_⟩
  · have h1 := WriteStringEscaped_eq w s
    have h2 := hfold s (w.WriteByte 34)
    cases hw : w.WriteStringEscaped s with
    | mk b =>
      rw [hw] at h1
      simp only [] at h1
      simp only [Writer.WriteByte, Writer.mk.injEq] at h2 ⊢
      rw [h1, h2]
      simp
  · intro c
    unfold escapeByte
    by_cases h : c < 32
    · have h16 : c / 16 < 2 := by omega
      have : hexChars.getD (c / 16) 0 = hexDigit (c / 16) ∧
          hexChars.getD (c % 16) 0 = hexDigit (c % 16) := by
        have hm : c % 16 < 16 := Nat.mod_lt _ (by decide)
        constructor
        · interval_cases (c / 16) <;> rfl
        · interval_cases (c % 16) <;> rfl
      rw [this.1, this.2]
    · simp only [h, if_false]

/-- C30 (cursor invariant): from a state with `dataLen = len(data)` and
`0 <= head <= dataLen`, every operation of the tokenizer, whether it succeeds
or fails, leaves the buffer and `dataLen` as they are and the cursor at or
after the old cursor and not beyond `dataLen`: `skipWhiteSpace`, the six
structural matchers, `ReadInt64`, `ReadFloat64`, `ReadBool`, `ReadNull`,
`ReadString`, and the slow path with its escapes. `decodeUnicode` returns the
error `incomplete unicode escape` before it reads anything unless the four
bytes it reads lie inside the buffer. And no read indexes outside the buffer:
run with the bounds check of the Go runtime on every index expression and
every slice expression of the buffer, each operation returns what it returns
without the checks, never the out-of-range result; so do `char`,
`decodeUnicode`, the slow path entered with `start` at or before the cursor
(as `ReadString` enters it) and the escape switch entered with the cursor
inside the buffer (as the slow path enters it). -/
theorem cursor_invariant {F : Type} (parseFloat : List Nat → Option F) (it : Iterator)
    (h : it.InBounds) :
    it.Advances it.skipWhiteSpace ∧
    it.Advances it.ReadObjectStart.2 ∧ it.Advances it.ReadObjectEnd.2 ∧
    it.Advances it.ReadArrayStart.2 ∧ it.Advances it.ReadArrayEnd.2 ∧
    it.Advances it.ReadComma.2 ∧ it.Advances it.ReadColon.2 ∧
    it.Advances it.ReadInt64.2 ∧ it.Advances (it.ReadFloat64 parseFloat).2 ∧
    it.Advances it.ReadBool.2 ∧ it.Advances it.ReadNull.2 ∧
    it.Advances it.ReadString.2 ∧
    (∀ start, it.Advances (it.readStringSlow start).2) ∧
    (it.head < it.data.length → it.Advances it.readEscape.2) ∧
    (it.decodeUnicode = .error (it.error "incomplete unicode escape") ∨
      it.head + 5 ≤ it.data.length) ∧
    Checked.skipWhiteSpace it = some it.skipWhiteSpace ∧
    Checked.ReadObjectStart it = some it.ReadObjectStart ∧
    Checked.ReadObjectEnd it = some it.ReadObjectEnd ∧
    Checked.ReadArrayStart it = some it.ReadArrayStart ∧
    Checked.ReadArrayEnd it = some it.ReadArrayEnd ∧
    Checked.ReadComma it = some it.ReadComma ∧
    Checked.ReadColon it = some it.ReadColon ∧
    Checked.ReadInt64 it = some it.ReadInt64 ∧
    Checked.ReadFloat64 parseFloat it = some (it.ReadFloat64 parseFloat) ∧
    Checked.ReadBool it = some it.ReadBool ∧
    Checked.ReadNull it = some it.ReadNull ∧
    Checked.ReadString it = some it.ReadString ∧
    (∀ start, start ≤ it.head →
      Checked.readStringSlow it start = some (it.readStringSlow start)) ∧
    (it.head < it.data.length → Checked.readEscape it = some it.readEscape) ∧
    Checked.decodeUnicode it = some it.decodeUnicode ∧
    Checked.char it = some it.char := by
  refine ⟨Iterator.skipWhiteSpace_advances it h, (Iterator.readStructural_frame it h _ _).1,
    (Iterator.readStructural_frame it h _ _).1, (Iterator.readStructural_frame it h _ _).1,
    (Iterator.readStructural_frame it h _ _).1, (Iterator.readStructural_frame it h _ _).1,
    (Iterator.readStructural_frame it h _ _).1, (Iterator.ReadInt64_frame it h).1,
    (Iterator.ReadFloat64_frame parseFloat it h).1, (Iterator.ReadBool_frame it h).1,
    (Iterator.ReadNull_frame it h).1, (Iterator.ReadString_frame it h).1,
    fun start => (Iterator.readStringSlowLoop_frame _ it _ h).1,
    fun hlt => (Iterator.readEscape_frame it h hlt).1, ?_,
    checked_skipWhiteSpace it h.1, checked_readStructural it h _ _,
    checked_readStructural it h _ _, checked_readStructural it h _ _,
    checked_readStructural it h _ _, checked_readStructural it h _ _,
    checked_readStructural it h _ _, checked_ReadInt64 it h,
    checked_ReadFloat64 parseFloat it h, checked_ReadBool it h, checked_ReadNull it h,
    checked_ReadString it h, fun start hs => checked_readStringSlow it h start hs,
    fun hlt => checked_readEscape it hlt, checked_decodeUnicode it, checked_char it h⟩
  unfold Iterator.decodeUnicode
  simp only []
  split_ifs with h1
  · exact Or.inl rfl
  · exact Or.inr (by omega)

set_option maxRecDepth 100000 in
theorem cursor_invariant_witness :
    (NewIterator [32, 34, 92, 117, 48, 48, 52, 49, 34]).InBounds ∧
    ((NewIterator [32, 34, 92, 117, 48, 48, 52, 49, 34]).Advances (NewIterator [32, 34, 92, 117, 48, 48, 52, 49, 34]).skipWhiteSpace ∧
    (NewIterator [32, 34, 92, 117, 48, 48, 52, 49, 34]).Advances (NewIterator [32, 34, 92, 117, 48, 48, 52, 49, 34]).ReadObjectStart.2 ∧ (NewIterator [32, 34, 92, 117, 48, 48, 52, 49, 34]).Advances (NewIterator [32, 34, 92, 117, 48, 48, 52, 49, 34]).ReadObjectEnd.2 ∧
    (NewIterator [32, 34, 92, 117, 48, 48, 52, 49, 34]).Advances (NewIterator [32, 34, 92, 117, 48, 48, 52, 49, 34]).ReadArrayStart.2 ∧ (NewIterator [32, 34, 92, 117, 48, 48, 52, 49, 34]).Advances (NewIterator [32, 34, 92, 117, 48, 48, 52, 49, 34]).ReadArrayEnd.2 ∧
    (NewIterator [32, 34, 92, 117, 48, 48, 52, 49, 34]).Advances (NewIterator [32, 34, 92, 117, 48, 48, 52, 49, 34]).ReadComma.2 ∧ (NewIterator [32, 34, 92, 117, 48, 48, 52, 49, 34]).Advances (NewIterator [32, 34, 92, 117, 48, 48, 52, 49, 34]).ReadColon.2 ∧
    (NewIterator [32, 34, 92, 117, 48, 48, 52, 49, 34]).Advances (NewIterator [32, 34, 92, 117, 48, 48, 52, 49, 34]).ReadInt64.2 ∧ (NewIterator [32, 34, 92, 117, 48, 48, 52, 49, 34]).Advances ((NewIterator [32, 34, 92, 117, 48, 48, 52, 49, 34]).ReadFloat64 textFloat.ParseFloat).2 ∧
    (NewIterator [32, 34, 92, 117, 48, 48, 52, 49, 34]).Advances (NewIterator [32, 34, 92, 117, 48, 48, 52, 49, 34]).ReadBool.2 ∧ (NewIterator [32, 34, 92, 117, 48, 48, 52, 49, 34]).Advances (NewIterator [32, 34, 92, 117, 48, 48, 52, 49, 34]).ReadNull.2 ∧
    (NewIterator [32, 34, 92, 117, 48, 48, 52, 49, 34]).Advances (NewIterator [32, 34, 92, 117, 48, 48, 52, 49, 34]).ReadString.2 ∧
    (∀ start, (NewIterator [32, 34, 92, 117, 48, 48, 52, 49, 34]).Advances ((NewIterator [32, 34, 92, 117, 48, 48, 52, 49, 34]).readStringSlow start).2) ∧
    ((NewIterator [32, 34, 92, 117, 48, 48, 52, 49, 34]).head < (NewIterator [32, 34, 92, 117, 48, 48, 52, 49, 34]).data.length → (NewIterator [32, 34, 92, 117, 48, 48, 52, 49, 34]).Advances (NewIterator [32, 34, 92, 117, 48, 48, 52, 49, 34]).readEscape.2) ∧
    ((NewIterator [32, 34, 92, 117, 48, 48, 52, 49, 34]).decodeUnicode = .error ((NewIterator [32, 34, 92, 117, 48, 48, 52, 49, 34]).error "incomplete unicode escape") ∨
      (NewIterator [32, 34, 92, 117, 48, 48, 52, 49, 34]).head + 5 ≤ (NewIterator [32, 34, 92, 117, 48, 48, 52, 49, 34]).data.length) ∧
    Checked.skipWhiteSpace (NewIterator [32, 34, 92, 117, 48, 48, 52, 49, 34]) = some (NewIterator [32, 34, 92, 117, 48, 48, 52, 49, 34]).skipWhiteSpace ∧
    Checked.ReadObjectStart (NewIterator [32, 34, 92, 117, 48, 48, 52, 49, 34]) = some (NewIterator [32, 34, 92, 117, 48, 48, 52, 49, 34]).ReadObjectStart ∧
    Checked.ReadObjectEnd (NewIterator [32, 34, 92, 117, 48, 48, 52, 49, 34]) = some (NewIterator [32, 34, 92, 117, 48, 48, 52, 49, 34]).ReadObjectEnd ∧
    Checked.ReadArrayStart (NewIterator [32, 34, 92, 117, 48, 48, 52, 49, 34]) = some (NewIterator [32, 34, 92, 117, 48, 48, 52, 49, 34]).ReadArrayStart ∧
    Checked.ReadArrayEnd (NewIterator [32, 34, 92, 117, 48, 48, 52, 49, 34]) = some (NewIterator [32, 34, 92, 117, 48, 48, 52, 49, 34]).ReadArrayEnd ∧
    Checked.ReadComma (NewIterator [32, 34, 92, 117, 48, 48, 52, 49, 34]) = some (NewIterator [32, 34, 92, 117, 48, 48, 52, 49, 34]).ReadComma ∧
    Checked.ReadColon (NewIterator [32, 34, 92, 117, 48, 48, 52, 49, 34]) = some (NewIterator [32, 34, 92, 117, 48, 48, 52, 49, 34]).ReadColon ∧
    Checked.ReadInt64 (NewIterator [32, 34, 92, 117, 48, 48, 52, 49, 34]) = some (NewIterator [32, 34, 92, 117, 48, 48, 52, 49, 34]).ReadInt64 ∧
    Checked.ReadFloat64 textFloat.ParseFloat (NewIterator [32, 34, 92, 117, 48, 48, 52, 49, 34]) = some ((NewIterator [32, 34, 92, 117, 48, 48, 52, 49, 34]).ReadFloat64 textFloat.ParseFloat) ∧
    Checked.ReadBool (NewIterator [32, 34, 92, 117, 48, 48, 52, 49, 34]) = some (NewIterator [32, 34, 92, 117, 48, 48, 52, 49, 34]).ReadBool ∧
    Checked.ReadNull (NewIterator [32, 34, 92, 117, 48, 48, 52, 49, 34]) = some (NewIterator [32, 34, 92, 117, 48, 48, 52, 49, 34]).ReadNull ∧
    Checked.ReadString (NewIterator [32, 34, 92, 117, 48, 48, 52, 49, 34]) = some (NewIterator [32, 34, 92, 117, 48, 48, 52, 49, 34]).ReadString ∧
    (∀ start, start ≤ (NewIterator [32, 34, 92, 117, 48, 48, 52, 49, 34]).head →
      Checked.readStringSlow (NewIterator [32, 34, 92, 117, 48, 48, 52, 49, 34]) start = some ((NewIterator [32, 34, 92, 117, 48, 48, 52, 49, 34]).readStringSlow start)) ∧
    ((NewIterator [32, 34, 92, 117, 48, 48, 52, 49, 34]).head < (NewIterator [32, 34, 92, 117, 48, 48, 52, 49, 34]).data.length → Checked.readEscape (NewIterator [32, 34, 92, 117, 48, 48, 52, 49, 34]) = some (NewIterator [32, 34, 92, 117, 48, 48, 52, 49, 34]).readEscape) ∧
    Checked.decodeUnicode (NewIterator [32, 34, 92, 117, 48, 48, 52, 49, 34]) = some (NewIterator [32, 34, 92, 117, 48, 48, 52, 49, 34]).decodeUnicode ∧
    Checked.char (NewIterator [32, 34, 92, 117, 48, 48, 52, 49, 34]) = some (NewIterator [32, 34, 92, 117, 48, 48, 52, 49, 34]).char) ∧
    (NewIterator [32, 34, 92, 117, 48, 48, 52, 49, 34]).ReadString =
      (.ok [65], ⟨9, [32, 34, 92, 117, 48, 48, 52, 49, 34], 9⟩) ∧
    (NewIterator [34, 92, 117, 48, 48]).ReadString =
      (.error (Error.at "incomplete unicode escape" 2), ⟨2, [34, 92, 117, 48, 48], 5⟩) ∧
    (NewIterator [110, 117, 108, 108]).ReadNull =
      (some (Error.at "expected 'null'" 0), NewIterator [110, 117, 108, 108]) ∧
    Checked.ReadString (NewIterator [34, 92, 117, 48, 48]) =
      some (.error (Error.at "incomplete unicode escape" 2), ⟨2, [34, 92, 117, 48, 48], 5⟩) ∧
    Checked.readEscape ⟨1, [92], 1⟩ = none ∧
    Checked.readStringSlow ⟨1, [34, 92, 34], 3⟩ 2 = none ∧
    Checked.ReadString ⟨0, [34, 97], 3⟩ = none :=
  ⟨⟨rfl, Nat.zero_le _⟩,
    cursor_invariant textFloat.ParseFloat (NewIterator [32, 34, 92, 117, 48, 48, 52, 49, 34])
      ⟨rfl, Nat.zero_le _⟩, rfl, rfl, rfl, rfl, rfl, rfl, rfl⟩

set_option maxRecDepth 100000 in
/-- C25, the claim fails for the conversion error of `ReadFloat64`: on the
number runs `-` and `1.2.3`, which the numeric parser rejects, `ReadFloat64`
returns the error of the parser as it is; that error carries the text of the
run and is not one built from the cursor offset. -/
theorem ReadFloat64_error_counterexample :
    (NewIterator [45]).ReadFloat64 digitsParser = (.error (Error.num [45]), ⟨1, [45], 1⟩) ∧
    ¬ ErrorAt (Error.num [45]) ⟨1, [45], 1⟩ ∧
    (NewIterator [49, 46, 50, 46, 51]).ReadFloat64 digitsParser =
      (.error (Error.num [49, 46, 50, 46, 51]), ⟨5, [49, 46, 50, 46, 51], 5⟩) ∧
    ¬ ErrorAt (Error.num [49, 46, 50, 46, 51]) ⟨5, [49, 46, 50, 46, 51], 5⟩ := by
  refine ⟨rfl, ?_, rfl, ?_⟩
  · rintro ⟨msg, h⟩
    cases h
  · rintro ⟨msg, h⟩
    cases h

/-- C25, as amended: when a read of the tokenizer fails, the error is the one
`Iterator.error` builds from the cursor at the moment of failure, which is the
cursor the read leaves: for the six structural matchers, `ReadInt64`,
`ReadBool`, `ReadNull` and `ReadString`, and for `ReadFloat64` when the number
run is empty. The one other error is that of `ReadFloat64` on a non-empty run
the numeric parser rejects: the error of the parser, with the text of the run. -/
theorem errors_carry_offset {F : Type} (parseFloat : List Nat → Option F) (it : Iterator)
    (h : it.InBounds) :
    (∀ e, it.ReadObjectStart.1 = some e → ErrorAt e it.ReadObjectStart.2) ∧
    (∀ e, it.ReadObjectEnd.1 = some e → ErrorAt e it.ReadObjectEnd.2) ∧
    (∀ e, it.ReadArrayStart.1 = some e → ErrorAt e it.ReadArrayStart.2) ∧
    (∀ e, it.ReadArrayEnd.1 = some e → ErrorAt e it.ReadArrayEnd.2) ∧
    (∀ e, it.ReadComma.1 = some e → ErrorAt e it.ReadComma.2) ∧
    (∀ e, it.ReadColon.1 = some e → ErrorAt e it.ReadColon.2) ∧
    (∀ e, it.ReadInt64.1 = .error e → ErrorAt e it.ReadInt64.2) ∧
    (∀ e, it.ReadBool.1 = .error e → ErrorAt e it.ReadBool.2) ∧
    (∀ e, it.ReadNull.1 = some e → ErrorAt e it.ReadNull.2) ∧
    (∀ e, it.ReadString.1 = .error e → ErrorAt e it.ReadString.2) ∧
    (∀ e, (it.ReadFloat64 parseFloat).1 = .error e →
      ErrorAt e (it.ReadFloat64 parseFloat).2 ∨
        (e = Error.num it.numberRun ∧ it.numberRun ≠ [] ∧ parseFloat it.numberRun = none)) :=
  ⟨(Iterator.readStructural_frame it h _ _).2, (Iterator.readStructural_frame it h _ _).2,
    (Iterator.readStructural_frame it h _ _).2, (Iterator.readStructural_frame it h _ _).2,
    (Iterator.readStructural_frame it h _ _).2, (Iterator.readStructural_frame it h _ _).2,
    (Iterator.ReadInt64_frame it h).2, (Iterator.ReadBool_frame it h).2,
    (Iterator.ReadNull_frame it h).2, (Iterator.ReadString_frame it h).2,
    (Iterator.ReadFloat64_frame parseFloat it h).2⟩

set_option maxRecDepth 100000 in
theorem errors_carry_offset_witness :
    (NewIterator [32, 49, 46, 50, 46, 51]).InBounds ∧
    ((∀ e, (NewIterator [32, 49, 46, 50, 46, 51]).ReadObjectStart.1 = some e → ErrorAt e (NewIterator [32, 49, 46, 50, 46, 51]).ReadObjectStart.2) ∧
    (∀ e, (NewIterator [32, 49, 46, 50, 46, 51]).ReadObjectEnd.1 = some e → ErrorAt e (NewIterator [32, 49, 46, 50, 46, 51]).ReadObjectEnd.2) ∧
    (∀ e, (NewIterator [32, 49, 46, 50, 46, 51]).ReadArrayStart.1 = some e → ErrorAt e (NewIterator [32, 49, 46, 50, 46, 51]).ReadArrayStart.2) ∧
    (∀ e, (NewIterator [32, 49, 46, 50, 46, 51]).ReadArrayEnd.1 = some e → ErrorAt e (NewIterator [32, 49, 46, 50, 46, 51]).ReadArrayEnd.2) ∧
    (∀ e, (NewIterator [32, 49, 46, 50, 46, 51]).ReadComma.1 = some e → ErrorAt e (NewIterator [32, 49, 46, 50, 46, 51]).ReadComma.2) ∧
    (∀ e, (NewIterator [32, 49, 46, 50, 46, 51]).ReadColon.1 = some e → ErrorAt e (NewIterator [32, 49, 46, 50, 46, 51]).ReadColon.2) ∧
    (∀ e, (NewIterator [32, 49, 46, 50, 46, 51]).ReadInt64.1 = .error e → ErrorAt e (NewIterator [32, 49, 46, 50, 46, 51]).ReadInt64.2) ∧
    (∀ e, (NewIterator [32, 49, 46, 50, 46, 51]).ReadBool.1 = .error e → ErrorAt e (NewIterator [32, 49, 46, 50, 46, 51]).ReadBool.2) ∧
    (∀ e, (NewIterator [32, 49, 46, 50, 46, 51]).ReadNull.1 = some e → ErrorAt e (NewIterator [32, 49, 46, 50, 46, 51]).ReadNull.2) ∧
    (∀ e, (NewIterator [32, 49, 46, 50, 46, 51]).ReadString.1 = .error e → ErrorAt e (NewIterator [32, 49, 46, 50, 46, 51]).ReadString.2) ∧
    (∀ e, ((NewIterator [32, 49, 46, 50, 46, 51]).ReadFloat64 digitsParser).1 = .error e →
      ErrorAt e ((NewIterator [32, 49, 46, 50, 46, 51]).ReadFloat64 digitsParser).2 ∨
        (e = Error.num (NewIterator [32, 49, 46, 50, 46, 51]).numberRun ∧ (NewIterator [32, 49, 46, 50, 46, 51]).numberRun ≠ [] ∧ digitsParser (NewIterator [32, 49, 46, 50, 46, 51]).numberRun = none))) ∧
    (NewIterator [32, 49, 46, 50, 46, 51]).ReadInt64 =
      (.error (Error.at "float found, expected integer" 2), ⟨2, [32, 49, 46, 50, 46, 51], 6⟩) ∧
    (NewIterator [32, 49, 46, 50, 46, 51]).ReadString =
      (.error (Error.at "expected start of string '\"'" 1), ⟨1, [32, 49, 46, 50, 46, 51], 6⟩) ∧
    (NewIterator [32, 49, 46, 50, 46, 51]).ReadFloat64 digitsParser =
      (.error (Error.num [49, 46, 50, 46, 51]), ⟨6, [32, 49, 46, 50, 46, 51], 6⟩) ∧
    (NewIterator [32, 120]).ReadFloat64 digitsParser =
      (.error (Error.at "expected digit" 1), ⟨1, [32, 120], 2⟩) ∧
    (NewIterator [49, 46, 53]).ReadFloat64 digitsParser =
      (.ok [49, 46, 53], ⟨3, [49, 46, 53], 3⟩) :=
  ⟨⟨rfl, Nat.zero_le _⟩,
    errors_carry_offset digitsParser (NewIterator [32, 49, 46, 50, 46, 51]) ⟨rfl, Nat.zero_le _⟩, rfl, rfl, rfl, rfl, rfl⟩

set_option maxRecDepth 100000 in
/-- C22, the claim fails for a comma before the closing bracket: after a
comma the loops of the typed decoders go back to the test for the closing
bracket, so `[1,]` decodes into a list of integers as `[1]`, also with
whitespace after the comma, and `{"a":1,}` decodes into a map and into a
struct as the object `{"a":1}`. The dynamic decoder reads a value after every
comma and returns a syntax error for the same texts. -/
theorem trailing_comma_accepted :
    Unmarshal textFloat [] [91, 49, 44, 93] (.iface (.ptr (.slice .int)) (.ptr .nilSlice)) =
      (none, .iface (.ptr (.slice .int))
        (.ptr (.slice 1 [.int 1, .int 0, .int 0, .int 0, .int 0, .int 0, .int 0, .int 0]))) ∧
    Unmarshal textFloat [] [91, 49, 32, 44, 32, 93]
        (.iface (.ptr (.slice .int)) (.ptr .nilSlice)) =
      (none, .iface (.ptr (.slice .int))
        (.ptr (.slice 1 [.int 1, .int 0, .int 0, .int 0, .int 0, .int 0, .int 0, .int 0]))) ∧
    Unmarshal textFloat [] [123, 34, 97, 34, 58, 49, 44, 125]
        (.iface (.ptr (.map .string .int)) (.ptr .nilMap)) =
      (none, .iface (.ptr (.map .string .int)) (.ptr (.map [([97], .int 1)]))) ∧
    Unmarshal textFloat [] [123, 34, 97, 34, 58, 49, 44, 125]
        (.iface (.ptr (.struct [.mk [65] [97] .int])) (.ptr (.struct [.int 0]))) =
      (none, .iface (.ptr (.struct [.mk [65] [97] .int])) (.ptr (.struct [.int 1]))) ∧
    Unmarshal textFloat [] [91, 49, 44, 93] (.iface (.ptr .iface) (.ptr .nilIface)) =
      (some (Error.at "unexpected character: ]" 3), .iface (.ptr .iface) (.ptr .nilIface)) ∧
    Unmarshal textFloat [] [123, 34, 97, 34, 58, 49, 44, 125]
        (.iface (.ptr .iface) (.ptr .nilIface)) =
      (some (Error.at "expected start of string '\"'" 7),
        .iface (.ptr .iface) (.ptr .nilIface)) := by
  refine ⟨rfl, rfl, rfl, rfl, rfl, rfl⟩

set_option maxRecDepth 100000 in
/-- C23, the claim fails for struct, list, map and pointer destinations: the
routines write into the destination as they go. Decoding `{"id":1,"name":5}`
into a record with the fields `id` (an int, 0 before) and `name` (a string)
returns an error at offset 15 and leaves `id` at 1; decoding `[1,x]` into a
list holding 7 and 8 returns an error and leaves the list with the one element
1; decoding `{"a":1,"b":x}` into a map returns an error and leaves the entry
`a` in it; decoding `x` into a nil pointer to an int returns an error and
leaves the pointer allocated. -/
theorem partial_results_counterexample :
    Unmarshal textFloat []
        [123, 34, 105, 100, 34, 58, 49, 44, 34, 110, 97, 109, 101, 34, 58, 53, 125]
        (.iface (.ptr (.struct [.mk [73, 100] [105, 100] .int,
            .mk [78, 97, 109, 101] [110, 97, 109, 101] .string]))
          (.ptr (.struct [.int 0, .str []]))) =
      (some (Error.at "expected start of string '\"'" 15),
        .iface (.ptr (.struct [.mk [73, 100] [105, 100] .int,
            .mk [78, 97, 109, 101] [110, 97, 109, 101] .string]))
          (.ptr (.struct [.int 1, .str []]))) ∧
    Unmarshal textFloat [] [91, 49, 44, 120, 93]
        (.iface (.ptr (.slice .int)) (.ptr (.slice 2 [.int 7, .int 8]))) =
      (some (Error.at "expected digit" 3),
        .iface (.ptr (.slice .int)) (.ptr (.slice 1 [.int 1, .int 8]))) ∧
    Unmarshal textFloat [] [123, 34, 97, 34, 58, 49, 44, 34, 98, 34, 58, 120, 125]
        (.iface (.ptr (.map .string .int)) (.ptr (.map [([107], .int 7)]))) =
      (some (Error.at "expected digit" 11),
        .iface (.ptr (.map .string .int)) (.ptr (.map [([107], .int 7), ([97], .int 1)]))) ∧
    Unmarshal textFloat [] [120] (.iface (.ptr (.ptr .int)) (.ptr .nilPtr)) =
      (some (Error.at "expected digit" 0),
        .iface (.ptr (.ptr .int)) (.ptr (.ptr (.int 0)))) := by
  refine ⟨rfl, rfl, rfl, rfl⟩

/-- C23, as amended: when `Unmarshal` returns an error and the destination is
of type string, int, int64, int32, float64, bool or interface, or of an
unsupported type, or the value passed is no non-nil pointer, the value passed
holds afterwards exactly what it held before the call. -/
theorem no_partial_scalar_results {F : Type} (fl : FloatLib F) (decoderCache : List Ty)
    (data : List Nat) (v v' : Val F) (e : Error)
    (h : Unmarshal fl decoderCache data v = (some e, v'))
    (hv : ∀ t dest, v = .iface (.ptr t) (.ptr dest) →
      t = .string ∨ t = .int ∨ t = .int64 ∨ t = .int32 ∨ t = .float64 ∨ t = .bool ∨
        t = .iface ∨ t.supported = false) :
    v' = v := by
  unfold Unmarshal at h
  simp only [] at h
  split at h
  · rename_i t dest
    rw [getDecoder_fst] at h
    have hkeep : ∀ dec : DecoderFunc F, compileDecoder fl t = .ok dec →
        (∀ it p e, (dec it p).1 = some e → (dec it p).2.2 = p) →
        v' = .iface (.ptr t) (.ptr dest) := by
      intro dec hc hk
      rw [hc] at h
      simp only [Prod.mk.injEq] at h
      rw [← h.2, hk _ _ e h.1]
    rcases hv t dest rfl with rfl | rfl | rfl | rfl | rfl | rfl | rfl | hns
    · exact hkeep decodeString (by rw [compileDecoder]) decodeString_keeps
    · exact hkeep decodeInt64 (by rw [compileDecoder]) decodeInt64_keeps
    · exact hkeep decodeInt64 (by rw [compileDecoder]) decodeInt64_keeps
    · exact hkeep decodeInt32 (by rw [compileDecoder]) decodeInt32_keeps
    · exact hkeep (decodeFloat64 fl) (by rw [compileDecoder]) (decodeFloat64_keeps fl)
    · exact hkeep decodeBool (by rw [compileDecoder]) decodeBool_keeps
    · exact hkeep (decodeInterface fl) (by rw [compileDecoder]) (decodeInterface_keeps fl)
    · obtain ⟨err, herr⟩ := compileDecoder_fail fl t hns
      rw [herr] at h
      simp only [Prod.mk.injEq] at h
      exact h.2.symm
  · simp only [Prod.mk.injEq] at h
    exact h.2.symm

set_option maxRecDepth 100000 in
theorem no_partial_scalar_results_witness :
    Unmarshal textFloat [] [34, 97] (.iface (.ptr .int) (.ptr (.int 7))) =
      (some (Error.at "expected digit" 0), .iface (.ptr .int) (.ptr (.int 7))) ∧
    (∀ t dest, (.iface (.ptr .int) (.ptr (.int 7)) : Val (List Nat)) =
        .iface (.ptr t) (.ptr dest) →
      t = .string ∨ t = .int ∨ t = .int64 ∨ t = .int32 ∨ t = .float64 ∨ t = .bool ∨
        t = .iface ∨ t.supported = false) ∧
    (.iface (.ptr .int) (.ptr (.int 7)) : Val (List Nat)) = .iface (.ptr .int) (.ptr (.int 7)) ∧
    Unmarshal textFloat [] [34, 97] (.iface (.ptr .string) (.ptr (.str [120]))) =
      (some (Error.at "unexpected end of input" 2), .iface (.ptr .string) (.ptr (.str [120]))) ∧
    Unmarshal textFloat [] [91, 49, 44] (.iface (.ptr .iface) (.ptr (.iface .bool (.bool true)))) =
      (some (Error.at "unexpected end of JSON" 3),
        .iface (.ptr .iface) (.ptr (.iface .bool (.bool true)))) ∧
    Unmarshal textFloat [] [49] (.iface .int (.int 7)) =
      (some (Error.at "Unmarshal(non-pointer or nil)" 0), .iface .int (.int 7)) :=
  have hv : ∀ t dest, (.iface (.ptr .int) (.ptr (.int 7)) : Val (List Nat)) =
        .iface (.ptr t) (.ptr dest) →
      t = .string ∨ t = .int ∨ t = .int64 ∨ t = .int32 ∨ t = .float64 ∨ t = .bool ∨
        t = .iface ∨ t.supported = false := fun t dest ht => by
    simp only [Val.iface.injEq, Ty.ptr.injEq] at ht
    exact Or.inr (Or.inl ht.1.symm)
  ⟨rfl, hv, no_partial_scalar_results textFloat [] [34, 97] _ _ _ rfl hv, rfl, rfl, rfl⟩

/-- C24 (trailing bytes are not validated): when `Unmarshal` succeeds on the
input `b` into a destination of struct, list or map type, it succeeds on `b`
followed by any bytes `tr`, from the same destination, with the same
destination afterwards: the routine stops at the same cursor, inside `b`, and
what it has written is the same. -/
theorem trailing_bytes_ignored {F : Type} (fl : FloatLib F) (decoderCache : List Ty)
    (b tr : List Nat) (t : Ty) (dest v' : Val F)
    (ht : (∃ fields, t = .struct fields) ∨ (∃ elem, t = .slice elem) ∨
      ∃ key elem, t = .map key elem)
    (h : Unmarshal fl decoderCache b (.iface (.ptr t) (.ptr dest)) = (none, v')) :
    Unmarshal fl decoderCache (b ++ tr) (.iface (.ptr t) (.ptr dest)) = (none, v') ∧
    ∃ dec it' dest', compileDecoder fl t = .ok dec ∧
      dec (NewIterator b) dest = (none, it', dest') ∧ it'.head ≤ b.length ∧
      dec (NewIterator (b ++ tr)) dest = (none, it'.extend tr, dest') := by
  have hnew : NewIterator (b ++ tr) = (NewIterator b).extend tr := by
    simp [NewIterator, Iterator.extend]
  have hb : (NewIterator b).InBounds := ⟨rfl, Nat.zero_le _⟩
  simp only [Unmarshal, getDecoder_fst] at h ⊢
  cases hc : compileDecoder fl t with
  | error err =>
    rw [hc] at h
    cases h
  | ok dec =>
    rw [hc] at h
    simp only [] at h ⊢
    cases hd : dec (NewIterator b) dest with
    | mk a r =>
      cases r with
      | mk it' dest' =>
        rw [hd] at h
        simp only [Prod.mk.injEq] at h
        obtain ⟨ha, hv⟩ := h
        subst ha
        have s := compileDecoder_closed fl t dec ht hc _ _ _ _ hb hd
        have hext := s.2 tr (Or.inl rfl)
        rw [← hnew] at hext
        refine ⟨?_, dec, it', dest', rfl, hd, s.1.2.2.2, hext⟩
        rw [hext, ← hv]

set_option maxRecDepth 100000 in
theorem trailing_bytes_ignored_witness :
    ((∃ fields, Ty.struct [.mk [65] [97] .int] = .struct fields) ∨
      (∃ elem, Ty.struct [.mk [65] [97] .int] = .slice elem) ∨
      ∃ key elem, Ty.struct [.mk [65] [97] .int] = .map key elem) ∧
    Unmarshal textFloat [] [123, 34, 97, 34, 58, 49, 125]
        (.iface (.ptr (.struct [.mk [65] [97] .int])) (.ptr (.struct [.int 0]))) =
      (none, .iface (.ptr (.struct [.mk [65] [97] .int])) (.ptr (.struct [.int 1]))) ∧
    (Unmarshal textFloat [] ([123, 34, 97, 34, 58, 49, 125] ++ [125, 120, 0])
        (.iface (.ptr (.struct [.mk [65] [97] .int])) (.ptr (.struct [.int 0]))) =
      (none, .iface (.ptr (.struct [.mk [65] [97] .int])) (.ptr (.struct [.int 1]))) ∧
      ∃ dec it' dest', compileDecoder textFloat (.struct [.mk [65] [97] .int]) = .ok dec ∧
        dec (NewIterator [123, 34, 97, 34, 58, 49, 125]) (.struct [.int 0]) =
          (none, it', dest') ∧
        it'.head ≤ [123, 34, 97, 34, 58, 49, 125].length ∧
        dec (NewIterator ([123, 34, 97, 34, 58, 49, 125] ++ [125, 120, 0])) (.struct [.int 0]) =
          (none, it'.extend [125, 120, 0], dest')) ∧
    Unmarshal textFloat [] [91, 49, 44, 50, 93, 51, 93]
        (.iface (.ptr (.slice .int)) (.ptr (.slice 0 [.int 0, .int 0]))) =
      (none, .iface (.ptr (.slice .int)) (.ptr (.slice 2 [.int 1, .int 2]))) ∧
    Unmarshal textFloat [] [49, 50] (.iface (.ptr .int) (.ptr (.int 0))) =
      (none, .iface (.ptr .int) (.ptr (.int 12))) :=
  ⟨Or.inl ⟨_, rfl⟩, rfl,
    trailing_bytes_ignored textFloat [] [123, 34, 97, 34, 58, 49, 125] [125, 120, 0]
      (.struct [.mk [65] [97] .int]) (.struct [.int 0]) _ (Or.inl ⟨_, rfl⟩) rfl,
    rfl, rfl⟩

/-- C31 (`skipWhiteSpace` equals the naive scan): from a cursor inside the
buffer, `skipWhiteSpace` moves the cursor by what `naiveSkipWhitespace`
returns for the bytes from the cursor on; every byte it passes is a space, a
tab, a line feed or a carriage return, and the byte it stops on, if there is
one, is none of these and is what `char` returns; at the end of the buffer,
as on an empty or all-whitespace input, `char` returns 0. -/
theorem skipWhiteSpace_naive (it : Iterator) (h : it.InBounds) :
    it.skipWhiteSpace = { it with head := it.head + naiveSkipWhitespace (it.data.drop it.head) } ∧
    it.skipWhiteSpace.head ≤ it.dataLen ∧
    (∀ i, it.head ≤ i → i < it.skipWhiteSpace.head →
      (it.byteAt i = 32 ∨ it.byteAt i = 9 ∨ it.byteAt i = 10 ∨ it.byteAt i = 13)) ∧
    (it.skipWhiteSpace.head < it.dataLen →
      ¬ (it.byteAt it.skipWhiteSpace.head = 32 ∨ it.byteAt it.skipWhiteSpace.head = 9 ∨
        it.byteAt it.skipWhiteSpace.head = 10 ∨ it.byteAt it.skipWhiteSpace.head = 13) ∧
      it.skipWhiteSpace.char = it.byteAt it.skipWhiteSpace.head) ∧
    (it.skipWhiteSpace.head = it.dataLen → it.skipWhiteSpace.char = 0) ∧
    ((∀ c ∈ it.data.drop it.head, c = 32 ∨ c = 9 ∨ c = 10 ∨ c = 13) →
      it.skipWhiteSpace.head = it.dataLen ∧ it.skipWhiteSpace.char = 0) := by
  have hwf : it.WF := h.1
  have hrun := skipWhiteSpace_run it hwf
  have hle : it.head + it.wsRun ≤ it.dataLen := Iterator.wsRun_le it h
  have hend : it.skipWhiteSpace.head = it.dataLen → it.skipWhiteSpace.char = 0 := by
    intro he
    unfold Iterator.char
    rw [if_pos (by rw [he]; exact le_refl _)]
  refine ⟨?_, ?_, ?_, ?_, hend, ?_⟩
  · rw [hrun, naiveSkipWhitespace_eq]
    rfl
  · rw [hrun]
    exact hle
  · intro i h1 h2
    rw [hrun] at h2
    have hk : i - it.head < it.wsRun := by
      have : i < it.head + it.wsRun := h2
      omega
    have := wsRun_bytes it (i - it.head) hk
    rw [show it.head + (i - it.head) = i by omega] at this
    exact (isWhiteSpace_iff _).mp this
  · intro hlt
    rw [hrun] at hlt ⊢
    have hlt2 : it.head + it.wsRun < it.dataLen := hlt
    have hs := wsRun_stop it hwf hlt2
    refine ⟨?_, ?_⟩
    · intro hc
      have := (isWhiteSpace_iff _).mpr hc
      rw [hs] at this
      cases this
    · unfold Iterator.char
      rw [if_neg (by simp only [ge_iff_le, not_le]; exact hlt2)]
      rfl
  · intro hall
    have he : it.skipWhiteSpace.head = it.dataLen := by
      rw [hrun]
      exact wsRun_all it hwf h.2 (fun c hc => (isWhiteSpace_iff c).mpr (hall c hc))
    exact ⟨he, hend he⟩

theorem skipWhiteSpace_naive_witness :
    (NewIterator [32, 10, 9, 13, 32, 91]).InBounds ∧
    (NewIterator [32, 10, 9, 13, 32, 91]).skipWhiteSpace = ⟨5, [32, 10, 9, 13, 32, 91], 6⟩ ∧
    naiveSkipWhitespace [32, 10, 9, 13, 32, 91] = 5 ∧
    (NewIterator [32, 10, 9, 13, 32, 91]).skipWhiteSpace.char = 91 ∧
    (NewIterator []).skipWhiteSpace.char = 0 ∧
    (NewIterator [32, 32, 32, 32, 32]).skipWhiteSpace.char = 0 ∧
    naiveSkipWhitespace [32, 32, 32, 32, 32] = 5 ∧
    (NewIterator [32, 10, 9, 13, 32, 91]).skipWhiteSpace =
      { NewIterator [32, 10, 9, 13, 32, 91] with
        head := (NewIterator [32, 10, 9, 13, 32, 91]).head +
          naiveSkipWhitespace ((NewIterator [32, 10, 9, 13, 32, 91]).data.drop
            (NewIterator [32, 10, 9, 13, 32, 91]).head) } :=
  ⟨⟨rfl, Nat.zero_le _⟩, rfl, rfl, rfl, rfl, rfl, rfl,
    (skipWhiteSpace_naive (NewIterator [32, 10, 9, 13, 32, 91]) ⟨rfl, Nat.zero_le _⟩).1⟩

/-- C34 (int32 decode truncates silently): when `ReadInt64` accepts the
literal at the cursor with the result `n`, `decodeInt32` returns no error,
leaves the cursor where `ReadInt64` leaves it and stores `int32(n)`: the
integer of the signed 32-bit range that differs from `n` by a multiple of
`2^32`, which is `n` itself exactly when `n` lies in that range. `Unmarshal`
into a pointer to an `int32` does the same, whatever the cache holds. -/
theorem decodeInt32_truncates {F : Type} (it it' : Iterator) (n : Int) (p : Val F)
    (h : it.ReadInt64 = (.ok n, it')) :
    decodeInt32 it p = (none, it', .int (wrap32 n)) ∧
    -2147483648 ≤ wrap32 n ∧ wrap32 n ≤ 2147483647 ∧
    (wrap32 n - n) % 4294967296 = 0 ∧
    (wrap32 n = n ↔ -2147483648 ≤ n ∧ n ≤ 2147483647) ∧
    (∀ (fl : FloatLib F) (decoderCache : List Ty), it = NewIterator it.data →
      Unmarshal fl decoderCache it.data (.iface (.ptr .int32) (.ptr p)) =
        (none, .iface (.ptr .int32) (.ptr (.int (wrap32 n))))) := by
  have hd : decodeInt32 it p = (none, it', .int (wrap32 n)) := by
    unfold decodeInt32
    rw [h]
  refine ⟨hd, ?_, ?_, ?_, ?_, ?_⟩
  · unfold wrap32; omega
  · unfold wrap32; omega
  · unfold wrap32; omega
  · unfold wrap32; constructor <;> intro hh <;> omega
  · intro fl decoderCache hit
    unfold Unmarshal
    simp only []
    rw [getDecoder_fst, compileDecoder]
    simp only []
    rw [← hit, hd]

set_option maxRecDepth 100000 in
theorem decodeInt32_truncates_witness :
    (NewIterator [50, 49, 52, 55, 52, 56, 51, 54, 52, 56]).ReadInt64 =
      (.ok 2147483648, ⟨10, [50, 49, 52, 55, 52, 56, 51, 54, 52, 56], 10⟩) ∧
    decodeInt32 (NewIterator [50, 49, 52, 55, 52, 56, 51, 54, 52, 56]) (.int 0 : Val (List Nat)) =
      (none, ⟨10, [50, 49, 52, 55, 52, 56, 51, 54, 52, 56], 10⟩, .int (-2147483648)) ∧
    decodeInt32 (NewIterator [52, 50, 57, 52, 57, 54, 55, 50, 57, 55]) (.int 0 : Val (List Nat)) =
      (none, ⟨10, [52, 50, 57, 52, 57, 54, 55, 50, 57, 55], 10⟩, .int 1) ∧
    decodeInt32 (NewIterator [45, 50, 49, 52, 55, 52, 56, 51, 54, 52, 57])
        (.int 0 : Val (List Nat)) =
      (none, ⟨11, [45, 50, 49, 52, 55, 52, 56, 51, 54, 52, 57], 11⟩, .int 2147483647) ∧
    decodeInt32 (NewIterator [45, 55]) (.int 0 : Val (List Nat)) =
      (none, ⟨2, [45, 55], 2⟩, .int (-7)) ∧
    Unmarshal textFloat [] [50, 49, 52, 55, 52, 56, 51, 54, 52, 56]
        (.iface (.ptr .int32) (.ptr (.int 0))) =
      (none, .iface (.ptr .int32) (.ptr (.int (-2147483648)))) ∧
    decodeInt32 (NewIterator [50, 49, 52, 55, 52, 56, 51, 54, 52, 56]) (.int 0 : Val (List Nat)) =
      (none, ⟨10, [50, 49, 52, 55, 52, 56, 51, 54, 52, 56], 10⟩, .int (wrap32 2147483648)) :=
  ⟨rfl, rfl, rfl, rfl, rfl, rfl,
    (decodeInt32_truncates (NewIterator [50, 49, 52, 55, 52, 56, 51, 54, 52, 56])
      ⟨10, [50, 49, 52, 55, 52, 56, 51, 54, 52, 56], 10⟩ 2147483648 (.int 0) rfl).1⟩

/-- C33 (surrogate escapes are not combined): in a well-formed string literal,
an escape `\uXXXX` whose code point lies in `D800`-`DFFF` gives the three bytes
`EF BF BD` in the result of `ReadString`, between the bytes of what stands
before it and of what stands after it, whatever these are; two such escapes
in a row give six bytes. -/
theorem surrogates_not_combined (it : Iterator) (hwf : it.WF) (ws tail : List Nat)
    (pre post : List StrItem) (a b c d : Nat)
    (h : it.rest = ws ++ 34 :: (strText (pre ++ StrItem.uni a b c d :: post) ++ 34 :: tail))
    (hws : ∀ x ∈ ws, isWhiteSpace x = true)
    (hpre : ∀ i ∈ pre, i.valid = true) (hpost : ∀ i ∈ post, i.valid = true)
    (hu : isHex a = true ∧ isHex b = true ∧ isHex c = true ∧ isHex d = true)
    (hs : 55296 ≤ codePoint a b c d ∧ codePoint a b c d ≤ 57343) :
    it.ReadString = (.ok (strValue pre ++ [239, 191, 189] ++ strValue post),
      { it with head := it.head + ws.length + 1 +
        ((strText pre).length + 6 + (strText post).length) + 1 }) ∧
    (∀ a2 b2 c2 d2 post2, post = StrItem.uni a2 b2 c2 d2 :: post2 →
      55296 ≤ codePoint a2 b2 c2 d2 → codePoint a2 b2 c2 d2 ≤ 57343 →
      it.ReadString.1 = .ok (strValue pre ++ [239, 191, 189, 239, 191, 189] ++ strValue post2)) := by
  have hv : ∀ i ∈ pre ++ StrItem.uni a b c d :: post, i.valid = true := by
    intro i hi
    rcases List.mem_append.mp hi with hi | hi
    · exact hpre i hi
    · rcases List.mem_cons.mp hi with hi | hi
      · rw [hi]
        simp [StrItem.valid, hu.1, hu.2.1, hu.2.2.1, hu.2.2.2]
      · exact hpost i hi
  have hr := Iterator.ReadString_items it hwf ws _ tail h hws hv
  have hval : strValue (pre ++ StrItem.uni a b c d :: post) =
      strValue pre ++ [239, 191, 189] ++ strValue post := by
    simp [strValue, StrItem.value, isSurrogate, hs.1, hs.2]
  have hlen : (strText (pre ++ StrItem.uni a b c d :: post)).length =
      (strText pre).length + 6 + (strText post).length := by
    simp [strText, StrItem.text]
    omega
  rw [hval, hlen] at hr
  refine ⟨hr, ?_⟩
  intro a2 b2 c2 d2 post2 hp h1 h2
  rw [hr, hp]
  simp [strValue, StrItem.value, isSurrogate, h1, h2]

set_option maxRecDepth 100000 in
theorem surrogates_not_combined_witness :
    (NewIterator [34, 92, 117, 68, 56, 51, 68, 92, 117, 68, 69, 48, 48, 34]).ReadString =
      (.ok [239, 191, 189, 239, 191, 189],
        ⟨14, [34, 92, 117, 68, 56, 51, 68, 92, 117, 68, 69, 48, 48, 34], 14⟩) ∧
    codePoint 68 56 51 68 = 55357 ∧ codePoint 68 69 48 48 = 56832 ∧
    utf8 128512 = [240, 159, 152, 128] ∧
    (NewIterator [34, 92, 117, 68, 56, 51, 68, 92, 117, 68, 69, 48, 48, 34]).ReadString.1 =
      .ok (strValue [] ++ [239, 191, 189, 239, 191, 189] ++ strValue []) :=
  ⟨rfl, rfl, rfl, rfl,
    (surrogates_not_combined (NewIterator [34, 92, 117, 68, 56, 51, 68, 92, 117, 68, 69, 48, 48, 34])
      rfl [] [] [] [StrItem.uni 68 69 48 48] 68 56 51 68 rfl (fun _ hx => (by cases hx))
      (fun _ hx => (by cases hx))
      (fun i hi => by
        rcases List.mem_singleton.mp hi with rfl
        decide)
      (by decide) (by decide)).2 68 69 48 48 [] rfl (by decide) (by decide)⟩

/-- C32 (the fast path of `ReadString` is an optimisation): when the first
byte behind the whitespace is a quote, `ReadString` and the slow path
`readStringSlow`, started right behind that quote with nothing scanned, leave
the same cursor and return the same string or an error each, at that cursor.
The two results are equal, but for a buffer that ends before a closing quote
or a backslash, where the error texts differ (`unexpected end of input`
against `unexpected end of input in string`). When the bytes up to the next
quote hold no backslash and no control byte, the result is these bytes. -/
theorem ReadString_fast_path (it : Iterator) (hwf : it.WF) (body : List Nat)
    (h : it.significant = 34 :: body) :
    SameOutcome it.ReadString
      (Iterator.readStringSlow { it with head := it.head + it.wsRun + 1 }
        (it.head + it.wsRun + 1)) ∧
    (it.ReadString =
        Iterator.readStringSlow { it with head := it.head + it.wsRun + 1 }
          (it.head + it.wsRun + 1) ∨
      (it.ReadString = (.error (Error.at "unexpected end of input" it.dataLen),
          { it with head := it.dataLen }) ∧
        Iterator.readStringSlow { it with head := it.head + it.wsRun + 1 }
            (it.head + it.wsRun + 1) =
          (.error (Error.at "unexpected end of input in string" it.dataLen),
            { it with head := it.dataLen }))) ∧
    (∀ raw tail, body = raw ++ 34 :: tail → (∀ c ∈ raw, 32 ≤ c ∧ c ≠ 34 ∧ c ≠ 92) →
      it.ReadString = (.ok raw, { it with head := it.head + it.wsRun + 1 + raw.length + 1 })) := by
  have hsk := skipWhiteSpace_run it hwf
  have hsig := skipWhiteSpace_significant it hwf
  rw [hsk, h] at hsig
  have hwf1 : Iterator.WF { it with head := it.head + it.wsRun } := hwf
  have hlt : it.head + it.wsRun < it.dataLen := Iterator.lt_of_rest_cons _ hwf1 hsig
  have hq : it.byteAt (it.head + it.wsRun) = 34 := Iterator.byteAt_of_rest_cons _ hwf1 hsig
  have hR : it.ReadString =
      Iterator.readStringLoop (it.head + it.wsRun + 1) (it.dataLen - (it.head + it.wsRun + 1))
        { it with head := it.head + it.wsRun + 1 } := by
    unfold Iterator.ReadString
    simp only []
    rw [hsk]
    simp only []
    rw [if_neg (by simp only [ge_iff_le, not_le]; exact hlt),
      if_neg (by rw [ne_eq, not_not]; exact hq)]
  have hS : Iterator.readStringSlow { it with head := it.head + it.wsRun + 1 }
        (it.head + it.wsRun + 1) =
      Iterator.readStringSlowLoop (it.dataLen - (it.head + it.wsRun + 1))
        { it with head := it.head + it.wsRun + 1 }
        (slice it.data (it.head + it.wsRun + 1) (it.head + it.wsRun + 1)) := by
    unfold Iterator.readStringSlow
    simp only []
    rw [← hwf]
  have hcmp := Iterator.readStringLoop_slow (it.head + it.wsRun + 1)
    (it.dataLen - (it.head + it.wsRun + 1)) { it with head := it.head + it.wsRun + 1 }
    hwf (le_refl _) hlt rfl
  simp only [] at hcmp
  rw [← hR, ← hS] at hcmp
  have hib : it.InBounds := ⟨hwf, by omega⟩
  refine ⟨?_, hcmp, ?_⟩
  · rcases hcmp with heq | ⟨h1, h2⟩
    · refine ⟨by rw [heq], ?_⟩
      rw [← heq]
      cases hr : it.ReadString.1 with
      | ok str => exact Or.inl ⟨str, rfl, rfl⟩
      | error e =>
        obtain ⟨msg, hm⟩ := (Iterator.ReadString_frame it hib).2 e hr
        exact Or.inr ⟨msg, msg, by rw [hm], by rw [hm]⟩
    · rw [h1, h2]
      exact ⟨rfl, Or.inr ⟨_, _, rfl, rfl⟩⟩
  · intro raw tail hb hraw
    have hrest : it.rest = it.rest.takeWhile isWhiteSpace ++
        34 :: (strText (raw.map StrItem.raw) ++ 34 :: tail) := by
      rw [strText_raw, ← hb, ← h]
      exact Iterator.rest_split it
    have hr := Iterator.ReadString_items it hwf _ (raw.map StrItem.raw) tail hrest
      (takeWhile_all isWhiteSpace it.rest)
      (by
        intro i hi
        obtain ⟨c, hc, rfl⟩ := List.mem_map.mp hi
        simp only [StrItem.valid, decide_eq_true_eq]
        exact hraw c hc)
    rw [strText_raw, strValue_raw] at hr
    exact hr

set_option maxRecDepth 100000 in
theorem ReadString_fast_path_witness :
    (NewIterator [32, 34, 97, 92, 110, 98, 34, 44]).WF ∧
    (NewIterator [32, 34, 97, 92, 110, 98, 34, 44]).significant = 34 :: [97, 92, 110, 98, 34, 44] ∧
    (NewIterator [32, 34, 97, 92, 110, 98, 34, 44]).ReadString =
      (.ok [97, 10, 98], ⟨7, [32, 34, 97, 92, 110, 98, 34, 44], 8⟩) ∧
    Iterator.readStringSlow ⟨2, [32, 34, 97, 92, 110, 98, 34, 44], 8⟩ 2 =
      (.ok [97, 10, 98], ⟨7, [32, 34, 97, 92, 110, 98, 34, 44], 8⟩) ∧
    (NewIterator [34, 97, 98]).ReadString =
      (.error (Error.at "unexpected end of input" 3), ⟨3, [34, 97, 98], 3⟩) ∧
    Iterator.readStringSlow ⟨1, [34, 97, 98], 3⟩ 1 =
      (.error (Error.at "unexpected end of input in string" 3), ⟨3, [34, 97, 98], 3⟩) ∧
    (NewIterator [34, 97, 9, 98, 34]).ReadString =
      (.error (Error.at "control character in string" 2), ⟨2, [34, 97, 9, 98, 34], 5⟩) ∧
    Iterator.readStringSlow ⟨1, [34, 97, 9, 98, 34], 5⟩ 1 =
      (.error (Error.at "control character in string" 2), ⟨2, [34, 97, 9, 98, 34], 5⟩) ∧
    (NewIterator [34, 97, 98, 34]).ReadString = (.ok [97, 98], ⟨4, [34, 97, 98, 34], 4⟩) ∧
    SameOutcome (NewIterator [32, 34, 97, 92, 110, 98, 34, 44]).ReadString
      (Iterator.readStringSlow
        { NewIterator [32, 34, 97, 92, 110, 98, 34, 44] with
          head := (NewIterator [32, 34, 97, 92, 110, 98, 34, 44]).head +
            (NewIterator [32, 34, 97, 92, 110, 98, 34, 44]).wsRun + 1 }
        ((NewIterator [32, 34, 97, 92, 110, 98, 34, 44]).head +
          (NewIterator [32, 34, 97, 92, 110, 98, 34, 44]).wsRun + 1)) :=
  ⟨rfl, rfl, rfl, rfl, rfl, rfl, rfl, rfl, rfl,
    (ReadString_fast_path (NewIterator [32, 34, 97, 92, 110, 98, 34, 44]) rfl
      [97, 92, 110, 98, 34, 44] rfl).1⟩

/-- C35, the claim fails for self-referential types: on
`type Node struct { Next *Node; Value int }` a call of `compileDecoder` on
`Node` calls it on `*Node`, which calls it on `Node` again, and so on; the
cache is read and written by `getDecoder` only, outside the recursion. So for
no bound on the depth of the calls does `compileDecoder`, `compileEncoder`,
`getDecoder` or `getEncoder` return on `Node` or on `*Node`, and the same holds
for `type Tree struct { Kids []Tree }` and `[]Tree`. -/
theorem compile_self_referential_counterexample :
    (∀ depth : Nat,
      ByHandle.compileDecoder textFloat exampleTypes exampleZero depth 0 = none ∧
      ByHandle.compileDecoder textFloat exampleTypes exampleZero depth 1 = none ∧
      ByHandle.compileDecoder textFloat exampleTypes exampleZero depth 2 = none ∧
      ByHandle.compileDecoder textFloat exampleTypes exampleZero depth 3 = none) ∧
    (∀ depth : Nat,
      ByHandle.compileEncoder textFloat exampleTypes depth 0 = none ∧
      ByHandle.compileEncoder textFloat exampleTypes depth 1 = none ∧
      ByHandle.compileEncoder textFloat exampleTypes depth 2 = none ∧
      ByHandle.compileEncoder textFloat exampleTypes depth 3 = none) ∧
    (∀ depth : Nat,
      ByHandle.getDecoder textFloat exampleTypes exampleZero [] depth 0 = none ∧
      ByHandle.getDecoder textFloat exampleTypes exampleZero [] depth 2 = none ∧
      ByHandle.getEncoder textFloat exampleTypes [] depth 0 = none ∧
      ByHandle.getEncoder textFloat exampleTypes [] depth 2 = none) := by
  refine ⟨ByHandle.compileDecoder_cyclic textFloat exampleZero,
    ByHandle.compileEncoder_cyclic textFloat, ?_⟩
  intro depth
  obtain ⟨d0, _, d2, _⟩ := ByHandle.compileDecoder_cyclic textFloat exampleZero depth
  obtain ⟨e0, _, e2, _⟩ := ByHandle.compileEncoder_cyclic textFloat depth
  refine ⟨?_, ?_, ?_, ?_⟩
  · simp only [ByHandle.getDecoder, List.lookup, d0]
  · simp only [ByHandle.getDecoder, List.lookup, d2]
  · simp only [ByHandle.getEncoder, List.lookup, e0]
  · simp only [ByHandle.getEncoder, List.lookup, e2]

/-- C35, as amended: when the types can be ranked so that, from the type `t`
down, every type the compiler is called on from a call on a type has a smaller
rank than that type (no type contains itself), `compileDecoder` and
`compileEncoder` return on `t`, a routine or an error, with the nested calls
no deeper than the rank of `t` plus one, and return the same for every larger
bound; the recursion does not read the cache, and `getDecoder` and
`getEncoder` return on `t` whatever the cache holds. On a self-referential
type, one that the calls of the compiler lead back to, neither compiler
returns a routine, whatever the bound: it returns an error or it does not
return. -/
theorem compile_terminates {F : Type} (fl : FloatLib F) (types : Nat → Shape)
    (zero : Nat → Val F) (t : Nat) :
    (∀ rank : Nat → Nat,
      (∀ s, rank s ≤ rank t → ∀ c ∈ (types s).calls types, rank c < rank s) →
      (∃ r, ∀ depth, rank t < depth → ByHandle.compileDecoder fl types zero depth t = some r) ∧
      (∃ r, ∀ depth, rank t < depth → ByHandle.compileEncoder fl types depth t = some r) ∧
      (∀ decoderCache, ∃ r, ∀ depth, rank t < depth →
        ByHandle.getDecoder fl types zero decoderCache depth t = some r) ∧
      (∀ encoderCache, ∃ r, ∀ depth, rank t < depth →
        ByHandle.getEncoder fl types encoderCache depth t = some r)) ∧
    (SelfReferential types t →
      ∀ depth,
        (∀ dec, ByHandle.compileDecoder fl types zero depth t ≠ some (.ok dec)) ∧
        (∀ enc, ByHandle.compileEncoder fl types depth t ≠ some (.ok enc))) := by
  refine ⟨?_, fun hs depth => ⟨ByHandle.compileDecoder_self fl types zero t hs depth,
    ByHandle.compileEncoder_self fl types t hs depth⟩⟩
  intro rank hr
  have hd : ∃ r, ∀ depth, rank t < depth →
      ByHandle.compileDecoder fl types zero depth t = some r := by
    have h0 := ByHandle.compileDecoder_depth fl types zero rank (rank t) hr (rank t) t rfl
      (le_refl _) (rank t + 1) (rank t + 1) (Nat.lt_succ_self _) (Nat.lt_succ_self _)
    obtain ⟨r, hr0⟩ := Option.isSome_iff_exists.mp h0.2
    refine ⟨r, fun depth hdepth => ?_⟩
    rw [← hr0]
    exact (ByHandle.compileDecoder_depth fl types zero rank (rank t) hr (rank t) t rfl
      (le_refl _) depth (rank t + 1) hdepth (Nat.lt_succ_self _)).1
  have he : ∃ r, ∀ depth, rank t < depth →
      ByHandle.compileEncoder fl types depth t = some r := by
    have h0 := ByHandle.compileEncoder_depth fl types rank (rank t) hr (rank t) t rfl
      (le_refl _) (rank t + 1) (rank t + 1) (Nat.lt_succ_self _) (Nat.lt_succ_self _)
    obtain ⟨r, hr0⟩ := Option.isSome_iff_exists.mp h0.2
    refine ⟨r, fun depth hdepth => ?_⟩
    rw [← hr0]
    exact (ByHandle.compileEncoder_depth fl types rank (rank t) hr (rank t) t rfl
      (le_refl _) depth (rank t + 1) hdepth (Nat.lt_succ_self _)).1
  refine ⟨hd, he, ?_, ?_⟩
  · intro decoderCache
    obtain ⟨r, hr0⟩ := hd
    cases hl : decoderCache.lookup t with
    | some f =>
      refine ⟨(.ok f, decoderCache), fun depth _ => ?_⟩
      simp only [ByHandle.getDecoder, hl]
    | none =>
      cases r with
      | error err =>
        refine ⟨(.error err, decoderCache), fun depth hdepth => ?_⟩
        simp only [ByHandle.getDecoder, hl, hr0 depth hdepth]
      | ok dec =>
        refine ⟨(.ok dec, (t, dec) :: decoderCache), fun depth hdepth => ?_⟩
        simp only [ByHandle.getDecoder, hl, hr0 depth hdepth]
  · intro encoderCache
    obtain ⟨r, hr0⟩ := he
    cases hl : encoderCache.lookup t with
    | some f =>
      refine ⟨(.ok f, encoderCache), fun depth _ => ?_⟩
      simp only [ByHandle.getEncoder, hl]
    | none =>
      cases r with
      | error err =>
        refine ⟨(.error err, encoderCache), fun depth hdepth => ?_⟩
        simp only [ByHandle.getEncoder, hl, hr0 depth hdepth]
      | ok enc =>
        refine ⟨(.ok enc, (t, enc) :: encoderCache), fun depth hdepth => ?_⟩
        simp only [ByHandle.getEncoder, hl, hr0 depth hdepth]

set_option maxRecDepth 100000 in
theorem compile_terminates_witness :
    (∀ s, exampleRank s ≤ exampleRank 7 →
      ∀ c ∈ (exampleTypes s).calls exampleTypes, exampleRank c < exampleRank s) ∧
    (ByHandle.compileDecoder textFloat exampleTypes exampleZero 3 7).map
        (fun r => r.map (fun dec => dec
          (NewIterator [123, 34, 78, 97, 109, 101, 34, 58, 34, 97, 34, 44, 34, 84, 97, 103, 115,
            34, 58, 91, 34, 120, 34, 93, 44, 34, 65, 103, 101, 34, 58, 51, 125])
          (exampleZero 7))) =
      some (.ok (none,
        ⟨33, [123, 34, 78, 97, 109, 101, 34, 58, 34, 97, 34, 44, 34, 84, 97, 103, 115,
            34, 58, 91, 34, 120, 34, 93, 44, 34, 65, 103, 101, 34, 58, 51, 125], 33⟩,
        .struct [.str [97], .slice 1 [.str [120], .str [], .str [], .str [], .str [], .str [],
          .str [], .str []], .int 3])) ∧
    (ByHandle.compileEncoder textFloat exampleTypes 3 7).map
        (fun r => r.bind (fun enc => (enc GetWriter
          (.struct [.str [97], .slice 1 [.str [120]], .int 3])).map (fun w => w.Buffer))) =
      some (.ok [123, 34, 78, 97, 109, 101, 34, 58, 34, 97, 34, 44, 34, 84, 97, 103, 115,
            34, 58, 91, 34, 120, 34, 93, 44, 34, 65, 103, 101, 34, 58, 51, 125]) ∧
    (∃ r, ∀ depth, exampleRank 7 < depth →
      ByHandle.compileDecoder textFloat exampleTypes exampleZero depth 7 = some r) ∧
    SelfReferential exampleTypes 8 ∧
    (ByHandle.compileDecoder textFloat exampleTypes exampleZero 2 8).map
        (fun r => r.map (fun _ => ())) =
      some (.error (Error.other "fastjson: unsupported type: chan")) ∧
    (ByHandle.compileEncoder textFloat exampleTypes 2 8).map
        (fun r => r.map (fun _ => ())) =
      some (.error (Error.other "fastjson: unsupported type: chan")) ∧
    (∀ depth,
      (∀ dec, ByHandle.compileDecoder textFloat exampleTypes exampleZero depth 8 ≠
        some (.ok dec)) ∧
      (∀ enc, ByHandle.compileEncoder textFloat exampleTypes depth 8 ≠ some (.ok enc))) :=
  have hr : ∀ s, exampleRank s ≤ exampleRank 7 →
      ∀ c ∈ (exampleTypes s).calls exampleTypes, exampleRank c < exampleRank s := by
    intro s hs c hc
    match s, hs, hc with
    | 0, hs, _ => exact absurd hs (by decide)
    | 1, hs, _ => exact absurd hs (by decide)
    | 2, hs, _ => exact absurd hs (by decide)
    | 3, hs, _ => exact absurd hs (by decide)
    | 4, _, hc => cases hc
    | 5, _, hc => cases hc
    | 6, _, hc =>
      rcases List.mem_singleton.mp hc with rfl
      decide
    | 7, _, hc =>
      have hc2 : c ∈ [5, 6, 4] := hc
      simp only [List.mem_cons, List.mem_singleton, List.not_mem_nil, or_false] at hc2
      rcases hc2 with rfl | rfl | rfl <;> decide
    | n + 8, hs, _ => exact absurd hs (by show ¬ (3 ≤ 2); decide)
  have hself : SelfReferential exampleTypes 8 :=
    Relation.TransGen.tail
      (Relation.TransGen.single (show Calls exampleTypes 8 10 by unfold Calls; decide))
      (show Calls exampleTypes 10 8 by unfold Calls; decide)
  ⟨hr, rfl, rfl,
    ((compile_terminates textFloat exampleTypes exampleZero 7).1 exampleRank hr).1,
    hself, rfl, rfl,
    (compile_terminates textFloat exampleTypes exampleZero 8).2 hself⟩

set_option maxRecDepth 100000 in
/-- C12, the claim fails for a map whose key type is a defined type of the
kind of `string` (`type keyK string`): `compileMapDecoder` tests the kind of
the key type only and returns a routine, and that routine hands the key it has
read, a `string`, to `SetMapIndex`, which panics because a `string` is not
assignable to `keyK`. So `{"a":1}` decoded into a `map[keyK]int` ends in
that panic on the first entry, with the map allocated and empty; `{}` is
decoded, the same text decodes into a `map[string]int`, and the encoder writes
a `map[keyK]int` as `{"a":1}`. -/
theorem map_decode_defined_key :
    (∃ dec, compileDecoder textFloat (.map (.definedString "keyK") .int) = .ok dec) ∧
    Unmarshal textFloat [] [123, 34, 97, 34, 58, 49, 125]
        (.iface (.ptr (.map (.definedString "keyK") .int)) (.ptr .nilMap)) =
      (some notAssignable, .iface (.ptr (.map (.definedString "keyK") .int)) (.ptr (.map []))) ∧
    Unmarshal textFloat [] [123, 125]
        (.iface (.ptr (.map (.definedString "keyK") .int)) (.ptr .nilMap)) =
      (none, .iface (.ptr (.map (.definedString "keyK") .int)) (.ptr (.map []))) ∧
    Unmarshal textFloat [] [123, 34, 97, 34, 58, 49, 125]
        (.iface (.ptr (.map .string .int)) (.ptr .nilMap)) =
      (none, .iface (.ptr (.map .string .int)) (.ptr (.map [([97], .int 1)]))) ∧
    Marshal textFloat [] (.iface (.map (.definedString "keyK") .int) (.map [([97], .int 1)])) =
      .ok [123, 34, 97, 34, 58, 49, 125] := by
  refine ⟨⟨_, rfl⟩, rfl, rfl, rfl, rfl⟩

end Fastjson
